import Mathlib

/-!
# A persistent (copy-on-write) B+Tree: embedding of `bptree`

The Go package keeps its nodes on the garbage-collected heap and compares
them by pointer.  The embedding keeps that heap explicit:

* a `Heap` is the list of all node structs allocated so far, a pointer is an
  index into it, allocation appends, a write through a pointer is `List.set`;
* a slice is a `List` together with the capacity given to `make` by
  `mkLeaf`/`mkNode` (field `cap`; `cap(vals)` is `cap` for a leaf and
  `cap + 1` for an interior node);
* a Go panic (failed type assertion, index out of range, `lgr.Panic`, a failed
  `assert`) is the result `none`.  A slice expression that reaches past
  `len` is treated as a panic as well, and so is an `append` that would make
  a slice of a node longer than its capacity: Go would move the slice to a
  larger array, and `order()`, `isToBig()` and `halfFullSize()`, which read
  the capacity, would change their answers.  `Put_spec` and `Del_spec` show
  that no panic is met on a tree built by the package;
* the two loops that follow child pointers (`findLeaf`, `findLeftMostLeaf`)
  take the number of allocated nodes as fuel: a walk that visits more nodes
  than exist is a walk round a cycle, which in Go does not return;
* the loop of `validTree`, which walks the whole tree through a growing slice
  of nodes, takes its fuel as an argument; what is shown about it holds for
  every fuel from some number on.

The handle (`*tree`) is a value of the structure `tree`: `Put` and `Del` assign
to the fields of the copy `t := ot.copy()` only, never through the receiver
`ot`, so the old handle is the argument itself.

Keys are any linearly ordered type: `BptKey.Equals` is equality and
`BptKey.LessThan` is the strict order.  Values are any type with a zero
value (`default`, Go's `nil`).
-/

set_option autoImplicit false
set_option linter.unusedSectionVars false

namespace bptree

/-! ## Data model -/

/-- The method `BptKey.Equals` of a key of a strict total order. -/
def Equals {K : Type} [LinearOrder K] (a b : K) : Bool := decide (a = b)

/-- The method `BptKey.LessThan` of a key of a strict total order. -/
def LessThan {K : Type} [LinearOrder K] (a b : K) : Bool := decide (a < b)

/-- The struct `leafNodeS`: `keys` and `vals` slices, both made with capacity `cap`. -/
structure leafNodeS (K V : Type) where
  cap : Nat
  keys : List K
  vals : List V
deriving DecidableEq, Repr

/-- The struct `interiorNodeS`: `keys` made with capacity `cap`, `vals` (child
pointers) made with capacity `cap + 1`. -/
structure interiorNodeS (K : Type) where
  cap : Nat
  keys : List K
  vals : List Nat
deriving DecidableEq, Repr

/-- What a `nodeI` pointer points to. -/
inductive Cell (K V : Type) where
  | leaf (l : leafNodeS K V)
  | node (n : interiorNodeS K)
deriving DecidableEq, Repr

/-- The heap of node structs; a pointer is an index. -/
abbrev Heap (K V : Type) := List (Cell K V)

/-- The struct `tree`. -/
structure tree where
  root : Nat
  order : Int
  numEnts : Int
  depth : Int
deriving DecidableEq, Repr

/-- Modelled from the spec: the descent path `pathT` (its source file is not part
of the sources): a last-in/first-out sequence of interior-node references with
`push`, `pop` and `isEmpty`.  The head of the list is the top of the stack. -/
abbrev pathT := List Nat

/-- Modelled from the spec: `newPathT()`, the empty descent path. -/
def newPathT : pathT := []

/-- Modelled from the spec: `path.push(node)`. -/
def pathT.push (path : pathT) (node : Nat) : pathT := node :: path

/-- Modelled from the spec: `path.pop()`, the most recently pushed reference and
the remaining path; popping an empty path is a panic. -/
def pathT.pop : pathT → Option (Nat × pathT)
  | [] => none
  | node :: rest => some (node, rest)

/-- Modelled from the spec: `path.isEmpty()`. -/
def pathT.isEmpty (path : pathT) : Bool := List.isEmpty path

section
variable {K V : Type}

/-- Allocation of a new node struct: the new pointer is the old heap size. -/
def alloc (h : Heap K V) (c : Cell K V) : Heap K V × Nat := (h ++ [c], h.length)

/-- Dereference of a `*leafNodeS` (also the type assertion `n.(*leafNodeS)`). -/
def readLeaf (h : Heap K V) (p : Nat) : Option (leafNodeS K V) :=
  match h[p]? with
  | some (Cell.leaf l) => some l
  | _ => none

/-- Dereference of a `*interiorNodeS` (also the type assertion `n.(*interiorNodeS)`). -/
def readNode (h : Heap K V) (p : Nat) : Option (interiorNodeS K) :=
  match h[p]? with
  | some (Cell.node n) => some n
  | _ => none

/-- A method with pointer receiver `p : *leafNodeS` that may change the struct. -/
def withLeaf {R : Type} (h : Heap K V) (p : Nat)
    (f : leafNodeS K V → Option (leafNodeS K V × R)) : Option (Heap K V × R) :=
  match readLeaf h p with
  | none => none
  | some l =>
    match f l with
    | none => none
    | some (l', r) => some (h.set p (Cell.leaf l'), r)

/-- A method with pointer receiver `p : *interiorNodeS` that changes the struct. -/
def updNode (h : Heap K V) (p : Nat)
    (f : interiorNodeS K → Option (interiorNodeS K)) : Option (Heap K V) :=
  match readNode h p with
  | none => none
  | some n =>
    match f n with
    | none => none
    | some n' => some (h.set p (Cell.node n'))

/-! ## leaf_node.go -/

/-- The function `mkLeaf(order)`. -/
def mkLeaf (h : Heap K V) (order : Nat) : Heap K V × Nat :=
  alloc h (Cell.leaf ⟨order, [], []⟩)

namespace leafNodeS

/-- The method `n.order()`: `cap(n.keys)`. -/
def order (n : leafNodeS K V) : Nat := n.cap

/-- The method `n.size()`: `len(n.vals)`. -/
def size (n : leafNodeS K V) : Nat := n.vals.length

/-- The method `n.halfFullSize()`: `cap(n.vals) / 2`. -/
def halfFullSize (n : leafNodeS K V) : Nat := n.cap / 2

/-- The method `n.isToBig()`: `len(n.keys) == cap(n.keys)`. -/
def isToBig (n : leafNodeS K V) : Bool := n.keys.length == n.cap

/-- The method `n.isToSmall()`. -/
def isToSmall (n : leafNodeS K V) : Bool := decide (n.size < n.halfFullSize)

/-- The method `node.copy()` through pointer `p`: a fresh leaf of the same order
holding the same keys and values. -/
def copy (h : Heap K V) (p : Nat) : Option (Heap K V × Nat) :=
  match readLeaf h p with
  | none => none
  | some node => some (alloc h (Cell.leaf ⟨node.order, node.keys, node.vals⟩))

/-- The method `leaf.findLeftMostKey()`: `leaf.keys[0]`. -/
def findLeftMostKey (leaf : leafNodeS K V) : Option K := leaf.keys[0]?

variable [LinearOrder K]

/-- The method `leaf.insert(key, val)` on the struct: the loop stops at the first
index whose key equals `key` (value replaced, result `false`) or is greater
than `key` (entry inserted there, result `true`); otherwise the entry is
appended.  The two `append`s that add an entry need room within the
capacity. -/
def insert (leaf : leafNodeS K V) (key : K) (val : V) : Option (leafNodeS K V × Bool) :=
  match leaf.keys.findIdx? (fun k => Equals key k || LessThan key k) with
  | some i =>
    match leaf.keys[i]? with
    | none => none
    | some ki =>
      if Equals key ki then
        if i < leaf.vals.length then
          some ({ leaf with vals := leaf.vals.set i val }, false)
        else none
      else
        if i < leaf.vals.length ∧ leaf.keys.length < leaf.cap ∧ leaf.vals.length < leaf.cap then
          some ({ leaf with keys := leaf.keys.take i ++ key :: leaf.keys.drop i,
                            vals := leaf.vals.take i ++ val :: leaf.vals.drop i }, true)
        else none
  | none =>
    if leaf.keys.length < leaf.cap ∧ leaf.vals.length < leaf.cap then
      some ({ leaf with keys := leaf.keys ++ [key], vals := leaf.vals ++ [val] }, true)
    else none

/-- The method `leaf.remove(key)` on the struct: the value (`nil` when absent) and
whether an entry was removed. -/
def remove [Inhabited V] (leaf : leafNodeS K V) (key : K) : Option (leafNodeS K V × V × Bool) :=
  match leaf.keys.findIdx? (fun k => Equals key k) with
  | some i =>
    match leaf.vals[i]? with
    | none => none
    | some val =>
      some ({ leaf with keys := leaf.keys.take i ++ leaf.keys.drop (i + 1),
                        vals := leaf.vals.take i ++ leaf.vals.drop (i + 1) }, val, true)
  | none => some (leaf, default, false)

end leafNodeS

/-- The method `lNode.split()` of a leaf through pointer `p`: allocates the right
leaf, moves the upper half there and returns it with its first key. -/
def leafNodeS.split (h : Heap K V) (p : Nat) : Option (Heap K V × Nat × K) :=
  match readLeaf h p with
  | none => none
  | some lNode =>
    let order := lNode.order
    let (h1, rLeaf) := mkLeaf h order
    let keySplitIdx := lNode.keys.length / 2
    let valSplitIdx := lNode.vals.length / 2
    let rKeys := lNode.keys.drop keySplitIdx
    let rVals := lNode.vals.drop valSplitIdx
    let h2 := h1.set rLeaf (Cell.leaf ⟨order, rKeys, rVals⟩)
    let h3 := h2.set p (Cell.leaf { lNode with keys := lNode.keys.take keySplitIdx,
                                               vals := lNode.vals.take valSplitIdx })
    match rKeys[0]? with
    | none => none
    | some k => some (h3, rLeaf, k)

/-- The loop of `leafNodeS.findPeerLeft`: the receiver compares itself with the
children from index `i` on through `leafNodeS.equals`, which asserts that the
child is a leaf. -/
def leafNodeS.findPeerLeftLoop (h : Heap K V) (rNode : Nat) (parent : interiorNodeS K) :
    Nat → List Nat → Option (Option (Nat × K))
  | _, [] => none
  | i, c :: rest =>
    match readLeaf h c with
    | none => none
    | some _ =>
      if rNode = c then
        if i = 0 then some none
        else
          match parent.vals[i - 1]?, parent.keys[i - 1]? with
          | some peer, some key =>
            match readLeaf h peer with
            | some _ => some (some (peer, key))
            | none => none
          | _, _ => none
      else leafNodeS.findPeerLeftLoop h rNode parent (i + 1) rest

/-- The method `rNode.findPeerLeft(parent)` of a leaf `rNode`: `some none` is the
result `nil, nil` (no left peer), `some (some (peer, key))` the left peer and
the separator between the two; `none` is a panic. -/
def leafNodeS.findPeerLeft (h : Heap K V) (rNode : Nat) (parent : interiorNodeS K) :
    Option (Option (Nat × K)) :=
  leafNodeS.findPeerLeftLoop h rNode parent 0 parent.vals

/-- The loop of `leafNodeS.findPeerRight`. -/
def leafNodeS.findPeerRightLoop (h : Heap K V) (lNode : Nat) (parent : interiorNodeS K) :
    Nat → List Nat → Option (Option (Nat × K))
  | _, [] => none
  | i, c :: rest =>
    match readLeaf h c with
    | none => none
    | some _ =>
      if lNode = c then
        if i = parent.vals.length - 1 then some none
        else
          match parent.vals[i + 1]?, parent.keys[i]? with
          | some peer, some key =>
            match readLeaf h peer with
            | some _ => some (some (peer, key))
            | none => none
          | _, _ => none
      else leafNodeS.findPeerRightLoop h lNode parent (i + 1) rest

/-- The method `lNode.findPeerRight(parent)` of a leaf `lNode`. -/
def leafNodeS.findPeerRight (h : Heap K V) (lNode : Nat) (parent : interiorNodeS K) :
    Option (Option (Nat × K)) :=
  leafNodeS.findPeerRightLoop h lNode parent 0 parent.vals

/-- The method `rLeaf.stealLeft(lLeaf)` through pointers: the last entry of
`lLeaf` moves to the front of `rLeaf`. -/
def leafNodeS.stealLeft (h : Heap K V) (rLeaf lLeaf : Nat) : Option (Heap K V) :=
  match readLeaf h lLeaf with
  | none => none
  | some l =>
    match l.keys[l.keys.length - 1]?, l.vals[l.vals.length - 1]? with
    | some stolenKey, some stolenVal =>
      let h1 := h.set lLeaf (Cell.leaf { l with keys := l.keys.take (l.keys.length - 1),
                                                vals := l.vals.take (l.vals.length - 1) })
      match readLeaf h1 rLeaf with
      | none => none
      | some r =>
        if r.keys.length < r.cap ∧ r.vals.length < r.cap then
          some (h1.set rLeaf (Cell.leaf { r with keys := stolenKey :: r.keys,
                                                 vals := stolenVal :: r.vals }))
        else none
    | _, _ => none

/-- The method `lLeaf.stealRight(rLeaf)` through pointers: the first entry of
`rLeaf` moves to the end of `lLeaf`. -/
def leafNodeS.stealRight (h : Heap K V) (lLeaf rLeaf : Nat) : Option (Heap K V) :=
  match readLeaf h rLeaf with
  | none => none
  | some r =>
    match r.keys[0]?, r.vals[0]? with
    | some stolenKey, some stolenVal =>
      let h1 := h.set rLeaf (Cell.leaf { r with keys := r.keys.drop 1, vals := r.vals.drop 1 })
      match readLeaf h1 lLeaf with
      | none => none
      | some l =>
        if l.keys.length < l.cap ∧ l.vals.length < l.cap then
          some (h1.set lLeaf (Cell.leaf { l with keys := l.keys ++ [stolenKey],
                                                 vals := l.vals ++ [stolenVal] }))
        else none
    | _, _ => none

/-- The method `lLeaf.mergeRight(rLeaf)` through pointers: the entries of `rLeaf`
are appended to `lLeaf`; `rLeaf` is only read. -/
def leafNodeS.mergeRight (h : Heap K V) (lLeaf rLeaf : Nat) : Option (Heap K V) :=
  match readLeaf h lLeaf, readLeaf h rLeaf with
  | some l, some r =>
    if l.keys.length + r.keys.length ≤ l.cap ∧ l.vals.length + r.vals.length ≤ l.cap then
      some (h.set lLeaf (Cell.leaf { l with keys := l.keys ++ r.keys, vals := l.vals ++ r.vals }))
    else none
  | _, _ => none

/-! ## interior_node.go -/

/-- The function `mkNode(order)`. -/
def mkNode (h : Heap K V) (order : Nat) : Heap K V × Nat :=
  alloc h (Cell.node ⟨order, [], []⟩)

namespace interiorNodeS

/-- The method `node.order()`: `cap(node.keys)`. -/
def order (node : interiorNodeS K) : Nat := node.cap

/-- The method `node.size()`: `len(node.vals)`. -/
def size (node : interiorNodeS K) : Nat := node.vals.length

/-- The method `node.halfFullSize()`: `cap(node.vals) / 2`. -/
def halfFullSize (node : interiorNodeS K) : Nat := (node.cap + 1) / 2

/-- The method `node.isToBig()`: `len(node.keys) == cap(node.keys)`. -/
def isToBig (node : interiorNodeS K) : Bool := node.keys.length == node.cap

/-- The method `n.isToSmall()`. -/
def isToSmall (n : interiorNodeS K) : Bool := decide (n.size < n.halfFullSize)

/-- The method `node.isLeaf()` of an interior node: `false`, after the assertion
`len(node.keys)+1 == len(node.vals)` (the assertion on the capacities holds by
construction). -/
def isLeaf (node : interiorNodeS K) : Option Bool :=
  if node.keys.length + 1 = node.vals.length then some false else none

/-- The method `node.copy()` through pointer `p`. -/
def copy (h : Heap K V) (p : Nat) : Option (Heap K V × Nat) :=
  match readNode h p with
  | none => none
  | some node => some (alloc h (Cell.node ⟨node.order, node.keys, node.vals⟩))

/-- The loop of `swapLeafNode` over `node.vals`: every child visited is asserted
to be a leaf; the first one identical to `oldLeaf` is replaced. -/
def swapLeafVals (h : Heap K V) (oldLeaf newLeaf : Nat) : List Nat → Option (List Nat)
  | [] => none
  | n :: rest =>
    match readLeaf h n with
    | none => none
    | some _ =>
      if oldLeaf = n then some (newLeaf :: rest)
      else match swapLeafVals h oldLeaf newLeaf rest with
        | none => none
        | some rest' => some (n :: rest')

/-- The method `node.swapLeafNode(oldLeaf, newLeaf)` on the struct. -/
def swapLeafNode (h : Heap K V) (node : interiorNodeS K) (oldLeaf newLeaf : Nat) :
    Option (interiorNodeS K) :=
  match swapLeafVals h oldLeaf newLeaf node.vals with
  | none => none
  | some vals => some { node with vals := vals }

/-- The loop of `swapInteriorNode` over `node.vals`. -/
def swapInteriorVals (h : Heap K V) (oldNode newNode : Nat) : List Nat → Option (List Nat)
  | [] => none
  | n :: rest =>
    match readNode h n with
    | none => none
    | some _ =>
      if oldNode = n then some (newNode :: rest)
      else match swapInteriorVals h oldNode newNode rest with
        | none => none
        | some rest' => some (n :: rest')

/-- The method `node.swapInteriorNode(oldNode, newNode)` on the struct. -/
def swapInteriorNode (h : Heap K V) (node : interiorNodeS K) (oldNode newNode : Nat) :
    Option (interiorNodeS K) :=
  match swapInteriorVals h oldNode newNode node.vals with
  | none => none
  | some vals => some { node with vals := vals }

/-- The loop of `findLeftMostLeaf`: follow `vals[0]` until a leaf is reached. -/
def findLeftMostLeafLoop (h : Heap K V) : Nat → Nat → Option Nat
  | 0, _ => none
  | fuel + 1, node =>
    match h[node]? with
    | none => none
    | some (Cell.leaf _) => some node
    | some (Cell.node n) =>
      match n.isLeaf with
      | none => none
      | some _ =>
        match n.vals[0]? with
        | none => none
        | some c => findLeftMostLeafLoop h fuel c

/-- The method `node.findLeftMostLeaf()` through pointer `p`. -/
def findLeftMostLeaf (h : Heap K V) (p : Nat) : Option Nat :=
  findLeftMostLeafLoop h h.length p

/-- The method `node.findLeftMostKey()` through pointer `p`: the first key of the
leftmost leaf below. -/
def findLeftMostKey (h : Heap K V) (p : Nat) : Option K :=
  match findLeftMostLeaf h p with
  | none => none
  | some leaf =>
    match readLeaf h leaf with
    | none => none
    | some l => l.findLeftMostKey

variable [LinearOrder K]

/-- The method `node.swapKey(oldKey, newKey)` on the struct. -/
def swapKey (node : interiorNodeS K) (oldKey newKey : K) : Option (interiorNodeS K) :=
  match node.keys.findIdx? (fun k => Equals oldKey k) with
  | none => none
  | some i => some { node with keys := node.keys.set i newKey }

/-- The method `node.insert(key, val)` on the struct: `key` goes to the first
index `i` with `key < keys[i]` and `val` to index `i + 1` of the children;
with no such index both are appended. -/
def insert (node : interiorNodeS K) (key : K) (val : Nat) : Option (interiorNodeS K) :=
  match node.keys.findIdx? (fun k => LessThan key k) with
  | some i =>
    if i + 2 ≤ node.vals.length ∧ node.keys.length < node.cap ∧
        node.vals.length < node.cap + 1 then
      some { node with keys := node.keys.take i ++ key :: node.keys.drop i,
                       vals := node.vals.take (i + 1) ++ val :: node.vals.drop (i + 1) }
    else none
  | none =>
    if node.keys.length < node.cap ∧ node.vals.length < node.cap + 1 then
      some { node with keys := node.keys ++ [key], vals := node.vals ++ [val] }
    else none

end interiorNodeS

/-- The method `findLeftMostKey()` of a `nodeI`: dispatch on the kind of node. -/
def nodeI.findLeftMostKey (h : Heap K V) (p : Nat) : Option K :=
  match h[p]? with
  | none => none
  | some (Cell.leaf l) => l.findLeftMostKey
  | some (Cell.node _) => interiorNodeS.findLeftMostKey h p

/-- The method `lNode.split()` of an interior node through pointer `p`: allocates
the right node, returns it with the middle key, which stays in neither half. -/
def interiorNodeS.split (h : Heap K V) (p : Nat) : Option (Heap K V × Nat × K) :=
  match readNode h p with
  | none => none
  | some lNode =>
    let order := lNode.order
    let (h1, rNode) := mkNode h order
    let keySplitIdx := order / 2
    let valSplitIdx := (order + 1) / 2
    if order % 2 = 1 then
      match lNode.keys[keySplitIdx]? with
      | none => none
      | some midKey =>
        if keySplitIdx + 1 ≤ lNode.keys.length ∧ valSplitIdx ≤ lNode.vals.length then
          let h2 := h1.set rNode (Cell.node ⟨order, lNode.keys.drop (keySplitIdx + 1),
                                              lNode.vals.drop valSplitIdx⟩)
          let h3 := h2.set p (Cell.node { lNode with keys := lNode.keys.take keySplitIdx,
                                                     vals := lNode.vals.take valSplitIdx })
          some (h3, rNode, midKey)
        else none
    else
      match lNode.keys[keySplitIdx - 1]? with
      | none => none
      | some midKey =>
        if keySplitIdx ≤ lNode.keys.length ∧ valSplitIdx ≤ lNode.vals.length then
          let h2 := h1.set rNode (Cell.node ⟨order, lNode.keys.drop keySplitIdx,
                                              lNode.vals.drop valSplitIdx⟩)
          let h3 := h2.set p (Cell.node { lNode with keys := lNode.keys.take (keySplitIdx - 1),
                                                     vals := lNode.vals.take valSplitIdx })
          some (h3, rNode, midKey)
        else none

/-- The loop of `interiorNodeS.findPeerLeft`: `interiorNodeS.equals` answers
`false` for a child that is not an interior node. -/
def interiorNodeS.findPeerLeftLoop (h : Heap K V) (rNode : Nat) (parent : interiorNodeS K) :
    Nat → List Nat → Option (Option (Nat × K))
  | _, [] => none
  | i, c :: rest =>
    match h[c]? with
    | none => none
    | some (Cell.leaf _) => interiorNodeS.findPeerLeftLoop h rNode parent (i + 1) rest
    | some (Cell.node _) =>
      if rNode = c then
        if i = 0 then some none
        else
          match parent.vals[i - 1]?, parent.keys[i - 1]? with
          | some peer, some key =>
            match readNode h peer with
            | some _ => some (some (peer, key))
            | none => none
          | _, _ => none
      else interiorNodeS.findPeerLeftLoop h rNode parent (i + 1) rest

/-- The method `rNode.findPeerLeft(parent)` of an interior node. -/
def interiorNodeS.findPeerLeft (h : Heap K V) (rNode : Nat) (parent : interiorNodeS K) :
    Option (Option (Nat × K)) :=
  interiorNodeS.findPeerLeftLoop h rNode parent 0 parent.vals

/-- The loop of `interiorNodeS.findPeerRight`. -/
def interiorNodeS.findPeerRightLoop (h : Heap K V) (lNode : Nat) (parent : interiorNodeS K) :
    Nat → List Nat → Option (Option (Nat × K))
  | _, [] => none
  | i, c :: rest =>
    match h[c]? with
    | none => none
    | some (Cell.leaf _) => interiorNodeS.findPeerRightLoop h lNode parent (i + 1) rest
    | some (Cell.node _) =>
      if lNode = c then
        if i = parent.vals.length - 1 then some none
        else
          match parent.vals[i + 1]?, parent.keys[i]? with
          | some peer, some key =>
            match readNode h peer with
            | some _ => some (some (peer, key))
            | none => none
          | _, _ => none
      else interiorNodeS.findPeerRightLoop h lNode parent (i + 1) rest

/-- The method `lNode.findPeerRight(parent)` of an interior node. -/
def interiorNodeS.findPeerRight (h : Heap K V) (lNode : Nat) (parent : interiorNodeS K) :
    Option (Option (Nat × K)) :=
  interiorNodeS.findPeerRightLoop h lNode parent 0 parent.vals

/-- The method `rNode.stealLeft(lNode)` of interior nodes through pointers: the
last child of `lNode` becomes the first child of `rNode`; the new first
separator of `rNode` is the leftmost key that was below `rNode` before. -/
def interiorNodeS.stealLeft (h : Heap K V) (rNode lNode : Nat) : Option (Heap K V) :=
  match readNode h lNode with
  | none => none
  | some l =>
    match l.vals[l.vals.length - 1]? with
    | none => none
    | some stolenVal =>
      if 1 ≤ l.keys.length then
        let h1 := h.set lNode (Cell.node { l with keys := l.keys.take (l.keys.length - 1),
                                                  vals := l.vals.take (l.vals.length - 1) })
        match interiorNodeS.findLeftMostKey h1 rNode with
        | none => none
        | some leastKey =>
          match readNode h1 rNode with
          | none => none
          | some r =>
            if r.keys.length < r.cap ∧ r.vals.length < r.cap + 1 then
              some (h1.set rNode (Cell.node { r with keys := leastKey :: r.keys,
                                                     vals := stolenVal :: r.vals }))
            else none
      else none

/-- The method `lNode.stealRight(rNode)` of interior nodes through pointers: the
first child of `rNode` becomes the last child of `lNode`; the new last
separator of `lNode` is the leftmost key below the stolen child. -/
def interiorNodeS.stealRight (h : Heap K V) (lNode rNode : Nat) : Option (Heap K V) :=
  match readNode h rNode with
  | none => none
  | some r =>
    match r.vals[0]? with
    | none => none
    | some stolenNode =>
      if 1 ≤ r.keys.length then
        let h1 := h.set rNode (Cell.node { r with keys := r.keys.drop 1, vals := r.vals.drop 1 })
        match nodeI.findLeftMostKey h1 stolenNode with
        | none => none
        | some leastKey =>
          match readNode h1 lNode with
          | none => none
          | some l =>
            if l.keys.length < l.cap ∧ l.vals.length < l.cap + 1 then
              some (h1.set lNode (Cell.node { l with keys := l.keys ++ [leastKey],
                                                     vals := l.vals ++ [stolenNode] }))
            else none
      else none

/-- The method `lNode.mergeRight(rNode)` of interior nodes through pointers: the
leftmost key below `rNode`, then the separators of `rNode`, are appended to
the separators of `lNode`, and the children of `rNode` to its children. -/
def interiorNodeS.mergeRight (h : Heap K V) (lNode rNode : Nat) : Option (Heap K V) :=
  match interiorNodeS.findLeftMostKey h rNode with
  | none => none
  | some leastKey =>
    match readNode h lNode, readNode h rNode with
    | some l, some r =>
      if l.keys.length + 1 + r.keys.length ≤ l.cap ∧
          l.vals.length + r.vals.length ≤ l.cap + 1 then
        some (h.set lNode (Cell.node { l with keys := l.keys ++ leastKey :: r.keys,
                                              vals := l.vals ++ r.vals }))
      else none
    | _, _ => none

/-! ## bptree.go -/

/-- The function `mkTree(order)`. -/
def mkTree (h : Heap K V) (order : Int) : Heap K V × tree :=
  let (h1, root) := mkLeaf h order.toNat
  (h1, ⟨root, order, 0, 0⟩)

/-- The method `ot.copy()`: a shallow copy of the `tree` struct (`mkTree`
allocates a leaf that is dropped at once). -/
def tree.copy (h : Heap K V) (ot : tree) : Heap K V × tree :=
  let (h1, t) := mkTree h ot.order
  (h1, { t with root := ot.root, order := ot.order, numEnts := ot.numEnts, depth := ot.depth })

/-- The method `t.setRootNode(node)`: a root left without a separator is replaced
by its only child and the depth decreases. -/
def tree.setRootNode (h : Heap K V) (t : tree) (node : Nat) : Option tree :=
  match readNode h node with
  | none => none
  | some n =>
    if n.keys.length = 0 then
      match n.vals[0]? with
      | none => none
      | some c => some { t with root := c, depth := t.depth - 1 }
    else some { t with root := node }

/-- The method `t.setRootLeaf(leaf)`. -/
def tree.setRootLeaf (t : tree) (leaf : Nat) : tree := { t with root := leaf }

/-- The method `t.newRootNode(k, l, r)`: the two `append`s put one key and two
children into the slices made by `mkNode(t.order)`. -/
def tree.newRootNode (h : Heap K V) (t : tree) (k : K) (l r : Nat) :
    Option (Heap K V × tree) :=
  let (h1, node) := mkNode h t.order.toNat
  if 1 ≤ t.order.toNat then
    some (h1.set node (Cell.node ⟨t.order.toNat, [k], [l, r]⟩),
          { t with root := node, depth := t.depth + 1 })
  else none

/-- The largest order whose nodes `make` can allocate on a 64-bit platform.  The
elements of the slices of a node are interface values of 16 bytes, `mkNode`
asks for a capacity of `order + 1`, and `make` panics with `makeslice: cap out
of range` when the capacity times the element size exceeds `2 ^ 48` bytes. -/
def maxOrder : Nat := 2 ^ 44 - 1

/-- The function `NewBpTree(order)`.  It panics below order 3, and `mkTree`
panics in the `make` calls of `mkLeaf(order)` when the order is more than the
slices of a node can hold (at `order = 2 ^ 44` the call of `make` exhausts the
address space instead); for the orders in between the memory is taken to be
unbounded and the tree is returned. -/
def NewBpTree (h : Heap K V) (order : Int) : Option (Heap K V × tree) :=
  if order < 3 then none
  else if (maxOrder : Int) < order then none
  else some (mkTree h order)

/-- The method `t.Order()`. -/
def tree.Order (t : tree) : Int := t.order

/-- The method `t.NumberOfEntries()`. -/
def tree.NumberOfEntries (t : tree) : Int := t.numEnts

/-- The method `t.Depth()`. -/
def tree.Depth (t : tree) : Int := t.depth

/-- The method `t.IsEmpty()`, with its two assertions. -/
def tree.IsEmpty (h : Heap K V) (t : tree) : Option Bool :=
  let emptyByNumEnts := decide (t.numEnts = 0)
  match h[t.root]? with
  | none => none
  | some (Cell.leaf rootLeaf) =>
    if rootLeaf.keys.length = rootLeaf.vals.length then
      let emptyByRootLeaf := decide (rootLeaf.keys.length = 0)
      if emptyByNumEnts = emptyByRootLeaf then some (emptyByNumEnts && emptyByRootLeaf)
      else none
    else none
  | some (Cell.node _) =>
    if emptyByNumEnts = false then some (emptyByNumEnts && false) else none

/-- The method `t.isRoot(node)`: `t.root.equals(node)`; the `equals` of a leaf
asserts that `node` is a leaf, the `equals` of an interior node answers `false`
for a leaf. -/
def tree.isRoot (h : Heap K V) (t : tree) (node : Nat) : Option Bool :=
  match h[t.root]? with
  | none => none
  | some (Cell.leaf _) =>
    match readLeaf h node with
    | none => none
    | some _ => some (t.root == node)
  | some (Cell.node _) =>
    match h[node]? with
    | none => none
    | some (Cell.leaf _) => some false
    | some (Cell.node _) => some (t.root == node)

section
variable [LinearOrder K]

/-- The loop of `findLeaf`: at an interior node take the child before the first
separator greater than `key`, or the last child. -/
def findLeafLoop (h : Heap K V) (key : K) : Nat → Nat → pathT → Option (Nat × pathT)
  | 0, _, _ => none
  | fuel + 1, nextNode, path =>
    match h[nextNode]? with
    | none => none
    | some (Cell.leaf _) => some (nextNode, path)
    | some (Cell.node curNode) =>
      match curNode.isLeaf with
      | none => none
      | some _ =>
        let path := path.push nextNode
        match curNode.keys.findIdx? (fun k => LessThan key k) with
        | some i =>
          match curNode.vals[i]? with
          | none => none
          | some c => findLeafLoop h key fuel c path
        | none =>
          match curNode.vals[curNode.keys.length]? with
          | none => none
          | some c => findLeafLoop h key fuel c path

/-- The method `t.findLeaf(key)`: the leaf that can hold `key` and the path of
interior nodes walked, the parent of the leaf on top. -/
def tree.findLeaf (h : Heap K V) (t : tree) (key : K) : Option (Nat × pathT) :=
  findLeafLoop h key h.length t.root newPathT

/-- The method `t.Get(key)`. -/
def tree.Get [Inhabited V] (h : Heap K V) (t : tree) (key : K) : Option (V × Bool) := do
  let (leaf, _) ← t.findLeaf h key
  let l ← readLeaf h leaf
  match l.keys.findIdx? (fun k => Equals key k) with
  | some i =>
    match l.vals[i]? with
    | none => none
    | some v => some (v, true)
  | none => some (default, false)

/-- The method `t.copyUp(oldNode, newNode, path)`: the empty path is the case
`path.isEmpty()`, otherwise the head is `path.pop()`. -/
def tree.copyUp (t : tree) (h : Heap K V) (oldNode newNode : Nat) :
    pathT → Option (Heap K V × tree)
  | [] => do
    let isRoot ← t.isRoot h oldNode
    if isRoot then
      let t1 ← t.setRootNode h newNode
      some (h, t1)
    else none
  | oldParent :: path => do
    let (h1, newParent) ← interiorNodeS.copy h oldParent
    let h2 ← updNode h1 newParent (fun n => n.swapInteriorNode h1 oldNode newNode)
    tree.copyUp t h2 oldParent newParent path

/-- The method `t.copyUpLeaf(oldLeaf, newLeaf, path)`. -/
def tree.copyUpLeaf (t : tree) (h : Heap K V) (oldLeaf newLeaf : Nat) :
    pathT → Option (Heap K V × tree)
  | [] => do
    let isRoot ← t.isRoot h oldLeaf
    if isRoot then some (h, t.setRootLeaf newLeaf) else none
  | oldParent :: path => do
    let (h1, newParent) ← interiorNodeS.copy h oldParent
    let h2 ← updNode h1 newParent (fun n => n.swapLeafNode h1 oldLeaf newLeaf)
    t.copyUp h2 oldParent newParent path

/-- The method `t.insertUp(oldNode, newNode, splitKey, splitNode, path)`. -/
def tree.insertUp (t : tree) (h : Heap K V) (oldNode newNode : Nat) (splitKey : K)
    (splitNode : Nat) : pathT → Option (Heap K V × tree)
  | [] => do
    let _ ← readNode h t.root
    if t.root = oldNode then t.newRootNode h splitKey newNode splitNode else none
  | oldParent :: path => do
    let (h1, newParent) ← interiorNodeS.copy h oldParent
    let h2 ← updNode h1 newParent (fun n => n.swapInteriorNode h1 oldNode newNode)
    let h3 ← updNode h2 newParent (fun n => n.insert splitKey splitNode)
    let np ← readNode h3 newParent
    if np.isToBig then
      let (h4, rightNode, rightKey) ← interiorNodeS.split h3 newParent
      tree.insertUp t h4 oldParent newParent rightKey rightNode path
    else t.copyUp h3 oldParent newParent path

/-- The method `t.insertUpLeaf(oldLeaf, newLeaf, splitKey, splitLeaf, path)`. -/
def tree.insertUpLeaf (t : tree) (h : Heap K V) (oldLeaf newLeaf : Nat) (splitKey : K)
    (splitLeaf : Nat) : pathT → Option (Heap K V × tree)
  | [] => t.newRootNode h splitKey newLeaf splitLeaf
  | oldParent :: path => do
    let (h1, newParent) ← interiorNodeS.copy h oldParent
    let h2 ← updNode h1 newParent (fun n => n.swapLeafNode h1 oldLeaf newLeaf)
    let h3 ← updNode h2 newParent (fun n => n.insert splitKey splitLeaf)
    let np ← readNode h3 newParent
    if np.isToBig then
      let (h4, rightNode, rightKey) ← interiorNodeS.split h3 newParent
      t.insertUp h4 oldParent newParent rightKey rightNode path
    else t.copyUp h3 oldParent newParent path

/-- The method `ot.Put(key, val)`: the new heap, the new handle and whether the
key was added. -/
def tree.Put (h : Heap K V) (ot : tree) (key : K) (val : V) :
    Option (Heap K V × tree × Bool) := do
  let (h0, t) := ot.copy h
  let (oldLeaf, path) ← t.findLeaf h0 key
  let (h1, newLeaf) ← leafNodeS.copy h0 oldLeaf
  let (h2, added) ← withLeaf h1 newLeaf (fun l => l.insert key val)
  let t := if added then { t with numEnts := t.numEnts + 1 } else t
  let nl ← readLeaf h2 newLeaf
  if nl.isToBig then
    let (h3, rightLeaf, rightKey) ← leafNodeS.split h2 newLeaf
    let (h4, t1) ← t.insertUpLeaf h3 oldLeaf newLeaf rightKey rightLeaf path
    some (h4, t1, added)
  else
    let (h4, t1) ← t.copyUpLeaf h2 oldLeaf newLeaf path
    some (h4, t1, added)

/-- The loop of `delUpLeaf` that looks for `deadLeaf` among the children (each
child visited is asserted to be a leaf), from index `i` on. -/
def findDeadLeaf (h : Heap K V) (deadLeaf : Nat) : Nat → List Nat → Option Nat
  | _, [] => none
  | i, c :: rest =>
    match readLeaf h c with
    | none => none
    | some _ => if deadLeaf = c then some i else findDeadLeaf h deadLeaf (i + 1) rest

/-- The loop of `delUp` that looks for `deadNode` among the children. -/
def findDeadNode (h : Heap K V) (deadNode : Nat) : Nat → List Nat → Option Nat
  | _, [] => none
  | i, c :: rest =>
    match h[c]? with
    | none => none
    | some (Cell.leaf _) => findDeadNode h deadNode (i + 1) rest
    | some (Cell.node _) => if deadNode = c then some i else findDeadNode h deadNode (i + 1) rest

/-- The removal of the dead child found at index `i` in `delUpLeaf` and `delUp`:
index 0 is a panic, otherwise `keys[i-1]` and `vals[i]` are cut out. -/
def removeDeadAt (newParent : interiorNodeS K) (i : Nat) : Option (interiorNodeS K) :=
  if i = 0 then none
  else if i ≤ newParent.keys.length ∧ i + 1 ≤ newParent.vals.length then
    some { newParent with keys := newParent.keys.take (i - 1) ++ newParent.keys.drop i,
                          vals := newParent.vals.take i ++ newParent.vals.drop (i + 1) }
  else none

/-- The test `peer != nil && peer.size() > peer.halfFullSize()` on a leaf peer. -/
def leafNodeS.canSteal (h : Heap K V) : Option (Nat × K) → Option Bool
  | none => some false
  | some (peer, _) =>
    match readLeaf h peer with
    | none => none
    | some l => some (decide (l.size > l.halfFullSize))

/-- The test `peer != nil && peer.size() > peer.halfFullSize()` on an interior peer. -/
def interiorNodeS.canSteal (h : Heap K V) : Option (Nat × K) → Option Bool
  | none => some false
  | some (peer, _) =>
    match readNode h peer with
    | none => none
    | some n => some (decide (n.size > n.halfFullSize))

/-- The removal of the dead node from the copied parent in `delUp`. -/
def removeDeadNode (h : Heap K V) (newParent deadNode : Nat) : Option (Heap K V) :=
  updNode h newParent (fun n =>
    match findDeadNode h deadNode 0 n.vals with
    | none => none
    | some i => removeDeadAt n i)

/-- The removal of the dead leaf from the copied parent in `delUpLeaf`. -/
def removeDeadLeaf (h : Heap K V) (newParent deadLeaf : Nat) : Option (Heap K V) :=
  updNode h newParent (fun n =>
    match findDeadLeaf h deadLeaf 0 n.vals with
    | none => none
    | some i => removeDeadAt n i)

/-- The steal-left block of `delUpLeaf`/`delUp`: the too small `newParent` takes
the last child of a copy of its left peer, and the copied grandparent gets the
new separator and the two new children. -/
def tree.fillStealLeft (t : tree) (h : Heap K V)
    (oldParent newParent oldGrandParent oldPeerLeft : Nat) (leftKey : K) (path : pathT) :
    Option (Heap K V × tree) := do
  let (h1, newPeerLeft) ← interiorNodeS.copy h oldPeerLeft
  let h2 ← interiorNodeS.stealLeft h1 newParent newPeerLeft
  let (h3, newGrandParent) ← interiorNodeS.copy h2 oldGrandParent
  let newKey ← interiorNodeS.findLeftMostKey h3 newParent
  let h4 ← updNode h3 newGrandParent (fun n => n.swapKey leftKey newKey)
  let h5 ← updNode h4 newGrandParent (fun n => n.swapInteriorNode h4 oldPeerLeft newPeerLeft)
  let h6 ← updNode h5 newGrandParent (fun n => n.swapInteriorNode h5 oldParent newParent)
  t.copyUp h6 oldGrandParent newGrandParent path

/-- The steal-right block of `delUpLeaf`/`delUp`. -/
def tree.fillStealRight (t : tree) (h : Heap K V)
    (oldParent newParent oldGrandParent oldPeerRight : Nat) (rightKey : K) (path : pathT) :
    Option (Heap K V × tree) := do
  let (h1, newPeerRight) ← interiorNodeS.copy h oldPeerRight
  let h2 ← interiorNodeS.stealRight h1 newParent newPeerRight
  let (h3, newGrandParent) ← interiorNodeS.copy h2 oldGrandParent
  let newKey ← interiorNodeS.findLeftMostKey h3 newPeerRight
  let h4 ← updNode h3 newGrandParent (fun n => n.swapKey rightKey newKey)
  let h5 ← updNode h4 newGrandParent (fun n => n.swapInteriorNode h4 oldPeerRight newPeerRight)
  let h6 ← updNode h5 newGrandParent (fun n => n.swapInteriorNode h5 oldParent newParent)
  t.copyUp h6 oldGrandParent newGrandParent path

/-- The merge block of `delUpLeaf`/`delUp`: with a left peer, `newParent` is merged
into a copy of it; otherwise the right peer is merged into `newParent`; with
no peer at all it panics.  The result is the heap and `oldMergedNode`,
`newMergedNode`, `deadNode`. -/
def fillMerge (h : Heap K V) (oldParent newParent : Nat) :
    Option (Nat × K) → Option (Nat × K) → Option (Heap K V × Nat × Nat × Nat)
  | some (oldPeerLeft, _), _ => do
    let (h1, newPeerLeft) ← interiorNodeS.copy h oldPeerLeft
    let h2 ← interiorNodeS.mergeRight h1 newPeerLeft newParent
    some (h2, oldPeerLeft, newPeerLeft, oldParent)
  | none, some (oldPeerRight, _) => do
    let h2 ← interiorNodeS.mergeRight h newParent oldPeerRight
    some (h2, oldParent, newParent, oldPeerRight)
  | none, none => none

/-- The part of `delUpLeaf` and of `delUp` that follows the removal of the dead
child (the same statements in both): publish `newParent` when `oldParent` was
the root; copy the path when `newParent` is not too small; otherwise steal a
child from the left peer, else from the right peer, else merge with a peer
and continue with `delUp` one level up (its first statements are inlined
here: copy the grandparent, swap the merged node in, remove the dead node). -/
def tree.delUpFill (t : tree) (h : Heap K V) (oldParent newParent : Nat) :
    pathT → Option (Heap K V × tree)
  | [] =>
    match t.isRoot h oldParent with
    | some true =>
      match t.setRootNode h newParent with
      | some t1 => some (h, t1)
      | none => none
    | some false =>
      match readNode h newParent with
      | none => none
      | some np => if np.isToSmall then none else t.copyUp h oldParent newParent []
    | none => none
  | oldGrandParent :: path =>
    match t.isRoot h oldParent with
    | some true => none
    | some false =>
      match readNode h newParent with
      | none => none
      | some np =>
        if np.isToSmall then
          match readNode h oldGrandParent with
          | none => none
          | some gp =>
            match interiorNodeS.findPeerLeft h oldParent gp with
            | none => none
            | some left =>
              match interiorNodeS.canSteal h left, left with
              | none, _ => none
              | some true, some (oldPeerLeft, leftKey) =>
                t.fillStealLeft h oldParent newParent oldGrandParent oldPeerLeft leftKey path
              | some true, none => none
              | some false, _ =>
                match interiorNodeS.findPeerRight h oldParent gp with
                | none => none
                | some right =>
                  match interiorNodeS.canSteal h right, right with
                  | none, _ => none
                  | some true, some (oldPeerRight, rightKey) =>
                    t.fillStealRight h oldParent newParent oldGrandParent oldPeerRight rightKey path
                  | some true, none => none
                  | some false, _ =>
                    match fillMerge h oldParent newParent left right with
                    | none => none
                    | some (h2, oldMergedNode, newMergedNode, deadNode) =>
                      match interiorNodeS.copy h2 oldGrandParent with
                      | none => none
                      | some (h3, newGrandParent) =>
                        match updNode h3 newGrandParent
                            (fun n => n.swapInteriorNode h3 oldMergedNode newMergedNode) with
                        | none => none
                        | some h4 =>
                          match removeDeadNode h4 newGrandParent deadNode with
                          | none => none
                          | some h5 => tree.delUpFill t h5 oldGrandParent newGrandParent path
        else t.copyUp h oldParent newParent (oldGrandParent :: path)
    | none => none

/-- The method `t.delUp(oldParent, oldMergedNode, newMergedNode, deadNode, path)`. -/
def tree.delUp (t : tree) (h : Heap K V) (oldParent oldMergedNode newMergedNode deadNode : Nat)
    (path : pathT) : Option (Heap K V × tree) := do
  let (h1, newParent) ← interiorNodeS.copy h oldParent
  let h2 ← updNode h1 newParent (fun n => n.swapInteriorNode h1 oldMergedNode newMergedNode)
  let h3 ← removeDeadNode h2 newParent deadNode
  t.delUpFill h3 oldParent newParent path

/-- The method `t.delUpLeaf(oldParent, oldMergedLeaf, newMergedLeaf, deadLeaf, path)`. -/
def tree.delUpLeaf (t : tree) (h : Heap K V)
    (oldParent oldMergedLeaf newMergedLeaf deadLeaf : Nat) (path : pathT) :
    Option (Heap K V × tree) := do
  let (h1, newParent) ← interiorNodeS.copy h oldParent
  let h2 ← updNode h1 newParent (fun n => n.swapLeafNode h1 oldMergedLeaf newMergedLeaf)
  let h3 ← removeDeadLeaf h2 newParent deadLeaf
  t.delUpFill h3 oldParent newParent path

/-- The steal-left block of `Del`: the too small `newLeaf` takes the last entry of
a copy of its left peer; the copied parent gets the new separator and the two
new leaves. -/
def tree.delStealLeft (t : tree) (h : Heap K V)
    (oldLeaf newLeaf oldParent oldLeafLeft : Nat) (leftKey : K) (path : pathT) :
    Option (Heap K V × tree) := do
  let (h1, newLeftLeaf) ← leafNodeS.copy h oldLeafLeft
  let h2 ← leafNodeS.stealLeft h1 newLeaf newLeftLeaf
  let (h3, newParent) ← interiorNodeS.copy h2 oldParent
  let nl ← readLeaf h3 newLeaf
  let newKey ← nl.findLeftMostKey
  let h4 ← updNode h3 newParent (fun n => n.swapKey leftKey newKey)
  let h5 ← updNode h4 newParent (fun n => n.swapLeafNode h4 oldLeafLeft newLeftLeaf)
  let h6 ← updNode h5 newParent (fun n => n.swapLeafNode h5 oldLeaf newLeaf)
  t.copyUp h6 oldParent newParent path

/-- The steal-right block of `Del`. -/
def tree.delStealRight (t : tree) (h : Heap K V)
    (oldLeaf newLeaf oldParent oldLeafRight : Nat) (rightKey : K) (path : pathT) :
    Option (Heap K V × tree) := do
  let (h1, newRightLeaf) ← leafNodeS.copy h oldLeafRight
  let h2 ← leafNodeS.stealRight h1 newLeaf newRightLeaf
  let (h3, newParent) ← interiorNodeS.copy h2 oldParent
  let nr ← readLeaf h3 newRightLeaf
  let newKey ← nr.findLeftMostKey
  let h4 ← updNode h3 newParent (fun n => n.swapKey rightKey newKey)
  let h5 ← updNode h4 newParent (fun n => n.swapLeafNode h4 oldLeafRight newRightLeaf)
  let h6 ← updNode h5 newParent (fun n => n.swapLeafNode h5 oldLeaf newLeaf)
  t.copyUp h6 oldParent newParent path

/-- The merge block of `Del`: with a left peer, `newLeaf` is merged into a copy of
it; otherwise the right peer is merged into `newLeaf`; with no peer at all it
panics.  The result is the heap and `oldMergedLeaf`, `newMergedLeaf`,
`deadLeaf`. -/
def delMerge (h : Heap K V) (oldLeaf newLeaf : Nat) :
    Option (Nat × K) → Option (Nat × K) → Option (Heap K V × Nat × Nat × Nat)
  | some (oldLeafLeft, _), _ => do
    let (h1, newLeafLeft) ← leafNodeS.copy h oldLeafLeft
    let h2 ← leafNodeS.mergeRight h1 newLeafLeft newLeaf
    some (h2, oldLeafLeft, newLeafLeft, oldLeaf)
  | none, some (oldLeafRight, _) => do
    let h2 ← leafNodeS.mergeRight h newLeaf oldLeafRight
    some (h2, oldLeaf, newLeaf, oldLeafRight)
  | none, none => none

/-- The part of `Del` that handles a too small `newLeaf` below `oldParent`: steal
from the left peer, else from the right peer, else merge and `delUpLeaf`. -/
def tree.delFill (t : tree) (h : Heap K V) (oldLeaf newLeaf oldParent : Nat) (path : pathT) :
    Option (Heap K V × tree) :=
  match readNode h oldParent with
  | none => none
  | some op =>
    match leafNodeS.findPeerLeft h oldLeaf op with
    | none => none
    | some left =>
      match leafNodeS.canSteal h left, left with
      | none, _ => none
      | some true, some (oldLeafLeft, leftKey) =>
        t.delStealLeft h oldLeaf newLeaf oldParent oldLeafLeft leftKey path
      | some true, none => none
      | some false, _ =>
        match leafNodeS.findPeerRight h oldLeaf op with
        | none => none
        | some right =>
          match leafNodeS.canSteal h right, right with
          | none, _ => none
          | some true, some (oldLeafRight, rightKey) =>
            t.delStealRight h oldLeaf newLeaf oldParent oldLeafRight rightKey path
          | some true, none => none
          | some false, _ =>
            match delMerge h oldLeaf newLeaf left right with
            | none => none
            | some (h2, oldMergedLeaf, newMergedLeaf, deadLeaf) =>
              t.delUpLeaf h2 oldParent oldMergedLeaf newMergedLeaf deadLeaf path

/-- The method `ot.Del(key)`: the new heap, the new handle (the old one when the
key is absent), the value removed (`nil` when absent) and whether an entry
was removed. -/
def tree.Del [Inhabited V] (h : Heap K V) (ot : tree) (key : K) :
    Option (Heap K V × tree × V × Bool) :=
  let (h0, t) := ot.copy h
  match t.findLeaf h0 key with
  | none => none
  | some (oldLeaf, path) =>
    match leafNodeS.copy h0 oldLeaf with
    | none => none
    | some (h1, newLeaf) =>
      match withLeaf h1 newLeaf (fun l => l.remove key) with
      | none => none
      | some (h2, val, removed) =>
        if removed = false then some (h2, ot, val, removed)
        else
          let t := { t with numEnts := t.numEnts - 1 }
          match ot.isRoot h2 oldLeaf with
          | none => none
          | some true =>
            if path.isEmpty then
              (t.copyUpLeaf h2 oldLeaf newLeaf path).map (fun r => (r.1, r.2, val, removed))
            else none
          | some false =>
            match readLeaf h2 newLeaf with
            | none => none
            | some nl =>
              if nl.isToSmall then
                match path with
                | [] => none
                | oldParent :: path =>
                  (t.delFill h2 oldLeaf newLeaf oldParent path).map
                    (fun r => (r.1, r.2, val, removed))
              else
                (t.copyUpLeaf h2 oldLeaf newLeaf path).map (fun r => (r.1, r.2, val, removed))

end

/-! ## string_key.go -/

/-- The type `StringKey`: a Go string, the sequence of its bytes (a byte is a
number below 256; only the order of the bytes matters). -/
structure StringKey where
  /-- The bytes of the string. -/
  bytes : List Nat
deriving DecidableEq

/-- The comparison `s < t` of two Go strings: the first byte that differs
decides; a proper prefix is less. -/
def stringLess : List Nat → List Nat → Bool
  | [], [] => false
  | [], _ :: _ => true
  | _ :: _, [] => false
  | a :: s, b :: t => if a < b then true else if b < a then false else stringLess s t

/-- The method `k0.Equals(K1)` of `StringKey`, on a key that is a `StringKey` (on
another type of key the type assertion fails and the answer is `false`). -/
def StringKey.Equals (k0 k1 : StringKey) : Bool := decide (k0.bytes = k1.bytes)

/-- The method `k0.LessThan(K1)` of `StringKey`, on a key that is a `StringKey`:
shorter is less, same sizes are compared as strings. -/
def StringKey.LessThan (k0 k1 : StringKey) : Bool :=
  if k0.bytes.length < k1.bytes.length then true
  else if k0.bytes.length > k1.bytes.length then false
  else stringLess k0.bytes k1.bytes

/-- The length and the bytes of a key, in the order that compares the length
first. -/
def StringKey.enc (k : StringKey) : Lex (Nat × List Nat) := toLex (k.bytes.length, k.bytes)

/-- The order of `StringKey` that the tree is used with; `lessThan_stringKey` and
`equals_stringKey` show that its comparisons are the two methods. -/
instance StringKey.instLinearOrder : LinearOrder StringKey :=
  LinearOrder.lift' StringKey.enc (by
    intro a b h
    cases a
    cases b
    simp only [StringKey.enc, toLex_inj, Prod.mk.injEq] at h
    rw [h.2])

/-! ## valid_checks.go -/

/-- The quotient `a / b` of two naturals rounded to the nearest natural, a tie
going to the even one: the rounding of binary64 arithmetic. -/
def roundHalfEven (a b : Nat) : Nat :=
  if b < 2 * (a % b) ∨ (2 * (a % b) = b ∧ (a / b) % 2 = 1) then a / b + 1 else a / b

/-- The number of bits of `a` beyond the 53 bits of a binary64 significand: the
least `k` with `a / 2 ^ k < 2 ^ 53` (the first argument is fuel). -/
def excessBits : Nat → Nat → Nat
  | 0, _ => 0
  | fuel + 1, a => if a < 2 ^ 53 then 0 else excessBits fuel (a / 2) + 1

/-- The conversion `float64(a)` of a natural number: the nearest binary64 value,
which is a natural number again. -/
def f64OfNat (a : Nat) : Nat :=
  if a ≤ 2 ^ 53 then a
  else roundHalfEven a (2 ^ excessBits a a) * 2 ^ excessBits a a

/-- The number of doublings that bring the quotient `x / y` up to `2 ^ 52`: the
least `j` with `2 ^ 52 * y <= x * 2 ^ j` (the first argument is fuel). -/
def scaleBits : Nat → Nat → Nat → Nat
  | 0, _, _ => 0
  | fuel + 1, x, y => if 2 ^ 52 * y ≤ x then 0 else scaleBits fuel (2 * x) y + 1

/-- The binary64 quotient `x / y` of two natural numbers, `y` positive, as a pair
`(s, j)` that stands for the value `s / 2 ^ j`: the exact quotient rounded to 53
significant bits. -/
def f64Div (x y : Nat) : Nat × Nat :=
  if x = 0 then (0, 0)
  else if 2 ^ 52 * y ≤ x then
    (roundHalfEven x (y * 2 ^ excessBits (x / y) (x / y)) * 2 ^ excessBits (x / y) (x / y), 0)
  else (roundHalfEven (x * 2 ^ scaleBits (y + 53) x y) y, scaleBits (y + 53) x y)

/-- The function `intCeil(n, d)`: `int(math.Ceil(float64(n) / float64(d)))`.  Both
arguments are converted to binary64, so an argument beyond `2 ^ 53` is rounded
to 53 significant bits, and so is their quotient; `math.Ceil` is exact.  The
conversion back to `int` of a value that an `int` cannot hold (also the one of
a division by zero) is implementation-specific in Go: the value of amd64,
`-2 ^ 63`, is taken. -/
def intCeil (n d : Int) : Int :=
  if d = 0 then -(2 ^ 63)
  else
    let q := f64Div (f64OfNat n.natAbs) (f64OfNat d.natAbs)
    let c : Int :=
      if n < 0 ↔ d < 0 then (((q.1 + 2 ^ q.2 - 1) / 2 ^ q.2 : Nat) : Int)
      else -((q.1 / 2 ^ q.2 : Nat) : Int)
    if c < -(2 ^ 63) ∨ 2 ^ 63 ≤ c then -(2 ^ 63) else c

/-- The function `validLeafKeys(keys, order)`. -/
def validLeafKeys (keys : List K) (order : Int) : Bool :=
  if ¬ ((keys.length : Int) ≥ intCeil (order - 1) 2 ∧ (keys.length : Int) ≤ order - 1) then false
  else true

/-- The function `validLeafVals(vals, order)`. -/
def validLeafVals (vals : List V) (order : Int) : Bool :=
  if ¬ ((vals.length : Int) ≥ intCeil (order - 1) 2 ∧ (vals.length : Int) ≤ order - 1) then false
  else true

/-- The function `validNodeKeys(keys, order)`. -/
def validNodeKeys (keys : List K) (order : Int) : Bool :=
  if ¬ ((keys.length : Int) ≥ intCeil order 2 - 1 ∧ (keys.length : Int) ≤ order - 1) then false
  else true

/-- The function `validNodeVals(vals, order)`. -/
def validNodeVals (vals : List Nat) (order : Int) : Bool :=
  if ¬ ((vals.length : Int) ≥ intCeil order 2 ∧ (vals.length : Int) ≤ order) then false
  else true

/-- The function `validInteriorNode(n_, order)` on the struct a pointer leads to:
`false` when the type assertion fails. -/
def validInteriorNode (n_ : Cell K V) (order : Int) : Bool :=
  match n_ with
  | Cell.leaf _ => false
  | Cell.node node =>
    if ¬ validNodeKeys node.keys order then false
    else if ¬ validNodeVals node.vals order then false
    else if (node.keys.length : Int) ≠ (node.vals.length : Int) - 1 then false
    else true

/-- The function `validLeafNode(node_, order)` on the struct a pointer leads to:
`false` when the type assertion fails. -/
def validLeafNode (node_ : Cell K V) (order : Int) : Bool :=
  match node_ with
  | Cell.node _ => false
  | Cell.leaf node =>
    if ¬ validLeafKeys node.keys order then false
    else if ¬ validLeafVals node.vals order then false
    else if node.keys.length ≠ node.vals.length then false
    else true

/-- The function `validRootNode(node, order)` on the struct a pointer leads to;
`node.isLeaf()` of an interior node asserts that its lengths are aligned. -/
def validRootNode (node : Cell K V) (order : Int) : Option Bool :=
  match node with
  | Cell.leaf node =>
    if ¬ ((node.keys.length : Int) ≥ 0 ∧ (node.keys.length : Int) ≤ order - 1) then some false
    else if node.keys.length ≠ node.vals.length then some false
    else some true
  | Cell.node node =>
    match node.isLeaf with
    | none => none
    | some _ =>
      if ¬ ((node.keys.length : Int) ≥ 1 ∧ (node.keys.length : Int) ≤ order - 1) then some false
      else if (node.keys.length : Int) ≠ (node.vals.length : Int) - 1 then some false
      else some true

/-- The loop of `validTree` over the slice `nodes`, of which the list holds the
part from index `i` on: a leaf is checked, an interior node is checked and
its children are appended.  The Go loop has no bound; `fuel` bounds the
number of nodes looked at, and `none` is also the answer when it runs out. -/
def validLoop (h : Heap K V) (order : Int) : Nat → List Nat → Option Bool
  | _, [] => some true
  | 0, _ :: _ => none
  | fuel + 1, p :: nodes =>
    match h[p]? with
    | none => none
    | some (Cell.leaf l) =>
      if ¬ validLeafNode (Cell.leaf l : Cell K V) order then some false
      else validLoop h order fuel nodes
    | some (Cell.node n) =>
      match n.isLeaf with
      | none => none
      | some _ =>
        if ¬ validInteriorNode (Cell.node n : Cell K V) order then some false
        else validLoop h order fuel (nodes ++ n.vals)

/-- The function `validTree(t)`, with the bound `fuel` of its loop. -/
def validTree (fuel : Nat) (h : Heap K V) (t : tree) : Option Bool :=
  match h[t.root]? with
  | none => none
  | some root =>
    match validRootNode root t.order with
    | none => none
    | some false => some false
    | some true =>
      match root with
      | Cell.leaf _ => some true
      | Cell.node rootNode =>
        match rootNode.isLeaf with
        | none => none
        | some _ => validLoop h t.order fuel rootNode.vals

/-! ## bptree_test.go: the loops of the tests -/

section
variable [LinearOrder K]

/-- The loop `for _, ent := range ents { bpt, added = bpt.Put(ent.key, ent.val) }`
of the tests, with the list of the flags returned. -/
def putAll (h : Heap K V) (t : tree) : List (K × V) → Option (Heap K V × tree × List Bool)
  | [] => some (h, t, [])
  | ent :: rest =>
    match t.Put h ent.1 ent.2 with
    | none => none
    | some (h1, t1, added) =>
      match putAll h1 t1 rest with
      | none => none
      | some (h2, t2, flags) => some (h2, t2, added :: flags)

/-- The loop `for _, ent := range ents { bpt, val, found = bpt.Del(ent.key) }` of
the tests, with the list of the results returned. -/
def delAll [Inhabited V] (h : Heap K V) (t : tree) :
    List K → Option (Heap K V × tree × List (V × Bool))
  | [] => some (h, t, [])
  | key :: rest =>
    match t.Del h key with
    | none => none
    | some (h1, t1, val, found) =>
      match delAll h1 t1 rest with
      | none => none
      | some (h2, t2, results) => some (h2, t2, (val, found) :: results)

end

/-! ## Abstraction: what a pointer stands for -/

/-- The key `k` is not below the inclusive lower bound `lo` (`none`: unbounded). -/
def geLo [LinearOrder K] (lo : Option K) (k : K) : Prop := ∀ l ∈ lo, l ≤ k

/-- The key `k` is below the exclusive upper bound `hi` (`none`: unbounded). -/
def ltHi [LinearOrder K] (hi : Option K) (k : K) : Prop := ∀ u ∈ hi, k < u

/-- The lower bound is strictly below the upper bound. -/
def bLt [LinearOrder K] (lo hi : Option K) : Prop := ∀ l ∈ lo, ∀ u ∈ hi, l < u

/-- The lower bound of child `i` of a node with separators `keys` and lower bound `lo`. -/
def loAt (lo : Option K) (keys : List K) (i : Nat) : Option K :=
  if i = 0 then lo else keys[i - 1]?

/-- The upper bound of child `i` of a node with separators `keys` and upper bound `hi`. -/
def hiAt (hi : Option K) (keys : List K) (i : Nat) : Option K :=
  if i < keys.length then keys[i]? else hi

/-- The entries below pointer `a`, a subtree of height `d`, in key order. -/
def ents (h : Heap K V) : Nat → Nat → List (K × V)
  | 0, a =>
    match readLeaf h a with
    | some l => l.keys.zip l.vals
    | none => []
  | d + 1, a =>
    match readNode h a with
    | some n => (n.vals.map (ents h d)).flatten
    | none => []

/-- The number of entries of a leaf, of children of an interior node. -/
def nodeSize (h : Heap K V) (a : Nat) : Nat :=
  match h[a]? with
  | some (Cell.leaf l) => l.vals.length
  | some (Cell.node n) => n.vals.length
  | none => 0

/-- The least size of a node of height `d` that is not the root. -/
def minSize (m d : Nat) : Nat := if d = 0 then m / 2 else (m + 1) / 2

/-- The greatest size of a node of height `d`. -/
def maxSize (m d : Nat) : Nat := if d = 0 then m - 1 else m

/-- The fan-out bounds of a node of height `d` that is not the root. -/
def Full (m : Nat) (h : Heap K V) (d a : Nat) : Prop :=
  minSize m d ≤ nodeSize h a ∧ nodeSize h a ≤ maxSize m d

/-- The fan-out bounds of a root of height `d`. -/
def RootFull (m : Nat) (h : Heap K V) (d a : Nat) : Prop :=
  (if d = 0 then 0 else 2) ≤ nodeSize h a ∧ nodeSize h a ≤ maxSize m d

/-- Pointer `a` is a well-formed subtree of height `d` of a tree of order `m` whose
keys lie in `[lo, hi)`: capacities are `m`, keys and values are aligned, keys
are strictly increasing, children are distinct, allocated before their
parent, well formed within the bounds the separators give them, and within
the fan-out bounds.  The size of `a` itself is not constrained. -/
def Rep [LinearOrder K] (m : Nat) (h : Heap K V) : Nat → Nat → Option K → Option K → Prop
  | 0, a, lo, hi =>
    ∃ l, readLeaf h a = some l ∧ l.cap = m ∧ l.keys.length = l.vals.length ∧
      l.keys.Pairwise (fun x y => x < y) ∧ (∀ k ∈ l.keys, geLo lo k ∧ ltHi hi k) ∧ bLt lo hi
  | d + 1, a, lo, hi =>
    ∃ n, readNode h a = some n ∧ n.cap = m ∧ n.vals.length = n.keys.length + 1 ∧
      n.vals.Nodup ∧ (∀ c ∈ n.vals, c < a) ∧
      ∀ i c, n.vals[i]? = some c →
        Rep m h d c (loAt lo n.keys i) (hiAt hi n.keys i) ∧ Full m h d c

/-- The invariant of a tree handle `t` in heap `h`: the root is a well-formed
subtree of height `t.depth` with unbounded keys, within the root's fan-out
bounds, and the cached count is the number of entries. -/
def Inv [LinearOrder K] (m : Nat) (h : Heap K V) (t : tree) : Prop :=
  3 ≤ m ∧ t.order = (m : Int) ∧ ∃ d : Nat, t.depth = (d : Int) ∧
    Rep m h d t.root none none ∧ RootFull m h d t.root ∧
    t.numEnts = ((ents h d t.root).length : Int)

/-- The entries of a tree handle (of no use for a handle with a negative depth). -/
def tree.entries (h : Heap K V) (t : tree) : List (K × V) := ents h t.depth.toNat t.root

/-- The value stored for `k` in a list of entries. -/
def lookup [DecidableEq K] (k : K) (es : List (K × V)) : Option V :=
  (es.find? (fun e => decide (e.1 = k))).map Prod.snd

/-- The entries after `k` was given the value `v`. -/
def upsert [LinearOrder K] (k : K) (v : V) (es : List (K × V)) : List (K × V) :=
  es.filter (fun e => decide (e.1 < k)) ++ (k, v) :: es.filter (fun e => decide (k < e.1))

/-- The entries after `k` was removed. -/
def eraseKey [DecidableEq K] (k : K) (es : List (K × V)) : List (K × V) :=
  es.filter (fun e => !decide (e.1 = k))

/-- The states (heap and tree handle) reachable from `NewBpTree(m)` by `Put` and
`Del`.  The old handle stays usable after an update (in the heap the update
leaves behind), so a reachable tree may be the result of updates of any of
its earlier versions. -/
inductive Reachable [LinearOrder K] [Inhabited V] (m : Nat) : Heap K V → tree → Prop
  | new (h0 h : Heap K V) (t : tree) :
      NewBpTree h0 (m : Int) = some (h, t) → Reachable m h t
  | put (h h' : Heap K V) (t t' : tree) (k : K) (v : V) (b : Bool) :
      Reachable m h t → t.Put h k v = some (h', t', b) → Reachable m h' t'
  | del (h h' : Heap K V) (t t' : tree) (k : K) (v : V) (b : Bool) :
      Reachable m h t → t.Del h k = some (h', t', v, b) → Reachable m h' t'
  | putOld (h h' : Heap K V) (t t' : tree) (k : K) (v : V) (b : Bool) :
      Reachable m h t → t.Put h k v = some (h', t', b) → Reachable m h' t
  | delOld (h h' : Heap K V) (t t' : tree) (k : K) (v : V) (b : Bool) :
      Reachable m h t → t.Del h k = some (h', t', v, b) → Reachable m h' t

/-- The cells below address `n` are the same in `h` and `h'`. -/
def Agree (n : Nat) (h h' : Heap K V) : Prop := ∀ a, a < n → h'[a]? = h[a]?

/-- Heap `h'` only adds cells to `h`. -/
def Ext (h h' : Heap K V) : Prop := h.length ≤ h'.length ∧ Agree h.length h h'

/-- Whether a node at the end of a path `rest` of ancestors is within the fan-out
bounds of its position: those of the root when there is no ancestor. -/
def PosFull (m : Nat) (h : Heap K V) (d a : Nat) (rest : pathT) : Prop :=
  if rest = [] then RootFull m h d a else Full m h d a

/-- The descent context of `node` (height `d`, bounds `lo` and `hi`) in the tree
with root `root` of height `D`: `path` lists its ancestors, parent first; every
ancestor is well formed and within its fan-out bounds; `pre` and `post` are
the entries of the tree before and after those below `node`. -/
def Ctx [LinearOrder K] (m : Nat) (h : Heap K V) (root D : Nat) :
    Nat → Nat → Option K → Option K → pathT → List (K × V) → List (K × V) → Prop
  | node, d, lo, hi, [], pre, post =>
    node = root ∧ d = D ∧ lo = none ∧ hi = none ∧ pre = [] ∧ post = []
  | node, d, lo, hi, p :: rest, pre, post =>
    ∃ n plo phi i pre' post', readNode h p = some n ∧ n.vals[i]? = some node ∧
      lo = loAt plo n.keys i ∧ hi = hiAt phi n.keys i ∧
      Rep m h (d + 1) p plo phi ∧ PosFull m h (d + 1) p rest ∧
      pre = pre' ++ ((n.vals.take i).map (ents h d)).flatten ∧
      post = ((n.vals.drop (i + 1)).map (ents h d)).flatten ++ post' ∧
      Ctx m h root D p (d + 1) plo phi rest pre' post'

/-! ## The nodes of a tree -/

/-- Node `b` belongs to the subtree under `a`: it is `a` itself, or it belongs to
the subtree under a child of the interior node `a`. -/
inductive InTree (h : Heap K V) : Nat → Nat → Prop
  | self (a : Nat) : InTree h a a
  | child (a c b : Nat) (n : interiorNodeS K) :
      readNode h a = some n → c ∈ n.vals → InTree h c b → InTree h a b

/-- The keys stored in the node at `a`: the keys of a leaf, the separators of an
interior node. -/
def keysAt (h : Heap K V) (a : Nat) : List K :=
  match h[a]? with
  | some (Cell.leaf l) => l.keys
  | some (Cell.node n) => n.keys
  | none => []

/-- A path of child pointers leads from `a` to a leaf through `n` interior nodes. -/
inductive PathLen (h : Heap K V) : Nat → Nat → Prop
  | leaf (a : Nat) (l : leafNodeS K V) : readLeaf h a = some l → PathLen h a 0
  | node (a c k : Nat) (n : interiorNodeS K) :
      readNode h a = some n → c ∈ n.vals → PathLen h c k → PathLen h a (k + 1)

/-- The number of entries in the leaves that child pointers lead to from `a`,
following at most `fuel` pointers down. -/
def countLoop (h : Heap K V) : Nat → Nat → Nat
  | 0, _ => 0
  | fuel + 1, a =>
    match h[a]? with
    | some (Cell.leaf l) => (l.keys.zip l.vals).length
    | some (Cell.node n) => (n.vals.map (countLoop h fuel)).sum
    | none => 0

/-- The number of entries in the leaves of a tree handle: no path in a heap
without a cycle is longer than the heap. -/
def tree.countEntries (h : Heap K V) (t : tree) : Nat := countLoop h h.length t.root

end

/-! ## Definitions of the proofs: predicates and example trees -/

section
variable {K V : Type} [LinearOrder K]

/-- The bounds that the separators give to the children are all non-empty intervals. -/
def SepOK (lo hi : Option K) (keys : List K) : Prop :=
  ∀ i, i ≤ keys.length → bLt (loAt lo keys i) (hiAt hi keys i)

/-- The order of entries: by key, strictly increasing. -/
def SortedEnts (es : List (K × V)) : Prop := es.Pairwise (fun e1 e2 => e1.1 < e2.1)

end

section
variable {K V : Type} [LinearOrder K]

/-- The result of `Get` for what the entries hold: the value and `true`, or the
zero value and `false`. -/
def getRes [Inhabited V] (o : Option V) : V × Bool :=
  match o with
  | some v => (v, true)
  | none => (default, false)

/-- The child that the descent takes at an interior node. -/
def childIdx (keys : List K) (key : K) : Nat :=
  match keys.findIdx? (fun k => LessThan key k) with
  | some i => i
  | none => keys.length

end

section
variable {K V : Type}

/-- Every child satisfies `P` with the bounds the separators give it. -/
def Kids (P : Nat → Option K → Option K → Prop) (lo hi : Option K) (keys : List K)
    (vals : List Nat) : Prop :=
  ∀ j c, vals[j]? = some c → P c (loAt lo keys j) (hiAt hi keys j)

end

section
variable {K V : Type} [LinearOrder K]

/-- What `Rep` asks of a child. -/
def Kid (m : Nat) (h : Heap K V) (d : Nat) (c : Nat) (lo hi : Option K) : Prop :=
  Rep m h d c lo hi ∧ Full m h d c

end

section
variable {K V : Type} [LinearOrder K]

/-- The result of an upward pass that started in heap `h`: the cells below `n`
are kept, the new handle differs from `t` in root and depth only, and its
root is a well-formed root holding the entries `es`. -/
def UpRes (m : Nat) (t : tree) (h : Heap K V) (n : Nat)
    (res : Option (Heap K V × tree)) (es : List (K × V)) : Prop :=
  ∃ (h' : Heap K V) (t' : tree) (D' : Nat), res = some (h', t') ∧ h.length ≤ h'.length ∧ Agree n h h' ∧
    t'.order = t.order ∧ t'.numEnts = t.numEnts ∧ t'.depth = (D' : Int) ∧
    Rep m h' D' t'.root none none ∧ RootFull m h' D' t'.root ∧ ents h' D' t'.root = es

end

section
variable {K V : Type} [LinearOrder K]

/-- The statement of `insertUp` for a path: the two halves of the split node
take the place of the old node. -/
def InsUp (m : Nat) (h0 : Heap K V) (t : tree) (D : Nat) (path : pathT) : Prop :=
  ∀ {h : Heap K V} {oldNode newNode splitNode d : Nat} {lo hi : Option K}
    {pre post : List (K × V)} {splitKey : K},
    Ctx m h0 t.root D oldNode (d + 1) lo hi path pre post →
    Rep m h0 (d + 1) oldNode lo hi →
    Agree h0.length h0 h → h0.length ≤ newNode → h0.length ≤ splitNode → newNode ≠ splitNode →
    Kid m h (d + 1) newNode lo (some splitKey) → Kid m h (d + 1) splitNode (some splitKey) hi →
    UpRes m t h h.length (t.insertUp h oldNode newNode splitKey splitNode path)
      (pre ++ ents h (d + 1) newNode ++ ents h (d + 1) splitNode ++ post)

end

section
variable {K V : Type} [LinearOrder K]

/-- The invariant of a tree handle, with its entries named. -/
def EInv (m : Nat) (h : Heap K V) (t : tree) (es : List (K × V)) : Prop :=
  3 ≤ m ∧ t.order = (m : Int) ∧ ∃ d : Nat, t.depth = (d : Int) ∧
    Rep m h d t.root none none ∧ RootFull m h d t.root ∧
    ents h d t.root = es ∧ t.numEnts = (es.length : Int)

end

section
variable {K V : Type} [LinearOrder K]

/-- The peer the loops of `findPeerLeft` answer at child index `i`. -/
def peerLeftAt (parent : interiorNodeS K) (i : Nat) : Option (Nat × K) :=
  match parent.vals[i - 1]?, parent.keys[i - 1]? with
  | some peer, some key => some (peer, key)
  | _, _ => none

/-- The peer the loops of `findPeerRight` answer at child index `i`. -/
def peerRightAt (parent : interiorNodeS K) (i : Nat) : Option (Nat × K) :=
  match parent.vals[i + 1]?, parent.keys[i]? with
  | some peer, some key => some (peer, key)
  | _, _ => none

end

section
variable {K V : Type} [LinearOrder K]

/-- The outcome of a steal between two neighbours `n1` and `n2`: both are well
formed and within the fan-out bounds, on either side of the new separator `S`,
which is the first key below `n2`. -/
def StealRes (m : Nat) (h2 : Heap K V) (dd n1 n2 : Nat) (lo hi : Option K)
    (es : List (K × V)) (S : K) : Prop :=
  Kid m h2 dd n1 lo (some S) ∧ Kid m h2 dd n2 (some S) hi ∧
    ents h2 dd n1 ++ ents h2 dd n2 = es ∧ ∃ v rest, ents h2 dd n2 = (S, v) :: rest

end

section
variable {K V : Type} [LinearOrder K]

/-- The size bounds of a node that lost a child or an entry: one below the fan-out
bounds of its position. -/
def Under (m : Nat) (h : Heap K V) (d a : Nat) (rest : pathT) : Prop :=
  (if rest = [] then 1 else minSize m d - 1) ≤ nodeSize h a ∧ nodeSize h a ≤ maxSize m d

/-- The statement of `delUpFill` for a path: the new parent, which may be too
small, takes the place of the old parent. -/
def DelUp (m : Nat) (h0 : Heap K V) (t : tree) (D : Nat) (path : pathT) : Prop :=
  ∀ {h : Heap K V} {oldParent newParent d : Nat} {lo hi : Option K}
    {pre post : List (K × V)},
    Ctx m h0 t.root D oldParent (d + 1) lo hi path pre post →
    Rep m h0 (d + 1) oldParent lo hi →
    Agree h0.length h0 h → h0.length ≤ newParent →
    Rep m h (d + 1) newParent lo hi → Under m h (d + 1) newParent path →
    UpRes m t h h0.length (t.delUpFill h oldParent newParent path)
      (pre ++ ents h (d + 1) newParent ++ post)

end

section
variable {K V : Type} [LinearOrder K] [Inhabited V]

/-- The old handle `t` after an update that turned heap `h` into heap `h'`: no
cell of `h` was written (the nodes reachable from `t` are cells of `h`, its
root among them), `t` is still a well-formed tree of order `m`, it holds the
entries it held, and `Get` has for every key the result it had. -/
def Unchanged (m : Nat) (h h' : Heap K V) (t : tree) : Prop :=
  h.length ≤ h'.length ∧ (∀ a, a < h.length → h'[a]? = h[a]?) ∧ t.root < h.length ∧
    Inv m h' t ∧ t.entries h' = t.entries h ∧
    ∀ k', ∃ res, t.Get h k' = some res ∧ t.Get h' k' = some res

end

section

/-- The heap that `NewBpTree(3)` leaves when it starts from the empty heap. -/
def heap0 : Heap Nat Nat := [Cell.leaf ⟨3, [], []⟩]

/-- The handle that `NewBpTree(3)` returns in `heap0`. -/
def tree0 : tree := ⟨0, 3, 0, 0⟩

/-- The heap after `Put(1, 10)` on `tree0`. -/
def heap1 : Heap Nat Nat :=
  [Cell.leaf ⟨3, [], []⟩, Cell.leaf ⟨3, [], []⟩, Cell.leaf ⟨3, [1], [10]⟩]

/-- The handle that `Put(1, 10)` returns on `tree0`. -/
def tree1 : tree := ⟨2, 3, 1, 0⟩

/-- The heap after `Put(2, 20)` on `tree1`. -/
def heap2 : Heap Nat Nat :=
  [Cell.leaf ⟨3, [], []⟩, Cell.leaf ⟨3, [], []⟩, Cell.leaf ⟨3, [1], [10]⟩,
   Cell.leaf ⟨3, [], []⟩, Cell.leaf ⟨3, [1, 2], [10, 20]⟩]

/-- The handle that `Put(2, 20)` returns on `tree1`. -/
def tree2 : tree := ⟨4, 3, 2, 0⟩

/-- The heap after `Put(3, 30)` on `tree2`: the root leaf was split and the tree
has a root with two leaves. -/
def heap3 : Heap Nat Nat :=
  [Cell.leaf ⟨3, [], []⟩, Cell.leaf ⟨3, [], []⟩, Cell.leaf ⟨3, [1], [10]⟩,
   Cell.leaf ⟨3, [], []⟩, Cell.leaf ⟨3, [1, 2], [10, 20]⟩,
   Cell.leaf ⟨3, [], []⟩, Cell.leaf ⟨3, [1], [10]⟩, Cell.leaf ⟨3, [2, 3], [20, 30]⟩,
   Cell.node ⟨3, [2], [6, 7]⟩]

/-- The handle that `Put(3, 30)` returns on `tree2`. -/
def tree3 : tree := ⟨8, 3, 3, 1⟩

end

section
variable {K V : Type} [LinearOrder K]

/-- The number of nodes of a subtree of height `d`. -/
def treeSize (h : Heap K V) : Nat → Nat → Nat
  | 0, _ => 1
  | d + 1, a =>
    match readNode h a with
    | some n => 1 + (n.vals.map (treeSize h d)).sum
    | none => 1

end

section
variable {K V : Type} [LinearOrder K]

/-- The entries after the pairs of `l` were put one after the other. -/
def putsEnts (es : List (K × V)) (l : List (K × V)) : List (K × V) :=
  l.foldl (fun es e => upsert e.1 e.2 es) es

/-- The flags that the puts of the pairs of `l` return. -/
def putFlags : List (K × V) → List (K × V) → List Bool
  | _, [] => []
  | es, e :: l => (lookup e.1 es).isNone :: putFlags (upsert e.1 e.2 es) l

/-- The entries after the keys of `ks` were deleted one after the other. -/
def delsEnts (es : List (K × V)) (ks : List K) : List (K × V) :=
  ks.foldl (fun es k => eraseKey k es) es

/-- The results that the deletions of the keys of `ks` return. -/
def delResults [Inhabited V] : List (K × V) → List K → List (V × Bool)
  | _, [] => []
  | es, k :: ks => getRes (lookup k es) :: delResults (eraseKey k es) ks

end

section

/-- The key `StringKey("a")`. -/
def keyA : StringKey := ⟨[97]⟩

/-- The key `StringKey("b")`. -/
def keyB : StringKey := ⟨[98]⟩

/-- The key `StringKey("c")`. -/
def keyC : StringKey := ⟨[99]⟩

/-- The key `StringKey("d")`. -/
def keyD : StringKey := ⟨[100]⟩

/-- The heap that `NewBpTree(3)` leaves when it starts from the empty heap. -/
def strHeap0 : Heap StringKey Nat := [Cell.leaf ⟨3, [], []⟩]

/-- The handle that `NewBpTree(3)` returns. -/
def strTree0 : tree := ⟨0, 3, 0, 0⟩

/-- The heap after `Put("a", 1)`. -/
def strHeap1 : Heap StringKey Nat :=
  strHeap0 ++ [Cell.leaf ⟨3, [], []⟩, Cell.leaf ⟨3, [keyA], [1]⟩]

/-- The handle after `Put("a", 1)`. -/
def strTree1 : tree := ⟨2, 3, 1, 0⟩

/-- The heap after `Put("b", 2)`. -/
def strHeap2 : Heap StringKey Nat :=
  strHeap1 ++ [Cell.leaf ⟨3, [], []⟩, Cell.leaf ⟨3, [keyA, keyB], [1, 2]⟩]

/-- The handle after `Put("b", 2)`. -/
def strTree2 : tree := ⟨4, 3, 2, 0⟩

/-- The heap after `Put("c", 3)`: the root leaf was split. -/
def strHeap3 : Heap StringKey Nat :=
  strHeap2 ++ [Cell.leaf ⟨3, [], []⟩, Cell.leaf ⟨3, [keyA], [1]⟩,
    Cell.leaf ⟨3, [keyB, keyC], [2, 3]⟩, Cell.node ⟨3, [keyB], [6, 7]⟩]

/-- The handle after `Put("c", 3)`. -/
def strTree3 : tree := ⟨8, 3, 3, 1⟩

/-- The heap after `Put("d", 4)`: the right leaf was split. -/
def strHeap4 : Heap StringKey Nat :=
  strHeap3 ++ [Cell.leaf ⟨3, [], []⟩, Cell.leaf ⟨3, [keyB], [2]⟩,
    Cell.leaf ⟨3, [keyC, keyD], [3, 4]⟩, Cell.node ⟨3, [keyB, keyC], [6, 10, 11]⟩]

/-- The handle after `Put("d", 4)`. -/
def strTree4 : tree := ⟨12, 3, 4, 1⟩

end

section
variable {K V : Type} [LinearOrder K]

/-- Pointer `a` is a tree of height `d` with key ordering and separator
consistency: in every node the slices are aligned and the keys are strictly
increasing, and for every child of an interior node the keys of the entries
below it are at least the separator before it and less than the separator
after it. -/
def Ordered (h : Heap K V) : Nat → Nat → Prop
  | 0, a =>
    ∃ l, readLeaf h a = some l ∧ l.keys.length = l.vals.length ∧
      l.keys.Pairwise (fun x y => x < y)
  | d + 1, a =>
    ∃ n, readNode h a = some n ∧ n.vals.length = n.keys.length + 1 ∧
      n.keys.Pairwise (fun x y => x < y) ∧
      ∀ i c, n.vals[i]? = some c → Ordered h d c ∧
        ∀ e ∈ ents h d c, geLo (loAt none n.keys i) e.1 ∧ ltHi (hiAt none n.keys i) e.1

end

section
variable {K V : Type} [LinearOrder K]

/-- Whether every node of the path has as many children as the order allows. -/
def pathFull (m : Nat) (h : Heap K V) (path : pathT) : Bool :=
  path.all (fun p => decide (nodeSize h p = m))

/-- The handle of the result of an upward pass, if there is one, has the depth
of `t` plus `δ`. -/
def DRes (t : tree) (res : Option (Heap K V × tree)) (δ : Int) : Prop :=
  ∀ h' t', res = some (h', t') → t'.depth = t.depth + δ

/-- The statement of `insertUp` for a path, about the depth: it grows when every
node of the path is full. -/
def InsUpD (m : Nat) (h0 : Heap K V) (t : tree) (D : Nat) (path : pathT) : Prop :=
  ∀ {h : Heap K V} {oldNode newNode splitNode d : Nat} {lo hi : Option K}
    {pre post : List (K × V)} {splitKey : K},
    Ctx m h0 t.root D oldNode (d + 1) lo hi path pre post →
    Rep m h0 (d + 1) oldNode lo hi →
    Agree h0.length h0 h → h0.length ≤ newNode → h0.length ≤ splitNode → newNode ≠ splitNode →
    Kid m h (d + 1) newNode lo (some splitKey) → Kid m h (d + 1) splitNode (some splitKey) hi →
    DRes t (t.insertUp h oldNode newNode splitKey splitNode path)
      (if pathFull m h0 path = true then 1 else 0)

end

section
variable {K V : Type} [LinearOrder K]

/-- The interior node at `q` has `a` separators and `b` children. -/
def Len (h : Heap K V) (q a b : Nat) : Prop :=
  ∃ nd, readNode h q = some nd ∧ nd.keys.length = a ∧ nd.vals.length = b

/-- The interior node at `q` has as many separators and children as `r`, or one
separator and one child less. -/
def LenRel (h : Heap K V) (q : Nat) (r : interiorNodeS K) : Prop :=
  Len h q r.keys.length r.vals.length ∨
    (Len h q (r.keys.length - 1) (r.vals.length - 1) ∧ 1 ≤ r.keys.length ∧ 1 ≤ r.vals.length)

/-- The handle of the result of an upward pass of a deletion, if there is one, is
what `setRootNode` makes of a node allocated after `h0` that has as many
separators and children as the old root `r`, or one of each less. -/
def RootRes (t : tree) (h0 : Heap K V) (r : interiorNodeS K)
    (res : Option (Heap K V × tree)) : Prop :=
  ∀ h' t', res = some (h', t') →
    ∃ rc, h0.length ≤ rc ∧ LenRel h' rc r ∧ t.setRootNode h' rc = some t'

end

section

/-- A heap with one leaf of order 3 that holds three entries. -/
def leafHeap3 : Heap Nat Nat := [Cell.leaf ⟨3, [1, 2, 3], [10, 20, 30]⟩]

/-- A heap with one interior node of order 3 that holds three separators and four
children. -/
def nodeHeap3 : Heap Nat Nat := [Cell.node ⟨3, [10, 20, 30], [1, 2, 3, 4]⟩]

/-- A heap with one interior node of order 4 that holds four separators and five
children. -/
def nodeHeap4 : Heap Nat Nat := [Cell.node ⟨4, [10, 20, 30, 40], [1, 2, 3, 4, 5]⟩]

/-- The heap after `Del(1)` on `tree3`: the leaf that lost key 1 took key 2 from
its right sibling, the leaves hold the keys 2 and 3 below the separator 3. -/
def heap23 : Heap Nat Nat :=
  heap3 ++ [Cell.leaf ⟨3, [], []⟩, Cell.leaf ⟨3, [2], [20]⟩, Cell.leaf ⟨3, [3], [30]⟩,
    Cell.node ⟨3, [3], [10, 11]⟩]

/-- The handle that `Del(1)` returns on `tree3`. -/
def tree23 : tree := ⟨12, 3, 2, 1⟩

/-- The heap after `Del(2)` on `tree23`: the two leaves were merged into the leaf
at address 14, and the copy of the root at address 15 is left with no separator
and that leaf as its only child. -/
def heap23d : Heap Nat Nat :=
  heap23 ++ [Cell.leaf ⟨3, [], []⟩, Cell.leaf ⟨3, [3], [30]⟩, Cell.node ⟨3, [], [14]⟩]

/-- The handle that `Del(2)` returns on `tree23`: its root is the merged leaf. -/
def tree23d : tree := ⟨14, 3, 1, 0⟩

end

section
variable {K V : Type} [LinearOrder K]

/-- The handle of the result of an upward pass, if there is one, has node `x` in
its tree, and the cells below `B` are those of `h`. -/
def TrackRes (B : Nat) (h : Heap K V) (x : Nat)
    (res : Option (Heap K V × tree)) : Prop :=
  ∀ h' t', res = some (h', t') → InTree h' t'.root x ∧ h'.take B = h.take B

/-- Node `x` is a child of the node at `new`, or below one, through cells below
`B` only. -/
def Top (B : Nat) (h : Heap K V) (new x : Nat) : Prop :=
  B ≤ new ∧ ∃ nd c, readNode h new = some nd ∧ c ∈ nd.vals ∧ InTree (h.take B) c x

end

section
variable {K V : Type} [LinearOrder K]

/-- What a step of an upward pass keeps: the cells below `B`, and the children of
the node at `new`. -/
def Keeps (B new : Nat) (h h2 : Heap K V) : Prop :=
  h2.take B = h.take B ∧
    ∀ nd, readNode h new = some nd →
      ∃ nd2, readNode h2 new = some nd2 ∧ ∀ c ∈ nd.vals, c ∈ nd2.vals

end

section
variable {K V : Type} [LinearOrder K]

/-- The heap after `Put(4, 40)`, …, `Put(7, 70)` on `tree3`: a tree of depth 2. -/
def heap7 : Heap Nat Nat :=
  heap3 ++
  [Cell.leaf ⟨3, [], []⟩, Cell.leaf ⟨3, [2], [20]⟩, Cell.leaf ⟨3, [3, 4], [30, 40]⟩,
   Cell.node ⟨3, [2, 3], [6, 10, 11]⟩,
   Cell.leaf ⟨3, [], []⟩, Cell.leaf ⟨3, [3], [30]⟩, Cell.leaf ⟨3, [4, 5], [40, 50]⟩,
   Cell.node ⟨3, [2], [6, 10]⟩, Cell.node ⟨3, [4], [14, 15]⟩, Cell.node ⟨3, [3], [16, 17]⟩,
   Cell.leaf ⟨3, [], []⟩, Cell.leaf ⟨3, [4], [40]⟩, Cell.leaf ⟨3, [5, 6], [50, 60]⟩,
   Cell.node ⟨3, [4, 5], [14, 20, 21]⟩, Cell.node ⟨3, [3], [16, 22]⟩,
   Cell.leaf ⟨3, [], []⟩, Cell.leaf ⟨3, [5], [50]⟩, Cell.leaf ⟨3, [6, 7], [60, 70]⟩,
   Cell.node ⟨3, [4], [14, 20]⟩, Cell.node ⟨3, [6], [25, 26]⟩,
   Cell.node ⟨3, [3, 5], [16, 27, 28]⟩]

/-- The handle of the tree with the keys 1 to 7: the root at 29 has the children
16 (leaves `[1]`, `[2]`), 27 (leaves `[3]`, `[4]`) and 28 (leaves `[5]`,
`[6, 7]`). -/
def tree7 : tree := ⟨29, 3, 7, 2⟩

/-- The heap after `Del(5)` on `tree7`: the leaf `[5]` took the entry 6 from its
right sibling; the separator 5 of the root is no longer a key of the tree. -/
def heap7d : Heap Nat Nat :=
  heap7 ++
  [Cell.leaf ⟨3, [], []⟩, Cell.leaf ⟨3, [6], [60]⟩, Cell.leaf ⟨3, [7], [70]⟩,
   Cell.node ⟨3, [7], [31, 32]⟩, Cell.node ⟨3, [3, 5], [16, 27, 33]⟩]

/-- The handle that `Del(5)` returns on `tree7`: the root at 34 has the children
16, 27 and 33 (leaves `[6]`, `[7]`). -/
def tree7d : tree := ⟨34, 3, 6, 2⟩

/-- The heap after `Del(2)` on `tree3`: the leaf `[2, 3]` lost its first key and
the separator 2 of the root stayed. -/
def heap3d : Heap Nat Nat :=
  heap3 ++ [Cell.leaf ⟨3, [], []⟩, Cell.leaf ⟨3, [3], [30]⟩, Cell.node ⟨3, [2], [6, 10]⟩]

/-- The handle that `Del(2)` returns on `tree3`. -/
def tree3d : tree := ⟨11, 3, 2, 1⟩

end

section

/-- A heap with an empty leaf at 0 and a leaf with two entries at 1. -/
def stealHeap : Heap Nat Nat := [Cell.leaf ⟨3, [], []⟩, Cell.leaf ⟨3, [1, 2], [10, 20]⟩]

end

section

/-- The heap after `Put(4, 40)` and `Put(0, 0)` on `tree3`: the root at address 15
has the separators 2 and 3 above the leaves with the keys 0 and 1 (address 14),
2 (address 10), 3 and 4 (address 11). -/
def heap5 : Heap Nat Nat :=
  heap3 ++ [Cell.leaf ⟨3, [], []⟩, Cell.leaf ⟨3, [2], [20]⟩, Cell.leaf ⟨3, [3, 4], [30, 40]⟩,
    Cell.node ⟨3, [2, 3], [6, 10, 11]⟩, Cell.leaf ⟨3, [], []⟩, Cell.leaf ⟨3, [0, 1], [0, 10]⟩,
    Cell.node ⟨3, [2, 3], [14, 10, 11]⟩]

/-- The handle that the two `Put`s return. -/
def tree5 : tree := ⟨15, 3, 5, 1⟩

end

/-! ## Proofs -/

section
variable {K V : Type}

/-! ## Heap cells -/

theorem readLeaf_eq_some {h : Heap K V} {p : Nat} {l : leafNodeS K V} :
    readLeaf h p = some l ↔ h[p]? = some (Cell.leaf l) := by
  unfold readLeaf
  split
  · next l' hl => simp [hl]
  · next hn =>
    constructor
    · intro hh; cases hh
    · intro hh; exact absurd hh (hn l)

theorem readNode_eq_some {h : Heap K V} {p : Nat} {n : interiorNodeS K} :
    readNode h p = some n ↔ h[p]? = some (Cell.node n) := by
  unfold readNode
  split
  · next n' hn' => simp [hn']
  · next hn =>
    constructor
    · intro hh; cases hh
    · intro hh; exact absurd hh (hn n)

theorem readLeaf_lt {h : Heap K V} {p : Nat} {l : leafNodeS K V} (hl : readLeaf h p = some l) :
    p < h.length := by
  rw [readLeaf_eq_some] at hl
  exact (List.getElem?_eq_some.1 hl).1

theorem readNode_lt {h : Heap K V} {p : Nat} {n : interiorNodeS K} (hn : readNode h p = some n) :
    p < h.length := by
  rw [readNode_eq_some] at hn
  exact (List.getElem?_eq_some.1 hn).1

theorem readLeaf_of_node {h : Heap K V} {p : Nat} {n : interiorNodeS K}
    (hn : readNode h p = some n) : readLeaf h p = none := by
  rw [readNode_eq_some] at hn
  simp [readLeaf, hn]

theorem readNode_of_leaf {h : Heap K V} {p : Nat} {l : leafNodeS K V}
    (hl : readLeaf h p = some l) : readNode h p = none := by
  rw [readLeaf_eq_some] at hl
  simp [readNode, hl]

/-! ## Agreement of heaps -/

theorem Agree.refl (n : Nat) (h : Heap K V) : Agree n h h := fun _ _ => rfl

theorem Agree.trans {n : Nat} {h1 h2 h3 : Heap K V} (a : Agree n h1 h2) (b : Agree n h2 h3) :
    Agree n h1 h3 := fun x hx => (b x hx).trans (a x hx)

theorem Agree.mono {n n' : Nat} {h h' : Heap K V} (a : Agree n h h') (hn : n' ≤ n) :
    Agree n' h h' := fun x hx => a x (Nat.lt_of_lt_of_le hx hn)

theorem Agree.set {n p : Nat} (h : Heap K V) (c : Cell K V) (hp : n ≤ p) :
    Agree n h (h.set p c) := by
  intro a ha
  rw [List.getElem?_set]
  have : p ≠ a := by omega
  simp [this]

theorem Agree.append {n : Nat} (h l : Heap K V) (hn : n ≤ h.length) : Agree n h (h ++ l) := by
  intro a ha
  exact List.getElem?_append_left (by omega)

theorem Agree.readLeaf {n p : Nat} {h h' : Heap K V} (a : Agree n h h') (hp : p < n) :
    readLeaf h' p = readLeaf h p := by
  unfold bptree.readLeaf
  rw [a p hp]

theorem Agree.readNode {n p : Nat} {h h' : Heap K V} (a : Agree n h h') (hp : p < n) :
    readNode h' p = readNode h p := by
  unfold bptree.readNode
  rw [a p hp]

theorem Agree.nodeSize {n p : Nat} {h h' : Heap K V} (a : Agree n h h') (hp : p < n) :
    nodeSize h' p = nodeSize h p := by
  unfold bptree.nodeSize
  rw [a p hp]

theorem Ext.refl_ext (h : Heap K V) : Ext h h := ⟨Nat.le_refl _, Agree.refl _ _⟩

theorem Ext.trans_ext {h1 h2 h3 : Heap K V} (a : Ext h1 h2) (b : Ext h2 h3) : Ext h1 h3 :=
  ⟨Nat.le_trans a.1 b.1, a.2.trans (b.2.mono a.1)⟩

theorem Ext.append_ext (h l : Heap K V) : Ext h (h ++ l) :=
  ⟨by simp, Agree.append h l (Nat.le_refl _)⟩

theorem Ext.to_agree {h h' : Heap K V} (e : Ext h h') {n : Nat} (hn : n ≤ h.length) : Agree n h h' :=
  e.2.mono hn

theorem alloc_fst (h : Heap K V) (c : Cell K V) : (alloc h c).1 = h ++ [c] := rfl

theorem alloc_snd (h : Heap K V) (c : Cell K V) : (alloc h c).2 = h.length := rfl

theorem getElem?_append_self (h : Heap K V) (c : Cell K V) : (h ++ [c])[h.length]? = some c := by
  simp

theorem set_append_self (h : Heap K V) (c c' : Cell K V) :
    (h ++ [c]).set h.length c' = h ++ [c'] := by
  rw [List.set_append_right _ _ (Nat.le_refl _)]
  simp

theorem readLeaf_set_self {h : Heap K V} {p : Nat} (hp : p < h.length) (l : leafNodeS K V) :
    readLeaf (h.set p (Cell.leaf l)) p = some l := by
  rw [readLeaf_eq_some, List.getElem?_set]
  simp [hp]

theorem readNode_set_self {h : Heap K V} {p : Nat} (hp : p < h.length) (n : interiorNodeS K) :
    readNode (h.set p (Cell.node n)) p = some n := by
  rw [readNode_eq_some, List.getElem?_set]
  simp [hp]

theorem readLeaf_set_ne {h : Heap K V} {p q : Nat} (hpq : p ≠ q) (c : Cell K V) :
    readLeaf (h.set p c) q = readLeaf h q := by
  unfold readLeaf
  rw [List.getElem?_set]
  simp [hpq]

theorem readNode_set_ne {h : Heap K V} {p q : Nat} (hpq : p ≠ q) (c : Cell K V) :
    readNode (h.set p c) q = readNode h q := by
  unfold readNode
  rw [List.getElem?_set]
  simp [hpq]

theorem nodeSize_set_ne {h : Heap K V} {p q : Nat} (hpq : p ≠ q) (c : Cell K V) :
    nodeSize (h.set p c) q = nodeSize h q := by
  unfold nodeSize
  rw [List.getElem?_set]
  simp [hpq]

theorem nodeSize_of_leaf {h : Heap K V} {p : Nat} {l : leafNodeS K V}
    (hl : readLeaf h p = some l) : nodeSize h p = l.vals.length := by
  rw [readLeaf_eq_some] at hl
  simp [nodeSize, hl]

theorem nodeSize_of_node {h : Heap K V} {p : Nat} {n : interiorNodeS K}
    (hn : readNode h p = some n) : nodeSize h p = n.vals.length := by
  rw [readNode_eq_some] at hn
  simp [nodeSize, hn]

/-! ## Bounds -/

section
variable [LinearOrder K]

theorem geLo_none (k : K) : geLo none k := by
  intro l hl; cases hl

theorem ltHi_none (k : K) : ltHi none k := by
  intro l hl; cases hl

theorem geLo_some {l k : K} : geLo (some l) k ↔ l ≤ k := by
  simp [geLo]

theorem ltHi_some {u k : K} : ltHi (some u) k ↔ k < u := by
  simp [ltHi]

theorem bLt_none_left (hi : Option K) : bLt none hi := by
  intro l hl; cases hl

theorem bLt_none_right (lo : Option K) : bLt lo none := by
  intro l _ u hu; cases hu

theorem bLt_some {l u : K} : bLt (some l) (some u) ↔ l < u := by
  simp [bLt]

theorem bLt_of_mem {lo hi : Option K} {k : K} (h1 : geLo lo k) (h2 : ltHi hi k) : bLt lo hi :=
  fun l hl u hu => lt_of_le_of_lt (h1 l hl) (h2 u hu)

theorem bLt_some_right {lo : Option K} {u : K} : bLt lo (some u) ↔ ∀ l ∈ lo, l < u := by
  simp [bLt]

theorem bLt_some_left {hi : Option K} {l : K} : bLt (some l) hi ↔ ltHi hi l := by
  simp [bLt, ltHi]

theorem geLo_trans {lo : Option K} {a b : K} (h1 : geLo lo a) (h2 : a ≤ b) : geLo lo b :=
  fun l hl => le_trans (h1 l hl) h2

theorem ltHi_trans {hi : Option K} {a b : K} (h1 : ltHi hi b) (h2 : a ≤ b) : ltHi hi a :=
  fun u hu => lt_of_le_of_lt h2 (h1 u hu)

end

theorem loAt_zero (lo : Option K) (keys : List K) : loAt lo keys 0 = lo := by
  simp [loAt]

theorem loAt_succ (lo : Option K) (keys : List K) (i : Nat) : loAt lo keys (i + 1) = keys[i]? := by
  simp [loAt]

theorem hiAt_lt (hi : Option K) (keys : List K) {i : Nat} (h : i < keys.length) :
    hiAt hi keys i = some keys[i] := by
  simp [hiAt, h]

theorem hiAt_ge (hi : Option K) (keys : List K) {i : Nat} (h : keys.length ≤ i) :
    hiAt hi keys i = hi := by
  have : ¬ i < keys.length := by omega
  simp [hiAt, this]

theorem hiAt_eq_loAt_succ (hi : Option K) (lo : Option K) (keys : List K) {i : Nat}
    (h : i < keys.length) : hiAt hi keys i = loAt lo keys (i + 1) := by
  simp [hiAt, loAt, h]

end

section
variable {K V : Type} [LinearOrder K]

/-! ## Well-formed subtrees -/

theorem Rep_zero {m : Nat} {h : Heap K V} {a : Nat} {lo hi : Option K} :
    Rep m h 0 a lo hi ↔
      ∃ l, readLeaf h a = some l ∧ l.cap = m ∧ l.keys.length = l.vals.length ∧
        l.keys.Pairwise (fun x y => x < y) ∧ (∀ k ∈ l.keys, geLo lo k ∧ ltHi hi k) ∧ bLt lo hi :=
  Iff.rfl

theorem Rep_succ {m : Nat} {h : Heap K V} {d a : Nat} {lo hi : Option K} :
    Rep m h (d + 1) a lo hi ↔
      ∃ n, readNode h a = some n ∧ n.cap = m ∧ n.vals.length = n.keys.length + 1 ∧
        n.vals.Nodup ∧ (∀ c ∈ n.vals, c < a) ∧
        ∀ i c, n.vals[i]? = some c →
          Rep m h d c (loAt lo n.keys i) (hiAt hi n.keys i) ∧ Full m h d c :=
  Iff.rfl

theorem ents_zero (h : Heap K V) (a : Nat) :
    ents h 0 a = match readLeaf h a with
      | some l => l.keys.zip l.vals
      | none => [] := rfl

theorem ents_succ (h : Heap K V) (d a : Nat) :
    ents h (d + 1) a = match readNode h a with
      | some n => (n.vals.map (ents h d)).flatten
      | none => [] := rfl

theorem ents_leaf {h : Heap K V} {a : Nat} {l : leafNodeS K V} (hl : readLeaf h a = some l) :
    ents h 0 a = l.keys.zip l.vals := by
  rw [ents_zero, hl]

theorem ents_node {h : Heap K V} {d a : Nat} {n : interiorNodeS K} (hn : readNode h a = some n) :
    ents h (d + 1) a = (n.vals.map (ents h d)).flatten := by
  rw [ents_succ, hn]

theorem Rep.lt {m : Nat} {h : Heap K V} {d a : Nat} {lo hi : Option K}
    (r : Rep m h d a lo hi) : a < h.length := by
  cases d with
  | zero => obtain ⟨l, hl, _⟩ := Rep_zero.1 r; exact readLeaf_lt hl
  | succ d => obtain ⟨n, hn, _⟩ := Rep_succ.1 r; exact readNode_lt hn

theorem Rep.depth_le {m : Nat} {h : Heap K V} {d a : Nat} {lo hi : Option K}
    (r : Rep m h d a lo hi) : d ≤ a := by
  induction d generalizing a lo hi with
  | zero => exact Nat.zero_le _
  | succ d ih =>
    obtain ⟨n, hn, _, hlen, _, hlt, hch⟩ := Rep_succ.1 r
    have h0 : 0 < n.vals.length := by omega
    have hc := hch 0 n.vals[0] (List.getElem?_eq_getElem h0)
    have := ih hc.1
    have := hlt n.vals[0] (List.getElem_mem h0)
    omega

theorem Full.agree_full {m : Nat} {h h' : Heap K V} {d a : Nat} (f : Full m h d a)
    (ag : Agree (a + 1) h h') : Full m h' d a := by
  unfold Full at *
  rw [ag.nodeSize (Nat.lt_succ_self a)]
  exact f

theorem RootFull.agree_root {m : Nat} {h h' : Heap K V} {d a : Nat} (f : RootFull m h d a)
    (ag : Agree (a + 1) h h') : RootFull m h' d a := by
  unfold RootFull at *
  rw [ag.nodeSize (Nat.lt_succ_self a)]
  exact f

theorem Rep.agree {m : Nat} {h h' : Heap K V} {d a : Nat} {lo hi : Option K}
    (r : Rep m h d a lo hi) (ag : Agree (a + 1) h h') : Rep m h' d a lo hi := by
  induction d generalizing a lo hi with
  | zero =>
    obtain ⟨l, hl, rest⟩ := Rep_zero.1 r
    exact Rep_zero.2 ⟨l, by rw [ag.readLeaf (Nat.lt_succ_self a)]; exact hl, rest⟩
  | succ d ih =>
    obtain ⟨n, hn, hcap, hlen, hnd, hlt, hch⟩ := Rep_succ.1 r
    refine Rep_succ.2 ⟨n, by rw [ag.readNode (Nat.lt_succ_self a)]; exact hn, hcap, hlen, hnd,
      hlt, ?_⟩
    intro i c hc
    have hca : c < a := hlt c (List.getElem?_mem hc)
    have ag' : Agree (c + 1) h h' := ag.mono (by omega)
    exact ⟨ih (hch i c hc).1 ag', (hch i c hc).2.agree_full ag'⟩

theorem Rep.ents_agree {m : Nat} {h h' : Heap K V} {d a : Nat} {lo hi : Option K}
    (r : Rep m h d a lo hi) (ag : Agree (a + 1) h h') : ents h' d a = ents h d a := by
  induction d generalizing a lo hi with
  | zero =>
    rw [ents_zero, ents_zero, ag.readLeaf (Nat.lt_succ_self a)]
  | succ d ih =>
    obtain ⟨n, hn, hcap, hlen, hnd, hlt, hch⟩ := Rep_succ.1 r
    rw [ents_succ, ents_succ, ag.readNode (Nat.lt_succ_self a), hn]
    simp only
    congr 1
    apply List.map_congr_left
    intro c hc
    obtain ⟨i, hi', hic⟩ := List.getElem_of_mem hc
    have hc' : n.vals[i]? = some c := by rw [List.getElem?_eq_getElem hi', hic]
    have hca : c < a := hlt c hc
    exact ih (hch i c hc').1 (ag.mono (by omega))

/-! ## Separators -/

theorem SepOK.step {lo hi : Option K} {keys : List K} (s : SepOK lo hi keys) {i : Nat}
    (h1 : i + 1 < keys.length) : keys[i] < keys[i + 1] := by
  have := s (i + 1) (by omega)
  rw [loAt_succ, hiAt_lt _ _ h1, List.getElem?_eq_getElem (by omega)] at this
  exact bLt_some.1 this

theorem SepOK.key_lt {lo hi : Option K} {keys : List K} (s : SepOK lo hi keys) {i j : Nat}
    (hij : i < j) (hj : j < keys.length) : keys[i] < keys[j] := by
  induction j with
  | zero => omega
  | succ j ih =>
    rcases Nat.lt_or_ge i j with h | h
    · exact lt_trans (ih h (by omega)) (s.step hj)
    · have : i = j := by omega
      subst this
      exact s.step hj

theorem SepOK.le {lo hi : Option K} {keys : List K} (s : SepOK lo hi keys) {i j : Nat}
    (hij : i ≤ j) (hj : j < keys.length) : keys[i] ≤ keys[j] := by
  rcases Nat.lt_or_ge i j with h | h
  · exact le_of_lt (s.key_lt h hj)
  · have : i = j := by omega
    subst this
    exact le_refl _

theorem SepOK.sorted {lo hi : Option K} {keys : List K} (s : SepOK lo hi keys) :
    keys.Pairwise (fun x y => x < y) := by
  rw [List.pairwise_iff_getElem]
  intro i j hi' hj hij
  exact s.key_lt hij hj

theorem SepOK.lo_lt {lo hi : Option K} {keys : List K} (s : SepOK lo hi keys) {i : Nat}
    (hi' : i < keys.length) : ∀ l ∈ lo, l < keys[i] := by
  intro l hl
  have h0 := s 0 (Nat.zero_le _)
  rw [loAt_zero, hiAt_lt _ _ (by omega : 0 < keys.length)] at h0
  exact lt_of_lt_of_le (h0 l hl _ rfl) (s.le (Nat.zero_le i) hi')

theorem SepOK.lt_hi {lo hi : Option K} {keys : List K} (s : SepOK lo hi keys) {i : Nat}
    (hi' : i < keys.length) : ltHi hi keys[i] := by
  intro u hu
  have hl := s keys.length (Nat.le_refl _)
  rw [hiAt_ge _ _ (Nat.le_refl _)] at hl
  have hpos : 0 < keys.length := by omega
  have : loAt lo keys keys.length = some keys[keys.length - 1] := by
    unfold loAt
    have : keys.length ≠ 0 := by omega
    simp [this]
  rw [this] at hl
  exact lt_of_le_of_lt (s.le (by omega) (by omega)) (hl _ rfl u hu)

theorem SepOK.bLt {lo hi : Option K} {keys : List K} (s : SepOK lo hi keys) : bLt lo hi := by
  cases hk : keys with
  | nil =>
    have := s 0 (Nat.zero_le _)
    rw [loAt_zero, hiAt_ge _ _ (by simp [hk])] at this
    exact this
  | cons k ks =>
    intro l hl u hu
    have h0 : 0 < keys.length := by simp [hk]
    exact lt_trans (s.lo_lt h0 l hl) (s.lt_hi h0 u hu)

/-- A key within the bounds of child `j` is not below the lower bound of the node. -/
theorem SepOK.geLo {lo hi : Option K} {keys : List K} (s : SepOK lo hi keys) {j : Nat} {x : K}
    (hj : j ≤ keys.length) (hx : geLo (loAt lo keys j) x) : geLo lo x := by
  cases j with
  | zero => rwa [loAt_zero] at hx
  | succ j =>
    rw [loAt_succ, List.getElem?_eq_getElem (by omega)] at hx
    intro l hl
    exact le_trans (le_of_lt (s.lo_lt (by omega) l hl)) (geLo_some.1 hx)

/-- A key within the bounds of child `i` is below the upper bound of the node. -/
theorem SepOK.ltHi {lo hi : Option K} {keys : List K} (s : SepOK lo hi keys) {i : Nat} {x : K}
    (hx : ltHi (hiAt hi keys i) x) : ltHi hi x := by
  rcases Nat.lt_or_ge i keys.length with h | h
  · rw [hiAt_lt _ _ h] at hx
    intro u hu
    exact lt_trans (ltHi_some.1 hx) (s.lt_hi h u hu)
  · rwa [hiAt_ge _ _ h] at hx

/-- Keys of an earlier child are below keys of a later child. -/
theorem SepOK.cross {lo hi : Option K} {keys : List K} (s : SepOK lo hi keys) {i j : Nat}
    {x y : K} (hij : i < j) (hj : j ≤ keys.length) (hx : bptree.ltHi (hiAt hi keys i) x)
    (hy : bptree.geLo (loAt lo keys j) y) : x < y := by
  obtain ⟨j, rfl⟩ : ∃ j', j = j' + 1 := ⟨j - 1, by omega⟩
  rw [hiAt_lt _ _ (by omega : i < keys.length)] at hx
  rw [loAt_succ, List.getElem?_eq_getElem (by omega)] at hy
  exact lt_of_lt_of_le (ltHi_some.1 hx) (le_trans (s.le (by omega) (by omega)) (geLo_some.1 hy))

theorem sortedEnts_zip {keys : List K} {vals : List V}
    (hs : keys.Pairwise (fun x y => x < y)) : SortedEnts (keys.zip vals) := by
  induction keys generalizing vals with
  | nil => simp [SortedEnts]
  | cons k ks ih =>
    cases vals with
    | nil => simp [SortedEnts]
    | cons v vs =>
      rw [List.pairwise_cons] at hs
      simp only [List.zip_cons_cons, SortedEnts, List.pairwise_cons]
      refine ⟨?_, ih hs.2⟩
      intro e he
      exact hs.1 e.1 (List.of_mem_zip he).1

/-- What a well-formed subtree gives: non-empty bounds, keys within the bounds,
entries in key order. -/
theorem Rep.props {m : Nat} {h : Heap K V} {d a : Nat} {lo hi : Option K}
    (r : Rep m h d a lo hi) :
    bLt lo hi ∧ (∀ e ∈ ents h d a, geLo lo e.1 ∧ ltHi hi e.1) ∧ SortedEnts (ents h d a) := by
  induction d generalizing a lo hi with
  | zero =>
    obtain ⟨l, hl, _, _, hs, hb, hlt⟩ := Rep_zero.1 r
    rw [ents_leaf hl]
    exact ⟨hlt, fun e he => hb e.1 (List.of_mem_zip he).1, sortedEnts_zip hs⟩
  | succ d ih =>
    obtain ⟨n, hn, hcap, hlen, hnd, hlt, hch⟩ := Rep_succ.1 r
    have sep : SepOK lo hi n.keys := by
      intro i hi'
      have hi2 : i < n.vals.length := by omega
      exact (ih (hch i n.vals[i] (List.getElem?_eq_getElem hi2)).1).1
    rw [ents_node hn]
    refine ⟨sep.bLt, ?_, ?_⟩
    · intro e he
      rw [List.mem_flatten] at he
      obtain ⟨l, hl, hel⟩ := he
      rw [List.mem_map] at hl
      obtain ⟨c, hc, rfl⟩ := hl
      obtain ⟨i, hi', hic⟩ := List.getElem_of_mem hc
      have hc' : n.vals[i]? = some c := by rw [List.getElem?_eq_getElem hi', hic]
      have := (ih (hch i c hc').1).2.1 e hel
      exact ⟨sep.geLo (by omega) this.1, sep.ltHi this.2⟩
    · unfold SortedEnts
      rw [List.pairwise_flatten]
      constructor
      · intro l hl
        rw [List.mem_map] at hl
        obtain ⟨c, hc, rfl⟩ := hl
        obtain ⟨i, hi', hic⟩ := List.getElem_of_mem hc
        have hc' : n.vals[i]? = some c := by rw [List.getElem?_eq_getElem hi', hic]
        exact (ih (hch i c hc').1).2.2
      · rw [List.pairwise_map, List.pairwise_iff_getElem]
        intro i j hi' hj hij x hx y hy
        have hci := (ih (hch i _ (List.getElem?_eq_getElem hi')).1).2.1 x hx
        have hcj := (ih (hch j _ (List.getElem?_eq_getElem hj)).1).2.1 y hy
        exact sep.cross hij (by omega) hci.2 hcj.1

theorem Rep.sepOK {m : Nat} {h : Heap K V} {d a : Nat} {lo hi : Option K} {n : interiorNodeS K}
    (r : Rep m h (d + 1) a lo hi) (hn : readNode h a = some n) : SepOK lo hi n.keys := by
  obtain ⟨n', hn', hcap, hlen, hnd, hlt, hch⟩ := Rep_succ.1 r
  rw [hn] at hn'
  cases hn'
  intro i hi'
  have hi2 : i < n.vals.length := by omega
  exact (hch i n.vals[i] (List.getElem?_eq_getElem hi2)).1.props.1

end

section
variable {K V : Type} [LinearOrder K]

/-! ## Lists of entries -/

theorem filter_all {α : Type} {p : α → Bool} {l : List α} (h : ∀ a ∈ l, p a = true) :
    l.filter p = l := List.filter_eq_self.2 h

theorem filter_none {α : Type} {p : α → Bool} {l : List α} (h : ∀ a ∈ l, p a = false) :
    l.filter p = [] := by
  rw [List.filter_eq_nil_iff]
  intro a ha
  simp [h a ha]

theorem upsert_append3 {pre mid post : List (K × V)} {k : K} {v : V}
    (hpre : ∀ e ∈ pre, e.1 < k) (hpost : ∀ e ∈ post, k < e.1) :
    upsert k v (pre ++ mid ++ post) = pre ++ upsert k v mid ++ post := by
  unfold upsert
  simp only [List.filter_append]
  rw [filter_all (l := pre) (by intro e he; simpa using hpre e he),
    filter_none (l := post) (p := fun e => decide (e.1 < k))
      (by intro e he; simpa using le_of_lt (hpost e he)),
    filter_none (l := pre) (p := fun e => decide (k < e.1))
      (by intro e he; simpa using le_of_lt (hpre e he)),
    filter_all (l := post) (by intro e he; simpa using hpost e he)]
  simp

theorem upsert_nil (k : K) (v : V) : upsert k v ([] : List (K × V)) = [(k, v)] := rfl

theorem upsert_mid {A B : List (K × V)} {k : K} {v : V}
    (hA : ∀ e ∈ A, e.1 < k) (hB : ∀ e ∈ B, k < e.1) :
    upsert k v (A ++ B) = A ++ (k, v) :: B := by
  have : upsert k v (A ++ [] ++ B) = A ++ upsert k v [] ++ B := upsert_append3 hA hB
  simpa [upsert_nil] using this

theorem upsert_mid_eq {A B : List (K × V)} {k : K} {v w : V}
    (hA : ∀ e ∈ A, e.1 < k) (hB : ∀ e ∈ B, k < e.1) :
    upsert k v (A ++ (k, w) :: B) = A ++ (k, v) :: B := by
  have : upsert k v (A ++ [(k, w)] ++ B) = A ++ upsert k v [(k, w)] ++ B :=
    upsert_append3 hA hB
  simpa [upsert] using this

theorem eraseKey_append3 {pre mid post : List (K × V)} {k : K}
    (hpre : ∀ e ∈ pre, e.1 ≠ k) (hpost : ∀ e ∈ post, e.1 ≠ k) :
    eraseKey k (pre ++ mid ++ post) = pre ++ eraseKey k mid ++ post := by
  unfold eraseKey
  simp only [List.filter_append]
  rw [filter_all (l := pre) (by intro e he; simpa using hpre e he),
    filter_all (l := post) (by intro e he; simpa using hpost e he)]

theorem eraseKey_none {es : List (K × V)} {k : K} (h : ∀ e ∈ es, e.1 ≠ k) :
    eraseKey k es = es := by
  unfold eraseKey
  exact filter_all (by intro e he; simpa using h e he)

theorem eraseKey_mid {A B : List (K × V)} {k : K} {w : V}
    (hA : ∀ e ∈ A, e.1 ≠ k) (hB : ∀ e ∈ B, e.1 ≠ k) :
    eraseKey k (A ++ (k, w) :: B) = A ++ B := by
  have : eraseKey k (A ++ [(k, w)] ++ B) = A ++ eraseKey k [(k, w)] ++ B :=
    eraseKey_append3 hA hB
  simpa [eraseKey] using this

theorem lookup_nil (k : K) : lookup k ([] : List (K × V)) = none := rfl

theorem lookup_cons (k : K) (e : K × V) (es : List (K × V)) :
    lookup k (e :: es) = if e.1 = k then some e.2 else lookup k es := by
  unfold lookup
  rw [List.find?_cons]
  by_cases h : e.1 = k <;> simp [h]

theorem lookup_none_of {es : List (K × V)} {k : K} (h : ∀ e ∈ es, e.1 ≠ k) :
    lookup k es = none := by
  induction es with
  | nil => rfl
  | cons e es ih =>
    rw [lookup_cons, if_neg (h e (List.mem_cons_self _ _))]
    exact ih (fun e' he' => h e' (List.mem_cons_of_mem _ he'))

theorem lookup_append_left {A B : List (K × V)} {k : K} (hA : ∀ e ∈ A, e.1 ≠ k) :
    lookup k (A ++ B) = lookup k B := by
  induction A with
  | nil => rfl
  | cons e es ih =>
    rw [List.cons_append, lookup_cons, if_neg (hA e (List.mem_cons_self _ _))]
    exact ih (fun e' he' => hA e' (List.mem_cons_of_mem _ he'))

theorem lookup_append_right {A B : List (K × V)} {k : K} (hB : ∀ e ∈ B, e.1 ≠ k) :
    lookup k (A ++ B) = lookup k A := by
  induction A with
  | nil => simpa using lookup_none_of hB
  | cons e es ih =>
    rw [List.cons_append, lookup_cons, lookup_cons, ih]

theorem lookup_append3 {pre mid post : List (K × V)} {k : K}
    (hpre : ∀ e ∈ pre, e.1 ≠ k) (hpost : ∀ e ∈ post, e.1 ≠ k) :
    lookup k (pre ++ mid ++ post) = lookup k mid := by
  rw [lookup_append_right hpost, lookup_append_left hpre]

theorem lookup_isSome_iff {es : List (K × V)} {k : K} :
    (lookup k es).isSome = true ↔ ∃ e ∈ es, e.1 = k := by
  induction es with
  | nil => simp [lookup_nil]
  | cons e es ih =>
    rw [lookup_cons]
    by_cases h : e.1 = k
    · simp [h]
    · simp [h, ih]

theorem lookup_eq_none_iff {es : List (K × V)} {k : K} :
    lookup k es = none ↔ ∀ e ∈ es, e.1 ≠ k := by
  constructor
  · intro h e he hk
    have : (lookup k es).isSome = true := lookup_isSome_iff.2 ⟨e, he, hk⟩
    rw [h] at this
    cases this
  · exact lookup_none_of

theorem lookup_upsert_self (k : K) (v : V) (es : List (K × V)) :
    lookup k (upsert k v es) = some v := by
  unfold upsert
  rw [lookup_append_left, lookup_cons, if_pos rfl]
  intro e he
  have := (List.mem_filter.1 he).2
  exact ne_of_lt (by simpa using this)

theorem lookup_filter_ne {es : List (K × V)} {k' : K} (p : K × V → Bool)
    (hp : ∀ e, e.1 = k' → p e = true) :
    lookup k' (es.filter p) = lookup k' es := by
  induction es with
  | nil => rfl
  | cons e es ih =>
    rw [List.filter_cons]
    by_cases h : e.1 = k'
    · rw [if_pos (hp e h), lookup_cons, lookup_cons, if_pos h, if_pos h]
    · by_cases hpe : p e = true
      · rw [if_pos hpe, lookup_cons, lookup_cons, if_neg h, if_neg h, ih]
      · rw [if_neg hpe, lookup_cons, if_neg h, ih]

theorem lookup_eraseKey_self (k : K) (es : List (K × V)) : lookup k (eraseKey k es) = none := by
  apply lookup_none_of
  intro e he
  have := (List.mem_filter.1 he).2
  simpa using this

theorem lookup_eraseKey_ne {k k' : K} (hk : k' ≠ k) (es : List (K × V)) :
    lookup k' (eraseKey k es) = lookup k' es := by
  unfold eraseKey
  apply lookup_filter_ne
  intro e he
  simp [he, hk]

theorem SortedEnts.tail {e : K × V} {es : List (K × V)} (s : SortedEnts (e :: es)) :
    SortedEnts es := (List.pairwise_cons.1 s).2

theorem SortedEnts.head_lt {e : K × V} {es : List (K × V)} (s : SortedEnts (e :: es)) :
    ∀ e' ∈ es, e.1 < e'.1 := (List.pairwise_cons.1 s).1

theorem lookup_upsert_ne {k k' : K} (hk : k' ≠ k) (v : V) (es : List (K × V)) :
    lookup k' (upsert k v es) = lookup k' es := by
  unfold upsert
  by_cases hlt : k' < k
  · rw [lookup_append_right, lookup_filter_ne]
    · intro e he; simp [he, hlt]
    · intro e he
      rw [List.mem_cons] at he
      rcases he with rfl | he
      · exact fun h => hk h.symm
      · have := (List.mem_filter.1 he).2
        have h2 : k < e.1 := by simpa using this
        exact fun h => absurd (h ▸ h2) (not_lt_of_lt hlt)
  · have hgt : k < k' := lt_of_le_of_ne (not_lt.1 hlt) (fun h => hk h.symm)
    rw [lookup_append_left, lookup_cons, if_neg (fun h => hk h.symm), lookup_filter_ne]
    · intro e he; simp [he, hgt]
    · intro e he
      have := (List.mem_filter.1 he).2
      have h2 : e.1 < k := by simpa using this
      exact fun h => absurd (h ▸ h2) (not_lt_of_lt hgt)

/-- An entry list in key order splits around any key. -/
theorem SortedEnts.split (k : K) {es : List (K × V)} (s : SortedEnts es) :
    ∃ A B, (∀ e ∈ A, e.1 < k) ∧ (∀ e ∈ B, k < e.1) ∧
      ((es = A ++ B ∧ lookup k es = none) ∨ ∃ w, es = A ++ (k, w) :: B ∧ lookup k es = some w) := by
  induction es with
  | nil => exact ⟨[], [], by simp, by simp, Or.inl ⟨rfl, rfl⟩⟩
  | cons e es ih =>
    rcases lt_trichotomy e.1 k with h | h | h
    · obtain ⟨A, B, hA, hB, hor⟩ := ih s.tail
      refine ⟨e :: A, B, ?_, hB, ?_⟩
      · intro e' he'
        rw [List.mem_cons] at he'
        rcases he' with rfl | he'
        · exact h
        · exact hA e' he'
      · rcases hor with ⟨h1, h2⟩ | ⟨w, h1, h2⟩
        · exact Or.inl ⟨by rw [h1]; rfl, by rw [lookup_cons, if_neg (ne_of_lt h), h2]⟩
        · exact Or.inr ⟨w, by rw [h1]; rfl, by rw [lookup_cons, if_neg (ne_of_lt h), h2]⟩
    · refine ⟨[], es, by simp, ?_, Or.inr ⟨e.2, ?_, ?_⟩⟩
      · intro e' he'; rw [← h]; exact s.head_lt e' he'
      · rw [← h]; rfl
      · rw [lookup_cons, if_pos h]
    · refine ⟨[], e :: es, by simp, ?_, Or.inl ⟨rfl, ?_⟩⟩
      · intro e' he'
        rw [List.mem_cons] at he'
        rcases he' with rfl | he'
        · exact h
        · exact lt_trans h (s.head_lt e' he')
      · apply lookup_none_of
        intro e' he'
        rw [List.mem_cons] at he'
        rcases he' with rfl | he'
        · exact ne_of_gt h
        · exact ne_of_gt (lt_trans h (s.head_lt e' he'))

theorem length_upsert {k : K} (v : V) {es : List (K × V)} (s : SortedEnts es) :
    (upsert k v es).length = if (lookup k es).isSome then es.length else es.length + 1 := by
  obtain ⟨A, B, hA, hB, hor⟩ := s.split k
  rcases hor with ⟨h1, h2⟩ | ⟨w, h1, h2⟩
  · rw [h2, h1, upsert_mid hA hB]; simp; omega
  · rw [h2, h1, upsert_mid_eq hA hB]; simp

theorem length_eraseKey {k : K} {es : List (K × V)} (s : SortedEnts es) :
    (eraseKey k es).length = if (lookup k es).isSome then es.length - 1 else es.length := by
  obtain ⟨A, B, hA, hB, hor⟩ := s.split k
  have hA' : ∀ e ∈ A, e.1 ≠ k := fun e he => ne_of_lt (hA e he)
  have hB' : ∀ e ∈ B, e.1 ≠ k := fun e he => ne_of_gt (hB e he)
  rcases hor with ⟨h1, h2⟩ | ⟨w, h1, h2⟩
  · rw [h2, h1, eraseKey_none]
    · simp
    · intro e he
      rw [List.mem_append] at he
      rcases he with he | he
      · exact hA' e he
      · exact hB' e he
  · rw [h2, h1, eraseKey_mid hA' hB']; simp

end

section
variable {K V : Type} [LinearOrder K]

/-! ## Keys -/

@[simp] theorem Equals_iff {a b : K} : Equals a b = true ↔ a = b := by
  simp [Equals]

@[simp] theorem LessThan_iff {a b : K} : LessThan a b = true ↔ a < b := by
  simp [LessThan]

@[simp] theorem Equals_false_iff {a b : K} : Equals a b = false ↔ a ≠ b := by
  simp [Equals]

@[simp] theorem LessThan_false_iff {a b : K} : LessThan a b = false ↔ b ≤ a := by
  simp [LessThan]

/-! ## The descent -/

theorem lookup_zip_idx {keys : List K} {vals : List V} {key : K} {i : Nat}
    (hi : i < keys.length) (hk : keys[i] = key) (hlt : ∀ j (hj : j < i), keys[j] ≠ key)
    (hlen : keys.length = vals.length) : lookup key (keys.zip vals) = vals[i]? := by
  induction keys generalizing vals i with
  | nil => simp at hi
  | cons k ks ih =>
    cases vals with
    | nil => simp at hlen
    | cons v vs =>
      rw [List.zip_cons_cons, lookup_cons]
      cases i with
      | zero =>
        simp only [List.getElem_cons_zero] at hk
        simp [hk]
      | succ i =>
        have h0 := hlt 0 (Nat.succ_pos i)
        simp only [List.getElem_cons_zero] at h0
        rw [if_neg h0]
        simp only [List.getElem?_cons_succ]
        have hi2 : i < ks.length := by simpa using hi
        refine ih hi2 (by simpa using hk) ?_ (by simpa using hlen)
        intro j hj
        have := hlt (j + 1) (by omega)
        simpa using this

theorem lookup_zip_none {keys : List K} {vals : List V} {key : K}
    (h : ∀ k ∈ keys, k ≠ key) : lookup key (keys.zip vals) = none := by
  apply lookup_none_of
  intro e he
  exact h e.1 (List.of_mem_zip he).1

/-- The scan of `Get` over the keys of a leaf is the lookup in its entries. -/
theorem leaf_scan [Inhabited V] (l : leafNodeS K V) (key : K)
    (hlen : l.keys.length = l.vals.length) :
    (match l.keys.findIdx? (fun k => Equals key k) with
      | some i =>
        match l.vals[i]? with
        | none => none
        | some v => some (v, true)
      | none => some (default, false)) = some (getRes (lookup key (l.keys.zip l.vals))) := by
  cases hf : l.keys.findIdx? (fun k => Equals key k) with
  | none =>
    rw [List.findIdx?_eq_none_iff] at hf
    rw [lookup_zip_none]
    · rfl
    · intro k hk
      have := hf k hk
      simp only [Equals_false_iff] at this
      exact fun h => this h.symm
  | some i =>
    rw [List.findIdx?_eq_some_iff_getElem] at hf
    obtain ⟨hi, hk, hlt⟩ := hf
    simp only [Equals_iff] at hk
    have := lookup_zip_idx hi hk.symm (fun j hj => by
      have := hlt j hj
      simp only [Equals_iff] at this
      exact fun h => this h.symm) hlen
    rw [this]
    have hi' : i < l.vals.length := by omega
    simp [List.getElem?_eq_getElem hi', getRes]

theorem flatten_split {α β : Type} (f : α → List β) (l : List α) {i : Nat} {c : α}
    (hc : l[i]? = some c) :
    (l.map f).flatten = ((l.take i).map f).flatten ++ f c ++ ((l.drop (i + 1)).map f).flatten := by
  obtain ⟨hi, hic⟩ := List.getElem?_eq_some.1 hc
  have : l = l.take i ++ c :: l.drop (i + 1) := by
    rw [← hic, ← List.drop_eq_getElem_cons hi, List.take_append_drop]
  conv => lhs; rw [this]
  simp

/-- The entries of the tree are those before the node, below it and after it. -/
theorem Ctx.ents_eq {m : Nat} {h : Heap K V} {root D node d : Nat} {lo hi : Option K}
    {path : pathT} {pre post : List (K × V)}
    (c : Ctx m h root D node d lo hi path pre post) :
    ents h D root = pre ++ ents h d node ++ post := by
  induction path generalizing node d lo hi pre post with
  | nil =>
    obtain ⟨rfl, rfl, _, _, rfl, rfl⟩ := c
    simp
  | cons p rest ih =>
    obtain ⟨n, plo, phi, i, pre', post', hn, hi', _, _, _, _, rfl, rfl, hc⟩ := c
    rw [ih hc, ents_node hn, flatten_split (ents h d) n.vals hi']
    simp

/-- The entries before a node have keys below every key the node may hold, the
entries after it have keys above. -/
theorem Ctx.sides {m : Nat} {h : Heap K V} {root D node d : Nat} {lo hi : Option K}
    {path : pathT} {pre post : List (K × V)}
    (c : Ctx m h root D node d lo hi path pre post) :
    (∀ e ∈ pre, ∀ x, geLo lo x → e.1 < x) ∧ (∀ e ∈ post, ∀ x, ltHi hi x → x < e.1) := by
  induction path generalizing node d lo hi pre post with
  | nil =>
    obtain ⟨rfl, rfl, _, _, rfl, rfl⟩ := c
    simp
  | cons p rest ih =>
    obtain ⟨n, plo, phi, i, pre', post', hn, hi', rfl, rfl, hr, _, rfl, rfl, hc⟩ := c
    obtain ⟨ihpre, ihpost⟩ := ih hc
    have sep := hr.sepOK hn
    obtain ⟨n', hn', hcap, hlen, hnd, hlt, hch⟩ := Rep_succ.1 hr
    rw [hn] at hn'
    cases hn'
    have hil : i < n.vals.length := (List.getElem?_eq_some.1 hi').1
    constructor
    · intro e he x hx
      rw [List.mem_append] at he
      rcases he with he | he
      · exact ihpre e he x (sep.geLo (by omega) hx)
      · rw [List.mem_flatten] at he
        obtain ⟨l, hl, hel⟩ := he
        rw [List.mem_map] at hl
        obtain ⟨c', hc', rfl⟩ := hl
        obtain ⟨j, hj, hjc⟩ := List.getElem_of_mem hc'
        rw [List.length_take] at hj
        rw [List.getElem_take] at hjc
        have hj2 : j < n.vals.length := by omega
        have hb := (hch j c' (by rw [List.getElem?_eq_getElem hj2, hjc])).1.props.2.1 e hel
        exact sep.cross (by omega) (by omega) hb.2 hx
    · intro e he x hx
      rw [List.mem_append] at he
      rcases he with he | he
      · rw [List.mem_flatten] at he
        obtain ⟨l, hl, hel⟩ := he
        rw [List.mem_map] at hl
        obtain ⟨c', hc', rfl⟩ := hl
        obtain ⟨j, hj, hjc⟩ := List.getElem_of_mem hc'
        rw [List.length_drop] at hj
        rw [List.getElem_drop] at hjc
        have hj2 : i + 1 + j < n.vals.length := by omega
        have hb := (hch (i + 1 + j) c' (by rw [List.getElem?_eq_getElem hj2, hjc])).1.props.2.1
          e hel
        exact sep.cross (by omega : i < i + 1 + j) (by omega) hx hb.1
      · exact ihpost e he x (sep.ltHi hx)

theorem childIdx_le (keys : List K) (key : K) : childIdx keys key ≤ keys.length := by
  unfold childIdx
  split
  · next i hf =>
    rw [List.findIdx?_eq_some_iff_getElem] at hf
    exact le_of_lt hf.1
  · exact Nat.le_refl _

theorem childIdx_bounds {lo hi : Option K} {keys : List K} {key : K}
    (hlo : geLo lo key) (hhi : ltHi hi key) :
    geLo (loAt lo keys (childIdx keys key)) key ∧ ltHi (hiAt hi keys (childIdx keys key)) key := by
  unfold childIdx
  split
  · next i hf =>
    rw [List.findIdx?_eq_some_iff_getElem] at hf
    obtain ⟨hi', hk, hlt⟩ := hf
    constructor
    · cases i with
      | zero => rwa [loAt_zero]
      | succ i =>
        rw [loAt_succ, List.getElem?_eq_getElem (by omega), geLo_some]
        have := hlt i (Nat.lt_succ_self i)
        simpa using this
    · rw [hiAt_lt _ _ hi', ltHi_some]
      simpa using hk
  · next hf =>
    rw [List.findIdx?_eq_none_iff] at hf
    constructor
    · cases hk : keys.length with
      | zero => rwa [loAt_zero]
      | succ i =>
        rw [loAt_succ, List.getElem?_eq_getElem (by omega), geLo_some]
        have := hf keys[i] (List.getElem_mem _)
        simpa using this
    · rwa [hiAt_ge _ _ (Nat.le_refl _)]

theorem findLeafLoop_node {h : Heap K V} {key : K} {fuel a : Nat} {path : pathT}
    {n : interiorNodeS K} (hn : readNode h a = some n)
    (hlen : n.vals.length = n.keys.length + 1) :
    findLeafLoop h key (fuel + 1) a path =
      match n.vals[childIdx n.keys key]? with
      | none => none
      | some c => findLeafLoop h key fuel c (a :: path) := by
  rw [readNode_eq_some] at hn
  rw [findLeafLoop]
  simp only [hn, interiorNodeS.isLeaf, hlen.symm, if_true, pathT.push, childIdx]
  cases hf : n.keys.findIdx? (fun k => LessThan key k) <;> rfl

theorem findLeafLoop_leaf {h : Heap K V} {key : K} {fuel a : Nat} {path : pathT}
    {l : leafNodeS K V} (hl : readLeaf h a = some l) :
    findLeafLoop h key (fuel + 1) a path = some (a, path) := by
  rw [readLeaf_eq_some] at hl
  rw [findLeafLoop]
  simp only [hl]

/-- The descent from a well-formed node reaches a leaf that may hold the key,
and records the context of that leaf. -/
theorem findLeafLoop_spec {m : Nat} {h : Heap K V} {root D : Nat} {key : K} {d : Nat} :
    ∀ {a : Nat} {lo hi : Option K} {path : pathT} {pre post : List (K × V)} {fuel : Nat},
    Rep m h d a lo hi → PosFull m h d a path → Ctx m h root D a d lo hi path pre post →
    geLo lo key → ltHi hi key → d + 1 ≤ fuel →
    ∃ leaf path' lo' hi' pre' post',
      findLeafLoop h key fuel a path = some (leaf, path') ∧
      Rep m h 0 leaf lo' hi' ∧ PosFull m h 0 leaf path' ∧
      Ctx m h root D leaf 0 lo' hi' path' pre' post' ∧ geLo lo' key ∧ ltHi hi' key := by
  induction d with
  | zero =>
    intro a lo hi path pre post fuel r pf c hlo hhi hfuel
    obtain ⟨l, hl, _⟩ := Rep_zero.1 r
    obtain ⟨fuel, rfl⟩ : ∃ f, fuel = f + 1 := ⟨fuel - 1, by omega⟩
    exact ⟨a, path, lo, hi, pre, post, findLeafLoop_leaf hl, r, pf, c, hlo, hhi⟩
  | succ d ih =>
    intro a lo hi path pre post fuel r pf c hlo hhi hfuel
    obtain ⟨n, hn, hcap, hlen, hnd, hlt, hch⟩ := Rep_succ.1 r
    obtain ⟨fuel, rfl⟩ : ∃ f, fuel = f + 1 := ⟨fuel - 1, by omega⟩
    have hidx := childIdx_le n.keys key
    have hil : childIdx n.keys key < n.vals.length := by omega
    have hc := List.getElem?_eq_getElem hil
    rw [findLeafLoop_node hn hlen, hc]
    simp only
    have hb : geLo (loAt lo n.keys (childIdx n.keys key)) key ∧
        ltHi (hiAt hi n.keys (childIdx n.keys key)) key := childIdx_bounds hlo hhi
    have hchild := hch _ _ hc
    apply ih hchild.1
    · simp [PosFull, hchild.2]
    · exact ⟨n, lo, hi, childIdx n.keys key, pre, post, hn, hc, rfl, rfl, r, pf, rfl, rfl, c⟩
    · exact hb.1
    · exact hb.2
    · omega

theorem Ctx.root {m : Nat} {h : Heap K V} {root D : Nat} :
    Ctx m h root D root D none none [] [] [] := ⟨rfl, rfl, rfl, rfl, rfl, rfl⟩

/-- The descent from the root of a tree that satisfies the invariant. -/
theorem findLeaf_spec {m : Nat} {h : Heap K V} {t : tree} {d : Nat} (key : K)
    (r : Rep m h d t.root none none) (rf : RootFull m h d t.root) :
    ∃ leaf path lo hi pre post,
      t.findLeaf h key = some (leaf, path) ∧
      Rep m h 0 leaf lo hi ∧ PosFull m h 0 leaf path ∧
      Ctx m h t.root d leaf 0 lo hi path pre post ∧ geLo lo key ∧ ltHi hi key := by
  unfold tree.findLeaf newPathT
  have h1 := r.depth_le
  have h2 := r.lt
  exact findLeafLoop_spec r (by simp [PosFull, rf]) Ctx.root (geLo_none key) (ltHi_none key)
    (by omega)

/-- The method `Get` returns what the entries of the tree hold for the key. -/
theorem Get_spec [Inhabited V] {m : Nat} {h : Heap K V} {t : tree} {d : Nat} (key : K)
    (r : Rep m h d t.root none none) (rf : RootFull m h d t.root) :
    t.Get h key = some (getRes (lookup key (ents h d t.root))) := by
  obtain ⟨leaf, path, lo, hi, pre, post, hf, rl, _, c, hlo, hhi⟩ := findLeaf_spec key r rf
  obtain ⟨l, hl, _, hlen, _, _, _⟩ := Rep_zero.1 rl
  have hs := c.sides
  rw [c.ents_eq, lookup_append3 (fun e he => ne_of_lt (hs.1 e he key hlo))
    (fun e he => ne_of_gt (hs.2 e he key hhi)), ents_leaf hl]
  unfold tree.Get
  simp only [hf, hl, Option.bind_eq_bind, Option.some_bind]
  exact leaf_scan l key hlen

end

section
variable {K V : Type} [LinearOrder K]

/-! ## Splitting lists at an index -/

theorem split_at_idx {α : Type} {l : List α} {i : Nat} (hi : i < l.length) :
    ∃ A x B, l = A ++ x :: B ∧ A.length = i ∧ l[i]? = some x := by
  refine ⟨l.take i, l[i], l.drop (i + 1), ?_, ?_, List.getElem?_eq_getElem hi⟩
  · rw [← List.drop_eq_getElem_cons hi, List.take_append_drop]
  · rw [List.length_take]; omega

theorem findIdx_split {α : Type} {l : List α} {p : α → Bool} {i : Nat}
    (hf : l.findIdx? p = some i) :
    ∃ A x B, l = A ++ x :: B ∧ A.length = i ∧ p x = true ∧ ∀ a ∈ A, p a = false := by
  rw [List.findIdx?_eq_some_iff_getElem] at hf
  obtain ⟨hi, hp, hlt⟩ := hf
  refine ⟨l.take i, l[i], l.drop (i + 1), ?_, ?_, hp, ?_⟩
  · rw [← List.drop_eq_getElem_cons hi, List.take_append_drop]
  · rw [List.length_take]; omega
  · intro a ha
    rw [List.mem_take_iff_getElem] at ha
    obtain ⟨j, hj, rfl⟩ := ha
    have := hlt j (by omega)
    simpa using this

theorem getElem?_mid {α : Type} {A : List α} (x : α) (B : List α) {i : Nat} (h : A.length = i) :
    (A ++ x :: B)[i]? = some x := by
  subst h
  rw [List.getElem?_append_right (Nat.le_refl _)]
  simp

theorem take_mid {α : Type} {A : List α} (B : List α) {i : Nat} (h : A.length = i) :
    (A ++ B).take i = A := List.take_left' h

theorem drop_mid {α : Type} {A : List α} (B : List α) {i : Nat} (h : A.length = i) :
    (A ++ B).drop i = B := List.drop_left' h

theorem drop_mid_succ {α : Type} {A : List α} (x : α) (B : List α) {i : Nat}
    (h : A.length = i) : (A ++ x :: B).drop (i + 1) = B := by
  have : A ++ x :: B = (A ++ [x]) ++ B := by simp
  rw [this]
  exact List.drop_left' (by simp [h])

theorem set_mid {α : Type} {A : List α} (x y : α) (B : List α) {i : Nat} (h : A.length = i) :
    (A ++ x :: B).set i y = A ++ y :: B := by
  subst h
  rw [List.set_append_right _ _ (Nat.le_refl _)]
  simp

/-! ## Leaf methods -/

theorem zip_mem_fst {keys : List K} {vals : List V} {e : K × V} (he : e ∈ keys.zip vals) :
    e.1 ∈ keys := (List.of_mem_zip (a := e.1) (b := e.2) he).1

/-- The method `insert` of a leaf whose keys are aligned with the values and
strictly increasing, and which has room for one more entry: the entries of the
result are the entries with the key given the value; the flag tells whether the
key was new. -/
theorem leafNodeS.insert_spec (l : leafNodeS K V) (key : K) (val : V)
    (hlen : l.keys.length = l.vals.length) (hs : l.keys.Pairwise (fun x y => x < y))
    (hroom : l.keys.length < l.cap) :
    ∃ l' added, l.insert key val = some (l', added) ∧ l'.cap = l.cap ∧
      l'.keys.length = l'.vals.length ∧ l'.keys.Pairwise (fun x y => x < y) ∧
      (∀ k ∈ l'.keys, k = key ∨ k ∈ l.keys) ∧
      l'.keys.zip l'.vals = upsert key val (l.keys.zip l.vals) ∧
      added = (lookup key (l.keys.zip l.vals)).isNone ∧
      l'.keys.length = l.keys.length + (if added then 1 else 0) := by
  obtain ⟨cap, keys, vals⟩ := l
  simp only at hlen hs hroom
  have hroomV : vals.length < cap := by omega
  unfold leafNodeS.insert
  simp only
  cases hf : keys.findIdx? (fun k => Equals key k || LessThan key k) with
  | none =>
    rw [List.findIdx?_eq_none_iff] at hf
    simp only [hroom, hroomV, and_self, if_true]
    have hall : ∀ k ∈ keys, k < key := by
      intro k hk
      have := hf k hk
      simp only [Bool.or_eq_false_iff, Equals_false_iff, LessThan_false_iff] at this
      exact lt_of_le_of_ne this.2 (fun h => this.1 h.symm)
    have hz : ∀ e ∈ keys.zip vals, e.1 < key := fun e he => hall e.1 (zip_mem_fst he)
    refine ⟨_, _, rfl, rfl, by simp [hlen], ?_, ?_, ?_, ?_, by simp⟩
    · rw [List.pairwise_append]
      exact ⟨hs, by simp, by simpa using hall⟩
    · intro k hk
      simp only [List.mem_append, List.mem_singleton] at hk
      rcases hk with hk | hk
      · exact Or.inr hk
      · exact Or.inl hk
    · simp only
      rw [List.zip_append hlen]
      have := upsert_mid (A := keys.zip vals) (B := []) (v := val) hz (by simp)
      simpa using this.symm
    · rw [lookup_none_of (fun e he => ne_of_lt (hz e he))]
      rfl
  | some i =>
    obtain ⟨A, x, B, rfl, hA, hx, hAall⟩ := findIdx_split hf
    have hi : i < vals.length := by rw [← hlen, ← hA]; simp
    obtain ⟨VA, y, VB, rfl, hVA, _⟩ := split_at_idx hi
    have hAlt : ∀ a ∈ A, a < key := by
      intro a ha
      have := hAall a ha
      simp only [Bool.or_eq_false_iff, Equals_false_iff, LessThan_false_iff] at this
      exact lt_of_le_of_ne this.2 (fun h => this.1 h.symm)
    rw [List.pairwise_append, List.pairwise_cons] at hs
    obtain ⟨hsA, ⟨hxB, hsB⟩, hAB⟩ := hs
    have hAV : A.length = VA.length := by omega
    have hlenB : B.length = VB.length := by
      simp only [List.length_append, List.length_cons] at hlen
      omega
    have hzA : ∀ e ∈ A.zip VA, e.1 < key := fun e he => hAlt e.1 (zip_mem_fst he)
    simp only [getElem?_mid x B hA, hi, if_true]
    by_cases hk : key = x
    · subst hk
      simp only [Equals_iff, if_true]
      have hzB : ∀ e ∈ B.zip VB, key < e.1 := fun e he => hxB e.1 (zip_mem_fst he)
      refine ⟨_, _, rfl, rfl, by simp [hlenB, hAV], ?_, ?_, ?_, ?_, by simp⟩
      · rw [List.pairwise_append, List.pairwise_cons]
        exact ⟨hsA, ⟨hxB, hsB⟩, hAB⟩
      · intro k hk; exact Or.inr hk
      · simp only
        rw [set_mid y val VB hVA, List.zip_append hAV, List.zip_append hAV, List.zip_cons_cons,
          List.zip_cons_cons, upsert_mid_eq hzA hzB]
      · rw [List.zip_append hAV, lookup_append_left (fun e he => ne_of_lt (hzA e he)),
          List.zip_cons_cons, lookup_cons, if_pos rfl]
        rfl
    · have hkx : key < x := by
        simp only [Bool.or_eq_true, Equals_iff, LessThan_iff] at hx
        rcases hx with hx | hx
        · exact absurd hx hk
        · exact hx
      have : Equals key x = false := by simp [hk]
      simp only [this, Bool.false_eq_true, if_false, hroom, hroomV, and_self, if_true,
        take_mid (x :: B) hA, take_mid (y :: VB) hVA,
        drop_mid (x :: B) hA, drop_mid (y :: VB) hVA]
      have hxB' : ∀ b ∈ x :: B, key < b := by
        intro b hb
        rw [List.mem_cons] at hb
        rcases hb with rfl | hb
        · exact hkx
        · exact lt_trans hkx (hxB b hb)
      have hzB : ∀ e ∈ (x :: B).zip (y :: VB), key < e.1 := fun e he => hxB' e.1 (zip_mem_fst he)
      refine ⟨_, _, rfl, rfl, ?_, ?_, ?_, ?_, ?_, ?_⟩
      · simp [hlenB, hAV]
      · rw [List.pairwise_append, List.pairwise_cons, List.pairwise_cons]
        refine ⟨hsA, ⟨hxB', hxB, hsB⟩, ?_⟩
        intro a ha b hb
        rw [List.mem_cons] at hb
        rcases hb with rfl | hb
        · exact hAlt a ha
        · exact hAB a ha b hb
      · intro k hk
        simp only [List.mem_append, List.mem_cons] at hk ⊢
        tauto
      · simp only
        rw [List.zip_append hAV, List.zip_append hAV, List.zip_cons_cons,
          upsert_mid hzA hzB]
      · rw [List.zip_append hAV, lookup_append_left (fun e he => ne_of_lt (hzA e he)),
          lookup_none_of (fun e he => ne_of_gt (hzB e he))]
        rfl
      · simp
        omega

end

section
variable {K V : Type} [LinearOrder K]

/-! ## Copying a node and writing to the copy -/

theorem interiorNodeS.copy_eq {h : Heap K V} {p : Nat} {n : interiorNodeS K}
    (hn : readNode h p = some n) :
    interiorNodeS.copy h p = some (h ++ [Cell.node n], h.length) := by
  unfold interiorNodeS.copy
  rw [hn]
  rfl

theorem leafNodeS.copy_leaf_eq {h : Heap K V} {p : Nat} {l : leafNodeS K V}
    (hl : readLeaf h p = some l) :
    leafNodeS.copy h p = some (h ++ [Cell.leaf l], h.length) := by
  unfold leafNodeS.copy
  rw [hl]
  rfl

theorem readNode_append_self (h : Heap K V) (n : interiorNodeS K) :
    readNode (h ++ [Cell.node n]) h.length = some n := by
  rw [readNode_eq_some]
  simp

theorem readLeaf_append_self (h : Heap K V) (l : leafNodeS K V) :
    readLeaf (h ++ [Cell.leaf l]) h.length = some l := by
  rw [readLeaf_eq_some]
  simp

theorem updNode_eq {h : Heap K V} {p : Nat} {n n' : interiorNodeS K}
    {f : interiorNodeS K → Option (interiorNodeS K)}
    (hn : readNode h p = some n) (hf : f n = some n') :
    updNode h p f = some (h.set p (Cell.node n')) := by
  unfold updNode
  rw [hn]
  simp only [hf]

theorem updNode_fresh {h : Heap K V} {n n' : interiorNodeS K}
    {f : interiorNodeS K → Option (interiorNodeS K)} (hf : f n = some n') :
    updNode (h ++ [Cell.node n]) h.length f = some (h ++ [Cell.node n']) := by
  rw [updNode_eq (readNode_append_self h n) hf, set_append_self]

theorem withLeaf_fresh {R : Type} {h : Heap K V} {l l' : leafNodeS K V} {r : R}
    {f : leafNodeS K V → Option (leafNodeS K V × R)} (hf : f l = some (l', r)) :
    withLeaf (h ++ [Cell.leaf l]) h.length f = some (h ++ [Cell.leaf l'], r) := by
  unfold withLeaf
  rw [readLeaf_append_self]
  simp only [hf, set_append_self]

/-! ## Swapping a child -/

theorem swapLeafVals_spec {h : Heap K V} {old new : Nat} {vals : List Nat} {i : Nat}
    (hall : ∀ c ∈ vals, ∃ l, readLeaf h c = some l) (hi : vals[i]? = some old)
    (hnd : vals.Nodup) :
    interiorNodeS.swapLeafVals h old new vals = some (vals.set i new) := by
  induction vals generalizing i with
  | nil => simp at hi
  | cons c cs ih =>
    obtain ⟨l, hl⟩ := hall c (List.mem_cons_self _ _)
    rw [interiorNodeS.swapLeafVals, hl]
    simp only
    rw [List.nodup_cons] at hnd
    cases i with
    | zero =>
      simp only [List.getElem?_cons_zero, Option.some.injEq] at hi
      simp [hi]
    | succ i =>
      simp only [List.getElem?_cons_succ] at hi
      have hne : old ≠ c := by
        intro hh
        exact hnd.1 (hh ▸ List.getElem?_mem hi)
      rw [if_neg hne, ih (fun c' hc' => hall c' (List.mem_cons_of_mem _ hc')) hi hnd.2]
      rfl

theorem swapInteriorVals_spec {h : Heap K V} {old new : Nat} {vals : List Nat} {i : Nat}
    (hall : ∀ c ∈ vals, ∃ n, readNode h c = some n) (hi : vals[i]? = some old)
    (hnd : vals.Nodup) :
    interiorNodeS.swapInteriorVals h old new vals = some (vals.set i new) := by
  induction vals generalizing i with
  | nil => simp at hi
  | cons c cs ih =>
    obtain ⟨l, hl⟩ := hall c (List.mem_cons_self _ _)
    rw [interiorNodeS.swapInteriorVals, hl]
    simp only
    rw [List.nodup_cons] at hnd
    cases i with
    | zero =>
      simp only [List.getElem?_cons_zero, Option.some.injEq] at hi
      simp [hi]
    | succ i =>
      simp only [List.getElem?_cons_succ] at hi
      have hne : old ≠ c := by
        intro hh
        exact hnd.1 (hh ▸ List.getElem?_mem hi)
      rw [if_neg hne, ih (fun c' hc' => hall c' (List.mem_cons_of_mem _ hc')) hi hnd.2]
      rfl

/-- The children of a well-formed node of height at least two are interior nodes. -/
theorem Rep.child_node {m : Nat} {h : Heap K V} {d a : Nat} {lo hi : Option K}
    {n : interiorNodeS K} (r : Rep m h (d + 2) a lo hi) (hn : readNode h a = some n) :
    ∀ c ∈ n.vals, ∃ n', readNode h c = some n' := by
  obtain ⟨n', hn', _, _, _, _, hch⟩ := Rep_succ.1 r
  rw [hn] at hn'
  cases hn'
  intro c hc
  obtain ⟨i, hi⟩ := List.getElem?_of_mem hc
  obtain ⟨n', hn', _⟩ := Rep_succ.1 (hch i c hi).1
  exact ⟨n', hn'⟩

/-- The children of a well-formed node of height one are leaves. -/
theorem Rep.child_leaf {m : Nat} {h : Heap K V} {a : Nat} {lo hi : Option K}
    {n : interiorNodeS K} (r : Rep m h 1 a lo hi) (hn : readNode h a = some n) :
    ∀ c ∈ n.vals, ∃ l, readLeaf h c = some l := by
  obtain ⟨n', hn', _, _, _, _, hch⟩ := Rep_succ.1 r
  rw [hn] at hn'
  cases hn'
  intro c hc
  obtain ⟨i, hi⟩ := List.getElem?_of_mem hc
  obtain ⟨l, hl, _⟩ := Rep_zero.1 (hch i c hi).1
  exact ⟨l, hl⟩

theorem take_set_self {α : Type} (l : List α) (i : Nat) (a : α) :
    (l.set i a).take i = l.take i := by
  rw [List.set_take, List.set_eq_of_length_le]
  simp

theorem ents_map_agree {m : Nat} {h0 h2 : Heap K V} {d : Nat} {cs : List Nat}
    (hr : ∀ c ∈ cs, ∃ lo hi, Rep m h0 d c lo hi) (ag : Agree h0.length h0 h2) :
    cs.map (ents h2 d) = cs.map (ents h0 d) := by
  apply List.map_congr_left
  intro c hc
  obtain ⟨lo, hi, r⟩ := hr c hc
  exact r.ents_agree (ag.mono r.lt)

/-- The copy of a well-formed node in which child `i` is replaced by a new
well-formed node with the same bounds is well formed, and holds the entries
of the other children around those of the new child. -/
theorem Rep.set_child {m : Nat} {h0 h2 : Heap K V} {d p newP : Nat} {plo phi : Option K}
    {n : interiorNodeS K} {i old new : Nat}
    (r : Rep m h0 (d + 1) p plo phi) (hn : readNode h0 p = some n)
    (hi : n.vals[i]? = some old) (ag : Agree h0.length h0 h2)
    (hnew : readNode h2 newP = some { n with vals := n.vals.set i new })
    (hfresh : h0.length ≤ new) (hlt : new < newP)
    (rnew : Rep m h2 d new (loAt plo n.keys i) (hiAt phi n.keys i)) (fnew : Full m h2 d new) :
    Rep m h2 (d + 1) newP plo phi ∧
    ents h2 (d + 1) newP = ((n.vals.take i).map (ents h0 d)).flatten ++ ents h2 d new ++
      ((n.vals.drop (i + 1)).map (ents h0 d)).flatten ∧
    nodeSize h2 newP = nodeSize h0 p := by
  obtain ⟨n', hn', hcap, hlen, hnd, hltc, hch⟩ := Rep_succ.1 r
  rw [hn] at hn'
  cases hn'
  have hp := r.lt
  have hil : i < n.vals.length := (List.getElem?_eq_some.1 hi).1
  have hold : ∀ c ∈ n.vals, ∃ lo hi, Rep m h0 d c lo hi := by
    intro c hc
    obtain ⟨j, hj⟩ := List.getElem?_of_mem hc
    exact ⟨_, _, (hch j c hj).1⟩
  refine ⟨Rep_succ.2 ⟨_, hnew, hcap, by simpa using hlen, ?_, ?_, ?_⟩, ?_, ?_⟩
  · apply List.Nodup.set hnd
    intro hmem
    have := hltc new hmem
    omega
  · intro c hc
    rcases List.mem_or_eq_of_mem_set hc with hc | hc
    · have := hltc c hc
      omega
    · omega
  · intro j c hc
    simp only at hc ⊢
    rw [List.getElem?_set] at hc
    by_cases hij : i = j
    · subst hij
      simp only [if_true, hil] at hc
      cases hc
      exact ⟨rnew, fnew⟩
    · rw [if_neg hij] at hc
      have hc0 := hch j c hc
      have hcp : c < p := hltc c (List.getElem?_mem hc)
      have ag' : Agree (c + 1) h0 h2 := ag.mono (by omega)
      exact ⟨hc0.1.agree ag', hc0.2.agree_full ag'⟩
  · rw [ents_node hnew]
    simp only
    rw [flatten_split (ents h2 d) (n.vals.set i new) (List.getElem?_set_self hil),
      take_set_self, List.drop_set_of_lt _ _ (Nat.lt_succ_self i),
      ents_map_agree (m := m) (fun c hc => hold c (List.mem_of_mem_take hc)) ag,
      ents_map_agree (m := m) (fun c hc => hold c (List.mem_of_mem_drop hc)) ag]
  · rw [nodeSize_of_node hnew, nodeSize_of_node hn]
    simp

theorem PosFull.of_size {m : Nat} {h h' : Heap K V} {d a a' : Nat} {rest : pathT}
    (f : PosFull m h d a rest) (hs : nodeSize h' a' = nodeSize h a) : PosFull m h' d a' rest := by
  unfold PosFull Full RootFull at *
  rw [hs]
  exact f

theorem isRoot_node {h : Heap K V} {t : tree} {n : interiorNodeS K}
    (hn : readNode h t.root = some n) : t.isRoot h t.root = some true := by
  rw [readNode_eq_some] at hn
  unfold tree.isRoot
  simp [hn]

theorem isRoot_leaf {h : Heap K V} {t : tree} {l : leafNodeS K V}
    (hl : readLeaf h t.root = some l) : t.isRoot h t.root = some true := by
  have hl' := readLeaf_eq_some.1 hl
  unfold tree.isRoot
  simp [hl, hl']

/-- The method `copyUp`: the new node takes the place of the old one in a copy of
its context, and the copied root becomes the root. -/
theorem copyUp_spec {m : Nat} {h0 : Heap K V} {t : tree} {D : Nat} (path : pathT) :
    ∀ {h : Heap K V} {oldNode newNode d : Nat} {lo hi : Option K} {pre post : List (K × V)},
    Ctx m h0 t.root D oldNode (d + 1) lo hi path pre post →
    Rep m h0 (d + 1) oldNode lo hi →
    Agree h0.length h0 h → h0.length ≤ newNode →
    Rep m h (d + 1) newNode lo hi → PosFull m h (d + 1) newNode path →
    ∃ h' root', t.copyUp h oldNode newNode path = some (h', { t with root := root' }) ∧
      Ext h h' ∧ Rep m h' D root' none none ∧ RootFull m h' D root' ∧
      ents h' D root' = pre ++ ents h (d + 1) newNode ++ post := by
  induction path with
  | nil =>
    intro h oldNode newNode d lo hi pre post c rold ag hfresh rnew pf
    obtain ⟨rfl, rfl, rfl, rfl, rfl, rfl⟩ := c
    obtain ⟨no, hno, _⟩ := Rep_succ.1 rold
    have hno' : readNode h t.root = some no := by rw [ag.readNode rold.lt]; exact hno
    obtain ⟨nn, hnn, _, hlen, _⟩ := Rep_succ.1 rnew
    have hsz : 2 ≤ nn.vals.length := by
      have := pf
      simp only [PosFull, RootFull, if_true] at this
      rw [nodeSize_of_node hnn] at this
      simpa using this.1
    refine ⟨h, newNode, ?_, Ext.refl_ext h, rnew, by simpa [PosFull] using pf, by simp⟩
    rw [tree.copyUp]
    simp only [isRoot_node hno', Option.bind_eq_bind, Option.some_bind, if_true]
    unfold tree.setRootNode
    rw [hnn]
    have : ¬ nn.keys.length = 0 := by omega
    simp [this]
  | cons p rest ih =>
    intro h oldNode newNode d lo hi pre post c rold ag hfresh rnew pf
    obtain ⟨n, plo, phi, i, pre', post', hn, hi', rfl, rfl, rp, pfp, rfl, rfl, cp⟩ := c
    have hn' : readNode h p = some n := by rw [ag.readNode rp.lt]; exact hn
    obtain ⟨_, hn2, hcap, hlen, hnd, hltc, hch⟩ := Rep_succ.1 rp
    rw [hn] at hn2
    cases hn2
    have hch1 : ∀ c ∈ n.vals, ∃ n', readNode (h ++ [Cell.node n]) c = some n' := by
      intro c hc
      obtain ⟨n', hn'⟩ := rp.child_node hn c hc
      refine ⟨n', ?_⟩
      have hcl := readNode_lt hn'
      rw [(Agree.append h [Cell.node n] (Nat.le_refl _)).readNode
        (by have := rnew.lt; have := rold.lt; omega), ag.readNode hcl]
      exact hn'
    have hswap : (fun n0 : interiorNodeS K =>
        n0.swapInteriorNode (h ++ [Cell.node n]) oldNode newNode) n =
        some { n with vals := n.vals.set i newNode } := by
      simp only [interiorNodeS.swapInteriorNode, swapInteriorVals_spec hch1 hi' hnd]
    have hlen0 : h0.length ≤ h.length := by have := rnew.lt; omega
    have ag2 : Agree h0.length h0 (h ++ [Cell.node { n with vals := n.vals.set i newNode }]) :=
      ag.trans (Agree.append _ _ hlen0)
    have agn : Agree (newNode + 1) h (h ++ [Cell.node { n with vals := n.vals.set i newNode }]) :=
      Agree.append _ _ rnew.lt
    have hset := Rep.set_child rp hn hi' ag2 (readNode_append_self h _) hfresh rnew.lt
      (rnew.agree agn) (by
        have : Full m h (d + 1) newNode := by simpa [PosFull] using pf
        exact this.agree_full agn)
    obtain ⟨h', root', hcu, hext, hr, hrf, hents⟩ :=
      ih cp rp ag2 hlen0 hset.1 (pfp.of_size hset.2.2)
    refine ⟨h', root', ?_, (Ext.append_ext h _).trans_ext hext, hr, hrf, ?_⟩
    · have hupd := updNode_fresh (h := h) (n := n)
        (f := fun n0 => n0.swapInteriorNode (h ++ [Cell.node n]) oldNode newNode) hswap
      rw [tree.copyUp]
      simp only [interiorNodeS.copy_eq hn', Option.bind_eq_bind, Option.some_bind, hupd]
      exact hcu
    · rw [hents, hset.2.1, rnew.ents_agree agn]
      simp

end

section
variable {K V : Type}

/-! ## Bounds of the children when a separator is added, removed or replaced -/

theorem loAt_ins_le (lo : Option K) (KA : List K) (k : K) (KB : List K) {j : Nat}
    (hj : j ≤ KA.length) : loAt lo (KA ++ k :: KB) j = loAt lo (KA ++ KB) j := by
  unfold loAt
  split
  · rfl
  · rw [List.getElem?_append_left (by omega), List.getElem?_append_left (by omega)]

theorem hiAt_ins_lt (hi : Option K) (KA : List K) (k : K) (KB : List K) {j : Nat}
    (hj : j < KA.length) : hiAt hi (KA ++ k :: KB) j = hiAt hi (KA ++ KB) j := by
  unfold hiAt
  rw [if_pos (by simp; omega), if_pos (by simp; omega),
    List.getElem?_append_left hj, List.getElem?_append_left hj]

theorem hiAt_ins_eq (hi : Option K) (KA : List K) (k : K) (KB : List K) :
    hiAt hi (KA ++ k :: KB) KA.length = some k := by
  unfold hiAt
  rw [if_pos (by simp), getElem?_mid k KB rfl]

theorem loAt_ins_succ (lo : Option K) (KA : List K) (k : K) (KB : List K) :
    loAt lo (KA ++ k :: KB) (KA.length + 1) = some k := by
  rw [loAt_succ, getElem?_mid k KB rfl]

theorem hiAt_ins_gt (hi : Option K) (KA : List K) (k : K) (KB : List K) {j : Nat}
    (hj : KA.length < j) : hiAt hi (KA ++ k :: KB) j = hiAt hi (KA ++ KB) (j - 1) := by
  unfold hiAt
  obtain ⟨j, rfl⟩ : ∃ j', j = j' + 1 := ⟨j - 1, by omega⟩
  simp only [List.length_append, List.length_cons, Nat.add_sub_cancel]
  by_cases h : j < KA.length + KB.length
  · rw [if_pos (by omega), if_pos h, List.getElem?_append_right (by omega),
      List.getElem?_append_right (by omega)]
    have : j + 1 - KA.length = (j - KA.length) + 1 := by omega
    rw [this, List.getElem?_cons_succ]
  · rw [if_neg (by omega), if_neg h]

theorem loAt_ins_gt (lo : Option K) (KA : List K) (k : K) (KB : List K) {j : Nat}
    (hj : KA.length + 1 < j) : loAt lo (KA ++ k :: KB) j = loAt lo (KA ++ KB) (j - 1) := by
  obtain ⟨j, rfl⟩ : ∃ j', j = j' + 2 := ⟨j - 2, by omega⟩
  rw [show j + 2 - 1 = j + 1 from rfl, loAt_succ, loAt_succ,
    List.getElem?_append_right (by omega), List.getElem?_append_right (by omega)]
  have : j + 1 - KA.length = (j - KA.length) + 1 := by omega
  rw [this, List.getElem?_cons_succ]

/-! ## Bounds of the children of the two parts of a node -/

theorem loAt_left (lo : Option K) (KA : List K) (k : K) (KB : List K) {j : Nat}
    (hj : j ≤ KA.length) : loAt lo (KA ++ k :: KB) j = loAt lo KA j := by
  unfold loAt
  split
  · rfl
  · rw [List.getElem?_append_left (by omega)]

theorem hiAt_left (hi : Option K) (KA : List K) (k : K) (KB : List K) {j : Nat}
    (hj : j ≤ KA.length) : hiAt hi (KA ++ k :: KB) j = hiAt (some k) KA j := by
  rcases Nat.lt_or_ge j KA.length with h | h
  · unfold hiAt
    rw [if_pos (by simp; omega), if_pos h, List.getElem?_append_left h]
  · have : j = KA.length := by omega
    subst this
    rw [hiAt_ins_eq, hiAt_ge _ _ (Nat.le_refl _)]

theorem loAt_right (lo : Option K) (KA : List K) (k : K) (KB : List K) (j : Nat) :
    loAt lo (KA ++ k :: KB) (KA.length + 1 + j) = loAt (some k) KB j := by
  cases j with
  | zero => rw [Nat.add_zero, loAt_ins_succ, loAt_zero]
  | succ j =>
    rw [show KA.length + 1 + (j + 1) = (KA.length + 1 + j) + 1 from rfl, loAt_succ, loAt_succ,
      List.getElem?_append_right (by omega)]
    have : KA.length + 1 + j - KA.length = j + 1 := by omega
    rw [this, List.getElem?_cons_succ]

theorem hiAt_right (hi : Option K) (KA : List K) (k : K) (KB : List K) (j : Nat) :
    hiAt hi (KA ++ k :: KB) (KA.length + 1 + j) = hiAt hi KB j := by
  unfold hiAt
  simp only [List.length_append, List.length_cons]
  by_cases h : j < KB.length
  · rw [if_pos (by omega), if_pos h, List.getElem?_append_right (by omega)]
    have : KA.length + 1 + j - KA.length = j + 1 := by omega
    rw [this, List.getElem?_cons_succ]
  · rw [if_neg (by omega), if_neg h]

/-! ## Children by region -/

theorem getElem?_two_lt {α : Type} (A : List α) (x y : α) (B : List α) {j : Nat}
    (hj : j < A.length) : (A ++ x :: y :: B)[j]? = A[j]? :=
  List.getElem?_append_left hj

theorem getElem?_one_gt {α : Type} (A : List α) (x : α) (B : List α) {j : Nat}
    (hj : A.length < j) : (A ++ x :: B)[j]? = B[j - A.length - 1]? := by
  rw [List.getElem?_append_right (by omega)]
  obtain ⟨r, hr⟩ : ∃ r, j - A.length = r + 1 := ⟨j - A.length - 1, by omega⟩
  rw [hr, List.getElem?_cons_succ]
  rfl

theorem getElem?_two_gt {α : Type} (A : List α) (x y : α) (B : List α) {j : Nat}
    (hj : A.length + 1 < j) : (A ++ x :: y :: B)[j]? = B[j - A.length - 2]? := by
  rw [List.getElem?_append_right (by omega)]
  obtain ⟨r, hr⟩ : ∃ r, j - A.length = r + 2 := ⟨j - A.length - 2, by omega⟩
  rw [hr, List.getElem?_cons_succ, List.getElem?_cons_succ]
  rfl

/-- One child is replaced by two with a new separator between them. -/
theorem Kids.insert {P : Nat → Option K → Option K → Prop} {lo hi : Option K}
    {KA KB : List K} {A B : List Nat} {old new split : Nat} {k : K}
    (H : Kids P lo hi (KA ++ KB) (A ++ old :: B)) (hA : A.length = KA.length)
    (hnew : P new (loAt lo (KA ++ KB) KA.length) (some k))
    (hsplit : P split (some k) (hiAt hi (KA ++ KB) KA.length)) :
    Kids P lo hi (KA ++ k :: KB) (A ++ new :: split :: B) := by
  intro j c hc
  rcases Nat.lt_trichotomy j A.length with hj | hj | hj
  · rw [getElem?_two_lt _ _ _ _ hj] at hc
    have := H j c (by rw [List.getElem?_append_left hj]; exact hc)
    rwa [loAt_ins_le _ _ _ _ (by omega), hiAt_ins_lt _ _ _ _ (by omega)]
  · subst hj
    rw [getElem?_mid _ _ rfl] at hc
    cases hc
    rw [hA, loAt_ins_le _ _ _ _ (Nat.le_refl _), hiAt_ins_eq]
    exact hnew
  · rcases Nat.lt_or_ge (A.length + 1) j with hj2 | hj2
    · rw [getElem?_two_gt _ _ _ _ hj2] at hc
      have := H (j - 1) c (by
        rw [getElem?_one_gt _ _ _ (by omega)]
        rw [← hc]; congr 1; omega)
      rwa [loAt_ins_gt _ _ _ _ (by omega), hiAt_ins_gt _ _ _ _ (by omega)]
    · have : j = A.length + 1 := by omega
      subst this
      have h2 : (A ++ new :: split :: B)[A.length + 1]? = some split := by
        have : A ++ new :: split :: B = (A ++ [new]) ++ split :: B := by simp
        rw [this]
        exact getElem?_mid _ _ (by simp)
      rw [h2] at hc
      cases hc
      rw [hA, loAt_ins_succ, hiAt_ins_gt _ _ _ _ (Nat.lt_succ_self _)]
      exact hsplit

/-- Two neighbours are replaced by one and the separator between them goes. -/
theorem Kids.remove {P : Nat → Option K → Option K → Prop} {lo hi : Option K}
    {KA KB : List K} {A B : List Nat} {c1 c2 merged : Nat} {k : K}
    (H : Kids P lo hi (KA ++ k :: KB) (A ++ c1 :: c2 :: B)) (hA : A.length = KA.length)
    (hm : P merged (loAt lo (KA ++ KB) KA.length) (hiAt hi (KA ++ KB) KA.length)) :
    Kids P lo hi (KA ++ KB) (A ++ merged :: B) := by
  intro j c hc
  rcases Nat.lt_trichotomy j A.length with hj | hj | hj
  · rw [List.getElem?_append_left hj] at hc
    have := H j c (by rw [getElem?_two_lt _ _ _ _ hj]; exact hc)
    rwa [loAt_ins_le _ _ _ _ (by omega), hiAt_ins_lt _ _ _ _ (by omega)] at this
  · subst hj
    rw [getElem?_mid _ _ rfl] at hc
    cases hc
    rw [hA]
    exact hm
  · rw [getElem?_one_gt _ _ _ hj] at hc
    have := H (j + 1) c (by
      rw [getElem?_two_gt _ _ _ _ (by omega)]
      rw [← hc]; congr 1; omega)
    rwa [loAt_ins_gt _ _ _ _ (by omega), hiAt_ins_gt _ _ _ _ (by omega),
      Nat.add_sub_cancel] at this

/-- Two neighbours and the separator between them are replaced. -/
theorem Kids.swap2 {P : Nat → Option K → Option K → Prop} {lo hi : Option K}
    {KA KB : List K} {A B : List Nat} {c1 c2 n1 n2 : Nat} {k k' : K}
    (H : Kids P lo hi (KA ++ k :: KB) (A ++ c1 :: c2 :: B)) (hA : A.length = KA.length)
    (h1 : P n1 (loAt lo (KA ++ KB) KA.length) (some k'))
    (h2 : P n2 (some k') (hiAt hi (KA ++ KB) KA.length)) :
    Kids P lo hi (KA ++ k' :: KB) (A ++ n1 :: n2 :: B) := by
  intro j c hc
  rcases Nat.lt_trichotomy j A.length with hj | hj | hj
  · rw [getElem?_two_lt _ _ _ _ hj] at hc
    have := H j c (by rw [getElem?_two_lt _ _ _ _ hj]; exact hc)
    rw [loAt_ins_le _ _ _ _ (by omega), hiAt_ins_lt _ _ _ _ (by omega)] at this
    rwa [loAt_ins_le _ _ _ _ (by omega), hiAt_ins_lt _ _ _ _ (by omega)]
  · subst hj
    rw [getElem?_mid _ _ rfl] at hc
    cases hc
    rw [hA, loAt_ins_le _ _ _ _ (Nat.le_refl _), hiAt_ins_eq]
    exact h1
  · rcases Nat.lt_or_ge (A.length + 1) j with hj2 | hj2
    · rw [getElem?_two_gt _ _ _ _ hj2] at hc
      have := H j c (by rw [getElem?_two_gt _ _ _ _ hj2]; exact hc)
      rw [loAt_ins_gt _ _ _ _ (by omega), hiAt_ins_gt _ _ _ _ (by omega)] at this
      rwa [loAt_ins_gt _ _ _ _ (by omega), hiAt_ins_gt _ _ _ _ (by omega)]
    · have : j = A.length + 1 := by omega
      subst this
      have h3 : (A ++ n1 :: n2 :: B)[A.length + 1]? = some n2 := by
        have : A ++ n1 :: n2 :: B = (A ++ [n1]) ++ n2 :: B := by simp
        rw [this]
        exact getElem?_mid _ _ (by simp)
      rw [h3] at hc
      cases hc
      rw [hA, loAt_ins_succ, hiAt_ins_gt _ _ _ _ (Nat.lt_succ_self _)]
      exact h2

/-- The children left of a separator. -/
theorem Kids.left {P : Nat → Option K → Option K → Prop} {lo hi : Option K}
    {KA KB : List K} {A B : List Nat} {k : K}
    (H : Kids P lo hi (KA ++ k :: KB) (A ++ B)) (hA : A.length = KA.length + 1) :
    Kids P lo (some k) KA A := by
  intro j c hc
  have hj : j < A.length := (List.getElem?_eq_some.1 hc).1
  have := H j c (by rw [List.getElem?_append_left hj]; exact hc)
  rwa [loAt_left _ _ _ _ (by omega), hiAt_left _ _ _ _ (by omega)] at this

/-- The children right of a separator. -/
theorem Kids.right {P : Nat → Option K → Option K → Prop} {lo hi : Option K}
    {KA KB : List K} {A B : List Nat} {k : K}
    (H : Kids P lo hi (KA ++ k :: KB) (A ++ B)) (hA : A.length = KA.length + 1) :
    Kids P (some k) hi KB B := by
  intro j c hc
  have := H (KA.length + 1 + j) c (by
    rw [List.getElem?_append_right (by omega)]
    rw [← hc]; congr 1; omega)
  rwa [loAt_right, hiAt_right] at this

/-- The children of two nodes joined by a separator. -/
theorem Kids.join {P : Nat → Option K → Option K → Prop} {lo hi : Option K}
    {KA KB : List K} {A B : List Nat} {k : K}
    (HA : Kids P lo (some k) KA A) (HB : Kids P (some k) hi KB B)
    (hA : A.length = KA.length + 1) : Kids P lo hi (KA ++ k :: KB) (A ++ B) := by
  intro j c hc
  rcases Nat.lt_or_ge j A.length with hj | hj
  · rw [List.getElem?_append_left hj] at hc
    have := HA j c hc
    rwa [loAt_left _ _ _ _ (by omega), hiAt_left _ _ _ _ (by omega)]
  · rw [List.getElem?_append_right hj] at hc
    have := HB (j - A.length) c hc
    have hj' : j = KA.length + 1 + (j - A.length) := by omega
    rw [hj', loAt_right, hiAt_right]
    exact this

end

section
variable {K V : Type} [LinearOrder K]

theorem Rep_kids {m : Nat} {h : Heap K V} {d a : Nat} {lo hi : Option K} :
    Rep m h (d + 1) a lo hi ↔
      ∃ n, readNode h a = some n ∧ n.cap = m ∧ n.vals.length = n.keys.length + 1 ∧
        n.vals.Nodup ∧ (∀ c ∈ n.vals, c < a) ∧ Kids (Kid m h d) lo hi n.keys n.vals :=
  Iff.rfl

theorem Kid.agree_kid {m : Nat} {h h' : Heap K V} {d c : Nat} {lo hi : Option K}
    (k : Kid m h d c lo hi) (ag : Agree (c + 1) h h') : Kid m h' d c lo hi :=
  ⟨k.1.agree ag, k.2.agree_full ag⟩

theorem Kids.agree_kids {m : Nat} {h h' : Heap K V} {d : Nat} {lo hi : Option K} {keys : List K}
    {vals : List Nat} {n : Nat} (H : Kids (Kid m h d) lo hi keys vals)
    (hlt : ∀ c ∈ vals, c < n) (ag : Agree n h h') : Kids (Kid m h' d) lo hi keys vals := by
  intro j c hc
  exact (H j c hc).agree_kid (ag.mono (by have := hlt c (List.getElem?_mem hc); omega))

/-! ## Adding a separator and a child to an interior node -/

theorem findIdx?_eq_of {α : Type} {l : List α} {p : α → Bool} {i : Nat} (hi : i ≤ l.length)
    (hlt : ∀ j x, j < i → l[j]? = some x → p x = false)
    (hat : ∀ x, l[i]? = some x → p x = true) :
    l.findIdx? p = if i < l.length then some i else none := by
  split
  · next h =>
    rw [List.findIdx?_eq_some_iff_getElem]
    exact ⟨h, hat _ (List.getElem?_eq_getElem h), fun j hj => by
      simp [hlt j _ hj (List.getElem?_eq_getElem (by omega))]⟩
  · next h =>
    rw [List.findIdx?_eq_none_iff]
    intro x hx
    obtain ⟨j, hj, rfl⟩ := List.getElem_of_mem hx
    exact hlt j _ (by omega) (List.getElem?_eq_getElem hj)

/-- The method `insert` of an interior node with room for one more separator
puts the separator at the index of the child that was split when the separator
lies within the bounds of that child. -/
theorem interiorNodeS.insert_at (n : interiorNodeS K) (key : K) (val : Nat) {i : Nat}
    (hi : i ≤ n.keys.length) (hlen : n.vals.length = n.keys.length + 1)
    (hroom : n.keys.length < n.cap)
    (hlt : ∀ j x, j < i → n.keys[j]? = some x → x ≤ key)
    (hat : ∀ x, n.keys[i]? = some x → key < x) :
    n.insert key val = some { n with keys := n.keys.take i ++ key :: n.keys.drop i,
                                     vals := n.vals.take (i + 1) ++ val :: n.vals.drop (i + 1) } := by
  unfold interiorNodeS.insert
  rw [findIdx?_eq_of hi (fun j x hj hx => by simpa using hlt j x hj hx)
    (fun x hx => by simpa using hat x hx)]
  by_cases h : i < n.keys.length
  · rw [if_pos h]
    simp only
    rw [if_pos ⟨by omega, hroom, by omega⟩]
  · rw [if_neg h]
    have hi' : i = n.keys.length := by omega
    subst hi'
    have h2 : n.keys.length + 1 = n.vals.length := by omega
    simp only
    rw [if_pos ⟨hroom, by omega⟩]
    simp [h2]

theorem take_succ_set {α : Type} {l : List α} {i : Nat} (hi : i < l.length) (a : α) :
    (l.set i a).take (i + 1) = l.take i ++ [a] := by
  obtain ⟨A, x, B, rfl, hA, _⟩ := split_at_idx hi
  rw [set_mid x a B hA, take_mid _ hA]
  have : A ++ a :: B = (A ++ [a]) ++ B := by simp
  rw [this, take_mid _ (by simp [hA])]

theorem drop_succ_set {α : Type} (l : List α) (i : Nat) (a : α) :
    (l.set i a).drop (i + 1) = l.drop (i + 1) :=
  List.drop_set_of_lt _ _ (Nat.lt_succ_self i)

theorem mem_take_lt {α : Type} {l : List α} {i : Nat} {a : α} (ha : a ∈ l.take i) : a ∈ l :=
  List.mem_of_mem_take ha

/-- The copy of a well-formed node in which child `i` is replaced by the two
halves of its split, with the promoted key between them. -/
theorem Rep.insert_child {m : Nat} {h0 h3 : Heap K V} {d p newP : Nat} {plo phi : Option K}
    {n : interiorNodeS K} {i old new split : Nat} {k : K}
    (r : Rep m h0 (d + 1) p plo phi) (hn : readNode h0 p = some n)
    (hi : n.vals[i]? = some old) (ag : Agree h0.length h0 h3)
    (hnew : readNode h3 newP = some
      { n with keys := n.keys.take i ++ k :: n.keys.drop i,
               vals := n.vals.take i ++ new :: split :: n.vals.drop (i + 1) })
    (hf1 : h0.length ≤ new) (hf2 : h0.length ≤ split) (hne : new ≠ split)
    (hlt1 : new < newP) (hlt2 : split < newP)
    (k1 : Kid m h3 d new (loAt plo n.keys i) (some k))
    (k2 : Kid m h3 d split (some k) (hiAt phi n.keys i)) :
    Rep m h3 (d + 1) newP plo phi ∧
    ents h3 (d + 1) newP = ((n.vals.take i).map (ents h0 d)).flatten ++ ents h3 d new ++
      ents h3 d split ++ ((n.vals.drop (i + 1)).map (ents h0 d)).flatten ∧
    nodeSize h3 newP = nodeSize h0 p + 1 := by
  obtain ⟨n', hn', hcap, hlen, hnd, hltc, hch⟩ := Rep_kids.1 r
  rw [hn] at hn'
  cases hn'
  have hp := r.lt
  have hil : i < n.vals.length := (List.getElem?_eq_some.1 hi).1
  have hik : i ≤ n.keys.length := by omega
  have hold : ∀ c ∈ n.vals, ∃ lo hi, Rep m h0 d c lo hi := by
    intro c hc
    obtain ⟨j, hj⟩ := List.getElem?_of_mem hc
    exact ⟨_, _, (hch j c hj).1⟩
  have hvals : n.vals = n.vals.take i ++ old :: n.vals.drop (i + 1) := by
    obtain ⟨hil', hio⟩ := List.getElem?_eq_some.1 hi
    rw [← hio, ← List.drop_eq_getElem_cons hil', List.take_append_drop]
  have hkeys : n.keys = n.keys.take i ++ n.keys.drop i := (List.take_append_drop _ _).symm
  have hAl : (n.vals.take i).length = (n.keys.take i).length := by
    rw [List.length_take, List.length_take]; omega
  have hKl : (n.keys.take i).length = i := by rw [List.length_take]; omega
  have hoc : ∀ c, c ∈ n.vals.take i ∨ c ∈ n.vals.drop (i + 1) → c < h0.length := by
    intro c hc
    have : c ∈ n.vals := by
      rcases hc with hc | hc
      · exact List.mem_of_mem_take hc
      · exact List.mem_of_mem_drop hc
    have := hltc c this
    omega
  refine ⟨Rep_kids.2 ⟨_, hnew, hcap, ?_, ?_, ?_, ?_⟩, ?_, ?_⟩
  · simp only [List.length_append, List.length_cons, List.length_take, List.length_drop]
    omega
  · simp only
    rw [hvals] at hnd
    rw [List.nodup_append] at hnd ⊢
    obtain ⟨h1, h2, h3'⟩ := hnd
    rw [List.nodup_cons] at h2
    refine ⟨h1, ?_, ?_⟩
    · rw [List.nodup_cons, List.nodup_cons]
      refine ⟨?_, ?_, h2.2⟩
      · intro hmem
        rw [List.mem_cons] at hmem
        rcases hmem with hmem | hmem
        · exact hne hmem
        · have := hoc new (Or.inr hmem); omega
      · intro hmem
        have := hoc split (Or.inr hmem); omega
    · intro c hc1 hc2
      rw [List.mem_cons, List.mem_cons] at hc2
      rcases hc2 with rfl | rfl | hc2
      · have := hoc c (Or.inl hc1); omega
      · have := hoc c (Or.inl hc1); omega
      · exact h3' hc1 (List.mem_cons_of_mem _ hc2)
  · intro c hc
    simp only [List.mem_append, List.mem_cons] at hc
    rcases hc with hc | rfl | rfl | hc
    · have := hoc c (Or.inl hc); omega
    · exact hlt1
    · exact hlt2
    · have := hoc c (Or.inr hc); omega
  · simp only
    have H0 : Kids (Kid m h3 d) plo phi (n.keys.take i ++ n.keys.drop i)
        (n.vals.take i ++ old :: n.vals.drop (i + 1)) := by
      rw [← hvals, ← hkeys]
      exact hch.agree_kids (fun c hc => by have := hltc c hc; omega) ag
    have : Kids (Kid m h3 d) plo phi (n.keys.take i ++ k :: n.keys.drop i)
        (n.vals.take i ++ new :: split :: n.vals.drop (i + 1)) :=
      H0.insert hAl (by rw [hKl, ← hkeys]; exact k1) (by rw [hKl, ← hkeys]; exact k2)
    exact this
  · rw [ents_node hnew]
    simp only [List.map_append, List.map_cons, List.flatten_append, List.flatten_cons]
    rw [ents_map_agree (m := m) (fun c hc => hold c (List.mem_of_mem_take hc)) ag,
      ents_map_agree (m := m) (fun c hc => hold c (List.mem_of_mem_drop hc)) ag]
    simp
  · rw [nodeSize_of_node hnew, nodeSize_of_node hn]
    simp only [List.length_append, List.length_cons, List.length_take, List.length_drop]
    omega

end

section
variable {K V : Type} [LinearOrder K]

/-! ## Splits -/

theorem set_two (hb : Heap K V) (a b a' b' : Cell K V) :
    ((hb ++ [a] ++ [b]).set (hb ++ [a]).length b').set hb.length a' = hb ++ [a', b'] := by
  rw [set_append_self, List.append_assoc, List.set_append_right _ _ (Nat.le_refl _)]
  simp

theorem agree_two (hb : Heap K V) (a a' b' : Cell K V) :
    Agree hb.length (hb ++ [a]) (hb ++ [a', b']) := by
  intro x hx
  rw [List.getElem?_append_left hx, List.getElem?_append_left hx]

theorem getElem?_two_fst (hb : Heap K V) (a b : Cell K V) :
    (hb ++ [a, b])[hb.length]? = some a := by
  rw [List.getElem?_append_right (Nat.le_refl _)]
  simp

theorem getElem?_two_snd (hb : Heap K V) (a b : Cell K V) :
    (hb ++ [a, b])[hb.length + 1]? = some b := by
  rw [List.getElem?_append_right (by omega)]
  simp

theorem minSize_succ (m d : Nat) : minSize m (d + 1) = (m + 1) / 2 := by
  simp [minSize]

theorem maxSize_succ (m d : Nat) : maxSize m (d + 1) = m := by
  simp [maxSize]

theorem minSize_zero (m : Nat) : minSize m 0 = m / 2 := by
  simp [minSize]

theorem maxSize_zero (m : Nat) : maxSize m 0 = m - 1 := by
  simp [maxSize]

/-- The method `split` of an interior node on a fresh node with `m` separators:
both halves are well formed and within the fan-out bounds, the promoted key
separates them, and together they hold the same entries. -/
theorem interiorNodeS.split_spec {m : Nat} (hm : 3 ≤ m) {hb : Heap K V} {d : Nat}
    {plo phi : Option K} {n3 : interiorNodeS K}
    (r : Rep m (hb ++ [Cell.node n3]) (d + 1) hb.length plo phi)
    (hk : n3.keys.length = m) :
    ∃ mid L R, interiorNodeS.split (hb ++ [Cell.node n3]) hb.length =
        some (hb ++ [Cell.node L, Cell.node R], hb.length + 1, mid) ∧
      Kid m (hb ++ [Cell.node L, Cell.node R]) (d + 1) hb.length plo (some mid) ∧
      Kid m (hb ++ [Cell.node L, Cell.node R]) (d + 1) (hb.length + 1) (some mid) phi ∧
      ents (hb ++ [Cell.node L, Cell.node R]) (d + 1) hb.length ++
        ents (hb ++ [Cell.node L, Cell.node R]) (d + 1) (hb.length + 1) =
        ents (hb ++ [Cell.node n3]) (d + 1) hb.length := by
  obtain ⟨n', hn', hcap, hlen, hnd, hltc, hch⟩ := Rep_kids.1 r
  rw [readNode_append_self] at hn'
  cases hn'
  let s := (m - 1) / 2
  have hs : s < n3.keys.length := by
    show (m - 1) / 2 < n3.keys.length
    omega
  obtain ⟨KA, mid, KB, hkeys, hKA, hmid⟩ := split_at_idx hs
  have hvl : s + 1 ≤ n3.vals.length := by omega
  let A := n3.vals.take (s + 1)
  let B := n3.vals.drop (s + 1)
  have hvals : n3.vals = A ++ B := (List.take_append_drop _ _).symm
  have hAl : A.length = KA.length + 1 := by
    show (n3.vals.take (s + 1)).length = _
    rw [List.length_take, hKA]; omega
  have hKAt : n3.keys.take s = KA := by rw [hkeys]; exact take_mid _ hKA
  have hKBd : n3.keys.drop (s + 1) = KB := by rw [hkeys]; exact drop_mid_succ _ _ hKA
  have hklen : KA.length + 1 + KB.length = m := by
    rw [← hk, hkeys]; simp; omega
  have hBl : B.length = KB.length + 1 := by
    have : (A ++ B).length = n3.keys.length + 1 := by rw [← hvals]; exact hlen
    rw [List.length_append, hkeys] at this
    simp at this
    omega
  refine ⟨mid, ⟨m, KA, A⟩, ⟨m, KB, B⟩, ?_, ?_, ?_, ?_⟩
  · unfold interiorNodeS.split
    rw [readNode_append_self]
    simp only [interiorNodeS.order, hcap, mkNode, alloc]
    have hset : ∀ (k1 k2 : List K) (v1 v2 : List Nat),
        ((hb ++ [Cell.node n3] ++ [Cell.node ⟨m, [], []⟩]).set (hb ++ [Cell.node n3]).length
          (Cell.node ⟨m, k2, v2⟩)).set hb.length (Cell.node ⟨m, k1, v1⟩) =
        hb ++ [Cell.node ⟨m, k1, v1⟩, Cell.node ⟨m, k2, v2⟩] := fun _ _ _ _ => set_two _ _ _ _ _
    by_cases hodd : m % 2 = 1
    · have e1 : m / 2 = s := by show m / 2 = (m - 1) / 2; omega
      have e2 : (m + 1) / 2 = s + 1 := by show (m + 1) / 2 = (m - 1) / 2 + 1; omega
      rw [if_pos hodd, e1, e2, hmid]
      simp only
      rw [if_pos ⟨by omega, by omega⟩, hset, hKAt, hKBd]
      simp [A, B]
    · have e1 : m / 2 - 1 = s := by show m / 2 - 1 = (m - 1) / 2; omega
      have e1' : m / 2 = s + 1 := by show m / 2 = (m - 1) / 2 + 1; omega
      have e2 : (m + 1) / 2 = s + 1 := by show (m + 1) / 2 = (m - 1) / 2 + 1; omega
      rw [if_neg hodd, e1, e2, hmid]
      simp only
      rw [e1', if_pos ⟨by omega, by omega⟩, hset, hKAt, hKBd]
      simp [A, B]
  all_goals
    have ag : Agree hb.length (hb ++ [Cell.node n3])
        (hb ++ [Cell.node ⟨m, KA, A⟩, Cell.node ⟨m, KB, B⟩]) := agree_two _ _ _ _
    have hL : readNode (hb ++ [Cell.node ⟨m, KA, A⟩, Cell.node ⟨m, KB, B⟩]) hb.length =
        some ⟨m, KA, A⟩ := by
      rw [readNode_eq_some]; exact getElem?_two_fst _ _ _
    have hR : readNode (hb ++ [Cell.node ⟨m, KA, A⟩, Cell.node ⟨m, KB, B⟩]) (hb.length + 1) =
        some ⟨m, KB, B⟩ := by
      rw [readNode_eq_some]; exact getElem?_two_snd _ _ _
    have hch' := hch.agree_kids hltc ag
    rw [hkeys, hvals] at hch'
    rw [hvals, List.nodup_append] at hnd
    have hltA : ∀ c ∈ A, c < hb.length := fun c hc =>
      hltc c (by rw [hvals]; exact List.mem_append_left _ hc)
    have hltB : ∀ c ∈ B, c < hb.length := fun c hc =>
      hltc c (by rw [hvals]; exact List.mem_append_right _ hc)
  · refine ⟨Rep_kids.2 ⟨_, hL, rfl, hAl, hnd.1, hltA, hch'.left hAl⟩, ?_⟩
    unfold Full
    rw [nodeSize_of_node hL, minSize_succ, maxSize_succ]
    simp only
    rw [hAl, hKA]
    show (m + 1) / 2 ≤ (m - 1) / 2 + 1 ∧ (m - 1) / 2 + 1 ≤ m
    omega
  · refine ⟨Rep_kids.2 ⟨_, hR, rfl, hBl, hnd.2.1,
      fun c hc => by have := hltB c hc; omega, hch'.right hAl⟩, ?_⟩
    unfold Full
    rw [nodeSize_of_node hR, minSize_succ, maxSize_succ]
    simp only
    rw [hBl]
    have : KA.length = (m - 1) / 2 := hKA
    omega
  · rw [ents_node hL, ents_node hR, ents_node (readNode_append_self hb n3)]
    simp only
    have hold : ∀ c ∈ n3.vals, ∃ lo hi, Rep m (hb ++ [Cell.node n3]) d c lo hi := by
      intro c hc
      obtain ⟨j, hj⟩ := List.getElem?_of_mem hc
      exact ⟨_, _, (hch j c hj).1⟩
    have e : ∀ c ∈ n3.vals, ents (hb ++ [Cell.node ⟨m, KA, A⟩, Cell.node ⟨m, KB, B⟩]) d c =
        ents (hb ++ [Cell.node n3]) d c := by
      intro c hc
      obtain ⟨lo, hi, rc⟩ := hold c hc
      exact rc.ents_agree (ag.mono (hltc c hc))
    rw [← List.flatten_append, ← List.map_append, ← hvals]
    congr 1
    exact List.map_congr_left e

end

section
variable {K V : Type} [LinearOrder K]

/-- The method `split` of a leaf on a fresh leaf with `m` entries. -/
theorem leafNodeS.split_leaf_spec {m : Nat} (hm : 3 ≤ m) {hb : Heap K V}
    {lo hi : Option K} {l3 : leafNodeS K V}
    (r : Rep m (hb ++ [Cell.leaf l3]) 0 hb.length lo hi)
    (hk : l3.keys.length = m) :
    ∃ sk L R, leafNodeS.split (hb ++ [Cell.leaf l3]) hb.length =
        some (hb ++ [Cell.leaf L, Cell.leaf R], hb.length + 1, sk) ∧
      Kid m (hb ++ [Cell.leaf L, Cell.leaf R]) 0 hb.length lo (some sk) ∧
      Kid m (hb ++ [Cell.leaf L, Cell.leaf R]) 0 (hb.length + 1) (some sk) hi ∧
      ents (hb ++ [Cell.leaf L, Cell.leaf R]) 0 hb.length ++
        ents (hb ++ [Cell.leaf L, Cell.leaf R]) 0 (hb.length + 1) =
        ents (hb ++ [Cell.leaf l3]) 0 hb.length := by
  obtain ⟨l', hl', hcap, hlen, hsort, hbnd, hblt⟩ := Rep_zero.1 r
  rw [readLeaf_append_self] at hl'
  cases hl'
  have hs : m / 2 < l3.keys.length := by omega
  obtain ⟨KA, sk, KB, hkeys, hKA, hmid⟩ := split_at_idx hs
  let VA := l3.vals.take (m / 2)
  let VB := l3.vals.drop (m / 2)
  have hvals : l3.vals = VA ++ VB := (List.take_append_drop _ _).symm
  have hVA : VA.length = m / 2 := by
    show (l3.vals.take (m / 2)).length = _
    rw [List.length_take]; omega
  have hKAV : KA.length = VA.length := by omega
  have hVB : VB.length = KB.length + 1 := by
    have h1 : (VA ++ VB).length = l3.keys.length := by rw [← hvals]; exact hlen.symm
    rw [List.length_append, hkeys] at h1
    simp at h1
    omega
  have hKAt : l3.keys.take (m / 2) = KA := by rw [hkeys]; exact take_mid _ hKA
  have hKBd : l3.keys.drop (m / 2) = sk :: KB := by rw [hkeys]; exact drop_mid _ hKA
  rw [hkeys, List.pairwise_append, List.pairwise_cons] at hsort
  obtain ⟨hsA, ⟨hskB, hsB⟩, hAB⟩ := hsort
  have hbA : ∀ k ∈ KA, geLo lo k ∧ ltHi hi k := fun k hk' =>
    hbnd k (by rw [hkeys]; exact List.mem_append_left _ hk')
  have hbB : ∀ k ∈ sk :: KB, geLo lo k ∧ ltHi hi k := fun k hk' =>
    hbnd k (by rw [hkeys]; exact List.mem_append_right _ hk')
  refine ⟨sk, ⟨m, KA, VA⟩, ⟨m, sk :: KB, VB⟩, ?_, ?_, ?_, ?_⟩
  · unfold leafNodeS.split
    rw [readLeaf_append_self]
    simp only [leafNodeS.order, hcap, mkLeaf, alloc, hk, ← hlen, hKBd, hKAt,
      List.getElem?_cons_zero]
    rw [set_two]
    simp [VA, VB]
  all_goals
    have hL : readLeaf (hb ++ [Cell.leaf ⟨m, KA, VA⟩, Cell.leaf ⟨m, sk :: KB, VB⟩]) hb.length =
        some ⟨m, KA, VA⟩ := by
      rw [readLeaf_eq_some]; exact getElem?_two_fst _ _ _
    have hR : readLeaf (hb ++ [Cell.leaf ⟨m, KA, VA⟩, Cell.leaf ⟨m, sk :: KB, VB⟩])
        (hb.length + 1) = some ⟨m, sk :: KB, VB⟩ := by
      rw [readLeaf_eq_some]; exact getElem?_two_snd _ _ _
  · refine ⟨Rep_zero.2 ⟨_, hL, rfl, hKAV, hsA, ?_, ?_⟩, ?_⟩
    · intro k hk'
      exact ⟨(hbA k hk').1, ltHi_some.2 (hAB k hk' sk (List.mem_cons_self _ _))⟩
    · rw [bLt_some_right]
      intro l hl
      have h0 : 0 < KA.length := by omega
      have hmem : KA[0] ∈ KA := List.getElem_mem h0
      exact lt_of_le_of_lt ((hbA _ hmem).1 l hl) (hAB _ hmem sk (List.mem_cons_self _ _))
    · unfold Full
      rw [nodeSize_of_leaf hL, minSize_zero, maxSize_zero]
      simp only
      omega
  · refine ⟨Rep_zero.2 ⟨_, hR, rfl, by simp [hVB], List.pairwise_cons.2 ⟨hskB, hsB⟩, ?_, ?_⟩, ?_⟩
    · intro k hk'
      refine ⟨geLo_some.2 ?_, (hbB k hk').2⟩
      rw [List.mem_cons] at hk'
      rcases hk' with rfl | hk'
      · exact le_refl _
      · exact le_of_lt (hskB k hk')
    · rw [bLt_some_left]
      exact (hbB sk (List.mem_cons_self _ _)).2
    · unfold Full
      rw [nodeSize_of_leaf hR, minSize_zero, maxSize_zero]
      simp only
      have : KA.length + 1 + KB.length = m := by
        rw [← hk, hkeys]; simp; omega
      omega
  · rw [ents_leaf hL, ents_leaf hR, ents_leaf (readLeaf_append_self hb l3)]
    simp only
    rw [hkeys, hvals, List.zip_append hKAV]

theorem UpRes.of_copyUp {m : Nat} {t : tree} {D : Nat} {h h' : Heap K V} {root' : Nat}
    {res : Option (Heap K V × tree)} {es : List (K × V)} (hD : t.depth = (D : Int))
    (hres : res = some (h', { t with root := root' })) (hext : Ext h h')
    (hr : Rep m h' D root' none none) (hrf : RootFull m h' D root')
    (hes : ents h' D root' = es) : UpRes m t h h.length res es :=
  ⟨h', _, D, hres, hext.1, hext.2, rfl, rfl, hD, hr, hrf, hes⟩

theorem UpRes.weaken {m : Nat} {t : tree} {h0 h : Heap K V} {n0 n : Nat}
    {res : Option (Heap K V × tree)} {es : List (K × V)}
    (u : UpRes m t h n res es) (hl : h0.length ≤ h.length) (ag : Agree n0 h0 h) (hn : n0 ≤ n) :
    UpRes m t h0 n0 res es := by
  obtain ⟨h', t', D', hres, hlen, hag, rest⟩ := u
  exact ⟨h', t', D', hres, Nat.le_trans hl hlen, ag.trans (hag.mono hn), rest⟩

theorem UpRes.congr {m : Nat} {t : tree} {h : Heap K V} {n : Nat}
    {res res' : Option (Heap K V × tree)} {es es' : List (K × V)}
    (u : UpRes m t h n res es) (hres : res' = res) (hes : es = es') :
    UpRes m t h n res' es' := by
  subst hres; subst hes; exact u

end

section
variable {K V : Type} [LinearOrder K]

theorem PosFull.le_max {m : Nat} {h : Heap K V} {d a : Nat} {rest : pathT}
    (f : PosFull m h d a rest) : nodeSize h a ≤ maxSize m d := by
  unfold PosFull at f
  split at f
  · exact f.2
  · exact f.2

theorem PosFull.grow {m : Nat} {h h' : Heap K V} {d a a' : Nat} {rest : pathT}
    (f : PosFull m h d a rest) (hs : nodeSize h' a' = nodeSize h a + 1)
    (hmax : nodeSize h' a' ≤ maxSize m d) : PosFull m h' d a' rest := by
  unfold PosFull Full RootFull at *
  split at f
  · rw [if_pos (by assumption)]
    exact ⟨by omega, hmax⟩
  · rw [if_neg (by assumption)]
    exact ⟨by omega, hmax⟩

/-- The end of `insertUpLeaf` and `insertUp`: the copied parent, which got one
more child, is split when it is too big. -/
theorem insert_tail {m : Nat} (hm : 3 ≤ m) {h0 : Heap K V} {t : tree} {D : Nat}
    (hD : t.depth = (D : Int)) {rest : pathT} (IH : InsUp m h0 t D rest)
    {h : Heap K V} {p d : Nat} {plo phi : Option K} {pre post : List (K × V)}
    {n3 : interiorNodeS K}
    (c : Ctx m h0 t.root D p (d + 1) plo phi rest pre post)
    (rp : Rep m h0 (d + 1) p plo phi) (pfp : PosFull m h0 (d + 1) p rest)
    (ag : Agree h0.length h0 h) (hl : h0.length ≤ h.length)
    (r3 : Rep m (h ++ [Cell.node n3]) (d + 1) h.length plo phi)
    (hsz : nodeSize (h ++ [Cell.node n3]) h.length = nodeSize h0 p + 1) :
    UpRes m t h h.length
      (if n3.isToBig = true then
        (interiorNodeS.split (h ++ [Cell.node n3]) h.length).bind (fun x =>
          t.insertUp x.1 p h.length x.2.2 x.2.1 rest)
      else t.copyUp (h ++ [Cell.node n3]) p h.length rest)
      (pre ++ ents (h ++ [Cell.node n3]) (d + 1) h.length ++ post) := by
  obtain ⟨n', hn', hcap, hlen, _⟩ := Rep_kids.1 r3
  rw [readNode_append_self] at hn'
  cases hn'
  have hmax := pfp.le_max
  rw [maxSize_succ] at hmax
  have hsz' := hsz
  rw [nodeSize_of_node (readNode_append_self h n3)] at hsz'
  have ag3 : Agree h0.length h0 (h ++ [Cell.node n3]) := ag.trans (Agree.append _ _ hl)
  by_cases hbig : n3.keys.length = m
  · have hb : n3.isToBig = true := by simp [interiorNodeS.isToBig, hbig, hcap]
    rw [if_pos hb]
    obtain ⟨mid, L, R, hsplit, kL, kR, hents⟩ := interiorNodeS.split_spec hm r3 hbig
    rw [hsplit]
    simp only [Option.some_bind]
    have ag4 : Agree h0.length h0 (h ++ [Cell.node L, Cell.node R]) :=
      ag.trans (Agree.append _ _ hl)
    have := IH c rp ag4 (by omega : h0.length ≤ h.length) (by omega : h0.length ≤ h.length + 1)
      (by omega) kL kR
    refine (this.weaken (by simp) (Agree.append _ _ (Nat.le_refl _)) (by simp)).congr rfl ?_
    rw [← hents]
    simp
  · have hb : ¬ n3.isToBig = true := by simp [interiorNodeS.isToBig, hbig, hcap]
    rw [if_neg hb]
    have pf3 : PosFull m (h ++ [Cell.node n3]) (d + 1) h.length rest :=
      pfp.grow hsz (by
        rw [maxSize_succ, nodeSize_of_node (readNode_append_self h n3)]
        omega)
    obtain ⟨h', root', hcu, hext, hr, hrf, hes⟩ :=
      copyUp_spec rest c rp ag3 hl r3 pf3
    exact (UpRes.of_copyUp hD hcu hext hr hrf hes).weaken (by simp)
      (Agree.append _ _ (Nat.le_refl _)) (by simp)

theorem newRootNode_spec {m : Nat} (hm : 3 ≤ m) {t : tree} (hord : t.order = (m : Int))
    {D : Nat} (hD : t.depth = (D : Int)) {h : Heap K V} {newNode splitNode : Nat}
    {splitKey : K} (hne : newNode ≠ splitNode)
    (k1 : Kid m h D newNode none (some splitKey)) (k2 : Kid m h D splitNode (some splitKey) none) :
    UpRes m t h h.length (t.newRootNode h splitKey newNode splitNode)
      (ents h D newNode ++ ents h D splitNode) := by
  have hnew : t.newRootNode h splitKey newNode splitNode =
      some (h ++ [Cell.node ⟨m, [splitKey], [newNode, splitNode]⟩],
        { t with root := h.length, depth := t.depth + 1 }) := by
    unfold tree.newRootNode mkNode alloc
    simp only [hord, Int.toNat_ofNat, set_append_self]
    rw [if_pos (by omega)]
  have hrd := readNode_append_self h (⟨m, [splitKey], [newNode, splitNode]⟩ : interiorNodeS K)
  have ag : Agree h.length h (h ++ [Cell.node ⟨m, [splitKey], [newNode, splitNode]⟩]) :=
    Agree.append _ _ (Nat.le_refl _)
  have l1 := k1.1.lt
  have l2 := k2.1.lt
  refine ⟨h ++ [Cell.node ⟨m, [splitKey], [newNode, splitNode]⟩],
    { t with root := h.length, depth := t.depth + 1 }, D + 1, by rw [hnew], by simp, ag,
    rfl, rfl, by simp [hD], ?_, ?_, ?_⟩
  · refine Rep_kids.2 ⟨_, hrd, rfl, rfl, by simp [hne], ?_, ?_⟩
    · intro c hc
      simp only [List.mem_cons, List.mem_singleton, List.not_mem_nil, or_false] at hc
      rcases hc with rfl | rfl <;> assumption
    · intro j c hc
      match j with
      | 0 =>
        simp only [List.getElem?_cons_zero, Option.some.injEq] at hc
        subst hc
        exact k1.agree_kid (ag.mono l1)
      | 1 =>
        simp only [List.getElem?_cons_succ, List.getElem?_cons_zero, Option.some.injEq] at hc
        subst hc
        exact k2.agree_kid (ag.mono l2)
      | j + 2 => simp at hc
  · unfold RootFull
    rw [nodeSize_of_node hrd, maxSize_succ]
    simp
    omega
  · rw [ents_node hrd]
    simp only [List.map_cons, List.map_nil, List.flatten_cons, List.flatten_nil, List.append_nil]
    rw [k1.1.ents_agree (ag.mono l1), k2.1.ents_agree (ag.mono l2)]

end

section
variable {K V : Type} [LinearOrder K]

/-- The copied parent after the new left half was swapped in and the promoted
key and the right half were inserted. -/
theorem insert_parent {m : Nat} {h0 h : Heap K V} {d p : Nat} {plo phi : Option K}
    {n : interiorNodeS K} {i old newNode splitNode : Nat} {splitKey : K}
    (rp : Rep m h0 (d + 1) p plo phi) (hn : readNode h0 p = some n)
    (hi : n.vals[i]? = some old) (ag : Agree h0.length h0 h) (hl : h0.length ≤ h.length)
    (hf1 : h0.length ≤ newNode) (hf2 : h0.length ≤ splitNode) (hne : newNode ≠ splitNode)
    (k1 : Kid m h d newNode (loAt plo n.keys i) (some splitKey))
    (k2 : Kid m h d splitNode (some splitKey) (hiAt phi n.keys i))
    (hsz : n.vals.length ≤ m) :
    ∃ n3, ({ n with vals := n.vals.set i newNode } : interiorNodeS K).insert splitKey splitNode =
        some n3 ∧
      Rep m (h ++ [Cell.node n3]) (d + 1) h.length plo phi ∧
      ents (h ++ [Cell.node n3]) (d + 1) h.length =
        ((n.vals.take i).map (ents h0 d)).flatten ++ ents h d newNode ++ ents h d splitNode ++
          ((n.vals.drop (i + 1)).map (ents h0 d)).flatten ∧
      nodeSize (h ++ [Cell.node n3]) h.length = nodeSize h0 p + 1 := by
  obtain ⟨n', hn', hcap, hlen, hnd, hltc, hch⟩ := Rep_kids.1 rp
  rw [hn] at hn'
  cases hn'
  have sep := rp.sepOK hn
  have hil : i < n.vals.length := (List.getElem?_eq_some.1 hi).1
  have hik : i ≤ n.keys.length := by omega
  have b1 := k1.1.props.1
  have b2 := k2.1.props.1
  have hins := interiorNodeS.insert_at ({ n with vals := n.vals.set i newNode }) splitKey
    splitNode (i := i) hik (by simpa using hlen) (by show n.keys.length < n.cap; omega)
    (by
      intro j x hj hx
      simp only at hx
      obtain ⟨hjl, rfl⟩ := List.getElem?_eq_some.1 hx
      obtain ⟨i', rfl⟩ : ∃ i', i = i' + 1 := ⟨i - 1, by omega⟩
      rw [loAt_succ, List.getElem?_eq_getElem (by omega)] at b1
      exact le_trans (sep.le (by omega) (by omega)) (le_of_lt (bLt_some.1 b1)))
    (by
      intro x hx
      simp only at hx
      obtain ⟨hlt, rfl⟩ := List.getElem?_eq_some.1 hx
      rw [hiAt_lt _ _ hlt] at b2
      exact bLt_some.1 b2)
  simp only [take_succ_set hil, drop_succ_set, List.append_assoc, List.singleton_append] at hins
  refine ⟨_, hins, ?_⟩
  have agA : Agree h.length h
      (h ++ [Cell.node ⟨n.cap, n.keys.take i ++ splitKey :: n.keys.drop i,
        n.vals.take i ++ newNode :: splitNode :: n.vals.drop (i + 1)⟩]) :=
    Agree.append _ _ (Nat.le_refl _)
  have l1 := k1.1.lt
  have l2 := k2.1.lt
  have := Rep.insert_child rp hn hi (ag.trans (agA.mono hl)) (readNode_append_self h _)
    hf1 hf2 hne l1 l2 (k1.agree_kid (agA.mono l1)) (k2.agree_kid (agA.mono l2))
  rw [k1.1.ents_agree (agA.mono l1), k2.1.ents_agree (agA.mono l2)] at this
  exact this

/-- The method `insertUp`. -/
theorem insertUp_spec {m : Nat} (hm : 3 ≤ m) {h0 : Heap K V} {t : tree}
    (hord : t.order = (m : Int)) {D : Nat} (hD : t.depth = (D : Int)) (path : pathT) :
    InsUp m h0 t D path := by
  induction path with
  | nil =>
    intro h oldNode newNode splitNode d lo hi pre post splitKey c rold ag hf1 hf2 hne k1 k2
    obtain ⟨rfl, rfl, rfl, rfl, rfl, rfl⟩ := c
    obtain ⟨no, hno, _⟩ := Rep_succ.1 rold
    have hno' : readNode h t.root = some no := by rw [ag.readNode rold.lt]; exact hno
    have := newRootNode_spec hm hord hD hne k1 k2
    refine this.congr ?_ (by simp)
    rw [tree.insertUp]
    simp [hno']
  | cons p rest ih =>
    intro h oldNode newNode splitNode d lo hi pre post splitKey c rold ag hf1 hf2 hne k1 k2
    obtain ⟨n, plo, phi, i, pre', post', hn, hi', rfl, rfl, rp, pfp, rfl, rfl, cp⟩ := c
    have hl : h0.length ≤ h.length := by have := k1.1.lt; omega
    have hn' : readNode h p = some n := by rw [ag.readNode rp.lt]; exact hn
    obtain ⟨_, hn2, hcap, hlen, hnd, hltc, hch⟩ := Rep_succ.1 rp
    rw [hn] at hn2
    cases hn2
    have hch1 : ∀ c ∈ n.vals, ∃ n', readNode (h ++ [Cell.node n]) c = some n' := by
      intro c hc
      obtain ⟨n', hn'⟩ := rp.child_node hn c hc
      refine ⟨n', ?_⟩
      have hcl := readNode_lt hn'
      rw [(Agree.append h [Cell.node n] (Nat.le_refl _)).readNode (by omega), ag.readNode hcl]
      exact hn'
    have hswap : n.swapInteriorNode (h ++ [Cell.node n]) oldNode newNode =
        some { n with vals := n.vals.set i newNode } := by
      simp only [interiorNodeS.swapInteriorNode, swapInteriorVals_spec hch1 hi' hnd]
    obtain ⟨n3, hins, r3, hents, hsz⟩ := insert_parent rp hn hi' ag hl hf1 hf2 hne k1 k2
      (by have := pfp.le_max; rw [maxSize_succ, nodeSize_of_node hn] at this; exact this)
    have hupd1 := updNode_fresh (h := h) (n := n)
      (f := fun n0 => n0.swapInteriorNode (h ++ [Cell.node n]) oldNode newNode) hswap
    have hupd2 := updNode_fresh (h := h) (n := { n with vals := n.vals.set i newNode })
      (f := fun n0 => n0.insert splitKey splitNode) hins
    have tail := insert_tail hm hD ih cp rp pfp ag hl r3 hsz
    refine tail.congr ?_ (by rw [hents]; simp)
    rw [tree.insertUp]
    simp only [interiorNodeS.copy_eq hn', Option.bind_eq_bind, Option.some_bind, hupd1, hupd2,
      readNode_append_self]

/-- The method `insertUpLeaf`. -/
theorem insertUpLeaf_spec {m : Nat} (hm : 3 ≤ m) {h0 : Heap K V} {t : tree}
    (hord : t.order = (m : Int)) {D : Nat} (hD : t.depth = (D : Int)) (path : pathT)
    {h : Heap K V} {oldLeaf newLeaf splitLeaf : Nat} {lo hi : Option K}
    {pre post : List (K × V)} {splitKey : K}
    (c : Ctx m h0 t.root D oldLeaf 0 lo hi path pre post)
    (rold : Rep m h0 0 oldLeaf lo hi)
    (ag : Agree h0.length h0 h) (hf1 : h0.length ≤ newLeaf) (hf2 : h0.length ≤ splitLeaf)
    (hne : newLeaf ≠ splitLeaf)
    (k1 : Kid m h 0 newLeaf lo (some splitKey)) (k2 : Kid m h 0 splitLeaf (some splitKey) hi) :
    UpRes m t h h.length (t.insertUpLeaf h oldLeaf newLeaf splitKey splitLeaf path)
      (pre ++ ents h 0 newLeaf ++ ents h 0 splitLeaf ++ post) := by
  cases path with
  | nil =>
    obtain ⟨rfl, rfl, rfl, rfl, rfl, rfl⟩ := c
    have := newRootNode_spec hm hord hD hne k1 k2
    refine this.congr ?_ (by simp)
    rw [tree.insertUpLeaf]
  | cons p rest =>
    obtain ⟨n, plo, phi, i, pre', post', hn, hi', rfl, rfl, rp, pfp, rfl, rfl, cp⟩ := c
    have hl : h0.length ≤ h.length := by have := k1.1.lt; omega
    have hn' : readNode h p = some n := by rw [ag.readNode rp.lt]; exact hn
    obtain ⟨_, hn2, hcap, hlen, hnd, hltc, hch⟩ := Rep_succ.1 rp
    rw [hn] at hn2
    cases hn2
    have hch1 : ∀ c ∈ n.vals, ∃ l, readLeaf (h ++ [Cell.node n]) c = some l := by
      intro c hc
      obtain ⟨l, hl'⟩ := rp.child_leaf hn c hc
      refine ⟨l, ?_⟩
      have hcl := readLeaf_lt hl'
      rw [(Agree.append h [Cell.node n] (Nat.le_refl _)).readLeaf (by omega), ag.readLeaf hcl]
      exact hl'
    have hswap : n.swapLeafNode (h ++ [Cell.node n]) oldLeaf newLeaf =
        some { n with vals := n.vals.set i newLeaf } := by
      simp only [interiorNodeS.swapLeafNode, swapLeafVals_spec hch1 hi' hnd]
    obtain ⟨n3, hins, r3, hents, hsz⟩ := insert_parent rp hn hi' ag hl hf1 hf2 hne k1 k2
      (by have := pfp.le_max; rw [maxSize_succ, nodeSize_of_node hn] at this; exact this)
    have hupd1 := updNode_fresh (h := h) (n := n)
      (f := fun n0 => n0.swapLeafNode (h ++ [Cell.node n]) oldLeaf newLeaf) hswap
    have hupd2 := updNode_fresh (h := h) (n := { n with vals := n.vals.set i newLeaf })
      (f := fun n0 => n0.insert splitKey splitLeaf) hins
    have tail := insert_tail hm hD (insertUp_spec hm hord hD rest) cp rp pfp ag hl r3 hsz
    refine tail.congr ?_ (by rw [hents]; simp)
    rw [tree.insertUpLeaf]
    simp only [interiorNodeS.copy_eq hn', Option.bind_eq_bind, Option.some_bind, hupd1, hupd2,
      readNode_append_self]

/-- The method `copyUpLeaf`. -/
theorem copyUpLeaf_spec {m : Nat} {h0 : Heap K V} {t : tree} {D : Nat}
    (hD : t.depth = (D : Int)) (path : pathT)
    {h : Heap K V} {oldLeaf newLeaf : Nat} {lo hi : Option K} {pre post : List (K × V)}
    (c : Ctx m h0 t.root D oldLeaf 0 lo hi path pre post)
    (rold : Rep m h0 0 oldLeaf lo hi)
    (ag : Agree h0.length h0 h) (hfresh : h0.length ≤ newLeaf)
    (rnew : Rep m h 0 newLeaf lo hi) (pf : PosFull m h 0 newLeaf path) :
    UpRes m t h h.length (t.copyUpLeaf h oldLeaf newLeaf path)
      (pre ++ ents h 0 newLeaf ++ post) := by
  cases path with
  | nil =>
    obtain ⟨rfl, rfl, rfl, rfl, rfl, rfl⟩ := c
    obtain ⟨lo', hlo, _⟩ := Rep_zero.1 rold
    have hlo' : readLeaf h t.root = some lo' := by rw [ag.readLeaf rold.lt]; exact hlo
    refine ⟨h, { t with root := newLeaf }, 0, ?_, Nat.le_refl _, Agree.refl _ _, rfl, rfl, hD,
      rnew, by simpa [PosFull] using pf, by simp⟩
    rw [tree.copyUpLeaf]
    simp [isRoot_leaf hlo', tree.setRootLeaf]
  | cons p rest =>
    obtain ⟨n, plo, phi, i, pre', post', hn, hi', rfl, rfl, rp, pfp, rfl, rfl, cp⟩ := c
    have hl : h0.length ≤ h.length := by have := rnew.lt; omega
    have hn' : readNode h p = some n := by rw [ag.readNode rp.lt]; exact hn
    obtain ⟨_, hn2, hcap, hlen, hnd, hltc, hch⟩ := Rep_succ.1 rp
    rw [hn] at hn2
    cases hn2
    have hch1 : ∀ c ∈ n.vals, ∃ l, readLeaf (h ++ [Cell.node n]) c = some l := by
      intro c hc
      obtain ⟨l, hl'⟩ := rp.child_leaf hn c hc
      refine ⟨l, ?_⟩
      have hcl := readLeaf_lt hl'
      rw [(Agree.append h [Cell.node n] (Nat.le_refl _)).readLeaf (by omega), ag.readLeaf hcl]
      exact hl'
    have hswap : n.swapLeafNode (h ++ [Cell.node n]) oldLeaf newLeaf =
        some { n with vals := n.vals.set i newLeaf } := by
      simp only [interiorNodeS.swapLeafNode, swapLeafVals_spec hch1 hi' hnd]
    have hupd := updNode_fresh (h := h) (n := n)
      (f := fun n0 => n0.swapLeafNode (h ++ [Cell.node n]) oldLeaf newLeaf) hswap
    have ag2 : Agree h0.length h0 (h ++ [Cell.node { n with vals := n.vals.set i newLeaf }]) :=
      ag.trans (Agree.append _ _ hl)
    have agn : Agree (newLeaf + 1) h (h ++ [Cell.node { n with vals := n.vals.set i newLeaf }]) :=
      Agree.append _ _ rnew.lt
    have hset := Rep.set_child rp hn hi' ag2 (readNode_append_self h _) hfresh rnew.lt
      (rnew.agree agn) (by
        have : Full m h 0 newLeaf := by simpa [PosFull] using pf
        exact this.agree_full agn)
    obtain ⟨h', root', hcu, hext, hr, hrf, hents⟩ :=
      copyUp_spec rest cp rp ag2 hl hset.1 (pfp.of_size hset.2.2)
    refine ((UpRes.of_copyUp hD hcu hext hr hrf hents).weaken (by simp)
      (Agree.append _ _ (Nat.le_refl _)) (by simp)).congr ?_ ?_
    · rw [tree.copyUpLeaf]
      simp only [interiorNodeS.copy_eq hn', Option.bind_eq_bind, Option.some_bind, hupd]
    · rw [hset.2.1, rnew.ents_agree agn]
      simp

end

section
variable {K V : Type} [LinearOrder K]

theorem Inv_iff {m : Nat} {h : Heap K V} {t : tree} : Inv m h t ↔ ∃ es, EInv m h t es := by
  constructor
  · rintro ⟨hm, hord, d, hD, r, rf, hc⟩
    exact ⟨_, hm, hord, d, hD, r, rf, rfl, hc⟩
  · rintro ⟨es, hm, hord, d, hD, r, rf, he, hc⟩
    exact ⟨hm, hord, d, hD, r, rf, by rw [he]; exact hc⟩

theorem EInv.entries {m : Nat} {h : Heap K V} {t : tree} {es : List (K × V)}
    (inv : EInv m h t es) : t.entries h = es := by
  obtain ⟨_, _, d, hD, _, _, he, _⟩ := inv
  unfold tree.entries
  rw [hD, Int.toNat_ofNat, he]

theorem EInv.sorted_ents {m : Nat} {h : Heap K V} {t : tree} {es : List (K × V)}
    (inv : EInv m h t es) : SortedEnts es := by
  obtain ⟨_, _, d, hD, r, _, he, _⟩ := inv
  rw [← he]
  exact r.props.2.2

theorem EInv.ext {m : Nat} {h h' : Heap K V} {t : tree} {es : List (K × V)}
    (inv : EInv m h t es) (e : Ext h h') : EInv m h' t es := by
  obtain ⟨hm, hord, d, hD, r, rf, he, hc⟩ := inv
  have ag : Agree (t.root + 1) h h' := e.to_agree r.lt
  exact ⟨hm, hord, d, hD, r.agree ag, rf.agree_root ag, by rw [r.ents_agree ag, he], hc⟩

theorem EInv.get [Inhabited V] {m : Nat} {h : Heap K V} {t : tree} {es : List (K × V)}
    (inv : EInv m h t es) (key : K) : t.Get h key = some (getRes (lookup key es)) := by
  obtain ⟨_, _, d, hD, r, rf, he, _⟩ := inv
  rw [← he]
  exact Get_spec key r rf

theorem UpRes.einv {m : Nat} (hm : 3 ≤ m) {t : tree} {h : Heap K V} {n : Nat}
    {res : Option (Heap K V × tree)} {es : List (K × V)}
    (u : UpRes m t h n res es) (hord : t.order = (m : Int))
    (hc : t.numEnts = (es.length : Int)) :
    ∃ h' t', res = some (h', t') ∧ h.length ≤ h'.length ∧ Agree n h h' ∧ EInv m h' t' es ∧
      t'.numEnts = t.numEnts := by
  obtain ⟨h', t', D', hres, hl, ag, ho, hn, hD, r, rf, he⟩ := u
  exact ⟨h', t', hres, hl, ag, ⟨hm, by rw [ho, hord], D', hD, r, rf, he, by rw [hn, hc]⟩, hn⟩

theorem bind_some_eq_map {α β : Type} (o : Option α) (f : α → β) :
    o.bind (fun a => some (f a)) = o.map f := by
  cases o <;> rfl

theorem tree.copy_tree_eq (h : Heap K V) (t : tree) :
    t.copy h = (h ++ [Cell.leaf ⟨t.order.toNat, [], []⟩], t) := rfl

theorem PosFull.leaf_le {m : Nat} {h : Heap K V} {a : Nat} {rest : pathT} {l : leafNodeS K V}
    (f : PosFull m h 0 a rest) (hl : readLeaf h a = some l) : l.vals.length ≤ m - 1 := by
  have := f.le_max
  rwa [nodeSize_of_leaf hl, maxSize_zero] at this

/-- The method `Put` on a tree that satisfies the invariant: it returns, the
entries of the new tree are the old ones with the key given the value, the
flag tells whether the key was new, and the heap is only extended. -/
theorem Put_spec {m : Nat} {h : Heap K V} {t : tree} {es : List (K × V)}
    (inv : EInv m h t es) (key : K) (val : V) :
    ∃ h' t', t.Put h key val = some (h', t', (lookup key es).isNone) ∧ Ext h h' ∧
      EInv m h' t' (upsert key val es) ∧
      t'.numEnts = t.numEnts + (if (lookup key es).isNone then 1 else 0) := by
  have hsorted := inv.sorted_ents
  obtain ⟨hm, hord, d, hD, r, rf, he, hc⟩ := inv
  -- the heap after `ot.copy()`
  have ag0 : Agree h.length h (h ++ [Cell.leaf ⟨t.order.toNat, [], []⟩]) :=
    Agree.append _ _ (Nat.le_refl _)
  generalize hh0 : h ++ [Cell.leaf (⟨t.order.toNat, [], []⟩ : leafNodeS K V)] = h0 at ag0
  have hl0 : h.length ≤ h0.length := by rw [← hh0]; simp
  have r0 := r.agree (ag0.mono r.lt)
  have rf0 := rf.agree_root (ag0.mono r.lt)
  have he0 : ents h0 d t.root = es := by rw [r.ents_agree (ag0.mono r.lt), he]
  obtain ⟨leaf, path, lo, hi, pre, post, hf, rl, pfl, c, hlo, hhi⟩ := findLeaf_spec key r0 rf0
  obtain ⟨l, hl, hcap, hlen, hs, hbnd, hblt⟩ := Rep_zero.1 rl
  obtain ⟨l', added, hins, hcap', hlen', hs', hmem', hzip', hadded, hklen⟩ :=
    leafNodeS.insert_spec l key val hlen hs (by have := pfl.leaf_le hl; omega)
  have hsides := c.sides
  have hes : es = pre ++ ents h0 0 leaf ++ post := by rw [← he0]; exact c.ents_eq
  have hlook : lookup key es = lookup key (l.keys.zip l.vals) := by
    rw [hes, lookup_append3 (fun e he => ne_of_lt (hsides.1 e he key hlo))
      (fun e he => ne_of_gt (hsides.2 e he key hhi)), ents_leaf hl]
  have hups : upsert key val es = pre ++ l'.keys.zip l'.vals ++ post := by
    rw [hes, upsert_append3 (fun e he => hsides.1 e he key hlo)
      (fun e he => hsides.2 e he key hhi), ents_leaf hl, hzip']
  have hadd : added = (lookup key es).isNone := by rw [hlook]; exact hadded
  -- the tree struct after `t.numEnts++`
  let t2 : tree := if added = true then { t with numEnts := t.numEnts + 1 } else t
  have ht2r : t2.root = t.root := by simp only [t2]; split <;> rfl
  have ht2o : t2.order = (m : Int) := by simp only [t2]; split <;> exact hord
  have ht2d : t2.depth = (d : Int) := by simp only [t2]; split <;> exact hD
  have ht2n : t2.numEnts = t.numEnts + (if added = true then 1 else 0) := by
    simp only [t2]; split <;> simp
  have hrl2 := readLeaf_append_self h0 l'
  have r2 : Rep m (h0 ++ [Cell.leaf l']) 0 h0.length lo hi := by
    refine Rep_zero.2 ⟨l', hrl2, by rw [hcap', hcap], hlen', hs', ?_, hblt⟩
    intro k hk
    rcases hmem' k hk with rfl | hk'
    · exact ⟨hlo, hhi⟩
    · exact hbnd k hk'
  have hents2 : ents (h0 ++ [Cell.leaf l']) 0 h0.length = l'.keys.zip l'.vals := ents_leaf hrl2
  have ag2 : Agree h0.length h0 (h0 ++ [Cell.leaf l']) := Agree.append _ _ (Nat.le_refl _)
  have hlold := pfl.leaf_le hl
  have hcount : t2.numEnts = ((upsert key val es).length : Int) := by
    rw [ht2n, hc, length_upsert val hsorted, hadd]
    cases (lookup key es) <;> simp
  have c2 : Ctx m h0 t2.root d leaf 0 lo hi path pre post := by rw [ht2r]; exact c
  have hwl := withLeaf_fresh (h := h0) (l := l) (f := fun l0 => l0.insert key val) hins
  -- the two ways up
  have hup : ∃ res, t.Put h key val = res.map (fun r => (r.1, r.2, added)) ∧
      UpRes m t2 h0 h0.length res (upsert key val es) := by
    by_cases hbig : l'.keys.length = m
    · obtain ⟨sk, L, R, hsplit, kL, kR, hents⟩ := leafNodeS.split_leaf_spec hm r2 hbig
      have ag3 : Agree h0.length h0 (h0 ++ [Cell.leaf L, Cell.leaf R]) :=
        Agree.append _ _ (Nat.le_refl _)
      have := insertUpLeaf_spec hm ht2o ht2d path c2 rl ag3 (Nat.le_refl _)
        (Nat.le_succ _) (by omega) kL kR
      refine ⟨_, ?_, (this.weaken (by simp) ag3 (by simp)).congr rfl ?_⟩
      · unfold tree.Put
        rw [tree.copy_tree_eq, hh0]
        simp only [hf, Option.bind_eq_bind, Option.some_bind, leafNodeS.copy_leaf_eq hl,
          hwl, hrl2]
        have : l'.isToBig = true := by simp [leafNodeS.isToBig, hbig, hcap', hcap]
        rw [if_pos this, hsplit]
        simp only [Option.some_bind]
        exact bind_some_eq_map _ _
      · rw [hups, ← hents2, ← hents]
        simp
    · have hsmall : l'.vals.length ≤ m - 1 := by
        have : l'.keys.length ≤ l.keys.length + 1 := by rw [hklen]; split <;> omega
        omega
      have pf2 : PosFull m (h0 ++ [Cell.leaf l']) 0 h0.length path := by
        have hge : l.vals.length ≤ l'.vals.length := by
          rw [← hlen, ← hlen', hklen]; omega
        unfold PosFull RootFull Full at pfl ⊢
        rw [nodeSize_of_leaf hrl2, maxSize_zero]
        rw [nodeSize_of_leaf hl, maxSize_zero] at pfl
        split
        · exact ⟨by simp, hsmall⟩
        · rw [if_neg (by assumption)] at pfl
          exact ⟨by omega, hsmall⟩
      have := copyUpLeaf_spec ht2d path c2 rl ag2 (Nat.le_refl _) r2 pf2
      refine ⟨_, ?_, (this.weaken (by simp) ag2 (by simp)).congr rfl ?_⟩
      · unfold tree.Put
        rw [tree.copy_tree_eq, hh0]
        simp only [hf, Option.bind_eq_bind, Option.some_bind, leafNodeS.copy_leaf_eq hl,
          hwl, hrl2]
        have : ¬ l'.isToBig = true := by simp [leafNodeS.isToBig, hbig, hcap', hcap]
        rw [if_neg this]
        exact bind_some_eq_map _ _
      · rw [hups, hents2]
  obtain ⟨res, hput, hres⟩ := hup
  obtain ⟨h', t', hr', hl', ag', inv', hn'⟩ := hres.einv hm ht2o hcount
  refine ⟨h', t', ?_, ⟨by omega, (ag0.trans (ag'.mono hl0))⟩, inv', ?_⟩
  · rw [hput, hr', hadd]
    rfl
  · rw [hn', ht2n, hadd]

end

section
variable {K V : Type} [LinearOrder K]

/-! ## Non-empty subtrees, new bounds, leftmost keys -/

theorem zip_ne_nil {α β : Type} {l1 : List α} {l2 : List β} (h : l1.length = l2.length)
    (h1 : 0 < l2.length) : l1.zip l2 ≠ [] := by
  intro hz
  have : (l1.zip l2).length = 0 := by rw [hz]; rfl
  rw [List.length_zip] at this
  omega

theorem half_pos {m : Nat} (hm : 2 ≤ m) : 1 ≤ m / 2 := by omega

theorem Kid.ents_ne_nil {m : Nat} (hm : 2 ≤ m) {h : Heap K V} {d c : Nat} {lo hi : Option K}
    (k : Kid m h d c lo hi) : ents h d c ≠ [] := by
  induction d generalizing c lo hi with
  | zero =>
    obtain ⟨l, hl, _, hlen, _⟩ := Rep_zero.1 k.1
    have hf := k.2.1
    rw [nodeSize_of_leaf hl, minSize_zero] at hf
    rw [ents_leaf hl]
    exact zip_ne_nil hlen (by omega)
  | succ d ih =>
    obtain ⟨n, hn, _, hlen, _, _, hch⟩ := Rep_kids.1 k.1
    rw [ents_node hn]
    have h0 : 0 < n.vals.length := by omega
    have hc := hch 0 _ (List.getElem?_eq_getElem h0)
    have := ih hc
    intro hflat
    apply this
    rw [List.flatten_eq_nil_iff] at hflat
    exact hflat _ (List.mem_map_of_mem _ (List.getElem_mem h0))

theorem Rep.node_ents_ne_nil {m : Nat} (hm : 2 ≤ m) {h : Heap K V} {d a : Nat} {lo hi : Option K}
    (r : Rep m h (d + 1) a lo hi) : ents h (d + 1) a ≠ [] := by
  obtain ⟨n, hn, _, hlen, _, _, hch⟩ := Rep_kids.1 r
  rw [ents_node hn]
  have h0 : 0 < n.vals.length := by omega
  have hc := hch 0 _ (List.getElem?_eq_getElem h0)
  have := hc.ents_ne_nil hm
  intro hflat
  apply this
  rw [List.flatten_eq_nil_iff] at hflat
  exact hflat _ (List.mem_map_of_mem _ (List.getElem_mem h0))

theorem mem_zip_of_mem_left {α β : Type} {l1 : List α} {l2 : List β} {a : α}
    (h : l1.length = l2.length) (ha : a ∈ l1) : ∃ b, (a, b) ∈ l1.zip l2 := by
  obtain ⟨i, hi, rfl⟩ := List.getElem_of_mem ha
  have hi2 : i < l2.length := by omega
  refine ⟨l2[i], ?_⟩
  rw [List.mem_iff_getElem]
  refine ⟨i, by rw [List.length_zip]; omega, ?_⟩
  simp

theorem mem_ents_child {h : Heap K V} {d a : Nat} {n : interiorNodeS K} {j c : Nat}
    (hn : readNode h a = some n) (hc : n.vals[j]? = some c) {e : K × V}
    (he : e ∈ ents h d c) : e ∈ ents h (d + 1) a := by
  rw [ents_node hn, List.mem_flatten]
  exact ⟨_, List.mem_map_of_mem _ (List.getElem?_mem hc), he⟩

/-- A well-formed subtree is well formed with any bounds that hold its keys. -/
theorem Rep.rebound {m : Nat} (hm : 2 ≤ m) {h : Heap K V} {d a : Nat} {lo hi lo' hi' : Option K}
    (r : Rep m h d a lo hi) (hb : bLt lo' hi')
    (he : ∀ e ∈ ents h d a, geLo lo' e.1 ∧ ltHi hi' e.1) : Rep m h d a lo' hi' := by
  induction d generalizing a lo hi lo' hi' with
  | zero =>
    obtain ⟨l, hl, hcap, hlen, hs, _, _⟩ := Rep_zero.1 r
    refine Rep_zero.2 ⟨l, hl, hcap, hlen, hs, ?_, hb⟩
    intro k hk
    obtain ⟨v, hv⟩ := mem_zip_of_mem_left hlen hk
    rw [ents_leaf hl] at he
    exact he (k, v) hv
  | succ d ih =>
    obtain ⟨n, hn, hcap, hlen, hnd, hlt, hch⟩ := Rep_kids.1 r
    refine Rep_kids.2 ⟨n, hn, hcap, hlen, hnd, hlt, ?_⟩
    intro j c hc
    have hk := hch j c hc
    have hjl : j < n.vals.length := (List.getElem?_eq_some.1 hc).1
    have hin : ∀ e ∈ ents h d c,
        geLo (loAt lo' n.keys j) e.1 ∧ ltHi (hiAt hi' n.keys j) e.1 := by
      intro e hec
      have hold := hk.1.props.2.1 e hec
      have hnew := he e (mem_ents_child hn hc hec)
      constructor
      · cases j with
        | zero => rw [loAt_zero]; exact hnew.1
        | succ j => rw [loAt_succ]; rw [loAt_succ] at hold; exact hold.1
      · rcases Nat.lt_or_ge j n.keys.length with hj | hj
        · rw [hiAt_lt _ _ hj]; rw [hiAt_lt _ _ hj] at hold; exact hold.2
        · rw [hiAt_ge _ _ hj]; exact hnew.2
    obtain ⟨e, hee⟩ := List.exists_mem_of_ne_nil _ (hk.ents_ne_nil hm)
    exact ⟨ih hk.1 (bLt_of_mem (hin e hee).1 (hin e hee).2) hin, hk.2⟩

theorem Kid.rebound_kid {m : Nat} (hm : 2 ≤ m) {h : Heap K V} {d a : Nat} {lo hi lo' hi' : Option K}
    (k : Kid m h d a lo hi)
    (he : ∀ e ∈ ents h d a, geLo lo' e.1 ∧ ltHi hi' e.1) : Kid m h d a lo' hi' := by
  obtain ⟨e, hee⟩ := List.exists_mem_of_ne_nil _ (k.ents_ne_nil hm)
  exact ⟨k.1.rebound hm (bLt_of_mem (he e hee).1 (he e hee).2) he, k.2⟩

theorem head?_flatten_cons {α : Type} {l : List α} {ls : List (List α)} (hl : l ≠ []) :
    (l :: ls).flatten.head? = l.head? := by
  cases l with
  | nil => exact absurd rfl hl
  | cons a l => rfl

theorem map_head_cons {α β : Type} (f : α → β) {l : List α} (h0 : 0 < l.length) :
    l.map f = f l[0] :: (l.drop 1).map f := by
  cases l with
  | nil => simp at h0
  | cons a l => simp

/-- The loop of `findLeftMostLeaf` from a well-formed node ends at a leaf whose
first key is the first key of the entries below the node. -/
theorem findLeftMostLeafLoop_spec {m : Nat} (hm : 2 ≤ m) {h : Heap K V} {d : Nat} :
    ∀ {a : Nat} {lo hi : Option K} {fuel : Nat}, Rep m h d a lo hi → ents h d a ≠ [] →
      d + 1 ≤ fuel →
      ∃ leaf l, interiorNodeS.findLeftMostLeafLoop h fuel a = some leaf ∧
        readLeaf h leaf = some l ∧ l.keys[0]? = (ents h d a).head?.map Prod.fst := by
  induction d with
  | zero =>
    intro a lo hi fuel r hne hfuel
    obtain ⟨l, hl, _, hlen, _⟩ := Rep_zero.1 r
    obtain ⟨fuel, rfl⟩ : ∃ f, fuel = f + 1 := ⟨fuel - 1, by omega⟩
    refine ⟨a, l, ?_, hl, ?_⟩
    · rw [interiorNodeS.findLeftMostLeafLoop, readLeaf_eq_some.1 hl]
    · rw [ents_leaf hl]
      cases hk : l.keys with
      | nil => rw [ents_leaf hl, hk] at hne; simp at hne
      | cons k ks =>
        cases hv : l.vals with
        | nil => rw [hk, hv] at hlen; simp at hlen
        | cons v vs => simp
  | succ d ih =>
    intro a lo hi fuel r hne hfuel
    obtain ⟨n, hn, _, hlen, _, _, hch⟩ := Rep_kids.1 r
    obtain ⟨fuel, rfl⟩ : ∃ f, fuel = f + 1 := ⟨fuel - 1, by omega⟩
    have h0 : 0 < n.vals.length := by omega
    have hc0 := List.getElem?_eq_getElem h0
    have hk := hch 0 _ hc0
    have hne0 := hk.ents_ne_nil hm
    obtain ⟨leaf, l, hloop, hl, hkey⟩ := ih hk.1 hne0 (by omega : d + 1 ≤ fuel)
    refine ⟨leaf, l, ?_, hl, ?_⟩
    · rw [interiorNodeS.findLeftMostLeafLoop, readNode_eq_some.1 hn]
      simp only [interiorNodeS.isLeaf, hlen.symm, if_true, hc0]
      exact hloop
    · rw [hkey, ents_node hn]
      rw [map_head_cons (ents h d) h0, head?_flatten_cons hne0]

/-- The leftmost key below a well-formed node with entries is the key of the first entry. -/
theorem findLeftMostKey_spec {m : Nat} (hm : 2 ≤ m) {h : Heap K V} {d a : Nat}
    {lo hi : Option K} (r : Rep m h d a lo hi) (hne : ents h d a ≠ []) :
    ∃ k v rest, ents h d a = (k, v) :: rest ∧ interiorNodeS.findLeftMostKey h a = some k ∧
      nodeI.findLeftMostKey h a = some k := by
  have hd := r.depth_le
  have hlt := r.lt
  obtain ⟨leaf, l, hloop, hl, hkey⟩ := findLeftMostLeafLoop_spec hm r hne (by omega : d + 1 ≤ h.length)
  cases hes : ents h d a with
  | nil => exact absurd hes hne
  | cons e rest =>
    rw [hes] at hkey
    simp only [List.head?_cons, Option.map_some'] at hkey
    have h1 : interiorNodeS.findLeftMostKey h a = some e.1 := by
      unfold interiorNodeS.findLeftMostKey interiorNodeS.findLeftMostLeaf
      rw [hloop]
      simp only [hl, leafNodeS.findLeftMostKey, hkey]
    refine ⟨e.1, e.2, rest, rfl, h1, ?_⟩
    unfold nodeI.findLeftMostKey
    cases d with
    | zero =>
      obtain ⟨l', hl', _⟩ := Rep_zero.1 r
      rw [readLeaf_eq_some.1 hl']
      simp only [leafNodeS.findLeftMostKey]
      have : leaf = a := by
        obtain ⟨f, hf⟩ : ∃ f, h.length = f + 1 := ⟨h.length - 1, by omega⟩
        rw [hf, interiorNodeS.findLeftMostLeafLoop, readLeaf_eq_some.1 hl'] at hloop
        simpa using hloop.symm
      subst this
      rw [hl] at hl'
      cases hl'
      exact hkey
    | succ d =>
      obtain ⟨n, hn, _⟩ := Rep_kids.1 r
      rw [readNode_eq_some.1 hn]
      exact h1

end

section
variable {K V : Type} [LinearOrder K]

/-- The method `remove` of a leaf whose keys are aligned with the values and
strictly increasing. -/
theorem leafNodeS.remove_spec [Inhabited V] (l : leafNodeS K V) (key : K)
    (hlen : l.keys.length = l.vals.length) (hs : l.keys.Pairwise (fun x y => x < y)) :
    ∃ l' val removed, l.remove key = some (l', val, removed) ∧ l'.cap = l.cap ∧
      l'.keys.length = l'.vals.length ∧ l'.keys.Pairwise (fun x y => x < y) ∧
      (∀ k ∈ l'.keys, k ∈ l.keys) ∧
      l'.keys.zip l'.vals = eraseKey key (l.keys.zip l.vals) ∧
      (val, removed) = getRes (lookup key (l.keys.zip l.vals)) ∧
      l'.vals.length + (if removed then 1 else 0) = l.vals.length := by
  obtain ⟨cap, keys, vals⟩ := l
  simp only at hlen hs
  unfold leafNodeS.remove
  simp only
  cases hf : keys.findIdx? (fun k => Equals key k) with
  | none =>
    rw [List.findIdx?_eq_none_iff] at hf
    have hall : ∀ e ∈ keys.zip vals, e.1 ≠ key := by
      intro e he
      have := hf e.1 (zip_mem_fst he)
      simp only [Equals_false_iff] at this
      exact fun h => this h.symm
    refine ⟨_, _, _, rfl, rfl, hlen, hs, fun k hk => hk, ?_, ?_, by simp⟩
    · exact (eraseKey_none hall).symm
    · rw [lookup_none_of hall]; rfl
  | some i =>
    obtain ⟨A, x, B, rfl, hA, hx, hAall⟩ := findIdx_split hf
    simp only [Equals_iff] at hx
    subst hx
    have hi : i < vals.length := by rw [← hlen, ← hA]; simp
    obtain ⟨VA, y, VB, rfl, hVA, hy⟩ := split_at_idx hi
    have hAV : A.length = VA.length := by omega
    rw [List.pairwise_append, List.pairwise_cons] at hs
    obtain ⟨hsA, ⟨hxB, hsB⟩, hAB⟩ := hs
    have hlenB : B.length = VB.length := by
      simp only [List.length_append, List.length_cons] at hlen
      omega
    have hzA : ∀ e ∈ A.zip VA, e.1 ≠ key := by
      intro e he
      have := hAall e.1 (zip_mem_fst he)
      simp only [Equals_false_iff] at this
      exact fun h => this h.symm
    have hzB : ∀ e ∈ B.zip VB, e.1 ≠ key := fun e he => ne_of_gt (hxB e.1 (zip_mem_fst he))
    simp only [hy, take_mid _ hA, take_mid _ hVA, drop_mid_succ _ _ hA, drop_mid_succ _ _ hVA]
    refine ⟨_, _, _, rfl, rfl, by simp [hAV, hlenB], ?_, ?_, ?_, ?_, by simp; omega⟩
    · rw [List.pairwise_append]
      exact ⟨hsA, hsB, fun a ha b hb => hAB a ha b (List.mem_cons_of_mem _ hb)⟩
    · intro k hk
      simp only [List.mem_append, List.mem_cons] at hk ⊢
      tauto
    · simp only
      rw [List.zip_append hAV, List.zip_append hAV, List.zip_cons_cons, eraseKey_mid hzA hzB]
    · rw [List.zip_append hAV, lookup_append_left hzA, List.zip_cons_cons, lookup_cons,
        if_pos rfl]
      rfl

/-! ## Finding a node among the children of its parent -/

theorem nodup_first {vals : List Nat} {i : Nat} {old : Nat} (hnd : vals.Nodup)
    (hi : vals[i]? = some old) : ∀ k, k < i → vals[k]? ≠ some old := by
  intro k hk hko
  obtain ⟨hil, hio⟩ := List.getElem?_eq_some.1 hi
  obtain ⟨hkl, hko'⟩ := List.getElem?_eq_some.1 hko
  have := (List.Nodup.getElem_inj_iff hnd).1 (hio.trans hko'.symm)
  omega

theorem leaf_findPeerLeftLoop {h : Heap K V} {old : Nat} {parent : interiorNodeS K}
    (hall : ∀ c ∈ parent.vals, ∃ l, readLeaf h c = some l)
    (hlen : parent.vals.length = parent.keys.length + 1) :
    ∀ (rest : List Nat) (j k : Nat), rest[k]? = some old →
      (∀ k', k' < k → rest[k']? ≠ some old) → (∀ c ∈ rest, ∃ l, readLeaf h c = some l) →
      j + k < parent.vals.length →
      leafNodeS.findPeerLeftLoop h old parent j rest =
        some (if j + k = 0 then none else peerLeftAt parent (j + k)) := by
  intro rest
  induction rest with
  | nil => intro j k hk; simp at hk
  | cons c cs ih =>
    intro j k hk hfirst hleaf hjk
    obtain ⟨l, hl⟩ := hleaf c (List.mem_cons_self _ _)
    rw [leafNodeS.findPeerLeftLoop, hl]
    simp only
    cases k with
    | zero =>
      simp only [List.getElem?_cons_zero, Option.some.injEq] at hk
      subst hk
      simp only [if_true, Nat.add_zero]
      by_cases hj : j = 0
      · simp [hj]
      · rw [if_neg hj, if_neg hj]
        have h1 : j - 1 < parent.vals.length := by omega
        have h2 : j - 1 < parent.keys.length := by omega
        obtain ⟨lp, hlp⟩ := hall _ (List.getElem_mem h1)
        simp [peerLeftAt, List.getElem?_eq_getElem h1, List.getElem?_eq_getElem h2, hlp]
    | succ k =>
      have hne : old ≠ c := by
        intro hh
        exact hfirst 0 (Nat.succ_pos k) (by simp [hh])
      rw [if_neg hne]
      simp only [List.getElem?_cons_succ] at hk
      have := ih (j + 1) k hk (fun k' hk' => by
        have := hfirst (k' + 1) (by omega)
        simpa using this) (fun c' hc' => hleaf c' (List.mem_cons_of_mem _ hc')) (by omega)
      rw [this]
      have e : j + 1 + k = j + (k + 1) := by omega
      rw [e]

theorem leaf_findPeerRightLoop {h : Heap K V} {old : Nat} {parent : interiorNodeS K}
    (hall : ∀ c ∈ parent.vals, ∃ l, readLeaf h c = some l)
    (hlen : parent.vals.length = parent.keys.length + 1) :
    ∀ (rest : List Nat) (j k : Nat), rest[k]? = some old →
      (∀ k', k' < k → rest[k']? ≠ some old) → (∀ c ∈ rest, ∃ l, readLeaf h c = some l) →
      j + k < parent.vals.length →
      leafNodeS.findPeerRightLoop h old parent j rest =
        some (if j + k = parent.vals.length - 1 then none else peerRightAt parent (j + k)) := by
  intro rest
  induction rest with
  | nil => intro j k hk; simp at hk
  | cons c cs ih =>
    intro j k hk hfirst hleaf hjk
    obtain ⟨l, hl⟩ := hleaf c (List.mem_cons_self _ _)
    rw [leafNodeS.findPeerRightLoop, hl]
    simp only
    cases k with
    | zero =>
      simp only [List.getElem?_cons_zero, Option.some.injEq] at hk
      subst hk
      simp only [if_true, Nat.add_zero]
      by_cases hj : j = parent.vals.length - 1
      · simp [hj]
      · rw [if_neg hj, if_neg hj]
        have h1 : j + 1 < parent.vals.length := by omega
        have h2 : j < parent.keys.length := by omega
        obtain ⟨lp, hlp⟩ := hall _ (List.getElem_mem h1)
        simp [peerRightAt, List.getElem?_eq_getElem h1, List.getElem?_eq_getElem h2, hlp]
    | succ k =>
      have hne : old ≠ c := by
        intro hh
        exact hfirst 0 (Nat.succ_pos k) (by simp [hh])
      rw [if_neg hne]
      simp only [List.getElem?_cons_succ] at hk
      have := ih (j + 1) k hk (fun k' hk' => by
        have := hfirst (k' + 1) (by omega)
        simpa using this) (fun c' hc' => hleaf c' (List.mem_cons_of_mem _ hc')) (by omega)
      rw [this]
      have e : j + 1 + k = j + (k + 1) := by omega
      rw [e]

theorem node_findPeerLeftLoop {h : Heap K V} {old : Nat} {parent : interiorNodeS K}
    (hall : ∀ c ∈ parent.vals, ∃ n, readNode h c = some n)
    (hlen : parent.vals.length = parent.keys.length + 1) :
    ∀ (rest : List Nat) (j k : Nat), rest[k]? = some old →
      (∀ k', k' < k → rest[k']? ≠ some old) → (∀ c ∈ rest, ∃ n, readNode h c = some n) →
      j + k < parent.vals.length →
      interiorNodeS.findPeerLeftLoop h old parent j rest =
        some (if j + k = 0 then none else peerLeftAt parent (j + k)) := by
  intro rest
  induction rest with
  | nil => intro j k hk; simp at hk
  | cons c cs ih =>
    intro j k hk hfirst hnode hjk
    obtain ⟨l, hl⟩ := hnode c (List.mem_cons_self _ _)
    rw [interiorNodeS.findPeerLeftLoop, readNode_eq_some.1 hl]
    simp only
    cases k with
    | zero =>
      simp only [List.getElem?_cons_zero, Option.some.injEq] at hk
      subst hk
      simp only [if_true, Nat.add_zero]
      by_cases hj : j = 0
      · simp [hj]
      · rw [if_neg hj, if_neg hj]
        have h1 : j - 1 < parent.vals.length := by omega
        have h2 : j - 1 < parent.keys.length := by omega
        obtain ⟨lp, hlp⟩ := hall _ (List.getElem_mem h1)
        simp [peerLeftAt, List.getElem?_eq_getElem h1, List.getElem?_eq_getElem h2, hlp]
    | succ k =>
      have hne : old ≠ c := by
        intro hh
        exact hfirst 0 (Nat.succ_pos k) (by simp [hh])
      rw [if_neg hne]
      simp only [List.getElem?_cons_succ] at hk
      have := ih (j + 1) k hk (fun k' hk' => by
        have := hfirst (k' + 1) (by omega)
        simpa using this) (fun c' hc' => hnode c' (List.mem_cons_of_mem _ hc')) (by omega)
      rw [this]
      have e : j + 1 + k = j + (k + 1) := by omega
      rw [e]

theorem node_findPeerRightLoop {h : Heap K V} {old : Nat} {parent : interiorNodeS K}
    (hall : ∀ c ∈ parent.vals, ∃ n, readNode h c = some n)
    (hlen : parent.vals.length = parent.keys.length + 1) :
    ∀ (rest : List Nat) (j k : Nat), rest[k]? = some old →
      (∀ k', k' < k → rest[k']? ≠ some old) → (∀ c ∈ rest, ∃ n, readNode h c = some n) →
      j + k < parent.vals.length →
      interiorNodeS.findPeerRightLoop h old parent j rest =
        some (if j + k = parent.vals.length - 1 then none else peerRightAt parent (j + k)) := by
  intro rest
  induction rest with
  | nil => intro j k hk; simp at hk
  | cons c cs ih =>
    intro j k hk hfirst hnode hjk
    obtain ⟨l, hl⟩ := hnode c (List.mem_cons_self _ _)
    rw [interiorNodeS.findPeerRightLoop, readNode_eq_some.1 hl]
    simp only
    cases k with
    | zero =>
      simp only [List.getElem?_cons_zero, Option.some.injEq] at hk
      subst hk
      simp only [if_true, Nat.add_zero]
      by_cases hj : j = parent.vals.length - 1
      · simp [hj]
      · rw [if_neg hj, if_neg hj]
        have h1 : j + 1 < parent.vals.length := by omega
        have h2 : j < parent.keys.length := by omega
        obtain ⟨lp, hlp⟩ := hall _ (List.getElem_mem h1)
        simp [peerRightAt, List.getElem?_eq_getElem h1, List.getElem?_eq_getElem h2, hlp]
    | succ k =>
      have hne : old ≠ c := by
        intro hh
        exact hfirst 0 (Nat.succ_pos k) (by simp [hh])
      rw [if_neg hne]
      simp only [List.getElem?_cons_succ] at hk
      have := ih (j + 1) k hk (fun k' hk' => by
        have := hfirst (k' + 1) (by omega)
        simpa using this) (fun c' hc' => hnode c' (List.mem_cons_of_mem _ hc')) (by omega)
      rw [this]
      have e : j + 1 + k = j + (k + 1) := by omega
      rw [e]

theorem findDeadLeaf_spec {h : Heap K V} {dead : Nat} :
    ∀ (rest : List Nat) (j k : Nat), rest[k]? = some dead →
      (∀ k', k' < k → rest[k']? ≠ some dead) → (∀ c ∈ rest, ∃ l, readLeaf h c = some l) →
      findDeadLeaf h dead j rest = some (j + k) := by
  intro rest
  induction rest with
  | nil => intro j k hk; simp at hk
  | cons c cs ih =>
    intro j k hk hfirst hleaf
    obtain ⟨l, hl⟩ := hleaf c (List.mem_cons_self _ _)
    rw [findDeadLeaf, hl]
    simp only
    cases k with
    | zero =>
      simp only [List.getElem?_cons_zero, Option.some.injEq] at hk
      simp [hk]
    | succ k =>
      have hne : dead ≠ c := by
        intro hh
        exact hfirst 0 (Nat.succ_pos k) (by simp [hh])
      rw [if_neg hne]
      simp only [List.getElem?_cons_succ] at hk
      rw [ih (j + 1) k hk (fun k' hk' => by
        have := hfirst (k' + 1) (by omega)
        simpa using this) (fun c' hc' => hleaf c' (List.mem_cons_of_mem _ hc'))]
      congr 1
      omega

theorem findDeadNode_spec {h : Heap K V} {dead : Nat} :
    ∀ (rest : List Nat) (j k : Nat), rest[k]? = some dead →
      (∀ k', k' < k → rest[k']? ≠ some dead) → (∀ c ∈ rest, ∃ n, readNode h c = some n) →
      findDeadNode h dead j rest = some (j + k) := by
  intro rest
  induction rest with
  | nil => intro j k hk; simp at hk
  | cons c cs ih =>
    intro j k hk hfirst hnode
    obtain ⟨l, hl⟩ := hnode c (List.mem_cons_self _ _)
    rw [findDeadNode, readNode_eq_some.1 hl]
    simp only
    cases k with
    | zero =>
      simp only [List.getElem?_cons_zero, Option.some.injEq] at hk
      simp [hk]
    | succ k =>
      have hne : dead ≠ c := by
        intro hh
        exact hfirst 0 (Nat.succ_pos k) (by simp [hh])
      rw [if_neg hne]
      simp only [List.getElem?_cons_succ] at hk
      rw [ih (j + 1) k hk (fun k' hk' => by
        have := hfirst (k' + 1) (by omega)
        simpa using this) (fun c' hc' => hnode c' (List.mem_cons_of_mem _ hc'))]
      congr 1
      omega

end

section
variable {K V : Type} [LinearOrder K]

theorem Kids.rebound_lo {P : Nat → Option K → Option K → Prop} {lo lo' hi : Option K}
    {keys : List K} {vals : List Nat} (H : Kids P lo hi keys vals)
    (h0 : ∀ c, vals[0]? = some c → P c lo' (hiAt hi keys 0)) : Kids P lo' hi keys vals := by
  intro j c hc
  cases j with
  | zero => rw [loAt_zero]; exact h0 c hc
  | succ j =>
    have := H (j + 1) c hc
    rwa [loAt_succ] at this ⊢

theorem Kids.rebound_hi {P : Nat → Option K → Option K → Prop} {lo hi hi' : Option K}
    {keys : List K} {vals : List Nat} (H : Kids P lo hi keys vals)
    (hl : ∀ c, vals[keys.length]? = some c → P c (loAt lo keys keys.length) hi')
    (hlen : vals.length = keys.length + 1) : Kids P lo hi' keys vals := by
  intro j c hc
  have hj : j < vals.length := (List.getElem?_eq_some.1 hc).1
  rcases Nat.lt_or_ge j keys.length with h | h
  · have := H j c hc
    rwa [hiAt_lt _ _ h] at this ⊢
  · have : j = keys.length := by omega
    subst this
    rw [hiAt_ge _ _ (Nat.le_refl _)]
    exact hl c hc

/-- The entries below a child lie within the bounds of the parent. -/
theorem Rep.child_bounds {m : Nat} {h : Heap K V} {d a : Nat} {lo hi : Option K}
    {n : interiorNodeS K} (r : Rep m h (d + 1) a lo hi) (hn : readNode h a = some n)
    {c : Nat} (hc : c ∈ n.vals) : ∀ e ∈ ents h d c, geLo lo e.1 ∧ ltHi hi e.1 := by
  intro e he
  obtain ⟨j, hj⟩ := List.getElem?_of_mem hc
  exact r.props.2.1 e (mem_ents_child hn hj he)

/-- A node within the fan-out bounds has an entry, so its keys cannot lie on both
sides of a key. -/
theorem Kid.disjoint {m : Nat} (hm : 2 ≤ m) {h : Heap K V} {d c : Nat} {lo hi : Option K}
    (k : Kid m h d c lo hi) {x : K} (h1 : ∀ e ∈ ents h d c, e.1 < x)
    (h2 : ∀ e ∈ ents h d c, x ≤ e.1) : False := by
  have hne := k.ents_ne_nil hm
  obtain ⟨e, he⟩ := List.exists_mem_of_ne_nil _ hne
  exact absurd (h1 e he) (not_lt.2 (h2 e he))

theorem hiAt_del (hi : Option K) (KA : List K) (k : K) (KB : List K) :
    hiAt hi (KA ++ KB) KA.length = hiAt hi (KA ++ k :: KB) (KA.length + 1) := by
  rw [hiAt_ins_gt hi KA k KB (Nat.lt_succ_self _)]
  rfl

theorem split_two {α : Type} {l : List α} {i : Nat} {a b : α} (h1 : l[i]? = some a)
    (h2 : l[i + 1]? = some b) : l = l.take i ++ a :: b :: l.drop (i + 2) := by
  obtain ⟨hi1, e1⟩ := List.getElem?_eq_some.1 h1
  obtain ⟨hi2, e2⟩ := List.getElem?_eq_some.1 h2
  rw [← e1, ← e2, ← List.drop_eq_getElem_cons hi2, ← List.drop_eq_getElem_cons hi1,
    List.take_append_drop]

theorem split_one {α : Type} {l : List α} {i : Nat} (hi : i < l.length) :
    l = l.take i ++ l[i] :: l.drop (i + 1) := by
  rw [← List.drop_eq_getElem_cons hi, List.take_append_drop]

/-- The copy of a well-formed node in which the children `i` and `i + 1` and the
separator between them are replaced. -/
theorem Rep.swap2_child {m : Nat} {h0 h3 : Heap K V} {d p newP : Nat} {plo phi : Option K}
    {n : interiorNodeS K} {i c1 c2 n1 n2 : Nat} {k : K}
    (r : Rep m h0 (d + 1) p plo phi) (hn : readNode h0 p = some n)
    (hi1 : n.vals[i]? = some c1) (hi2 : n.vals[i + 1]? = some c2) (ag : Agree h0.length h0 h3)
    (hnew : readNode h3 newP = some
      { n with keys := n.keys.take i ++ k :: n.keys.drop (i + 1),
               vals := n.vals.take i ++ n1 :: n2 :: n.vals.drop (i + 2) })
    (hf1 : h0.length ≤ n1) (hf2 : h0.length ≤ n2) (hne : n1 ≠ n2)
    (hlt1 : n1 < newP) (hlt2 : n2 < newP)
    (k1 : Kid m h3 d n1 (loAt plo n.keys i) (some k))
    (k2 : Kid m h3 d n2 (some k) (hiAt phi n.keys (i + 1))) :
    Rep m h3 (d + 1) newP plo phi ∧
    ents h3 (d + 1) newP = ((n.vals.take i).map (ents h0 d)).flatten ++ ents h3 d n1 ++
      ents h3 d n2 ++ ((n.vals.drop (i + 2)).map (ents h0 d)).flatten ∧
    nodeSize h3 newP = nodeSize h0 p := by
  obtain ⟨n', hn', hcap, hlen, hnd, hltc, hch⟩ := Rep_kids.1 r
  rw [hn] at hn'
  cases hn'
  have hp := r.lt
  have hil : i + 1 < n.vals.length := (List.getElem?_eq_some.1 hi2).1
  have hik : i < n.keys.length := by omega
  have hold : ∀ c ∈ n.vals, ∃ lo hi, Rep m h0 d c lo hi := by
    intro c hc
    obtain ⟨j, hj⟩ := List.getElem?_of_mem hc
    exact ⟨_, _, (hch j c hj).1⟩
  have hvals := split_two hi1 hi2
  have hkeys := split_one hik
  have hKl : (n.keys.take i).length = i := by rw [List.length_take]; omega
  have hAl : (n.vals.take i).length = (n.keys.take i).length := by
    rw [List.length_take, List.length_take]; omega
  have hoc : ∀ c, c ∈ n.vals.take i ∨ c ∈ n.vals.drop (i + 2) → c < h0.length := by
    intro c hc
    have : c ∈ n.vals := by
      rcases hc with hc | hc
      · exact List.mem_of_mem_take hc
      · exact List.mem_of_mem_drop hc
    have := hltc c this
    omega
  refine ⟨Rep_kids.2 ⟨_, hnew, hcap, ?_, ?_, ?_, ?_⟩, ?_, ?_⟩
  · simp only [List.length_append, List.length_cons, List.length_take, List.length_drop]
    omega
  · simp only
    rw [hvals] at hnd
    rw [List.nodup_append] at hnd ⊢
    obtain ⟨h1, h2, h3'⟩ := hnd
    rw [List.nodup_cons, List.nodup_cons] at h2
    refine ⟨h1, ?_, ?_⟩
    · rw [List.nodup_cons, List.nodup_cons]
      refine ⟨?_, ?_, h2.2.2⟩
      · intro hmem
        rw [List.mem_cons] at hmem
        rcases hmem with hmem | hmem
        · exact hne hmem
        · have := hoc n1 (Or.inr hmem); omega
      · intro hmem
        have := hoc n2 (Or.inr hmem); omega
    · intro c hc1 hc2
      rw [List.mem_cons, List.mem_cons] at hc2
      rcases hc2 with rfl | rfl | hc2
      · have := hoc c (Or.inl hc1); omega
      · have := hoc c (Or.inl hc1); omega
      · exact h3' hc1 (List.mem_cons_of_mem _ (List.mem_cons_of_mem _ hc2))
  · intro c hc
    simp only [List.mem_append, List.mem_cons] at hc
    rcases hc with hc | rfl | rfl | hc
    · have := hoc c (Or.inl hc); omega
    · exact hlt1
    · exact hlt2
    · have := hoc c (Or.inr hc); omega
  · simp only
    have H0 : Kids (Kid m h3 d) plo phi (n.keys.take i ++ n.keys[i] :: n.keys.drop (i + 1))
        (n.vals.take i ++ c1 :: c2 :: n.vals.drop (i + 2)) := by
      rw [← hvals, ← hkeys]
      exact hch.agree_kids (fun c hc => by have := hltc c hc; omega) ag
    refine H0.swap2 hAl ?_ ?_
    · rw [← loAt_ins_le plo _ n.keys[i] _ (Nat.le_refl _), ← hkeys, hKl]
      exact k1
    · have := hiAt_del phi (n.keys.take i) n.keys[i] (n.keys.drop (i + 1))
      rw [← hkeys, hKl] at this
      rw [hKl, this]
      exact k2
  · rw [ents_node hnew]
    simp only [List.map_append, List.map_cons, List.flatten_append, List.flatten_cons]
    rw [ents_map_agree (m := m) (fun c hc => hold c (List.mem_of_mem_take hc)) ag,
      ents_map_agree (m := m) (fun c hc => hold c (List.mem_of_mem_drop hc)) ag]
    simp
  · rw [nodeSize_of_node hnew, nodeSize_of_node hn]
    simp only [List.length_append, List.length_cons, List.length_take, List.length_drop]
    omega

/-- The copy of a well-formed node in which the children `i` and `i + 1` are
replaced by their merge and the separator between them is removed. -/
theorem Rep.remove_child {m : Nat} {h0 h3 : Heap K V} {d p newP : Nat} {plo phi : Option K}
    {n : interiorNodeS K} {i c1 c2 n1 : Nat}
    (r : Rep m h0 (d + 1) p plo phi) (hn : readNode h0 p = some n)
    (hi1 : n.vals[i]? = some c1) (hi2 : n.vals[i + 1]? = some c2) (ag : Agree h0.length h0 h3)
    (hnew : readNode h3 newP = some
      { n with keys := n.keys.take i ++ n.keys.drop (i + 1),
               vals := n.vals.take i ++ n1 :: n.vals.drop (i + 2) })
    (hf1 : h0.length ≤ n1) (hlt1 : n1 < newP)
    (k1 : Kid m h3 d n1 (loAt plo n.keys i) (hiAt phi n.keys (i + 1))) :
    Rep m h3 (d + 1) newP plo phi ∧
    ents h3 (d + 1) newP = ((n.vals.take i).map (ents h0 d)).flatten ++ ents h3 d n1 ++
      ((n.vals.drop (i + 2)).map (ents h0 d)).flatten ∧
    nodeSize h3 newP + 1 = nodeSize h0 p := by
  obtain ⟨n', hn', hcap, hlen, hnd, hltc, hch⟩ := Rep_kids.1 r
  rw [hn] at hn'
  cases hn'
  have hp := r.lt
  have hil : i + 1 < n.vals.length := (List.getElem?_eq_some.1 hi2).1
  have hik : i < n.keys.length := by omega
  have hold : ∀ c ∈ n.vals, ∃ lo hi, Rep m h0 d c lo hi := by
    intro c hc
    obtain ⟨j, hj⟩ := List.getElem?_of_mem hc
    exact ⟨_, _, (hch j c hj).1⟩
  have hvals := split_two hi1 hi2
  have hkeys := split_one hik
  have hKl : (n.keys.take i).length = i := by rw [List.length_take]; omega
  have hAl : (n.vals.take i).length = (n.keys.take i).length := by
    rw [List.length_take, List.length_take]; omega
  have hoc : ∀ c, c ∈ n.vals.take i ∨ c ∈ n.vals.drop (i + 2) → c < h0.length := by
    intro c hc
    have : c ∈ n.vals := by
      rcases hc with hc | hc
      · exact List.mem_of_mem_take hc
      · exact List.mem_of_mem_drop hc
    have := hltc c this
    omega
  refine ⟨Rep_kids.2 ⟨_, hnew, hcap, ?_, ?_, ?_, ?_⟩, ?_, ?_⟩
  · simp only [List.length_append, List.length_cons, List.length_take, List.length_drop]
    omega
  · simp only
    rw [hvals] at hnd
    rw [List.nodup_append] at hnd ⊢
    obtain ⟨h1, h2, h3'⟩ := hnd
    rw [List.nodup_cons, List.nodup_cons] at h2
    refine ⟨h1, ?_, ?_⟩
    · rw [List.nodup_cons]
      refine ⟨?_, h2.2.2⟩
      intro hmem
      have := hoc n1 (Or.inr hmem); omega
    · intro c hc1 hc2
      rw [List.mem_cons] at hc2
      rcases hc2 with rfl | hc2
      · have := hoc c (Or.inl hc1); omega
      · exact h3' hc1 (List.mem_cons_of_mem _ (List.mem_cons_of_mem _ hc2))
  · intro c hc
    simp only [List.mem_append, List.mem_cons] at hc
    rcases hc with hc | rfl | hc
    · have := hoc c (Or.inl hc); omega
    · exact hlt1
    · have := hoc c (Or.inr hc); omega
  · simp only
    have H0 : Kids (Kid m h3 d) plo phi (n.keys.take i ++ n.keys[i] :: n.keys.drop (i + 1))
        (n.vals.take i ++ c1 :: c2 :: n.vals.drop (i + 2)) := by
      rw [← hvals, ← hkeys]
      exact hch.agree_kids (fun c hc => by have := hltc c hc; omega) ag
    refine H0.remove hAl ?_
    have e1 := loAt_ins_le plo (n.keys.take i) n.keys[i] (n.keys.drop (i + 1)) (Nat.le_refl _)
    have e2 := hiAt_del phi (n.keys.take i) n.keys[i] (n.keys.drop (i + 1))
    rw [← hkeys, hKl] at e2
    rw [← hkeys, hKl] at e1
    rw [hKl, ← e1, e2]
    exact k1
  · rw [ents_node hnew]
    simp only [List.map_append, List.map_cons, List.flatten_append, List.flatten_cons]
    rw [ents_map_agree (m := m) (fun c hc => hold c (List.mem_of_mem_take hc)) ag,
      ents_map_agree (m := m) (fun c hc => hold c (List.mem_of_mem_drop hc)) ag]
    simp
  · rw [nodeSize_of_node hnew, nodeSize_of_node hn]
    simp only [List.length_append, List.length_cons, List.length_take, List.length_drop]
    omega

end

section
variable {K V : Type} [LinearOrder K]

theorem Kid.mk_leaf {m : Nat} {h : Heap K V} {a : Nat} {lo hi : Option K} {l : leafNodeS K V}
    (hl : readLeaf h a = some l) (hcap : l.cap = m) (hlen : l.keys.length = l.vals.length)
    (hs : l.keys.Pairwise (fun x y => x < y)) (hb : ∀ k ∈ l.keys, geLo lo k ∧ ltHi hi k)
    (hlh : bLt lo hi) (h1 : m / 2 ≤ l.vals.length) (h2 : l.vals.length ≤ m - 1) :
    Kid m h 0 a lo hi := by
  refine ⟨Rep_zero.2 ⟨l, hl, hcap, hlen, hs, hb, hlh⟩, ?_⟩
  simp only [Full, nodeSize_of_leaf hl, minSize, maxSize, if_true]
  exact ⟨h1, h2⟩

theorem Kid.leaf_size {m : Nat} {h : Heap K V} {a : Nat} {lo hi : Option K} {l : leafNodeS K V}
    (k : Kid m h 0 a lo hi) (hl : readLeaf h a = some l) :
    m / 2 ≤ l.vals.length ∧ l.vals.length ≤ m - 1 := by
  have := k.2
  simpa only [Full, nodeSize_of_leaf hl, minSize, maxSize, if_true] using this

theorem exists_concat {α : Type} {l : List α} (h : 0 < l.length) : ∃ A x, l = A ++ [x] := by
  rcases List.eq_nil_or_concat l with rfl | ⟨A, x, rfl⟩
  · simp at h
  · exact ⟨A, x, by simp⟩

theorem exists_cons {α : Type} {l : List α} (h : 0 < l.length) : ∃ x B, l = x :: B := by
  cases l with
  | nil => simp at h
  | cons x B => exact ⟨x, B, rfl⟩

/-- The method `stealLeft` of a leaf, on the too small new leaf `N` and the fresh
copy of its left peer. -/
theorem leaf_stealLeft_spec {m : Nat} (hm : 2 ≤ m) {h : Heap K V} {oldL N : Nat}
    {lo hi : Option K} {k : K} {L Nl : leafNodeS K V}
    (kL : Kid m h 0 oldL lo (some k)) (hL : readLeaf h oldL = some L)
    (sL : m / 2 < L.vals.length)
    (rN : Rep m h 0 N (some k) hi) (hN : readLeaf h N = some Nl)
    (sN : Nl.vals.length + 1 = m / 2) :
    ∃ h2 S, leafNodeS.stealLeft (h ++ [Cell.leaf L]) N h.length = some h2 ∧
      h2.length = h.length + 1 ∧ Agree N h h2 ∧
      StealRes m h2 0 h.length N lo hi (ents h 0 oldL ++ ents h 0 N) S := by
  obtain ⟨l1, hl1, hcapL, hlenL, hsL, hbL, hbltL⟩ := Rep_zero.1 kL.1
  rw [hL] at hl1
  cases hl1
  obtain ⟨l2, hl2, hcapN, hlenN, hsN, hbN, hbltN⟩ := Rep_zero.1 rN
  rw [hN] at hl2
  cases hl2
  have hszL := kL.leaf_size hL
  have hNlt : N < h.length := readLeaf_lt hN
  obtain ⟨cap, keys, vals⟩ := L
  simp only at hcapL hlenL hsL hbL sL hszL
  obtain ⟨KA, sk, rfl⟩ := exists_concat (l := keys) (by omega)
  obtain ⟨VA, sv, rfl⟩ := exists_concat (l := vals) (by omega)
  have hlenA : KA.length = VA.length := by simpa using hlenL
  have hVA : 1 ≤ VA.length := by
    simp only [List.length_append, List.length_singleton] at sL
    have := half_pos hm
    omega
  rw [List.pairwise_append] at hsL
  obtain ⟨hsA, _, hAsk⟩ := hsL
  have hskk : sk < k := ltHi_some.1 (hbL sk (by simp)).2
  have hNk : ∀ x ∈ Nl.keys, k ≤ x := fun x hx => geLo_some.1 (hbN x hx).1
  have r1 : readLeaf ((h ++ [Cell.leaf ⟨cap, KA ++ [sk], VA ++ [sv]⟩]).set h.length
      (Cell.leaf ⟨cap, KA, VA⟩)) N = some Nl := by
    rw [readLeaf_set_ne (by omega), (Agree.append h _ (Nat.le_refl _)).readLeaf hNlt]
    exact hN
  refine ⟨((h ++ [Cell.leaf ⟨cap, KA ++ [sk], VA ++ [sv]⟩]).set h.length
    (Cell.leaf ⟨cap, KA, VA⟩)).set N (Cell.leaf ⟨Nl.cap, sk :: Nl.keys, sv :: Nl.vals⟩), sk,
    ?_, ?_, ?_, ?_⟩
  · unfold leafNodeS.stealLeft
    rw [readLeaf_append_self]
    simp only [List.length_append, List.length_singleton, Nat.add_sub_cancel,
      getElem?_mid sk [] rfl, getElem?_mid sv [] rfl, take_mid _ rfl, r1]
    rw [if_pos ⟨by omega, by omega⟩]
  · simp
  · exact (Agree.append h _ (Nat.le_of_lt hNlt)).trans
      ((Agree.set _ _ (Nat.le_of_lt hNlt)).trans (Agree.set _ _ (Nat.le_refl _)))
  · have e1 : readLeaf (((h ++ [Cell.leaf ⟨cap, KA ++ [sk], VA ++ [sv]⟩]).set h.length
        (Cell.leaf ⟨cap, KA, VA⟩)).set N (Cell.leaf ⟨Nl.cap, sk :: Nl.keys, sv :: Nl.vals⟩))
        h.length = some ⟨cap, KA, VA⟩ := by
      rw [readLeaf_set_ne (by omega), set_append_self, readLeaf_append_self]
    have e2 : readLeaf (((h ++ [Cell.leaf ⟨cap, KA ++ [sk], VA ++ [sv]⟩]).set h.length
        (Cell.leaf ⟨cap, KA, VA⟩)).set N (Cell.leaf ⟨Nl.cap, sk :: Nl.keys, sv :: Nl.vals⟩))
        N = some ⟨Nl.cap, sk :: Nl.keys, sv :: Nl.vals⟩ :=
      readLeaf_set_self (by simp; omega) _
    obtain ⟨x, hx⟩ : ∃ x, x ∈ KA := by
      obtain ⟨x, B, rfl⟩ := exists_cons (l := KA) (by omega)
      exact ⟨x, by simp⟩
    refine ⟨?_, ?_, ?_, ?_⟩
    · refine Kid.mk_leaf e1 hcapL hlenA hsA ?_ ?_ ?_ ?_
      · intro y hy
        exact ⟨(hbL y (by simp [hy])).1, ltHi_some.2 (hAsk y hy sk (by simp))⟩
      · exact bLt_of_mem (hbL x (by simp [hx])).1 (ltHi_some.2 (hAsk x hx sk (by simp)))
      · simp only [List.length_append, List.length_singleton] at sL
        simp only
        omega
      · simp only [List.length_append, List.length_singleton] at hszL
        simp only
        omega
    · refine Kid.mk_leaf e2 hcapN (by simp [hlenN]) ?_ ?_ ?_ ?_ ?_
      · simp only [List.pairwise_cons]
        exact ⟨fun y hy => lt_of_lt_of_le hskk (hNk y hy), hsN⟩
      · intro y hy
        simp only [List.mem_cons] at hy
        rcases hy with rfl | hy
        · exact ⟨geLo_some.2 (le_refl _), ltHi_trans (bLt_some_left.1 hbltN) (le_of_lt hskk)⟩
        · exact ⟨geLo_some.2 (le_of_lt (lt_of_lt_of_le hskk (hNk y hy))), (hbN y hy).2⟩
      · exact bLt_some_left.2 (ltHi_trans (bLt_some_left.1 hbltN) (le_of_lt hskk))
      · simp only [List.length_cons]
        omega
      · simp only [List.length_cons]
        omega
    · rw [ents_leaf e1, ents_leaf e2, ents_leaf hL, ents_leaf hN]
      simp only
      rw [List.zip_append hlenA]
      simp
    · rw [ents_leaf e2]
      exact ⟨sv, _, rfl⟩

/-- The method `stealRight` of a leaf, on the too small new leaf `N` and the fresh
copy of its right peer. -/
theorem leaf_stealRight_spec {m : Nat} (hm : 2 ≤ m) {h : Heap K V} {oldR N : Nat}
    {lo hi : Option K} {k : K} {R Nl : leafNodeS K V}
    (kR : Kid m h 0 oldR (some k) hi) (hR : readLeaf h oldR = some R)
    (sR : m / 2 < R.vals.length)
    (rN : Rep m h 0 N lo (some k)) (hN : readLeaf h N = some Nl)
    (sN : Nl.vals.length + 1 = m / 2) :
    ∃ h2 S, leafNodeS.stealRight (h ++ [Cell.leaf R]) N h.length = some h2 ∧
      h2.length = h.length + 1 ∧ Agree N h h2 ∧
      StealRes m h2 0 N h.length lo hi (ents h 0 N ++ ents h 0 oldR) S := by
  obtain ⟨l1, hl1, hcapR, hlenR, hsR, hbR, hbltR⟩ := Rep_zero.1 kR.1
  rw [hR] at hl1
  cases hl1
  obtain ⟨l2, hl2, hcapN, hlenN, hsN, hbN, hbltN⟩ := Rep_zero.1 rN
  rw [hN] at hl2
  cases hl2
  have hszR := kR.leaf_size hR
  have hNlt : N < h.length := readLeaf_lt hN
  obtain ⟨cap, keys, vals⟩ := R
  simp only at hcapR hlenR hsR hbR sR hszR
  have hhalf := half_pos hm
  obtain ⟨sk, KB, rfl⟩ := exists_cons (l := keys) (by omega)
  obtain ⟨sv, VB, rfl⟩ := exists_cons (l := vals) (by omega)
  simp only [List.length_cons] at sR hszR hlenR
  obtain ⟨S, KB', rfl⟩ := exists_cons (l := KB) (by omega)
  obtain ⟨v2, VB', rfl⟩ := exists_cons (l := VB) (by omega)
  simp only [List.length_cons] at sR hszR hlenR
  rw [List.pairwise_cons] at hsR
  obtain ⟨hskB, hsB⟩ := hsR
  have hsB' := hsB
  rw [List.pairwise_cons] at hsB'
  have hksk : k ≤ sk := geLo_some.1 (hbR sk (by simp)).1
  have hskS : sk < S := hskB S (by simp)
  have hNk : ∀ x ∈ Nl.keys, x < k := fun x hx => ltHi_some.1 (hbN x hx).2
  have r1 : readLeaf ((h ++ [Cell.leaf ⟨cap, sk :: S :: KB', sv :: v2 :: VB'⟩]).set h.length
      (Cell.leaf ⟨cap, S :: KB', v2 :: VB'⟩)) N = some Nl := by
    rw [readLeaf_set_ne (by omega), (Agree.append h _ (Nat.le_refl _)).readLeaf hNlt]
    exact hN
  refine ⟨((h ++ [Cell.leaf ⟨cap, sk :: S :: KB', sv :: v2 :: VB'⟩]).set h.length
    (Cell.leaf ⟨cap, S :: KB', v2 :: VB'⟩)).set N
      (Cell.leaf ⟨Nl.cap, Nl.keys ++ [sk], Nl.vals ++ [sv]⟩), S, ?_, ?_, ?_, ?_⟩
  · unfold leafNodeS.stealRight
    rw [readLeaf_append_self]
    simp only [List.getElem?_cons_zero, List.drop_succ_cons, List.drop_zero, r1]
    rw [if_pos ⟨by omega, by omega⟩]
  · simp
  · exact (Agree.append h _ (Nat.le_of_lt hNlt)).trans
      ((Agree.set _ _ (Nat.le_of_lt hNlt)).trans (Agree.set _ _ (Nat.le_refl _)))
  · have e1 : readLeaf (((h ++ [Cell.leaf ⟨cap, sk :: S :: KB', sv :: v2 :: VB'⟩]).set h.length
        (Cell.leaf ⟨cap, S :: KB', v2 :: VB'⟩)).set N
          (Cell.leaf ⟨Nl.cap, Nl.keys ++ [sk], Nl.vals ++ [sv]⟩))
        h.length = some ⟨cap, S :: KB', v2 :: VB'⟩ := by
      rw [readLeaf_set_ne (by omega), set_append_self, readLeaf_append_self]
    have e2 : readLeaf (((h ++ [Cell.leaf ⟨cap, sk :: S :: KB', sv :: v2 :: VB'⟩]).set h.length
        (Cell.leaf ⟨cap, S :: KB', v2 :: VB'⟩)).set N
          (Cell.leaf ⟨Nl.cap, Nl.keys ++ [sk], Nl.vals ++ [sv]⟩))
        N = some ⟨Nl.cap, Nl.keys ++ [sk], Nl.vals ++ [sv]⟩ :=
      readLeaf_set_self (by simp; omega) _
    have hlosk : geLo lo sk := by
      intro l hl
      exact le_of_lt (lt_of_lt_of_le (hbltN l hl k rfl) hksk)
    refine ⟨?_, ?_, ?_, ?_⟩
    · refine Kid.mk_leaf e2 hcapN (by simp [hlenN]) ?_ ?_ ?_ ?_ ?_
      · rw [List.pairwise_append]
        refine ⟨hsN, by simp, ?_⟩
        intro x hx y hy
        simp only [List.mem_singleton] at hy
        subst hy
        exact lt_of_lt_of_le (hNk x hx) hksk
      · intro y hy
        simp only [List.mem_append, List.mem_singleton] at hy
        rcases hy with hy | rfl
        · exact ⟨(hbN y hy).1, ltHi_some.2 (lt_trans (lt_of_lt_of_le (hNk y hy) hksk) hskS)⟩
        · exact ⟨hlosk, ltHi_some.2 hskS⟩
      · exact bLt_of_mem hlosk (ltHi_some.2 hskS)
      · simp only [List.length_append, List.length_singleton]
        omega
      · simp only [List.length_append, List.length_singleton]
        omega
    · refine Kid.mk_leaf e1 hcapR (by simpa using hlenR) hsB ?_ ?_ ?_ ?_
      · intro y hy
        refine ⟨geLo_some.2 ?_, (hbR y (List.mem_cons_of_mem _ hy)).2⟩
        simp only [List.mem_cons] at hy
        rcases hy with rfl | hy
        · exact le_refl _
        · exact le_of_lt (hsB'.1 y hy)
      · exact bLt_some_left.2 (hbR S (by simp)).2
      · simp only [List.length_cons]
        omega
      · simp only [List.length_cons]
        omega
    · rw [ents_leaf e1, ents_leaf e2, ents_leaf hR, ents_leaf hN]
      simp only
      rw [List.zip_append hlenN]
      simp
    · rw [ents_leaf e1]
      exact ⟨v2, _, rfl⟩

/-- The method `mergeRight` of a leaf, on the fresh copy of the left peer and the too
small new leaf `N`. -/
theorem leaf_mergeLeft_spec {m : Nat} (hm : 2 ≤ m) {h : Heap K V} {oldL N : Nat}
    {lo hi : Option K} {k : K} {L Nl : leafNodeS K V}
    (kL : Kid m h 0 oldL lo (some k)) (hL : readLeaf h oldL = some L)
    (sL : L.vals.length ≤ m / 2)
    (rN : Rep m h 0 N (some k) hi) (hN : readLeaf h N = some Nl)
    (sN : Nl.vals.length + 1 = m / 2) :
    ∃ h2, leafNodeS.mergeRight (h ++ [Cell.leaf L]) h.length N = some h2 ∧
      h2.length = h.length + 1 ∧ Agree h.length h h2 ∧
      Kid m h2 0 h.length lo hi ∧ ents h2 0 h.length = ents h 0 oldL ++ ents h 0 N := by
  obtain ⟨l1, hl1, hcapL, hlenL, hsL, hbL, hbltL⟩ := Rep_zero.1 kL.1
  rw [hL] at hl1
  cases hl1
  obtain ⟨l2, hl2, hcapN, hlenN, hsN, hbN, hbltN⟩ := Rep_zero.1 rN
  rw [hN] at hl2
  cases hl2
  have hszL := kL.leaf_size hL
  have hNlt : N < h.length := readLeaf_lt hN
  have hhalf := half_pos hm
  have r1 : readLeaf (h ++ [Cell.leaf L]) N = some Nl := by
    rw [(Agree.append h _ (Nat.le_refl _)).readLeaf hNlt]
    exact hN
  have hLk : ∀ x ∈ L.keys, x < k := fun x hx => ltHi_some.1 (hbL x hx).2
  have hNk : ∀ x ∈ Nl.keys, k ≤ x := fun x hx => geLo_some.1 (hbN x hx).1
  have hkhi : ltHi hi k := bLt_some_left.1 hbltN
  refine ⟨(h ++ [Cell.leaf L]).set h.length
    (Cell.leaf ⟨L.cap, L.keys ++ Nl.keys, L.vals ++ Nl.vals⟩), ?_, ?_, ?_, ?_⟩
  · unfold leafNodeS.mergeRight
    rw [readLeaf_append_self, r1]
    simp only
    rw [if_pos ⟨by omega, by omega⟩]
  · simp
  · exact (Agree.append h _ (Nat.le_refl _)).trans (Agree.set _ _ (Nat.le_refl _))
  · have e1 : readLeaf ((h ++ [Cell.leaf L]).set h.length
        (Cell.leaf ⟨L.cap, L.keys ++ Nl.keys, L.vals ++ Nl.vals⟩)) h.length =
        some ⟨L.cap, L.keys ++ Nl.keys, L.vals ++ Nl.vals⟩ := by
      rw [set_append_self, readLeaf_append_self]
    obtain ⟨x, hx⟩ : ∃ x, x ∈ L.keys := by
      obtain ⟨x, B, hB⟩ := exists_cons (l := L.keys) (by omega)
      exact ⟨x, by simp [hB]⟩
    refine ⟨?_, ?_⟩
    · refine Kid.mk_leaf e1 hcapL (by simp [hlenL, hlenN]) ?_ ?_ ?_ ?_ ?_
      · rw [List.pairwise_append]
        exact ⟨hsL, hsN, fun a ha b hb => lt_of_lt_of_le (hLk a ha) (hNk b hb)⟩
      · intro y hy
        simp only [List.mem_append] at hy
        rcases hy with hy | hy
        · exact ⟨(hbL y hy).1, ltHi_trans hkhi (le_of_lt (hLk y hy))⟩
        · exact ⟨geLo_trans (hbL x hx).1 (le_trans (le_of_lt (hLk x hx)) (hNk y hy)),
            (hbN y hy).2⟩
      · exact bLt_of_mem (hbL x hx).1 (ltHi_trans hkhi (le_of_lt (hLk x hx)))
      · simp only [List.length_append]
        omega
      · simp only [List.length_append]
        omega
    · rw [ents_leaf e1, ents_leaf hL, ents_leaf hN]
      simp only
      rw [List.zip_append hlenL]

/-- The method `mergeRight` of a leaf, on the too small new leaf `N` and its right
peer. -/
theorem leaf_mergeRight_spec {m : Nat} (hm : 2 ≤ m) {h : Heap K V} {oldR N : Nat}
    {lo hi : Option K} {k : K} {R Nl : leafNodeS K V}
    (kR : Kid m h 0 oldR (some k) hi) (hR : readLeaf h oldR = some R)
    (sR : R.vals.length ≤ m / 2)
    (rN : Rep m h 0 N lo (some k)) (hN : readLeaf h N = some Nl)
    (sN : Nl.vals.length + 1 = m / 2) :
    ∃ h2, leafNodeS.mergeRight h N oldR = some h2 ∧
      h2.length = h.length ∧ Agree N h h2 ∧
      Kid m h2 0 N lo hi ∧ ents h2 0 N = ents h 0 N ++ ents h 0 oldR := by
  obtain ⟨l1, hl1, hcapR, hlenR, hsR, hbR, hbltR⟩ := Rep_zero.1 kR.1
  rw [hR] at hl1
  cases hl1
  obtain ⟨l2, hl2, hcapN, hlenN, hsN, hbN, hbltN⟩ := Rep_zero.1 rN
  rw [hN] at hl2
  cases hl2
  have hszR := kR.leaf_size hR
  have hNlt : N < h.length := readLeaf_lt hN
  have hhalf := half_pos hm
  have hRk : ∀ x ∈ R.keys, k ≤ x := fun x hx => geLo_some.1 (hbR x hx).1
  have hNk : ∀ x ∈ Nl.keys, x < k := fun x hx => ltHi_some.1 (hbN x hx).2
  refine ⟨h.set N (Cell.leaf ⟨Nl.cap, Nl.keys ++ R.keys, Nl.vals ++ R.vals⟩), ?_, ?_, ?_, ?_⟩
  · unfold leafNodeS.mergeRight
    rw [hN, hR]
    simp only
    rw [if_pos ⟨by omega, by omega⟩]
  · simp
  · exact Agree.set _ _ (Nat.le_refl _)
  · have e1 : readLeaf (h.set N (Cell.leaf ⟨Nl.cap, Nl.keys ++ R.keys, Nl.vals ++ R.vals⟩)) N =
        some ⟨Nl.cap, Nl.keys ++ R.keys, Nl.vals ++ R.vals⟩ := readLeaf_set_self hNlt _
    obtain ⟨x, hx⟩ : ∃ x, x ∈ R.keys := by
      obtain ⟨x, B, hB⟩ := exists_cons (l := R.keys) (by omega)
      exact ⟨x, by simp [hB]⟩
    have hlox : geLo lo x := by
      intro l hl
      exact le_of_lt (lt_of_lt_of_le (hbltN l hl k rfl) (hRk x hx))
    refine ⟨?_, ?_⟩
    · refine Kid.mk_leaf e1 hcapN (by simp [hlenR, hlenN]) ?_ ?_ ?_ ?_ ?_
      · rw [List.pairwise_append]
        exact ⟨hsN, hsR, fun a ha b hb => lt_of_lt_of_le (hNk a ha) (hRk b hb)⟩
      · intro y hy
        simp only [List.mem_append] at hy
        rcases hy with hy | hy
        · exact ⟨(hbN y hy).1,
            ltHi_trans (hbR x hx).2 (le_trans (le_of_lt (hNk y hy)) (hRk x hx))⟩
        · refine ⟨?_, (hbR y hy).2⟩
          intro l hl
          exact le_of_lt (lt_of_lt_of_le (hbltN l hl k rfl) (hRk y hy))
      · exact bLt_of_mem hlox (hbR x hx).2
      · simp only [List.length_append]
        omega
      · simp only [List.length_append]
        omega
    · rw [ents_leaf e1, ents_leaf hR, ents_leaf hN]
      simp only
      rw [List.zip_append hlenN]

end

section
variable {K V : Type} [LinearOrder K]

theorem ents_map_agree_lt {m : Nat} {h h' : Heap K V} {d n : Nat} {cs : List Nat}
    (hr : ∀ c ∈ cs, ∃ lo hi, Rep m h d c lo hi) (hlt : ∀ c ∈ cs, c < n) (ag : Agree n h h') :
    cs.map (ents h' d) = cs.map (ents h d) := by
  apply List.map_congr_left
  intro c hc
  obtain ⟨lo, hi, r⟩ := hr c hc
  exact r.ents_agree (ag.mono (hlt c hc))

theorem Kid.mk_node {m : Nat} {h : Heap K V} {d a : Nat} {lo hi : Option K}
    {n : interiorNodeS K} (hn : readNode h a = some n) (hcap : n.cap = m)
    (hlen : n.vals.length = n.keys.length + 1) (hnd : n.vals.Nodup)
    (hlt : ∀ c ∈ n.vals, c < a) (hk : Kids (Kid m h d) lo hi n.keys n.vals)
    (h1 : (m + 1) / 2 ≤ n.vals.length) (h2 : n.vals.length ≤ m) : Kid m h (d + 1) a lo hi := by
  refine ⟨Rep_kids.2 ⟨n, hn, hcap, hlen, hnd, hlt, hk⟩, ?_⟩
  simp only [Full, nodeSize_of_node hn, minSize, maxSize, if_false, Nat.succ_ne_zero]
  exact ⟨h1, h2⟩

theorem Kid.node_size {m : Nat} {h : Heap K V} {d a : Nat} {lo hi : Option K}
    {n : interiorNodeS K} (k : Kid m h (d + 1) a lo hi) (hn : readNode h a = some n) :
    (m + 1) / 2 ≤ n.vals.length ∧ n.vals.length ≤ m := by
  have := k.2
  simpa only [Full, nodeSize_of_node hn, minSize, maxSize, if_false, Nat.succ_ne_zero] using this

/-- The first entry below a node is the first entry below its first child. -/
theorem ents_first_child {h : Heap K V} {d a c : Nat} {n : interiorNodeS K} {e : K × V}
    {rest : List (K × V)} (hn : readNode h a = some n) (h0 : n.vals[0]? = some c)
    (hne : ents h d c ≠ []) (he : ents h (d + 1) a = e :: rest) :
    ∃ rest', ents h d c = e :: rest' := by
  rw [ents_node hn] at he
  obtain ⟨x, tl, hv⟩ := exists_cons (l := n.vals) (List.getElem?_eq_some.1 h0).1
  rw [hv] at h0 he
  simp only [List.getElem?_cons_zero, Option.some.injEq] at h0
  subst h0
  obtain ⟨e', r', hc⟩ := exists_cons (l := ents h d x) (List.length_pos.2 hne)
  rw [List.map_cons, List.flatten_cons, hc, List.cons_append] at he
  rw [hc]
  refine ⟨r', ?_⟩
  rw [(List.cons.inj he).1]

theorem ents_cons_of_first {h : Heap K V} {d a c : Nat} {n : interiorNodeS K} {e : K × V}
    {rest : List (K × V)} (hn : readNode h a = some n) (h0 : n.vals[0]? = some c)
    (he : ents h d c = e :: rest) : ∃ rest', ents h (d + 1) a = e :: rest' := by
  rw [ents_node hn]
  obtain ⟨x, tl, hv⟩ := exists_cons (l := n.vals) (List.getElem?_eq_some.1 h0).1
  rw [hv] at h0
  simp only [List.getElem?_cons_zero, Option.some.injEq] at h0
  subst h0
  rw [hv, List.map_cons, List.flatten_cons, he, List.cons_append]
  exact ⟨_, rfl⟩

/-- The lower bound of a node may be raised to its first key. -/
theorem Kid.rebound_first {m : Nat} (hm : 2 ≤ m) {h : Heap K V} {d c : Nat} {lo hi : Option K}
    {S : K} {v : V} {rest : List (K × V)} (k : Kid m h d c lo hi)
    (he : ents h d c = (S, v) :: rest) : Kid m h d c (some S) hi := by
  refine k.rebound_kid hm ?_
  intro e hmem
  refine ⟨geLo_some.2 ?_, (k.1.props.2.1 e hmem).2⟩
  have hs := k.1.props.2.2
  rw [he] at hs hmem
  rw [List.mem_cons] at hmem
  rcases hmem with rfl | hmem
  · exact le_refl _
  · exact le_of_lt (hs.head_lt e hmem)

theorem Kid.raise_hi {m : Nat} (hm : 2 ≤ m) {h : Heap K V} {d c : Nat} {lo : Option K}
    {x y : K} (k : Kid m h d c lo (some x)) (hxy : x ≤ y) : Kid m h d c lo (some y) := by
  refine k.rebound_kid hm ?_
  intro e hmem
  have := k.1.props.2.1 e hmem
  exact ⟨this.1, ltHi_some.2 (lt_of_lt_of_le (ltHi_some.1 this.2) hxy)⟩

theorem Kid.lower_lo {m : Nat} (hm : 2 ≤ m) {h : Heap K V} {d c : Nat} {hi : Option K}
    {x y : K} (k : Kid m h d c (some x) hi) (hxy : y ≤ x) : Kid m h d c (some y) hi := by
  refine k.rebound_kid hm ?_
  intro e hmem
  have := k.1.props.2.1 e hmem
  exact ⟨geLo_some.2 (le_trans hxy (geLo_some.1 this.1)), this.2⟩

theorem Kids.raise_hi_all {m : Nat} (hm : 2 ≤ m) {h : Heap K V} {d : Nat} {lo : Option K}
    {x y : K} {keys : List K} {vals : List Nat}
    (H : Kids (Kid m h d) lo (some x) keys vals) (hlen : vals.length = keys.length + 1)
    (hxy : x ≤ y) : Kids (Kid m h d) lo (some y) keys vals := by
  refine H.rebound_hi ?_ hlen
  intro c hc
  have := H keys.length c hc
  rw [hiAt_ge _ _ (Nat.le_refl _)] at this
  exact this.raise_hi hm hxy

theorem Kids.first_lo {m : Nat} (hm : 2 ≤ m) {h : Heap K V} {d c : Nat} {lo hi : Option K}
    {S : K} {v : V} {rest : List (K × V)} {keys : List K} {vals : List Nat}
    (H : Kids (Kid m h d) lo hi keys vals) (h0 : vals[0]? = some c)
    (he : ents h d c = (S, v) :: rest) : Kids (Kid m h d) (some S) hi keys vals := by
  refine H.rebound_lo ?_
  intro c' hc'
  rw [h0] at hc'
  cases hc'
  have := H 0 c h0
  rw [loAt_zero] at this
  exact this.rebound_first hm he

/-- The children of a node, with the first key below the node as their lower bound. -/
theorem Rep.kids_first {m : Nat} (hm : 2 ≤ m) {h : Heap K V} {d a : Nat} {lo hi : Option K}
    {n : interiorNodeS K} {S : K} {v : V} {rest : List (K × V)}
    (r : Rep m h (d + 1) a lo hi) (hn : readNode h a = some n)
    (he : ents h (d + 1) a = (S, v) :: rest) :
    Kids (Kid m h d) (some S) hi n.keys n.vals := by
  obtain ⟨n', hn', hcap, hlen, hnd, hltc, hch⟩ := Rep_kids.1 r
  rw [hn] at hn'
  cases hn'
  have h0 : 0 < n.vals.length := by omega
  have hc := hch 0 _ (List.getElem?_eq_getElem h0)
  obtain ⟨rest', hr⟩ := ents_first_child hn (List.getElem?_eq_getElem h0) (hc.ents_ne_nil hm) he
  exact hch.first_lo hm (List.getElem?_eq_getElem h0) hr

/-- The first key below a node is not below the lower bound of the node. -/
theorem Rep.first_ge {m : Nat} {h : Heap K V} {d a : Nat} {hi : Option K} {k S : K} {v : V}
    {rest : List (K × V)} (r : Rep m h d a (some k) hi) (he : ents h d a = (S, v) :: rest) :
    k ≤ S :=
  geLo_some.1 (r.props.2.1 (S, v) (by rw [he]; simp)).1

/-- The children of two neighbours are distinct. -/
theorem kids_disjoint {m : Nat} (hm : 2 ≤ m) {h : Heap K V} {d a b : Nat} {lo hi : Option K}
    {k : K} {na nb : interiorNodeS K} (ra : Rep m h (d + 1) a lo (some k))
    (ha : readNode h a = some na) (rb : Rep m h (d + 1) b (some k) hi)
    (hb : readNode h b = some nb) {c : Nat} (hca : c ∈ na.vals) (hcb : c ∈ nb.vals) : False := by
  obtain ⟨n', hn', _, _, _, _, hch⟩ := Rep_kids.1 ra
  rw [ha] at hn'
  cases hn'
  obtain ⟨j, hj⟩ := List.getElem?_of_mem hca
  exact (hch j c hj).disjoint hm (x := k)
    (fun e he => ltHi_some.1 (ra.child_bounds ha hca e he).2)
    (fun e he => geLo_some.1 (rb.child_bounds hb hcb e he).1)

end

section
variable {K V : Type} [LinearOrder K]

theorem Kids.rep_of_mem {m : Nat} {h : Heap K V} {d : Nat} {lo hi : Option K} {keys : List K}
    {vals : List Nat} (H : Kids (Kid m h d) lo hi keys vals) {c : Nat} (hc : c ∈ vals) :
    ∃ lo' hi', Rep m h d c lo' hi' := by
  obtain ⟨j, hj⟩ := List.getElem?_of_mem hc
  exact ⟨_, _, (H j c hj).1⟩

theorem Kids.single {P : Nat → Option K → Option K → Prop} {lo hi : Option K} {c : Nat}
    (hc : P c lo hi) : Kids P lo hi [] [c] := by
  intro j c' hj
  cases j with
  | zero =>
    simp only [List.getElem?_cons_zero, Option.some.injEq] at hj
    subst hj
    have e : hiAt hi ([] : List K) 0 = hi := hiAt_ge hi [] (Nat.le_refl _)
    rw [loAt_zero, e]
    exact hc
  | succ j => simp at hj

/-- The method `stealLeft` of an interior node, on the too small new node `N` and
the fresh copy of its left peer. -/
theorem node_stealLeft_spec {m : Nat} (hm : 3 ≤ m) {h : Heap K V} {d oldL N : Nat}
    {lo hi : Option K} {k : K} {L Nn : interiorNodeS K}
    (kL : Kid m h (d + 1) oldL lo (some k)) (hL : readNode h oldL = some L)
    (sL : (m + 1) / 2 < L.vals.length)
    (rN : Rep m h (d + 1) N (some k) hi) (hN : readNode h N = some Nn)
    (sN : Nn.vals.length + 1 = (m + 1) / 2) (hlt : oldL < N) :
    ∃ h2 S, interiorNodeS.stealLeft (h ++ [Cell.node L]) N h.length = some h2 ∧
      h2.length = h.length + 1 ∧ Agree N h h2 ∧
      StealRes m h2 (d + 1) h.length N lo hi (ents h (d + 1) oldL ++ ents h (d + 1) N) S := by
  have hm2 : 2 ≤ m := by omega
  obtain ⟨l1, hl1, hcapL, hlenL, hndL, hltL, KL⟩ := Rep_kids.1 kL.1
  rw [hL] at hl1
  cases hl1
  obtain ⟨l2, hl2, hcapN, hlenN, hndN, hltN, KN⟩ := Rep_kids.1 rN
  rw [hN] at hl2
  cases hl2
  have hszL := kL.node_size hL
  have hNlt : N < h.length := readNode_lt hN
  obtain ⟨cap, keys, vals⟩ := L
  simp only at hcapL hlenL hndL hltL KL sL hszL
  obtain ⟨VA, st, rfl⟩ := exists_concat (l := vals) (by omega)
  obtain ⟨KA, kl, rfl⟩ := exists_concat (l := keys) (by
    simp only [List.length_append, List.length_singleton] at hlenL sL; omega)
  have hVA : VA.length = KA.length + 1 := by simpa using hlenL
  have ag1 : Agree h.length h (h ++ [Cell.node ⟨cap, KA, VA⟩]) := Agree.append _ _ (Nat.le_refl _)
  have rN1 := rN.agree (ag1.mono hNlt)
  obtain ⟨lk, v, rest, hentsN1, hfk, _⟩ := findLeftMostKey_spec hm2 rN1 (rN1.node_ents_ne_nil hm2)
  have hentsN : ents h (d + 1) N = (lk, v) :: rest := by
    rw [← rN.ents_agree (ag1.mono hNlt)]; exact hentsN1
  have hstmem : st ∈ VA ++ [st] := by simp
  have stK : Kid m h d st (some kl) (some k) := by
    have := KL (KA.length + 1) st (getElem?_mid st [] hVA)
    rwa [loAt_ins_succ, hiAt_ge _ _ (by simp)] at this
  obtain ⟨S, v', rest', hst, _, _⟩ := findLeftMostKey_spec hm2 stK.1 (stK.ents_ne_nil hm2)
  have klS : kl ≤ S := stK.1.first_ge hst
  have klk : k ≤ lk := rN.first_ge hentsN
  have r1 : readNode (h ++ [Cell.node ⟨cap, KA, VA⟩]) N = some Nn := by
    rw [ag1.readNode hNlt]; exact hN
  refine ⟨(h ++ [Cell.node ⟨cap, KA, VA⟩]).set N
    (Cell.node ⟨Nn.cap, lk :: Nn.keys, st :: Nn.vals⟩), S, ?_, ?_, ?_, ?_⟩
  · unfold interiorNodeS.stealLeft
    rw [readNode_append_self]
    simp only [List.length_append, List.length_singleton, Nat.add_sub_cancel,
      getElem?_mid st [] rfl, take_mid _ rfl, set_append_self, hfk, r1,
      Nat.le_add_left, if_true]
    rw [if_pos ⟨by omega, by omega⟩]
  · simp
  · exact (Agree.append h _ (Nat.le_of_lt hNlt)).trans (Agree.set _ _ (Nat.le_refl _))
  · have ag2 : Agree N h ((h ++ [Cell.node ⟨cap, KA, VA⟩]).set N
        (Cell.node ⟨Nn.cap, lk :: Nn.keys, st :: Nn.vals⟩)) :=
      (Agree.append h _ (Nat.le_of_lt hNlt)).trans (Agree.set _ _ (Nat.le_refl _))
    have e1 : readNode ((h ++ [Cell.node ⟨cap, KA, VA⟩]).set N
        (Cell.node ⟨Nn.cap, lk :: Nn.keys, st :: Nn.vals⟩)) h.length = some ⟨cap, KA, VA⟩ := by
      rw [readNode_set_ne (by omega), readNode_append_self]
    have e2 : readNode ((h ++ [Cell.node ⟨cap, KA, VA⟩]).set N
        (Cell.node ⟨Nn.cap, lk :: Nn.keys, st :: Nn.vals⟩)) N =
        some ⟨Nn.cap, lk :: Nn.keys, st :: Nn.vals⟩ :=
      readNode_set_self (by simp; omega) _
    have hltVA : ∀ c ∈ VA, c < N := fun c hc => by
      have := hltL c (by simp [hc]); omega
    have hltN' : ∀ c ∈ st :: Nn.vals, c < N := by
      intro c hc
      rw [List.mem_cons] at hc
      rcases hc with rfl | hc
      · have := hltL c hstmem; omega
      · exact hltN c hc
    have KL' : Kids (Kid m h d) lo (some S) KA VA := (KL.left hVA).raise_hi_all hm2 hVA klS
    have KN' : Kids (Kid m h d) (some S) hi (lk :: Nn.keys) (st :: Nn.vals) :=
      @Kids.join _ _ _ _ [] _ [st] _ _
        (Kids.single ((stK.rebound_first hm2 hst).raise_hi hm2 klk))
        (rN.kids_first hm2 hN hentsN) rfl
    rw [List.nodup_append] at hndL
    have hstents : ents ((h ++ [Cell.node ⟨cap, KA, VA⟩]).set N
        (Cell.node ⟨Nn.cap, lk :: Nn.keys, st :: Nn.vals⟩)) d st = (S, v') :: rest' := by
      rw [stK.1.ents_agree (ag2.mono (hltN' st (by simp)))]; exact hst
    refine ⟨?_, ?_, ?_, ?_⟩
    · refine Kid.mk_node e1 hcapL hVA hndL.1 (fun c hc => by have := hltVA c hc; omega)
        (KL'.agree_kids hltVA ag2) ?_ ?_
      · simp only [List.length_append, List.length_singleton] at sL
        simp only
        omega
      · simp only [List.length_append, List.length_singleton] at hszL
        simp only
        omega
    · refine Kid.mk_node e2 hcapN (by simp [hlenN]) ?_ hltN' (KN'.agree_kids hltN' ag2) ?_ ?_
      · exact List.nodup_cons.2
          ⟨fun hmem => kids_disjoint hm2 kL.1 hL rN hN hstmem hmem, hndN⟩
      · simp only [List.length_cons]
        omega
      · simp only [List.length_cons]
        omega
    · rw [ents_node e1, ents_node e2, ents_node hL, ents_node hN]
      simp only
      rw [ents_map_agree_lt (fun c hc => KL'.rep_of_mem hc) hltVA ag2,
        ents_map_agree_lt (fun c hc => KN'.rep_of_mem hc) hltN' ag2]
      simp
    · obtain ⟨r, hr⟩ := ents_cons_of_first e2 (by simp) hstents
      exact ⟨v', r, hr⟩

/-- The method `stealRight` of an interior node, on the too small new node `N` and
the fresh copy of its right peer. -/
theorem node_stealRight_spec {m : Nat} (hm : 3 ≤ m) {h : Heap K V} {d oldR N : Nat}
    {lo hi : Option K} {k : K} {R Nn : interiorNodeS K}
    (kR : Kid m h (d + 1) oldR (some k) hi) (hR : readNode h oldR = some R)
    (sR : (m + 1) / 2 < R.vals.length)
    (rN : Rep m h (d + 1) N lo (some k)) (hN : readNode h N = some Nn)
    (sN : Nn.vals.length + 1 = (m + 1) / 2) (hlt : oldR < N) :
    ∃ h2 S, interiorNodeS.stealRight (h ++ [Cell.node R]) N h.length = some h2 ∧
      h2.length = h.length + 1 ∧ Agree N h h2 ∧
      StealRes m h2 (d + 1) N h.length lo hi (ents h (d + 1) N ++ ents h (d + 1) oldR) S := by
  have hm2 : 2 ≤ m := by omega
  obtain ⟨l1, hl1, hcapR, hlenR, hndR, hltR, KR⟩ := Rep_kids.1 kR.1
  rw [hR] at hl1
  cases hl1
  obtain ⟨l2, hl2, hcapN, hlenN, hndN, hltN, KN⟩ := Rep_kids.1 rN
  rw [hN] at hl2
  cases hl2
  have hszR := kR.node_size hR
  have hNlt : N < h.length := readNode_lt hN
  obtain ⟨cap, keys, vals⟩ := R
  simp only at hcapR hlenR hndR hltR KR sR hszR
  obtain ⟨st, VB, rfl⟩ := exists_cons (l := vals) (by omega)
  obtain ⟨k0, KB, rfl⟩ := exists_cons (l := keys) (by
    simp only [List.length_cons] at hlenR sR; omega)
  have hVB : VB.length = KB.length + 1 := by simpa using hlenR
  obtain ⟨c1, VB', rfl⟩ := exists_cons (l := VB) (by omega)
  have ag1 : Agree h.length h (h ++ [Cell.node ⟨cap, KB, c1 :: VB'⟩]) :=
    Agree.append _ _ (Nat.le_refl _)
  have hstmem : st ∈ st :: c1 :: VB' := by simp
  have hstlt : st < N := by have := hltR st hstmem; omega
  have stK : Kid m h d st (some k) (some k0) := by
    have := KR 0 st (by simp)
    have e : hiAt hi (k0 :: KB) 0 = some k0 := by
      rw [hiAt_lt hi (k0 :: KB) (Nat.succ_pos _)]
      rfl
    rwa [loAt_zero, e] at this
  have stK1 := stK.agree_kid (ag1.mono (by omega : st + 1 ≤ h.length))
  obtain ⟨lk, v, rest, hst1, _, hfk⟩ := findLeftMostKey_spec hm2 stK1.1 (stK1.ents_ne_nil hm2)
  have hst : ents h d st = (lk, v) :: rest := by
    rw [← stK.1.ents_agree (ag1.mono (by omega : st + 1 ≤ h.length))]; exact hst1
  have c1K : Kid m h d c1 (some k0) (hiAt hi (k0 :: KB) 1) := by
    have := KR 1 c1 (by simp)
    rwa [loAt_succ, List.getElem?_cons_zero] at this
  obtain ⟨S, v', rest', hc1, _, _⟩ := findLeftMostKey_spec hm2 c1K.1 (c1K.ents_ne_nil hm2)
  have k0S : k0 ≤ S := c1K.1.first_ge hc1
  have klk : k ≤ lk := stK.1.first_ge hst
  have r1 : readNode (h ++ [Cell.node ⟨cap, KB, c1 :: VB'⟩]) N = some Nn := by
    rw [ag1.readNode hNlt]; exact hN
  refine ⟨(h ++ [Cell.node ⟨cap, KB, c1 :: VB'⟩]).set N
    (Cell.node ⟨Nn.cap, Nn.keys ++ [lk], Nn.vals ++ [st]⟩), S, ?_, ?_, ?_, ?_⟩
  · unfold interiorNodeS.stealRight
    rw [readNode_append_self]
    simp only [List.getElem?_cons_zero, List.length_cons, List.drop_succ_cons, List.drop_zero,
      set_append_self, hfk, r1, Nat.le_add_left, if_true]
    rw [if_pos ⟨by omega, by omega⟩]
  · simp
  · exact (Agree.append h _ (Nat.le_of_lt hNlt)).trans (Agree.set _ _ (Nat.le_refl _))
  · have ag2 : Agree N h ((h ++ [Cell.node ⟨cap, KB, c1 :: VB'⟩]).set N
        (Cell.node ⟨Nn.cap, Nn.keys ++ [lk], Nn.vals ++ [st]⟩)) :=
      (Agree.append h _ (Nat.le_of_lt hNlt)).trans (Agree.set _ _ (Nat.le_refl _))
    have e1 : readNode ((h ++ [Cell.node ⟨cap, KB, c1 :: VB'⟩]).set N
        (Cell.node ⟨Nn.cap, Nn.keys ++ [lk], Nn.vals ++ [st]⟩)) h.length =
        some ⟨cap, KB, c1 :: VB'⟩ := by
      rw [readNode_set_ne (by omega), readNode_append_self]
    have e2 : readNode ((h ++ [Cell.node ⟨cap, KB, c1 :: VB'⟩]).set N
        (Cell.node ⟨Nn.cap, Nn.keys ++ [lk], Nn.vals ++ [st]⟩)) N =
        some ⟨Nn.cap, Nn.keys ++ [lk], Nn.vals ++ [st]⟩ :=
      readNode_set_self (by simp; omega) _
    have hltVB : ∀ c ∈ c1 :: VB', c < N := fun c hc => by
      have := hltR c (List.mem_cons_of_mem _ hc); omega
    have hltN' : ∀ c ∈ Nn.vals ++ [st], c < N := by
      intro c hc
      simp only [List.mem_append, List.mem_singleton] at hc
      rcases hc with hc | rfl
      · exact hltN c hc
      · exact hstlt
    have KR' : Kids (Kid m h d) (some S) hi KB (c1 :: VB') :=
      (@Kids.right _ _ _ _ [] _ [st] _ _ KR rfl).first_lo hm2 (by simp) hc1
    have KN' : Kids (Kid m h d) lo (some S) (Nn.keys ++ [lk]) (Nn.vals ++ [st]) :=
      Kids.join (KN.raise_hi_all hm2 hlenN klk)
        (Kids.single ((stK.rebound_first hm2 hst).raise_hi hm2 k0S)) hlenN
    rw [List.nodup_cons] at hndR
    have hc1ents : ents ((h ++ [Cell.node ⟨cap, KB, c1 :: VB'⟩]).set N
        (Cell.node ⟨Nn.cap, Nn.keys ++ [lk], Nn.vals ++ [st]⟩)) d c1 = (S, v') :: rest' := by
      rw [c1K.1.ents_agree (ag2.mono (hltVB c1 (by simp)))]; exact hc1
    refine ⟨?_, ?_, ?_, ?_⟩
    · refine Kid.mk_node e2 hcapN (by simp [hlenN]) ?_ hltN' (KN'.agree_kids hltN' ag2) ?_ ?_
      · rw [List.nodup_append]
        refine ⟨hndN, by simp, ?_⟩
        intro c hc1' hc2
        simp only [List.mem_singleton] at hc2
        subst hc2
        exact kids_disjoint hm2 rN hN kR.1 hR hc1' hstmem
      · simp only [List.length_append, List.length_singleton]
        omega
      · simp only [List.length_append, List.length_singleton]
        omega
    · refine Kid.mk_node e1 hcapR hVB hndR.2 (fun c hc => by have := hltVB c hc; omega)
        (KR'.agree_kids hltVB ag2) ?_ ?_
      · simp only [List.length_cons] at sR ⊢
        omega
      · simp only [List.length_cons] at hszR ⊢
        omega
    · rw [ents_node e1, ents_node e2, ents_node hR, ents_node hN]
      simp only
      rw [ents_map_agree_lt (fun c hc => KR'.rep_of_mem hc) hltVB ag2,
        ents_map_agree_lt (fun c hc => KN'.rep_of_mem hc) hltN' ag2]
      simp
    · obtain ⟨r, hr⟩ := ents_cons_of_first e1 (by simp) hc1ents
      exact ⟨v', r, hr⟩

/-- The method `mergeRight` of an interior node, on the fresh copy of the left peer
and the too small new node `N`. -/
theorem node_mergeLeft_spec {m : Nat} (hm : 3 ≤ m) {h : Heap K V} {d oldL N : Nat}
    {lo hi : Option K} {k : K} {L Nn : interiorNodeS K}
    (kL : Kid m h (d + 1) oldL lo (some k)) (hL : readNode h oldL = some L)
    (sL : L.vals.length ≤ (m + 1) / 2)
    (rN : Rep m h (d + 1) N (some k) hi) (hN : readNode h N = some Nn)
    (sN : Nn.vals.length + 1 = (m + 1) / 2) (hlt : oldL < N) :
    ∃ h2, interiorNodeS.mergeRight (h ++ [Cell.node L]) h.length N = some h2 ∧
      h2.length = h.length + 1 ∧ Agree h.length h h2 ∧
      Kid m h2 (d + 1) h.length lo hi ∧
      ents h2 (d + 1) h.length = ents h (d + 1) oldL ++ ents h (d + 1) N := by
  have hm2 : 2 ≤ m := by omega
  obtain ⟨l1, hl1, hcapL, hlenL, hndL, hltL, KL⟩ := Rep_kids.1 kL.1
  rw [hL] at hl1
  cases hl1
  obtain ⟨l2, hl2, hcapN, hlenN, hndN, hltN, KN⟩ := Rep_kids.1 rN
  rw [hN] at hl2
  cases hl2
  have hszL := kL.node_size hL
  have hNlt : N < h.length := readNode_lt hN
  have ag1 : Agree h.length h (h ++ [Cell.node L]) := Agree.append _ _ (Nat.le_refl _)
  have rN1 := rN.agree (ag1.mono hNlt)
  obtain ⟨lk, v, rest, hentsN1, hfk, _⟩ := findLeftMostKey_spec hm2 rN1 (rN1.node_ents_ne_nil hm2)
  have hentsN : ents h (d + 1) N = (lk, v) :: rest := by
    rw [← rN.ents_agree (ag1.mono hNlt)]; exact hentsN1
  have klk : k ≤ lk := rN.first_ge hentsN
  have r1 : readNode (h ++ [Cell.node L]) N = some Nn := by
    rw [ag1.readNode hNlt]; exact hN
  refine ⟨(h ++ [Cell.node L]).set h.length
    (Cell.node ⟨L.cap, L.keys ++ lk :: Nn.keys, L.vals ++ Nn.vals⟩), ?_, ?_, ?_, ?_⟩
  · unfold interiorNodeS.mergeRight
    rw [hfk, readNode_append_self, r1]
    simp only
    rw [if_pos ⟨by omega, by omega⟩]
  · simp
  · exact ag1.trans (Agree.set _ _ (Nat.le_refl _))
  · have ag2 : Agree h.length h ((h ++ [Cell.node L]).set h.length
        (Cell.node ⟨L.cap, L.keys ++ lk :: Nn.keys, L.vals ++ Nn.vals⟩)) :=
      ag1.trans (Agree.set _ _ (Nat.le_refl _))
    have e1 : readNode ((h ++ [Cell.node L]).set h.length
        (Cell.node ⟨L.cap, L.keys ++ lk :: Nn.keys, L.vals ++ Nn.vals⟩)) h.length =
        some ⟨L.cap, L.keys ++ lk :: Nn.keys, L.vals ++ Nn.vals⟩ := by
      rw [set_append_self, readNode_append_self]
    have hltA : ∀ c ∈ L.vals ++ Nn.vals, c < h.length := by
      intro c hc
      rw [List.mem_append] at hc
      rcases hc with hc | hc
      · have := hltL c hc; omega
      · have := hltN c hc; omega
    have KM : Kids (Kid m h d) lo hi (L.keys ++ lk :: Nn.keys) (L.vals ++ Nn.vals) :=
      Kids.join (KL.raise_hi_all hm2 hlenL klk) (rN.kids_first hm2 hN hentsN) hlenL
    refine ⟨?_, ?_⟩
    · refine Kid.mk_node e1 hcapL (by simp [hlenL, hlenN]; omega) ?_ hltA (KM.agree_kids hltA ag2)
        ?_ ?_
      · rw [List.nodup_append]
        exact ⟨hndL, hndN, fun c hc1 hc2 => kids_disjoint hm2 kL.1 hL rN hN hc1 hc2⟩
      · simp only [List.length_append]
        omega
      · simp only [List.length_append]
        omega
    · rw [ents_node e1, ents_node hL, ents_node hN]
      simp only
      rw [ents_map_agree_lt (fun c hc => KM.rep_of_mem hc) hltA ag2]
      simp

/-- The method `mergeRight` of an interior node, on the too small new node `N` and
its right peer. -/
theorem node_mergeRight_spec {m : Nat} (hm : 3 ≤ m) {h : Heap K V} {d oldR N : Nat}
    {lo hi : Option K} {k : K} {R Nn : interiorNodeS K}
    (kR : Kid m h (d + 1) oldR (some k) hi) (hR : readNode h oldR = some R)
    (sR : R.vals.length ≤ (m + 1) / 2)
    (rN : Rep m h (d + 1) N lo (some k)) (hN : readNode h N = some Nn)
    (sN : Nn.vals.length + 1 = (m + 1) / 2) (hlt : oldR < N) :
    ∃ h2, interiorNodeS.mergeRight h N oldR = some h2 ∧
      h2.length = h.length ∧ Agree N h h2 ∧
      Kid m h2 (d + 1) N lo hi ∧
      ents h2 (d + 1) N = ents h (d + 1) N ++ ents h (d + 1) oldR := by
  have hm2 : 2 ≤ m := by omega
  obtain ⟨l1, hl1, hcapR, hlenR, hndR, hltR, KR⟩ := Rep_kids.1 kR.1
  rw [hR] at hl1
  cases hl1
  obtain ⟨l2, hl2, hcapN, hlenN, hndN, hltN, KN⟩ := Rep_kids.1 rN
  rw [hN] at hl2
  cases hl2
  have hszR := kR.node_size hR
  have hNlt : N < h.length := readNode_lt hN
  obtain ⟨lk, v, rest, hentsR, hfk, _⟩ := findLeftMostKey_spec hm2 kR.1 (kR.1.node_ents_ne_nil hm2)
  have klk : k ≤ lk := kR.1.first_ge hentsR
  refine ⟨h.set N (Cell.node ⟨Nn.cap, Nn.keys ++ lk :: R.keys, Nn.vals ++ R.vals⟩),
    ?_, ?_, ?_, ?_⟩
  · unfold interiorNodeS.mergeRight
    rw [hfk, hN, hR]
    simp only
    rw [if_pos ⟨by omega, by omega⟩]
  · simp
  · exact Agree.set _ _ (Nat.le_refl _)
  · have ag2 : Agree N h (h.set N
        (Cell.node ⟨Nn.cap, Nn.keys ++ lk :: R.keys, Nn.vals ++ R.vals⟩)) :=
      Agree.set _ _ (Nat.le_refl _)
    have e1 : readNode (h.set N
        (Cell.node ⟨Nn.cap, Nn.keys ++ lk :: R.keys, Nn.vals ++ R.vals⟩)) N =
        some ⟨Nn.cap, Nn.keys ++ lk :: R.keys, Nn.vals ++ R.vals⟩ := readNode_set_self hNlt _
    have hltA : ∀ c ∈ Nn.vals ++ R.vals, c < N := by
      intro c hc
      rw [List.mem_append] at hc
      rcases hc with hc | hc
      · exact hltN c hc
      · have := hltR c hc; omega
    have KM : Kids (Kid m h d) lo hi (Nn.keys ++ lk :: R.keys) (Nn.vals ++ R.vals) :=
      Kids.join (KN.raise_hi_all hm2 hlenN klk) (kR.1.kids_first hm2 hR hentsR) hlenN
    refine ⟨?_, ?_⟩
    · refine Kid.mk_node e1 hcapN (by simp [hlenR, hlenN]; omega) ?_ hltA (KM.agree_kids hltA ag2)
        ?_ ?_
      · rw [List.nodup_append]
        exact ⟨hndN, hndR, fun c hc1 hc2 => kids_disjoint hm2 rN hN kR.1 hR hc1 hc2⟩
      · simp only [List.length_append]
        omega
      · simp only [List.length_append]
        omega
    · rw [ents_node e1, ents_node hR, ents_node hN]
      simp only
      rw [ents_map_agree_lt (fun c hc => KM.rep_of_mem hc) hltA ag2]
      simp

end

section
variable {K V : Type} [LinearOrder K]

/-! ## List facts for the rebuild of a parent -/

theorem set_eq_mid {α : Type} {l : List α} {i : Nat} (hi : i < l.length) (a : α) :
    l.set i a = l.take i ++ a :: l.drop (i + 1) := by
  obtain ⟨A, x, B, rfl, hA, _⟩ := split_at_idx hi
  rw [set_mid x a B hA, take_mid _ hA, drop_mid_succ _ _ hA]

theorem set_set_two {α : Type} {l : List α} {i : Nat} {c1 c2 : α} (h1 : l[i]? = some c1)
    (h2 : l[i + 1]? = some c2) (a b : α) :
    (l.set i a).set (i + 1) b = l.take i ++ a :: b :: l.drop (i + 2) := by
  have hl := split_two h1 h2
  have hA : (l.take i).length = i := by
    rw [List.length_take]; have := (List.getElem?_eq_some.1 h1).1; omega
  generalize l.take i = A at hl hA
  generalize l.drop (i + 2) = B at hl
  subst hl
  rw [set_mid c1 a _ hA]
  have e : A ++ a :: c2 :: B = (A ++ [a]) ++ c2 :: B := by simp
  rw [e, set_mid c2 b B (by simp [hA])]
  simp

theorem set_set_two_rev {α : Type} {l : List α} {i : Nat} {c1 c2 : α} (h1 : l[i]? = some c1)
    (h2 : l[i + 1]? = some c2) (a b : α) :
    (l.set (i + 1) b).set i a = l.take i ++ a :: b :: l.drop (i + 2) := by
  have hl := split_two h1 h2
  have hA : (l.take i).length = i := by
    rw [List.length_take]; have := (List.getElem?_eq_some.1 h1).1; omega
  generalize l.take i = A at hl hA
  generalize l.drop (i + 2) = B at hl
  subst hl
  have e : A ++ c1 :: c2 :: B = (A ++ [c1]) ++ c2 :: B := by simp
  rw [e, set_mid c2 b B (by simp [hA])]
  have e2 : (A ++ [c1]) ++ b :: B = A ++ c1 :: b :: B := by simp
  rw [e2, set_mid c1 a _ hA]

theorem flat_take_succ {α β : Type} (f : α → List β) {l : List α} {i : Nat} {c : α}
    (hc : l[i]? = some c) :
    ((l.take (i + 1)).map f).flatten = ((l.take i).map f).flatten ++ f c := by
  obtain ⟨A, x, B, rfl, hA, hx⟩ := split_at_idx (List.getElem?_eq_some.1 hc).1
  rw [hc] at hx
  cases hx
  have e : A ++ c :: B = (A ++ [c]) ++ B := by simp
  rw [take_mid _ hA, e, take_mid _ (by simp [hA])]
  simp

theorem flat_drop_succ {α β : Type} (f : α → List β) {l : List α} {i : Nat} {c : α}
    (hc : l[i]? = some c) :
    ((l.drop i).map f).flatten = f c ++ ((l.drop (i + 1)).map f).flatten := by
  obtain ⟨A, x, B, rfl, hA, hx⟩ := split_at_idx (List.getElem?_eq_some.1 hc).1
  rw [hc] at hx
  cases hx
  rw [drop_mid _ hA, drop_mid_succ _ _ hA]
  simp

theorem findIdx?_of_first {α : Type} {l : List α} {p : α → Bool} {i : Nat} {x : α}
    (hx : l[i]? = some x) (hp : p x = true)
    (hlt : ∀ j y, j < i → l[j]? = some y → p y = false) : l.findIdx? p = some i := by
  obtain ⟨hi, rfl⟩ := List.getElem?_eq_some.1 hx
  rw [List.findIdx?_eq_some_iff_getElem]
  refine ⟨hi, hp, fun j hj => ?_⟩
  have := hlt j l[j] hj (List.getElem?_eq_getElem (by omega))
  simp [this]

/-- The method `swapKey` replaces the separator at the index where it is found. -/
theorem swapKey_spec {lo hi : Option K} {n : interiorNodeS K} {i : Nat} {k : K} (S : K)
    (sep : SepOK lo hi n.keys) (hk : n.keys[i]? = some k) :
    n.swapKey k S = some { n with keys := n.keys.take i ++ S :: n.keys.drop (i + 1) } := by
  have hi := (List.getElem?_eq_some.1 hk).1
  unfold interiorNodeS.swapKey
  rw [findIdx?_of_first hk (by simp)]
  · simp only [set_eq_mid hi]
  · intro j y hj hy
    obtain ⟨hjl, rfl⟩ := List.getElem?_eq_some.1 hy
    obtain ⟨_, rfl⟩ := List.getElem?_eq_some.1 hk
    have := sep.key_lt (i := j) (j := i) hj hi
    simp only [Equals_false_iff]
    exact ne_of_gt this

/-- The method `removeDeadAt` at the index after the merged child. -/
theorem removeDeadAt_spec {n : interiorNodeS K} {i : Nat} (merged : Nat)
    (hlen : n.vals.length = n.keys.length + 1) (hi : i + 1 < n.vals.length) :
    removeDeadAt { n with vals := n.vals.set i merged } (i + 1) =
      some { n with keys := n.keys.take i ++ n.keys.drop (i + 1),
                    vals := n.vals.take i ++ merged :: n.vals.drop (i + 2) } := by
  unfold removeDeadAt
  rw [if_neg (Nat.succ_ne_zero _), if_pos (by simp; omega)]
  simp only [Nat.add_sub_cancel, take_succ_set (by omega : i < n.vals.length)]
  rw [List.drop_set_of_lt _ _ (by omega : i < i + 1 + 1)]
  simp

/-- Above a node that has a parent, the root is an interior node at a greater
address. -/
theorem Ctx.root_node {m : Nat} {h : Heap K V} {root D : Nat} (rest : pathT) :
    ∀ {node d p : Nat} {lo hi : Option K} {pre post : List (K × V)},
      Ctx m h root D node d lo hi (p :: rest) pre post →
      node < root ∧ ∃ nr, readNode h root = some nr := by
  induction rest with
  | nil =>
    intro node d p lo hi pre post c
    obtain ⟨n, plo, phi, i, pre', post', hn, hi', _, _, rp, _, _, _, cp⟩ := c
    obtain ⟨rfl, _⟩ := cp
    obtain ⟨n', hn', _, _, _, hlt, _⟩ := Rep_kids.1 rp
    rw [hn] at hn'
    cases hn'
    exact ⟨hlt node (List.getElem?_mem hi'), n, hn⟩
  | cons q rest ih =>
    intro node d p lo hi pre post c
    obtain ⟨n, plo, phi, i, pre', post', hn, hi', _, _, rp, _, _, _, cp⟩ := c
    obtain ⟨n', hn', _, _, _, hlt, _⟩ := Rep_kids.1 rp
    rw [hn] at hn'
    cases hn'
    have := ih cp
    exact ⟨Nat.lt_trans (hlt node (List.getElem?_mem hi')) this.1, this.2⟩

/-- A new node that is not the root of its tree, for `isRoot`. -/
theorem isRoot_false {h : Heap K V} {t : tree} {node : Nat} {nr nn : interiorNodeS K}
    (hr : readNode h t.root = some nr) (hn : readNode h node = some nn)
    (hne : node < t.root) : t.isRoot h node = some false := by
  unfold tree.isRoot
  rw [readNode_eq_some.1 hr, readNode_eq_some.1 hn]
  simp only [Option.some.injEq, beq_eq_false_iff_ne, ne_eq]
  omega

theorem PosFull.under {m : Nat} {h h' : Heap K V} {d a a' : Nat} {rest : pathT}
    (f : PosFull m h (d + 1) a rest) (hs : nodeSize h' a' + 1 = nodeSize h a) :
    Under m h' (d + 1) a' rest := by
  unfold PosFull Full RootFull at f
  unfold Under
  split at f
  · rw [if_pos (by assumption)]
    rw [if_neg (Nat.succ_ne_zero _)] at f
    exact ⟨by omega, by omega⟩
  · rw [if_neg (by assumption)]
    exact ⟨by omega, by omega⟩

/-- The end of a steal: the copied parent gets the two new children and the new
separator, and the path above is copied. -/
theorem steal_finish {m : Nat} {h0 h2 : Heap K V} {t : tree} {D : Nat}
    (hD : t.depth = (D : Int)) {rest : pathT} {gp d i c1 c2 n1 n2 : Nat}
    {plo phi : Option K} {pre post es : List (K × V)} {n : interiorNodeS K} {S : K}
    (cp : Ctx m h0 t.root D gp (d + 1) plo phi rest pre post)
    (rp : Rep m h0 (d + 1) gp plo phi) (pfp : PosFull m h0 (d + 1) gp rest)
    (hn : readNode h0 gp = some n) (hi1 : n.vals[i]? = some c1)
    (hi2 : n.vals[i + 1]? = some c2)
    (ag : Agree h0.length h0 h2) (hl : h0.length ≤ h2.length)
    (hf1 : h0.length ≤ n1) (hf2 : h0.length ≤ n2) (hne : n1 ≠ n2)
    (sr : StealRes m h2 d n1 n2 (loAt plo n.keys i) (hiAt phi n.keys (i + 1)) es S) :
    UpRes m t h2 h2.length
      (t.copyUp (h2 ++ [Cell.node ⟨n.cap, n.keys.take i ++ S :: n.keys.drop (i + 1),
        n.vals.take i ++ n1 :: n2 :: n.vals.drop (i + 2)⟩]) gp h2.length rest)
      (pre ++ (((n.vals.take i).map (ents h0 d)).flatten ++ es ++
        ((n.vals.drop (i + 2)).map (ents h0 d)).flatten) ++ post) := by
  obtain ⟨k1, k2, hes, _⟩ := sr
  have l1 := k1.1.lt
  have l2 := k2.1.lt
  have agA : Agree h2.length h2
      (h2 ++ [Cell.node ⟨n.cap, n.keys.take i ++ S :: n.keys.drop (i + 1),
        n.vals.take i ++ n1 :: n2 :: n.vals.drop (i + 2)⟩]) := Agree.append _ _ (Nat.le_refl _)
  have ag6 := ag.trans (agA.mono hl)
  have hset := Rep.swap2_child rp hn hi1 hi2 ag6 (readNode_append_self h2 _) hf1 hf2 hne l1 l2
    (k1.agree_kid (agA.mono l1)) (k2.agree_kid (agA.mono l2))
  rw [k1.1.ents_agree (agA.mono l1), k2.1.ents_agree (agA.mono l2)] at hset
  obtain ⟨h', root', hcu, hext, hr, hrf, hents⟩ :=
    copyUp_spec rest cp rp ag6 hl hset.1 (pfp.of_size hset.2.2)
  refine ((UpRes.of_copyUp hD hcu hext hr hrf hents).weaken (by simp) agA (by simp)).congr rfl ?_
  rw [hset.2.1, ← hes]
  simp

/-- The end of a merge: the copied parent loses the dead child and the separator,
and `delUpFill` goes on one level up. -/
theorem merge_finish {m : Nat} {h0 h2 : Heap K V} {t : tree} {D : Nat}
    {rest : pathT} (IH : DelUp m h0 t D rest) {gp d i c1 c2 n1 : Nat}
    {plo phi : Option K} {pre post es : List (K × V)} {n : interiorNodeS K}
    (cp : Ctx m h0 t.root D gp (d + 1) plo phi rest pre post)
    (rp : Rep m h0 (d + 1) gp plo phi) (pfp : PosFull m h0 (d + 1) gp rest)
    (hn : readNode h0 gp = some n) (hi1 : n.vals[i]? = some c1)
    (hi2 : n.vals[i + 1]? = some c2)
    (ag : Agree h0.length h0 h2) (hl : h0.length ≤ h2.length)
    (hf1 : h0.length ≤ n1)
    (k1 : Kid m h2 d n1 (loAt plo n.keys i) (hiAt phi n.keys (i + 1)))
    (hes : ents h2 d n1 = es) :
    UpRes m t h2 h0.length
      (t.delUpFill (h2 ++ [Cell.node ⟨n.cap, n.keys.take i ++ n.keys.drop (i + 1),
        n.vals.take i ++ n1 :: n.vals.drop (i + 2)⟩]) gp h2.length rest)
      (pre ++ (((n.vals.take i).map (ents h0 d)).flatten ++ es ++
        ((n.vals.drop (i + 2)).map (ents h0 d)).flatten) ++ post) := by
  have l1 := k1.1.lt
  have agA : Agree h2.length h2
      (h2 ++ [Cell.node ⟨n.cap, n.keys.take i ++ n.keys.drop (i + 1),
        n.vals.take i ++ n1 :: n.vals.drop (i + 2)⟩]) := Agree.append _ _ (Nat.le_refl _)
  have ag6 := ag.trans (agA.mono hl)
  have hset := Rep.remove_child rp hn hi1 hi2 ag6 (readNode_append_self h2 _) hf1 l1
    (k1.agree_kid (agA.mono l1))
  rw [k1.1.ents_agree (agA.mono l1)] at hset
  have := IH cp rp ag6 hl hset.1 (pfp.under hset.2.2)
  refine (this.weaken (by simp) (agA.mono hl) (Nat.le_refl _)).congr rfl ?_
  rw [hset.2.1, ← hes]

end

section
variable {K V : Type} [LinearOrder K]

theorem nodup_set {α : Type} {l : List α} (hnd : l.Nodup) {a : α} (ha : a ∉ l) (i : Nat) :
    (l.set i a).Nodup := by
  by_cases hi : i < l.length
  · obtain ⟨A, x, B, rfl, hA, _⟩ := split_at_idx hi
    rw [set_mid x a B hA]
    simp only [List.nodup_append, List.nodup_cons, List.mem_append, List.mem_cons,
      not_or] at hnd ha ⊢
    refine ⟨hnd.1, ⟨ha.2.2, hnd.2.1.2⟩, ?_⟩
    intro c hc1 hc2
    rw [List.mem_cons] at hc2
    rcases hc2 with hc2 | hc2
    · rw [hc2] at hc1
      exact ha.1 hc1
    · exact hnd.2.2 hc1 (List.mem_cons_of_mem _ hc2)
  · rw [List.set_eq_of_length_le (by omega)]
    exact hnd

theorem mem_set_cases {α : Type} {l : List α} {i : Nat} {a c : α} (hc : c ∈ l.set i a) :
    c ∈ l ∨ c = a := List.mem_or_eq_of_mem_set hc

theorem getElem?_set_succ {α : Type} (l : List α) (i : Nat) (a : α) :
    (l.set i a)[i + 1]? = l[i + 1]? := List.getElem?_set_ne (by omega)

theorem getElem?_set_pred {α : Type} (l : List α) (i : Nat) (a : α) :
    (l.set (i + 1) a)[i]? = l[i]? := List.getElem?_set_ne (by omega)

theorem getElem?_set_same {α : Type} {l : List α} {i : Nat} (hi : i < l.length) (a : α) :
    (l.set i a)[i]? = some a := by
  rw [List.getElem?_set]
  simp [hi]

/-- The leftmost key below a node whose first entry is known, in a heap with one
more cell. -/
theorem leftMost_of_first {m : Nat} (hm : 2 ≤ m) {h2 : Heap K V} (x : Cell K V) {d a : Nat}
    {lo hi : Option K} {S : K} {v : V} {rest : List (K × V)} (r : Rep m h2 d a lo hi)
    (he : ents h2 d a = (S, v) :: rest) :
    interiorNodeS.findLeftMostKey (h2 ++ [x]) a = some S ∧
      nodeI.findLeftMostKey (h2 ++ [x]) a = some S := by
  have ag : Agree (a + 1) h2 (h2 ++ [x]) := Agree.append _ _ r.lt
  have r3 := r.agree ag
  have he3 : ents (h2 ++ [x]) d a = (S, v) :: rest := by rw [r.ents_agree ag]; exact he
  obtain ⟨k', v', rest', hk, hf, hf2⟩ := findLeftMostKey_spec hm r3 (by rw [he3]; simp)
  rw [he3] at hk
  have : S = k' := by
    have := (List.cons.inj hk).1
    exact (Prod.mk.inj this).1
  subst this
  exact ⟨hf, hf2⟩

/-- The steal-left block of `delUp`. -/
theorem fillStealLeft_spec {m : Nat} (hm : 3 ≤ m) {h0 h : Heap K V} {t : tree} {D : Nat}
    (hD : t.depth = (D : Int)) {rest : pathT} {gp d i oldParent newParent oldL : Nat}
    {plo phi : Option K} {pre post : List (K × V)} {n L np : interiorNodeS K} {kl : K}
    (cp : Ctx m h0 t.root D gp (d + 2) plo phi rest pre post)
    (rp : Rep m h0 (d + 2) gp plo phi) (pfp : PosFull m h0 (d + 2) gp rest)
    (hn : readNode h0 gp = some n)
    (hiL : n.vals[i]? = some oldL) (hiP : n.vals[i + 1]? = some oldParent)
    (hk : n.keys[i]? = some kl)
    (ag : Agree h0.length h0 h) (hfresh : h0.length ≤ newParent)
    (rnew : Rep m h (d + 1) newParent (loAt plo n.keys (i + 1)) (hiAt phi n.keys (i + 1)))
    (hnp : readNode h newParent = some np) (sN : np.vals.length + 1 = (m + 1) / 2)
    (hL : readNode h0 oldL = some L) (sL : (m + 1) / 2 < L.vals.length) :
    UpRes m t h h0.length (t.fillStealLeft h oldParent newParent gp oldL kl rest)
      (pre ++ ((n.vals.take (i + 1)).map (ents h0 (d + 1))).flatten ++
        ents h (d + 1) newParent ++
        (((n.vals.drop (i + 2)).map (ents h0 (d + 1))).flatten ++ post)) := by
  have hm2 : 2 ≤ m := by omega
  obtain ⟨n', hn', hcap, hlen, hnd, hltc, KP⟩ := Rep_kids.1 rp
  rw [hn] at hn'
  cases hn'
  have hgp := rp.lt
  have hNlt := rnew.lt
  have hl : h0.length ≤ h.length := by omega
  have hoL : oldL < gp := hltc oldL (List.getElem?_mem hiL)
  have kL0 := KP i oldL hiL
  have ehi : hiAt phi n.keys i = some kl := by
    obtain ⟨hki, hke⟩ := List.getElem?_eq_some.1 hk
    rw [hiAt_lt _ _ hki, hke]
  have elo : loAt plo n.keys (i + 1) = some kl := by rw [loAt_succ, hk]
  rw [ehi] at kL0
  rw [elo] at rnew
  have kL := kL0.agree_kid (ag.mono (by omega : oldL + 1 ≤ h0.length))
  have hLh : readNode h oldL = some L := by rw [ag.readNode (by omega)]; exact hL
  obtain ⟨h2, S, hsteal, hlen2, agN, sr⟩ :=
    node_stealLeft_spec hm kL hLh sL rnew hnp sN (by omega)
  have ag2 : Agree h0.length h0 h2 := ag.trans (agN.mono hfresh)
  have hl2 : h0.length ≤ h2.length := by omega
  have fin := steal_finish hD cp rp pfp hn hiL hiP ag2 hl2 hl hfresh (by omega) sr
  refine (fin.weaken (by omega) (agN.mono hfresh) hl2).congr ?_ ?_
  · have hn2 : readNode h2 gp = some n := by rw [ag2.readNode hgp]; exact hn
    obtain ⟨v, rs, hfirst⟩ := sr.2.2.2
    have hS := (leftMost_of_first hm2 (Cell.node n) sr.2.1.1 hfirst).1
    have hallg : ∀ (x : Cell K V), ∀ c ∈ n.vals, ∃ n', readNode (h2 ++ [x]) c = some n' := by
      intro x c hc
      obtain ⟨n', hn'⟩ := rp.child_node hn c hc
      have hcl := readNode_lt hn'
      refine ⟨n', ?_⟩
      rw [(Agree.append h2 [x] (Nat.le_refl _)).readNode (by omega), ag2.readNode hcl]
      exact hn'
    have hnewL : ∀ (x : Cell K V), ∃ n', readNode (h2 ++ [x]) h.length = some n' := by
      intro x
      obtain ⟨n', hn', _⟩ := Rep_kids.1 sr.1.1
      refine ⟨n', ?_⟩
      rw [(Agree.append h2 [x] (Nat.le_refl _)).readNode (by omega)]
      exact hn'
    have hfa : h.length ∉ n.vals := fun hmem => by have := hltc _ hmem; omega
    have hk1 := swapKey_spec S (rp.sepOK hn) hk
    have hs1 : (⟨n.cap, n.keys.take i ++ S :: n.keys.drop (i + 1), n.vals⟩ :
        interiorNodeS K).swapInteriorNode
        (h2 ++ [Cell.node ⟨n.cap, n.keys.take i ++ S :: n.keys.drop (i + 1), n.vals⟩])
        oldL h.length =
        some ⟨n.cap, n.keys.take i ++ S :: n.keys.drop (i + 1), n.vals.set i h.length⟩ := by
      simp only [interiorNodeS.swapInteriorNode, swapInteriorVals_spec (hallg _) hiL hnd]
    have hs2 : (⟨n.cap, n.keys.take i ++ S :: n.keys.drop (i + 1), n.vals.set i h.length⟩ :
        interiorNodeS K).swapInteriorNode
        (h2 ++ [Cell.node ⟨n.cap, n.keys.take i ++ S :: n.keys.drop (i + 1),
          n.vals.set i h.length⟩]) oldParent newParent =
        some ⟨n.cap, n.keys.take i ++ S :: n.keys.drop (i + 1),
          n.vals.take i ++ h.length :: newParent :: n.vals.drop (i + 2)⟩ := by
      have hall2 : ∀ c ∈ n.vals.set i h.length, ∃ n', readNode (h2 ++
          [Cell.node ⟨n.cap, n.keys.take i ++ S :: n.keys.drop (i + 1),
            n.vals.set i h.length⟩]) c = some n' := by
        intro c hc
        rcases mem_set_cases hc with hc | rfl
        · exact hallg _ c hc
        · exact hnewL _
      simp only [interiorNodeS.swapInteriorNode,
        swapInteriorVals_spec hall2 ((getElem?_set_succ _ _ _).trans hiP) (nodup_set hnd hfa i),
        set_set_two hiL hiP]
    have u1 := updNode_fresh (h := h2) (n := n) (f := fun n0 => n0.swapKey kl S) hk1
    have u2 := updNode_fresh (h := h2)
      (n := ⟨n.cap, n.keys.take i ++ S :: n.keys.drop (i + 1), n.vals⟩)
      (f := fun n0 => n0.swapInteriorNode
        (h2 ++ [Cell.node ⟨n.cap, n.keys.take i ++ S :: n.keys.drop (i + 1), n.vals⟩])
        oldL h.length) hs1
    have u3 := updNode_fresh (h := h2)
      (n := ⟨n.cap, n.keys.take i ++ S :: n.keys.drop (i + 1), n.vals.set i h.length⟩)
      (f := fun n0 => n0.swapInteriorNode
        (h2 ++ [Cell.node ⟨n.cap, n.keys.take i ++ S :: n.keys.drop (i + 1),
          n.vals.set i h.length⟩]) oldParent newParent) hs2
    unfold tree.fillStealLeft
    simp only [interiorNodeS.copy_eq hLh, Option.bind_eq_bind, Option.some_bind, hsteal,
      interiorNodeS.copy_eq hn2, hS, u1, u2, u3]
  · rw [flat_take_succ _ hiL, kL0.1.ents_agree (ag.mono (by omega : oldL + 1 ≤ h0.length))]
    simp

end

section
variable {K V : Type} [LinearOrder K]

/-- The steal-right block of `delUp`. -/
theorem fillStealRight_spec {m : Nat} (hm : 3 ≤ m) {h0 h : Heap K V} {t : tree} {D : Nat}
    (hD : t.depth = (D : Int)) {rest : pathT} {gp d i oldParent newParent oldR : Nat}
    {plo phi : Option K} {pre post : List (K × V)} {n R np : interiorNodeS K} {kr : K}
    (cp : Ctx m h0 t.root D gp (d + 2) plo phi rest pre post)
    (rp : Rep m h0 (d + 2) gp plo phi) (pfp : PosFull m h0 (d + 2) gp rest)
    (hn : readNode h0 gp = some n)
    (hiP : n.vals[i]? = some oldParent) (hiR : n.vals[i + 1]? = some oldR)
    (hk : n.keys[i]? = some kr)
    (ag : Agree h0.length h0 h) (hfresh : h0.length ≤ newParent)
    (rnew : Rep m h (d + 1) newParent (loAt plo n.keys i) (hiAt phi n.keys i))
    (hnp : readNode h newParent = some np) (sN : np.vals.length + 1 = (m + 1) / 2)
    (hR : readNode h0 oldR = some R) (sR : (m + 1) / 2 < R.vals.length) :
    UpRes m t h h0.length (t.fillStealRight h oldParent newParent gp oldR kr rest)
      (pre ++ ((n.vals.take i).map (ents h0 (d + 1))).flatten ++
        ents h (d + 1) newParent ++
        (((n.vals.drop (i + 1)).map (ents h0 (d + 1))).flatten ++ post)) := by
  have hm2 : 2 ≤ m := by omega
  obtain ⟨n', hn', hcap, hlen, hnd, hltc, KP⟩ := Rep_kids.1 rp
  rw [hn] at hn'
  cases hn'
  have hgp := rp.lt
  have hNlt := rnew.lt
  have hl : h0.length ≤ h.length := by omega
  have hoR : oldR < gp := hltc oldR (List.getElem?_mem hiR)
  have kR0 := KP (i + 1) oldR hiR
  have ehi : hiAt phi n.keys i = some kr := by
    obtain ⟨hki, hke⟩ := List.getElem?_eq_some.1 hk
    rw [hiAt_lt _ _ hki, hke]
  have elo : loAt plo n.keys (i + 1) = some kr := by rw [loAt_succ, hk]
  rw [elo] at kR0
  rw [ehi] at rnew
  have kR := kR0.agree_kid (ag.mono (by omega : oldR + 1 ≤ h0.length))
  have hRh : readNode h oldR = some R := by rw [ag.readNode (by omega)]; exact hR
  obtain ⟨h2, S, hsteal, hlen2, agN, sr⟩ :=
    node_stealRight_spec hm kR hRh sR rnew hnp sN (by omega)
  have ag2 : Agree h0.length h0 h2 := ag.trans (agN.mono hfresh)
  have hl2 : h0.length ≤ h2.length := by omega
  have fin := steal_finish hD cp rp pfp hn hiP hiR ag2 hl2 hfresh hl (by omega) sr
  refine (fin.weaken (by omega) (agN.mono hfresh) hl2).congr ?_ ?_
  · have hn2 : readNode h2 gp = some n := by rw [ag2.readNode hgp]; exact hn
    obtain ⟨v, rs, hfirst⟩ := sr.2.2.2
    have hS := (leftMost_of_first hm2 (Cell.node n) sr.2.1.1 hfirst).1
    have hallg : ∀ (x : Cell K V), ∀ c ∈ n.vals, ∃ n', readNode (h2 ++ [x]) c = some n' := by
      intro x c hc
      obtain ⟨n', hn'⟩ := rp.child_node hn c hc
      have hcl := readNode_lt hn'
      refine ⟨n', ?_⟩
      rw [(Agree.append h2 [x] (Nat.le_refl _)).readNode (by omega), ag2.readNode hcl]
      exact hn'
    have hnewR : ∀ (x : Cell K V), ∃ n', readNode (h2 ++ [x]) h.length = some n' := by
      intro x
      obtain ⟨n', hn', _⟩ := Rep_kids.1 sr.2.1.1
      refine ⟨n', ?_⟩
      rw [(Agree.append h2 [x] (Nat.le_refl _)).readNode (by omega)]
      exact hn'
    have hfa : h.length ∉ n.vals := fun hmem => by have := hltc _ hmem; omega
    have hk1 := swapKey_spec S (rp.sepOK hn) hk
    have hs1 : (⟨n.cap, n.keys.take i ++ S :: n.keys.drop (i + 1), n.vals⟩ :
        interiorNodeS K).swapInteriorNode
        (h2 ++ [Cell.node ⟨n.cap, n.keys.take i ++ S :: n.keys.drop (i + 1), n.vals⟩])
        oldR h.length =
        some ⟨n.cap, n.keys.take i ++ S :: n.keys.drop (i + 1),
          n.vals.set (i + 1) h.length⟩ := by
      simp only [interiorNodeS.swapInteriorNode, swapInteriorVals_spec (hallg _) hiR hnd]
    have hs2 : (⟨n.cap, n.keys.take i ++ S :: n.keys.drop (i + 1),
          n.vals.set (i + 1) h.length⟩ : interiorNodeS K).swapInteriorNode
        (h2 ++ [Cell.node ⟨n.cap, n.keys.take i ++ S :: n.keys.drop (i + 1),
          n.vals.set (i + 1) h.length⟩]) oldParent newParent =
        some ⟨n.cap, n.keys.take i ++ S :: n.keys.drop (i + 1),
          n.vals.take i ++ newParent :: h.length :: n.vals.drop (i + 2)⟩ := by
      have hall2 : ∀ c ∈ n.vals.set (i + 1) h.length, ∃ n', readNode (h2 ++
          [Cell.node ⟨n.cap, n.keys.take i ++ S :: n.keys.drop (i + 1),
            n.vals.set (i + 1) h.length⟩]) c = some n' := by
        intro c hc
        rcases mem_set_cases hc with hc | rfl
        · exact hallg _ c hc
        · exact hnewR _
      simp only [interiorNodeS.swapInteriorNode,
        swapInteriorVals_spec hall2 ((getElem?_set_pred _ _ _).trans hiP)
          (nodup_set hnd hfa (i + 1)),
        set_set_two_rev hiP hiR]
    have u1 := updNode_fresh (h := h2) (n := n) (f := fun n0 => n0.swapKey kr S) hk1
    have u2 := updNode_fresh (h := h2)
      (n := ⟨n.cap, n.keys.take i ++ S :: n.keys.drop (i + 1), n.vals⟩)
      (f := fun n0 => n0.swapInteriorNode
        (h2 ++ [Cell.node ⟨n.cap, n.keys.take i ++ S :: n.keys.drop (i + 1), n.vals⟩])
        oldR h.length) hs1
    have u3 := updNode_fresh (h := h2)
      (n := ⟨n.cap, n.keys.take i ++ S :: n.keys.drop (i + 1), n.vals.set (i + 1) h.length⟩)
      (f := fun n0 => n0.swapInteriorNode
        (h2 ++ [Cell.node ⟨n.cap, n.keys.take i ++ S :: n.keys.drop (i + 1),
          n.vals.set (i + 1) h.length⟩]) oldParent newParent) hs2
    unfold tree.fillStealRight
    simp only [interiorNodeS.copy_eq hRh, Option.bind_eq_bind, Option.some_bind, hsteal,
      interiorNodeS.copy_eq hn2, hS, u1, u2, u3]
  · rw [flat_drop_succ _ hiR, kR0.1.ents_agree (ag.mono (by omega : oldR + 1 ≤ h0.length))]
    simp

/-- The copied parent after a merge of two interior children: the merged node is
swapped in and the dead node is removed. -/
theorem merge_parent_node {h2 : Heap K V} {n : interiorNodeS K} {i c1 c2 merged : Nat}
    (hall : ∀ c ∈ n.vals, ∃ n', readNode h2 c = some n')
    (hm : ∃ n', readNode h2 merged = some n') (hnd : n.vals.Nodup) (hfa : merged ∉ n.vals)
    (hlen : n.vals.length = n.keys.length + 1)
    (hi1 : n.vals[i]? = some c1) (hi2 : n.vals[i + 1]? = some c2) :
    updNode (h2 ++ [Cell.node n]) h2.length
        (fun n0 => n0.swapInteriorNode (h2 ++ [Cell.node n]) c1 merged) =
      some (h2 ++ [Cell.node ⟨n.cap, n.keys, n.vals.set i merged⟩]) ∧
    removeDeadNode (h2 ++ [Cell.node ⟨n.cap, n.keys, n.vals.set i merged⟩]) h2.length c2 =
      some (h2 ++ [Cell.node ⟨n.cap, n.keys.take i ++ n.keys.drop (i + 1),
        n.vals.take i ++ merged :: n.vals.drop (i + 2)⟩]) := by
  have hallx : ∀ (x : Cell K V), ∀ c ∈ n.vals, ∃ n', readNode (h2 ++ [x]) c = some n' := by
    intro x c hc
    obtain ⟨n', hn'⟩ := hall c hc
    refine ⟨n', ?_⟩
    rw [(Agree.append h2 [x] (Nat.le_refl _)).readNode (readNode_lt hn')]
    exact hn'
  have hil : i + 1 < n.vals.length := (List.getElem?_eq_some.1 hi2).1
  constructor
  · refine updNode_fresh ?_
    simp only [interiorNodeS.swapInteriorNode, swapInteriorVals_spec (hallx _) hi1 hnd]
  · unfold removeDeadNode
    refine updNode_fresh ?_
    have hall2 : ∀ c ∈ n.vals.set i merged, ∃ n', readNode (h2 ++
        [Cell.node ⟨n.cap, n.keys, n.vals.set i merged⟩]) c = some n' := by
      intro c hc
      rcases mem_set_cases hc with hc | rfl
      · exact hallx _ c hc
      · obtain ⟨n', hn'⟩ := hm
        refine ⟨n', ?_⟩
        rw [(Agree.append h2 _ (Nat.le_refl _)).readNode (readNode_lt hn')]
        exact hn'
    have hd := findDeadNode_spec (n.vals.set i merged) 0 (i + 1)
      ((getElem?_set_succ _ _ _).trans hi2)
      (nodup_first (nodup_set hnd hfa i) ((getElem?_set_succ _ _ _).trans hi2)) hall2
    simp only [Nat.zero_add] at hd
    simp only [hd]
    exact removeDeadAt_spec merged hlen hil

/-- The copied parent after a merge of two leaves. -/
theorem merge_parent_leaf {h2 : Heap K V} {n : interiorNodeS K} {i c1 c2 merged : Nat}
    (hall : ∀ c ∈ n.vals, ∃ l, readLeaf h2 c = some l)
    (hm : ∃ l, readLeaf h2 merged = some l) (hnd : n.vals.Nodup) (hfa : merged ∉ n.vals)
    (hlen : n.vals.length = n.keys.length + 1)
    (hi1 : n.vals[i]? = some c1) (hi2 : n.vals[i + 1]? = some c2) :
    updNode (h2 ++ [Cell.node n]) h2.length
        (fun n0 => n0.swapLeafNode (h2 ++ [Cell.node n]) c1 merged) =
      some (h2 ++ [Cell.node ⟨n.cap, n.keys, n.vals.set i merged⟩]) ∧
    removeDeadLeaf (h2 ++ [Cell.node ⟨n.cap, n.keys, n.vals.set i merged⟩]) h2.length c2 =
      some (h2 ++ [Cell.node ⟨n.cap, n.keys.take i ++ n.keys.drop (i + 1),
        n.vals.take i ++ merged :: n.vals.drop (i + 2)⟩]) := by
  have hallx : ∀ (x : Cell K V), ∀ c ∈ n.vals, ∃ l, readLeaf (h2 ++ [x]) c = some l := by
    intro x c hc
    obtain ⟨n', hn'⟩ := hall c hc
    refine ⟨n', ?_⟩
    rw [(Agree.append h2 [x] (Nat.le_refl _)).readLeaf (readLeaf_lt hn')]
    exact hn'
  have hil : i + 1 < n.vals.length := (List.getElem?_eq_some.1 hi2).1
  constructor
  · refine updNode_fresh ?_
    simp only [interiorNodeS.swapLeafNode, swapLeafVals_spec (hallx _) hi1 hnd]
  · unfold removeDeadLeaf
    refine updNode_fresh ?_
    have hall2 : ∀ c ∈ n.vals.set i merged, ∃ l, readLeaf (h2 ++
        [Cell.node ⟨n.cap, n.keys, n.vals.set i merged⟩]) c = some l := by
      intro c hc
      rcases mem_set_cases hc with hc | rfl
      · exact hallx _ c hc
      · obtain ⟨n', hn'⟩ := hm
        refine ⟨n', ?_⟩
        rw [(Agree.append h2 _ (Nat.le_refl _)).readLeaf (readLeaf_lt hn')]
        exact hn'
    have hd := findDeadLeaf_spec (n.vals.set i merged) 0 (i + 1)
      ((getElem?_set_succ _ _ _).trans hi2)
      (nodup_first (nodup_set hnd hfa i) ((getElem?_set_succ _ _ _).trans hi2)) hall2
    simp only [Nat.zero_add] at hd
    simp only [hd]
    exact removeDeadAt_spec merged hlen hil

end

section
variable {K V : Type} [LinearOrder K]

theorem node_findPeerLeft_eq {h : Heap K V} {n : interiorNodeS K} {ip old : Nat}
    (hall : ∀ c ∈ n.vals, ∃ n', readNode h c = some n')
    (hlen : n.vals.length = n.keys.length + 1) (hnd : n.vals.Nodup)
    (hi : n.vals[ip]? = some old) :
    interiorNodeS.findPeerLeft h old n = some (if ip = 0 then none else peerLeftAt n ip) := by
  unfold interiorNodeS.findPeerLeft
  have := node_findPeerLeftLoop hall hlen n.vals 0 ip hi (nodup_first hnd hi) hall
    (by have := (List.getElem?_eq_some.1 hi).1; omega)
  simpa using this

theorem node_findPeerRight_eq {h : Heap K V} {n : interiorNodeS K} {ip old : Nat}
    (hall : ∀ c ∈ n.vals, ∃ n', readNode h c = some n')
    (hlen : n.vals.length = n.keys.length + 1) (hnd : n.vals.Nodup)
    (hi : n.vals[ip]? = some old) :
    interiorNodeS.findPeerRight h old n =
      some (if ip = n.vals.length - 1 then none else peerRightAt n ip) := by
  unfold interiorNodeS.findPeerRight
  have := node_findPeerRightLoop hall hlen n.vals 0 ip hi (nodup_first hnd hi) hall
    (by have := (List.getElem?_eq_some.1 hi).1; omega)
  simpa using this

theorem leaf_findPeerLeft_eq {h : Heap K V} {n : interiorNodeS K} {ip old : Nat}
    (hall : ∀ c ∈ n.vals, ∃ l, readLeaf h c = some l)
    (hlen : n.vals.length = n.keys.length + 1) (hnd : n.vals.Nodup)
    (hi : n.vals[ip]? = some old) :
    leafNodeS.findPeerLeft h old n = some (if ip = 0 then none else peerLeftAt n ip) := by
  unfold leafNodeS.findPeerLeft
  have := leaf_findPeerLeftLoop hall hlen n.vals 0 ip hi (nodup_first hnd hi) hall
    (by have := (List.getElem?_eq_some.1 hi).1; omega)
  simpa using this

theorem leaf_findPeerRight_eq {h : Heap K V} {n : interiorNodeS K} {ip old : Nat}
    (hall : ∀ c ∈ n.vals, ∃ l, readLeaf h c = some l)
    (hlen : n.vals.length = n.keys.length + 1) (hnd : n.vals.Nodup)
    (hi : n.vals[ip]? = some old) :
    leafNodeS.findPeerRight h old n =
      some (if ip = n.vals.length - 1 then none else peerRightAt n ip) := by
  unfold leafNodeS.findPeerRight
  have := leaf_findPeerRightLoop hall hlen n.vals 0 ip hi (nodup_first hnd hi) hall
    (by have := (List.getElem?_eq_some.1 hi).1; omega)
  simpa using this

theorem peerLeftAt_succ {n : interiorNodeS K} {i c : Nat} {k : K} (hc : n.vals[i]? = some c)
    (hk : n.keys[i]? = some k) : peerLeftAt n (i + 1) = some (c, k) := by
  simp [peerLeftAt, hc, hk]

theorem peerRightAt_eq {n : interiorNodeS K} {i c : Nat} {k : K} (hc : n.vals[i + 1]? = some c)
    (hk : n.keys[i]? = some k) : peerRightAt n i = some (c, k) := by
  simp [peerRightAt, hc, hk]

theorem node_canSteal_eq {m : Nat} {h : Heap K V} {p : Nat} {L : interiorNodeS K} (k : K)
    (hL : readNode h p = some L) (hcap : L.cap = m) :
    interiorNodeS.canSteal h (some (p, k)) = some (decide ((m + 1) / 2 < L.vals.length)) := by
  simp [interiorNodeS.canSteal, hL, interiorNodeS.size, interiorNodeS.halfFullSize, hcap]

theorem leaf_canSteal_eq {m : Nat} {h : Heap K V} {p : Nat} {L : leafNodeS K V} (k : K)
    (hL : readLeaf h p = some L) (hcap : L.cap = m) :
    leafNodeS.canSteal h (some (p, k)) = some (decide (m / 2 < L.vals.length)) := by
  simp [leafNodeS.canSteal, hL, leafNodeS.size, leafNodeS.halfFullSize, hcap]

theorem node_isToSmall_eq {m : Nat} {n : interiorNodeS K} (hcap : n.cap = m) :
    n.isToSmall = decide (n.vals.length < (m + 1) / 2) := by
  simp [interiorNodeS.isToSmall, interiorNodeS.size, interiorNodeS.halfFullSize, hcap]

theorem leaf_isToSmall_eq {m : Nat} {l : leafNodeS K V} (hcap : l.cap = m) :
    l.isToSmall = decide (l.vals.length < m / 2) := by
  simp [leafNodeS.isToSmall, leafNodeS.size, leafNodeS.halfFullSize, hcap]

/-- The merge of the too small new node into a copy of its left peer, followed by
the first statements of `delUp`. -/
theorem fillMergeLeft_spec {m : Nat} (hm : 3 ≤ m) {h0 h : Heap K V} {t : tree} {D : Nat}
    {rest : pathT} (IH : DelUp m h0 t D rest) {gp d i oldParent newParent oldL : Nat}
    {plo phi : Option K} {pre post : List (K × V)} {n L np : interiorNodeS K} {kl : K}
    (cp : Ctx m h0 t.root D gp (d + 2) plo phi rest pre post)
    (rp : Rep m h0 (d + 2) gp plo phi) (pfp : PosFull m h0 (d + 2) gp rest)
    (hn : readNode h0 gp = some n)
    (hiL : n.vals[i]? = some oldL) (hiP : n.vals[i + 1]? = some oldParent)
    (hk : n.keys[i]? = some kl)
    (ag : Agree h0.length h0 h) (hfresh : h0.length ≤ newParent)
    (rnew : Rep m h (d + 1) newParent (loAt plo n.keys (i + 1)) (hiAt phi n.keys (i + 1)))
    (hnp : readNode h newParent = some np) (sN : np.vals.length + 1 = (m + 1) / 2)
    (hL : readNode h0 oldL = some L) (sL : L.vals.length ≤ (m + 1) / 2)
    (right : Option (Nat × K)) :
    ∃ h2 nb nf,
      fillMerge h oldParent newParent (some (oldL, kl)) right =
        some (h2, oldL, h.length, oldParent) ∧
      interiorNodeS.copy h2 gp = some (h2 ++ [Cell.node n], h2.length) ∧
      updNode (h2 ++ [Cell.node n]) h2.length
        (fun n0 => n0.swapInteriorNode (h2 ++ [Cell.node n]) oldL h.length) =
        some (h2 ++ [Cell.node nb]) ∧
      removeDeadNode (h2 ++ [Cell.node nb]) h2.length oldParent =
        some (h2 ++ [Cell.node nf]) ∧
      UpRes m t h h0.length (t.delUpFill (h2 ++ [Cell.node nf]) gp h2.length rest)
        (pre ++ ((n.vals.take (i + 1)).map (ents h0 (d + 1))).flatten ++
          ents h (d + 1) newParent ++
          (((n.vals.drop (i + 2)).map (ents h0 (d + 1))).flatten ++ post)) := by
  have hm2 : 2 ≤ m := by omega
  obtain ⟨n', hn', hcap, hlen, hnd, hltc, KP⟩ := Rep_kids.1 rp
  rw [hn] at hn'
  cases hn'
  have hgp := rp.lt
  have hNlt := rnew.lt
  have hl : h0.length ≤ h.length := by omega
  have hoL : oldL < gp := hltc oldL (List.getElem?_mem hiL)
  have kL0 := KP i oldL hiL
  have ehi : hiAt phi n.keys i = some kl := by
    obtain ⟨hki, hke⟩ := List.getElem?_eq_some.1 hk
    rw [hiAt_lt _ _ hki, hke]
  have elo : loAt plo n.keys (i + 1) = some kl := by rw [loAt_succ, hk]
  rw [ehi] at kL0
  rw [elo] at rnew
  have kL := kL0.agree_kid (ag.mono (by omega : oldL + 1 ≤ h0.length))
  have hLh : readNode h oldL = some L := by rw [ag.readNode (by omega)]; exact hL
  obtain ⟨h2, hmerge, hlen2, agN, km, hes⟩ :=
    node_mergeLeft_spec hm kL hLh sL rnew hnp sN (by omega)
  have ag2 : Agree h0.length h0 h2 := ag.trans (agN.mono hl)
  have hl2 : h0.length ≤ h2.length := by omega
  have hn2 : readNode h2 gp = some n := by rw [ag2.readNode hgp]; exact hn
  have hallg : ∀ c ∈ n.vals, ∃ n', readNode h2 c = some n' := by
    intro c hc
    obtain ⟨n', hn'⟩ := rp.child_node hn c hc
    have hcl := readNode_lt hn'
    refine ⟨n', ?_⟩
    rw [ag2.readNode hcl]
    exact hn'
  have hmer : ∃ n', readNode h2 h.length = some n' := by
    obtain ⟨n', hn', _⟩ := Rep_kids.1 km.1
    exact ⟨n', hn'⟩
  have hfa : h.length ∉ n.vals := fun hmem => by have := hltc _ hmem; omega
  obtain ⟨e3, e4⟩ := merge_parent_node hallg hmer hnd hfa hlen hiL hiP
  have fin := merge_finish IH cp rp pfp hn hiL hiP ag2 hl2 hl km hes
  refine ⟨h2, _, _, ?_, interiorNodeS.copy_eq hn2, e3, e4, ?_⟩
  · unfold fillMerge
    simp only [interiorNodeS.copy_eq hLh, Option.bind_eq_bind, Option.some_bind, hmerge]
  · refine (fin.weaken (by omega) (agN.mono hl) (Nat.le_refl _)).congr rfl ?_
    rw [flat_take_succ _ hiL, kL0.1.ents_agree (ag.mono (by omega : oldL + 1 ≤ h0.length))]
    simp

/-- The merge of the right peer into the too small new node, followed by the
first statements of `delUp`. -/
theorem fillMergeRight_spec {m : Nat} (hm : 3 ≤ m) {h0 h : Heap K V} {t : tree} {D : Nat}
    {rest : pathT} (IH : DelUp m h0 t D rest) {gp d i oldParent newParent oldR : Nat}
    {plo phi : Option K} {pre post : List (K × V)} {n R np : interiorNodeS K} {kr : K}
    (cp : Ctx m h0 t.root D gp (d + 2) plo phi rest pre post)
    (rp : Rep m h0 (d + 2) gp plo phi) (pfp : PosFull m h0 (d + 2) gp rest)
    (hn : readNode h0 gp = some n)
    (hiP : n.vals[i]? = some oldParent) (hiR : n.vals[i + 1]? = some oldR)
    (hk : n.keys[i]? = some kr)
    (ag : Agree h0.length h0 h) (hfresh : h0.length ≤ newParent)
    (rnew : Rep m h (d + 1) newParent (loAt plo n.keys i) (hiAt phi n.keys i))
    (hnp : readNode h newParent = some np) (sN : np.vals.length + 1 = (m + 1) / 2)
    (hR : readNode h0 oldR = some R) (sR : R.vals.length ≤ (m + 1) / 2) :
    ∃ h2 nb nf,
      fillMerge h oldParent newParent none (some (oldR, kr)) =
        some (h2, oldParent, newParent, oldR) ∧
      interiorNodeS.copy h2 gp = some (h2 ++ [Cell.node n], h2.length) ∧
      updNode (h2 ++ [Cell.node n]) h2.length
        (fun n0 => n0.swapInteriorNode (h2 ++ [Cell.node n]) oldParent newParent) =
        some (h2 ++ [Cell.node nb]) ∧
      removeDeadNode (h2 ++ [Cell.node nb]) h2.length oldR =
        some (h2 ++ [Cell.node nf]) ∧
      UpRes m t h h0.length (t.delUpFill (h2 ++ [Cell.node nf]) gp h2.length rest)
        (pre ++ ((n.vals.take i).map (ents h0 (d + 1))).flatten ++
          ents h (d + 1) newParent ++
          (((n.vals.drop (i + 1)).map (ents h0 (d + 1))).flatten ++ post)) := by
  have hm2 : 2 ≤ m := by omega
  obtain ⟨n', hn', hcap, hlen, hnd, hltc, KP⟩ := Rep_kids.1 rp
  rw [hn] at hn'
  cases hn'
  have hgp := rp.lt
  have hNlt := rnew.lt
  have hl : h0.length ≤ h.length := by omega
  have hoR : oldR < gp := hltc oldR (List.getElem?_mem hiR)
  have kR0 := KP (i + 1) oldR hiR
  have ehi : hiAt phi n.keys i = some kr := by
    obtain ⟨hki, hke⟩ := List.getElem?_eq_some.1 hk
    rw [hiAt_lt _ _ hki, hke]
  have elo : loAt plo n.keys (i + 1) = some kr := by rw [loAt_succ, hk]
  rw [elo] at kR0
  rw [ehi] at rnew
  have kR := kR0.agree_kid (ag.mono (by omega : oldR + 1 ≤ h0.length))
  have hRh : readNode h oldR = some R := by rw [ag.readNode (by omega)]; exact hR
  obtain ⟨h2, hmerge, hlen2, agN, km, hes⟩ :=
    node_mergeRight_spec hm kR hRh sR rnew hnp sN (by omega)
  have ag2 : Agree h0.length h0 h2 := ag.trans (agN.mono hfresh)
  have hl2 : h0.length ≤ h2.length := by omega
  have hn2 : readNode h2 gp = some n := by rw [ag2.readNode hgp]; exact hn
  have hallg : ∀ c ∈ n.vals, ∃ n', readNode h2 c = some n' := by
    intro c hc
    obtain ⟨n', hn'⟩ := rp.child_node hn c hc
    have hcl := readNode_lt hn'
    refine ⟨n', ?_⟩
    rw [ag2.readNode hcl]
    exact hn'
  have hmer : ∃ n', readNode h2 newParent = some n' := by
    obtain ⟨n', hn', _⟩ := Rep_kids.1 km.1
    exact ⟨n', hn'⟩
  have hfa : newParent ∉ n.vals := fun hmem => by have := hltc _ hmem; omega
  obtain ⟨e3, e4⟩ := merge_parent_node hallg hmer hnd hfa hlen hiP hiR
  have fin := merge_finish IH cp rp pfp hn hiP hiR ag2 hl2 hfresh km hes
  refine ⟨h2, _, _, ?_, interiorNodeS.copy_eq hn2, e3, e4, ?_⟩
  · unfold fillMerge
    simp only [Option.bind_eq_bind, Option.some_bind, hmerge]
  · refine (fin.weaken (by omega) (agN.mono hfresh) (Nat.le_refl _)).congr rfl ?_
    rw [flat_drop_succ _ hiR, kR0.1.ents_agree (ag.mono (by omega : oldR + 1 ≤ h0.length))]
    simp

end

section
variable {K V : Type} [LinearOrder K]

theorem node_canSteal_none (h : Heap K V) :
    interiorNodeS.canSteal h (none : Option (Nat × K)) = some false := rfl

theorem leaf_canSteal_none (h : Heap K V) :
    leafNodeS.canSteal h (none : Option (Nat × K)) = some false := rfl

theorem Full.rootFull {m : Nat} (hm : 3 ≤ m) {h : Heap K V} {d a : Nat} (f : Full m h d a) :
    RootFull m h d a := by
  unfold Full at f
  unfold RootFull
  refine ⟨?_, f.2⟩
  by_cases hd : d = 0
  · simp [hd]
  · rw [if_neg hd]
    have := f.1
    unfold minSize at this
    rw [if_neg hd] at this
    omega

theorem PosFull.two_le {m : Nat} (hm : 3 ≤ m) {h : Heap K V} {d a : Nat} {rest : pathT}
    (f : PosFull m h (d + 1) a rest) : 2 ≤ nodeSize h a := by
  unfold PosFull Full RootFull at f
  split at f
  · rw [if_neg (Nat.succ_ne_zero _)] at f
    exact f.1
  · have := f.1
    rw [minSize_succ] at this
    omega

/-- The method `delUp` after the removal of the dead child, and the end of
`delUpLeaf`. -/
theorem delUpFill_spec {m : Nat} (hm : 3 ≤ m) {h0 : Heap K V} {t : tree} {D : Nat}
    (hD : t.depth = (D : Int)) (path : pathT) : DelUp m h0 t D path := by
  induction path with
  | nil =>
    intro h oldParent newParent d lo hi pre post c rold ag hfresh rnew und
    obtain ⟨rfl, rfl, rfl, rfl, rfl, rfl⟩ := c
    obtain ⟨no, hno, _⟩ := Rep_succ.1 rold
    have hno' : readNode h t.root = some no := by rw [ag.readNode rold.lt]; exact hno
    obtain ⟨nn, hnn, hcapn, hlenn, hndn, hltn, Kn⟩ := Rep_kids.1 rnew
    have hsz := nodeSize_of_node hnn
    unfold Under at und
    rw [if_pos rfl, hsz, maxSize_succ] at und
    rw [tree.delUpFill]
    simp only [isRoot_node hno']
    unfold tree.setRootNode
    rw [hnn]
    by_cases hk0 : nn.keys.length = 0
    · have hv1 : nn.vals.length = 1 := by omega
      obtain ⟨c, tl, hv⟩ := exists_cons (l := nn.vals) (by omega)
      have htl : tl = [] := by
        rw [hv] at hv1
        simpa using hv1
      subst htl
      have hkeys : nn.keys = [] := List.eq_nil_of_length_eq_zero hk0
      have kc := Kn 0 c (by rw [hv]; rfl)
      rw [loAt_zero, hiAt_ge _ _ (by omega)] at kc
      refine ⟨h, { t with root := c, depth := t.depth - 1 }, d, ?_, Nat.le_refl _,
        Agree.refl _ _, rfl, rfl, ?_, kc.1, kc.2.rootFull hm, ?_⟩
      · simp [hk0, hv]
      · simp only
        omega
      · rw [ents_node hnn, hv]
        simp
    · refine ⟨h, { t with root := newParent }, d + 1, ?_, Nat.le_refl _,
        Agree.refl _ _, rfl, rfl, hD, rnew, ?_, by simp⟩
      · simp [hk0]
      · unfold RootFull
        rw [if_neg (Nat.succ_ne_zero _), hsz, maxSize_succ]
        exact ⟨by omega, und.2⟩
  | cons gp rest ih =>
    intro h oldParent newParent d lo hi pre post c rold ag hfresh rnew und
    have c0 := c
    obtain ⟨hltroot, nr, hnr⟩ := Ctx.root_node rest c
    obtain ⟨n, plo, phi, ip, pre', post', hn, hi', rfl, rfl, rp, pfp, rfl, rfl, cp⟩ := c
    obtain ⟨n', hn', hcap, hlen, hnd, hltc, KP⟩ := Rep_kids.1 rp
    rw [hn] at hn'
    cases hn'
    obtain ⟨np, hnp, hcapn, hlenn, _⟩ := Rep_kids.1 rnew
    obtain ⟨no, hno, _⟩ := Rep_kids.1 rold
    have hgp := rp.lt
    have hNlt := rnew.lt
    have hl : h0.length ≤ h.length := by omega
    have hroot_h : readNode h t.root = some nr := by
      rw [ag.readNode (readNode_lt hnr)]; exact hnr
    have hold_h : readNode h oldParent = some no := by
      rw [ag.readNode (readNode_lt hno)]; exact hno
    have hisr := isRoot_false hroot_h hold_h hltroot
    have hgp_h : readNode h gp = some n := by rw [ag.readNode hgp]; exact hn
    have hch0 : ∀ c ∈ n.vals, ∃ n', readNode h0 c = some n' := rp.child_node hn
    have hallg : ∀ c ∈ n.vals, ∃ n', readNode h c = some n' := by
      intro c hc
      obtain ⟨n', hn'⟩ := hch0 c hc
      refine ⟨n', ?_⟩
      rw [ag.readNode (readNode_lt hn')]
      exact hn'
    have hsz := nodeSize_of_node hnp
    unfold Under at und
    rw [if_neg (List.cons_ne_nil _ _), hsz, maxSize_succ, minSize_succ] at und
    have hip : ip < n.vals.length := (List.getElem?_eq_some.1 hi').1
    have h2le : 2 ≤ n.vals.length := by
      have := pfp.two_le hm
      rwa [nodeSize_of_node hn] at this
    rw [tree.delUpFill]
    simp only [hisr, hnp, node_isToSmall_eq hcapn]
    by_cases hsmall : np.vals.length < (m + 1) / 2
    · have sN : np.vals.length + 1 = (m + 1) / 2 := by omega
      simp only [hsmall, decide_True, if_true, hgp_h, node_findPeerLeft_eq hallg hlen hnd hi',
        node_findPeerRight_eq hallg hlen hnd hi']
      rcases Nat.eq_zero_or_pos ip with hz | hpos
      · subst hz
        obtain ⟨oldR, hiR⟩ : ∃ c, n.vals[1]? = some c :=
          ⟨_, List.getElem?_eq_getElem (by omega)⟩
        obtain ⟨kr, hk⟩ : ∃ k, n.keys[0]? = some k :=
          ⟨_, List.getElem?_eq_getElem (by omega)⟩
        obtain ⟨R, hR⟩ := hch0 oldR (List.getElem?_mem hiR)
        have hRh : readNode h oldR = some R := by
          rw [ag.readNode (readNode_lt hR)]; exact hR
        have hcapR : R.cap = m := by
          obtain ⟨R', hR', hc, _⟩ := Rep_kids.1 (KP 1 oldR hiR).1
          rw [hR] at hR'
          cases hR'
          exact hc
        have hszR := (KP 1 oldR hiR).node_size hR
        have hne : ¬ (0 = n.vals.length - 1) := by omega
        simp only [if_true, if_neg hne, peerRightAt_eq hiR hk, node_canSteal_eq kr hRh hcapR,
          node_canSteal_none]
        by_cases hcan : (m + 1) / 2 < R.vals.length
        · simp only [hcan, decide_True]
          exact fillStealRight_spec hm hD cp rp pfp hn hi' hiR hk ag hfresh rnew hnp sN hR hcan
        · simp only [hcan, decide_False]
          obtain ⟨h2, nb, nf, e1, e2, e3, e4, u⟩ := fillMergeRight_spec hm ih cp rp pfp hn hi'
            hiR hk ag hfresh rnew hnp sN hR (by omega)
          simp only [e1, e2, e3, e4]
          exact u
      · obtain ⟨i, rfl⟩ : ∃ i, ip = i + 1 := ⟨ip - 1, by omega⟩
        obtain ⟨oldL, hiL⟩ : ∃ c, n.vals[i]? = some c :=
          ⟨_, List.getElem?_eq_getElem (by omega)⟩
        obtain ⟨kl, hk⟩ : ∃ k, n.keys[i]? = some k :=
          ⟨_, List.getElem?_eq_getElem (by omega)⟩
        obtain ⟨L, hL⟩ := hch0 oldL (List.getElem?_mem hiL)
        have hLh : readNode h oldL = some L := by
          rw [ag.readNode (readNode_lt hL)]; exact hL
        have hcapL : L.cap = m := by
          obtain ⟨L', hL', hc, _⟩ := Rep_kids.1 (KP i oldL hiL).1
          rw [hL] at hL'
          cases hL'
          exact hc
        have hszL := (KP i oldL hiL).node_size hL
        simp only [if_neg (Nat.succ_ne_zero i), peerLeftAt_succ hiL hk,
          node_canSteal_eq kl hLh hcapL]
        by_cases hcanL : (m + 1) / 2 < L.vals.length
        · simp only [hcanL, decide_True]
          exact fillStealLeft_spec hm hD cp rp pfp hn hiL hi' hk ag hfresh rnew hnp sN hL hcanL
        · simp only [hcanL, decide_False]
          by_cases hlast : i + 1 = n.vals.length - 1
          · simp only [if_pos hlast, node_canSteal_none]
            obtain ⟨h2, nb, nf, e1, e2, e3, e4, u⟩ := fillMergeLeft_spec hm ih cp rp pfp hn hiL
              hi' hk ag hfresh rnew hnp sN hL (by omega) none
            simp only [e1, e2, e3, e4]
            exact u
          · obtain ⟨oldR, hiR⟩ : ∃ c, n.vals[i + 1 + 1]? = some c :=
              ⟨_, List.getElem?_eq_getElem (by omega)⟩
            obtain ⟨kr, hkr⟩ : ∃ k, n.keys[i + 1]? = some k :=
              ⟨_, List.getElem?_eq_getElem (by omega)⟩
            obtain ⟨R, hR⟩ := hch0 oldR (List.getElem?_mem hiR)
            have hRh : readNode h oldR = some R := by
              rw [ag.readNode (readNode_lt hR)]; exact hR
            have hcapR : R.cap = m := by
              obtain ⟨R', hR', hc, _⟩ := Rep_kids.1 (KP (i + 1 + 1) oldR hiR).1
              rw [hR] at hR'
              cases hR'
              exact hc
            simp only [if_neg hlast, peerRightAt_eq hiR hkr, node_canSteal_eq kr hRh hcapR]
            by_cases hcan : (m + 1) / 2 < R.vals.length
            · simp only [hcan, decide_True]
              exact fillStealRight_spec hm hD cp rp pfp hn hi' hiR hkr ag hfresh rnew hnp sN
                hR hcan
            · simp only [hcan, decide_False]
              obtain ⟨h2, nb, nf, e1, e2, e3, e4, u⟩ := fillMergeLeft_spec hm ih cp rp pfp hn
                hiL hi' hk ag hfresh rnew hnp sN hL (by omega) (some (oldR, kr))
              simp only [e1, e2, e3, e4]
              exact u
    · simp only [hsmall, decide_False, Bool.false_eq_true, if_false]
      have pf : PosFull m h (d + 1) newParent (gp :: rest) := by
        unfold PosFull Full
        rw [if_neg (List.cons_ne_nil _ _), hsz, maxSize_succ, minSize_succ]
        exact ⟨by omega, und.2⟩
      obtain ⟨h', root', hcu, hext, hr, hrf, hents⟩ :=
        copyUp_spec (gp :: rest) c0 rold ag hfresh rnew pf
      exact (UpRes.of_copyUp hD hcu hext hr hrf hents).weaken (Nat.le_refl _) (Agree.refl _ _) hl

end

section
variable {K V : Type} [LinearOrder K]

/-- The first key of a leaf whose first entry is known, in a heap with one more
cell. -/
theorem leaf_first_key {m : Nat} (hm : 2 ≤ m) {h2 : Heap K V} (x : Cell K V) {a : Nat}
    {lo hi : Option K} {S : K} {v : V} {rest : List (K × V)} (r : Rep m h2 0 a lo hi)
    (he : ents h2 0 a = (S, v) :: rest) :
    ∃ l, readLeaf (h2 ++ [x]) a = some l ∧ l.findLeftMostKey = some S := by
  obtain ⟨l, hl, _⟩ := Rep_zero.1 r
  have hl3 : readLeaf (h2 ++ [x]) a = some l := by
    rw [(Agree.append h2 [x] (Nat.le_refl _)).readLeaf (readLeaf_lt hl)]; exact hl
  refine ⟨l, hl3, ?_⟩
  have := (leftMost_of_first hm x r he).2
  unfold nodeI.findLeftMostKey at this
  rw [readLeaf_eq_some.1 hl3] at this
  exact this

/-- The steal-left block of `Del`. -/
theorem delStealLeft_spec {m : Nat} (hm : 3 ≤ m) {h0 h : Heap K V} {t : tree} {D : Nat}
    (hD : t.depth = (D : Int)) {rest : pathT} {gp i oldLeaf newLeaf oldL : Nat}
    {plo phi : Option K} {pre post : List (K × V)} {n : interiorNodeS K}
    {L nl : leafNodeS K V} {kl : K}
    (cp : Ctx m h0 t.root D gp 1 plo phi rest pre post)
    (rp : Rep m h0 1 gp plo phi) (pfp : PosFull m h0 1 gp rest)
    (hn : readNode h0 gp = some n)
    (hiL : n.vals[i]? = some oldL) (hiP : n.vals[i + 1]? = some oldLeaf)
    (hk : n.keys[i]? = some kl)
    (ag : Agree h0.length h0 h) (hfresh : h0.length ≤ newLeaf)
    (rnew : Rep m h 0 newLeaf (loAt plo n.keys (i + 1)) (hiAt phi n.keys (i + 1)))
    (hnl : readLeaf h newLeaf = some nl) (sN : nl.vals.length + 1 = m / 2)
    (hL : readLeaf h0 oldL = some L) (sL : m / 2 < L.vals.length) :
    UpRes m t h h0.length (t.delStealLeft h oldLeaf newLeaf gp oldL kl rest)
      (pre ++ ((n.vals.take (i + 1)).map (ents h0 0)).flatten ++
        ents h 0 newLeaf ++
        (((n.vals.drop (i + 2)).map (ents h0 0)).flatten ++ post)) := by
  have hm2 : 2 ≤ m := by omega
  obtain ⟨n', hn', hcap, hlen, hnd, hltc, KP⟩ := Rep_kids.1 rp
  rw [hn] at hn'
  cases hn'
  have hgp := rp.lt
  have hNlt := rnew.lt
  have hl : h0.length ≤ h.length := by omega
  have hoL : oldL < gp := hltc oldL (List.getElem?_mem hiL)
  have kL0 := KP i oldL hiL
  have ehi : hiAt phi n.keys i = some kl := by
    obtain ⟨hki, hke⟩ := List.getElem?_eq_some.1 hk
    rw [hiAt_lt _ _ hki, hke]
  have elo : loAt plo n.keys (i + 1) = some kl := by rw [loAt_succ, hk]
  rw [ehi] at kL0
  rw [elo] at rnew
  have kL := kL0.agree_kid (ag.mono (by omega : oldL + 1 ≤ h0.length))
  have hLh : readLeaf h oldL = some L := by rw [ag.readLeaf (by omega)]; exact hL
  obtain ⟨h2, S, hsteal, hlen2, agN, sr⟩ := leaf_stealLeft_spec hm2 kL hLh sL rnew hnl sN
  have ag2 : Agree h0.length h0 h2 := ag.trans (agN.mono hfresh)
  have hl2 : h0.length ≤ h2.length := by omega
  have fin := steal_finish hD cp rp pfp hn hiL hiP ag2 hl2 hl hfresh (by omega) sr
  refine (fin.weaken (by omega) (agN.mono hfresh) hl2).congr ?_ ?_
  · have hn2 : readNode h2 gp = some n := by rw [ag2.readNode hgp]; exact hn
    obtain ⟨v, rs, hfirst⟩ := sr.2.2.2
    obtain ⟨l3, hl3, hS⟩ := leaf_first_key hm2 (Cell.node n) sr.2.1.1 hfirst
    have hallg : ∀ (x : Cell K V), ∀ c ∈ n.vals, ∃ l, readLeaf (h2 ++ [x]) c = some l := by
      intro x c hc
      obtain ⟨n', hn'⟩ := rp.child_leaf hn c hc
      have hcl := readLeaf_lt hn'
      refine ⟨n', ?_⟩
      rw [(Agree.append h2 [x] (Nat.le_refl _)).readLeaf (by omega), ag2.readLeaf hcl]
      exact hn'
    have hnewL : ∀ (x : Cell K V), ∃ l, readLeaf (h2 ++ [x]) h.length = some l := by
      intro x
      obtain ⟨n', hn', _⟩ := Rep_zero.1 sr.1.1
      refine ⟨n', ?_⟩
      rw [(Agree.append h2 [x] (Nat.le_refl _)).readLeaf (by omega)]
      exact hn'
    have hfa : h.length ∉ n.vals := fun hmem => by have := hltc _ hmem; omega
    have hk1 := swapKey_spec S (rp.sepOK hn) hk
    have hs1 : (⟨n.cap, n.keys.take i ++ S :: n.keys.drop (i + 1), n.vals⟩ :
        interiorNodeS K).swapLeafNode
        (h2 ++ [Cell.node ⟨n.cap, n.keys.take i ++ S :: n.keys.drop (i + 1), n.vals⟩])
        oldL h.length =
        some ⟨n.cap, n.keys.take i ++ S :: n.keys.drop (i + 1), n.vals.set i h.length⟩ := by
      simp only [interiorNodeS.swapLeafNode, swapLeafVals_spec (hallg _) hiL hnd]
    have hs2 : (⟨n.cap, n.keys.take i ++ S :: n.keys.drop (i + 1), n.vals.set i h.length⟩ :
        interiorNodeS K).swapLeafNode
        (h2 ++ [Cell.node ⟨n.cap, n.keys.take i ++ S :: n.keys.drop (i + 1),
          n.vals.set i h.length⟩]) oldLeaf newLeaf =
        some ⟨n.cap, n.keys.take i ++ S :: n.keys.drop (i + 1),
          n.vals.take i ++ h.length :: newLeaf :: n.vals.drop (i + 2)⟩ := by
      have hall2 : ∀ c ∈ n.vals.set i h.length, ∃ l, readLeaf (h2 ++
          [Cell.node ⟨n.cap, n.keys.take i ++ S :: n.keys.drop (i + 1),
            n.vals.set i h.length⟩]) c = some l := by
        intro c hc
        rcases mem_set_cases hc with hc | rfl
        · exact hallg _ c hc
        · exact hnewL _
      simp only [interiorNodeS.swapLeafNode,
        swapLeafVals_spec hall2 ((getElem?_set_succ _ _ _).trans hiP) (nodup_set hnd hfa i),
        set_set_two hiL hiP]
    have u1 := updNode_fresh (h := h2) (n := n) (f := fun n0 => n0.swapKey kl S) hk1
    have u2 := updNode_fresh (h := h2)
      (n := ⟨n.cap, n.keys.take i ++ S :: n.keys.drop (i + 1), n.vals⟩)
      (f := fun n0 => n0.swapLeafNode
        (h2 ++ [Cell.node ⟨n.cap, n.keys.take i ++ S :: n.keys.drop (i + 1), n.vals⟩])
        oldL h.length) hs1
    have u3 := updNode_fresh (h := h2)
      (n := ⟨n.cap, n.keys.take i ++ S :: n.keys.drop (i + 1), n.vals.set i h.length⟩)
      (f := fun n0 => n0.swapLeafNode
        (h2 ++ [Cell.node ⟨n.cap, n.keys.take i ++ S :: n.keys.drop (i + 1),
          n.vals.set i h.length⟩]) oldLeaf newLeaf) hs2
    unfold tree.delStealLeft
    simp only [leafNodeS.copy_leaf_eq hLh, Option.bind_eq_bind, Option.some_bind, hsteal,
      interiorNodeS.copy_eq hn2, hl3, hS, u1, u2, u3]
  · rw [flat_take_succ _ hiL, kL0.1.ents_agree (ag.mono (by omega : oldL + 1 ≤ h0.length))]
    simp

/-- The steal-right block of `Del`. -/
theorem delStealRight_spec {m : Nat} (hm : 3 ≤ m) {h0 h : Heap K V} {t : tree} {D : Nat}
    (hD : t.depth = (D : Int)) {rest : pathT} {gp i oldLeaf newLeaf oldR : Nat}
    {plo phi : Option K} {pre post : List (K × V)} {n : interiorNodeS K}
    {R nl : leafNodeS K V} {kr : K}
    (cp : Ctx m h0 t.root D gp 1 plo phi rest pre post)
    (rp : Rep m h0 1 gp plo phi) (pfp : PosFull m h0 1 gp rest)
    (hn : readNode h0 gp = some n)
    (hiP : n.vals[i]? = some oldLeaf) (hiR : n.vals[i + 1]? = some oldR)
    (hk : n.keys[i]? = some kr)
    (ag : Agree h0.length h0 h) (hfresh : h0.length ≤ newLeaf)
    (rnew : Rep m h 0 newLeaf (loAt plo n.keys i) (hiAt phi n.keys i))
    (hnl : readLeaf h newLeaf = some nl) (sN : nl.vals.length + 1 = m / 2)
    (hR : readLeaf h0 oldR = some R) (sR : m / 2 < R.vals.length) :
    UpRes m t h h0.length (t.delStealRight h oldLeaf newLeaf gp oldR kr rest)
      (pre ++ ((n.vals.take i).map (ents h0 0)).flatten ++
        ents h 0 newLeaf ++
        (((n.vals.drop (i + 1)).map (ents h0 0)).flatten ++ post)) := by
  have hm2 : 2 ≤ m := by omega
  obtain ⟨n', hn', hcap, hlen, hnd, hltc, KP⟩ := Rep_kids.1 rp
  rw [hn] at hn'
  cases hn'
  have hgp := rp.lt
  have hNlt := rnew.lt
  have hl : h0.length ≤ h.length := by omega
  have hoR : oldR < gp := hltc oldR (List.getElem?_mem hiR)
  have kR0 := KP (i + 1) oldR hiR
  have ehi : hiAt phi n.keys i = some kr := by
    obtain ⟨hki, hke⟩ := List.getElem?_eq_some.1 hk
    rw [hiAt_lt _ _ hki, hke]
  have elo : loAt plo n.keys (i + 1) = some kr := by rw [loAt_succ, hk]
  rw [elo] at kR0
  rw [ehi] at rnew
  have kR := kR0.agree_kid (ag.mono (by omega : oldR + 1 ≤ h0.length))
  have hRh : readLeaf h oldR = some R := by rw [ag.readLeaf (by omega)]; exact hR
  obtain ⟨h2, S, hsteal, hlen2, agN, sr⟩ := leaf_stealRight_spec hm2 kR hRh sR rnew hnl sN
  have ag2 : Agree h0.length h0 h2 := ag.trans (agN.mono hfresh)
  have hl2 : h0.length ≤ h2.length := by omega
  have fin := steal_finish hD cp rp pfp hn hiP hiR ag2 hl2 hfresh hl (by omega) sr
  refine (fin.weaken (by omega) (agN.mono hfresh) hl2).congr ?_ ?_
  · have hn2 : readNode h2 gp = some n := by rw [ag2.readNode hgp]; exact hn
    obtain ⟨v, rs, hfirst⟩ := sr.2.2.2
    obtain ⟨l3, hl3, hS⟩ := leaf_first_key hm2 (Cell.node n) sr.2.1.1 hfirst
    have hallg : ∀ (x : Cell K V), ∀ c ∈ n.vals, ∃ l, readLeaf (h2 ++ [x]) c = some l := by
      intro x c hc
      obtain ⟨n', hn'⟩ := rp.child_leaf hn c hc
      have hcl := readLeaf_lt hn'
      refine ⟨n', ?_⟩
      rw [(Agree.append h2 [x] (Nat.le_refl _)).readLeaf (by omega), ag2.readLeaf hcl]
      exact hn'
    have hnewR : ∀ (x : Cell K V), ∃ l, readLeaf (h2 ++ [x]) h.length = some l := by
      intro x
      obtain ⟨n', hn', _⟩ := Rep_zero.1 sr.2.1.1
      refine ⟨n', ?_⟩
      rw [(Agree.append h2 [x] (Nat.le_refl _)).readLeaf (by omega)]
      exact hn'
    have hfa : h.length ∉ n.vals := fun hmem => by have := hltc _ hmem; omega
    have hk1 := swapKey_spec S (rp.sepOK hn) hk
    have hs1 : (⟨n.cap, n.keys.take i ++ S :: n.keys.drop (i + 1), n.vals⟩ :
        interiorNodeS K).swapLeafNode
        (h2 ++ [Cell.node ⟨n.cap, n.keys.take i ++ S :: n.keys.drop (i + 1), n.vals⟩])
        oldR h.length =
        some ⟨n.cap, n.keys.take i ++ S :: n.keys.drop (i + 1),
          n.vals.set (i + 1) h.length⟩ := by
      simp only [interiorNodeS.swapLeafNode, swapLeafVals_spec (hallg _) hiR hnd]
    have hs2 : (⟨n.cap, n.keys.take i ++ S :: n.keys.drop (i + 1),
          n.vals.set (i + 1) h.length⟩ : interiorNodeS K).swapLeafNode
        (h2 ++ [Cell.node ⟨n.cap, n.keys.take i ++ S :: n.keys.drop (i + 1),
          n.vals.set (i + 1) h.length⟩]) oldLeaf newLeaf =
        some ⟨n.cap, n.keys.take i ++ S :: n.keys.drop (i + 1),
          n.vals.take i ++ newLeaf :: h.length :: n.vals.drop (i + 2)⟩ := by
      have hall2 : ∀ c ∈ n.vals.set (i + 1) h.length, ∃ l, readLeaf (h2 ++
          [Cell.node ⟨n.cap, n.keys.take i ++ S :: n.keys.drop (i + 1),
            n.vals.set (i + 1) h.length⟩]) c = some l := by
        intro c hc
        rcases mem_set_cases hc with hc | rfl
        · exact hallg _ c hc
        · exact hnewR _
      simp only [interiorNodeS.swapLeafNode,
        swapLeafVals_spec hall2 ((getElem?_set_pred _ _ _).trans hiP)
          (nodup_set hnd hfa (i + 1)),
        set_set_two_rev hiP hiR]
    have u1 := updNode_fresh (h := h2) (n := n) (f := fun n0 => n0.swapKey kr S) hk1
    have u2 := updNode_fresh (h := h2)
      (n := ⟨n.cap, n.keys.take i ++ S :: n.keys.drop (i + 1), n.vals⟩)
      (f := fun n0 => n0.swapLeafNode
        (h2 ++ [Cell.node ⟨n.cap, n.keys.take i ++ S :: n.keys.drop (i + 1), n.vals⟩])
        oldR h.length) hs1
    have u3 := updNode_fresh (h := h2)
      (n := ⟨n.cap, n.keys.take i ++ S :: n.keys.drop (i + 1), n.vals.set (i + 1) h.length⟩)
      (f := fun n0 => n0.swapLeafNode
        (h2 ++ [Cell.node ⟨n.cap, n.keys.take i ++ S :: n.keys.drop (i + 1),
          n.vals.set (i + 1) h.length⟩]) oldLeaf newLeaf) hs2
    unfold tree.delStealRight
    simp only [leafNodeS.copy_leaf_eq hRh, Option.bind_eq_bind, Option.some_bind, hsteal,
      interiorNodeS.copy_eq hn2, hl3, hS, u1, u2, u3]
  · rw [flat_drop_succ _ hiR, kR0.1.ents_agree (ag.mono (by omega : oldR + 1 ≤ h0.length))]
    simp

/-- The merge of the too small new leaf into a copy of its left peer, followed by
`delUpLeaf`. -/
theorem delMergeLeft_spec {m : Nat} (hm : 3 ≤ m) {h0 h : Heap K V} {t : tree} {D : Nat}
    (hD : t.depth = (D : Int)) {rest : pathT} {gp i oldLeaf newLeaf oldL : Nat}
    {plo phi : Option K} {pre post : List (K × V)} {n : interiorNodeS K}
    {L nl : leafNodeS K V} {kl : K}
    (cp : Ctx m h0 t.root D gp 1 plo phi rest pre post)
    (rp : Rep m h0 1 gp plo phi) (pfp : PosFull m h0 1 gp rest)
    (hn : readNode h0 gp = some n)
    (hiL : n.vals[i]? = some oldL) (hiP : n.vals[i + 1]? = some oldLeaf)
    (hk : n.keys[i]? = some kl)
    (ag : Agree h0.length h0 h) (hfresh : h0.length ≤ newLeaf)
    (rnew : Rep m h 0 newLeaf (loAt plo n.keys (i + 1)) (hiAt phi n.keys (i + 1)))
    (hnl : readLeaf h newLeaf = some nl) (sN : nl.vals.length + 1 = m / 2)
    (hL : readLeaf h0 oldL = some L) (sL : L.vals.length ≤ m / 2)
    (right : Option (Nat × K)) :
    ∃ h2, delMerge h oldLeaf newLeaf (some (oldL, kl)) right =
        some (h2, oldL, h.length, oldLeaf) ∧
      UpRes m t h h0.length (t.delUpLeaf h2 gp oldL h.length oldLeaf rest)
        (pre ++ ((n.vals.take (i + 1)).map (ents h0 0)).flatten ++
          ents h 0 newLeaf ++
          (((n.vals.drop (i + 2)).map (ents h0 0)).flatten ++ post)) := by
  have hm2 : 2 ≤ m := by omega
  obtain ⟨n', hn', hcap, hlen, hnd, hltc, KP⟩ := Rep_kids.1 rp
  rw [hn] at hn'
  cases hn'
  have hgp := rp.lt
  have hNlt := rnew.lt
  have hl : h0.length ≤ h.length := by omega
  have hoL : oldL < gp := hltc oldL (List.getElem?_mem hiL)
  have kL0 := KP i oldL hiL
  have ehi : hiAt phi n.keys i = some kl := by
    obtain ⟨hki, hke⟩ := List.getElem?_eq_some.1 hk
    rw [hiAt_lt _ _ hki, hke]
  have elo : loAt plo n.keys (i + 1) = some kl := by rw [loAt_succ, hk]
  rw [ehi] at kL0
  rw [elo] at rnew
  have kL := kL0.agree_kid (ag.mono (by omega : oldL + 1 ≤ h0.length))
  have hLh : readLeaf h oldL = some L := by rw [ag.readLeaf (by omega)]; exact hL
  obtain ⟨h2, hmerge, hlen2, agN, km, hes⟩ := leaf_mergeLeft_spec hm2 kL hLh sL rnew hnl sN
  have ag2 : Agree h0.length h0 h2 := ag.trans (agN.mono hl)
  have hl2 : h0.length ≤ h2.length := by omega
  have hn2 : readNode h2 gp = some n := by rw [ag2.readNode hgp]; exact hn
  have hallg : ∀ c ∈ n.vals, ∃ l, readLeaf h2 c = some l := by
    intro c hc
    obtain ⟨n', hn'⟩ := rp.child_leaf hn c hc
    have hcl := readLeaf_lt hn'
    refine ⟨n', ?_⟩
    rw [ag2.readLeaf hcl]
    exact hn'
  have hmer : ∃ l, readLeaf h2 h.length = some l := by
    obtain ⟨n', hn', _⟩ := Rep_zero.1 km.1
    exact ⟨n', hn'⟩
  have hfa : h.length ∉ n.vals := fun hmem => by have := hltc _ hmem; omega
  obtain ⟨e3, e4⟩ := merge_parent_leaf hallg hmer hnd hfa hlen hiL hiP
  have fin := merge_finish (delUpFill_spec hm hD rest) cp rp pfp hn hiL hiP ag2 hl2 hl km hes
  refine ⟨h2, ?_, ?_⟩
  · unfold delMerge
    simp only [leafNodeS.copy_leaf_eq hLh, Option.bind_eq_bind, Option.some_bind, hmerge]
  · refine (fin.weaken (by omega) (agN.mono hl) (Nat.le_refl _)).congr ?_ ?_
    · unfold tree.delUpLeaf
      simp only [interiorNodeS.copy_eq hn2, Option.bind_eq_bind, Option.some_bind, e3, e4]
    · rw [flat_take_succ _ hiL, kL0.1.ents_agree (ag.mono (by omega : oldL + 1 ≤ h0.length))]
      simp

/-- The merge of the right peer into the too small new leaf, followed by
`delUpLeaf`. -/
theorem delMergeRight_spec {m : Nat} (hm : 3 ≤ m) {h0 h : Heap K V} {t : tree} {D : Nat}
    (hD : t.depth = (D : Int)) {rest : pathT} {gp i oldLeaf newLeaf oldR : Nat}
    {plo phi : Option K} {pre post : List (K × V)} {n : interiorNodeS K}
    {R nl : leafNodeS K V} {kr : K}
    (cp : Ctx m h0 t.root D gp 1 plo phi rest pre post)
    (rp : Rep m h0 1 gp plo phi) (pfp : PosFull m h0 1 gp rest)
    (hn : readNode h0 gp = some n)
    (hiP : n.vals[i]? = some oldLeaf) (hiR : n.vals[i + 1]? = some oldR)
    (hk : n.keys[i]? = some kr)
    (ag : Agree h0.length h0 h) (hfresh : h0.length ≤ newLeaf)
    (rnew : Rep m h 0 newLeaf (loAt plo n.keys i) (hiAt phi n.keys i))
    (hnl : readLeaf h newLeaf = some nl) (sN : nl.vals.length + 1 = m / 2)
    (hR : readLeaf h0 oldR = some R) (sR : R.vals.length ≤ m / 2) :
    ∃ h2, delMerge h oldLeaf newLeaf none (some (oldR, kr)) =
        some (h2, oldLeaf, newLeaf, oldR) ∧
      UpRes m t h h0.length (t.delUpLeaf h2 gp oldLeaf newLeaf oldR rest)
        (pre ++ ((n.vals.take i).map (ents h0 0)).flatten ++
          ents h 0 newLeaf ++
          (((n.vals.drop (i + 1)).map (ents h0 0)).flatten ++ post)) := by
  have hm2 : 2 ≤ m := by omega
  obtain ⟨n', hn', hcap, hlen, hnd, hltc, KP⟩ := Rep_kids.1 rp
  rw [hn] at hn'
  cases hn'
  have hgp := rp.lt
  have hNlt := rnew.lt
  have hl : h0.length ≤ h.length := by omega
  have hoR : oldR < gp := hltc oldR (List.getElem?_mem hiR)
  have kR0 := KP (i + 1) oldR hiR
  have ehi : hiAt phi n.keys i = some kr := by
    obtain ⟨hki, hke⟩ := List.getElem?_eq_some.1 hk
    rw [hiAt_lt _ _ hki, hke]
  have elo : loAt plo n.keys (i + 1) = some kr := by rw [loAt_succ, hk]
  rw [elo] at kR0
  rw [ehi] at rnew
  have kR := kR0.agree_kid (ag.mono (by omega : oldR + 1 ≤ h0.length))
  have hRh : readLeaf h oldR = some R := by rw [ag.readLeaf (by omega)]; exact hR
  obtain ⟨h2, hmerge, hlen2, agN, km, hes⟩ := leaf_mergeRight_spec hm2 kR hRh sR rnew hnl sN
  have ag2 : Agree h0.length h0 h2 := ag.trans (agN.mono hfresh)
  have hl2 : h0.length ≤ h2.length := by omega
  have hn2 : readNode h2 gp = some n := by rw [ag2.readNode hgp]; exact hn
  have hallg : ∀ c ∈ n.vals, ∃ l, readLeaf h2 c = some l := by
    intro c hc
    obtain ⟨n', hn'⟩ := rp.child_leaf hn c hc
    have hcl := readLeaf_lt hn'
    refine ⟨n', ?_⟩
    rw [ag2.readLeaf hcl]
    exact hn'
  have hmer : ∃ l, readLeaf h2 newLeaf = some l := by
    obtain ⟨n', hn', _⟩ := Rep_zero.1 km.1
    exact ⟨n', hn'⟩
  have hfa : newLeaf ∉ n.vals := fun hmem => by have := hltc _ hmem; omega
  obtain ⟨e3, e4⟩ := merge_parent_leaf hallg hmer hnd hfa hlen hiP hiR
  have fin := merge_finish (delUpFill_spec hm hD rest) cp rp pfp hn hiP hiR ag2 hl2 hfresh
    km hes
  refine ⟨h2, ?_, ?_⟩
  · unfold delMerge
    simp only [Option.bind_eq_bind, Option.some_bind, hmerge]
  · refine (fin.weaken (by omega) (agN.mono hfresh) (Nat.le_refl _)).congr ?_ ?_
    · unfold tree.delUpLeaf
      simp only [interiorNodeS.copy_eq hn2, Option.bind_eq_bind, Option.some_bind, e3, e4]
    · rw [flat_drop_succ _ hiR, kR0.1.ents_agree (ag.mono (by omega : oldR + 1 ≤ h0.length))]
      simp

end

section
variable {K V : Type} [LinearOrder K]

theorem isRoot_leaf_false {h : Heap K V} {t : tree} {leaf : Nat} {nr : interiorNodeS K}
    {l : leafNodeS K V} (hr : readNode h t.root = some nr) (hl : readLeaf h leaf = some l) :
    t.isRoot h leaf = some false := by
  unfold tree.isRoot
  rw [readNode_eq_some.1 hr, readLeaf_eq_some.1 hl]

/-- The part of `Del` that handles a too small new leaf. -/
theorem delFill_spec {m : Nat} (hm : 3 ≤ m) {h0 h : Heap K V} {t : tree} {D : Nat}
    (hD : t.depth = (D : Int)) {rest : pathT} {gp oldLeaf newLeaf : Nat}
    {lo hi : Option K} {pre post : List (K × V)} {nl : leafNodeS K V}
    (c : Ctx m h0 t.root D oldLeaf 0 lo hi (gp :: rest) pre post)
    (ag : Agree h0.length h0 h) (hfresh : h0.length ≤ newLeaf)
    (rnew : Rep m h 0 newLeaf lo hi)
    (hnl : readLeaf h newLeaf = some nl) (sN : nl.vals.length + 1 = m / 2) :
    UpRes m t h h0.length (t.delFill h oldLeaf newLeaf gp rest)
      (pre ++ ents h 0 newLeaf ++ post) := by
  obtain ⟨n, plo, phi, ip, pre', post', hn, hi', rfl, rfl, rp, pfp, rfl, rfl, cp⟩ := c
  obtain ⟨n', hn', hcap, hlen, hnd, hltc, KP⟩ := Rep_kids.1 rp
  rw [hn] at hn'
  cases hn'
  have hgp := rp.lt
  have hNlt := rnew.lt
  have hl : h0.length ≤ h.length := by omega
  have hgp_h : readNode h gp = some n := by rw [ag.readNode hgp]; exact hn
  have hch0 : ∀ c ∈ n.vals, ∃ l, readLeaf h0 c = some l := rp.child_leaf hn
  have hallg : ∀ c ∈ n.vals, ∃ l, readLeaf h c = some l := by
    intro c hc
    obtain ⟨n', hn'⟩ := hch0 c hc
    refine ⟨n', ?_⟩
    rw [ag.readLeaf (readLeaf_lt hn')]
    exact hn'
  have hip : ip < n.vals.length := (List.getElem?_eq_some.1 hi').1
  have h2le : 2 ≤ n.vals.length := by
    have := pfp.two_le hm
    rwa [nodeSize_of_node hn] at this
  unfold tree.delFill
  simp only [hgp_h, leaf_findPeerLeft_eq hallg hlen hnd hi',
    leaf_findPeerRight_eq hallg hlen hnd hi']
  rcases Nat.eq_zero_or_pos ip with hz | hpos
  · subst hz
    obtain ⟨oldR, hiR⟩ : ∃ c, n.vals[1]? = some c :=
      ⟨_, List.getElem?_eq_getElem (by omega)⟩
    obtain ⟨kr, hk⟩ : ∃ k, n.keys[0]? = some k :=
      ⟨_, List.getElem?_eq_getElem (by omega)⟩
    obtain ⟨R, hR⟩ := hch0 oldR (List.getElem?_mem hiR)
    have hRh : readLeaf h oldR = some R := by
      rw [ag.readLeaf (readLeaf_lt hR)]; exact hR
    have hcapR : R.cap = m := by
      obtain ⟨R', hR', hc, _⟩ := Rep_zero.1 (KP 1 oldR hiR).1
      rw [hR] at hR'
      cases hR'
      exact hc
    have hne : ¬ (0 = n.vals.length - 1) := by omega
    simp only [if_true, if_neg hne, peerRightAt_eq hiR hk, leaf_canSteal_eq kr hRh hcapR,
      leaf_canSteal_none]
    by_cases hcan : m / 2 < R.vals.length
    · simp only [hcan, decide_True]
      exact delStealRight_spec hm hD cp rp pfp hn hi' hiR hk ag hfresh rnew hnl sN hR hcan
    · simp only [hcan, decide_False]
      obtain ⟨h2, e1, u⟩ := delMergeRight_spec hm hD cp rp pfp hn hi'
        hiR hk ag hfresh rnew hnl sN hR (by omega)
      simp only [e1]
      exact u
  · obtain ⟨i, rfl⟩ : ∃ i, ip = i + 1 := ⟨ip - 1, by omega⟩
    obtain ⟨oldL, hiL⟩ : ∃ c, n.vals[i]? = some c :=
      ⟨_, List.getElem?_eq_getElem (by omega)⟩
    obtain ⟨kl, hk⟩ : ∃ k, n.keys[i]? = some k :=
      ⟨_, List.getElem?_eq_getElem (by omega)⟩
    obtain ⟨L, hL⟩ := hch0 oldL (List.getElem?_mem hiL)
    have hLh : readLeaf h oldL = some L := by
      rw [ag.readLeaf (readLeaf_lt hL)]; exact hL
    have hcapL : L.cap = m := by
      obtain ⟨L', hL', hc, _⟩ := Rep_zero.1 (KP i oldL hiL).1
      rw [hL] at hL'
      cases hL'
      exact hc
    simp only [if_neg (Nat.succ_ne_zero i), peerLeftAt_succ hiL hk,
      leaf_canSteal_eq kl hLh hcapL]
    by_cases hcanL : m / 2 < L.vals.length
    · simp only [hcanL, decide_True]
      exact delStealLeft_spec hm hD cp rp pfp hn hiL hi' hk ag hfresh rnew hnl sN hL hcanL
    · simp only [hcanL, decide_False]
      by_cases hlast : i + 1 = n.vals.length - 1
      · simp only [if_pos hlast, leaf_canSteal_none]
        obtain ⟨h2, e1, u⟩ := delMergeLeft_spec hm hD cp rp pfp hn hiL
          hi' hk ag hfresh rnew hnl sN hL (by omega) none
        simp only [e1]
        exact u
      · obtain ⟨oldR, hiR⟩ : ∃ c, n.vals[i + 1 + 1]? = some c :=
          ⟨_, List.getElem?_eq_getElem (by omega)⟩
        obtain ⟨kr, hkr⟩ : ∃ k, n.keys[i + 1]? = some k :=
          ⟨_, List.getElem?_eq_getElem (by omega)⟩
        obtain ⟨R, hR⟩ := hch0 oldR (List.getElem?_mem hiR)
        have hRh : readLeaf h oldR = some R := by
          rw [ag.readLeaf (readLeaf_lt hR)]; exact hR
        have hcapR : R.cap = m := by
          obtain ⟨R', hR', hc, _⟩ := Rep_zero.1 (KP (i + 1 + 1) oldR hiR).1
          rw [hR] at hR'
          cases hR'
          exact hc
        simp only [if_neg hlast, peerRightAt_eq hiR hkr, leaf_canSteal_eq kr hRh hcapR]
        by_cases hcan : m / 2 < R.vals.length
        · simp only [hcan, decide_True]
          exact delStealRight_spec hm hD cp rp pfp hn hi' hiR hkr ag hfresh rnew hnl sN
            hR hcan
        · simp only [hcan, decide_False]
          obtain ⟨h2, e1, u⟩ := delMergeLeft_spec hm hD cp rp pfp hn
            hiL hi' hk ag hfresh rnew hnl sN hL (by omega) (some (oldR, kr))
          simp only [e1]
          exact u

theorem getRes_false [Inhabited V] {o : Option V} {v : V} (h : (v, false) = getRes o) :
    o = none ∧ v = default := by
  cases o with
  | none => exact ⟨rfl, (Prod.mk.inj h).1⟩
  | some w => simp [getRes] at h

theorem getRes_true [Inhabited V] {o : Option V} {v : V} (h : (v, true) = getRes o) :
    o = some v := by
  cases o with
  | none => simp [getRes] at h
  | some w =>
    simp only [getRes, Prod.mk.injEq, and_true] at h
    rw [h]

/-- The method `Del` on a tree that satisfies the invariant: it returns the value
and the flag that `Get` returns for the key, the entries of the new tree are
the old ones without the key, the handle is the old one when the key is
absent, and the heap is only extended. -/
theorem Del_spec [Inhabited V] {m : Nat} {h : Heap K V} {t : tree} {es : List (K × V)}
    (inv : EInv m h t es) (key : K) :
    ∃ h' t', t.Del h key = some (h', t', getRes (lookup key es)) ∧ Ext h h' ∧
      EInv m h' t' (eraseKey key es) ∧ (lookup key es = none → t' = t) ∧
      t'.numEnts = t.numEnts - (if (lookup key es).isSome then 1 else 0) := by
  have hsorted := inv.sorted_ents
  have inv0 := inv
  obtain ⟨hm, hord, d, hD, r, rf, he, hc⟩ := inv
  have ag0 : Agree h.length h (h ++ [Cell.leaf ⟨t.order.toNat, [], []⟩]) :=
    Agree.append _ _ (Nat.le_refl _)
  generalize hh0 : h ++ [Cell.leaf (⟨t.order.toNat, [], []⟩ : leafNodeS K V)] = h0 at ag0
  have hl0 : h.length ≤ h0.length := by rw [← hh0]; simp
  have r0 := r.agree (ag0.mono r.lt)
  have rf0 := rf.agree_root (ag0.mono r.lt)
  have he0 : ents h0 d t.root = es := by rw [r.ents_agree (ag0.mono r.lt), he]
  obtain ⟨leaf, path, lo, hi, pre, post, hf, rl, pfl, c, hlo, hhi⟩ := findLeaf_spec key r0 rf0
  obtain ⟨l, hl, hcap, hlen, hs, hbnd, hblt⟩ := Rep_zero.1 rl
  obtain ⟨l', val, removed, hrem, hcap', hlen', hs', hmem', hzip', hres, hvlen⟩ :=
    leafNodeS.remove_spec l key hlen hs
  have hsides := c.sides
  have hes : es = pre ++ ents h0 0 leaf ++ post := by rw [← he0]; exact c.ents_eq
  have hlook : lookup key es = lookup key (l.keys.zip l.vals) := by
    rw [hes, lookup_append3 (fun e he => ne_of_lt (hsides.1 e he key hlo))
      (fun e he => ne_of_gt (hsides.2 e he key hhi)), ents_leaf hl]
  have hers : eraseKey key es = pre ++ l'.keys.zip l'.vals ++ post := by
    rw [hes, eraseKey_append3 (fun e he => ne_of_lt (hsides.1 e he key hlo))
      (fun e he => ne_of_gt (hsides.2 e he key hhi)), ents_leaf hl, hzip']
  rw [← hlook] at hres
  have hrl2 := readLeaf_append_self h0 l'
  have ag2 : Agree h0.length h0 (h0 ++ [Cell.leaf l']) := Agree.append _ _ (Nat.le_refl _)
  have ext2 : Ext h (h0 ++ [Cell.leaf l']) :=
    ⟨by simp; omega, ag0.trans (ag2.mono hl0)⟩
  have hwl := withLeaf_fresh (h := h0) (l := l) (f := fun l0 => l0.remove key) hrem
  cases removed with
  | false =>
    obtain ⟨hnone, hval⟩ := getRes_false hres
    have herase : eraseKey key es = es := eraseKey_none (lookup_eq_none_iff.1 hnone)
    refine ⟨h0 ++ [Cell.leaf l'], t, ?_, ext2, ?_, fun _ => rfl, by simp [hnone]⟩
    · rw [← hres]
      unfold tree.Del
      rw [tree.copy_tree_eq, hh0]
      simp only [hf, leafNodeS.copy_leaf_eq hl, hwl, if_true]
    · rw [herase]
      exact inv0.ext ext2
  | true =>
    have hsome := getRes_true hres
    have hpos : 1 ≤ es.length := by
      have : (lookup key es).isSome = true := by rw [hsome]; rfl
      obtain ⟨e, hemem, _⟩ := lookup_isSome_iff.1 this
      exact List.length_pos_of_mem hemem
    have r2 : Rep m (h0 ++ [Cell.leaf l']) 0 h0.length lo hi :=
      Rep_zero.2 ⟨l', hrl2, by rw [hcap', hcap], hlen', hs', fun k hk => hbnd k (hmem' k hk),
        hblt⟩
    have hents2 : ents (h0 ++ [Cell.leaf l']) 0 h0.length = l'.keys.zip l'.vals :=
      ents_leaf hrl2
    have hcount : t.numEnts - 1 = ((eraseKey key es).length : Int) := by
      rw [hc, length_eraseKey hsorted, hsome]
      simp only [Option.isSome_some, if_true]
      omega
    simp only [if_true] at hvlen
    have hlold := pfl.leaf_le hl
    have hup : ∃ res, t.Del h key = res.map (fun r => (r.1, r.2, val, true)) ∧
        UpRes m { t with numEnts := t.numEnts - 1 } h0 h0.length res (eraseKey key es) := by
      cases path with
      | nil =>
        have c' := c
        obtain ⟨rfl, rfl, rfl, rfl, rfl, rfl⟩ := c'
        have hroot2 : readLeaf (h0 ++ [Cell.leaf l']) t.root = some l := by
          rw [ag2.readLeaf (readLeaf_lt hl)]; exact hl
        have pf2 : PosFull m (h0 ++ [Cell.leaf l']) 0 h0.length [] := by
          unfold PosFull RootFull
          rw [if_pos rfl, nodeSize_of_leaf hrl2, maxSize_zero]
          exact ⟨by simp, by omega⟩
        have := copyUpLeaf_spec (t := { t with numEnts := t.numEnts - 1 }) hD [] c rl ag2
          (Nat.le_refl _) r2 pf2
        refine ⟨_, ?_, (this.weaken (by simp) ag2 (by simp)).congr rfl ?_⟩
        · unfold tree.Del
          rw [tree.copy_tree_eq, hh0]
          simp only [hf, leafNodeS.copy_leaf_eq hl, hwl, isRoot_leaf hroot2]
          simp [pathT.isEmpty]
        · rw [hers, hents2]
      | cons gp rest =>
        obtain ⟨_, nr, hnr⟩ := Ctx.root_node rest c
        have hroot2 : readNode (h0 ++ [Cell.leaf l']) t.root = some nr := by
          rw [ag2.readNode (readNode_lt hnr)]; exact hnr
        have hleaf2 : readLeaf (h0 ++ [Cell.leaf l']) leaf = some l := by
          rw [ag2.readLeaf (readLeaf_lt hl)]; exact hl
        have hfull : m / 2 ≤ l.vals.length := by
          have := pfl
          unfold PosFull Full at this
          rw [if_neg (List.cons_ne_nil _ _), nodeSize_of_leaf hl, minSize_zero] at this
          exact this.1
        by_cases hsmall : l'.vals.length < m / 2
        · have := delFill_spec (t := { t with numEnts := t.numEnts - 1 }) hm hD c ag2
            (Nat.le_refl _) r2 hrl2 (by omega)
          refine ⟨_, ?_, (this.weaken (by simp) ag2 (Nat.le_refl _)).congr rfl ?_⟩
          · unfold tree.Del
            rw [tree.copy_tree_eq, hh0]
            simp only [hf, leafNodeS.copy_leaf_eq hl, hwl, isRoot_leaf_false hroot2 hleaf2, hrl2,
              leaf_isToSmall_eq (hcap'.trans hcap), hsmall, decide_True, if_true]
            simp
          · rw [hers, hents2]
        · have pf2 : PosFull m (h0 ++ [Cell.leaf l']) 0 h0.length (gp :: rest) := by
            unfold PosFull Full
            rw [if_neg (List.cons_ne_nil _ _), nodeSize_of_leaf hrl2, maxSize_zero,
              minSize_zero]
            exact ⟨by omega, by omega⟩
          have := copyUpLeaf_spec (t := { t with numEnts := t.numEnts - 1 }) hD (gp :: rest)
            c rl ag2 (Nat.le_refl _) r2 pf2
          refine ⟨_, ?_, (this.weaken (by simp) ag2 (by simp)).congr rfl ?_⟩
          · unfold tree.Del
            rw [tree.copy_tree_eq, hh0]
            simp only [hf, leafNodeS.copy_leaf_eq hl, hwl, isRoot_leaf_false hroot2 hleaf2, hrl2,
              leaf_isToSmall_eq (hcap'.trans hcap), hsmall, decide_False]
            simp
          · rw [hers, hents2]
    obtain ⟨res, hdel, hres'⟩ := hup
    obtain ⟨h', t', hr', hl', ag', inv', hn'⟩ := hres'.einv hm hord hcount
    refine ⟨h', t', ?_, ⟨by omega, (ag0.trans (ag'.mono hl0))⟩, inv', ?_, ?_⟩
    · rw [hdel, hr', ← hres]
      rfl
    · intro hnone
      rw [hnone] at hsome
      cases hsome
    · rw [hn', hsome]
      simp

end

section
variable {K V : Type} [LinearOrder K] [Inhabited V]

theorem getRes_snd (o : Option V) : (getRes o).2 = o.isSome := by
  cases o <;> rfl

theorem getRes_none : getRes (none : Option V) = (default, false) := rfl

theorem getRes_some (v : V) : getRes (some v) = (v, true) := rfl

theorem getRes_inj {o : Option V} {v : V} (h : getRes o = (v, true)) : o = some v :=
  getRes_true h.symm

/-- The tree that `NewBpTree` returns satisfies the invariant and has no entry. -/
theorem NewBpTree_spec {m : Nat} {h0 h : Heap K V} {t : tree}
    (hnew : NewBpTree h0 (m : Int) = some (h, t)) : EInv m h t [] := by
  unfold NewBpTree at hnew
  split at hnew
  · cases hnew
  · rename_i hm
    have hm3 : 3 ≤ m := by omega
    rw [if_neg (by
      intro hlt
      rw [if_pos hlt] at hnew
      cases hnew)] at hnew
    simp only [mkTree, mkLeaf, alloc, Option.some.injEq, Prod.mk.injEq] at hnew
    obtain ⟨rfl, rfl⟩ := hnew
    have hr : readLeaf (h0 ++ [Cell.leaf (⟨(m : Int).toNat, [], []⟩ : leafNodeS K V)])
        h0.length = some ⟨(m : Int).toNat, [], []⟩ := readLeaf_append_self _ _
    refine ⟨hm3, rfl, 0, rfl, Rep_zero.2 ⟨_, hr, by simp, rfl, List.Pairwise.nil, ?_,
      bLt_none_left _⟩, ?_, ?_, rfl⟩
    · intro k hk
      simp at hk
    · unfold RootFull
      rw [nodeSize_of_leaf hr]
      simp
    · rw [ents_leaf hr]
      rfl

/-- The order of a tree that `NewBpTree` returns is one that `make` can allocate. -/
theorem NewBpTree_order_le {h0 h : Heap K V} {t : tree} {order : Int}
    (hnew : NewBpTree h0 order = some (h, t)) : 3 ≤ order ∧ order ≤ (maxOrder : Int) := by
  unfold NewBpTree at hnew
  split at hnew
  · cases hnew
  · split at hnew
    · cases hnew
    · omega

/-- The order of a reachable tree is one that `make` can allocate. -/
theorem Reachable.order_le {m : Nat} {h : Heap K V} {t : tree}
    (r : Reachable m h t) : m ≤ maxOrder := by
  induction r with
  | new h0 h t hnew =>
    have := (NewBpTree_order_le hnew).2
    omega
  | put h h' t t' k v b _ hput ih => exact ih
  | del h h' t t' k v b _ hdel ih => exact ih
  | putOld h h' t t' k v b _ hput ih => exact ih
  | delOld h h' t t' k v b _ hdel ih => exact ih

/-- An order that can be allocated is one that binary64 holds exactly. -/
theorem maxOrder_le : maxOrder ≤ 2 ^ 53 := by decide

/-- Every reachable tree satisfies the invariant. -/
theorem Reachable.to_einv {m : Nat} {h : Heap K V} {t : tree} (r : Reachable m h t) :
    ∃ es, EInv m h t es := by
  induction r with
  | new h0 h t hnew => exact ⟨[], NewBpTree_spec hnew⟩
  | put h h' t t' k v b _ hput ih =>
    obtain ⟨es, inv⟩ := ih
    obtain ⟨h2, t2, hp, _, inv2, _⟩ := Put_spec inv k v
    rw [hput] at hp
    simp only [Option.some.injEq, Prod.mk.injEq] at hp
    obtain ⟨rfl, rfl, _⟩ := hp
    exact ⟨_, inv2⟩
  | del h h' t t' k v b _ hdel ih =>
    obtain ⟨es, inv⟩ := ih
    obtain ⟨h2, t2, hp, _, inv2, _⟩ := Del_spec inv k
    rw [hdel] at hp
    simp only [Option.some.injEq, Prod.mk.injEq] at hp
    obtain ⟨rfl, rfl, _⟩ := hp
    exact ⟨_, inv2⟩
  | putOld h h' t t' k v b _ hput ih =>
    obtain ⟨es, inv⟩ := ih
    obtain ⟨h2, t2, hp, ext, _, _⟩ := Put_spec inv k v
    rw [hput] at hp
    simp only [Option.some.injEq, Prod.mk.injEq] at hp
    obtain ⟨rfl, _, _⟩ := hp
    exact ⟨_, inv.ext ext⟩
  | delOld h h' t t' k v b _ hdel ih =>
    obtain ⟨es, inv⟩ := ih
    obtain ⟨h2, t2, hp, ext, _, _⟩ := Del_spec inv k
    rw [hdel] at hp
    simp only [Option.some.injEq, Prod.mk.injEq] at hp
    obtain ⟨rfl, _, _⟩ := hp
    exact ⟨_, inv.ext ext⟩

theorem Reachable.inv {m : Nat} {h : Heap K V} {t : tree} (r : Reachable m h t) :
    Inv m h t := Inv_iff.2 r.to_einv

/-! ## The contract of `Get`, `Put` and `Del` -/

/-- C1: Get-after-put.  On every tree reachable from `NewBpTree(m)` by `Put` and
`Del`, `Put(k, v)` returns, and `Get(k)` on the tree it returns is `(v, true)`. -/
theorem get_after_put {m : Nat} {h : Heap K V} {t : tree} (r : Reachable m h t) (k : K) (v : V) :
    ∃ h' t' b, t.Put h k v = some (h', t', b) ∧ t'.Get h' k = some (v, true) := by
  obtain ⟨es, inv⟩ := r.to_einv
  obtain ⟨h', t', hp, _, inv', _⟩ := Put_spec inv k v
  refine ⟨h', t', _, hp, ?_⟩
  rw [inv'.get k, lookup_upsert_self]
  rfl

/-- C2: Put does not disturb other keys.  On every reachable tree, for keys
`k' ≠ k`, `Put(k, v)` returns and `Get(k')` on the tree it returns is the
result (value and found flag) that `Get(k')` has on the old tree. -/
theorem put_other_keys {m : Nat} {h : Heap K V} {t : tree} (r : Reachable m h t) (k k' : K)
    (v : V) (hne : k' ≠ k) :
    ∃ h' t' b res, t.Put h k v = some (h', t', b) ∧ t.Get h k' = some res ∧
      t'.Get h' k' = some res := by
  obtain ⟨es, inv⟩ := r.to_einv
  obtain ⟨h', t', hp, _, inv', _⟩ := Put_spec inv k v
  refine ⟨h', t', _, _, hp, inv.get k', ?_⟩
  rw [inv'.get k', lookup_upsert_ne hne]

/-- C3: The flag of Put and the count.  On every reachable tree, `Put(k, v)`
returns `inserted = true` exactly when `Get(k)` reports not-found; the new
tree has one entry more when `inserted` is true and as many entries as the
old one when it is false. -/
theorem put_flag_count {m : Nat} {h : Heap K V} {t : tree} (r : Reachable m h t) (k : K)
    (v : V) :
    ∃ h' t' b res, t.Put h k v = some (h', t', b) ∧ t.Get h k = some res ∧
      (b = true ↔ res.2 = false) ∧
      (b = true → t'.NumberOfEntries = t.NumberOfEntries + 1) ∧
      (b = false → t'.NumberOfEntries = t.NumberOfEntries) := by
  obtain ⟨es, inv⟩ := r.to_einv
  obtain ⟨h', t', hp, _, inv', hn⟩ := Put_spec inv k v
  refine ⟨h', t', _, _, hp, inv.get k, ?_, ?_, ?_⟩
  · rw [getRes_snd]
    cases lookup k es <;> simp
  · intro hb
    rw [tree.NumberOfEntries, tree.NumberOfEntries, hn, if_pos hb]
  · intro hb
    rw [tree.NumberOfEntries, tree.NumberOfEntries, hn, if_neg (by simp [hb])]
    simp

/-- C4: Update semantics.  On every reachable tree, `Put(k, v1)` followed by
`Put(k, v2)` returns a tree on which `Get(k)` is `(v2, true)`; the second
`Put` reports `inserted = false` and leaves the count as the first `Put`
returned it. -/
theorem put_update {m : Nat} {h : Heap K V} {t : tree} (r : Reachable m h t) (k : K)
    (v1 v2 : V) :
    ∃ h1 t1 b1 h2 t2, t.Put h k v1 = some (h1, t1, b1) ∧
      t1.Put h1 k v2 = some (h2, t2, false) ∧ t2.Get h2 k = some (v2, true) ∧
      t2.NumberOfEntries = t1.NumberOfEntries := by
  obtain ⟨es, inv⟩ := r.to_einv
  obtain ⟨h1, t1, hp1, _, inv1, _⟩ := Put_spec inv k v1
  obtain ⟨h2, t2, hp2, _, inv2, hn2⟩ := Put_spec inv1 k v2
  rw [lookup_upsert_self] at hp2 hn2
  refine ⟨h1, t1, _, h2, t2, hp1, hp2, ?_, ?_⟩
  · rw [inv2.get k, lookup_upsert_self]
    rfl
  · rw [tree.NumberOfEntries, tree.NumberOfEntries, hn2]
    simp

/-- C5: Del of a present key.  On every reachable tree on which `Get(k)` is
`(v, true)`, `Del(k)` returns a tree together with the value `v` and
`removed = true`, and the tree it returns has one entry less. -/
theorem del_present {m : Nat} {h : Heap K V} {t : tree} (r : Reachable m h t) (k : K) (v : V)
    (hget : t.Get h k = some (v, true)) :
    ∃ h' t', t.Del h k = some (h', t', v, true) ∧
      t'.NumberOfEntries = t.NumberOfEntries - 1 := by
  obtain ⟨es, inv⟩ := r.to_einv
  obtain ⟨h', t', hd, _, inv', _, hn⟩ := Del_spec inv k
  rw [inv.get k] at hget
  have hl := getRes_inj (Option.some.inj hget)
  rw [hl] at hd hn
  refine ⟨h', t', hd, ?_⟩
  rw [tree.NumberOfEntries, tree.NumberOfEntries, hn]
  simp

/-- C6: Get-after-del.  On every reachable tree, `Put(k, v)` followed by `Del(k)`
removes the entry (`removed = true`, value `v`), and `Get(k)` on the tree
returned reports not-found. -/
theorem get_after_del {m : Nat} {h : Heap K V} {t : tree} (r : Reachable m h t) (k : K)
    (v : V) :
    ∃ h1 t1 b h2 t2, t.Put h k v = some (h1, t1, b) ∧ t1.Del h1 k = some (h2, t2, v, true) ∧
      t2.Get h2 k = some (default, false) := by
  obtain ⟨es, inv⟩ := r.to_einv
  obtain ⟨h1, t1, hp1, _, inv1, _⟩ := Put_spec inv k v
  obtain ⟨h2, t2, hd, _, inv2, _, _⟩ := Del_spec inv1 k
  rw [lookup_upsert_self] at hd
  refine ⟨h1, t1, _, h2, t2, hp1, hd, ?_⟩
  rw [inv2.get k, lookup_eraseKey_self]
  rfl

/-- C7, amended: the count after put-then-del.  On every reachable tree,
`Put(k, v)` followed by `Del(k)` returns a tree whose count is the count
before the put when `Get(k)` reported not-found on the old tree, and one less
when the old tree held the key. -/
theorem count_put_del {m : Nat} {h : Heap K V} {t : tree} (r : Reachable m h t) (k : K)
    (v : V) :
    ∃ h1 t1 b h2 t2 w d res, t.Put h k v = some (h1, t1, b) ∧
      t1.Del h1 k = some (h2, t2, w, d) ∧ t.Get h k = some res ∧
      t2.NumberOfEntries = t.NumberOfEntries - (if res.2 = true then 1 else 0) := by
  obtain ⟨es, inv⟩ := r.to_einv
  obtain ⟨h1, t1, hp1, _, inv1, hn1⟩ := Put_spec inv k v
  obtain ⟨h2, t2, hd, _, inv2, _, hn2⟩ := Del_spec inv1 k
  rw [lookup_upsert_self] at hn2
  refine ⟨h1, t1, _, h2, t2, _, _, _, hp1, hd, inv.get k, ?_⟩
  rw [tree.NumberOfEntries, tree.NumberOfEntries, hn2, hn1, getRes_snd]
  cases lookup k es <;> simp

/-- C8: Del does not disturb other keys.  On every reachable tree, for keys
`k' ≠ k`, `Del(k)` returns and `Get(k')` on the tree it returns is the result
that `Get(k')` has on the old tree. -/
theorem del_other_keys {m : Nat} {h : Heap K V} {t : tree} (r : Reachable m h t) (k k' : K)
    (hne : k' ≠ k) :
    ∃ h' t' w d res, t.Del h k = some (h', t', w, d) ∧ t.Get h k' = some res ∧
      t'.Get h' k' = some res := by
  obtain ⟨es, inv⟩ := r.to_einv
  obtain ⟨h', t', hd, _, inv', _, _⟩ := Del_spec inv k
  refine ⟨h', t', _, _, _, hd, inv.get k', ?_⟩
  rw [inv'.get k', lookup_eraseKey_ne hne]

/-- C9: Del on an absent key.  On every reachable tree on which `Get(k)` reports
not-found, `Del(k)` returns the input handle itself, the nil value and
`removed = false`. -/
theorem del_absent {m : Nat} {h : Heap K V} {t : tree} (r : Reachable m h t) (k : K) (v : V)
    (hget : t.Get h k = some (v, false)) :
    ∃ h', t.Del h k = some (h', t, default, false) := by
  obtain ⟨es, inv⟩ := r.to_einv
  obtain ⟨h', t', hd, _, _, hsame, _⟩ := Del_spec inv k
  rw [inv.get k] at hget
  have hl := (getRes_false (Option.some.inj hget).symm).1
  rw [hl] at hd
  rw [hsame hl] at hd
  exact ⟨h', hd⟩

theorem EInv.unchanged {m : Nat} {h h' : Heap K V} {t : tree} {es : List (K × V)}
    (inv : EInv m h t es) (ext : Ext h h') : Unchanged m h h' t := by
  have inv' := inv.ext ext
  refine ⟨ext.1, ext.2, ?_, Inv_iff.2 ⟨es, inv'⟩, by rw [inv'.entries, inv.entries],
    fun k' => ⟨_, inv.get k', inv'.get k'⟩⟩
  obtain ⟨_, _, d, _, r, _⟩ := inv
  exact r.lt

/-- C10: Persistence.  On every reachable tree, `Put(k, v)` and `Del(k)` return,
and the old handle is unchanged in the heap they leave behind: no cell of the
old heap (so no node reachable from the old handle, its root included) was
written, the old handle, whose root, count and depth are those of before, is
still a well-formed tree with the entries it had, and `Get` has for every key
the result it had before the update. -/
theorem persistence {m : Nat} {h : Heap K V} {t : tree} (r : Reachable m h t) (k : K) (v : V) :
    (∃ h' t' b, t.Put h k v = some (h', t', b) ∧ Unchanged m h h' t) ∧
    (∃ h' t' w d, t.Del h k = some (h', t', w, d) ∧ Unchanged m h h' t) := by
  obtain ⟨es, inv⟩ := r.to_einv
  constructor
  · obtain ⟨h', t', hp, ext, _, _⟩ := Put_spec inv k v
    exact ⟨h', t', _, hp, inv.unchanged ext⟩
  · obtain ⟨h', t', hd, ext, _, _, _⟩ := Del_spec inv k
    exact ⟨h', t', _, _, hd, inv.unchanged ext⟩

end

section

theorem reach0 : Reachable 3 heap0 tree0 := Reachable.new [] _ _ rfl

theorem reach1 : Reachable 3 heap1 tree1 := Reachable.put _ _ _ _ 1 10 true reach0 rfl

theorem reach2 : Reachable 3 heap2 tree2 := Reachable.put _ _ _ _ 2 20 true reach1 rfl

theorem reach3 : Reachable 3 heap3 tree3 := Reachable.put _ _ _ _ 3 30 true reach2 rfl

theorem get_after_put_witness :
    Reachable 3 heap3 tree3 ∧
      ∃ h' t' b, tree3.Put heap3 4 40 = some (h', t', b) ∧ t'.Get h' 4 = some (40, true) :=
  ⟨reach3, get_after_put reach3 4 40⟩

theorem put_other_keys_witness :
    Reachable 3 heap3 tree3 ∧ (2 : Nat) ≠ 4 ∧
      ∃ h' t' b res, tree3.Put heap3 4 40 = some (h', t', b) ∧ tree3.Get heap3 2 = some res ∧
        t'.Get h' 2 = some res :=
  ⟨reach3, by decide, put_other_keys reach3 4 2 40 (by decide)⟩

theorem put_flag_count_witness :
    Reachable 3 heap3 tree3 ∧
      ∃ h' t' b res, tree3.Put heap3 4 40 = some (h', t', b) ∧ tree3.Get heap3 4 = some res ∧
        (b = true ↔ res.2 = false) ∧
        (b = true → t'.NumberOfEntries = tree3.NumberOfEntries + 1) ∧
        (b = false → t'.NumberOfEntries = tree3.NumberOfEntries) :=
  ⟨reach3, put_flag_count reach3 4 40⟩

theorem put_update_witness :
    Reachable 3 heap3 tree3 ∧
      ∃ h1 t1 b1 h2 t2, tree3.Put heap3 4 40 = some (h1, t1, b1) ∧
        t1.Put h1 4 41 = some (h2, t2, false) ∧ t2.Get h2 4 = some (41, true) ∧
        t2.NumberOfEntries = t1.NumberOfEntries :=
  ⟨reach3, put_update reach3 4 40 41⟩

theorem del_present_witness :
    Reachable 3 heap3 tree3 ∧ tree3.Get heap3 1 = some (10, true) ∧
      ∃ h' t', tree3.Del heap3 1 = some (h', t', 10, true) ∧
        t'.NumberOfEntries = tree3.NumberOfEntries - 1 :=
  ⟨reach3, rfl, del_present reach3 1 10 rfl⟩

theorem get_after_del_witness :
    Reachable 3 heap3 tree3 ∧
      ∃ h1 t1 b h2 t2, tree3.Put heap3 4 40 = some (h1, t1, b) ∧
        t1.Del h1 4 = some (h2, t2, 40, true) ∧ t2.Get h2 4 = some (default, false) :=
  ⟨reach3, get_after_del reach3 4 40⟩

theorem count_put_del_witness :
    Reachable 3 heap1 tree1 ∧
      ∃ h1 t1 b h2 t2 w d res, tree1.Put heap1 1 11 = some (h1, t1, b) ∧
        t1.Del h1 1 = some (h2, t2, w, d) ∧ tree1.Get heap1 1 = some res ∧
        t2.NumberOfEntries = tree1.NumberOfEntries - (if res.2 = true then 1 else 0) :=
  ⟨reach1, count_put_del reach1 1 11⟩

/-- C7 as stated fails on the key of an entry: `tree1` holds key 1 and has one
entry; `Put(1, 11)` updates that entry and `Del(1)` removes it, so the tree
returned has no entry, not one. -/
theorem count_put_del_counterexample :
    Reachable 3 heap1 tree1 ∧
      ∃ h1 t1 b h2 t2 w d, tree1.Put heap1 1 11 = some (h1, t1, b) ∧
        t1.Del h1 1 = some (h2, t2, w, d) ∧ tree1.NumberOfEntries = 1 ∧
        t2.NumberOfEntries = 0 :=
  ⟨reach1, _, _, _, _, _, _, _, rfl, rfl, rfl, rfl⟩

theorem del_other_keys_witness :
    Reachable 3 heap3 tree3 ∧ (2 : Nat) ≠ 1 ∧
      ∃ h' t' w d res, tree3.Del heap3 1 = some (h', t', w, d) ∧
        tree3.Get heap3 2 = some res ∧ t'.Get h' 2 = some res :=
  ⟨reach3, by decide, del_other_keys reach3 1 2 (by decide)⟩

theorem del_absent_witness :
    Reachable 3 heap3 tree3 ∧ tree3.Get heap3 5 = some (0, false) ∧
      ∃ h', tree3.Del heap3 5 = some (h', tree3, default, false) :=
  ⟨reach3, rfl, del_absent reach3 5 0 rfl⟩

theorem persistence_witness :
    Reachable 3 heap3 tree3 ∧
    (∃ h' t' b, tree3.Put heap3 1 11 = some (h', t', b) ∧ Unchanged 3 heap3 h' tree3) ∧
    (∃ h' t' w d, tree3.Del heap3 1 = some (h', t', w, d) ∧ Unchanged 3 heap3 h' tree3) :=
  ⟨reach3, persistence reach3 1 11⟩

end

section
variable {K V : Type} [LinearOrder K]

/-! ## The nodes of a well-formed tree -/

theorem keysAt_leaf {h : Heap K V} {a : Nat} {l : leafNodeS K V} (hl : readLeaf h a = some l) :
    keysAt h a = l.keys := by
  rw [readLeaf_eq_some] at hl
  simp [keysAt, hl]

theorem keysAt_node {h : Heap K V} {a : Nat} {n : interiorNodeS K} (hn : readNode h a = some n) :
    keysAt h a = n.keys := by
  rw [readNode_eq_some] at hn
  simp [keysAt, hn]

/-- A child of a well-formed interior node, found by membership. -/
theorem Rep.kid_of_mem {m : Nat} {h : Heap K V} {d a : Nat} {lo hi : Option K}
    {n : interiorNodeS K} (r : Rep m h (d + 1) a lo hi) (hn : readNode h a = some n) {c : Nat}
    (hc : c ∈ n.vals) :
    ∃ i, i ≤ n.keys.length ∧ n.vals[i]? = some c ∧
      Kid m h d c (loAt lo n.keys i) (hiAt hi n.keys i) := by
  obtain ⟨n', hn', _, hlen, _, _, hch⟩ := Rep_kids.1 r
  rw [hn] at hn'
  cases hn'
  obtain ⟨i, hi', hci⟩ := List.getElem_of_mem hc
  have hq : n.vals[i]? = some c := by rw [List.getElem?_eq_getElem hi', hci]
  exact ⟨i, by omega, hq, hch i c hq⟩

/-- A well-formed subtree that is an interior node has a positive height. -/
theorem Rep.height_of_node {m : Nat} {h : Heap K V} {d a : Nat} {lo hi : Option K}
    {n : interiorNodeS K} (r : Rep m h d a lo hi) (hn : readNode h a = some n) :
    ∃ d', d = d' + 1 := by
  cases d with
  | zero =>
    obtain ⟨l, hl, _⟩ := Rep_zero.1 r
    rw [readLeaf_of_node hn] at hl
    cases hl
  | succ d => exact ⟨d, rfl⟩

/-- A well-formed subtree that is a leaf has height zero. -/
theorem Rep.height_of_leaf {m : Nat} {h : Heap K V} {d a : Nat} {lo hi : Option K}
    {l : leafNodeS K V} (r : Rep m h d a lo hi) (hl : readLeaf h a = some l) : d = 0 := by
  cases d with
  | zero => rfl
  | succ d =>
    obtain ⟨n, hn, _⟩ := Rep_succ.1 r
    rw [readNode_of_leaf hl] at hn
    cases hn

/-- Every node of a well-formed subtree is the top of it, or a well-formed
subtree of a smaller height within the fan-out bounds. -/
theorem InTree.sub {m : Nat} {h : Heap K V} {a b : Nat} (x : InTree h a b) :
    ∀ {d : Nat} {lo hi : Option K}, Rep m h d a lo hi →
      b = a ∨ ∃ d' lo' hi', d' < d ∧ Kid m h d' b lo' hi' := by
  induction x with
  | self a => intro d lo hi _; exact Or.inl rfl
  | child a c b n hn hc _ ih =>
    intro d lo hi r
    obtain ⟨d0, rfl⟩ := r.height_of_node hn
    obtain ⟨i, _, _, kc⟩ := r.kid_of_mem hn hc
    rcases ih kc.1 with rfl | ⟨d', lo', hi', hd, kb⟩
    · exact Or.inr ⟨d0, _, _, Nat.lt_succ_self d0, kc⟩
    · exact Or.inr ⟨d', lo', hi', by omega, kb⟩

/-- Every key stored in a node of a well-formed subtree lies within the bounds
of the subtree. -/
theorem InTree.keys_bounds {m : Nat} {h : Heap K V} {a b : Nat} (x : InTree h a b) :
    ∀ {d : Nat} {lo hi : Option K}, Rep m h d a lo hi →
      ∀ k ∈ keysAt h b, geLo lo k ∧ ltHi hi k := by
  induction x with
  | self a =>
    intro d lo hi r k hk
    cases d with
    | zero =>
      obtain ⟨l, hl, _, _, _, hb, _⟩ := Rep_zero.1 r
      rw [keysAt_leaf hl] at hk
      exact hb k hk
    | succ d =>
      obtain ⟨n, hn, _⟩ := Rep_succ.1 r
      have sep := r.sepOK hn
      rw [keysAt_node hn] at hk
      obtain ⟨i, hi', rfl⟩ := List.getElem_of_mem hk
      exact ⟨fun l hl => le_of_lt (sep.lo_lt hi' l hl), sep.lt_hi hi'⟩
  | child a c b n hn hc _ ih =>
    intro d lo hi r k hk
    obtain ⟨d0, rfl⟩ := r.height_of_node hn
    obtain ⟨i, hi', _, kc⟩ := r.kid_of_mem hn hc
    have sep := r.sepOK hn
    have := ih kc.1 k hk
    exact ⟨sep.geLo hi' this.1, sep.ltHi this.2⟩

/-- The keys of every node of a well-formed subtree are strictly increasing. -/
theorem InTree.keys_sorted {m : Nat} {h : Heap K V} {a b : Nat} (x : InTree h a b)
    {d : Nat} {lo hi : Option K} (r : Rep m h d a lo hi) :
    (keysAt h b).Pairwise (fun x y => x < y) := by
  have key : ∀ {d' : Nat} {lo' hi' : Option K}, Rep m h d' b lo' hi' →
      (keysAt h b).Pairwise (fun x y => x < y) := by
    intro d' lo' hi' r'
    cases d' with
    | zero =>
      obtain ⟨l, hl, _, _, hs, _⟩ := Rep_zero.1 r'
      rw [keysAt_leaf hl]
      exact hs
    | succ d' =>
      obtain ⟨n, hn, _⟩ := Rep_succ.1 r'
      rw [keysAt_node hn]
      exact (r'.sepOK hn).sorted
  rcases x.sub r with rfl | ⟨d', lo', hi', _, kb⟩
  · exact key r
  · exact key kb.1

/-- C12: key ordering is an invariant.  In every tree reachable from
`NewBpTree(m)` by `Put` and `Del`, the keys of every leaf and the separators of
every interior node of the tree are strictly increasing. -/
theorem key_ordering [Inhabited V] {m : Nat} {h : Heap K V} {t : tree} (r : Reachable m h t) :
    ∀ b, InTree h t.root b →
      (∀ l, readLeaf h b = some l → l.keys.Pairwise (fun x y => x < y)) ∧
      (∀ n, readNode h b = some n → n.keys.Pairwise (fun x y => x < y)) := by
  obtain ⟨_, _, d, _, rr, _, _⟩ := r.inv
  intro b x
  have := x.keys_sorted rr
  constructor
  · intro l hl
    rwa [keysAt_leaf hl] at this
  · intro n hn
    rwa [keysAt_node hn] at this

/-- C13: separator consistency is an invariant.  In every tree reachable from
`NewBpTree(m)` by `Put` and `Del`, every interior node of the tree has one
child more than separators, and for every separator `keys[i]` every key
stored in a node of the subtree `vals[i]` is less than `keys[i]` and every key
stored in a node of the subtree `vals[i+1]` is greater than or equal to it. -/
theorem separator_consistency [Inhabited V] {m : Nat} {h : Heap K V} {t : tree}
    (r : Reachable m h t) :
    ∀ b n, InTree h t.root b → readNode h b = some n →
      n.vals.length = n.keys.length + 1 ∧
      ∀ i k, n.keys[i]? = some k →
        (∀ c, n.vals[i]? = some c → ∀ x, InTree h c x → ∀ k' ∈ keysAt h x, k' < k) ∧
        (∀ c, n.vals[i + 1]? = some c → ∀ x, InTree h c x → ∀ k' ∈ keysAt h x, k ≤ k') := by
  obtain ⟨_, _, d, _, rr, _, _⟩ := r.inv
  intro b n xb hn
  have key : ∀ {d' : Nat} {lo' hi' : Option K}, Rep m h d' b lo' hi' →
      n.vals.length = n.keys.length + 1 ∧
      ∀ i k, n.keys[i]? = some k →
        (∀ c, n.vals[i]? = some c → ∀ x, InTree h c x → ∀ k' ∈ keysAt h x, k' < k) ∧
        (∀ c, n.vals[i + 1]? = some c → ∀ x, InTree h c x → ∀ k' ∈ keysAt h x, k ≤ k') := by
    intro d' lo' hi' r'
    obtain ⟨d0, rfl⟩ := r'.height_of_node hn
    obtain ⟨n', hn', _, hlen, _, _, hch⟩ := Rep_kids.1 r'
    rw [hn] at hn'
    cases hn'
    refine ⟨hlen, ?_⟩
    intro i k hk
    obtain ⟨hil, rfl⟩ := List.getElem?_eq_some.1 hk
    constructor
    · intro c hc x hx k' hk'
      have kc := hch i c hc
      have := (hx.keys_bounds kc.1 k' hk').2
      rw [hiAt_lt _ _ hil] at this
      exact ltHi_some.1 this
    · intro c hc x hx k' hk'
      have kc := hch (i + 1) c hc
      have := (hx.keys_bounds kc.1 k' hk').1
      rw [loAt_succ, List.getElem?_eq_getElem hil] at this
      exact geLo_some.1 this
  rcases xb.sub rr with rfl | ⟨d', lo', hi', _, kb⟩
  · exact key rr
  · exact key kb.1

end

section
variable {K V : Type} [LinearOrder K]

/-! ## The validator -/

theorem treeSize_pos (h : Heap K V) (d a : Nat) : 1 ≤ treeSize h d a := by
  cases d with
  | zero => exact Nat.le_refl _
  | succ d =>
    unfold treeSize
    split <;> omega

/-- The quotient rounded up, computed in the integers, is the ceiling of the
rational quotient. -/
theorem neg_div_neg_eq_ceil (n : Int) (d : Nat) :
    -((-n) / (d : Int)) = Int.ceil ((n : ℚ) / (d : ℚ)) := by
  have := Rat.floor_intCast_div_natCast (-n) d
  rw [← this, Int.cast_neg, neg_div, Int.floor_neg, neg_neg]

theorem ceil_half (a p : Nat) (hp : 0 < p) : (a * p + 2 * p - 1) / (2 * p) = (a + 1) / 2 := by
  obtain ⟨t, rfl | rfl⟩ := Nat.even_or_odd' a
  · have e : 2 * t * p + 2 * p - 1 = (2 * p - 1) + 2 * p * t := by
      have : 2 * t * p = 2 * p * t := by ring
      omega
    rw [e, Nat.add_mul_div_left _ _ (by omega), Nat.div_eq_of_lt (by omega)]
    omega
  · have e : (2 * t + 1) * p + 2 * p - 1 = (p - 1) + 2 * p * (t + 1) := by
      have : (2 * t + 1) * p = 2 * p * t + p := by ring
      have : 2 * p * (t + 1) = 2 * p * t + 2 * p := by ring
      omega
    rw [e, Nat.add_mul_div_left _ _ (by omega), Nat.div_eq_of_lt (by omega)]
    omega

theorem roundHalfEven_two_mul (x : Nat) : roundHalfEven (x * 2) 2 = x := by
  unfold roundHalfEven
  have h1 : x * 2 % 2 = 0 := by omega
  have h2 : x * 2 / 2 = x := by omega
  rw [h1, h2, if_neg (by omega)]

/-- The binary64 quotient of a natural number up to `2 ^ 53` by two, rounded up to
an integer, is the exact one. -/
theorem f64Div_two (a : Nat) (ha : a ≤ 2 ^ 53) :
    ((f64Div a 2).1 + 2 ^ (f64Div a 2).2 - 1) / 2 ^ (f64Div a 2).2 = (a + 1) / 2 := by
  by_cases h0 : a = 0
  · subst h0
    rfl
  · by_cases hbig : 2 ^ 52 * 2 ≤ a
    · have : a = 2 ^ 53 := by omega
      subst this
      decide
    · have e : f64Div a 2 = (a * 2 ^ scaleBits 54 (2 * a) 2, scaleBits 54 (2 * a) 2 + 1) := by
        unfold f64Div
        rw [if_neg h0, if_neg hbig]
        have s : scaleBits (2 + 53) a 2 = scaleBits 54 (2 * a) 2 + 1 := by
          show (if 2 ^ 52 * 2 ≤ a then 0 else scaleBits 54 (2 * a) 2 + 1) = _
          rw [if_neg hbig]
        rw [s, pow_succ, ← Nat.mul_assoc, roundHalfEven_two_mul]
      rw [e]
      show (a * 2 ^ scaleBits 54 (2 * a) 2 + 2 ^ (scaleBits 54 (2 * a) 2 + 1) - 1) /
        2 ^ (scaleBits 54 (2 * a) 2 + 1) = (a + 1) / 2
      rw [pow_succ, Nat.mul_comm (2 ^ scaleBits 54 (2 * a) 2) 2]
      exact ceil_half a _ (Nat.pow_pos (by decide))

/-- On a natural number up to `2 ^ 53` and the divisor 2, `intCeil` is the exact
quotient rounded up. -/
theorem intCeil_order (m : Nat) (hb : m ≤ 2 ^ 53) :
    intCeil (m : Int) 2 = (((m + 1) / 2 : Nat) : Int) := by
  unfold intCeil
  rw [if_neg (by decide)]
  have e1 : f64OfNat (m : Int).natAbs = m := by
    rw [Int.natAbs_ofNat]
    unfold f64OfNat
    rw [if_pos hb]
  have e2 : f64OfNat (2 : Int).natAbs = 2 := by decide
  simp only [e1, e2]
  rw [if_pos (iff_of_false (by omega) (by decide)), f64Div_two m hb]
  rw [if_neg]
  have : (2 : Nat) ^ 53 = 9007199254740992 := by norm_num
  have : (2 : Int) ^ 63 = 9223372036854775808 := by norm_num
  omega

theorem intCeil_order_pred (m : Nat) (hb : m ≤ 2 ^ 53) :
    intCeil ((m : Int) - 1) 2 = ((m / 2 : Nat) : Int) := by
  cases m with
  | zero => decide
  | succ k =>
    have e : ((k + 1 : Nat) : Int) - 1 = (k : Int) := by omega
    rw [e, intCeil_order k (by omega)]

/-- A leaf within the fan-out bounds of a leaf that is not the root passes
`validLeafNode`. -/
theorem validLeafNode_of_kid {m : Nat} (hm : 3 ≤ m) (hb : m ≤ 2 ^ 53) {h : Heap K V} {c : Nat} {lo hi : Option K}
    (k : Kid m h 0 c lo hi) :
    ∃ l, h[c]? = some (Cell.leaf l) ∧ validLeafNode (Cell.leaf l : Cell K V) (m : Int) = true := by
  obtain ⟨l, hl, _, hlen, _⟩ := Rep_zero.1 k.1
  obtain ⟨f1, f2⟩ := k.2
  rw [nodeSize_of_leaf hl, minSize_zero] at f1
  rw [nodeSize_of_leaf hl, maxSize_zero] at f2
  refine ⟨l, readLeaf_eq_some.1 hl, ?_⟩
  have e := intCeil_order_pred m hb
  have a1 : validLeafKeys l.keys (m : Int) = true := by
    unfold validLeafKeys
    rw [if_neg (not_not.2 ⟨by rw [e]; omega, by omega⟩)]
  have a2 : validLeafVals l.vals (m : Int) = true := by
    unfold validLeafVals
    rw [if_neg (not_not.2 ⟨by rw [e]; omega, by omega⟩)]
  unfold validLeafNode
  simp only
  rw [if_neg (not_not.2 a1), if_neg (not_not.2 a2), if_neg (not_not.2 hlen)]

/-- An interior node within the fan-out bounds of a node that is not the root
passes `validInteriorNode`, and the assertion of `isLeaf` holds. -/
theorem validInteriorNode_of_kid {m : Nat} (hb : m ≤ 2 ^ 53) {h : Heap K V} {d c : Nat}
    {lo hi : Option K} (k : Kid m h (d + 1) c lo hi) :
    ∃ n, h[c]? = some (Cell.node n) ∧ n.isLeaf = some false ∧
      validInteriorNode (Cell.node n : Cell K V) (m : Int) = true ∧
      Kids (Kid m h d) lo hi n.keys n.vals ∧
      treeSize h (d + 1) c = 1 + (n.vals.map (treeSize h d)).sum := by
  obtain ⟨n, hn, _, hlen, _, _, hch⟩ := Rep_kids.1 k.1
  obtain ⟨f1, f2⟩ := k.2
  rw [nodeSize_of_node hn, minSize_succ] at f1
  rw [nodeSize_of_node hn, maxSize_succ] at f2
  refine ⟨n, readNode_eq_some.1 hn, ?_, ?_, hch, ?_⟩
  · simp [interiorNodeS.isLeaf, hlen]
  · have e := intCeil_order m hb
    have a1 : validNodeKeys n.keys (m : Int) = true := by
      unfold validNodeKeys
      rw [if_neg (not_not.2 ⟨by rw [e]; omega, by omega⟩)]
    have a2 : validNodeVals n.vals (m : Int) = true := by
      unfold validNodeVals
      rw [if_neg (not_not.2 ⟨by rw [e]; omega, by omega⟩)]
    have h5 : (n.keys.length : Int) = (n.vals.length : Int) - 1 := by omega
    unfold validInteriorNode
    simp only
    rw [if_neg (not_not.2 a1), if_neg (not_not.2 a2), if_neg (not_not.2 h5)]
  · show (match readNode h c with
      | some n => 1 + (n.vals.map (treeSize h d)).sum
      | none => 1) = _
    rw [hn]

theorem sum_map_pair (h : Heap K V) (d : Nat) (vals : List Nat) :
    ((vals.map (fun c => (d, c))).map (fun p => treeSize h p.1 p.2)).sum =
      (vals.map (treeSize h d)).sum := by
  rw [List.map_map]
  rfl

/-- The loop of `validTree` returns `true` on a slice of children of well-formed
nodes, when the fuel covers the nodes below them.  The list `q` gives every
pointer of the slice its height. -/
theorem validLoop_spec {m : Nat} (hm : 3 ≤ m) (hb : m ≤ 2 ^ 53) {h : Heap K V} :
    ∀ (fuel : Nat) (q : List (Nat × Nat)),
      (∀ p ∈ q, ∃ lo hi, Kid m h p.1 p.2 lo hi) →
      (q.map (fun p => treeSize h p.1 p.2)).sum ≤ fuel →
      validLoop h (m : Int) fuel (q.map Prod.snd) = some true := by
  intro fuel
  induction fuel with
  | zero =>
    intro q _ hs
    cases q with
    | nil => rfl
    | cons p rest =>
      have := treeSize_pos h p.1 p.2
      simp only [List.map_cons, List.sum_cons] at hs
      omega
  | succ fuel ih =>
    intro q hq hs
    cases q with
    | nil => rfl
    | cons p rest =>
      obtain ⟨d, c⟩ := p
      obtain ⟨lo, hi, k⟩ := hq (d, c) (List.mem_cons_self _ _)
      have k : Kid m h d c lo hi := k
      have hrest : ∀ p ∈ rest, ∃ lo hi, Kid m h p.1 p.2 lo hi :=
        fun p hp => hq p (List.mem_cons_of_mem _ hp)
      simp only [List.map_cons, List.sum_cons] at hs
      cases d with
      | zero =>
        obtain ⟨l, hl, hv⟩ := validLeafNode_of_kid hm hb k
        have h1 := treeSize_pos h 0 c
        simp only [List.map_cons, validLoop, hl, hv, not_true_eq_false, if_false]
        exact ih rest hrest (by omega)
      | succ d =>
        obtain ⟨n, hn, hil, hv, hch, hsz⟩ := validInteriorNode_of_kid hb k
        simp only [List.map_cons, validLoop, hn, hil, hv, not_true_eq_false, if_false]
        have e : rest.map Prod.snd ++ n.vals =
            (rest ++ n.vals.map (fun c => (d, c))).map Prod.snd := by
          rw [List.map_append, List.map_map]
          congr 1
          exact (List.map_id _).symm
        rw [e]
        refine ih _ ?_ ?_
        · intro p hp
          rw [List.mem_append] at hp
          rcases hp with hp | hp
          · exact hrest p hp
          · obtain ⟨c', hc', rfl⟩ := List.mem_map.1 hp
            obtain ⟨i, hi', rfl⟩ := List.getElem_of_mem hc'
            exact ⟨_, _, hch i _ (List.getElem?_eq_getElem hi')⟩
        · rw [List.map_append, List.sum_append, sum_map_pair]
          have hs' : treeSize h (d + 1) c + (rest.map (fun p => treeSize h p.1 p.2)).sum ≤
              fuel + 1 := hs
          omega

/-- The function `validTree` returns `true` on a tree that satisfies the
invariant, given enough fuel; the order is one that binary64 holds exactly. -/
theorem validTree_spec {m : Nat} {h : Heap K V} {t : tree} (inv : Inv m h t)
    (hb : m ≤ 2 ^ 53) :
    ∃ N, ∀ fuel, N ≤ fuel → validTree fuel h t = some true := by
  obtain ⟨hm, hord, d, _, r, rf, _⟩ := inv
  cases d with
  | zero =>
    obtain ⟨l, hl, _, hlen, _⟩ := Rep_zero.1 r
    have f2 := rf.2
    rw [nodeSize_of_leaf hl, maxSize_zero] at f2
    refine ⟨0, fun fuel _ => ?_⟩
    have hv : validRootNode (Cell.leaf l : Cell K V) (m : Int) = some true := by
      unfold validRootNode
      simp only
      rw [if_neg (not_not.2 ⟨by omega, by omega⟩), if_neg (not_not.2 hlen)]
    simp only [validTree, readLeaf_eq_some.1 hl, hord, hv]
  | succ d =>
    obtain ⟨n, hn, _, hlen, _, _, hch⟩ := Rep_kids.1 r
    obtain ⟨f1, f2⟩ := rf
    rw [nodeSize_of_node hn] at f1
    rw [nodeSize_of_node hn, maxSize_succ] at f2
    simp only [Nat.succ_ne_zero, if_false] at f1
    refine ⟨(n.vals.map (treeSize h d)).sum, fun fuel hf => ?_⟩
    have hil : n.isLeaf = some false := by simp [interiorNodeS.isLeaf, hlen]
    have h5 : (n.keys.length : Int) = (n.vals.length : Int) - 1 := by omega
    have hv : validRootNode (Cell.node n : Cell K V) (m : Int) = some true := by
      unfold validRootNode
      simp only [hil]
      rw [if_neg (not_not.2 ⟨by omega, by omega⟩), if_neg (not_not.2 h5)]
    simp only [validTree, readNode_eq_some.1 hn, hord, hv, hil]
    have e : n.vals = (n.vals.map (fun c => (d, c))).map Prod.snd := by
      rw [List.map_map]
      exact (List.map_id _).symm
    rw [e]
    refine validLoop_spec hm hb fuel _ ?_ ?_
    · intro p hp
      obtain ⟨c', hc', rfl⟩ := List.mem_map.1 hp
      obtain ⟨i, hi', rfl⟩ := List.getElem_of_mem hc'
      exact ⟨_, _, hch i _ (List.getElem?_eq_getElem hi')⟩
    · rw [sum_map_pair]
      exact hf

/-- C11: fan-out bounds are an invariant.  Every tree reachable from
`NewBpTree(m)` by `Put` and `Del` passes `validTree` (with enough fuel for
its loop): every interior node of the tree has one separator fewer than
children and at most `m` children, at least `ceil(m/2)` when it is not the
root and between 1 and `m-1` separators when it is; every leaf has as many
values as keys and at most `m-1` entries, at least `ceil((m-1)/2)` when it is
not the root. -/
theorem fanout_bounds [Inhabited V] {m : Nat} {h : Heap K V} {t : tree} (r : Reachable m h t) :
    (∃ N, ∀ fuel, N ≤ fuel → validTree fuel h t = some true) ∧
    ∀ b, InTree h t.root b →
      (∀ n, readNode h b = some n →
        n.keys.length + 1 = n.vals.length ∧ n.vals.length ≤ m ∧
        (b ≠ t.root → intCeil (m : Int) 2 ≤ (n.vals.length : Int)) ∧
        (b = t.root → 1 ≤ n.keys.length ∧ n.keys.length ≤ m - 1)) ∧
      (∀ l, readLeaf h b = some l →
        l.keys.length = l.vals.length ∧ l.keys.length ≤ m - 1 ∧
        (b ≠ t.root → intCeil ((m : Int) - 1) 2 ≤ (l.keys.length : Int))) := by
  have inv := r.inv
  have hb : m ≤ 2 ^ 53 := Nat.le_trans r.order_le maxOrder_le
  refine ⟨validTree_spec inv hb, ?_⟩
  obtain ⟨hm, _, d, _, rr, rf, _⟩ := inv
  intro b x
  rcases x.sub rr with rfl | ⟨d', lo', hi', _, kb⟩
  · constructor
    · intro n hn
      obtain ⟨d0, rfl⟩ := rr.height_of_node hn
      obtain ⟨n', hn', _, hlen, _⟩ := Rep_kids.1 rr
      rw [hn] at hn'
      cases hn'
      obtain ⟨f1, f2⟩ := rf
      rw [nodeSize_of_node hn] at f1
      rw [nodeSize_of_node hn, maxSize_succ] at f2
      simp only [Nat.succ_ne_zero, if_false] at f1
      exact ⟨by omega, f2, fun hne => absurd rfl hne, fun _ => ⟨by omega, by omega⟩⟩
    · intro l hl
      have hd := rr.height_of_leaf hl
      subst hd
      obtain ⟨l', hl', _, hlen, _⟩ := Rep_zero.1 rr
      rw [hl] at hl'
      cases hl'
      have f2 := rf.2
      rw [nodeSize_of_leaf hl, maxSize_zero] at f2
      exact ⟨hlen, by omega, fun hne => absurd rfl hne⟩
  · constructor
    · intro n hn
      obtain ⟨d0, rfl⟩ := kb.1.height_of_node hn
      obtain ⟨n', hn', _, hlen, _⟩ := Rep_kids.1 kb.1
      rw [hn] at hn'
      cases hn'
      obtain ⟨f1, f2⟩ := kb.2
      rw [nodeSize_of_node hn, minSize_succ] at f1
      rw [nodeSize_of_node hn, maxSize_succ] at f2
      refine ⟨by omega, f2, fun _ => ?_, fun _ => ⟨by omega, by omega⟩⟩
      rw [intCeil_order m hb]
      omega
    · intro l hl
      have hd := kb.1.height_of_leaf hl
      subst hd
      obtain ⟨l', hl', _, hlen, _⟩ := Rep_zero.1 kb.1
      rw [hl] at hl'
      cases hl'
      obtain ⟨f1, f2⟩ := kb.2
      rw [nodeSize_of_leaf hl, minSize_zero] at f1
      rw [nodeSize_of_leaf hl, maxSize_zero] at f2
      refine ⟨hlen, by omega, fun _ => ?_⟩
      rw [intCeil_order_pred m hb]
      omega

end

section
variable {K V : Type} [LinearOrder K]

/-! ## Depth and count -/

/-- Every path from the top of a well-formed subtree to a leaf passes through as
many interior nodes as the subtree is high. -/
theorem PathLen.eq_height {m : Nat} {h : Heap K V} {a n : Nat} (p : PathLen h a n) :
    ∀ {d : Nat} {lo hi : Option K}, Rep m h d a lo hi → n = d := by
  induction p with
  | leaf a l hl =>
    intro d lo hi r
    exact (r.height_of_leaf hl).symm
  | node a c k n hn hc _ ih =>
    intro d lo hi r
    obtain ⟨d0, rfl⟩ := r.height_of_node hn
    obtain ⟨i, _, _, kc⟩ := r.kid_of_mem hn hc
    rw [ih kc.1]

/-- A well-formed subtree has a path from its top to a leaf. -/
theorem Rep.pathLen {m : Nat} {h : Heap K V} {d a : Nat} {lo hi : Option K}
    (r : Rep m h d a lo hi) : PathLen h a d := by
  induction d generalizing a lo hi with
  | zero =>
    obtain ⟨l, hl, _⟩ := Rep_zero.1 r
    exact PathLen.leaf a l hl
  | succ d ih =>
    obtain ⟨n, hn, _, hlen, _, _, hch⟩ := Rep_kids.1 r
    have h0 : 0 < n.vals.length := by omega
    have kc := hch 0 _ (List.getElem?_eq_getElem h0)
    exact PathLen.node a _ d n hn (List.getElem_mem h0) (ih kc.1)

/-- The count of the entries in the leaves under a well-formed subtree is the
length of its list of entries. -/
theorem countLoop_eq {m : Nat} {h : Heap K V} {d a : Nat} {lo hi : Option K}
    (r : Rep m h d a lo hi) {fuel : Nat} (hf : d < fuel) :
    countLoop h fuel a = (ents h d a).length := by
  induction d generalizing a lo hi fuel with
  | zero =>
    obtain ⟨l, hl, _⟩ := Rep_zero.1 r
    obtain ⟨f, rfl⟩ : ∃ f, fuel = f + 1 := ⟨fuel - 1, by omega⟩
    rw [ents_leaf hl]
    simp only [countLoop, readLeaf_eq_some.1 hl]
  | succ d ih =>
    obtain ⟨n, hn, _, _, _, _, hch⟩ := Rep_kids.1 r
    obtain ⟨f, rfl⟩ : ∃ f, fuel = f + 1 := ⟨fuel - 1, by omega⟩
    rw [ents_node hn, List.length_flatten, List.map_map]
    simp only [countLoop, readNode_eq_some.1 hn]
    congr 1
    apply List.map_congr_left
    intro c hc
    obtain ⟨i, hi', rfl⟩ := List.getElem_of_mem hc
    exact ih (hch i _ (List.getElem?_eq_getElem hi')).1 (by omega)

/-- C14: uniform depth.  In every tree reachable from `NewBpTree(m)` by `Put` and
`Del` there is a path from the root to a leaf, and every path from the root to
a leaf passes through `Depth()` interior nodes; a root that is a leaf has
depth 0. -/
theorem uniform_depth [Inhabited V] {m : Nat} {h : Heap K V} {t : tree} (r : Reachable m h t) :
    (∃ n, PathLen h t.root n) ∧ (∀ n, PathLen h t.root n → (n : Int) = t.Depth) ∧
      ((∃ l, readLeaf h t.root = some l) → t.Depth = 0) := by
  obtain ⟨_, _, d, hD, rr, _, _⟩ := r.inv
  refine ⟨⟨d, rr.pathLen⟩, ?_, ?_⟩
  · intro n p
    rw [p.eq_height rr]
    exact hD.symm
  · rintro ⟨l, hl⟩
    have := rr.height_of_leaf hl
    subst this
    exact hD

/-- C15: count accuracy.  In every tree reachable from `NewBpTree(m)` by `Put`
and `Del`, `NumberOfEntries()` is the number of entries stored in the leaves
that child pointers lead to from the root, which is the length of the list of
entries of the tree. -/
theorem count_accuracy [Inhabited V] {m : Nat} {h : Heap K V} {t : tree}
    (r : Reachable m h t) :
    t.NumberOfEntries = (t.countEntries h : Int) ∧
      t.countEntries h = (t.entries h).length := by
  obtain ⟨es, inv⟩ := r.to_einv
  have hent := inv.entries
  obtain ⟨_, _, d, _, rr, _, he, hc⟩ := inv
  have hcount : t.countEntries h = es.length := by
    unfold tree.countEntries
    rw [countLoop_eq rr (by have := rr.depth_le; have := rr.lt; omega), he]
  refine ⟨?_, ?_⟩
  · rw [hcount]
    exact hc
  · rw [hcount, hent]

end

section
variable {K V : Type} [LinearOrder K]

/-! ## Empty trees -/

/-- A tree whose root is an interior node has at least two entries. -/
theorem EInv.two_entries {m : Nat} {h : Heap K V} {t : tree} {es : List (K × V)}
    (inv : EInv m h t es) (hd : t.depth ≠ 0) : 2 ≤ es.length := by
  obtain ⟨hm, _, d, hD, r, rf, he, _⟩ := inv
  cases d with
  | zero => exact absurd hD hd
  | succ d =>
    obtain ⟨n, hn, _, _, _, _, hch⟩ := Rep_kids.1 r
    have f1 := rf.1
    rw [nodeSize_of_node hn] at f1
    simp only [Nat.succ_ne_zero, if_false] at f1
    have k0 := hch 0 _ (List.getElem?_eq_getElem (by omega : 0 < n.vals.length))
    have k1 := hch 1 _ (List.getElem?_eq_getElem (by omega : 1 < n.vals.length))
    have e0 := List.length_pos.2 (k0.ents_ne_nil (by omega))
    have e1 := List.length_pos.2 (k1.ents_ne_nil (by omega))
    obtain ⟨c0, c1, rest, hv⟩ : ∃ c0 c1 rest, n.vals = c0 :: c1 :: rest := by
      match hv : n.vals with
      | [] => rw [hv] at f1; simp at f1
      | [_] => rw [hv] at f1; simp at f1
      | c0 :: c1 :: rest => exact ⟨c0, c1, rest, rfl⟩
    rw [← he, ents_node hn]
    simp only [hv, List.getElem_cons_zero, List.getElem_cons_succ] at e0 e1
    simp only [hv, List.map_cons, List.flatten_cons, List.length_append]
    omega

/-- A tree with fewer than two entries has depth 0. -/
theorem EInv.depth_zero {m : Nat} {h : Heap K V} {t : tree} {es : List (K × V)}
    (inv : EInv m h t es) (hlt : es.length < 2) : t.depth = 0 := by
  by_contra hd
  have := inv.two_entries hd
  omega

/-- The root of a tree of depth 0 is a leaf that holds the entries. -/
theorem EInv.root_leaf {m : Nat} {h : Heap K V} {t : tree} {es : List (K × V)}
    (inv : EInv m h t es) (hd : t.depth = 0) :
    ∃ l, readLeaf h t.root = some l ∧ l.keys.length = l.vals.length ∧
      es = l.keys.zip l.vals := by
  obtain ⟨_, _, d, hD, r, _, he, _⟩ := inv
  have : d = 0 := by rw [hd] at hD; exact_mod_cast hD.symm
  subst this
  obtain ⟨l, hl, _, hlen, _⟩ := Rep_zero.1 r
  exact ⟨l, hl, hlen, by rw [← he, ents_leaf hl]⟩

/-- The cached count is zero exactly when the root is a leaf without entries. -/
theorem EInv.count_zero_iff {m : Nat} {h : Heap K V} {t : tree} {es : List (K × V)}
    (inv : EInv m h t es) :
    t.numEnts = 0 ↔ ∃ l, readLeaf h t.root = some l ∧ l.keys = [] ∧ l.vals = [] := by
  have hc : t.numEnts = (es.length : Int) := by
    obtain ⟨_, _, d, _, _, _, _, hc⟩ := inv
    exact hc
  constructor
  · intro h0
    have hes : es.length = 0 := by omega
    obtain ⟨l, hl, hlen, he⟩ := inv.root_leaf (inv.depth_zero (by omega))
    have hz : (l.keys.zip l.vals).length = 0 := by rw [← he, hes]
    rw [List.length_zip, ← hlen, Nat.min_self] at hz
    exact ⟨l, hl, List.length_eq_zero.1 hz, List.length_eq_zero.1 (by omega)⟩
  · rintro ⟨l, hl, hk, _⟩
    obtain ⟨_, _, d, _, r, _, he, _⟩ := inv
    have := r.height_of_leaf hl
    subst this
    rw [ents_leaf hl, hk] at he
    rw [hc, ← he]
    rfl

/-- The method `IsEmpty` on a tree that satisfies the invariant: neither
assertion fails, and the result tells whether the cached count is zero. -/
theorem IsEmpty_spec {m : Nat} {h : Heap K V} {t : tree} {es : List (K × V)}
    (inv : EInv m h t es) : t.IsEmpty h = some (decide (t.numEnts = 0)) := by
  have hc : t.numEnts = (es.length : Int) := by
    obtain ⟨_, _, d, _, _, _, _, hc⟩ := inv
    exact hc
  by_cases hd : t.depth = 0
  · obtain ⟨l, hl, hlen, he⟩ := inv.root_leaf hd
    have hz : es.length = l.keys.length := by
      rw [he, List.length_zip, ← hlen, Nat.min_self]
    have e : decide (t.numEnts = 0) = decide (l.keys.length = 0) :=
      decide_eq_decide.2 (by omega)
    unfold tree.IsEmpty
    simp only [readLeaf_eq_some.1 hl]
    rw [if_pos hlen, e, if_pos rfl, Bool.and_self]
  · have h2 := inv.two_entries hd
    obtain ⟨_, _, d, hD, r, _, _, _⟩ := inv
    cases d with
    | zero => exact absurd hD hd
    | succ d =>
      obtain ⟨n, hn, _⟩ := Rep_succ.1 r
      have e : decide (t.numEnts = 0) = false := decide_eq_false (by omega)
      unfold tree.IsEmpty
      simp only [readNode_eq_some.1 hn]
      rw [e, if_pos rfl]
      rfl

/-- C18: `IsEmpty`.  In every tree reachable from `NewBpTree(m)` by `Put` and
`Del`, `NumberOfEntries()` is 0 if and only if the root is a leaf with no key
and no value; `IsEmpty()` returns (no assertion fails), and it returns `true`
exactly when `NumberOfEntries()` is 0. -/
theorem isEmpty_iff [Inhabited V] {m : Nat} {h : Heap K V} {t : tree} (r : Reachable m h t) :
    (t.NumberOfEntries = 0 ↔ ∃ l, readLeaf h t.root = some l ∧ l.keys = [] ∧ l.vals = []) ∧
      t.IsEmpty h = some (decide (t.NumberOfEntries = 0)) ∧
      (t.IsEmpty h = some true ↔ t.NumberOfEntries = 0) := by
  obtain ⟨es, inv⟩ := r.to_einv
  refine ⟨inv.count_zero_iff, IsEmpty_spec inv, ?_⟩
  rw [IsEmpty_spec inv]
  simp [tree.NumberOfEntries]

/-- The tree that `NewBpTree` returns for an order that can be allocated: a handle
on a new empty leaf. -/
theorem NewBpTree_some (h0 : Heap K V) {order : Int} (h3 : 3 ≤ order)
    (hmax : order ≤ (maxOrder : Int)) :
    NewBpTree h0 order = some (h0 ++ [Cell.leaf ⟨order.toNat, [], []⟩],
      ⟨h0.length, order, 0, 0⟩) := by
  unfold NewBpTree
  rw [if_neg (by omega), if_neg (by omega)]
  rfl

/-- C19: construction.  `NewBpTree(order)` panics when `order < 3`, and for every
order from 3 up to `maxOrder` it returns a tree with `Order() = order`,
`NumberOfEntries() = 0`, `Depth() = 0`, `IsEmpty() = true`, whose root is a
newly allocated empty leaf of capacity `order`.  It returns no tree for an
order beyond `maxOrder` either: the guard `order < 3` lets the order pass and
the `make` calls of `mkLeaf` panic.  So it is at `order = 2 ^ 62`, an order
that the comment on `NewBpTree` ("we support order=3 and up") counts as
supported. -/
theorem construction (h0 : Heap K V) (order : Int) :
    (NewBpTree h0 order = none ↔ order < 3 ∨ (maxOrder : Int) < order) ∧
      (3 ≤ order → order ≤ (maxOrder : Int) →
        ∃ h t, NewBpTree h0 order = some (h, t) ∧ t.Order = order ∧
          t.NumberOfEntries = 0 ∧ t.Depth = 0 ∧ t.IsEmpty h = some true ∧
          h = h0 ++ [Cell.leaf ⟨order.toNat, [], []⟩] ∧ t.root = h0.length ∧
          readLeaf h t.root = some ⟨order.toNat, [], []⟩) ∧
      ((3 : Int) ≤ 2 ^ 62 ∧ NewBpTree h0 (2 ^ 62) = none) := by
  refine ⟨?_, ?_, by decide, ?_⟩
  · by_cases hlt : order < 3
    · simp [NewBpTree, hlt]
    · by_cases hgt : (maxOrder : Int) < order
      · simp [NewBpTree, hlt, hgt]
      · simp [NewBpTree, hlt, hgt]
  · intro h3 hmax
    have hnew := NewBpTree_some h0 h3 hmax
    refine ⟨_, _, hnew, rfl, rfl, rfl, ?_, rfl, rfl, readLeaf_append_self _ _⟩
    unfold tree.IsEmpty
    simp only [getElem?_append_self]
    rfl
  · unfold NewBpTree
    rw [if_neg (by decide), if_pos (by decide)]

/-- C20: the empty-tree boundary.  For every order `m >= 3` that can be
allocated, `NewBpTree(m)` returns a tree, and on that tree, for every key `k`: `Get(k)` returns `(nil, false)`, `Del(k)` returns the same
handle with `(nil, false)`, `NumberOfEntries()` and `Depth()` are 0; after one
`Put(k, v)`, which reports `true`, the depth is still 0, and `Del(k)` then
returns `(v, true)` and a tree for which `IsEmpty()` is `true`. -/
theorem empty_boundary [Inhabited V] {m : Nat} (hm : 3 ≤ m) (hmax : m ≤ maxOrder)
    (h0 : Heap K V) (k : K) (v : V) :
    ∃ h t, NewBpTree h0 (m : Int) = some (h, t) ∧
      t.Get h k = some (default, false) ∧
      (∃ h', t.Del h k = some (h', t, default, false)) ∧
      t.NumberOfEntries = 0 ∧ t.Depth = 0 ∧
      ∃ h1 t1 h2 t2, t.Put h k v = some (h1, t1, true) ∧ t1.Depth = 0 ∧
        t1.NumberOfEntries = 1 ∧
        t1.Del h1 k = some (h2, t2, v, true) ∧ t2.IsEmpty h2 = some true ∧
        t2.NumberOfEntries = 0 ∧ t2.Depth = 0 := by
  have hnew := NewBpTree_some h0 (show (3 : Int) ≤ (m : Int) by omega)
    (show (m : Int) ≤ (maxOrder : Int) by omega)
  have inv := NewBpTree_spec hnew
  have hn0 : (⟨h0.length, (m : Int), 0, 0⟩ : tree).NumberOfEntries = 0 := rfl
  have hdep : (⟨h0.length, (m : Int), 0, 0⟩ : tree).Depth = 0 := rfl
  generalize h0 ++ [Cell.leaf (⟨(m : Int).toNat, [], []⟩ : leafNodeS K V)] = h at hnew inv
  generalize (⟨h0.length, (m : Int), 0, 0⟩ : tree) = t at hnew inv hn0 hdep
  refine ⟨h, t, hnew, ?_, ?_, hn0, hdep, ?_⟩
  · rw [inv.get k, lookup_nil, getRes_none]
  · obtain ⟨h', t', hdel, _, _, hsame, _⟩ := Del_spec inv k
    rw [lookup_nil, getRes_none] at hdel
    rw [hsame (lookup_nil k)] at hdel
    exact ⟨h', hdel⟩
  · obtain ⟨h1, t1, hput, _, inv1, hc1⟩ := Put_spec inv k v
    rw [lookup_nil] at hput hc1
    rw [upsert_nil] at inv1
    obtain ⟨h2, t2, hdel, _, inv2, _, hc2⟩ := Del_spec inv1 k
    have hl : lookup k [(k, v)] = some v := by rw [lookup_cons, if_pos rfl]
    rw [hl, getRes_some] at hdel
    rw [hl] at hc2
    have he : eraseKey k [(k, v)] = ([] : List (K × V)) := by
      simp [eraseKey]
    rw [he] at inv2
    have hn0' : t.numEnts = 0 := hn0
    have hn1 : t1.numEnts = 1 := by
      rw [hc1, hn0']
      rfl
    have hn2 : t2.numEnts = 0 := by
      rw [hc2, hn1]
      rfl
    refine ⟨h1, t1, h2, t2, hput, inv1.depth_zero (by simp), hn1, hdel, ?_, hn2,
      inv2.depth_zero (by simp)⟩
    rw [IsEmpty_spec inv2, hn2]
    rfl

end

section
variable {K V : Type} [LinearOrder K]

/-! ## Sequences of updates -/

theorem putsEnts_cons (es : List (K × V)) (e : K × V) (l : List (K × V)) :
    putsEnts es (e :: l) = putsEnts (upsert e.1 e.2 es) l := rfl

theorem delsEnts_cons (es : List (K × V)) (k : K) (ks : List K) :
    delsEnts es (k :: ks) = delsEnts (eraseKey k es) ks := rfl

/-- The loop of puts on a tree that satisfies the invariant returns, with the
flags and the entries of the list level. -/
theorem putAll_spec {m : Nat} (l : List (K × V)) :
    ∀ {h : Heap K V} {t : tree} {es : List (K × V)}, EInv m h t es →
      ∃ h' t', putAll h t l = some (h', t', putFlags es l) ∧ Ext h h' ∧
        EInv m h' t' (putsEnts es l) := by
  induction l with
  | nil =>
    intro h t es inv
    exact ⟨h, t, rfl, Ext.refl_ext h, inv⟩
  | cons e l ih =>
    intro h t es inv
    obtain ⟨h1, t1, hput, ext1, inv1, _⟩ := Put_spec inv e.1 e.2
    obtain ⟨h2, t2, hall, ext2, inv2⟩ := ih inv1
    refine ⟨h2, t2, ?_, ext1.trans_ext ext2, inv2⟩
    simp only [putAll, hput, hall, putFlags]

/-- The loop of deletions on a tree that satisfies the invariant returns, with
the results and the entries of the list level. -/
theorem delAll_spec [Inhabited V] {m : Nat} (ks : List K) :
    ∀ {h : Heap K V} {t : tree} {es : List (K × V)}, EInv m h t es →
      ∃ h' t', delAll h t ks = some (h', t', delResults es ks) ∧ Ext h h' ∧
        EInv m h' t' (delsEnts es ks) := by
  induction ks with
  | nil =>
    intro h t es inv
    exact ⟨h, t, rfl, Ext.refl_ext h, inv⟩
  | cons k ks ih =>
    intro h t es inv
    obtain ⟨h1, t1, hdel, ext1, inv1, _⟩ := Del_spec inv k
    obtain ⟨h2, t2, hall, ext2, inv2⟩ := ih inv1
    refine ⟨h2, t2, ?_, ext1.trans_ext ext2, inv2⟩
    simp only [delAll, hdel, hall, delResults]

/-- A key that is not put keeps what it had. -/
theorem lookup_putsEnts_of_not_mem {k : K} (l : List (K × V)) :
    ∀ (es : List (K × V)), k ∉ l.map Prod.fst → lookup k (putsEnts es l) = lookup k es := by
  induction l with
  | nil => intro es _; rfl
  | cons e l ih =>
    intro es hk
    simp only [List.map_cons, List.mem_cons, not_or] at hk
    rw [putsEnts_cons, ih _ hk.2, lookup_upsert_ne hk.1]

/-- In a list of pairs in which equal keys carry equal values, a key that is put
has the value it is put with. -/
theorem lookup_putsEnts_of_mem {k : K} {v : V} (l : List (K × V)) :
    ∀ (es : List (K × V)), (∀ p ∈ l, ∀ q ∈ l, p.1 = q.1 → p.2 = q.2) → (k, v) ∈ l →
      lookup k (putsEnts es l) = some v := by
  induction l with
  | nil => intro es _ hm; cases hm
  | cons e l ih =>
    intro es hfun hmem
    have hfun' : ∀ p ∈ l, ∀ q ∈ l, p.1 = q.1 → p.2 = q.2 := fun p hp q hq =>
      hfun p (List.mem_cons_of_mem _ hp) q (List.mem_cons_of_mem _ hq)
    rw [putsEnts_cons]
    by_cases hk : k ∈ l.map Prod.fst
    · obtain ⟨q, hq, hqk⟩ := List.mem_map.1 hk
      have hv : q.2 = v := by
        have := hfun q (List.mem_cons_of_mem _ hq) (k, v) hmem hqk
        exact this
      have hq' : (k, v) ∈ l := by
        have : q = (k, v) := Prod.ext hqk hv
        rw [← this]
        exact hq
      exact ih _ hfun' hq'
    · rw [lookup_putsEnts_of_not_mem l _ hk]
      rw [List.mem_cons] at hmem
      rcases hmem with rfl | hmem
      · exact lookup_upsert_self _ _ _
      · exact absurd (List.mem_map.2 ⟨(k, v), hmem, rfl⟩) hk

/-- Pairwise distinct keys carry one value each. -/
theorem functional_of_nodup {l : List (K × V)} (hnd : (l.map Prod.fst).Nodup) :
    ∀ p ∈ l, ∀ q ∈ l, p.1 = q.1 → p.2 = q.2 := by
  intro p hp q hq hpq
  rw [List.inj_on_of_nodup_map hnd hp hq hpq]

/-- The puts of pairs with pairwise distinct keys, none of which is in the tree,
all report `true`. -/
theorem putFlags_of_nodup (l : List (K × V)) :
    ∀ (es : List (K × V)), (l.map Prod.fst).Nodup → (∀ e ∈ l, lookup e.1 es = none) →
      putFlags es l = l.map (fun _ => true) := by
  induction l with
  | nil => intro es _ _; rfl
  | cons e l ih =>
    intro es hnd hnone
    simp only [List.map_cons, List.nodup_cons] at hnd
    simp only [putFlags, List.map_cons, hnone e (List.mem_cons_self _ _), Option.isNone_none]
    rw [ih _ hnd.2]
    intro e' he'
    have hne : e'.1 ≠ e.1 := fun hh => hnd.1 (List.mem_map.2 ⟨e', he', hh⟩)
    rw [lookup_upsert_ne hne]
    exact hnone e' (List.mem_cons_of_mem _ he')

/-- The deletions of pairwise distinct keys that the tree holds all report the
value held and `true`. -/
theorem delResults_of_nodup [Inhabited V] (l : List (K × V)) :
    ∀ (es : List (K × V)), (l.map Prod.fst).Nodup → (∀ e ∈ l, lookup e.1 es = some e.2) →
      delResults es (l.map Prod.fst) = l.map (fun e => (e.2, true)) := by
  induction l with
  | nil => intro es _ _; rfl
  | cons e l ih =>
    intro es hnd hsome
    simp only [List.map_cons, List.nodup_cons] at hnd
    simp only [delResults, List.map_cons, hsome e (List.mem_cons_self _ _), getRes_some]
    rw [ih _ hnd.2]
    intro e' he'
    have hne : e'.1 ≠ e.1 := fun hh => hnd.1 (List.mem_map.2 ⟨e', he', hh⟩)
    rw [lookup_eraseKey_ne hne]
    exact hsome e' (List.mem_cons_of_mem _ he')

theorem lookup_eraseKey_none {k k' : K} {es : List (K × V)} (h : lookup k es = none) :
    lookup k (eraseKey k' es) = none := by
  by_cases hk : k = k'
  · subst hk
    exact lookup_eraseKey_self _ _
  · rw [lookup_eraseKey_ne hk]
    exact h

/-- After the deletions a key is held only if it was held and not deleted. -/
theorem lookup_delsEnts {k : K} (ks : List K) :
    ∀ (es : List (K × V)), lookup k (delsEnts es ks) = if k ∈ ks then none else lookup k es := by
  induction ks with
  | nil => intro es; simp [delsEnts]
  | cons k' ks ih =>
    intro es
    rw [delsEnts_cons, ih]
    by_cases h1 : k ∈ ks
    · simp [h1]
    · by_cases h2 : k = k'
      · subst h2
        simp [h1, lookup_eraseKey_self]
      · have h3 : k ∉ k' :: ks := by simp [h1, h2]
        rw [if_neg h1, if_neg h3, lookup_eraseKey_ne h2]

theorem eq_nil_of_lookup_none {es : List (K × V)} (h : ∀ k, lookup k es = none) : es = [] := by
  cases es with
  | nil => rfl
  | cons e es =>
    have := h e.1
    rw [lookup_cons, if_pos rfl] at this
    cases this

/-- C16: insert everything, delete everything.  For every order `m >= 3` that
can be allocated (`m <= maxOrder`), every list `l` of entries with pairwise distinct keys and every two orderings `l1`
and `l2` of it: putting the entries of `l1` into `NewBpTree(m)` reports `true`
each time, deleting the keys of `l2` then reports the value put for the key
and `true` each time, and the final tree has `IsEmpty() = true`,
`NumberOfEntries() = 0` and `Depth() = 0`. -/
theorem put_all_del_all [Inhabited V] {m : Nat} (hm : 3 ≤ m) (hmax : m ≤ maxOrder)
    (h0 : Heap K V)
    (l l1 l2 : List (K × V)) (hnd : (l.map Prod.fst).Nodup) (hp1 : l1.Perm l)
    (hp2 : l2.Perm l) :
    ∃ h t h1 t1 h2 t2, NewBpTree h0 (m : Int) = some (h, t) ∧
      putAll h t l1 = some (h1, t1, l1.map (fun _ => true)) ∧
      delAll h1 t1 (l2.map Prod.fst) = some (h2, t2, l2.map (fun e => (e.2, true))) ∧
      t2.IsEmpty h2 = some true ∧ t2.NumberOfEntries = 0 ∧ t2.Depth = 0 := by
  have hnew := NewBpTree_some h0 (show (3 : Int) ≤ (m : Int) by omega)
    (show (m : Int) ≤ (maxOrder : Int) by omega)
  have inv := NewBpTree_spec hnew
  generalize h0 ++ [Cell.leaf (⟨(m : Int).toNat, [], []⟩ : leafNodeS K V)] = h at hnew inv
  generalize (⟨h0.length, (m : Int), 0, 0⟩ : tree) = t at hnew inv
  have hnd1 : (l1.map Prod.fst).Nodup := ((hp1.map Prod.fst).nodup_iff).2 hnd
  have hnd2 : (l2.map Prod.fst).Nodup := ((hp2.map Prod.fst).nodup_iff).2 hnd
  obtain ⟨h1, t1, hput, _, inv1⟩ := putAll_spec l1 inv
  rw [putFlags_of_nodup l1 [] hnd1 (fun e _ => lookup_nil e.1)] at hput
  obtain ⟨h2, t2, hdel, _, inv2⟩ := delAll_spec (l2.map Prod.fst) inv1
  have hheld : ∀ e ∈ l2, lookup e.1 (putsEnts [] l1) = some e.2 := by
    intro e he
    have he1 : (e.1, e.2) ∈ l1 := hp1.mem_iff.2 (hp2.mem_iff.1 he)
    exact lookup_putsEnts_of_mem l1 [] (functional_of_nodup hnd1) he1
  rw [delResults_of_nodup l2 _ hnd2 hheld] at hdel
  have hnil : delsEnts (putsEnts ([] : List (K × V)) l1) (l2.map Prod.fst) = [] := by
    apply eq_nil_of_lookup_none
    intro k
    rw [lookup_delsEnts]
    split
    · rfl
    · next hk =>
      have hk1 : k ∉ l1.map Prod.fst := by
        intro hk1
        exact hk ((hp2.map Prod.fst).mem_iff.2 ((hp1.map Prod.fst).mem_iff.1 hk1))
      rw [lookup_putsEnts_of_not_mem l1 [] hk1, lookup_nil]
  rw [hnil] at inv2
  have hn2 : t2.numEnts = 0 := by
    obtain ⟨_, _, d, _, _, _, _, hc⟩ := inv2
    exact hc
  refine ⟨h, t, h1, t1, h2, t2, hnew, hput, hdel, ?_, hn2, inv2.depth_zero (by simp)⟩
  rw [IsEmpty_spec inv2, hn2]
  rfl

/-- C17: permutation invariance for put sets.  For every order `m >= 3` that can
be allocated (`m <= maxOrder`), every list of (key, value) pairs in which pairs with equal keys carry equal values
and every permutation of it, putting the pairs into `NewBpTree(m)` in the one
order and in the other yields two trees on which `Get` returns the same
result for every key: the value of the pair and `true` for a key of the
list. -/
theorem put_permutation [Inhabited V] {m : Nat} (hm : 3 ≤ m) (hmax : m ≤ maxOrder)
    (h0 h0' : Heap K V)
    (l l' : List (K × V)) (hperm : l'.Perm l)
    (hfun : ∀ p ∈ l, ∀ q ∈ l, p.1 = q.1 → p.2 = q.2) :
    ∃ h t h' t' h1 t1 f1 h2 t2 f2, NewBpTree h0 (m : Int) = some (h, t) ∧
      NewBpTree h0' (m : Int) = some (h', t') ∧
      putAll h t l = some (h1, t1, f1) ∧ putAll h' t' l' = some (h2, t2, f2) ∧
      (∀ k, ∃ res, t1.Get h1 k = some res ∧ t2.Get h2 k = some res) ∧
      ∀ k v, (k, v) ∈ l → t1.Get h1 k = some (v, true) := by
  have hnew := NewBpTree_some h0 (show (3 : Int) ≤ (m : Int) by omega)
    (show (m : Int) ≤ (maxOrder : Int) by omega)
  have hnew' := NewBpTree_some h0' (show (3 : Int) ≤ (m : Int) by omega)
    (show (m : Int) ≤ (maxOrder : Int) by omega)
  obtain ⟨h1, t1, hput, _, inv1⟩ := putAll_spec l (NewBpTree_spec hnew)
  obtain ⟨h2, t2, hput', _, inv2⟩ := putAll_spec l' (NewBpTree_spec hnew')
  have hfun' : ∀ p ∈ l', ∀ q ∈ l', p.1 = q.1 → p.2 = q.2 := fun p hp q hq =>
    hfun p (hperm.mem_iff.1 hp) q (hperm.mem_iff.1 hq)
  refine ⟨_, _, _, _, h1, t1, _, h2, t2, _, hnew, hnew', hput, hput', ?_, ?_⟩
  · intro k
    refine ⟨_, inv1.get k, ?_⟩
    rw [inv2.get k]
    congr 2
    by_cases hk : k ∈ l.map Prod.fst
    · obtain ⟨q, hq, rfl⟩ := List.mem_map.1 hk
      rw [lookup_putsEnts_of_mem l [] hfun hq,
        lookup_putsEnts_of_mem l' [] hfun' (hperm.mem_iff.2 hq)]
    · have hk' : k ∉ l'.map Prod.fst := fun hh => hk ((hperm.map Prod.fst).mem_iff.1 hh)
      rw [lookup_putsEnts_of_not_mem l [] hk, lookup_putsEnts_of_not_mem l' [] hk']
  · intro k v hkv
    rw [inv1.get k, lookup_putsEnts_of_mem l [] hfun hkv, getRes_some]

end

section

/-! ## The invariants and the sequences of updates on the example trees -/

/-- The leaf at address 7 is a node of `tree3`. -/
theorem inTree3 : InTree heap3 tree3.root 7 :=
  InTree.child 8 7 7 ⟨3, [2], [6, 7]⟩ rfl (by decide) (InTree.self 7)

theorem fanout_bounds_witness :
    Reachable 3 heap3 tree3 ∧ validTree 2 heap3 tree3 = some true ∧
    (∃ N, ∀ fuel, N ≤ fuel → validTree fuel heap3 tree3 = some true) ∧
    ∀ b, InTree heap3 tree3.root b →
      (∀ n, readNode heap3 b = some n →
        n.keys.length + 1 = n.vals.length ∧ n.vals.length ≤ 3 ∧
        (b ≠ tree3.root → intCeil ((3 : Nat) : Int) 2 ≤ (n.vals.length : Int)) ∧
        (b = tree3.root → 1 ≤ n.keys.length ∧ n.keys.length ≤ 3 - 1)) ∧
      (∀ l, readLeaf heap3 b = some l →
        l.keys.length = l.vals.length ∧ l.keys.length ≤ 3 - 1 ∧
        (b ≠ tree3.root → intCeil (((3 : Nat) : Int) - 1) 2 ≤ (l.keys.length : Int))) :=
  ⟨reach3, rfl, fanout_bounds reach3⟩

theorem key_ordering_witness :
    Reachable 3 heap3 tree3 ∧ InTree heap3 tree3.root 7 ∧
    ∀ b, InTree heap3 tree3.root b →
      (∀ l, readLeaf heap3 b = some l → l.keys.Pairwise (fun x y => x < y)) ∧
      (∀ n, readNode heap3 b = some n → n.keys.Pairwise (fun x y => x < y)) :=
  ⟨reach3, inTree3, key_ordering reach3⟩

theorem separator_consistency_witness :
    Reachable 3 heap3 tree3 ∧ InTree heap3 tree3.root tree3.root ∧
    ∀ b n, InTree heap3 tree3.root b → readNode heap3 b = some n →
      n.vals.length = n.keys.length + 1 ∧
      ∀ i k, n.keys[i]? = some k →
        (∀ c, n.vals[i]? = some c → ∀ x, InTree heap3 c x → ∀ k' ∈ keysAt heap3 x, k' < k) ∧
        (∀ c, n.vals[i + 1]? = some c → ∀ x, InTree heap3 c x →
          ∀ k' ∈ keysAt heap3 x, k ≤ k') :=
  ⟨reach3, InTree.self _, separator_consistency reach3⟩

theorem uniform_depth_witness :
    Reachable 3 heap3 tree3 ∧ tree3.Depth = 1 ∧
    (∃ n, PathLen heap3 tree3.root n) ∧
    (∀ n, PathLen heap3 tree3.root n → (n : Int) = tree3.Depth) ∧
    ((∃ l, readLeaf heap3 tree3.root = some l) → tree3.Depth = 0) :=
  ⟨reach3, rfl, uniform_depth reach3⟩

theorem count_accuracy_witness :
    Reachable 3 heap3 tree3 ∧ tree3.countEntries heap3 = 3 ∧
    tree3.NumberOfEntries = (tree3.countEntries heap3 : Int) ∧
    tree3.countEntries heap3 = (tree3.entries heap3).length :=
  ⟨reach3, rfl, count_accuracy reach3⟩

theorem put_all_del_all_witness :
    (3 : Nat) ≤ 3 ∧ 3 ≤ maxOrder ∧
    (([(1, 10), (2, 20), (3, 30), (4, 40)] : List (Nat × Nat)).map Prod.fst).Nodup ∧
    List.Perm [(3, 30), (1, 10), (4, 40), (2, 20)]
      ([(1, 10), (2, 20), (3, 30), (4, 40)] : List (Nat × Nat)) ∧
    List.Perm [(2, 20), (4, 40), (1, 10), (3, 30)]
      ([(1, 10), (2, 20), (3, 30), (4, 40)] : List (Nat × Nat)) ∧
    ∃ h t h1 t1 h2 t2, NewBpTree ([] : Heap Nat Nat) ((3 : Nat) : Int) = some (h, t) ∧
      putAll h t [(3, 30), (1, 10), (4, 40), (2, 20)] =
        some (h1, t1, [(3, 30), (1, 10), (4, 40), (2, 20)].map (fun _ => true)) ∧
      delAll h1 t1 (([(2, 20), (4, 40), (1, 10), (3, 30)] : List (Nat × Nat)).map Prod.fst) =
        some (h2, t2, [(2, 20), (4, 40), (1, 10), (3, 30)].map (fun e => (e.2, true))) ∧
      t2.IsEmpty h2 = some true ∧ t2.NumberOfEntries = 0 ∧ t2.Depth = 0 :=
  ⟨by decide, by decide, by decide, by decide, by decide,
    put_all_del_all (by decide) (by decide) [] [(1, 10), (2, 20), (3, 30), (4, 40)]
      [(3, 30), (1, 10), (4, 40), (2, 20)] [(2, 20), (4, 40), (1, 10), (3, 30)]
      (by decide) (by decide) (by decide)⟩

theorem put_permutation_witness :
    (3 : Nat) ≤ 3 ∧ 3 ≤ maxOrder ∧
    List.Perm [(2, 20), (1, 10), (3, 30), (1, 10)]
      ([(1, 10), (2, 20), (1, 10), (3, 30)] : List (Nat × Nat)) ∧
    (∀ p ∈ ([(1, 10), (2, 20), (1, 10), (3, 30)] : List (Nat × Nat)),
      ∀ q ∈ ([(1, 10), (2, 20), (1, 10), (3, 30)] : List (Nat × Nat)), p.1 = q.1 → p.2 = q.2) ∧
    ∃ h t h' t' h1 t1 f1 h2 t2 f2,
      NewBpTree ([] : Heap Nat Nat) ((3 : Nat) : Int) = some (h, t) ∧
      NewBpTree ([] : Heap Nat Nat) ((3 : Nat) : Int) = some (h', t') ∧
      putAll h t [(1, 10), (2, 20), (1, 10), (3, 30)] = some (h1, t1, f1) ∧
      putAll h' t' [(2, 20), (1, 10), (3, 30), (1, 10)] = some (h2, t2, f2) ∧
      (∀ k, ∃ res, t1.Get h1 k = some res ∧ t2.Get h2 k = some res) ∧
      ∀ k v, (k, v) ∈ ([(1, 10), (2, 20), (1, 10), (3, 30)] : List (Nat × Nat)) →
        t1.Get h1 k = some (v, true) :=
  ⟨by decide, by decide, by decide, by decide,
    put_permutation (by decide) (by decide) [] [] [(1, 10), (2, 20), (1, 10), (3, 30)]
      [(2, 20), (1, 10), (3, 30), (1, 10)] (by decide) (by decide)⟩

/-- C17 as stated fails on a list that holds one key with two values: the pairs
`(1, 10)` and `(1, 11)` put in this order leave key 1 with the value 11, put in
the other order they leave it with the value 10. -/
theorem put_permutation_counterexample :
    NewBpTree ([] : Heap Nat Nat) 3 = some (heap0, tree0) ∧
    List.Perm [(1, 11), (1, 10)] ([(1, 10), (1, 11)] : List (Nat × Nat)) ∧
    ∃ h1 t1 f1 h2 t2 f2, putAll heap0 tree0 [(1, 10), (1, 11)] = some (h1, t1, f1) ∧
      putAll heap0 tree0 [(1, 11), (1, 10)] = some (h2, t2, f2) ∧
      t1.Get h1 1 = some (11, true) ∧ t2.Get h2 1 = some (10, true) :=
  ⟨rfl, List.Perm.swap _ _ _, _, _, _, _, _, _, rfl, rfl, rfl, rfl⟩

theorem isEmpty_iff_witness :
    Reachable 3 heap0 tree0 ∧ tree0.IsEmpty heap0 = some true ∧
    (tree0.NumberOfEntries = 0 ↔
      ∃ l, readLeaf heap0 tree0.root = some l ∧ l.keys = [] ∧ l.vals = []) ∧
    tree0.IsEmpty heap0 = some (decide (tree0.NumberOfEntries = 0)) ∧
    (tree0.IsEmpty heap0 = some true ↔ tree0.NumberOfEntries = 0) :=
  ⟨reach0, rfl, isEmpty_iff reach0⟩

theorem empty_boundary_witness :
    (3 : Nat) ≤ 3 ∧ 3 ≤ maxOrder ∧
    ∃ h t, NewBpTree ([] : Heap Nat Nat) ((3 : Nat) : Int) = some (h, t) ∧
      t.Get h 5 = some (default, false) ∧
      (∃ h', t.Del h 5 = some (h', t, default, false)) ∧
      t.NumberOfEntries = 0 ∧ t.Depth = 0 ∧
      ∃ h1 t1 h2 t2, t.Put h 5 50 = some (h1, t1, true) ∧ t1.Depth = 0 ∧
        t1.NumberOfEntries = 1 ∧
        t1.Del h1 5 = some (h2, t2, 50, true) ∧ t2.IsEmpty h2 = some true ∧
        t2.NumberOfEntries = 0 ∧ t2.Depth = 0 :=
  ⟨by decide, by decide, empty_boundary (by decide) (by decide) [] 5 50⟩

end

section

/-! ## The order of `StringKey` -/

/-- The comparison of Go strings is the lexicographic order of the lists of
bytes. -/
theorem stringLess_iff (s t : List Nat) : stringLess s t = true ↔ s < t := by
  induction s generalizing t with
  | nil =>
    cases t with
    | nil =>
      constructor
      · intro hf; cases hf
      · intro hlt; cases hlt
    | cons b t => exact ⟨fun _ => List.Lex.nil, fun _ => rfl⟩
  | cons a s ih =>
    cases t with
    | nil =>
      constructor
      · intro hf; cases hf
      · intro hlt; cases hlt
    | cons b t =>
      unfold stringLess
      by_cases h1 : a < b
      · rw [if_pos h1]
        exact ⟨fun _ => List.Lex.rel h1, fun _ => rfl⟩
      · rw [if_neg h1]
        by_cases h2 : b < a
        · rw [if_pos h2]
          constructor
          · intro hf; cases hf
          · intro hlt
            cases hlt with
            | cons _ => exact absurd h2 (Nat.lt_irrefl _)
            | rel h => exact absurd h h1
        · rw [if_neg h2, ih]
          have hab : a = b := by omega
          subst hab
          constructor
          · intro hlt; exact List.Lex.cons hlt
          · intro hlt
            cases hlt with
            | cons h => exact h
            | rel h => exact absurd h h1

/-- The order of `StringKey` is the order of the lengths, then of the bytes. -/
theorem StringKey.lt_iff (a b : StringKey) :
    a < b ↔ a.bytes.length < b.bytes.length ∨
      (a.bytes.length = b.bytes.length ∧ a.bytes < b.bytes) := by
  show StringKey.enc a < StringKey.enc b ↔ _
  rw [StringKey.enc, StringKey.enc, Prod.Lex.lt_iff]

/-- The method `LessThan` of `StringKey`, in the words of the specification. -/
theorem StringKey.lessThan_iff (a b : StringKey) :
    StringKey.LessThan a b = true ↔ a.bytes.length < b.bytes.length ∨
      (a.bytes.length = b.bytes.length ∧ a.bytes < b.bytes) := by
  unfold StringKey.LessThan
  by_cases h1 : a.bytes.length < b.bytes.length
  · rw [if_pos h1]
    exact ⟨fun _ => Or.inl h1, fun _ => rfl⟩
  · rw [if_neg h1]
    by_cases h2 : a.bytes.length > b.bytes.length
    · rw [if_pos h2]
      constructor
      · intro hf; cases hf
      · rintro (h | ⟨h, _⟩) <;> omega
    · rw [if_neg h2, stringLess_iff]
      constructor
      · intro h; exact Or.inr ⟨by omega, h⟩
      · rintro (h | ⟨_, h⟩)
        · exact absurd h h1
        · exact h

theorem StringKey.equals_iff (a b : StringKey) : StringKey.Equals a b = true ↔ a = b := by
  unfold StringKey.Equals
  cases a
  cases b
  simp

/-- The comparison `LessThan` that the tree uses is the method of `StringKey`. -/
theorem lessThan_stringKey (a b : StringKey) : LessThan a b = StringKey.LessThan a b := by
  rw [Bool.eq_iff_iff, LessThan_iff, StringKey.lessThan_iff, StringKey.lt_iff]

/-- The comparison `Equals` that the tree uses is the method of `StringKey`. -/
theorem equals_stringKey (a b : StringKey) : Equals a b = StringKey.Equals a b := by
  rw [Bool.eq_iff_iff, Equals_iff, StringKey.equals_iff]

/-- C24: the order of `StringKey`.  For all strings `a` and `b`, `LessThan` is
true if and only if `a` is shorter than `b`, or they have the same length and
the bytes of `a` are lexicographically less than those of `b`; `Equals` is
true if and only if they are the same string.  The tree, used with keys of
type `StringKey`, compares with these two methods. -/
theorem stringKey_order (a b : StringKey) :
    (StringKey.LessThan a b = true ↔ a.bytes.length < b.bytes.length ∨
      (a.bytes.length = b.bytes.length ∧ a.bytes < b.bytes)) ∧
    (StringKey.Equals a b = true ↔ a.bytes = b.bytes) ∧
    LessThan a b = StringKey.LessThan a b ∧ Equals a b = StringKey.Equals a b := by
  refine ⟨StringKey.lessThan_iff a b, ?_, lessThan_stringKey a b, equals_stringKey a b⟩
  simp [StringKey.Equals]

/-- C25: `StringKey` satisfies the key contract.  `LessThan` is irreflexive and
transitive, and for all strings `a` and `b` exactly one of `a.LessThan(b)`,
`a.Equals(b)`, `b.LessThan(a)` holds. -/
theorem stringKey_strict_total :
    (∀ a : StringKey, StringKey.LessThan a a = false) ∧
    (∀ a b c : StringKey, StringKey.LessThan a b = true → StringKey.LessThan b c = true →
      StringKey.LessThan a c = true) ∧
    (∀ a b : StringKey,
      (StringKey.LessThan a b = true ∧ StringKey.Equals a b = false ∧
        StringKey.LessThan b a = false) ∨
      (StringKey.LessThan a b = false ∧ StringKey.Equals a b = true ∧
        StringKey.LessThan b a = false) ∨
      (StringKey.LessThan a b = false ∧ StringKey.Equals a b = false ∧
        StringKey.LessThan b a = true)) := by
  have hl : ∀ a b : StringKey, StringKey.LessThan a b = true ↔ a < b := fun a b => by
    rw [← lessThan_stringKey, LessThan_iff]
  have he : ∀ a b : StringKey, StringKey.Equals a b = true ↔ a = b := StringKey.equals_iff
  have hlf : ∀ a b : StringKey, StringKey.LessThan a b = false ↔ ¬ a < b := fun a b => by
    rw [← hl, Bool.not_eq_true]
  have hef : ∀ a b : StringKey, StringKey.Equals a b = false ↔ a ≠ b := fun a b => by
    rw [Ne, ← he, Bool.not_eq_true]
  refine ⟨fun a => (hlf a a).2 (lt_irrefl a), ?_, ?_⟩
  · intro a b c h1 h2
    exact (hl a c).2 (lt_trans ((hl a b).1 h1) ((hl b c).1 h2))
  · intro a b
    rcases lt_trichotomy a b with h | h | h
    · exact Or.inl ⟨(hl a b).2 h, (hef a b).2 (ne_of_lt h), (hlf b a).2 (lt_asymm h)⟩
    · subst h
      exact Or.inr (Or.inl ⟨(hlf a a).2 (lt_irrefl a), (he a a).2 rfl, (hlf a a).2 (lt_irrefl a)⟩)
    · exact Or.inr (Or.inr ⟨(hlf a b).2 (lt_asymm h), (hef a b).2 (ne_of_gt h), (hl b a).2 h⟩)

end

section

/-! ## Scenario 1: the keys "a", "b", "c", "d" in a tree of order 3 -/

/-- C23: scenario 1.  Starting from `NewBpTree(3)` and putting the keys "a", "b",
"c", "d" with the values 1, 2, 3, 4 in that order, every put reports `true`;
the root leaf splits on the put of "c": the depth is 0 before and 1 after, and
the root then has the two leaves "a" and "b", "c"; the put of "d" splits the
right leaf, so that the tree then has depth 1 with the three leaves "a", "b" and
"c", "d" under the separators "b" and "c"; `Get("c")` returns 3 and
`NumberOfEntries()` is 4. -/
theorem scenario_abcd :
    NewBpTree ([] : Heap StringKey Nat) 3 = some (strHeap0, strTree0) ∧
    strTree0.Put strHeap0 keyA 1 = some (strHeap1, strTree1, true) ∧
    strTree1.Put strHeap1 keyB 2 = some (strHeap2, strTree2, true) ∧
    strTree2.Put strHeap2 keyC 3 = some (strHeap3, strTree3, true) ∧
    strTree3.Put strHeap3 keyD 4 = some (strHeap4, strTree4, true) ∧
    strTree2.Depth = 0 ∧ strTree3.Depth = 1 ∧
    readNode strHeap3 strTree3.root = some ⟨3, [keyB], [6, 7]⟩ ∧
    readLeaf strHeap3 6 = some ⟨3, [keyA], [1]⟩ ∧
    readLeaf strHeap3 7 = some ⟨3, [keyB, keyC], [2, 3]⟩ ∧
    strTree4.Depth = 1 ∧
    readNode strHeap4 strTree4.root = some ⟨3, [keyB, keyC], [6, 10, 11]⟩ ∧
    readLeaf strHeap4 6 = some ⟨3, [keyA], [1]⟩ ∧
    readLeaf strHeap4 10 = some ⟨3, [keyB], [2]⟩ ∧
    readLeaf strHeap4 11 = some ⟨3, [keyC, keyD], [3, 4]⟩ ∧
    strTree4.Get strHeap4 keyC = some (3, true) ∧ strTree4.NumberOfEntries = 4 :=
  ⟨rfl, rfl, rfl, rfl, rfl, rfl, rfl, rfl, rfl, rfl, rfl, rfl, rfl, rfl, rfl, rfl, rfl⟩

/-- C23 as stated fails in its count of the leaves: after the put of "d" the root
has three children, not two. -/
theorem scenario_abcd_counterexample :
    ∃ h1 t1 h2 t2 h3 t3 h4 t4 n,
      NewBpTree ([] : Heap StringKey Nat) 3 = some (strHeap0, strTree0) ∧
      strTree0.Put strHeap0 keyA 1 = some (h1, t1, true) ∧
      t1.Put h1 keyB 2 = some (h2, t2, true) ∧
      t2.Put h2 keyC 3 = some (h3, t3, true) ∧
      t3.Put h3 keyD 4 = some (h4, t4, true) ∧
      t4.Depth = 1 ∧ readNode h4 t4.root = some n ∧ n.vals.length = 3 ∧
      n.vals.all (fun c => (readLeaf h4 c).isSome) = true :=
  ⟨strHeap1, strTree1, strHeap2, strTree2, strHeap3, strTree3, strHeap4, strTree4,
    ⟨3, [keyB, keyC], [6, 10, 11]⟩, rfl, rfl, rfl, rfl, rfl, rfl, rfl, rfl, rfl⟩

end

section
variable {K V : Type} [LinearOrder K]

/-! ## The two splits, from their definitions -/

/-- The result of the method `split` of a leaf with at least one key. -/
theorem leaf_split_eq {h : Heap K V} {p : Nat} {l : leafNodeS K V}
    (hl : readLeaf h p = some l) {sk : K} (hsk : l.keys[l.keys.length / 2]? = some sk) :
    leafNodeS.split h p =
      some ((h ++ [Cell.leaf ⟨l.cap, l.keys.drop (l.keys.length / 2),
          l.vals.drop (l.vals.length / 2)⟩]).set p
        (Cell.leaf ⟨l.cap, l.keys.take (l.keys.length / 2), l.vals.take (l.vals.length / 2)⟩),
        h.length, sk) := by
  have h0 : (l.keys.drop (l.keys.length / 2))[0]? = some sk := by
    rw [List.getElem?_drop]
    exact hsk
  unfold leafNodeS.split
  simp only [hl, mkLeaf, alloc, leafNodeS.order, set_append_self, h0]

/-- The result of the method `split` of an interior node with `m` separators and
`m + 1` children, of order `m`. -/
theorem node_split_eq {m : Nat} (hm : 3 ≤ m) {h : Heap K V} {p : Nat} {n : interiorNodeS K}
    (hn : readNode h p = some n) (hcap : n.cap = m) (hk : n.keys.length = m)
    (hv : n.vals.length = m + 1) {mid : K} (hmid : n.keys[(m - 1) / 2]? = some mid) :
    interiorNodeS.split h p =
      some ((h ++ [Cell.node ⟨m, n.keys.drop ((m - 1) / 2 + 1),
          n.vals.drop ((m + 1) / 2)⟩]).set p
        (Cell.node ⟨m, n.keys.take ((m - 1) / 2), n.vals.take ((m + 1) / 2)⟩),
        h.length, mid) := by
  unfold interiorNodeS.split
  simp only [hn, mkNode, alloc, interiorNodeS.order, hcap, set_append_self]
  by_cases hodd : m % 2 = 1
  · have e1 : m / 2 = (m - 1) / 2 := by omega
    rw [if_pos hodd, e1, hmid]
    simp only
    rw [if_pos ⟨by omega, by omega⟩]
  · have e1 : m / 2 - 1 = (m - 1) / 2 := by omega
    have e2 : m / 2 = (m - 1) / 2 + 1 := by omega
    rw [if_neg hodd, e1, hmid]
    simp only
    rw [if_pos ⟨by omega, by omega⟩, e2]

/-- C28: leaf split.  For every order `m >= 3` and every leaf with exactly `m`
entries, `split()` returns: the receiver keeps the entries before index
`floor(m/2)`, the new right leaf holds the entries from that index on, keys
and values are cut at the same index, the separator returned is the first
key of the right leaf, the key at index `floor(m/2)`, and the entries of the
receiver followed by those of the right leaf are the original entries.  No
other cell of the heap changes. -/
theorem leaf_split {m : Nat} (hm : 3 ≤ m) {h : Heap K V} {p : Nat} {l : leafNodeS K V}
    (hl : readLeaf h p = some l) (hcap : l.cap = m) (hk : l.keys.length = m)
    (hv : l.vals.length = m) :
    ∃ h' r sk L R, leafNodeS.split h p = some (h', r, sk) ∧
      readLeaf h' p = some L ∧ readLeaf h' r = some R ∧ r = h.length ∧
      L.keys = l.keys.take (m / 2) ∧ L.vals = l.vals.take (m / 2) ∧
      R.keys = l.keys.drop (m / 2) ∧ R.vals = l.vals.drop (m / 2) ∧
      L.keys.length = m / 2 ∧ L.vals.length = m / 2 ∧
      R.keys.length = m - m / 2 ∧ R.vals.length = m - m / 2 ∧
      l.keys[m / 2]? = some sk ∧ R.keys[0]? = some sk ∧
      L.keys ++ R.keys = l.keys ∧ L.vals ++ R.vals = l.vals ∧
      L.keys.zip L.vals ++ R.keys.zip R.vals = l.keys.zip l.vals ∧
      L.cap = m ∧ R.cap = m ∧
      ∀ a, a < h.length → a ≠ p → h'[a]? = h[a]? := by
  have hp := readLeaf_lt hl
  have hlt : m / 2 < l.keys.length := by omega
  have hsk : l.keys[l.keys.length / 2]? = some (l.keys[m / 2]) := by
    rw [hk]
    exact List.getElem?_eq_getElem hlt
  have hs := leaf_split_eq hl hsk
  rw [hk, hv, hcap] at hs
  refine ⟨_, _, _, ⟨m, l.keys.take (m / 2), l.vals.take (m / 2)⟩,
    ⟨m, l.keys.drop (m / 2), l.vals.drop (m / 2)⟩, hs, ?_, ?_, rfl, rfl, rfl, rfl, rfl,
    ?_, ?_, ?_, ?_, List.getElem?_eq_getElem hlt, ?_, List.take_append_drop _ _,
    List.take_append_drop _ _, ?_, rfl, rfl, ?_⟩
  · exact readLeaf_set_self (by simp; omega) _
  · rw [readLeaf_set_ne (by omega)]
    exact readLeaf_append_self _ _
  · simp only [List.length_take]; omega
  · simp only [List.length_take]; omega
  · simp only [List.length_drop]; omega
  · simp only [List.length_drop]; omega
  · simp only
    rw [List.getElem?_drop]
    exact List.getElem?_eq_getElem hlt
  · simp only
    rw [← List.zip_append (by simp only [List.length_take]; omega), List.take_append_drop,
      List.take_append_drop]
  · intro a ha hne
    rw [List.getElem?_set_ne (Ne.symm hne)]
    exact List.getElem?_append_left ha

/-- C29: interior split.  For every order `m >= 3` and every interior node with
exactly `m` separators and `m + 1` children, `split()` returns: it promotes
`keys[m/2]` when `m` is odd (the left node keeps the separators before index
`m/2`, the right node takes those from `m/2 + 1` on) and `keys[m/2 - 1]` when
`m` is even (the left node keeps the separators before index `m/2 - 1`, the
right node takes those from `m/2` on); in both cases the left node keeps the
children before index `(m+1)/2` and the right node takes the others; the left
separators, the promoted one and the right separators are the original
separators, the left and the right children are the original children, and
each node has one child more than separators. -/
theorem interior_split {m : Nat} (hm : 3 ≤ m) {h : Heap K V} {p : Nat} {n : interiorNodeS K}
    (hn : readNode h p = some n) (hcap : n.cap = m) (hk : n.keys.length = m)
    (hv : n.vals.length = m + 1) :
    ∃ h' r mid L R, interiorNodeS.split h p = some (h', r, mid) ∧
      readNode h' p = some L ∧ readNode h' r = some R ∧ r = h.length ∧
      (m % 2 = 1 → n.keys[m / 2]? = some mid ∧ L.keys = n.keys.take (m / 2) ∧
        R.keys = n.keys.drop (m / 2 + 1)) ∧
      (m % 2 = 0 → n.keys[m / 2 - 1]? = some mid ∧ L.keys = n.keys.take (m / 2 - 1) ∧
        R.keys = n.keys.drop (m / 2)) ∧
      L.vals = n.vals.take ((m + 1) / 2) ∧ R.vals = n.vals.drop ((m + 1) / 2) ∧
      L.keys ++ mid :: R.keys = n.keys ∧ L.vals ++ R.vals = n.vals ∧
      L.vals.length = L.keys.length + 1 ∧ R.vals.length = R.keys.length + 1 ∧
      L.cap = m ∧ R.cap = m ∧
      ∀ a, a < h.length → a ≠ p → h'[a]? = h[a]? := by
  have hp := readNode_lt hn
  have hlt : (m - 1) / 2 < n.keys.length := by omega
  have hmid : n.keys[(m - 1) / 2]? = some (n.keys[(m - 1) / 2]) :=
    List.getElem?_eq_getElem hlt
  have hs := node_split_eq hm hn hcap hk hv hmid
  refine ⟨_, _, _, ⟨m, n.keys.take ((m - 1) / 2), n.vals.take ((m + 1) / 2)⟩,
    ⟨m, n.keys.drop ((m - 1) / 2 + 1), n.vals.drop ((m + 1) / 2)⟩, hs, ?_, ?_, rfl, ?_, ?_,
    rfl, rfl, ?_, List.take_append_drop _ _, ?_, ?_, rfl, rfl, ?_⟩
  · exact readNode_set_self (by simp; omega) _
  · rw [readNode_set_ne (by omega)]
    exact readNode_append_self _ _
  · intro hodd
    have e1 : m / 2 = (m - 1) / 2 := by omega
    rw [e1]
    exact ⟨hmid, rfl, rfl⟩
  · intro heven
    have e1 : m / 2 - 1 = (m - 1) / 2 := by omega
    have e2 : m / 2 = (m - 1) / 2 + 1 := by omega
    rw [e1]
    refine ⟨hmid, rfl, ?_⟩
    rw [e2]
  · simp only
    rw [← List.drop_eq_getElem_cons hlt]
    exact List.take_append_drop _ _
  · simp only [List.length_take]; omega
  · simp only [List.length_drop]; omega
  · intro a ha hne
    rw [List.getElem?_set_ne (Ne.symm hne)]
    exact List.getElem?_append_left ha

/-- C30: the weight of an interior split.  For every order `m >= 3` and every
interior node with `m` separators and `m + 1` children, `split()` gives both
sides the same number of children and of separators when `m` is odd, and
gives the right side one child and one separator more than the left side
when `m` is even. -/
theorem interior_split_weight {m : Nat} (hm : 3 ≤ m) {h : Heap K V} {p : Nat}
    {n : interiorNodeS K} (hn : readNode h p = some n) (hcap : n.cap = m)
    (hk : n.keys.length = m) (hv : n.vals.length = m + 1) :
    ∃ h' r mid L R, interiorNodeS.split h p = some (h', r, mid) ∧
      readNode h' p = some L ∧ readNode h' r = some R ∧
      (m % 2 = 1 → R.vals.length = L.vals.length ∧ R.keys.length = L.keys.length ∧
        L.vals.length = (m + 1) / 2 ∧ L.keys.length = m / 2) ∧
      (m % 2 = 0 → R.vals.length = L.vals.length + 1 ∧ R.keys.length = L.keys.length + 1 ∧
        L.vals.length = m / 2 ∧ L.keys.length = m / 2 - 1) := by
  have hp := readNode_lt hn
  have hlt : (m - 1) / 2 < n.keys.length := by omega
  have hmid : n.keys[(m - 1) / 2]? = some (n.keys[(m - 1) / 2]) :=
    List.getElem?_eq_getElem hlt
  have hs := node_split_eq hm hn hcap hk hv hmid
  refine ⟨_, _, _, ⟨m, n.keys.take ((m - 1) / 2), n.vals.take ((m + 1) / 2)⟩,
    ⟨m, n.keys.drop ((m - 1) / 2 + 1), n.vals.drop ((m + 1) / 2)⟩, hs, ?_, ?_, ?_, ?_⟩
  · exact readNode_set_self (by simp; omega) _
  · rw [readNode_set_ne (by omega)]
    exact readNode_append_self _ _
  · intro hodd
    simp only [List.length_take, List.length_drop]
    omega
  · intro heven
    simp only [List.length_take, List.length_drop]
    omega

end

section
variable {K V : Type} [LinearOrder K]

/-! ## No abort, and the descent in an ordered tree -/

/-- C26: no invariant-violation abort under correct use.  For every tree
reachable from `NewBpTree(m)` by `Put` and `Del` (so `m >= 3`), every key and
every value, `Get`, `Put` and `Del` return: none of the panics of the package
(a child or key to swap that is not found, an underflowing node without a
sibling, a dead node at index 0 or not found, an index out of range, the
leftmost key of an empty leaf, a failed assertion or type assertion), which
are the result `none` of the embedding, is reached. -/
theorem no_abort [Inhabited V] {m : Nat} {h : Heap K V} {t : tree} (r : Reachable m h t)
    (k : K) (v : V) :
    3 ≤ m ∧ (∃ res, t.Get h k = some res) ∧ (∃ h' t' b, t.Put h k v = some (h', t', b)) ∧
      ∃ h' t' w d, t.Del h k = some (h', t', w, d) := by
  obtain ⟨es, inv⟩ := r.to_einv
  refine ⟨inv.1, ⟨_, inv.get k⟩, ?_, ?_⟩
  · obtain ⟨h', t', hput, _⟩ := Put_spec inv k v
    exact ⟨h', t', _, hput⟩
  · obtain ⟨h', t', hdel, _⟩ := Del_spec inv k
    exact ⟨h', t', _, _, hdel⟩

theorem Ordered_zero {h : Heap K V} {a : Nat} :
    Ordered h 0 a ↔ ∃ l, readLeaf h a = some l ∧ l.keys.length = l.vals.length ∧
      l.keys.Pairwise (fun x y => x < y) := Iff.rfl

theorem Ordered_succ {h : Heap K V} {d a : Nat} :
    Ordered h (d + 1) a ↔ ∃ n, readNode h a = some n ∧ n.vals.length = n.keys.length + 1 ∧
      n.keys.Pairwise (fun x y => x < y) ∧
      ∀ i c, n.vals[i]? = some c → Ordered h d c ∧
        ∀ e ∈ ents h d c, geLo (loAt none n.keys i) e.1 ∧ ltHi (hiAt none n.keys i) e.1 :=
  Iff.rfl

theorem geLo_loAt_none {lo : Option K} {keys : List K} {i : Nat} {k : K}
    (h : geLo (loAt lo keys i) k) : geLo (loAt none keys i) k := by
  cases i with
  | zero => rw [loAt_zero]; exact geLo_none k
  | succ i => rwa [loAt_succ] at h ⊢

theorem ltHi_hiAt_none {hi : Option K} {keys : List K} {i : Nat} {k : K}
    (h : ltHi (hiAt hi keys i) k) : ltHi (hiAt none keys i) k := by
  by_cases hi' : i < keys.length
  · rwa [hiAt_lt _ _ hi'] at h ⊢
  · rw [hiAt_ge _ _ (by omega)]
    exact ltHi_none k

/-- A well-formed subtree is an ordered tree. -/
theorem Rep.to_ordered {m : Nat} {h : Heap K V} {d a : Nat} {lo hi : Option K}
    (r : Rep m h d a lo hi) : Ordered h d a := by
  induction d generalizing a lo hi with
  | zero =>
    obtain ⟨l, hl, _, hlen, hs, _⟩ := Rep_zero.1 r
    exact ⟨l, hl, hlen, hs⟩
  | succ d ih =>
    obtain ⟨n, hn, _, hlen, _, _, hch⟩ := Rep_kids.1 r
    refine ⟨n, hn, hlen, (r.sepOK hn).sorted, ?_⟩
    intro i c hc
    have kc := hch i c hc
    refine ⟨ih kc.1, ?_⟩
    intro e he
    have := kc.1.props.2.1 e he
    exact ⟨geLo_loAt_none this.1, ltHi_hiAt_none this.2⟩

/-- Every reachable tree is an ordered tree. -/
theorem Reachable.ordered [Inhabited V] {m : Nat} {h : Heap K V} {t : tree}
    (r : Reachable m h t) : ∃ d, Ordered h d t.root := by
  obtain ⟨_, _, d, _, rr, _, _⟩ := r.inv
  exact ⟨d, rr.to_ordered⟩

/-- A pointer is an ordered tree of one height only. -/
theorem Ordered.height_unique {h : Heap K V} {d : Nat} :
    ∀ {d' a : Nat}, Ordered h d a → Ordered h d' a → d = d' := by
  induction d with
  | zero =>
    intro d' a o o'
    cases d' with
    | zero => rfl
    | succ d' =>
      obtain ⟨l, hl, _⟩ := Ordered_zero.1 o
      obtain ⟨n, hn, _⟩ := Ordered_succ.1 o'
      rw [readNode_of_leaf hl] at hn
      cases hn
  | succ d ih =>
    intro d' a o o'
    cases d' with
    | zero =>
      obtain ⟨l, hl, _⟩ := Ordered_zero.1 o'
      obtain ⟨n, hn, _⟩ := Ordered_succ.1 o
      rw [readNode_of_leaf hl] at hn
      cases hn
    | succ d' =>
      obtain ⟨n, hn, hlen, _, hch⟩ := Ordered_succ.1 o
      obtain ⟨n', hn', _, _, hch'⟩ := Ordered_succ.1 o'
      rw [hn] at hn'
      cases hn'
      have h0 : 0 < n.vals.length := by omega
      have e := ih (hch 0 _ (List.getElem?_eq_getElem h0)).1
        (hch' 0 _ (List.getElem?_eq_getElem h0)).1
      rw [e]

/-- A tree of height `d` has `d + 1` cells of different heights on its leftmost
path. -/
theorem Ordered.chain {h : Heap K V} {d : Nat} :
    ∀ {a : Nat}, Ordered h d a →
      ∃ s : Finset Nat, s.card = d + 1 ∧ ∀ x ∈ s, x < h.length ∧ ∃ j, j ≤ d ∧ Ordered h j x := by
  induction d with
  | zero =>
    intro a o
    obtain ⟨l, hl, _⟩ := Ordered_zero.1 o
    refine ⟨{a}, by simp, ?_⟩
    intro x hx
    rw [Finset.mem_singleton] at hx
    subst hx
    exact ⟨readLeaf_lt hl, 0, Nat.le_refl _, o⟩
  | succ d ih =>
    intro a o
    obtain ⟨n, hn, hlen, _, hch⟩ := Ordered_succ.1 o
    have h0 : 0 < n.vals.length := by omega
    obtain ⟨s, hcard, hs⟩ := ih (hch 0 _ (List.getElem?_eq_getElem h0)).1
    have hna : a ∉ s := by
      intro ha
      obtain ⟨_, j, hj, oj⟩ := hs a ha
      have := o.height_unique oj
      omega
    refine ⟨insert a s, by rw [Finset.card_insert_of_not_mem hna, hcard], ?_⟩
    intro x hx
    rw [Finset.mem_insert] at hx
    rcases hx with rfl | hx
    · exact ⟨readNode_lt hn, d + 1, Nat.le_refl _, o⟩
    · obtain ⟨hlt, j, hj, oj⟩ := hs x hx
      exact ⟨hlt, j, by omega, oj⟩

/-- The height of an ordered tree is less than the number of cells. -/
theorem Ordered.height_lt {h : Heap K V} {d a : Nat} (o : Ordered h d a) : d < h.length := by
  obtain ⟨s, hcard, hs⟩ := o.chain
  have hsub : s ⊆ Finset.range h.length := by
    intro x hx
    rw [Finset.mem_range]
    exact (hs x hx).1
  have := Finset.card_le_card hsub
  rw [Finset.card_range, hcard] at this
  omega

/-- An entry of a leaf of an ordered tree is an entry of the tree. -/
theorem Ordered.mem_ents {h : Heap K V} {a x : Nat} (t : InTree h a x) :
    ∀ {d : Nat}, Ordered h d a → ∀ {lx : leafNodeS K V}, readLeaf h x = some lx →
      ∀ e ∈ lx.keys.zip lx.vals, e ∈ ents h d a := by
  induction t with
  | self a =>
    intro d o lx hlx e he
    cases d with
    | zero => rwa [ents_leaf hlx]
    | succ d =>
      obtain ⟨n, hn, _⟩ := Ordered_succ.1 o
      rw [readNode_of_leaf hlx] at hn
      cases hn
  | child a c b n hn hc _ ih =>
    intro d o lx hlx e he
    cases d with
    | zero =>
      obtain ⟨l, hl, _⟩ := Ordered_zero.1 o
      rw [readNode_of_leaf hl] at hn
      cases hn
    | succ d =>
      obtain ⟨n', hn', _, _, hch⟩ := Ordered_succ.1 o
      rw [hn] at hn'
      cases hn'
      obtain ⟨i, hi, rfl⟩ := List.getElem_of_mem hc
      have hq : n.vals[i]? = some n.vals[i] := List.getElem?_eq_getElem hi
      exact mem_ents_child hn hq (ih (hch i _ hq).1 hlx e he)

/-- The leaves of an ordered tree have as many values as keys. -/
theorem Ordered.leaf_aligned {h : Heap K V} {a x : Nat} (t : InTree h a x) :
    ∀ {d : Nat}, Ordered h d a → ∀ {lx : leafNodeS K V}, readLeaf h x = some lx →
      lx.keys.length = lx.vals.length := by
  induction t with
  | self a =>
    intro d o lx hlx
    cases d with
    | zero =>
      obtain ⟨l, hl, hlen, _⟩ := Ordered_zero.1 o
      rw [hlx] at hl
      cases hl
      exact hlen
    | succ d =>
      obtain ⟨n, hn, _⟩ := Ordered_succ.1 o
      rw [readNode_of_leaf hlx] at hn
      cases hn
  | child a c b n hn hc _ ih =>
    intro d o lx hlx
    cases d with
    | zero =>
      obtain ⟨l, hl, _⟩ := Ordered_zero.1 o
      rw [readNode_of_leaf hl] at hn
      cases hn
    | succ d =>
      obtain ⟨n', hn', _, _, hch⟩ := Ordered_succ.1 o
      rw [hn] at hn'
      cases hn'
      obtain ⟨i, hi, rfl⟩ := List.getElem_of_mem hc
      exact ih (hch i _ (List.getElem?_eq_getElem hi)).1 hlx

/-- The child index that the descent takes is the only one whose bounds hold the
key. -/
theorem childIdx_unique {keys : List K} (hs : keys.Pairwise (fun x y => x < y)) {key : K}
    {j : Nat} (hj : j ≤ keys.length) (hlo : geLo (loAt none keys j) key)
    (hhi : ltHi (hiAt none keys j) key) : childIdx keys key = j := by
  have hf := findIdx?_eq_of (p := fun k => LessThan key k) hj
    (by
      intro j' x hj' hx
      obtain ⟨hj'l, rfl⟩ := List.getElem?_eq_some.1 hx
      obtain ⟨j0, rfl⟩ : ∃ j0, j = j0 + 1 := ⟨j - 1, by omega⟩
      rw [loAt_succ, List.getElem?_eq_getElem (by omega), geLo_some] at hlo
      have hle : keys[j'] ≤ keys[j0] := by
        rcases Nat.lt_or_ge j' j0 with hlt | hge
        · exact le_of_lt (List.pairwise_iff_getElem.1 hs j' j0 hj'l (by omega) hlt)
        · have : j' = j0 := by omega
          subst this
          exact le_refl _
      simp only [LessThan_false_iff]
      exact le_trans hle hlo)
    (by
      intro x hx
      obtain ⟨hjl, rfl⟩ := List.getElem?_eq_some.1 hx
      rw [hiAt_lt _ _ hjl, ltHi_some] at hhi
      simpa using hhi)
  unfold childIdx
  rw [hf]
  split
  · next i heq =>
    split at heq
    · cases heq; rfl
    · cases heq
  · next heq =>
    split at heq
    · cases heq
    · omega

/-- The descent in an ordered tree returns a leaf of the tree, the only one
that can hold the key. -/
theorem findLeafLoop_ordered {h : Heap K V} {key : K} {d : Nat} :
    ∀ {a : Nat} {path : pathT} {fuel : Nat}, Ordered h d a → d + 1 ≤ fuel →
      ∃ leaf path' l, findLeafLoop h key fuel a path = some (leaf, path') ∧
        InTree h a leaf ∧ readLeaf h leaf = some l ∧ l.keys.length = l.vals.length ∧
        l.keys.Pairwise (fun x y => x < y) ∧
        ∀ x lx, InTree h a x → readLeaf h x = some lx → key ∈ lx.keys → x = leaf := by
  induction d with
  | zero =>
    intro a path fuel o hf
    obtain ⟨l, hl, hlen, hs⟩ := Ordered_zero.1 o
    obtain ⟨f, rfl⟩ : ∃ f, fuel = f + 1 := ⟨fuel - 1, by omega⟩
    refine ⟨a, path, l, findLeafLoop_leaf hl, InTree.self a, hl, hlen, hs, ?_⟩
    intro x lx t _ _
    cases t with
    | self => rfl
    | child _ c _ n hn _ _ =>
      rw [readNode_of_leaf hl] at hn
      cases hn
  | succ d ih =>
    intro a path fuel o hf
    obtain ⟨n, hn, hlen, hs, hch⟩ := Ordered_succ.1 o
    obtain ⟨f, rfl⟩ : ∃ f, fuel = f + 1 := ⟨fuel - 1, by omega⟩
    have hidx : childIdx n.keys key < n.vals.length := by
      have := childIdx_le n.keys key
      omega
    have hq : n.vals[childIdx n.keys key]? = some n.vals[childIdx n.keys key] :=
      List.getElem?_eq_getElem hidx
    obtain ⟨leaf, path', l, hfl, tl, hl, hlenl, hsl, huniq⟩ :=
      @ih _ (a :: path) f (hch _ _ hq).1 (by omega)
    refine ⟨leaf, path', l, ?_, InTree.child a _ leaf n hn (List.getElem_mem hidx) tl, hl,
      hlenl, hsl, ?_⟩
    · rw [findLeafLoop_node hn hlen, hq]
      exact hfl
    · intro x lx t hlx hk
      cases t with
      | self =>
        rw [readLeaf_of_node hn] at hlx
        cases hlx
      | child _ c _ n' hn' hc tc =>
        rw [hn] at hn'
        cases hn'
        obtain ⟨j, hj, rfl⟩ := List.getElem_of_mem hc
        have hqj : n.vals[j]? = some n.vals[j] := List.getElem?_eq_getElem hj
        obtain ⟨oc, hb⟩ := hch j _ hqj
        obtain ⟨v, hv⟩ := @mem_zip_of_mem_left _ _ _ lx.vals _ (oc.leaf_aligned tc hlx) hk
        have hin := oc.mem_ents tc hlx (key, v) hv
        have hbb := hb (key, v) hin
        have hju : childIdx n.keys key = j :=
          childIdx_unique hs (by omega) hbb.1 hbb.2
        have hcc : n.vals[j] = n.vals[childIdx n.keys key] := by
          simp only [hju]
        rw [hcc] at tc
        exact huniq x lx tc hlx hk

end

section
variable {K V : Type} [LinearOrder K]

/-! ## Search correctness -/

theorem lookup_zip_iff {keys : List K} {vals : List V} {key : K} {v : V}
    (hlen : keys.length = vals.length) (hs : keys.Pairwise (fun x y => x < y)) :
    lookup key (keys.zip vals) = some v ↔
      ∃ i : Nat, keys[i]? = some key ∧ vals[i]? = some v := by
  have hidx : ∀ i : Nat, keys[i]? = some key → lookup key (keys.zip vals) = vals[i]? := by
    intro i hi
    obtain ⟨hil, hk⟩ := List.getElem?_eq_some.1 hi
    refine lookup_zip_idx hil hk ?_ hlen
    intro j hj
    have := List.pairwise_iff_getElem.1 hs j i (by omega) hil hj
    rw [hk] at this
    exact ne_of_lt this
  constructor
  · intro hl
    have hsome : (lookup key (keys.zip vals)).isSome = true := by rw [hl]; rfl
    obtain ⟨e, he, hek⟩ := lookup_isSome_iff.1 hsome
    have hmem : key ∈ keys := by
      rw [← hek]
      exact zip_mem_fst he
    obtain ⟨i, hil, hk⟩ := List.getElem_of_mem hmem
    have hq : keys[i]? = some key := by rw [List.getElem?_eq_getElem hil, hk]
    refine ⟨i, hq, ?_⟩
    rw [← hidx i hq]
    exact hl
  · rintro ⟨i, hk, hv⟩
    rw [hidx i hk]
    exact hv

theorem lookup_zip_none_iff {keys : List K} {vals : List V} {key : K}
    (hlen : keys.length = vals.length) :
    lookup key (keys.zip vals) = none ↔ key ∉ keys := by
  constructor
  · intro hl hmem
    obtain ⟨b, hb⟩ := mem_zip_of_mem_left hlen hmem
    exact lookup_eq_none_iff.1 hl (key, b) hb rfl
  · intro hn
    exact lookup_zip_none (fun k hk hkk => hn (hkk ▸ hk))

/-- C27: search correctness of the descent.  For every tree with key ordering
and separator consistency (every reachable tree is one, `Reachable.ordered`)
and every key `k`: `findLeaf(k)` returns a leaf of the tree, and every leaf of
the tree that stores `k` is that leaf; `Get(k)` returns `(v, true)` if and
only if a leaf of the tree stores `k` with the value `v`, and `(nil, false)`
if and only if no leaf of the tree stores `k`; it returns one or the other. -/
theorem search_correct [Inhabited V] {h : Heap K V} {t : tree}
    (o : ∃ d, Ordered h d t.root) (k : K) :
    ∃ leaf path l, t.findLeaf h k = some (leaf, path) ∧ InTree h t.root leaf ∧
      readLeaf h leaf = some l ∧
      (∀ x lx, InTree h t.root x → readLeaf h x = some lx → k ∈ lx.keys → x = leaf) ∧
      (∀ v, t.Get h k = some (v, true) ↔
        ∃ (x : Nat) (lx : leafNodeS K V) (i : Nat), InTree h t.root x ∧
          readLeaf h x = some lx ∧ lx.keys[i]? = some k ∧ lx.vals[i]? = some v) ∧
      (t.Get h k = some (default, false) ↔
        ∀ x lx, InTree h t.root x → readLeaf h x = some lx → k ∉ lx.keys) ∧
      ((∃ v, t.Get h k = some (v, true)) ∨ t.Get h k = some (default, false)) := by
  obtain ⟨d, od⟩ := o
  obtain ⟨leaf, path, l, hfl, tl, hl, hlen, hs, huniq⟩ :=
    @findLeafLoop_ordered K V _ h k d t.root newPathT h.length od
      (by have := od.height_lt; omega)
  have hget : t.Get h k = some (getRes (lookup k (l.keys.zip l.vals))) := by
    unfold tree.Get tree.findLeaf
    simp only [hfl, hl, Option.bind_eq_bind, Option.some_bind]
    exact leaf_scan l k hlen
  refine ⟨leaf, path, l, hfl, tl, hl, huniq, ?_, ?_, ?_⟩
  · intro v
    rw [hget]
    constructor
    · intro hg
      have hlk : lookup k (l.keys.zip l.vals) = some v :=
        getRes_inj (Option.some.inj hg)
      obtain ⟨i, hk, hv⟩ := (lookup_zip_iff hlen hs).1 hlk
      exact ⟨leaf, l, i, tl, hl, hk, hv⟩
    · rintro ⟨x, lx, i, tx, hlx, hk, hv⟩
      have hx := huniq x lx tx hlx (List.getElem?_mem hk)
      subst hx
      rw [hl] at hlx
      cases hlx
      rw [(lookup_zip_iff hlen hs).2 ⟨i, hk, hv⟩, getRes_some]
  · rw [hget]
    constructor
    · intro hg x lx tx hlx hk
      have hx := huniq x lx tx hlx hk
      subst hx
      rw [hl] at hlx
      cases hlx
      have hnone : lookup k (l.keys.zip l.vals) = none :=
        (getRes_false (Option.some.inj hg).symm).1
      exact (lookup_zip_none_iff hlen).1 hnone hk
    · intro hall
      rw [(lookup_zip_none_iff hlen).2 (hall leaf l tl hl), getRes_none]
  · rw [hget]
    cases lookup k (l.keys.zip l.vals) with
    | none => exact Or.inr (by rw [getRes_none])
    | some v => exact Or.inl ⟨v, by rw [getRes_some]⟩

end

section
variable {K V : Type} [LinearOrder K]

/-! ## The depth after an insertion -/

theorem pathFull_nil (m : Nat) (h : Heap K V) : pathFull m h [] = true := rfl

theorem pathFull_cons (m : Nat) (h : Heap K V) (p : Nat) (rest : pathT) :
    pathFull m h (p :: rest) = (decide (nodeSize h p = m) && pathFull m h rest) := rfl

theorem DRes.congr_depth {t : tree} {res res' : Option (Heap K V × tree)} {δ δ' : Int}
    (d : DRes t res δ) (hres : res' = res) (hδ : δ' = δ) : DRes t res' δ' := by
  subst hres; subst hδ; exact d

/-- The result of `newRootNode` in a tree of order `m`. -/
theorem newRootNode_eq {m : Nat} (hm : 3 ≤ m) {t : tree} (hord : t.order = (m : Int))
    (h : Heap K V) (k : K) (a b : Nat) :
    t.newRootNode h k a b =
      some (h ++ [Cell.node ⟨m, [k], [a, b]⟩], { t with root := h.length, depth := t.depth + 1 }) := by
  unfold tree.newRootNode mkNode alloc
  simp only [hord, Int.toNat_ofNat, set_append_self]
  rw [if_pos (by omega)]

/-- The end of `insertUpLeaf` and `insertUp`, about the depth. -/
theorem insert_tail_depth {m : Nat} (hm : 3 ≤ m) {h0 : Heap K V} {t : tree} {D : Nat}
    {rest : pathT} (IH : InsUpD m h0 t D rest)
    {h : Heap K V} {p d : Nat} {plo phi : Option K} {pre post : List (K × V)}
    {n3 : interiorNodeS K}
    (c : Ctx m h0 t.root D p (d + 1) plo phi rest pre post)
    (rp : Rep m h0 (d + 1) p plo phi) (pfp : PosFull m h0 (d + 1) p rest)
    (ag : Agree h0.length h0 h) (hl : h0.length ≤ h.length)
    (r3 : Rep m (h ++ [Cell.node n3]) (d + 1) h.length plo phi)
    (hsz : nodeSize (h ++ [Cell.node n3]) h.length = nodeSize h0 p + 1) :
    DRes t
      (if n3.isToBig = true then
        (interiorNodeS.split (h ++ [Cell.node n3]) h.length).bind (fun x =>
          t.insertUp x.1 p h.length x.2.2 x.2.1 rest)
      else t.copyUp (h ++ [Cell.node n3]) p h.length rest)
      (if pathFull m h0 (p :: rest) = true then 1 else 0) := by
  obtain ⟨n', hn', hcap, hlen, _⟩ := Rep_kids.1 r3
  rw [readNode_append_self] at hn'
  cases hn'
  have hmax := pfp.le_max
  rw [maxSize_succ] at hmax
  have hsz' := hsz
  rw [nodeSize_of_node (readNode_append_self h n3)] at hsz'
  have ag3 : Agree h0.length h0 (h ++ [Cell.node n3]) := ag.trans (Agree.append _ _ hl)
  by_cases hbig : n3.keys.length = m
  · have hb : n3.isToBig = true := by simp [interiorNodeS.isToBig, hbig, hcap]
    rw [if_pos hb]
    obtain ⟨mid, L, R, hsplit, kL, kR, _⟩ := interiorNodeS.split_spec hm r3 hbig
    rw [hsplit]
    simp only [Option.some_bind]
    have ag4 : Agree h0.length h0 (h ++ [Cell.node L, Cell.node R]) :=
      ag.trans (Agree.append _ _ hl)
    have := IH c rp ag4 (by omega : h0.length ≤ h.length) (by omega : h0.length ≤ h.length + 1)
      (by omega) kL kR
    refine this.congr_depth rfl ?_
    have hfull : decide (nodeSize h0 p = m) = true := decide_eq_true (by omega)
    rw [pathFull_cons, hfull, Bool.true_and]
  · have hb : ¬ n3.isToBig = true := by simp [interiorNodeS.isToBig, hbig, hcap]
    rw [if_neg hb]
    have pf3 : PosFull m (h ++ [Cell.node n3]) (d + 1) h.length rest :=
      pfp.grow hsz (by
        rw [maxSize_succ, nodeSize_of_node (readNode_append_self h n3)]
        omega)
    obtain ⟨h', root', hcu, _⟩ := copyUp_spec rest c rp ag3 hl r3 pf3
    have hfull : decide (nodeSize h0 p = m) = false := decide_eq_false (by omega)
    rw [pathFull_cons, hfull, Bool.false_and]
    intro h'' t'' hres
    rw [hcu] at hres
    cases hres
    simp

/-- The method `insertUp`, about the depth. -/
theorem insertUp_depth {m : Nat} (hm : 3 ≤ m) {h0 : Heap K V} {t : tree}
    (hord : t.order = (m : Int)) {D : Nat} (path : pathT) : InsUpD m h0 t D path := by
  induction path with
  | nil =>
    intro h oldNode newNode splitNode d lo hi pre post splitKey c rold ag hf1 hf2 hne k1 k2
    obtain ⟨rfl, rfl, rfl, rfl, rfl, rfl⟩ := c
    obtain ⟨no, hno, _⟩ := Rep_succ.1 rold
    have hno' : readNode h t.root = some no := by rw [ag.readNode rold.lt]; exact hno
    intro h' t' hres
    rw [tree.insertUp] at hres
    simp only [hno', Option.bind_eq_bind, Option.some_bind, if_true,
      newRootNode_eq hm hord] at hres
    cases hres
    simp [pathFull_nil]
  | cons p rest ih =>
    intro h oldNode newNode splitNode d lo hi pre post splitKey c rold ag hf1 hf2 hne k1 k2
    obtain ⟨n, plo, phi, i, pre', post', hn, hi', rfl, rfl, rp, pfp, rfl, rfl, cp⟩ := c
    have hl : h0.length ≤ h.length := by have := k1.1.lt; omega
    have hn' : readNode h p = some n := by rw [ag.readNode rp.lt]; exact hn
    obtain ⟨_, hn2, hcap, hlen, hnd, hltc, hch⟩ := Rep_succ.1 rp
    rw [hn] at hn2
    cases hn2
    have hch1 : ∀ c ∈ n.vals, ∃ n', readNode (h ++ [Cell.node n]) c = some n' := by
      intro c hc
      obtain ⟨n', hn'⟩ := rp.child_node hn c hc
      refine ⟨n', ?_⟩
      have hcl := readNode_lt hn'
      rw [(Agree.append h [Cell.node n] (Nat.le_refl _)).readNode (by omega), ag.readNode hcl]
      exact hn'
    have hswap : n.swapInteriorNode (h ++ [Cell.node n]) oldNode newNode =
        some { n with vals := n.vals.set i newNode } := by
      simp only [interiorNodeS.swapInteriorNode, swapInteriorVals_spec hch1 hi' hnd]
    obtain ⟨n3, hins, r3, _, hsz⟩ := insert_parent rp hn hi' ag hl hf1 hf2 hne k1 k2
      (by have := pfp.le_max; rw [maxSize_succ, nodeSize_of_node hn] at this; exact this)
    have hupd1 := updNode_fresh (h := h) (n := n)
      (f := fun n0 => n0.swapInteriorNode (h ++ [Cell.node n]) oldNode newNode) hswap
    have hupd2 := updNode_fresh (h := h) (n := { n with vals := n.vals.set i newNode })
      (f := fun n0 => n0.insert splitKey splitNode) hins
    have tail := insert_tail_depth hm ih cp rp pfp ag hl r3 hsz
    refine tail.congr_depth ?_ rfl
    rw [tree.insertUp]
    simp only [interiorNodeS.copy_eq hn', Option.bind_eq_bind, Option.some_bind, hupd1, hupd2,
      readNode_append_self]

/-- The method `insertUpLeaf`, about the depth. -/
theorem insertUpLeaf_depth {m : Nat} (hm : 3 ≤ m) {h0 : Heap K V} {t : tree}
    (hord : t.order = (m : Int)) {D : Nat} (path : pathT)
    {h : Heap K V} {oldLeaf newLeaf splitLeaf : Nat} {lo hi : Option K}
    {pre post : List (K × V)} {splitKey : K}
    (c : Ctx m h0 t.root D oldLeaf 0 lo hi path pre post)
    (ag : Agree h0.length h0 h) (hf1 : h0.length ≤ newLeaf) (hf2 : h0.length ≤ splitLeaf)
    (hne : newLeaf ≠ splitLeaf)
    (k1 : Kid m h 0 newLeaf lo (some splitKey)) (k2 : Kid m h 0 splitLeaf (some splitKey) hi) :
    DRes t (t.insertUpLeaf h oldLeaf newLeaf splitKey splitLeaf path)
      (if pathFull m h0 path = true then 1 else 0) := by
  cases path with
  | nil =>
    intro h' t' hres
    rw [tree.insertUpLeaf, newRootNode_eq hm hord] at hres
    cases hres
    simp [pathFull_nil]
  | cons p rest =>
    obtain ⟨n, plo, phi, i, pre', post', hn, hi', rfl, rfl, rp, pfp, rfl, rfl, cp⟩ := c
    have hl : h0.length ≤ h.length := by have := k1.1.lt; omega
    have hn' : readNode h p = some n := by rw [ag.readNode rp.lt]; exact hn
    obtain ⟨_, hn2, hcap, hlen, hnd, hltc, hch⟩ := Rep_succ.1 rp
    rw [hn] at hn2
    cases hn2
    have hch1 : ∀ c ∈ n.vals, ∃ l, readLeaf (h ++ [Cell.node n]) c = some l := by
      intro c hc
      obtain ⟨l, hl'⟩ := rp.child_leaf hn c hc
      refine ⟨l, ?_⟩
      have hcl := readLeaf_lt hl'
      rw [(Agree.append h [Cell.node n] (Nat.le_refl _)).readLeaf (by omega), ag.readLeaf hcl]
      exact hl'
    have hswap : n.swapLeafNode (h ++ [Cell.node n]) oldLeaf newLeaf =
        some { n with vals := n.vals.set i newLeaf } := by
      simp only [interiorNodeS.swapLeafNode, swapLeafVals_spec hch1 hi' hnd]
    obtain ⟨n3, hins, r3, _, hsz⟩ := insert_parent rp hn hi' ag hl hf1 hf2 hne k1 k2
      (by have := pfp.le_max; rw [maxSize_succ, nodeSize_of_node hn] at this; exact this)
    have hupd1 := updNode_fresh (h := h) (n := n)
      (f := fun n0 => n0.swapLeafNode (h ++ [Cell.node n]) oldLeaf newLeaf) hswap
    have hupd2 := updNode_fresh (h := h) (n := { n with vals := n.vals.set i newLeaf })
      (f := fun n0 => n0.insert splitKey splitLeaf) hins
    have tail := insert_tail_depth hm (insertUp_depth hm hord rest) cp rp pfp ag hl r3 hsz
    refine tail.congr_depth ?_ rfl
    rw [tree.insertUpLeaf]
    simp only [interiorNodeS.copy_eq hn', Option.bind_eq_bind, Option.some_bind, hupd1, hupd2,
      readNode_append_self]

/-- The method `copyUpLeaf` on a leaf within its bounds keeps the depth. -/
theorem copyUpLeaf_depth {m : Nat} {h0 : Heap K V} {t : tree} {D : Nat} (path : pathT)
    {h : Heap K V} {oldLeaf newLeaf : Nat} {lo hi : Option K} {pre post : List (K × V)}
    (c : Ctx m h0 t.root D oldLeaf 0 lo hi path pre post)
    (ag : Agree h0.length h0 h) (hfresh : h0.length ≤ newLeaf)
    (rnew : Rep m h 0 newLeaf lo hi) (pf : PosFull m h 0 newLeaf path) :
    DRes t (t.copyUpLeaf h oldLeaf newLeaf path) 0 := by
  cases path with
  | nil =>
    intro h' t' hres
    rw [tree.copyUpLeaf] at hres
    cases hr : t.isRoot h oldLeaf with
    | none => simp [hr] at hres
    | some b =>
      cases b with
      | false => simp [hr] at hres
      | true =>
        simp only [hr, Option.bind_eq_bind, Option.some_bind, if_true, Option.some.injEq,
          Prod.mk.injEq] at hres
        rw [← hres.2]
        simp [tree.setRootLeaf]
  | cons p rest =>
    obtain ⟨n, plo, phi, i, pre', post', hn, hi', rfl, rfl, rp, pfp, rfl, rfl, cp⟩ := c
    have hl : h0.length ≤ h.length := by have := rnew.lt; omega
    have hn' : readNode h p = some n := by rw [ag.readNode rp.lt]; exact hn
    obtain ⟨_, hn2, hcap, hlen, hnd, hltc, hch⟩ := Rep_succ.1 rp
    rw [hn] at hn2
    cases hn2
    have hch1 : ∀ c ∈ n.vals, ∃ l, readLeaf (h ++ [Cell.node n]) c = some l := by
      intro c hc
      obtain ⟨l, hl'⟩ := rp.child_leaf hn c hc
      refine ⟨l, ?_⟩
      have hcl := readLeaf_lt hl'
      rw [(Agree.append h [Cell.node n] (Nat.le_refl _)).readLeaf (by omega), ag.readLeaf hcl]
      exact hl'
    have hswap : n.swapLeafNode (h ++ [Cell.node n]) oldLeaf newLeaf =
        some { n with vals := n.vals.set i newLeaf } := by
      simp only [interiorNodeS.swapLeafNode, swapLeafVals_spec hch1 hi' hnd]
    have hupd := updNode_fresh (h := h) (n := n)
      (f := fun n0 => n0.swapLeafNode (h ++ [Cell.node n]) oldLeaf newLeaf) hswap
    have ag2 : Agree h0.length h0 (h ++ [Cell.node { n with vals := n.vals.set i newLeaf }]) :=
      ag.trans (Agree.append _ _ hl)
    have agn : Agree (newLeaf + 1) h (h ++ [Cell.node { n with vals := n.vals.set i newLeaf }]) :=
      Agree.append _ _ rnew.lt
    have hset := Rep.set_child rp hn hi' ag2 (readNode_append_self h _) hfresh rnew.lt
      (rnew.agree agn) (by
        have : Full m h 0 newLeaf := by simpa [PosFull] using pf
        exact this.agree_full agn)
    obtain ⟨h', root', hcu, _⟩ :=
      copyUp_spec rest cp rp ag2 hl hset.1 (pfp.of_size hset.2.2)
    intro h'' t'' hres
    rw [tree.copyUpLeaf] at hres
    simp only [interiorNodeS.copy_eq hn', Option.bind_eq_bind, Option.some_bind, hupd,
      hcu] at hres
    cases hres
    simp

/-- The descent gives the same result in a heap with more cells and with more
fuel. -/
theorem findLeafLoop_ext {h h' : Heap K V} (ag : Agree h.length h h') (key : K) :
    ∀ (fuel fuel' a : Nat) (path : pathT) (res : Nat × pathT), fuel ≤ fuel' →
      findLeafLoop h key fuel a path = some res → findLeafLoop h' key fuel' a path = some res := by
  intro fuel
  induction fuel with
  | zero =>
    intro fuel' a path res _ hres
    rw [findLeafLoop] at hres
    cases hres
  | succ fuel ih =>
    intro fuel' a path res hle hres
    obtain ⟨f', rfl⟩ : ∃ f', fuel' = f' + 1 := ⟨fuel' - 1, by omega⟩
    rw [findLeafLoop] at hres ⊢
    cases hc : h[a]? with
    | none => rw [hc] at hres; cases hres
    | some cell =>
      have ha : a < h.length := (List.getElem?_eq_some.1 hc).1
      rw [ag a ha, hc]
      rw [hc] at hres
      cases cell with
      | leaf l => exact hres
      | node n =>
        simp only at hres ⊢
        cases hil : n.isLeaf with
        | none => rw [hil] at hres; cases hres
        | some b =>
          rw [hil] at hres
          simp only at hres ⊢
          cases hfi : n.keys.findIdx? (fun k => LessThan key k) with
          | none =>
            rw [hfi] at hres
            simp only at hres ⊢
            cases hv : n.vals[n.keys.length]? with
            | none => rw [hv] at hres; cases hres
            | some c =>
              rw [hv] at hres
              exact ih f' c _ res (by omega) hres
          | some i =>
            rw [hfi] at hres
            simp only at hres ⊢
            cases hv : n.vals[i]? with
            | none => rw [hv] at hres; cases hres
            | some c =>
              rw [hv] at hres
              exact ih f' c _ res (by omega) hres

/-- The nodes of the path of a descent are cells of the heap. -/
theorem Ctx.path_lt {m : Nat} {h : Heap K V} {root D : Nat} (path : pathT) :
    ∀ {node d : Nat} {lo hi : Option K} {pre post : List (K × V)},
      Ctx m h root D node d lo hi path pre post → ∀ p ∈ path, p < h.length := by
  induction path with
  | nil => intro node d lo hi pre post _ p hp; cases hp
  | cons q rest ih =>
    intro node d lo hi pre post c p hp
    obtain ⟨n, plo, phi, i, pre', post', hn, _, _, _, _, _, _, _, cp⟩ := c
    rw [List.mem_cons] at hp
    rcases hp with rfl | hp
    · exact readNode_lt hn
    · exact ih cp p hp

theorem pathFull_agree {m n : Nat} {h h' : Heap K V} (ag : Agree n h h') {path : pathT}
    (hp : ∀ p ∈ path, p < n) : pathFull m h' path = pathFull m h path := by
  induction path with
  | nil => rfl
  | cons q rest ih =>
    rw [pathFull_cons, pathFull_cons, ih (fun p hp' => hp p (List.mem_cons_of_mem _ hp')),
      ag.nodeSize (hp q (List.mem_cons_self _ _))]

end

section
variable {K V : Type} [LinearOrder K]

/-- The depth after `Put`: it grows by one when the key is new, the leaf of the key
holds `m - 1` entries and every node of the path has `m` children. -/
theorem Put_depth {m : Nat} {h : Heap K V} {t : tree} {es : List (K × V)}
    (inv : EInv m h t es) (key : K) (val : V) :
    ∃ leaf path l, t.findLeaf h key = some (leaf, path) ∧ readLeaf h leaf = some l ∧
      ∀ h' t' b, t.Put h key val = some (h', t', b) →
        t'.depth = t.depth +
          (if b = true ∧ l.vals.length = m - 1 ∧ pathFull m h path = true then 1 else 0) := by
  obtain ⟨hm, hord, d, hD, r, rf, he, hc⟩ := inv
  have ag0 : Agree h.length h (h ++ [Cell.leaf ⟨t.order.toNat, [], []⟩]) :=
    Agree.append _ _ (Nat.le_refl _)
  generalize hh0 : h ++ [Cell.leaf (⟨t.order.toNat, [], []⟩ : leafNodeS K V)] = h0 at ag0
  have hl0 : h.length ≤ h0.length := by rw [← hh0]; simp
  have r0 := r.agree (ag0.mono r.lt)
  have rf0 := rf.agree_root (ag0.mono r.lt)
  obtain ⟨leafh, pathh, loh, hih, preh, posth, hfh, rlh, _, ch, _, _⟩ := findLeaf_spec key r rf
  obtain ⟨leaf, path, lo, hi, pre, post, hf, rl, pfl, c, hlo, hhi⟩ := findLeaf_spec key r0 rf0
  have hsame : (leaf, path) = (leafh, pathh) := by
    have h1 : t.findLeaf h0 key = some (leafh, pathh) := by
      unfold tree.findLeaf at hfh ⊢
      exact findLeafLoop_ext ag0 key _ _ _ _ _ hl0 hfh
    rw [hf] at h1
    exact Option.some.inj h1
  obtain ⟨rfl, rfl⟩ := Prod.mk.inj hsame
  obtain ⟨l, hl, hcap, hlen, hs, hbnd, hblt⟩ := Rep_zero.1 rl
  have hlh : readLeaf h leaf = some l := by rw [← ag0.readLeaf rlh.lt]; exact hl
  have hpf : pathFull m h0 path = pathFull m h path := pathFull_agree ag0 ch.path_lt
  refine ⟨leaf, path, l, hfh, hlh, ?_⟩
  obtain ⟨l', added, hins, hcap', hlen', hs', hmem', hzip', hadded, hklen⟩ :=
    leafNodeS.insert_spec l key val hlen hs (by have := pfl.leaf_le hl; omega)
  let t2 : tree := if added = true then { t with numEnts := t.numEnts + 1 } else t
  have ht2r : t2.root = t.root := by simp only [t2]; split <;> rfl
  have ht2o : t2.order = (m : Int) := by simp only [t2]; split <;> exact hord
  have ht2d : t2.depth = t.depth := by simp only [t2]; split <;> rfl
  have hrl2 := readLeaf_append_self h0 l'
  have r2 : Rep m (h0 ++ [Cell.leaf l']) 0 h0.length lo hi := by
    refine Rep_zero.2 ⟨l', hrl2, by rw [hcap', hcap], hlen', hs', ?_, hblt⟩
    intro k hk
    rcases hmem' k hk with rfl | hk'
    · exact ⟨hlo, hhi⟩
    · exact hbnd k hk'
  have ag2 : Agree h0.length h0 (h0 ++ [Cell.leaf l']) := Agree.append _ _ (Nat.le_refl _)
  have hlold := pfl.leaf_le hl
  have c2 : Ctx m h0 t2.root d leaf 0 lo hi path pre post := by rw [ht2r]; exact c
  have hwl := withLeaf_fresh (h := h0) (l := l) (f := fun l0 => l0.insert key val) hins
  have hup : ∃ res, t.Put h key val = res.map (fun r => (r.1, r.2, added)) ∧
      DRes t2 res (if added = true ∧ l.vals.length = m - 1 ∧ pathFull m h path = true
        then 1 else 0) := by
    by_cases hbig : l'.keys.length = m
    · obtain ⟨sk, L, R, hsplit, kL, kR, hents⟩ := leafNodeS.split_leaf_spec hm r2 hbig
      have ag3 : Agree h0.length h0 (h0 ++ [Cell.leaf L, Cell.leaf R]) :=
        Agree.append _ _ (Nat.le_refl _)
      have := insertUpLeaf_depth hm ht2o path c2 ag3 (Nat.le_refl _)
        (Nat.le_succ _) (by omega) kL kR
      have hadd : added = true := by
        cases added with
        | true => rfl
        | false => simp at hklen; omega
      have hsz : l.vals.length = m - 1 := by
        rw [hadd] at hklen
        simp at hklen
        omega
      refine ⟨_, ?_, this.congr_depth rfl ?_⟩
      · unfold tree.Put
        rw [tree.copy_tree_eq, hh0]
        simp only [hf, Option.bind_eq_bind, Option.some_bind, leafNodeS.copy_leaf_eq hl,
          hwl, hrl2]
        have : l'.isToBig = true := by simp [leafNodeS.isToBig, hbig, hcap', hcap]
        rw [if_pos this, hsplit]
        simp only [Option.some_bind]
        exact bind_some_eq_map _ _
      · rw [hpf]
        simp [hadd, hsz]
    · have hsmall : l'.vals.length ≤ m - 1 := by
        have : l'.keys.length ≤ l.keys.length + 1 := by rw [hklen]; split <;> omega
        omega
      have pf2 : PosFull m (h0 ++ [Cell.leaf l']) 0 h0.length path := by
        have hge : l.vals.length ≤ l'.vals.length := by
          rw [← hlen, ← hlen', hklen]; omega
        unfold PosFull RootFull Full at pfl ⊢
        rw [nodeSize_of_leaf hrl2, maxSize_zero]
        rw [nodeSize_of_leaf hl, maxSize_zero] at pfl
        split
        · exact ⟨by simp, hsmall⟩
        · rw [if_neg (by assumption)] at pfl
          exact ⟨by omega, hsmall⟩
      have := copyUpLeaf_depth path c2 ag2 (Nat.le_refl _) r2 pf2
      refine ⟨_, ?_, this.congr_depth rfl ?_⟩
      · unfold tree.Put
        rw [tree.copy_tree_eq, hh0]
        simp only [hf, Option.bind_eq_bind, Option.some_bind, leafNodeS.copy_leaf_eq hl,
          hwl, hrl2]
        have : ¬ l'.isToBig = true := by simp [leafNodeS.isToBig, hbig, hcap', hcap]
        rw [if_neg this]
        exact bind_some_eq_map _ _
      · rw [if_neg]
        rintro ⟨hadd, hsz, _⟩
        rw [hadd] at hklen
        simp at hklen
        omega
  obtain ⟨res, hput, hres⟩ := hup
  intro h' t' b hp
  rw [hput] at hp
  cases res with
  | none => cases hp
  | some x =>
    simp only [Option.map_some', Option.some.injEq, Prod.mk.injEq] at hp
    obtain ⟨h1, h2, h3⟩ := hp
    have := hres x.1 x.2 rfl
    rw [h2, ht2d, h3] at this
    exact this

theorem getElem?_append_add {α : Type} (l l' : List α) (i : Nat) :
    (l ++ l')[l.length + i]? = l'[i]? := by
  rw [List.getElem?_append_right (Nat.le_add_right _ _)]
  simp

/-- The method `Put` of a new key on a tree whose root is a leaf with `m - 1`
entries: the leaf is split and a new root is allocated over the two halves. -/
theorem Put_root_leaf {m : Nat} (hm : 3 ≤ m) {h : Heap K V} {t : tree}
    (hord : t.order = (m : Int)) {l : leafNodeS K V} (hl : readLeaf h t.root = some l)
    (hcap : l.cap = m) (hlen : l.keys.length = l.vals.length)
    (hs : l.keys.Pairwise (fun x y => x < y)) (hsz : l.keys.length = m - 1)
    (key : K) (val : V) (hnew : lookup key (l.keys.zip l.vals) = none) :
    ∃ (l' : leafNodeS K V) (sk : K) (h0 : Heap K V),
      l.insert key val = some (l', true) ∧ l'.keys.length = m ∧ l'.vals.length = m ∧
      l'.keys[m / 2]? = some sk ∧ h.length < h0.length ∧
      t.Put h key val = some (h0 ++ [Cell.leaf ⟨m, l'.keys.take (m / 2), l'.vals.take (m / 2)⟩,
          Cell.leaf ⟨m, l'.keys.drop (m / 2), l'.vals.drop (m / 2)⟩,
          Cell.node ⟨m, [sk], [h0.length, h0.length + 1]⟩],
        { t with numEnts := t.numEnts + 1, root := h0.length + 2, depth := t.depth + 1 },
        true) := by
  obtain ⟨l', added, hins, hcap', hlen', hs', hmem', hzip', hadded, hklen⟩ :=
    leafNodeS.insert_spec l key val hlen hs (by omega)
  rw [hnew] at hadded
  simp only [Option.isNone_none] at hadded
  subst hadded
  simp only [if_true] at hklen
  have hk' : l'.keys.length = m := by omega
  have hv' : l'.vals.length = m := by omega
  have hlt : m / 2 < l'.keys.length := by omega
  have hsk : l'.keys[l'.keys.length / 2]? = some (l'.keys[m / 2]) := by
    rw [hk']
    exact List.getElem?_eq_getElem hlt
  have ag0 : Agree h.length h (h ++ [Cell.leaf ⟨t.order.toNat, [], []⟩]) :=
    Agree.append _ _ (Nat.le_refl _)
  generalize hh0 : h ++ [Cell.leaf (⟨t.order.toNat, [], []⟩ : leafNodeS K V)] = h0 at ag0
  have hl0len : h0.length = h.length + 1 := by rw [← hh0]; simp
  have hrt : t.root < h.length := readLeaf_lt hl
  have hl0 : readLeaf h0 t.root = some l := by rw [ag0.readLeaf hrt]; exact hl
  have hc0 : h0[t.root]? = some (Cell.leaf l) := readLeaf_eq_some.1 hl0
  have hf : t.findLeaf h0 key = some (t.root, []) := by
    unfold tree.findLeaf
    rw [hl0len, findLeafLoop, hc0]
    rfl
  have hwl := withLeaf_fresh (h := h0) (l := l) (f := fun l0 => l0.insert key val) hins
  have hsplit := leaf_split_eq (readLeaf_append_self h0 l') hsk
  have hset : ((h0 ++ [Cell.leaf l']) ++
        [Cell.leaf ⟨l'.cap, l'.keys.drop (l'.keys.length / 2),
          l'.vals.drop (l'.vals.length / 2)⟩]).set h0.length
        (Cell.leaf ⟨l'.cap, l'.keys.take (l'.keys.length / 2),
          l'.vals.take (l'.vals.length / 2)⟩) =
      h0 ++ [Cell.leaf ⟨m, l'.keys.take (m / 2), l'.vals.take (m / 2)⟩,
          Cell.leaf ⟨m, l'.keys.drop (m / 2), l'.vals.drop (m / 2)⟩] := by
    rw [List.set_append_left _ _ (by simp), set_append_self, hk', hv', hcap', hcap]
    simp
  rw [hset] at hsplit
  refine ⟨l', l'.keys[m / 2], h0, hins, hk', hv', List.getElem?_eq_getElem hlt, by omega, ?_⟩
  unfold tree.Put
  rw [tree.copy_tree_eq, hh0]
  simp only [hf, Option.bind_eq_bind, Option.some_bind, leafNodeS.copy_leaf_eq hl0,
    hwl, readLeaf_append_self]
  have : l'.isToBig = true := by simp [leafNodeS.isToBig, hk', hcap', hcap]
  rw [if_pos this]
  simp only [List.length_append, List.length_singleton] at hsplit
  rw [hsplit]
  simp only [Option.some_bind, tree.insertUpLeaf, if_true]
  rw [newRootNode_eq hm (by exact hord)]
  simp

/-- C21: root split.  On every tree of order `m` reachable from `NewBpTree(m)` by
`Put` and `Del`, `Put(k, v)` returns, and `Depth()` of the tree it returns is one
more than before when a split propagates past the root, which is when the key
is new (the flag of `Put`), the leaf that `findLeaf` reaches for the key holds
`m - 1` entries and every interior node of the path to it has `m` children
(each of them is split in turn); otherwise `Depth()` is unchanged.  In
particular, when `Depth()` is 0, the root leaf holds `m - 1` entries and the key
is new, the tree returned has `Depth()` 1, its root is an interior node with one
separator and two children, the children are leaves with `m / 2` (rounded down)
and `m / 2` (rounded up) entries, and the separator is the first key of the
right leaf. -/
theorem root_split [Inhabited V] {m : Nat} {h : Heap K V} {t : tree} (r : Reachable m h t) (k : K) (v : V) :
    ∃ h' t' b leaf path, t.findLeaf h k = some (leaf, path) ∧
      t.Put h k v = some (h', t', b) ∧
      t'.Depth = t.Depth +
        (if b = true ∧ nodeSize h leaf = m - 1 ∧ pathFull m h path = true then 1 else 0) ∧
      (t.Depth = 0 → b = true → nodeSize h t.root = m - 1 →
        t'.Depth = 1 ∧
        ∃ n L R a c sep, readNode h' t'.root = some n ∧ n.keys = [sep] ∧ n.vals = [a, c] ∧
          readLeaf h' a = some L ∧ readLeaf h' c = some R ∧ R.keys[0]? = some sep ∧
          L.keys.length = m / 2 ∧ L.vals.length = m / 2 ∧
          R.keys.length = (m + 1) / 2 ∧ R.vals.length = (m + 1) / 2) := by
  obtain ⟨es, inv⟩ := r.to_einv
  obtain ⟨h', t', hput, _⟩ := Put_spec inv k v
  obtain ⟨leaf, path, l, hf, hl, hd⟩ := Put_depth inv k v
  refine ⟨h', t', _, leaf, path, hf, hput, ?_, ?_⟩
  · rw [nodeSize_of_leaf hl]
    exact hd h' t' _ hput
  · intro hd0 hb hsz
    obtain ⟨hm, hord, d, hD, rr, _, he, _⟩ := inv
    have hd' : d = 0 := by
      have : t.depth = 0 := hd0
      rw [this] at hD
      exact_mod_cast hD.symm
    subst hd'
    obtain ⟨lr, hlr, hcap, hlen, hs, _⟩ := Rep_zero.1 rr
    have hes : es = lr.keys.zip lr.vals := by rw [← he, ents_leaf hlr]
    rw [nodeSize_of_leaf hlr] at hsz
    have hnew : lookup k (lr.keys.zip lr.vals) = none := by
      rw [← hes]
      exact Option.isNone_iff_eq_none.1 hb
    obtain ⟨l', sk, h0, _, hk', hv', hsk, _, hp⟩ :=
      Put_root_leaf hm hord hlr hcap hlen hs (by omega) k v hnew
    rw [hput] at hp
    simp only [Option.some.injEq, Prod.mk.injEq] at hp
    obtain ⟨rfl, rfl, _⟩ := hp
    refine ⟨?_, ⟨m, [sk], [h0.length, h0.length + 1]⟩,
      ⟨m, l'.keys.take (m / 2), l'.vals.take (m / 2)⟩,
      ⟨m, l'.keys.drop (m / 2), l'.vals.drop (m / 2)⟩, h0.length, h0.length + 1, sk,
      ?_, rfl, rfl, ?_, ?_, ?_, ?_, ?_, ?_, ?_⟩
    · show t.depth + 1 = 1
      have : t.depth = 0 := hd0
      omega
    · rw [readNode_eq_some]
      exact getElem?_append_add h0 _ 2
    · rw [readLeaf_eq_some]
      exact getElem?_append_add h0 _ 0
    · rw [readLeaf_eq_some]
      exact getElem?_append_add h0 _ 1
    · simp only [List.getElem?_drop, Nat.add_zero]
      exact hsk
    · simp only [List.length_take]
      omega
    · simp only [List.length_take]
      omega
    · simp only [List.length_drop]
      omega
    · simp only [List.length_drop]
      omega

end

section
variable {K V : Type} [LinearOrder K]

/-! ## The root after a deletion -/

theorem Ext.set_ext {h0 h : Heap K V} (e : Ext h0 h) {p : Nat} (hp : h0.length ≤ p)
    (c : Cell K V) : Ext h0 (h.set p c) :=
  ⟨by rw [List.length_set]; exact e.1, e.2.trans (Agree.set h c hp)⟩

theorem Ext.append_right {h0 h : Heap K V} (e : Ext h0 h) (l : Heap K V) : Ext h0 (h ++ l) :=
  e.trans_ext (Ext.append_ext h l)

theorem interiorNodeS.copy_inv {h h1 : Heap K V} {p q : Nat}
    (hc : interiorNodeS.copy h p = some (h1, q)) :
    ∃ nd, readNode h p = some nd ∧ q = h.length ∧ h1 = h ++ [Cell.node nd] := by
  unfold interiorNodeS.copy at hc
  cases hn : readNode h p with
  | none => rw [hn] at hc; cases hc
  | some nd =>
    rw [hn] at hc
    simp only [alloc, Option.some.injEq, Prod.mk.injEq] at hc
    exact ⟨nd, rfl, hc.2.symm, hc.1.symm⟩

theorem leafNodeS.copy_leaf_inv {h h1 : Heap K V} {p q : Nat}
    (hc : leafNodeS.copy h p = some (h1, q)) :
    ∃ l, readLeaf h p = some l ∧ q = h.length ∧ h1 = h ++ [Cell.leaf l] := by
  unfold leafNodeS.copy at hc
  cases hn : readLeaf h p with
  | none => rw [hn] at hc; cases hc
  | some l =>
    rw [hn] at hc
    simp only [alloc, Option.some.injEq, Prod.mk.injEq] at hc
    exact ⟨l, rfl, hc.2.symm, hc.1.symm⟩

theorem updNode_inv {h h' : Heap K V} {p : Nat} {f : interiorNodeS K → Option (interiorNodeS K)}
    (hu : updNode h p f = some h') :
    ∃ nd nd', readNode h p = some nd ∧ f nd = some nd' ∧ h' = h.set p (Cell.node nd') := by
  unfold updNode at hu
  cases hn : readNode h p with
  | none => rw [hn] at hu; cases hu
  | some nd =>
    rw [hn] at hu
    simp only at hu
    cases hf : f nd with
    | none => rw [hf] at hu; cases hu
    | some nd' =>
      rw [hf] at hu
      exact ⟨nd, nd', rfl, hf, (Option.some.inj hu).symm⟩

theorem withLeaf_inv {R : Type} {h h' : Heap K V} {p : Nat} {x : R}
    {f : leafNodeS K V → Option (leafNodeS K V × R)} (hu : withLeaf h p f = some (h', x)) :
    ∃ l l', readLeaf h p = some l ∧ f l = some (l', x) ∧ h' = h.set p (Cell.leaf l') := by
  unfold withLeaf at hu
  cases hn : readLeaf h p with
  | none => rw [hn] at hu; cases hu
  | some l =>
    rw [hn] at hu
    simp only at hu
    cases hf : f l with
    | none => rw [hf] at hu; cases hu
    | some y =>
      rw [hf] at hu
      obtain ⟨l', y⟩ := y
      simp only [Option.some.injEq, Prod.mk.injEq] at hu
      obtain ⟨h1, h2⟩ := hu
      subst h2
      exact ⟨l, l', rfl, hf, h1.symm⟩

theorem swapInteriorVals_length (h : Heap K V) (a b : Nat) :
    ∀ (vs vs' : List Nat), interiorNodeS.swapInteriorVals h a b vs = some vs' →
      vs'.length = vs.length := by
  intro vs
  induction vs with
  | nil => intro vs' H; cases H
  | cons c rest ih =>
    intro vs' H
    rw [interiorNodeS.swapInteriorVals] at H
    split at H
    · cases H
    · split at H
      · cases H; rfl
      · split at H
        · cases H
        · next rest' hrest =>
          cases H
          simp [ih rest' hrest]

theorem swapLeafVals_length (h : Heap K V) (a b : Nat) :
    ∀ (vs vs' : List Nat), interiorNodeS.swapLeafVals h a b vs = some vs' →
      vs'.length = vs.length := by
  intro vs
  induction vs with
  | nil => intro vs' H; cases H
  | cons c rest ih =>
    intro vs' H
    rw [interiorNodeS.swapLeafVals] at H
    split at H
    · cases H
    · split at H
      · cases H; rfl
      · split at H
        · cases H
        · next rest' hrest =>
          cases H
          simp [ih rest' hrest]

theorem swapInteriorNode_len {h : Heap K V} {a b : Nat} {nd nd' : interiorNodeS K}
    (H : nd.swapInteriorNode h a b = some nd') :
    nd'.keys.length = nd.keys.length ∧ nd'.vals.length = nd.vals.length := by
  unfold interiorNodeS.swapInteriorNode at H
  split at H
  · cases H
  · next vs hvs =>
    cases H
    exact ⟨rfl, swapInteriorVals_length h a b _ _ hvs⟩

theorem swapLeafNode_len {h : Heap K V} {a b : Nat} {nd nd' : interiorNodeS K}
    (H : nd.swapLeafNode h a b = some nd') :
    nd'.keys.length = nd.keys.length ∧ nd'.vals.length = nd.vals.length := by
  unfold interiorNodeS.swapLeafNode at H
  split at H
  · cases H
  · next vs hvs =>
    cases H
    exact ⟨rfl, swapLeafVals_length h a b _ _ hvs⟩

theorem swapKey_len {k k' : K} {nd nd' : interiorNodeS K}
    (H : nd.swapKey k k' = some nd') :
    nd'.keys.length = nd.keys.length ∧ nd'.vals.length = nd.vals.length := by
  unfold interiorNodeS.swapKey at H
  split at H
  · cases H
  · cases H
    exact ⟨by simp, rfl⟩

theorem removeDeadAt_len {i : Nat} {nd nd' : interiorNodeS K}
    (H : removeDeadAt nd i = some nd') :
    nd'.keys.length = nd.keys.length - 1 ∧ nd'.vals.length = nd.vals.length - 1 ∧
      1 ≤ nd.keys.length ∧ 1 ≤ nd.vals.length := by
  unfold removeDeadAt at H
  split at H
  · cases H
  · split at H
    · next hi0 hi =>
      cases H
      simp only [List.length_append, List.length_take, List.length_drop]
      omega
    · cases H

end

section
variable {K V : Type} [LinearOrder K]

theorem copy_keep {h0 h h1 : Heap K V} {p q : Nat} (e : Ext h0 h)
    (hc : interiorNodeS.copy h p = some (h1, q)) :
    Ext h0 h1 ∧ h0.length ≤ q ∧
      ∀ r, readNode h0 p = some r → Len h1 q r.keys.length r.vals.length := by
  obtain ⟨nd, hn, rfl, rfl⟩ := interiorNodeS.copy_inv hc
  refine ⟨e.append_right _, e.1, ?_⟩
  intro r hr
  have : readNode h p = some r := by rw [e.2.readNode (readNode_lt hr)]; exact hr
  rw [hn] at this
  cases this
  exact ⟨nd, readNode_append_self h nd, rfl, rfl⟩

theorem leaf_copy_keep {h0 h h1 : Heap K V} {p q : Nat} (e : Ext h0 h)
    (hc : leafNodeS.copy h p = some (h1, q)) : Ext h0 h1 ∧ h0.length ≤ q := by
  obtain ⟨l, hn, rfl, rfl⟩ := leafNodeS.copy_leaf_inv hc
  exact ⟨e.append_right _, e.1⟩

theorem updNode_keep {h0 h h' : Heap K V} {q : Nat}
    {f : interiorNodeS K → Option (interiorNodeS K)} (e : Ext h0 h) (hq : h0.length ≤ q)
    (hu : updNode h q f = some h')
    (hf : ∀ nd nd', f nd = some nd' →
      nd'.keys.length = nd.keys.length ∧ nd'.vals.length = nd.vals.length) :
    Ext h0 h' ∧ ∀ a b, Len h q a b → Len h' q a b := by
  obtain ⟨nd, nd', hn, hfn, rfl⟩ := updNode_inv hu
  refine ⟨e.set_ext hq _, ?_⟩
  rintro a b ⟨x, hx, ha, hb⟩
  rw [hn] at hx
  cases hx
  have := hf _ _ hfn
  exact ⟨nd', readNode_set_self (readNode_lt hn) nd', by omega, by omega⟩

theorem updNode_drop {h0 h h' : Heap K V} {q : Nat}
    {f : interiorNodeS K → Option (interiorNodeS K)} (e : Ext h0 h) (hq : h0.length ≤ q)
    (hu : updNode h q f = some h')
    (hf : ∀ nd nd', f nd = some nd' →
      nd'.keys.length = nd.keys.length - 1 ∧ nd'.vals.length = nd.vals.length - 1 ∧
        1 ≤ nd.keys.length ∧ 1 ≤ nd.vals.length) :
    Ext h0 h' ∧ ∀ a b, Len h q a b → Len h' q (a - 1) (b - 1) ∧ 1 ≤ a ∧ 1 ≤ b := by
  obtain ⟨nd, nd', hn, hfn, rfl⟩ := updNode_inv hu
  refine ⟨e.set_ext hq _, ?_⟩
  rintro a b ⟨x, hx, ha, hb⟩
  rw [hn] at hx
  cases hx
  have := hf _ _ hfn
  exact ⟨⟨nd', readNode_set_self (readNode_lt hn) nd', by omega, by omega⟩, by omega, by omega⟩

theorem removeDeadNode_drop {h0 h h' : Heap K V} {q dead : Nat} (e : Ext h0 h)
    (hq : h0.length ≤ q) (hu : removeDeadNode h q dead = some h') :
    Ext h0 h' ∧ ∀ a b, Len h q a b → Len h' q (a - 1) (b - 1) ∧ 1 ≤ a ∧ 1 ≤ b := by
  unfold removeDeadNode at hu
  refine updNode_drop e hq hu ?_
  intro nd nd' H
  split at H
  · cases H
  · exact removeDeadAt_len H

theorem removeDeadLeaf_drop {h0 h h' : Heap K V} {q dead : Nat} (e : Ext h0 h)
    (hq : h0.length ≤ q) (hu : removeDeadLeaf h q dead = some h') :
    Ext h0 h' ∧ ∀ a b, Len h q a b → Len h' q (a - 1) (b - 1) ∧ 1 ≤ a ∧ 1 ≤ b := by
  unfold removeDeadLeaf at hu
  refine updNode_drop e hq hu ?_
  intro nd nd' H
  split at H
  · cases H
  · exact removeDeadAt_len H

theorem isRoot_eq {h : Heap K V} {t : tree} {node : Nat} (H : t.isRoot h node = some true) :
    t.root = node := by
  unfold tree.isRoot at H
  split at H
  · cases H
  · split at H
    · cases H
    · simpa using H
  · split at H
    · cases H
    · cases H
    · simpa using H

/-- The method `copyUp`: the new root is the copy of the old one. -/
theorem copyUp_root {h0 : Heap K V} {t : tree} {r : interiorNodeS K}
    (hr : readNode h0 t.root = some r) (path : pathT) :
    ∀ {h : Heap K V} {old new : Nat}, Ext h0 h → h0.length ≤ new →
      (old = t.root → LenRel h new r) → RootRes t h0 r (t.copyUp h old new path) := by
  induction path with
  | nil =>
    intro h old new e hnew hrel h' t' H
    rw [tree.copyUp] at H
    simp only [Option.bind_eq_bind, Option.bind_eq_some] at H
    obtain ⟨b, hb, H⟩ := H
    cases b with
    | false => simp at H
    | true =>
      simp only [if_true, Option.bind_eq_some, Option.some.injEq, Prod.mk.injEq] at H
      obtain ⟨t1, hs, rfl, rfl⟩ := H
      exact ⟨new, hnew, hrel (isRoot_eq hb).symm, hs⟩
  | cons p path ih =>
    intro h old new e hnew hrel h' t' H
    rw [tree.copyUp] at H
    simp only [Option.bind_eq_bind, Option.bind_eq_some] at H
    obtain ⟨⟨h1, q⟩, hc, h2, hu, H⟩ := H
    dsimp only at hu H
    obtain ⟨e1, hq, hlen⟩ := copy_keep e hc
    obtain ⟨e2, hk⟩ := updNode_keep e1 hq hu (fun _ _ => swapInteriorNode_len)
    refine ih e2 hq ?_ h' t' H
    intro hp
    rw [hp] at hlen
    exact Or.inl (hk _ _ (hlen r hr))

/-- The method `copyUpLeaf` below an interior root. -/
theorem copyUpLeaf_root {h0 : Heap K V} {t : tree} {r : interiorNodeS K}
    (hr : readNode h0 t.root = some r) (path : pathT)
    {h : Heap K V} {old new : Nat} (e : Ext h0 h) {l : leafNodeS K V}
    (hl : readLeaf h old = some l) :
    RootRes t h0 r (t.copyUpLeaf h old new path) := by
  cases path with
  | nil =>
    intro h' t' H
    rw [tree.copyUpLeaf] at H
    simp only [Option.bind_eq_bind, Option.bind_eq_some] at H
    obtain ⟨b, hb, H⟩ := H
    cases b with
    | false => simp at H
    | true =>
      have := isRoot_eq hb
      rw [← this, readLeaf_of_node (by rw [e.2.readNode (readNode_lt hr)]; exact hr)] at hl
      cases hl
  | cons p path =>
    intro h' t' H
    rw [tree.copyUpLeaf] at H
    simp only [Option.bind_eq_bind, Option.bind_eq_some] at H
    obtain ⟨⟨h1, q⟩, hc, h2, hu, H⟩ := H
    dsimp only at hu H
    obtain ⟨e1, hq, hlen⟩ := copy_keep e hc
    obtain ⟨e2, hk⟩ := updNode_keep e1 hq hu (fun _ _ => swapLeafNode_len)
    refine copyUp_root hr path e2 hq ?_ h' t' H
    intro hp
    rw [hp] at hlen
    exact Or.inl (hk _ _ (hlen r hr))

end

section
variable {K V : Type} [LinearOrder K]

theorem interiorNodeS.stealLeft_ext {h0 h h' : Heap K V} {a b : Nat} (e : Ext h0 h)
    (ha : h0.length ≤ a) (hb : h0.length ≤ b)
    (H : interiorNodeS.stealLeft h a b = some h') : Ext h0 h' := by
  unfold interiorNodeS.stealLeft at H
  split at H
  · cases H
  · split at H
    · cases H
    · split at H
      · simp only at H
        split at H
        · cases H
        · split at H
          · cases H
          · split at H
            · cases H
              exact (e.set_ext hb _).set_ext ha _
            · cases H
      · cases H

theorem interiorNodeS.stealRight_ext {h0 h h' : Heap K V} {a b : Nat} (e : Ext h0 h)
    (ha : h0.length ≤ a) (hb : h0.length ≤ b)
    (H : interiorNodeS.stealRight h a b = some h') : Ext h0 h' := by
  unfold interiorNodeS.stealRight at H
  split at H
  · cases H
  · split at H
    · cases H
    · split at H
      · simp only at H
        split at H
        · cases H
        · split at H
          · cases H
          · split at H
            · cases H
              exact (e.set_ext hb _).set_ext ha _
            · cases H
      · cases H

theorem interiorNodeS.mergeRight_ext {h0 h h' : Heap K V} {a b : Nat} (e : Ext h0 h)
    (ha : h0.length ≤ a) (H : interiorNodeS.mergeRight h a b = some h') : Ext h0 h' := by
  unfold interiorNodeS.mergeRight at H
  split at H
  · cases H
  · split at H
    · split at H
      · cases H
        exact e.set_ext ha _
      · cases H
    · cases H

theorem leafNodeS.stealLeft_leaf_ext {h0 h h' : Heap K V} {a b : Nat} (e : Ext h0 h)
    (ha : h0.length ≤ a) (hb : h0.length ≤ b)
    (H : leafNodeS.stealLeft h a b = some h') : Ext h0 h' := by
  unfold leafNodeS.stealLeft at H
  split at H
  · cases H
  · split at H
    · simp only at H
      split at H
      · cases H
      · split at H
        · cases H
          exact (e.set_ext hb _).set_ext ha _
        · cases H
    · cases H

theorem leafNodeS.stealRight_leaf_ext {h0 h h' : Heap K V} {a b : Nat} (e : Ext h0 h)
    (ha : h0.length ≤ a) (hb : h0.length ≤ b)
    (H : leafNodeS.stealRight h a b = some h') : Ext h0 h' := by
  unfold leafNodeS.stealRight at H
  split at H
  · cases H
  · split at H
    · simp only at H
      split at H
      · cases H
      · split at H
        · cases H
          exact (e.set_ext hb _).set_ext ha _
        · cases H
    · cases H

theorem leafNodeS.mergeRight_leaf_ext {h0 h h' : Heap K V} {a b : Nat} (e : Ext h0 h)
    (ha : h0.length ≤ a) (H : leafNodeS.mergeRight h a b = some h') : Ext h0 h' := by
  unfold leafNodeS.mergeRight at H
  split at H
  · split at H
    · cases H
      exact e.set_ext ha _
    · cases H
  · cases H

theorem fillMerge_ext {h0 h h2 : Heap K V} {oldParent newParent a b c : Nat}
    {left right : Option (Nat × K)} (e : Ext h0 h) (hnew : h0.length ≤ newParent)
    (H : fillMerge h oldParent newParent left right = some (h2, a, b, c)) : Ext h0 h2 := by
  unfold fillMerge at H
  split at H
  · simp only [Option.bind_eq_bind, Option.bind_eq_some] at H
    obtain ⟨⟨h1, q⟩, hc, h3, hm, H⟩ := H
    dsimp only at hm H
    simp only [Option.some.injEq, Prod.mk.injEq] at H
    obtain ⟨rfl, _⟩ := H
    obtain ⟨l, _, rfl, rfl⟩ := interiorNodeS.copy_inv hc
    exact interiorNodeS.mergeRight_ext (e.append_right _) e.1 hm
  · simp only [Option.bind_eq_bind, Option.bind_eq_some] at H
    obtain ⟨h3, hm, H⟩ := H
    simp only [Option.some.injEq, Prod.mk.injEq] at H
    obtain ⟨rfl, _⟩ := H
    exact interiorNodeS.mergeRight_ext e hnew hm
  · cases H

theorem delMerge_ext {h0 h h2 : Heap K V} {oldLeaf newLeaf a b c : Nat}
    {left right : Option (Nat × K)} (e : Ext h0 h) (hnew : h0.length ≤ newLeaf)
    (H : delMerge h oldLeaf newLeaf left right = some (h2, a, b, c)) : Ext h0 h2 := by
  unfold delMerge at H
  split at H
  · simp only [Option.bind_eq_bind, Option.bind_eq_some] at H
    obtain ⟨⟨h1, q⟩, hc, h3, hm, H⟩ := H
    dsimp only at hm H
    simp only [Option.some.injEq, Prod.mk.injEq] at H
    obtain ⟨rfl, _⟩ := H
    obtain ⟨l, _, rfl, rfl⟩ := leafNodeS.copy_leaf_inv hc
    exact leafNodeS.mergeRight_leaf_ext (e.append_right _) e.1 hm
  · simp only [Option.bind_eq_bind, Option.bind_eq_some] at H
    obtain ⟨h3, hm, H⟩ := H
    simp only [Option.some.injEq, Prod.mk.injEq] at H
    obtain ⟨rfl, _⟩ := H
    exact leafNodeS.mergeRight_leaf_ext e hnew hm
  · cases H

/-- The steal-left block of `delUpFill`. -/
theorem fillStealLeft_root {h0 : Heap K V} {t : tree} {r : interiorNodeS K}
    (hr : readNode h0 t.root = some r) (path : pathT)
    {h : Heap K V} {oldParent newParent gp peer : Nat} {key : K} (e : Ext h0 h)
    (hnew : h0.length ≤ newParent) :
    RootRes t h0 r (t.fillStealLeft h oldParent newParent gp peer key path) := by
  intro h' t' H
  unfold tree.fillStealLeft at H
  simp only [Option.bind_eq_bind, Option.bind_eq_some] at H
  obtain ⟨⟨h1, np⟩, hc1, h2, hs, ⟨h3, ngp⟩, hc3, nk, _, h4, hu4, h5, hu5, h6, hu6, H⟩ := H
  dsimp only at hs hc3 hu4 hu5 hu6 H
  obtain ⟨e1, hnp, _⟩ := copy_keep e hc1
  have e2 := interiorNodeS.stealLeft_ext e1 hnew hnp hs
  obtain ⟨e3, hngp, hlen⟩ := copy_keep e2 hc3
  obtain ⟨e4, hk4⟩ := updNode_keep e3 hngp hu4 (fun _ _ => swapKey_len)
  obtain ⟨e5, hk5⟩ := updNode_keep e4 hngp hu5 (fun _ _ => swapInteriorNode_len)
  obtain ⟨e6, hk6⟩ := updNode_keep e5 hngp hu6 (fun _ _ => swapInteriorNode_len)
  refine copyUp_root hr path e6 hngp ?_ h' t' H
  intro hp
  rw [hp] at hlen
  exact Or.inl (hk6 _ _ (hk5 _ _ (hk4 _ _ (hlen r hr))))

/-- The steal-right block of `delUpFill`. -/
theorem fillStealRight_root {h0 : Heap K V} {t : tree} {r : interiorNodeS K}
    (hr : readNode h0 t.root = some r) (path : pathT)
    {h : Heap K V} {oldParent newParent gp peer : Nat} {key : K} (e : Ext h0 h)
    (hnew : h0.length ≤ newParent) :
    RootRes t h0 r (t.fillStealRight h oldParent newParent gp peer key path) := by
  intro h' t' H
  unfold tree.fillStealRight at H
  simp only [Option.bind_eq_bind, Option.bind_eq_some] at H
  obtain ⟨⟨h1, np⟩, hc1, h2, hs, ⟨h3, ngp⟩, hc3, nk, _, h4, hu4, h5, hu5, h6, hu6, H⟩ := H
  dsimp only at hs hc3 hu4 hu5 hu6 H
  obtain ⟨e1, hnp, _⟩ := copy_keep e hc1
  have e2 := interiorNodeS.stealRight_ext e1 hnew hnp hs
  obtain ⟨e3, hngp, hlen⟩ := copy_keep e2 hc3
  obtain ⟨e4, hk4⟩ := updNode_keep e3 hngp hu4 (fun _ _ => swapKey_len)
  obtain ⟨e5, hk5⟩ := updNode_keep e4 hngp hu5 (fun _ _ => swapInteriorNode_len)
  obtain ⟨e6, hk6⟩ := updNode_keep e5 hngp hu6 (fun _ _ => swapInteriorNode_len)
  refine copyUp_root hr path e6 hngp ?_ h' t' H
  intro hp
  rw [hp] at hlen
  exact Or.inl (hk6 _ _ (hk5 _ _ (hk4 _ _ (hlen r hr))))

/-- The steal-left block of `Del`. -/
theorem delStealLeft_root {h0 : Heap K V} {t : tree} {r : interiorNodeS K}
    (hr : readNode h0 t.root = some r) (path : pathT)
    {h : Heap K V} {oldLeaf newLeaf oldParent peer : Nat} {key : K} (e : Ext h0 h)
    (hnew : h0.length ≤ newLeaf) :
    RootRes t h0 r (t.delStealLeft h oldLeaf newLeaf oldParent peer key path) := by
  intro h' t' H
  unfold tree.delStealLeft at H
  simp only [Option.bind_eq_bind, Option.bind_eq_some] at H
  obtain ⟨⟨h1, np⟩, hc1, h2, hs, ⟨h3, ngp⟩, hc3, nl, _, nk, _, h4, hu4, h5, hu5, h6, hu6, H⟩ := H
  dsimp only at hs hc3 hu4 hu5 hu6 H
  obtain ⟨e1, hnp⟩ := leaf_copy_keep e hc1
  have e2 := leafNodeS.stealLeft_leaf_ext e1 hnew hnp hs
  obtain ⟨e3, hngp, hlen⟩ := copy_keep e2 hc3
  obtain ⟨e4, hk4⟩ := updNode_keep e3 hngp hu4 (fun _ _ => swapKey_len)
  obtain ⟨e5, hk5⟩ := updNode_keep e4 hngp hu5 (fun _ _ => swapLeafNode_len)
  obtain ⟨e6, hk6⟩ := updNode_keep e5 hngp hu6 (fun _ _ => swapLeafNode_len)
  refine copyUp_root hr path e6 hngp ?_ h' t' H
  intro hp
  rw [hp] at hlen
  exact Or.inl (hk6 _ _ (hk5 _ _ (hk4 _ _ (hlen r hr))))

/-- The steal-right block of `Del`. -/
theorem delStealRight_root {h0 : Heap K V} {t : tree} {r : interiorNodeS K}
    (hr : readNode h0 t.root = some r) (path : pathT)
    {h : Heap K V} {oldLeaf newLeaf oldParent peer : Nat} {key : K} (e : Ext h0 h)
    (hnew : h0.length ≤ newLeaf) :
    RootRes t h0 r (t.delStealRight h oldLeaf newLeaf oldParent peer key path) := by
  intro h' t' H
  unfold tree.delStealRight at H
  simp only [Option.bind_eq_bind, Option.bind_eq_some] at H
  obtain ⟨⟨h1, np⟩, hc1, h2, hs, ⟨h3, ngp⟩, hc3, nl, _, nk, _, h4, hu4, h5, hu5, h6, hu6, H⟩ := H
  dsimp only at hs hc3 hu4 hu5 hu6 H
  obtain ⟨e1, hnp⟩ := leaf_copy_keep e hc1
  have e2 := leafNodeS.stealRight_leaf_ext e1 hnew hnp hs
  obtain ⟨e3, hngp, hlen⟩ := copy_keep e2 hc3
  obtain ⟨e4, hk4⟩ := updNode_keep e3 hngp hu4 (fun _ _ => swapKey_len)
  obtain ⟨e5, hk5⟩ := updNode_keep e4 hngp hu5 (fun _ _ => swapLeafNode_len)
  obtain ⟨e6, hk6⟩ := updNode_keep e5 hngp hu6 (fun _ _ => swapLeafNode_len)
  refine copyUp_root hr path e6 hngp ?_ h' t' H
  intro hp
  rw [hp] at hlen
  exact Or.inl (hk6 _ _ (hk5 _ _ (hk4 _ _ (hlen r hr))))

end

section
variable {K V : Type} [LinearOrder K]

/-- The part of `delUpLeaf` and `delUp` after the removal of the dead child. -/
theorem delUpFill_root {h0 : Heap K V} {t : tree} {r : interiorNodeS K}
    (hr : readNode h0 t.root = some r) (path : pathT) :
    ∀ {h : Heap K V} {oldParent newParent : Nat}, Ext h0 h → h0.length ≤ newParent →
      (oldParent = t.root → LenRel h newParent r) →
      RootRes t h0 r (t.delUpFill h oldParent newParent path) := by
  induction path with
  | nil =>
    intro h op np e hnew hrel h' t' H
    rw [tree.delUpFill] at H
    split at H
    · next hb =>
      split at H
      · next t1 hs =>
        cases H
        exact ⟨np, hnew, hrel (isRoot_eq hb).symm, hs⟩
      · cases H
    · split at H
      · cases H
      · split at H
        · cases H
        · exact copyUp_root hr [] e hnew hrel h' t' H
    · cases H
  | cons gp path ih =>
    intro h op np e hnew hrel h' t' H
    rw [tree.delUpFill] at H
    split at H
    · cases H
    · split at H
      · cases H
      · split at H
        · split at H
          · cases H
          · split at H
            · cases H
            · split at H
              · cases H
              · exact fillStealLeft_root hr path e hnew h' t' H
              · cases H
              · split at H
                · cases H
                · split at H
                  · cases H
                  · exact fillStealRight_root hr path e hnew h' t' H
                  · cases H
                  · split at H
                    · cases H
                    · next h2 om nm dn hfm =>
                      split at H
                      · cases H
                      · next h3 ngp hc =>
                        split at H
                        · cases H
                        · next h4 hu4 =>
                          split at H
                          · cases H
                          · next h5 hu5 =>
                            have e2 := fillMerge_ext e hnew hfm
                            obtain ⟨e3, hngp, hlen⟩ := copy_keep e2 hc
                            obtain ⟨e4, hk4⟩ :=
                              updNode_keep e3 hngp hu4 (fun _ _ => swapInteriorNode_len)
                            obtain ⟨e5, hk5⟩ := removeDeadNode_drop e4 hngp hu5
                            refine ih e5 hngp ?_ h' t' H
                            intro hp
                            rw [hp] at hlen
                            exact Or.inr (hk5 _ _ (hk4 _ _ (hlen r hr)))
        · exact copyUp_root hr (gp :: path) e hnew hrel h' t' H
    · cases H

/-- The method `delUpLeaf`. -/
theorem delUpLeaf_root {h0 : Heap K V} {t : tree} {r : interiorNodeS K}
    (hr : readNode h0 t.root = some r) (path : pathT)
    {h : Heap K V} {oldParent om nm dead : Nat} (e : Ext h0 h) :
    RootRes t h0 r (t.delUpLeaf h oldParent om nm dead path) := by
  intro h' t' H
  unfold tree.delUpLeaf at H
  simp only [Option.bind_eq_bind, Option.bind_eq_some] at H
  obtain ⟨⟨h1, np⟩, hc, h2, hu2, h3, hu3, H⟩ := H
  dsimp only at hu2 hu3 H
  obtain ⟨e1, hnp, hlen⟩ := copy_keep e hc
  obtain ⟨e2, hk2⟩ := updNode_keep e1 hnp hu2 (fun _ _ => swapLeafNode_len)
  obtain ⟨e3, hk3⟩ := removeDeadLeaf_drop e2 hnp hu3
  refine delUpFill_root hr path e3 hnp ?_ h' t' H
  intro hp
  rw [hp] at hlen
  exact Or.inr (hk3 _ _ (hk2 _ _ (hlen r hr)))

/-- The part of `Del` that handles a too small leaf. -/
theorem delFill_root {h0 : Heap K V} {t : tree} {r : interiorNodeS K}
    (hr : readNode h0 t.root = some r) (path : pathT)
    {h : Heap K V} {oldLeaf newLeaf oldParent : Nat} (e : Ext h0 h)
    (hnew : h0.length ≤ newLeaf) :
    RootRes t h0 r (t.delFill h oldLeaf newLeaf oldParent path) := by
  intro h' t' H
  unfold tree.delFill at H
  split at H
  · cases H
  · split at H
    · cases H
    · split at H
      · cases H
      · exact delStealLeft_root hr path e hnew h' t' H
      · cases H
      · split at H
        · cases H
        · split at H
          · cases H
          · exact delStealRight_root hr path e hnew h' t' H
          · cases H
          · split at H
            · cases H
            · next h2 om nm dn hfm =>
              exact delUpLeaf_root hr path (delMerge_ext e hnew hfm) h' t' H

/-- The method `Del` that removes an entry from a tree whose root is an interior
node: the new handle is what `setRootNode` makes of a copy of the root that has
as many separators and children as the root, or one of each less. -/
theorem Del_root [Inhabited V] {h : Heap K V} {t : tree} {r : interiorNodeS K}
    (hr : readNode h t.root = some r) {k : K} {h' : Heap K V} {t' : tree} {w : V}
    (H : t.Del h k = some (h', t', w, true)) :
    ∃ rc, h.length ≤ rc ∧ LenRel h' rc r ∧
      tree.setRootNode h' { t with numEnts := t.numEnts - 1 } rc = some t' := by
  have hr2 : readNode h ({ t with numEnts := t.numEnts - 1 } : tree).root = some r := hr
  unfold tree.Del at H
  rw [tree.copy_tree_eq] at H
  simp only at H
  have e0 : Ext h (h ++ [Cell.leaf (⟨t.order.toNat, [], []⟩ : leafNodeS K V)]) :=
    Ext.append_ext _ _
  generalize h ++ [Cell.leaf (⟨t.order.toNat, [], []⟩ : leafNodeS K V)] = h0 at e0 H
  split at H
  · cases H
  · next oldLeaf path hf =>
    split at H
    · cases H
    · next h1 newLeaf hc =>
      obtain ⟨e1, hnew⟩ := leaf_copy_keep e0 hc
      obtain ⟨l, hl, _, rfl⟩ := leafNodeS.copy_leaf_inv hc
      split at H
      · cases H
      · next h2 val removed hw =>
        obtain ⟨l1, l2, hl1, _, rfl⟩ := withLeaf_inv hw
        have e2 : Ext h (List.set (h0 ++ [Cell.leaf l]) newLeaf (Cell.leaf l2)) :=
          e1.set_ext hnew _
        have hne : oldLeaf ≠ newLeaf := by
          have := readLeaf_lt hl
          have := e0.1
          omega
        have hl2 : readLeaf (List.set (h0 ++ [Cell.leaf l]) newLeaf (Cell.leaf l2)) oldLeaf =
            some l := by
          rw [readLeaf_set_ne hne.symm, (Agree.append h0 [Cell.leaf l] (Nat.le_refl _)).readLeaf
            (readLeaf_lt hl)]
          exact hl
        split at H
        · next hrem =>
          simp only [Option.some.injEq, Prod.mk.injEq] at H
          rw [hrem] at H
          exact absurd H.2.2.2 (by simp)
        · split at H
          · cases H
          · split at H
            · simp only [Option.map_eq_some'] at H
              obtain ⟨x, hx, hxe⟩ := H
              simp only [Prod.mk.injEq] at hxe
              obtain ⟨rfl, rfl, _⟩ := hxe
              exact copyUpLeaf_root hr2 path e2 hl2 _ _ (by rw [hx])
            · cases H
          · split at H
            · cases H
            · split at H
              · split at H
                · cases H
                · simp only [Option.map_eq_some'] at H
                  obtain ⟨x, hx, hxe⟩ := H
                  simp only [Prod.mk.injEq] at hxe
                  obtain ⟨rfl, rfl, _⟩ := hxe
                  exact delFill_root hr2 _ e2 hnew _ _ (by rw [hx])
              · simp only [Option.map_eq_some'] at H
                obtain ⟨x, hx, hxe⟩ := H
                simp only [Prod.mk.injEq] at hxe
                obtain ⟨rfl, rfl, _⟩ := hxe
                exact copyUpLeaf_root hr2 path e2 hl2 _ _ (by rw [hx])

end

section
variable {K V : Type} [LinearOrder K]

/-- The method `Del` on a tree whose root is a leaf keeps the depth. -/
theorem Del_leaf_root [Inhabited V] {h : Heap K V} {t : tree} {l : leafNodeS K V}
    (hl : readLeaf h t.root = some l) {k : K} {h' : Heap K V} {t' : tree} {w : V} {d : Bool}
    (H : t.Del h k = some (h', t', w, d)) : t'.depth = t.depth := by
  unfold tree.Del at H
  rw [tree.copy_tree_eq] at H
  simp only at H
  have ag0 : Agree h.length h (h ++ [Cell.leaf ⟨t.order.toNat, [], []⟩]) :=
    Agree.append _ _ (Nat.le_refl _)
  generalize hh0 : h ++ [Cell.leaf (⟨t.order.toNat, [], []⟩ : leafNodeS K V)] = h0 at ag0 H
  have hl0len : h0.length = h.length + 1 := by rw [← hh0]; simp
  have hrt : t.root < h.length := readLeaf_lt hl
  have hl0 : readLeaf h0 t.root = some l := by rw [ag0.readLeaf hrt]; exact hl
  have hc0 : h0[t.root]? = some (Cell.leaf l) := readLeaf_eq_some.1 hl0
  have hf : t.findLeaf h0 k = some (t.root, []) := by
    unfold tree.findLeaf
    rw [hl0len, findLeafLoop, hc0]
    rfl
  rw [hf] at H
  simp only at H
  rw [leafNodeS.copy_leaf_eq hl0] at H
  simp only at H
  split at H
  · cases H
  · next h2 val removed hw =>
    split at H
    · simp only [Option.some.injEq, Prod.mk.injEq] at H
      rw [← H.2.1]
    · obtain ⟨l1, l2, _, _, rfl⟩ := withLeaf_inv hw
      have hl2 : readLeaf (List.set (h0 ++ [Cell.leaf l]) h0.length (Cell.leaf l2)) t.root =
          some l := by
        rw [readLeaf_set_ne (by omega), (Agree.append h0 [Cell.leaf l] (Nat.le_refl _)).readLeaf
          (readLeaf_lt hl0)]
        exact hl0
      rw [isRoot_leaf hl2] at H
      simp only [show pathT.isEmpty ([] : pathT) = true from rfl, if_true,
        Option.map_eq_some'] at H
      obtain ⟨x, hx, hxe⟩ := H
      rw [tree.copyUpLeaf] at hx
      have hr2 : tree.isRoot (List.set (h0 ++ [Cell.leaf l]) h0.length (Cell.leaf l2))
          { t with numEnts := t.numEnts - 1 } t.root = some true :=
        isRoot_leaf (t := { t with numEnts := t.numEnts - 1 }) hl2
      simp only [hr2, Option.bind_eq_bind, Option.some_bind, if_true, Option.some.injEq] at hx
      simp only [Prod.mk.injEq] at hxe
      rw [← hxe.2.1, ← hx]
      rfl

/-- C22: root collapse.  On every tree reachable from `NewBpTree(m)` by `Put` and
`Del`, `Del(k)` returns.  When no entry is removed the handle returned is the
old one.  When the root is a leaf (`Depth()` is 0) `Depth()` stays 0.  When an
entry is removed below an interior root `ro`, the handle returned is what
`setRootNode` makes of the copied root: a node `n` allocated by this `Del`
(its address `rc` is not a cell of the old heap) with one child more than
separators, and with as many separators as `ro` or one less.  If the copied
root is left with zero separators, it has one child, that child is the root of
the tree returned and `Depth()` is one less than before; otherwise the copied
root is the root of the tree returned and `Depth()` is unchanged.  The root of
the tree returned is never an interior node with zero separators. -/
theorem root_collapse [Inhabited V] {m : Nat} {h : Heap K V} {t : tree} (r : Reachable m h t)
    (k : K) :
    ∃ h' t' w d, t.Del h k = some (h', t', w, d) ∧
      (d = false → t' = t) ∧
      (t.Depth = 0 → t'.Depth = 0) ∧
      (d = true → t.Depth ≠ 0 →
        ∃ ro rc n, readNode h t.root = some ro ∧ h.length ≤ rc ∧ readNode h' rc = some n ∧
          n.vals.length = n.keys.length + 1 ∧
          (n.keys.length = ro.keys.length ∨ n.keys.length + 1 = ro.keys.length) ∧
          tree.setRootNode h' { t with numEnts := t.numEnts - 1 } rc = some t' ∧
          (n.keys = [] → n.vals = [t'.root] ∧ t'.Depth = t.Depth - 1) ∧
          (n.keys ≠ [] → t'.root = rc ∧ t'.Depth = t.Depth)) ∧
      (∀ n, readNode h' t'.root = some n → n.keys ≠ []) := by
  obtain ⟨es, inv⟩ := r.to_einv
  obtain ⟨h', t', hdel, _, inv', hsame, _⟩ := Del_spec inv k
  refine ⟨h', t', _, _, hdel, ?_, ?_, ?_, ?_⟩
  · intro hd
    have hd : (getRes (lookup k es)).2 = false := hd
    rw [getRes_snd] at hd
    apply hsame
    cases hlk : lookup k es with
    | none => rfl
    | some v => rw [hlk] at hd; cases hd
  · intro hd0
    obtain ⟨_, _, d, hD, rr, _⟩ := inv
    have hd' : d = 0 := by
      have : t.depth = 0 := hd0
      rw [this] at hD
      exact_mod_cast hD.symm
    subst hd'
    obtain ⟨l, hl, _⟩ := Rep_zero.1 rr
    have : t'.depth = t.depth := Del_leaf_root hl hdel
    show t'.depth = 0
    rw [this]
    exact hd0
  · intro hd hne
    obtain ⟨_, _, d, hD, rr, rf, _⟩ := inv
    cases d with
    | zero => exact absurd hD hne
    | succ d =>
      obtain ⟨ro, hro, _, halign, _⟩ := Rep_succ.1 rr
      have hdel' : t.Del h k = some (h', t', (getRes (lookup k es)).1, true) := by
        rw [← hd]
        exact hdel
      obtain ⟨rc, hrc, hrel, hset⟩ := Del_root hro hdel'
      have hn : ∃ n, readNode h' rc = some n ∧ n.vals.length = n.keys.length + 1 ∧
          (n.keys.length = ro.keys.length ∨ n.keys.length + 1 = ro.keys.length) := by
        rcases hrel with ⟨n, hn, h1, h2⟩ | ⟨⟨n, hn, h1, h2⟩, h3, h4⟩
        · exact ⟨n, hn, by omega, Or.inl h1⟩
        · exact ⟨n, hn, by omega, Or.inr (by omega)⟩
      obtain ⟨n, hn, hal, hlr⟩ := hn
      refine ⟨ro, rc, n, hro, hrc, hn, hal, hlr, hset, ?_, ?_⟩
      · intro hk
        unfold tree.setRootNode at hset
        rw [hn] at hset
        simp only [hk, List.length_nil, if_true] at hset
        obtain ⟨c, tl, hv⟩ := exists_cons (l := n.vals) (by omega)
        have htl : tl = [] := by
          rw [hv, hk] at hal
          simpa using hal
        subst htl
        rw [hv] at hset
        simp only [List.getElem?_cons_zero, Option.some.injEq] at hset
        rw [← hset, hv]
        exact ⟨rfl, rfl⟩
      · intro hk
        unfold tree.setRootNode at hset
        rw [hn] at hset
        have : ¬ n.keys.length = 0 := fun h0 => hk (List.eq_nil_of_length_eq_zero h0)
        simp only [this, if_false, Option.some.injEq] at hset
        rw [← hset]
        exact ⟨rfl, rfl⟩
  · intro n hn hk
    obtain ⟨_, _, d, hD, rr, rf, _⟩ := inv'
    cases d with
    | zero =>
      obtain ⟨l, hl, _⟩ := Rep_zero.1 rr
      rw [readLeaf_of_node hn] at hl
      cases hl
    | succ d =>
      obtain ⟨n2, hn2, _, halign, _⟩ := Rep_succ.1 rr
      rw [hn] at hn2
      cases hn2
      have f1 := rf.1
      rw [nodeSize_of_node hn] at f1
      simp only [Nat.succ_ne_zero, if_false] at f1
      rw [hk] at halign
      simp at halign
      omega

end

theorem root_split_witness :
    Reachable 3 heap2 tree2 ∧
    ∃ h' t' b leaf path, tree2.findLeaf heap2 3 = some (leaf, path) ∧
      tree2.Put heap2 3 30 = some (h', t', b) ∧
      t'.Depth = tree2.Depth +
        (if b = true ∧ nodeSize heap2 leaf = 3 - 1 ∧ pathFull 3 heap2 path = true
          then 1 else 0) ∧
      (tree2.Depth = 0 → b = true → nodeSize heap2 tree2.root = 3 - 1 →
        t'.Depth = 1 ∧
        ∃ n L R a c sep, readNode h' t'.root = some n ∧ n.keys = [sep] ∧ n.vals = [a, c] ∧
          readLeaf h' a = some L ∧ readLeaf h' c = some R ∧ R.keys[0]? = some sep ∧
          L.keys.length = 3 / 2 ∧ L.vals.length = 3 / 2 ∧
          R.keys.length = (3 + 1) / 2 ∧ R.vals.length = (3 + 1) / 2) :=
  ⟨reach2, root_split reach2 3 30⟩

theorem reach23 : Reachable 3 heap23 tree23 := Reachable.del _ _ _ _ 1 10 true reach3 rfl

theorem root_collapse_witness :
    Reachable 3 heap23 tree23 ∧ tree23.Depth = 1 ∧
    tree23.Del heap23 2 = some (heap23d, tree23d, 20, true) ∧
    readNode heap23 tree23.root = some ⟨3, [3], [10, 11]⟩ ∧
    (∃ rc n, heap23.length ≤ rc ∧ readNode heap23d rc = some n ∧
      n.keys = [] ∧ n.vals = [tree23d.root] ∧
      tree.setRootNode heap23d { tree23 with numEnts := tree23.numEnts - 1 } rc =
        some tree23d) ∧
    tree23d.Depth = tree23.Depth - 1 ∧ tree23d.Depth = 0 ∧
    readLeaf heap23d tree23d.root = some ⟨3, [3], [30]⟩ ∧
    ∀ n, readNode heap23d tree23d.root = some n → n.keys ≠ [] := by
  have hdel : tree23.Del heap23 2 = some (heap23d, tree23d, 20, true) := rfl
  obtain ⟨h', t', w, d, hd, _, _, hcol, hroot⟩ := root_collapse reach23 2
  rw [hdel] at hd
  simp only [Option.some.injEq, Prod.mk.injEq] at hd
  obtain ⟨rfl, rfl, rfl, rfl⟩ := hd
  obtain ⟨ro, rc, n, _, hrc, hn, _, _, hset, hnil, hcons⟩ := hcol rfl (by decide)
  have hk : n.keys = [] := by
    by_contra hne
    exact absurd (hcons hne).2 (by decide)
  exact ⟨reach23, rfl, hdel, rfl, ⟨rc, n, hrc, hn, hk, (hnil hk).1, hset⟩, (hnil hk).2, rfl,
    rfl, hroot⟩

theorem no_abort_witness :
    Reachable 3 heap3 tree3 ∧
    3 ≤ 3 ∧ (∃ res, tree3.Get heap3 1 = some res) ∧
      (∃ h' t' b, tree3.Put heap3 1 11 = some (h', t', b)) ∧
      ∃ h' t' w d, tree3.Del heap3 1 = some (h', t', w, d) :=
  ⟨reach3, no_abort reach3 1 11⟩

theorem leaf_split_witness :
    3 ≤ 3 ∧ readLeaf leafHeap3 0 = some ⟨3, [1, 2, 3], [10, 20, 30]⟩ ∧
    ∃ h' r sk L R, leafNodeS.split leafHeap3 0 = some (h', r, sk) ∧
      readLeaf h' 0 = some L ∧ readLeaf h' r = some R ∧ r = leafHeap3.length ∧
      L.keys = [1] ∧ L.vals = [10] ∧ R.keys = [2, 3] ∧ R.vals = [20, 30] ∧ sk = 2 := by
  refine ⟨by decide, rfl, ?_⟩
  obtain ⟨h', r, sk, L, R, hs, hL, hR, hr, hLk, hLv, hRk, hRv, _, _, _, _, hsk, _⟩ :=
    leaf_split (by decide : 3 ≤ 3)
      (show readLeaf leafHeap3 0 = some ⟨3, [1, 2, 3], [10, 20, 30]⟩ from rfl) rfl rfl rfl
  refine ⟨h', r, sk, L, R, hs, hL, hR, hr, hLk, hLv, hRk, hRv, ?_⟩
  exact (Option.some.inj hsk).symm

theorem interior_split_witness :
    3 ≤ 3 ∧ readNode nodeHeap3 0 = some ⟨3, [10, 20, 30], [1, 2, 3, 4]⟩ ∧
    ∃ h' r mid L R, interiorNodeS.split nodeHeap3 0 = some (h', r, mid) ∧
      readNode h' 0 = some L ∧ readNode h' r = some R ∧ r = nodeHeap3.length ∧
      L.keys ++ mid :: R.keys = [10, 20, 30] ∧ L.vals ++ R.vals = [1, 2, 3, 4] ∧
      L.vals.length = L.keys.length + 1 ∧ R.vals.length = R.keys.length + 1 := by
  refine ⟨by decide, rfl, ?_⟩
  obtain ⟨h', r, mid, L, R, hs, hL, hR, hr, _, _, _, _, hk, hv, hl1, hl2, _⟩ :=
    interior_split (by decide : 3 ≤ 3)
      (show readNode nodeHeap3 0 = some ⟨3, [10, 20, 30], [1, 2, 3, 4]⟩ from rfl) rfl rfl rfl
  exact ⟨h', r, mid, L, R, hs, hL, hR, hr, hk, hv, hl1, hl2⟩

theorem interior_split_weight_witness :
    3 ≤ 4 ∧ readNode nodeHeap4 0 = some ⟨4, [10, 20, 30, 40], [1, 2, 3, 4, 5]⟩ ∧
    ∃ h' r mid L R, interiorNodeS.split nodeHeap4 0 = some (h', r, mid) ∧
      readNode h' 0 = some L ∧ readNode h' r = some R ∧
      (4 % 2 = 1 → R.vals.length = L.vals.length ∧ R.keys.length = L.keys.length ∧
        L.vals.length = (4 + 1) / 2 ∧ L.keys.length = 4 / 2) ∧
      (4 % 2 = 0 → R.vals.length = L.vals.length + 1 ∧ R.keys.length = L.keys.length + 1 ∧
        L.vals.length = 4 / 2 ∧ L.keys.length = 4 / 2 - 1) :=
  ⟨by decide, rfl, interior_split_weight (by decide) rfl rfl rfl rfl⟩

/-- C30 as stated fails for both parities: at the odd order 3 the right side of
the split has no more children and no more separators than the left side
(both have two children and one separator), and at the even order 4 the left
side has fewer children and separators than the right side (two children and
one separator against three and two). -/
theorem interior_split_weight_counterexample :
    (∃ h' r mid L R, interiorNodeS.split nodeHeap3 0 = some (h', r, mid) ∧
      readNode nodeHeap3 0 = some ⟨3, [10, 20, 30], [1, 2, 3, 4]⟩ ∧
      readNode h' 0 = some L ∧ readNode h' r = some R ∧
      ¬ (L.vals.length < R.vals.length) ∧ ¬ (L.keys.length < R.keys.length)) ∧
    (∃ h' r mid L R, interiorNodeS.split nodeHeap4 0 = some (h', r, mid) ∧
      readNode nodeHeap4 0 = some ⟨4, [10, 20, 30, 40], [1, 2, 3, 4, 5]⟩ ∧
      readNode h' 0 = some L ∧ readNode h' r = some R ∧
      ¬ (R.vals.length < L.vals.length) ∧ ¬ (R.keys.length < L.keys.length)) :=
  ⟨⟨[Cell.node ⟨3, [10], [1, 2]⟩, Cell.node ⟨3, [30], [3, 4]⟩], 1, 20,
      ⟨3, [10], [1, 2]⟩, ⟨3, [30], [3, 4]⟩, rfl, rfl, rfl, rfl, by decide, by decide⟩,
    ⟨[Cell.node ⟨4, [10], [1, 2]⟩, Cell.node ⟨4, [30, 40], [3, 4, 5]⟩], 1, 20,
      ⟨4, [10], [1, 2]⟩, ⟨4, [30, 40], [3, 4, 5]⟩, rfl, rfl, rfl, rfl, by decide, by decide⟩⟩

theorem search_correct_witness :
    (∃ d, Ordered heap3 d tree3.root) ∧
    ∃ leaf path l, tree3.findLeaf heap3 2 = some (leaf, path) ∧ InTree heap3 tree3.root leaf ∧
      readLeaf heap3 leaf = some l ∧
      (∀ x lx, InTree heap3 tree3.root x → readLeaf heap3 x = some lx → 2 ∈ lx.keys →
        x = leaf) ∧
      tree3.Get heap3 2 = some (20, true) := by
  refine ⟨reach3.ordered, ?_⟩
  obtain ⟨leaf, path, l, hf, hin, hl, huniq, _⟩ := search_correct reach3.ordered (2 : Nat)
  exact ⟨leaf, path, l, hf, hin, hl, huniq, rfl⟩

section
variable {K V : Type} [LinearOrder K]

/-! ## The half-full thresholds -/

/-- C32: the half-full thresholds.  For a leaf of order `m` (`m` is any natural
number, in particular `m >= 3`), `halfFullSize()` is the integer `m / 2`, which
is the ceiling of `(m-1)/2`; for an interior node of order `m`,
`halfFullSize()` is the integer `(m+1) / 2`, which is the ceiling of `m/2`.
For every order up to `2 ^ 53`, so for every order that can be allocated, they
are what the validator computes as `intCeil(m-1, 2)` and `intCeil(m, 2)`;
beyond `2 ^ 53` the binary64 arithmetic of `intCeil` rounds its argument. -/
theorem half_full_thresholds (l : leafNodeS K V) (n : interiorNodeS K) :
    l.halfFullSize = l.order / 2 ∧
    (l.halfFullSize : Int) = Int.ceil (((l.order : ℚ) - 1) / 2) ∧
    (l.order ≤ 2 ^ 53 → intCeil ((l.order : Int) - 1) 2 = (l.halfFullSize : Int)) ∧
    n.halfFullSize = (n.order + 1) / 2 ∧
    (n.halfFullSize : Int) = Int.ceil ((n.order : ℚ) / 2) ∧
    (n.order ≤ 2 ^ 53 → intCeil (n.order : Int) 2 = (n.halfFullSize : Int)) := by
  have h1 := neg_div_neg_eq_ceil ((l.order : Int) - 1) 2
  have h2 := neg_div_neg_eq_ceil (n.order : Int) 2
  push_cast at h1 h2
  refine ⟨rfl, ?_, fun hb => intCeil_order_pred l.order hb, rfl, ?_,
    fun hb => intCeil_order n.order hb⟩
  · rw [← h1]
    show ((l.order / 2 : Nat) : Int) = _
    omega
  · rw [← h2]
    show (((n.order + 1) / 2 : Nat) : Int) = _
    omega

/-- C31: the outputs of the splits match the thresholds of the too-small test.
For every order `m >= 3`, `split()` of a leaf with `m` entries returns, and
neither the receiver nor the new right leaf is too small or too big; the
receiver is the smaller one (it has no more entries than the right leaf) and
has exactly `halfFullSize()` entries.  `split()` of an interior node with `m`
separators and `m + 1` children returns, and neither the receiver nor the new
right node is too small or too big; the receiver is the smaller one and has
exactly `halfFullSize()` children. -/
theorem split_thresholds {m : Nat} (hm : 3 ≤ m) :
    (∀ (h : Heap K V) (p : Nat) (l : leafNodeS K V), readLeaf h p = some l → l.cap = m →
      l.keys.length = m → l.vals.length = m →
      ∃ h' r sk L R, leafNodeS.split h p = some (h', r, sk) ∧
        readLeaf h' p = some L ∧ readLeaf h' r = some R ∧
        L.isToSmall = false ∧ L.isToBig = false ∧ R.isToSmall = false ∧ R.isToBig = false ∧
        L.size ≤ R.size ∧ L.size = L.halfFullSize ∧ R.halfFullSize = L.halfFullSize) ∧
    (∀ (h : Heap K V) (p : Nat) (n : interiorNodeS K), readNode h p = some n → n.cap = m →
      n.keys.length = m → n.vals.length = m + 1 →
      ∃ h' r mid L R, interiorNodeS.split h p = some (h', r, mid) ∧
        readNode h' p = some L ∧ readNode h' r = some R ∧
        L.isToSmall = false ∧ L.isToBig = false ∧ R.isToSmall = false ∧ R.isToBig = false ∧
        L.size ≤ R.size ∧ L.size = L.halfFullSize ∧ R.halfFullSize = L.halfFullSize) := by
  constructor
  · intro h p l hl hcap hk hv
    have hp := readLeaf_lt hl
    have hlt : m / 2 < l.keys.length := by omega
    have hsk : l.keys[l.keys.length / 2]? = some (l.keys[m / 2]) := by
      rw [hk]
      exact List.getElem?_eq_getElem hlt
    have hs := leaf_split_eq hl hsk
    rw [hk, hv, hcap] at hs
    refine ⟨_, _, _, ⟨m, l.keys.take (m / 2), l.vals.take (m / 2)⟩,
      ⟨m, l.keys.drop (m / 2), l.vals.drop (m / 2)⟩, hs, ?_, ?_, ?_, ?_, ?_, ?_, ?_, ?_, rfl⟩
    · exact readLeaf_set_self (by simp; omega) _
    · rw [readLeaf_set_ne (by omega)]
      exact readLeaf_append_self _ _
    · simp only [leafNodeS.isToSmall, leafNodeS.size, leafNodeS.halfFullSize, List.length_take,
        decide_eq_false_iff_not]
      omega
    · simp only [leafNodeS.isToBig, List.length_take, beq_eq_false_iff_ne, ne_eq]
      omega
    · simp only [leafNodeS.isToSmall, leafNodeS.size, leafNodeS.halfFullSize, List.length_drop,
        decide_eq_false_iff_not]
      omega
    · simp only [leafNodeS.isToBig, List.length_drop, beq_eq_false_iff_ne, ne_eq]
      omega
    · simp only [leafNodeS.size, List.length_take, List.length_drop]
      omega
    · simp only [leafNodeS.size, leafNodeS.halfFullSize, List.length_take]
      omega
  · intro h p n hn hcap hk hv
    have hp := readNode_lt hn
    have hlt : (m - 1) / 2 < n.keys.length := by omega
    have hmid : n.keys[(m - 1) / 2]? = some (n.keys[(m - 1) / 2]) :=
      List.getElem?_eq_getElem hlt
    have hs := node_split_eq hm hn hcap hk hv hmid
    refine ⟨_, _, _, ⟨m, n.keys.take ((m - 1) / 2), n.vals.take ((m + 1) / 2)⟩,
      ⟨m, n.keys.drop ((m - 1) / 2 + 1), n.vals.drop ((m + 1) / 2)⟩, hs, ?_, ?_, ?_, ?_, ?_, ?_,
      ?_, ?_, rfl⟩
    · exact readNode_set_self (by simp; omega) _
    · rw [readNode_set_ne (by omega)]
      exact readNode_append_self _ _
    · simp only [interiorNodeS.isToSmall, interiorNodeS.size, interiorNodeS.halfFullSize,
        List.length_take, decide_eq_false_iff_not]
      omega
    · simp only [interiorNodeS.isToBig, List.length_take, beq_eq_false_iff_ne, ne_eq]
      omega
    · simp only [interiorNodeS.isToSmall, interiorNodeS.size, interiorNodeS.halfFullSize,
        List.length_drop, decide_eq_false_iff_not]
      omega
    · simp only [interiorNodeS.isToBig, List.length_drop, beq_eq_false_iff_ne, ne_eq]
      omega
    · simp only [interiorNodeS.size, List.length_take, List.length_drop]
      omega
    · simp only [interiorNodeS.size, interiorNodeS.halfFullSize, List.length_take]
      omega

end

section
variable {K V : Type} [LinearOrder K]

/-! ## The methods of a leaf, from their definitions -/

/-- C37: leaf insert.  For every leaf with strictly increasing keys, keys and
values aligned, and fewer entries than its capacity: when `k` is the key at
index `i`, `insert(k, v)` returns `false` and only replaces the value at index
`i` (the keys, the capacity, the number of values and every other value are
unchanged); when `k` is not a key of the leaf, `insert(k, v)` returns `true`
and puts `k` and `v` at the first index `i` with `k < keys[i]`, the end when
there is none: no earlier key is greater than `k`, the keys and values before
`i` and from `i` on are the old ones, the leaf has one more entry, keys and
values stay aligned and the keys strictly increasing. -/
theorem leaf_insert (l : leafNodeS K V) (k : K) (v : V)
    (hs : l.keys.Pairwise (fun x y => x < y)) (hlen : l.keys.length = l.vals.length)
    (hroom : l.keys.length < l.cap) :
    (∀ i, l.keys[i]? = some k →
      l.insert k v = some ({ l with vals := l.vals.set i v }, false) ∧
      (l.vals.set i v).length = l.vals.length ∧ (l.vals.set i v)[i]? = some v ∧
      ∀ j, j ≠ i → (l.vals.set i v)[j]? = l.vals[j]?) ∧
    (k ∉ l.keys →
      ∃ i l', l.insert k v = some (l', true) ∧ i ≤ l.keys.length ∧
        (∀ j x, j < i → l.keys[j]? = some x → ¬ k < x) ∧
        (∀ x, l.keys[i]? = some x → k < x) ∧
        l'.keys = l.keys.take i ++ k :: l.keys.drop i ∧
        l'.vals = l.vals.take i ++ v :: l.vals.drop i ∧ l'.cap = l.cap ∧
        l'.keys.length = l.keys.length + 1 ∧ l'.keys.length = l'.vals.length ∧
        l'.keys.Pairwise (fun x y => x < y)) := by
  obtain ⟨l2, added, hins, hcap2, hlen2, hs2, _, _, _, hklen⟩ :=
    leafNodeS.insert_spec l k v hlen hs hroom
  constructor
  · intro i hk
    obtain ⟨hi, hki⟩ := List.getElem?_eq_some.1 hk
    have hf : l.keys.findIdx? (fun x => Equals k x || LessThan k x) = some i := by
      refine findIdx?_of_first hk (by simp) ?_
      intro j y hj hy
      obtain ⟨hj', rfl⟩ := List.getElem?_eq_some.1 hy
      have := List.pairwise_iff_getElem.1 hs j i hj' hi hj
      rw [hki] at this
      simp only [Bool.or_eq_false_iff, Equals_false_iff, LessThan_false_iff]
      exact ⟨ne_of_gt this, le_of_lt this⟩
    have hiv : i < l.vals.length := by omega
    refine ⟨?_, by simp, ?_, ?_⟩
    · unfold leafNodeS.insert
      simp only [hf, hk, Equals_iff, if_true, hiv]
    · rw [List.getElem?_set]
      simp [hiv]
    · intro j hj
      rw [List.getElem?_set]
      simp [Ne.symm hj]
  · intro hnot
    have hp : ∀ x ∈ l.keys, (Equals k x || LessThan k x) = LessThan k x := by
      intro x hx
      have : Equals k x = false := by
        rw [Equals_false_iff]
        intro hkx
        exact hnot (hkx ▸ hx)
      rw [this, Bool.false_or]
    have hexp : ∃ i, i ≤ l.keys.length ∧
        (∀ j x, j < i → l.keys[j]? = some x → ¬ k < x) ∧
        (∀ x, l.keys[i]? = some x → k < x) ∧
        l.insert k v = some (⟨l.cap, l.keys.take i ++ k :: l.keys.drop i,
          l.vals.take i ++ v :: l.vals.drop i⟩, true) := by
      cases hf : l.keys.findIdx? (fun x => Equals k x || LessThan k x) with
      | none =>
        refine ⟨l.keys.length, Nat.le_refl _, ?_, ?_, ?_⟩
        · intro j x _ hx
          have := List.findIdx?_eq_none_iff.1 hf x (List.getElem?_mem hx)
          simp only [Bool.or_eq_false_iff, Equals_false_iff, LessThan_false_iff] at this
          exact not_lt.2 this.2
        · intro x hx
          rw [List.getElem?_eq_none (Nat.le_refl _)] at hx
          cases hx
        · unfold leafNodeS.insert
          simp only [hf]
          rw [if_pos ⟨hroom, by omega⟩]
          have e1 : l.vals.take l.keys.length = l.vals := List.take_of_length_le (by omega)
          have e2 : l.vals.drop l.keys.length = [] := List.drop_of_length_le (by omega)
          simp [e1, e2]
      | some i =>
        obtain ⟨hi, hpi, hlt⟩ := List.findIdx?_eq_some_iff_getElem.1 hf
        refine ⟨i, le_of_lt hi, ?_, ?_, ?_⟩
        · intro j x hj hx
          obtain ⟨hj', rfl⟩ := List.getElem?_eq_some.1 hx
          have := hlt j hj
          simp only [Bool.not_eq_true, Bool.or_eq_false_iff, Equals_false_iff,
            LessThan_false_iff] at this
          exact not_lt.2 this.2
        · intro x hx
          obtain ⟨_, rfl⟩ := List.getElem?_eq_some.1 hx
          rw [hp _ (List.getElem_mem hi)] at hpi
          exact LessThan_iff.1 hpi
        · have hne : Equals k l.keys[i] = false := by
            rw [Equals_false_iff]
            intro hkx
            exact hnot (hkx ▸ List.getElem_mem hi)
          unfold leafNodeS.insert
          simp only [hf, List.getElem?_eq_getElem hi, hne, Bool.false_eq_true, if_false]
          rw [if_pos ⟨by omega, hroom, by omega⟩]
    obtain ⟨i, hi, h1, h2, he⟩ := hexp
    rw [hins] at he
    simp only [Option.some.injEq, Prod.mk.injEq] at he
    obtain ⟨rfl, rfl⟩ := he
    refine ⟨i, _, hins, hi, h1, h2, rfl, rfl, rfl, ?_, hlen2, hs2⟩
    simpa using hklen

end

section
variable {K V : Type} [LinearOrder K]

theorem take_pred_append_last {α : Type} {l : List α} {x : α}
    (hx : l[l.length - 1]? = some x) : l.take (l.length - 1) ++ [x] = l := by
  obtain ⟨hi, rfl⟩ := List.getElem?_eq_some.1 hx
  have h1 : l.drop (l.length - 1) = [l[l.length - 1]] := by
    rw [List.drop_eq_getElem_cons hi]
    have : l.length - 1 + 1 = l.length := by omega
    rw [this, List.drop_length]
  rw [← h1, List.take_append_drop]

theorem head_cons_drop_one {α : Type} {l : List α} {x : α}
    (hx : l[0]? = some x) : x :: l.drop 1 = l := by
  cases l with
  | nil => cases hx
  | cons y ys =>
    simp only [List.getElem?_cons_zero, Option.some.injEq] at hx
    rw [hx]
    rfl

/-- C38: the steals of a leaf move exactly one entry.  The leaf `d` at `a` is the
deficit leaf (`isToSmall()`), the leaf `o` at `b` is a sibling with at least
one entry; both have keys and values aligned.  As the left sibling,
`d.stealLeft(o)` returns: `o` loses its last key and value and `d` gets them
in front.  As the right sibling, `d.stealRight(o)` returns: `o` loses its first
key and value and `d` gets them at the end.  In both cases the keys (values,
entries) of the left leaf followed by those of the right leaf are the same
sequence before and after, a donor with more than `halfFullSize()` entries
still has at least `halfFullSize()`, and no other cell of the heap changes. -/
theorem leaf_steal {h : Heap K V} {a b : Nat} {d o : leafNodeS K V} (hab : a ≠ b)
    (hd : readLeaf h a = some d) (ho : readLeaf h b = some o)
    (hdl : d.keys.length = d.vals.length) (hol : o.keys.length = o.vals.length)
    (hsmall : d.isToSmall = true) (hne : 1 ≤ o.keys.length) :
    (∃ h' sk sv L R, leafNodeS.stealLeft h a b = some h' ∧
      o.keys[o.keys.length - 1]? = some sk ∧ o.vals[o.vals.length - 1]? = some sv ∧
      readLeaf h' b = some L ∧ readLeaf h' a = some R ∧
      L.keys = o.keys.take (o.keys.length - 1) ∧ L.vals = o.vals.take (o.vals.length - 1) ∧
      R.keys = sk :: d.keys ∧ R.vals = sv :: d.vals ∧
      L.keys ++ [sk] = o.keys ∧ L.vals ++ [sv] = o.vals ∧
      L.keys ++ R.keys = o.keys ++ d.keys ∧ L.vals ++ R.vals = o.vals ++ d.vals ∧
      L.keys.zip L.vals ++ R.keys.zip R.vals = o.keys.zip o.vals ++ d.keys.zip d.vals ∧
      L.size + 1 = o.size ∧ R.size = d.size + 1 ∧ L.cap = o.cap ∧ R.cap = d.cap ∧
      (o.size > o.halfFullSize → L.size ≥ L.halfFullSize) ∧
      ∀ c, c ≠ a → c ≠ b → h'[c]? = h[c]?) ∧
    (∃ h' sk sv L R, leafNodeS.stealRight h a b = some h' ∧
      o.keys[0]? = some sk ∧ o.vals[0]? = some sv ∧
      readLeaf h' a = some L ∧ readLeaf h' b = some R ∧
      L.keys = d.keys ++ [sk] ∧ L.vals = d.vals ++ [sv] ∧
      R.keys = o.keys.drop 1 ∧ R.vals = o.vals.drop 1 ∧
      sk :: R.keys = o.keys ∧ sv :: R.vals = o.vals ∧
      L.keys ++ R.keys = d.keys ++ o.keys ∧ L.vals ++ R.vals = d.vals ++ o.vals ∧
      L.keys.zip L.vals ++ R.keys.zip R.vals = d.keys.zip d.vals ++ o.keys.zip o.vals ∧
      R.size + 1 = o.size ∧ L.size = d.size + 1 ∧ L.cap = d.cap ∧ R.cap = o.cap ∧
      (o.size > o.halfFullSize → R.size ≥ R.halfFullSize) ∧
      ∀ c, c ≠ a → c ≠ b → h'[c]? = h[c]?) := by
  have ha := readLeaf_lt hd
  have hb := readLeaf_lt ho
  have hroom : d.keys.length < d.cap ∧ d.vals.length < d.cap := by
    simp only [leafNodeS.isToSmall, leafNodeS.size, leafNodeS.halfFullSize,
      decide_eq_true_eq] at hsmall
    omega
  have hk1 : o.keys[o.keys.length - 1]? = some o.keys[o.keys.length - 1] :=
    List.getElem?_eq_getElem (by omega)
  have hv1 : o.vals[o.vals.length - 1]? = some o.vals[o.vals.length - 1] :=
    List.getElem?_eq_getElem (by omega)
  have hk0 : o.keys[0]? = some o.keys[0] := List.getElem?_eq_getElem (by omega)
  have hv0 : o.vals[0]? = some o.vals[0] := List.getElem?_eq_getElem (by omega)
  have hzl : o.keys.zip o.vals =
      (o.keys.take (o.keys.length - 1)).zip (o.vals.take (o.vals.length - 1)) ++
        [(o.keys[o.keys.length - 1], o.vals[o.vals.length - 1])] := by
    have := @List.zip_append K V (o.keys.take (o.keys.length - 1)) [o.keys[o.keys.length - 1]]
      (o.vals.take (o.vals.length - 1)) [o.vals[o.vals.length - 1]]
      (by simp only [List.length_take]; omega)
    rw [take_pred_append_last hk1, take_pred_append_last hv1] at this
    exact this
  have hzr : o.keys.zip o.vals = (o.keys[0], o.vals[0]) :: (o.keys.drop 1).zip (o.vals.drop 1) := by
    have : (o.keys[0] :: o.keys.drop 1).zip (o.vals[0] :: o.vals.drop 1) =
        (o.keys[0], o.vals[0]) :: (o.keys.drop 1).zip (o.vals.drop 1) := List.zip_cons_cons
    rw [head_cons_drop_one hk0, head_cons_drop_one hv0] at this
    exact this
  constructor
  · have hd1 : ∀ c : Cell K V, readLeaf (h.set b c) a = some d := by
      intro c
      rw [readLeaf_set_ne (Ne.symm hab)]
      exact hd
    have hkk := take_pred_append_last hk1
    have hvv := take_pred_append_last hv1
    have hsteal : leafNodeS.stealLeft h a b = some
        ((h.set b (Cell.leaf ⟨o.cap, o.keys.take (o.keys.length - 1),
            o.vals.take (o.vals.length - 1)⟩)).set a
          (Cell.leaf ⟨d.cap, o.keys[o.keys.length - 1] :: d.keys,
            o.vals[o.vals.length - 1] :: d.vals⟩)) := by
      unfold leafNodeS.stealLeft
      simp only [ho, hk1, hv1, hd1]
      rw [if_pos hroom]
    refine ⟨_, o.keys[o.keys.length - 1], o.vals[o.vals.length - 1],
      ⟨o.cap, o.keys.take (o.keys.length - 1), o.vals.take (o.vals.length - 1)⟩,
      ⟨d.cap, o.keys[o.keys.length - 1] :: d.keys, o.vals[o.vals.length - 1] :: d.vals⟩,
      hsteal, hk1, hv1, ?_, ?_, rfl, rfl, rfl, rfl, hkk, hvv, ?_, ?_, ?_, ?_, ?_, rfl, rfl,
      ?_, ?_⟩
    · rw [readLeaf_set_ne hab]
      exact readLeaf_set_self hb _
    · exact readLeaf_set_self (by simp; omega) _
    · simp only
      rw [← List.singleton_append, ← List.append_assoc, hkk]
    · simp only
      rw [← List.singleton_append, ← List.append_assoc, hvv]
    · simp only [List.zip_cons_cons]
      rw [hzl]
      simp
    · simp only [leafNodeS.size, List.length_take]
      omega
    · simp [leafNodeS.size]
    · intro hgt
      simp only [leafNodeS.size, leafNodeS.halfFullSize, List.length_take] at hgt ⊢
      omega
    · intro c hca hcb
      rw [List.getElem?_set_ne (Ne.symm hca), List.getElem?_set_ne (Ne.symm hcb)]
  · have hd1 : ∀ c : Cell K V, readLeaf (h.set b c) a = some d := by
      intro c
      rw [readLeaf_set_ne (Ne.symm hab)]
      exact hd
    have hkk := head_cons_drop_one hk0
    have hvv := head_cons_drop_one hv0
    have hsteal : leafNodeS.stealRight h a b = some
        ((h.set b (Cell.leaf ⟨o.cap, o.keys.drop 1, o.vals.drop 1⟩)).set a
          (Cell.leaf ⟨d.cap, d.keys ++ [o.keys[0]], d.vals ++ [o.vals[0]]⟩)) := by
      unfold leafNodeS.stealRight
      simp only [ho, hk0, hv0, hd1]
      rw [if_pos hroom]
    refine ⟨_, o.keys[0], o.vals[0],
      ⟨d.cap, d.keys ++ [o.keys[0]], d.vals ++ [o.vals[0]]⟩,
      ⟨o.cap, o.keys.drop 1, o.vals.drop 1⟩,
      hsteal, hk0, hv0, ?_, ?_, rfl, rfl, rfl, rfl, hkk, hvv, ?_, ?_, ?_, ?_, ?_, rfl, rfl,
      ?_, ?_⟩
    · exact readLeaf_set_self (by simp; omega) _
    · rw [readLeaf_set_ne hab]
      exact readLeaf_set_self hb _
    · simp only
      rw [List.append_assoc, List.singleton_append, hkk]
    · simp only
      rw [List.append_assoc, List.singleton_append, hvv]
    · simp only
      rw [List.zip_append hdl, hzr]
      simp
    · simp only [leafNodeS.size, List.length_drop]
      omega
    · simp [leafNodeS.size]
    · intro hgt
      simp only [leafNodeS.size, leafNodeS.halfFullSize, List.length_drop] at hgt ⊢
      omega
    · intro c hca hcb
      rw [List.getElem?_set_ne (Ne.symm hca), List.getElem?_set_ne (Ne.symm hcb)]

end

section
variable {K V : Type} [LinearOrder K]

/-! ## The merge of two interior nodes -/

/-- The result of `mergeRight` on two interior nodes, from its definition. -/
theorem node_mergeRight_eq {h : Heap K V} {a b : Nat} {L R : interiorNodeS K} {k : K}
    (hL : readNode h a = some L) (hR : readNode h b = some R)
    (hk : interiorNodeS.findLeftMostKey h b = some k)
    (hroom : L.keys.length + 1 + R.keys.length ≤ L.cap ∧
      L.vals.length + R.vals.length ≤ L.cap + 1) :
    interiorNodeS.mergeRight h a b =
      some (h.set a (Cell.node ⟨L.cap, L.keys ++ k :: R.keys, L.vals ++ R.vals⟩)) := by
  unfold interiorNodeS.mergeRight
  simp only [hk, hL, hR]
  rw [if_pos hroom]

/-- C34: interior `mergeRight`.  `L` at `a` and `R` at `b` are two interior nodes,
each with one child more than separators; the descent from `R` along the first
children reaches the leaf `lf`, whose first key is `k` (the leaf is not empty);
the separators of both and `k` fit in the capacity of `L`.  Then
`L.mergeRight(R)` returns: `L` has the separators `L.keys ++ [k] ++ R.keys` and
the children `L.vals ++ R.vals`, one child more than separators, and its
capacity; `R` and every other cell of the heap are unchanged. -/
theorem interior_merge_right {h : Heap K V} {a b leaf : Nat} {L R : interiorNodeS K}
    {lf : leafNodeS K V} {k : K} (hab : a ≠ b)
    (hL : readNode h a = some L) (hR : readNode h b = some R)
    (hleaf : interiorNodeS.findLeftMostLeaf h b = some leaf) (hlf : readLeaf h leaf = some lf)
    (hk : lf.keys[0]? = some k)
    (hLa : L.vals.length = L.keys.length + 1) (hRa : R.vals.length = R.keys.length + 1)
    (hroom : L.keys.length + 1 + R.keys.length ≤ L.cap) :
    ∃ h' L', interiorNodeS.mergeRight h a b = some h' ∧ readNode h' a = some L' ∧
      L'.keys = L.keys ++ k :: R.keys ∧ L'.vals = L.vals ++ R.vals ∧ L'.cap = L.cap ∧
      L'.vals.length = L'.keys.length + 1 ∧ readNode h' b = some R ∧
      ∀ c, c ≠ a → h'[c]? = h[c]? := by
  have hfk : interiorNodeS.findLeftMostKey h b = some k := by
    unfold interiorNodeS.findLeftMostKey
    simp only [hleaf, hlf]
    exact hk
  have hm := node_mergeRight_eq hL hR hfk ⟨hroom, by omega⟩
  refine ⟨_, ⟨L.cap, L.keys ++ k :: R.keys, L.vals ++ R.vals⟩, hm,
    readNode_set_self (readNode_lt hL) _, rfl, rfl, rfl, ?_, ?_, ?_⟩
  · simp only [List.length_append, List.length_cons]
    omega
  · rw [readNode_set_ne hab]
    exact hR
  · intro c hc
    rw [List.getElem?_set_ne (Ne.symm hc)]

/-- C33: the separator of an interior merge.  `a` and `b` are two sibling interior
nodes of a tree of order `m >= 3`: well-formed subtrees of the same height, the
keys below `a` less than `sep` and the keys below `b` not less than `sep`, the
separator that sits between the two in their parent; their separators and one
more fit in the capacity.  Then `mergeRight`, the merge that `Del` uses for
interior nodes, returns, and the new middle separator of the merged node,
between the separators of the left node and those of the right node, is the
leftmost key `k0` below the right node (the key of its first entry, what
`findLeftMostKey` returns), and `sep <= k0`: it is the parent separator only
when that key is still stored. -/
theorem interior_merge_separator {m : Nat} (hm : 3 ≤ m) {h : Heap K V} {d a b : Nat}
    {lo hi : Option K} {sep : K} {L R : interiorNodeS K}
    (ra : Rep m h (d + 1) a lo (some sep)) (rb : Rep m h (d + 1) b (some sep) hi)
    (hL : readNode h a = some L) (hR : readNode h b = some R)
    (hroom : L.keys.length + 1 + R.keys.length ≤ m) :
    ∃ h' k0 v0 rest, ents h (d + 1) b = (k0, v0) :: rest ∧
      interiorNodeS.findLeftMostKey h b = some k0 ∧
      interiorNodeS.mergeRight h a b = some h' ∧
      readNode h' a = some ⟨m, L.keys ++ k0 :: R.keys, L.vals ++ R.vals⟩ ∧
      sep ≤ k0 ∧ (∀ e ∈ ents h (d + 1) a, e.1 < sep) ∧
      ∀ e ∈ ents h (d + 1) b, k0 ≤ e.1 := by
  have hm2 : 2 ≤ m := by omega
  obtain ⟨l1, hl1, hcapL, hlenL, _⟩ := Rep_succ.1 ra
  rw [hL] at hl1
  cases hl1
  obtain ⟨l2, hl2, hcapR, hlenR, _⟩ := Rep_succ.1 rb
  rw [hR] at hl2
  cases hl2
  obtain ⟨k0, v0, rest, hents, hfk, _⟩ := findLeftMostKey_spec hm2 rb (rb.node_ents_ne_nil hm2)
  have hmerge := node_mergeRight_eq hL hR hfk ⟨by omega, by omega⟩
  rw [hcapL] at hmerge
  refine ⟨_, k0, v0, rest, hents, hfk, hmerge, readNode_set_self (readNode_lt hL) _,
    rb.first_ge hents, ?_, ?_⟩
  · intro e he
    exact ltHi_some.1 (ra.props.2.1 e he).2
  · intro e he
    have hsorted := rb.props.2.2
    rw [hents] at he hsorted
    rw [List.mem_cons] at he
    rcases he with rfl | he
    · exact le_refl _
    · exact le_of_lt (hsorted.head_lt e he)

end

section
variable {K V : Type} [LinearOrder K]

/-! ## Separators above leaves -/

/-- C35: separators above leaves.  In every tree reachable from `NewBpTree(m)` by
`Put` and `Del`, for every interior node of the tree and every separator
`keys[i]` of it whose child `vals[i+1]` is a leaf: that leaf is not empty and
`keys[i]` is a lower bound of its keys, at most its first key; and the keys of
the leaf `vals[i]` are less than `keys[i]`.  (The separator need not be stored
in the leaf it fronts.) -/
theorem leaf_separator_bound [Inhabited V] {m : Nat} {h : Heap K V} {t : tree}
    (r : Reachable m h t) :
    ∀ b n, InTree h t.root b → readNode h b = some n →
      ∀ i k c lc, n.keys[i]? = some k → n.vals[i + 1]? = some c → readLeaf h c = some lc →
        (∃ k0, lc.keys[0]? = some k0 ∧ k ≤ k0) ∧ (∀ x ∈ lc.keys, k ≤ x) ∧
        ∀ c0 l0, n.vals[i]? = some c0 → readLeaf h c0 = some l0 → ∀ x ∈ l0.keys, x < k := by
  obtain ⟨hm, _, d, _, rr, _, _⟩ := r.inv
  intro b n xb hn
  have key : ∀ {d' : Nat} {lo' hi' : Option K}, Rep m h d' b lo' hi' →
      ∀ i k c lc, n.keys[i]? = some k → n.vals[i + 1]? = some c → readLeaf h c = some lc →
        (∃ k0, lc.keys[0]? = some k0 ∧ k ≤ k0) ∧ (∀ x ∈ lc.keys, k ≤ x) ∧
        ∀ c0 l0, n.vals[i]? = some c0 → readLeaf h c0 = some l0 → ∀ x ∈ l0.keys, x < k := by
    intro d' lo' hi' r'
    obtain ⟨d0, rfl⟩ := r'.height_of_node hn
    obtain ⟨n', hn', _, hlen, _, _, hch⟩ := Rep_kids.1 r'
    rw [hn] at hn'
    cases hn'
    intro i k c lc hk hc hlc
    obtain ⟨hil, rfl⟩ := List.getElem?_eq_some.1 hk
    have kc := hch (i + 1) c hc
    have hd0 : d0 = 0 := kc.1.height_of_leaf hlc
    subst hd0
    obtain ⟨l1, hl1, _, hlen1, _, hb1, _⟩ := Rep_zero.1 kc.1
    rw [hlc] at hl1
    cases hl1
    have hsz := (kc.leaf_size hlc).1
    have hall : ∀ x ∈ lc.keys, n.keys[i] ≤ x := by
      intro x hx
      have := (hb1 x hx).1
      rw [loAt_succ, List.getElem?_eq_getElem hil] at this
      exact geLo_some.1 this
    have hpos : 0 < lc.keys.length := by omega
    refine ⟨⟨lc.keys[0], List.getElem?_eq_getElem hpos, hall _ (List.getElem_mem hpos)⟩,
      hall, ?_⟩
    intro c0 l0 hc0 hl0 x hx
    have k0 := hch i c0 hc0
    obtain ⟨l2, hl2, _, _, _, hb2, _⟩ := Rep_zero.1 k0.1
    rw [hl0] at hl2
    cases hl2
    have := (hb2 x hx).2
    rw [hiAt_lt _ _ hil] at this
    exact ltHi_some.1 this
  rcases xb.sub rr with rfl | ⟨d', lo', hi', _, kb⟩
  · exact key rr
  · exact key kb.1

/-! ## The number of entries and the height -/

theorem length_flatten_ge {α : Type} (ls : List (List α)) (c : Nat)
    (hc : ∀ l ∈ ls, c ≤ l.length) : ls.length * c ≤ ls.flatten.length := by
  induction ls with
  | nil => simp
  | cons l rest ih =>
    have h1 := hc l (List.mem_cons_self _ _)
    have h2 := ih (fun x hx => hc x (List.mem_cons_of_mem _ hx))
    simp only [List.length_cons, List.flatten_cons, List.length_append]
    rw [Nat.add_mul, Nat.one_mul]
    omega

theorem length_flatten_le {α : Type} (ls : List (List α)) (c : Nat)
    (hc : ∀ l ∈ ls, l.length ≤ c) : ls.flatten.length ≤ ls.length * c := by
  induction ls with
  | nil => simp
  | cons l rest ih =>
    have h1 := hc l (List.mem_cons_self _ _)
    have h2 := ih (fun x hx => hc x (List.mem_cons_of_mem _ hx))
    simp only [List.length_cons, List.flatten_cons, List.length_append]
    rw [Nat.add_mul, Nat.one_mul]
    omega

/-- The number of entries below a node of height `d` that is not the root. -/
theorem Kid.ents_length {m : Nat} {h : Heap K V} {d : Nat} :
    ∀ {c : Nat} {lo hi : Option K}, Kid m h d c lo hi →
      ((m + 1) / 2) ^ d * (m / 2) ≤ (ents h d c).length ∧
      (ents h d c).length ≤ m ^ d * (m - 1) := by
  induction d with
  | zero =>
    intro c lo hi k
    obtain ⟨l, hl, _, hlen, _⟩ := Rep_zero.1 k.1
    have hs := k.leaf_size hl
    rw [ents_leaf hl, List.length_zip, hlen, Nat.min_self, pow_zero, pow_zero, Nat.one_mul,
      Nat.one_mul]
    exact hs
  | succ d ih =>
    intro c lo hi k
    obtain ⟨n, hn, _, _, _, _, hch⟩ := Rep_kids.1 k.1
    have hs := k.node_size hn
    rw [ents_node hn]
    have hlo : ∀ l ∈ n.vals.map (ents h d), ((m + 1) / 2) ^ d * (m / 2) ≤ l.length := by
      intro l hl
      obtain ⟨x, hx, rfl⟩ := List.mem_map.1 hl
      obtain ⟨i, hi', rfl⟩ := List.getElem_of_mem hx
      exact (ih (hch i _ (List.getElem?_eq_getElem hi'))).1
    have hhi : ∀ l ∈ n.vals.map (ents h d), l.length ≤ m ^ d * (m - 1) := by
      intro l hl
      obtain ⟨x, hx, rfl⟩ := List.mem_map.1 hl
      obtain ⟨i, hi', rfl⟩ := List.getElem_of_mem hx
      exact (ih (hch i _ (List.getElem?_eq_getElem hi'))).2
    have h1 := length_flatten_ge _ _ hlo
    have h2 := length_flatten_le _ _ hhi
    rw [List.length_map] at h1 h2
    constructor
    · calc ((m + 1) / 2) ^ (d + 1) * (m / 2)
          = (m + 1) / 2 * (((m + 1) / 2) ^ d * (m / 2)) := by rw [pow_succ]; ring
        _ ≤ n.vals.length * (((m + 1) / 2) ^ d * (m / 2)) := Nat.mul_le_mul_right _ hs.1
        _ ≤ _ := h1
    · calc ((n.vals.map (ents h d)).flatten).length
          ≤ n.vals.length * (m ^ d * (m - 1)) := h2
        _ ≤ m * (m ^ d * (m - 1)) := Nat.mul_le_mul_right _ hs.2
        _ = m ^ (d + 1) * (m - 1) := by rw [pow_succ]; ring

/-- C40: logarithmic height.  In every tree of order `m` reachable from
`NewBpTree(m)` by `Put` and `Del` (so `m >= 3`) whose `Depth()` is `d + 1`,
`NumberOfEntries()` is at least `2 * ceil(m/2)^d * ceil((m-1)/2)` (the integers
`(m+1)/2` and `m/2`) and at most `m^(d+1) * (m-1)`; hence `d` is at most the
logarithm to the base `ceil(m/2)` of half the number of entries. -/
theorem log_height [Inhabited V] {m : Nat} {h : Heap K V} {t : tree} (r : Reachable m h t)
    (d : Nat) (hd : t.Depth = (d : Int) + 1) :
    3 ≤ m ∧
    ((2 * ((m + 1) / 2) ^ d * (m / 2) : Nat) : Int) ≤ t.NumberOfEntries ∧
    t.NumberOfEntries ≤ ((m ^ (d + 1) * (m - 1) : Nat) : Int) ∧
    d ≤ Nat.log ((m + 1) / 2) (t.NumberOfEntries.toNat / 2) := by
  obtain ⟨es, inv⟩ := r.to_einv
  obtain ⟨hm, _, D, hD, rr, rf, he, hc⟩ := inv
  have hDd : D = d + 1 := by
    have : t.depth = (d : Int) + 1 := hd
    rw [this] at hD
    exact_mod_cast hD.symm
  subst hDd
  obtain ⟨n, hn, _, _, _, _, hch⟩ := Rep_kids.1 rr
  have f1 := rf.1
  have f2 := rf.2
  rw [nodeSize_of_node hn] at f1 f2
  simp only [Nat.succ_ne_zero, if_false] at f1
  rw [maxSize_succ] at f2
  have hlo : ∀ l ∈ n.vals.map (ents h d), ((m + 1) / 2) ^ d * (m / 2) ≤ l.length := by
    intro l hl
    obtain ⟨x, hx, rfl⟩ := List.mem_map.1 hl
    obtain ⟨i, hi', rfl⟩ := List.getElem_of_mem hx
    exact (hch i _ (List.getElem?_eq_getElem hi')).ents_length.1
  have hhi : ∀ l ∈ n.vals.map (ents h d), l.length ≤ m ^ d * (m - 1) := by
    intro l hl
    obtain ⟨x, hx, rfl⟩ := List.mem_map.1 hl
    obtain ⟨i, hi', rfl⟩ := List.getElem_of_mem hx
    exact (hch i _ (List.getElem?_eq_getElem hi')).ents_length.2
  have h1 := length_flatten_ge _ _ hlo
  have h2 := length_flatten_le _ _ hhi
  rw [List.length_map, ← ents_node hn, he] at h1 h2
  have hlow : 2 * ((m + 1) / 2) ^ d * (m / 2) ≤ es.length := by
    calc 2 * ((m + 1) / 2) ^ d * (m / 2) = 2 * (((m + 1) / 2) ^ d * (m / 2)) := by ring
      _ ≤ n.vals.length * (((m + 1) / 2) ^ d * (m / 2)) := Nat.mul_le_mul_right _ f1
      _ ≤ es.length := h1
  have hup : es.length ≤ m ^ (d + 1) * (m - 1) := by
    calc es.length ≤ n.vals.length * (m ^ d * (m - 1)) := h2
      _ ≤ m * (m ^ d * (m - 1)) := Nat.mul_le_mul_right _ f2
      _ = m ^ (d + 1) * (m - 1) := by rw [pow_succ]; ring
  have hne : t.NumberOfEntries = (es.length : Int) := hc
  refine ⟨hm, ?_, ?_, ?_⟩
  · rw [hne]
    exact_mod_cast hlow
  · rw [hne]
    exact_mod_cast hup
  · rw [hne, Int.toNat_ofNat]
    apply Nat.le_log_of_pow_le (by omega)
    have hhalf : 1 ≤ m / 2 := by omega
    have : 2 * ((m + 1) / 2) ^ d ≤ es.length := by
      calc 2 * ((m + 1) / 2) ^ d = 2 * ((m + 1) / 2) ^ d * 1 := by ring
        _ ≤ 2 * ((m + 1) / 2) ^ d * (m / 2) := Nat.mul_le_mul_left _ hhalf
        _ ≤ es.length := hlow
    omega

end

section
variable {K V : Type} [LinearOrder K]

/-! ## The insertion into an interior node -/

/-- The method `insert` of an interior node with a separator that lies between
the separators before and after index `j`. -/
theorem insert_between (n : interiorNodeS K) (s : K) (c : Nat) {j : Nat}
    (hs : n.keys.Pairwise (fun x y => x < y)) (hlen : n.vals.length = n.keys.length + 1)
    (hroom : n.keys.length < n.cap) (hj : j ≤ n.keys.length)
    (hlo : ∀ x, n.keys[j - 1]? = some x → 1 ≤ j → x < s)
    (hhi : ∀ x, n.keys[j]? = some x → s < x) :
    n.insert s c = some { n with keys := n.keys.take j ++ s :: n.keys.drop j,
                                 vals := n.vals.take (j + 1) ++ c :: n.vals.drop (j + 1) } := by
  refine interiorNodeS.insert_at n s c hj hlen hroom ?_ hhi
  intro i x hi hx
  obtain ⟨hi', rfl⟩ := List.getElem?_eq_some.1 hx
  have hj1 : j - 1 < n.keys.length := by omega
  have hlast := hlo _ (List.getElem?_eq_getElem hj1) (by omega)
  rcases Nat.lt_or_ge i (j - 1) with hlt | hge
  · exact le_of_lt (lt_trans (List.pairwise_iff_getElem.1 hs i (j - 1) hi' hj1 hlt) hlast)
  · have : i = j - 1 := by omega
    subst this
    exact le_of_lt hlast

/-- C39: interior insert.  For every interior node with strictly increasing
separators `K`, children `C` with `|C| = |K| + 1` and `|K|` below the capacity:
with `i` the smallest index such that `s < K[i]` (`|K|` when there is none),
`insert(s, c)` returns and leaves the separators `K[0..i) ++ [s] ++ K[i..)` and
the children `C[0..i+1) ++ [c] ++ C[i+1..)`; when `s` lies between the
separators around the child at index `j` (`K[j-1] < s < K[j]`, where they
exist), that index is `j`, so `c` is at index `j + 1`, next to the child at
index `j`.  That is the case when `Put` calls it from `insertUpLeaf`: in every
reachable tree of order `m`, when `Put(k, v)` of a new key finds a leaf with
`m - 1` entries at index `j` of its parent `pn`, the key `s` that the split of
the leaf promotes (the key at index `m / 2` after the insertion of `k`) lies
between the separators around index `j`, and the insertion of `s` into the
copy of `pn` (in which the new leaf has replaced the old one) puts it at
index `j`. -/
theorem interior_insert [Inhabited V] (n : interiorNodeS K) (s : K) (c : Nat)
    (hs : n.keys.Pairwise (fun x y => x < y)) (hlen : n.vals.length = n.keys.length + 1)
    (hroom : n.keys.length < n.cap) :
    (∃ i, i ≤ n.keys.length ∧ (∀ j x, j < i → n.keys[j]? = some x → ¬ s < x) ∧
      (∀ x, n.keys[i]? = some x → s < x) ∧
      n.insert s c = some { n with keys := n.keys.take i ++ s :: n.keys.drop i,
                                   vals := n.vals.take (i + 1) ++ c :: n.vals.drop (i + 1) }) ∧
    (∀ j, j ≤ n.keys.length → (∀ x, n.keys[j - 1]? = some x → 1 ≤ j → x < s) →
      (∀ x, n.keys[j]? = some x → s < x) →
      n.insert s c = some { n with keys := n.keys.take j ++ s :: n.keys.drop j,
                                   vals := n.vals.take (j + 1) ++ c :: n.vals.drop (j + 1) } ∧
      (n.vals.take (j + 1) ++ c :: n.vals.drop (j + 1))[j + 1]? = some c ∧
      (n.vals.take (j + 1) ++ c :: n.vals.drop (j + 1))[j]? = n.vals[j]?) ∧
    (∀ (m : Nat) (h : Heap K V) (t : tree) (k : K) (v : V) (leaf p j : Nat) (rest : pathT)
      (l : leafNodeS K V) (pn : interiorNodeS K), Reachable m h t →
      t.findLeaf h k = some (leaf, p :: rest) → readLeaf h leaf = some l →
      readNode h p = some pn → pn.vals[j]? = some leaf → k ∉ l.keys →
      l.keys.length = m - 1 →
      ∃ l' sk, l.insert k v = some (l', true) ∧ l'.keys.length = m ∧
        l'.keys[m / 2]? = some sk ∧ j ≤ pn.keys.length ∧
        (∀ x, pn.keys[j - 1]? = some x → 1 ≤ j → x < sk) ∧
        (∀ x, pn.keys[j]? = some x → sk < x) ∧
        ∀ (newLeaf splitLeaf : Nat),
          ({ pn with vals := pn.vals.set j newLeaf } : interiorNodeS K).insert sk splitLeaf =
            some ⟨pn.cap, pn.keys.take j ++ sk :: pn.keys.drop j,
              (pn.vals.set j newLeaf).take (j + 1) ++
                splitLeaf :: (pn.vals.set j newLeaf).drop (j + 1)⟩) := by
  refine ⟨?_, ?_, ?_⟩
  · cases hf : n.keys.findIdx? (fun x => LessThan s x) with
    | none =>
      have hno : ∀ j x, j < n.keys.length → n.keys[j]? = some x → ¬ s < x := by
        intro j x _ hx
        have := List.findIdx?_eq_none_iff.1 hf x (List.getElem?_mem hx)
        simp only [LessThan_false_iff] at this
        exact not_lt.2 this
      refine ⟨n.keys.length, Nat.le_refl _, hno, ?_, ?_⟩
      · intro x hx
        rw [List.getElem?_eq_none (Nat.le_refl _)] at hx
        cases hx
      · refine interiorNodeS.insert_at n s c (Nat.le_refl _) hlen hroom ?_ ?_
        · intro j x hj hx
          exact not_lt.1 (hno j x hj hx)
        · intro x hx
          rw [List.getElem?_eq_none (Nat.le_refl _)] at hx
          cases hx
    | some i =>
      obtain ⟨hi, hpi, hlt⟩ := List.findIdx?_eq_some_iff_getElem.1 hf
      have hno : ∀ j x, j < i → n.keys[j]? = some x → ¬ s < x := by
        intro j x hj hx
        obtain ⟨hj', rfl⟩ := List.getElem?_eq_some.1 hx
        have := hlt j hj
        simp only [Bool.not_eq_true, LessThan_false_iff] at this
        exact not_lt.2 this
      have hat : ∀ x, n.keys[i]? = some x → s < x := by
        intro x hx
        obtain ⟨_, rfl⟩ := List.getElem?_eq_some.1 hx
        exact LessThan_iff.1 hpi
      refine ⟨i, le_of_lt hi, hno, hat, ?_⟩
      exact interiorNodeS.insert_at n s c (le_of_lt hi) hlen hroom
        (fun j x hj hx => not_lt.1 (hno j x hj hx)) hat
  · intro j hj hlo hhi
    refine ⟨insert_between n s c hs hlen hroom hj hlo hhi, ?_, ?_⟩
    · have hl : (n.vals.take (j + 1)).length = j + 1 := by
        rw [List.length_take]
        omega
      exact getElem?_mid c _ hl
    · rw [List.getElem?_append_left (by rw [List.length_take]; omega), List.getElem?_take]
      simp
  · intro m h t k v leaf p j rest l pn r hf hl hpn hj hnot hsz
    obtain ⟨es, inv⟩ := r.to_einv
    obtain ⟨hm, _, d, _, rr, rf, _, _⟩ := inv
    obtain ⟨leaf', path', lo, hi, pre, post, hf', rl, pfl, cx, hlo, hhi⟩ := findLeaf_spec k rr rf
    rw [hf] at hf'
    obtain ⟨rfl, rfl⟩ := Prod.mk.inj (Option.some.inj hf')
    obtain ⟨n0, plo, phi, i, pre', post', hn0, hi', rfl, rfl, rp, pfp, _, _, _⟩ := cx
    rw [hpn] at hn0
    cases hn0
    obtain ⟨_, hn1, hcapn, hlenn, hnd, _, _⟩ := Rep_succ.1 rp
    rw [hpn] at hn1
    cases hn1
    have hji : j = i := by
      obtain ⟨hj1, hj2⟩ := List.getElem?_eq_some.1 hj
      obtain ⟨hi1, hi2⟩ := List.getElem?_eq_some.1 hi'
      exact (hnd.getElem_inj_iff).1 (hj2.trans hi2.symm)
    subst hji
    obtain ⟨l0, hl0, hcap, hlenl, hsl, hbnd, _⟩ := Rep_zero.1 rl
    rw [hl] at hl0
    cases hl0
    obtain ⟨l', added, hins, _, hlen', hs', hmem', _, hadded, hklen⟩ :=
      leafNodeS.insert_spec l k v hlenl hsl (by omega)
    rw [lookup_zip_none (fun x hx hxk => hnot (by rw [← hxk]; exact hx))] at hadded
    simp only [Option.isNone_none] at hadded
    subst hadded
    simp only [if_true] at hklen
    have hk' : l'.keys.length = m := by omega
    have hmid : m / 2 < l'.keys.length := by omega
    have hb' : ∀ x ∈ l'.keys, geLo (loAt plo pn.keys j) x ∧ ltHi (hiAt phi pn.keys j) x := by
      intro x hx
      rcases hmem' x hx with rfl | hx'
      · exact ⟨hlo, hhi⟩
      · exact hbnd x hx'
    have hjle : j ≤ pn.keys.length := by
      have := (List.getElem?_eq_some.1 hj).1
      omega
    have hlow : ∀ x, pn.keys[j - 1]? = some x → 1 ≤ j → x < l'.keys[m / 2] := by
      intro x hx hj1
      have h0 : 0 < l'.keys.length := by omega
      have hge := (hb' _ (List.getElem_mem h0)).1
      have e : loAt plo pn.keys j = some x := by
        obtain ⟨j0, rfl⟩ : ∃ j0, j = j0 + 1 := ⟨j - 1, by omega⟩
        rw [loAt_succ]
        exact hx
      rw [e] at hge
      have h1 := geLo_some.1 hge
      have h2 := List.pairwise_iff_getElem.1 hs' 0 (m / 2) h0 hmid (by omega)
      exact lt_of_le_of_lt h1 h2
    have hupp : ∀ x, pn.keys[j]? = some x → l'.keys[m / 2] < x := by
      intro x hx
      obtain ⟨hjl, rfl⟩ := List.getElem?_eq_some.1 hx
      have hlt := (hb' _ (List.getElem_mem hmid)).2
      rw [hiAt_lt _ _ hjl] at hlt
      exact ltHi_some.1 hlt
    have hmax := pfp.le_max
    rw [maxSize_succ, nodeSize_of_node hpn] at hmax
    refine ⟨l', l'.keys[m / 2], hins, hk', List.getElem?_eq_getElem hmid, hjle, hlow, hupp, ?_⟩
    intro newLeaf splitLeaf
    exact insert_between _ _ _ (rp.sepOK hpn).sorted (by simp [hlenn]) (by simp; omega) hjle
      hlow hupp

end

section
variable {K V : Type} [LinearOrder K]

/-! ## The nodes that an upward pass of a deletion keeps -/

theorem take_set_ge (h : Heap K V) {B p : Nat} (hp : B ≤ p) (c : Cell K V) :
    (h.set p c).take B = h.take B := by
  apply List.ext_getElem?
  intro i
  rw [List.getElem?_take, List.getElem?_take]
  split
  · rw [List.getElem?_set_ne (by omega)]
  · rfl

theorem take_append_le (h l : Heap K V) {B : Nat} (hB : B ≤ h.length) :
    (h ++ l).take B = h.take B := List.take_append_of_le_length hB

theorem take_take_le (h : Heap K V) {B B' : Nat} (hB : B ≤ B') :
    (h.take B').take B = h.take B := by
  rw [List.take_take, Nat.min_eq_left hB]

theorem take_eq_of_take {h h' : Heap K V} {B B' : Nat} (hB : B ≤ B')
    (e : h'.take B' = h.take B') : h'.take B = h.take B := by
  rw [← take_take_le h' hB, e, take_take_le h hB]

theorem readNode_of_take {h : Heap K V} {B a : Nat} {n : interiorNodeS K}
    (hn : readNode (h.take B) a = some n) : readNode h a = some n := by
  rw [readNode_eq_some] at hn ⊢
  rw [List.getElem?_take] at hn
  split at hn
  · exact hn
  · cases hn

theorem readNode_take {h : Heap K V} {B a : Nat} (ha : a < B) :
    readNode (h.take B) a = readNode h a := by
  unfold readNode
  rw [List.getElem?_take, if_pos ha]

theorem readLeaf_take {h : Heap K V} {B a : Nat} (ha : a < B) :
    readLeaf (h.take B) a = readLeaf h a := by
  unfold readLeaf
  rw [List.getElem?_take, if_pos ha]

theorem InTree.of_take {h : Heap K V} {B a b : Nat} (x : InTree (h.take B) a b) :
    InTree h a b := by
  induction x with
  | self a => exact InTree.self a
  | child a c b n hn hc _ ih => exact InTree.child a c b n (readNode_of_take hn) hc ih

theorem InTree.of_take_eq {h h' : Heap K V} {B a b : Nat} (x : InTree (h.take B) a b)
    (e : h'.take B = h.take B) : InTree h' a b := by
  rw [← e] at x
  exact x.of_take

theorem InTree.take_mono {h : Heap K V} {B B' a b : Nat} (x : InTree (h.take B) a b)
    (hB : B ≤ B') : InTree (h.take B') a b := by
  rw [← take_take_le h hB] at x
  exact x.of_take

theorem swapInteriorVals_mem (h : Heap K V) (a b : Nat) :
    ∀ (vs vs' : List Nat), interiorNodeS.swapInteriorVals h a b vs = some vs' → b ∈ vs' := by
  intro vs
  induction vs with
  | nil => intro vs' H; cases H
  | cons c rest ih =>
    intro vs' H
    rw [interiorNodeS.swapInteriorVals] at H
    split at H
    · cases H
    · split at H
      · cases H
        exact List.mem_cons_self _ _
      · split at H
        · cases H
        · next rest' hrest =>
          cases H
          exact List.mem_cons_of_mem _ (ih rest' hrest)

theorem swapLeafVals_mem (h : Heap K V) (a b : Nat) :
    ∀ (vs vs' : List Nat), interiorNodeS.swapLeafVals h a b vs = some vs' → b ∈ vs' := by
  intro vs
  induction vs with
  | nil => intro vs' H; cases H
  | cons c rest ih =>
    intro vs' H
    rw [interiorNodeS.swapLeafVals] at H
    split at H
    · cases H
    · split at H
      · cases H
        exact List.mem_cons_self _ _
      · split at H
        · cases H
        · next rest' hrest =>
          cases H
          exact List.mem_cons_of_mem _ (ih rest' hrest)

theorem swapInteriorNode_mem {h : Heap K V} {a b : Nat} {nd nd' : interiorNodeS K}
    (H : nd.swapInteriorNode h a b = some nd') : b ∈ nd'.vals := by
  unfold interiorNodeS.swapInteriorNode at H
  split at H
  · cases H
  · next vs hvs =>
    cases H
    exact swapInteriorVals_mem h a b _ _ hvs

theorem swapLeafNode_mem {h : Heap K V} {a b : Nat} {nd nd' : interiorNodeS K}
    (H : nd.swapLeafNode h a b = some nd') : b ∈ nd'.vals := by
  unfold interiorNodeS.swapLeafNode at H
  split at H
  · cases H
  · next vs hvs =>
    cases H
    exact swapLeafVals_mem h a b _ _ hvs

/-- The end of an upward pass: `setRootNode` on a node that has `x` below it. -/
theorem setRootNode_track {h : Heap K V} {t t1 : tree} {B new x : Nat} (top : Top B h new x)
    (hal : ∀ nd, readNode h new = some nd → nd.vals.length = nd.keys.length + 1)
    (hs : t.setRootNode h new = some t1) : InTree h t1.root x := by
  obtain ⟨_, nd, c, hnd, hc, hx⟩ := top
  have hx' := hx.of_take
  unfold tree.setRootNode at hs
  rw [hnd] at hs
  simp only at hs
  split at hs
  · next hk =>
    have hv1 : nd.vals.length = 1 := by rw [hal nd hnd, hk]
    obtain ⟨c0, tl, hv⟩ := exists_cons (l := nd.vals) (by omega)
    have htl : tl = [] := by
      rw [hv] at hv1
      simpa using hv1
    subst htl
    rw [hv] at hs hc
    simp only [List.getElem?_cons_zero, Option.some.injEq] at hs
    rw [List.mem_singleton] at hc
    subst hc
    rw [← hs]
    exact hx'
  · simp only [Option.some.injEq] at hs
    rw [← hs]
    exact InTree.child new c x nd hnd hc hx'

/-- The method `copyUp` keeps what is below the new node. -/
theorem copyUp_track {t : tree} {r : interiorNodeS K} {x : Nat}
    (hral : r.vals.length = r.keys.length + 1) (path : pathT) :
    ∀ {h : Heap K V} {B old new : Nat}, readNode h t.root = some r → t.root < B →
      Top B h new x →
      (old = t.root → ∀ nd, readNode h new = some nd → nd.vals.length = nd.keys.length + 1) →
      TrackRes B h x (t.copyUp h old new path) := by
  induction path with
  | nil =>
    intro h B old new hr hroot top hal h' t' H
    rw [tree.copyUp] at H
    simp only [Option.bind_eq_bind, Option.bind_eq_some] at H
    obtain ⟨b, hb, H⟩ := H
    cases b with
    | false => simp at H
    | true =>
      simp only [if_true, Option.bind_eq_some, Option.some.injEq, Prod.mk.injEq] at H
      obtain ⟨t1, hs, rfl, rfl⟩ := H
      exact ⟨setRootNode_track top (hal (isRoot_eq hb).symm) hs, rfl⟩
  | cons p path ih =>
    intro h B old new hr hroot top hal h' t' H
    rw [tree.copyUp] at H
    simp only [Option.bind_eq_bind, Option.bind_eq_some] at H
    obtain ⟨⟨h1, q⟩, hc, h2, hu, H⟩ := H
    dsimp only at hu H
    obtain ⟨P, hP, rfl, rfl⟩ := interiorNodeS.copy_inv hc
    obtain ⟨P1, P2, hP1, hsw, rfl⟩ := updNode_inv hu
    rw [readNode_append_self] at hP1
    cases hP1
    obtain ⟨hB, nd, c, hnd, hcm, hx⟩ := top
    have hnew : new < h.length := readNode_lt hnd
    have hq : h.length < (h ++ [Cell.node P]).length := by simp
    have htake : ((h ++ [Cell.node P]).set h.length (Cell.node P2)).take h.length = h := by
      rw [take_set_ge _ (Nat.le_refl _), take_append_le _ _ (Nat.le_refl _), List.take_length]
    have hr2 : readNode ((h ++ [Cell.node P]).set h.length (Cell.node P2)) t.root = some r := by
      rw [readNode_set_ne (by omega),
        (Agree.append h [Cell.node P] (Nat.le_refl _)).readNode (by omega)]
      exact hr
    have top2 : Top h.length ((h ++ [Cell.node P]).set h.length (Cell.node P2)) h.length x := by
      refine ⟨Nat.le_refl _, P2, new, readNode_set_self hq _, swapInteriorNode_mem hsw, ?_⟩
      rw [htake]
      exact InTree.child new c x nd hnd hcm hx.of_take
    have hal2 : p = t.root → ∀ nd, readNode ((h ++ [Cell.node P]).set h.length (Cell.node P2))
        h.length = some nd → nd.vals.length = nd.keys.length + 1 := by
      intro hp nd' hnd'
      rw [readNode_set_self hq] at hnd'
      cases hnd'
      rw [hp, hr] at hP
      cases hP
      have := swapInteriorNode_len hsw
      omega
    obtain ⟨hin, htk⟩ := ih hr2 (by omega) top2 hal2 h' t' H
    refine ⟨hin, ?_⟩
    have := take_eq_of_take (by omega : B ≤ h.length) htk
    rw [this]
    exact take_eq_of_take (by omega : B ≤ h.length) (htake.trans (List.take_length h).symm)

end

section
variable {K V : Type} [LinearOrder K]

theorem Keeps.trans_keeps {B new : Nat} {h1 h2 h3 : Heap K V} (a : Keeps B new h1 h2)
    (b : Keeps B new h2 h3) : Keeps B new h1 h3 := by
  refine ⟨b.1.trans a.1, ?_⟩
  intro nd hnd
  obtain ⟨nd2, hnd2, s2⟩ := a.2 nd hnd
  obtain ⟨nd3, hnd3, s3⟩ := b.2 nd2 hnd2
  exact ⟨nd3, hnd3, fun c hc => s3 c (s2 c hc)⟩

theorem Top.keeps {B new x : Nat} {h h2 : Heap K V} (top : Top B h new x)
    (k : Keeps B new h h2) : Top B h2 new x := by
  obtain ⟨hB, nd, c, hnd, hc, hx⟩ := top
  obtain ⟨nd2, hnd2, s⟩ := k.2 nd hnd
  refine ⟨hB, nd2, c, hnd2, s c hc, ?_⟩
  rw [k.1]
  exact hx

theorem Top.inTree {B new x : Nat} {h : Heap K V} (top : Top B h new x) : InTree h new x := by
  obtain ⟨_, nd, c, hnd, hc, hx⟩ := top
  exact InTree.child new c x nd hnd hc hx.of_take

theorem Top.lt_length {B new x : Nat} {h : Heap K V} (top : Top B h new x) :
    new < h.length ∧ B ≤ new := by
  obtain ⟨hB, nd, c, hnd, _, _⟩ := top
  exact ⟨readNode_lt hnd, hB⟩

theorem keeps_append {B new : Nat} (h l : Heap K V) (hB : B ≤ h.length) :
    Keeps B new h (h ++ l) := by
  refine ⟨take_append_le h l hB, ?_⟩
  intro nd hnd
  refine ⟨nd, ?_, fun c hc => hc⟩
  rw [(Agree.append h l (Nat.le_refl _)).readNode (readNode_lt hnd)]
  exact hnd

theorem keeps_set_ne {B new p : Nat} (h : Heap K V) (hp : B ≤ p) (hne : p ≠ new)
    (c : Cell K V) : Keeps B new h (h.set p c) := by
  refine ⟨take_set_ge h hp c, ?_⟩
  intro nd hnd
  refine ⟨nd, ?_, fun c hc => hc⟩
  rw [readNode_set_ne hne]
  exact hnd

theorem keeps_set_self {B new : Nat} {h : Heap K V} (hB : B ≤ new) {nd : interiorNodeS K}
    (hnd : readNode h new = some nd) (nd2 : interiorNodeS K)
    (hsub : ∀ c ∈ nd.vals, c ∈ nd2.vals) : Keeps B new h (h.set new (Cell.node nd2)) := by
  refine ⟨take_set_ge h hB _, ?_⟩
  intro nd' hnd'
  rw [hnd] at hnd'
  cases hnd'
  exact ⟨nd2, readNode_set_self (readNode_lt hnd) nd2, hsub⟩

theorem interiorNodeS.stealLeft_inv {h h' : Heap K V} {a b : Nat}
    (H : interiorNodeS.stealLeft h a b = some h') :
    ∃ (X : Cell K V) (r : interiorNodeS K) (k : K) (s : Nat),
      readNode (h.set b X) a = some r ∧
      h' = (h.set b X).set a (Cell.node { r with keys := k :: r.keys, vals := s :: r.vals }) := by
  unfold interiorNodeS.stealLeft at H
  split at H
  · cases H
  · split at H
    · cases H
    · split at H
      · simp only at H
        split at H
        · cases H
        · split at H
          · cases H
          · next r hr =>
            split at H
            · cases H
              exact ⟨_, r, _, _, hr, rfl⟩
            · cases H
      · cases H

theorem interiorNodeS.stealRight_inv {h h' : Heap K V} {a b : Nat}
    (H : interiorNodeS.stealRight h a b = some h') :
    ∃ (X : Cell K V) (l : interiorNodeS K) (k : K) (s : Nat),
      readNode (h.set b X) a = some l ∧
      h' = (h.set b X).set a
        (Cell.node { l with keys := l.keys ++ [k], vals := l.vals ++ [s] }) := by
  unfold interiorNodeS.stealRight at H
  split at H
  · cases H
  · split at H
    · cases H
    · split at H
      · simp only at H
        split at H
        · cases H
        · split at H
          · cases H
          · next l hl =>
            split at H
            · cases H
              exact ⟨_, l, _, _, hl, rfl⟩
            · cases H
      · cases H

theorem interiorNodeS.mergeRight_inv {h h' : Heap K V} {a b : Nat}
    (H : interiorNodeS.mergeRight h a b = some h') :
    ∃ (l r : interiorNodeS K) (k : K), readNode h a = some l ∧ readNode h b = some r ∧
      h' = h.set a (Cell.node { l with keys := l.keys ++ k :: r.keys,
                                       vals := l.vals ++ r.vals }) := by
  unfold interiorNodeS.mergeRight at H
  split at H
  · cases H
  · split at H
    · next l r hl hr =>
      split at H
      · cases H
        exact ⟨l, r, _, hl, hr, rfl⟩
      · cases H
    · cases H

theorem interiorNodeS.stealLeft_keeps {h h' : Heap K V} {B a b : Nat} (ha : B ≤ a)
    (hb : B ≤ b) (hab : b ≠ a) (H : interiorNodeS.stealLeft h a b = some h') :
    Keeps B a h h' := by
  obtain ⟨X, r, k, s, hr, rfl⟩ := interiorNodeS.stealLeft_inv H
  exact (keeps_set_ne h hb hab X).trans_keeps
    (keeps_set_self ha hr _ (fun c hc => List.mem_cons_of_mem _ hc))

theorem interiorNodeS.stealRight_keeps {h h' : Heap K V} {B a b : Nat} (ha : B ≤ a)
    (hb : B ≤ b) (hab : b ≠ a) (H : interiorNodeS.stealRight h a b = some h') :
    Keeps B a h h' := by
  obtain ⟨X, l, k, s, hl, rfl⟩ := interiorNodeS.stealRight_inv H
  exact (keeps_set_ne h hb hab X).trans_keeps
    (keeps_set_self ha hl _ (fun c hc => List.mem_append_left _ hc))

theorem interiorNodeS.mergeRight_keeps {h h' : Heap K V} {B a b : Nat} (ha : B ≤ a)
    (H : interiorNodeS.mergeRight h a b = some h') : Keeps B a h h' := by
  obtain ⟨l, r, k, hl, hr, rfl⟩ := interiorNodeS.mergeRight_inv H
  exact keeps_set_self ha hl _ (fun c hc => List.mem_append_left _ hc)

/-- A merge moves what is below the right node to the left node. -/
theorem interiorNodeS.mergeRight_moves {h h' : Heap K V} {B a b x : Nat} (ha : B ≤ a)
    (top : Top B h b x) (H : interiorNodeS.mergeRight h a b = some h') :
    Top B h' a x ∧ h'.take B = h.take B := by
  obtain ⟨l, r, k, hl, hr, rfl⟩ := interiorNodeS.mergeRight_inv H
  obtain ⟨_, nd, c, hnd, hc, hx⟩ := top
  rw [hr] at hnd
  cases hnd
  refine ⟨⟨ha, _, c, readNode_set_self (readNode_lt hl) _, List.mem_append_right _ hc, ?_⟩,
    take_set_ge h ha _⟩
  rw [take_set_ge h ha]
  exact hx

theorem updNode_take {h h' : Heap K V} {q B : Nat} {f : interiorNodeS K → Option (interiorNodeS K)}
    (hq : B ≤ q) (hu : updNode h q f = some h') : h'.take B = h.take B := by
  obtain ⟨nd, nd', _, _, rfl⟩ := updNode_inv hu
  exact take_set_ge h hq _

theorem updNode_read {h h' : Heap K V} {q : Nat} {f : interiorNodeS K → Option (interiorNodeS K)}
    (hu : updNode h q f = some h') :
    ∃ nd nd', readNode h q = some nd ∧ f nd = some nd' ∧ readNode h' q = some nd' := by
  obtain ⟨nd, nd', hn, hf, rfl⟩ := updNode_inv hu
  exact ⟨nd, nd', hn, hf, readNode_set_self (readNode_lt hn) nd'⟩

theorem findDeadNode_idx {h : Heap K V} {dead : Nat} :
    ∀ (vs : List Nat) (i j : Nat), findDeadNode h dead i vs = some j →
      i ≤ j ∧ vs[j - i]? = some dead := by
  intro vs
  induction vs with
  | nil => intro i j H; cases H
  | cons c rest ih =>
    intro i j H
    rw [findDeadNode] at H
    split at H
    · cases H
    · obtain ⟨hle, hj⟩ := ih (i + 1) j H
      refine ⟨by omega, ?_⟩
      have : j - i = (j - (i + 1)) + 1 := by omega
      rw [this, List.getElem?_cons_succ]
      exact hj
    · split at H
      · next hd =>
        cases H
        simp [hd]
      · obtain ⟨hle, hj⟩ := ih (i + 1) j H
        refine ⟨by omega, ?_⟩
        have : j - i = (j - (i + 1)) + 1 := by omega
        rw [this, List.getElem?_cons_succ]
        exact hj

theorem findDeadLeaf_idx {h : Heap K V} {dead : Nat} :
    ∀ (vs : List Nat) (i j : Nat), findDeadLeaf h dead i vs = some j →
      i ≤ j ∧ vs[j - i]? = some dead := by
  intro vs
  induction vs with
  | nil => intro i j H; cases H
  | cons c rest ih =>
    intro i j H
    rw [findDeadLeaf] at H
    split at H
    · cases H
    · split at H
      · next hd =>
        cases H
        simp [hd]
      · obtain ⟨hle, hj⟩ := ih (i + 1) j H
        refine ⟨by omega, ?_⟩
        have : j - i = (j - (i + 1)) + 1 := by omega
        rw [this, List.getElem?_cons_succ]
        exact hj

theorem removeDeadAt_mem {nd nd' : interiorNodeS K} {j dead c : Nat}
    (H : removeDeadAt nd j = some nd') (hj : nd.vals[j]? = some dead) (hc : c ∈ nd.vals)
    (hne : dead ≠ c) : c ∈ nd'.vals := by
  unfold removeDeadAt at H
  split at H
  · cases H
  · split at H
    · cases H
      simp only
      obtain ⟨hjl, hje⟩ := List.getElem?_eq_some.1 hj
      have hsplit : nd.vals = nd.vals.take j ++ dead :: nd.vals.drop (j + 1) := by
        rw [← hje, ← List.drop_eq_getElem_cons hjl, List.take_append_drop]
      rw [hsplit] at hc
      simp only [List.mem_append, List.mem_cons] at hc ⊢
      rcases hc with hc | hc | hc
      · exact Or.inl hc
      · exact absurd hc.symm hne
      · exact Or.inr hc
    · cases H

theorem removeDeadNode_mem {h h' : Heap K V} {q dead c : Nat} (hne : dead ≠ c)
    (hu : removeDeadNode h q dead = some h') :
    ∃ nd nd', readNode h q = some nd ∧ readNode h' q = some nd' ∧
      (c ∈ nd.vals → c ∈ nd'.vals) := by
  unfold removeDeadNode at hu
  obtain ⟨nd, nd', hn, hf, hn'⟩ := updNode_read hu
  refine ⟨nd, nd', hn, hn', ?_⟩
  intro hc
  split at hf
  · cases hf
  · next j hj =>
    have := (findDeadNode_idx _ 0 j hj).2
    exact removeDeadAt_mem hf this hc hne

theorem removeDeadLeaf_mem {h h' : Heap K V} {q dead c : Nat} (hne : dead ≠ c)
    (hu : removeDeadLeaf h q dead = some h') :
    ∃ nd nd', readNode h q = some nd ∧ readNode h' q = some nd' ∧
      (c ∈ nd.vals → c ∈ nd'.vals) := by
  unfold removeDeadLeaf at hu
  obtain ⟨nd, nd', hn, hf, hn'⟩ := updNode_read hu
  refine ⟨nd, nd', hn, hn', ?_⟩
  intro hc
  split at hf
  · cases hf
  · next j hj =>
    have := (findDeadLeaf_idx _ 0 j hj).2
    exact removeDeadAt_mem hf this hc hne

theorem node_findPeerRightLoop_mem {h : Heap K V} {old : Nat} {parent : interiorNodeS K}
    {pr : Nat} {k : K} :
    ∀ (rest : List Nat) (i : Nat),
      interiorNodeS.findPeerRightLoop h old parent i rest = some (some (pr, k)) →
      pr ∈ parent.vals := by
  intro rest
  induction rest with
  | nil => intro i H; cases H
  | cons c rest ih =>
    intro i H
    rw [interiorNodeS.findPeerRightLoop] at H
    split at H
    · cases H
    · exact ih _ H
    · split at H
      · split at H
        · cases H
        · split at H
          · next peer key hp hk =>
            split at H
            · simp only [Option.some.injEq, Prod.mk.injEq] at H
              rw [← H.1]
              exact List.getElem?_mem hp
            · cases H
          · cases H
      · exact ih _ H

theorem LenRel.aligned {h : Heap K V} {q : Nat} {r : interiorNodeS K} (lr : LenRel h q r)
    (hral : r.vals.length = r.keys.length + 1) :
    ∀ nd, readNode h q = some nd → nd.vals.length = nd.keys.length + 1 := by
  intro nd hnd
  rcases lr with ⟨nd', hnd', hk, hv⟩ | ⟨⟨nd', hnd', hk, hv⟩, h1, h2⟩
  · rw [hnd] at hnd'
    cases hnd'
    omega
  · rw [hnd] at hnd'
    cases hnd'
    omega

end

section
variable {K V : Type} [LinearOrder K]

theorem Top.above {B : Nat} {h2 h6 : Heap K V} {new x q : Nat} {P : interiorNodeS K}
    (top : Top B h2 new x) (htake : h6.take h2.length = h2) (hP : readNode h6 q = some P)
    (hq : h2.length ≤ q) (hmem : new ∈ P.vals) : Top h2.length h6 q x := by
  refine ⟨hq, P, new, hP, hmem, ?_⟩
  rw [htake]
  exact top.inTree

theorem TrackRes.of_above {B : Nat} {h h2 h6 : Heap K V} {x : Nat}
    {res : Option (Heap K V × tree)} (tr : TrackRes h2.length h6 x res)
    (htake : h6.take h2.length = h2) (hB : B ≤ h2.length) (hk : h2.take B = h.take B) :
    TrackRes B h x res := by
  intro h' t' H
  obtain ⟨hin, htk⟩ := tr h' t' H
  refine ⟨hin, ?_⟩
  have := take_eq_of_take hB (htk.trans (htake.trans (List.take_length h2).symm))
  exact this.trans hk

/-- The steal-left block of `delUpFill` keeps what is below the new parent. -/
theorem fillStealLeft_track {h0 : Heap K V} {t : tree} {r : interiorNodeS K} {x : Nat}
    (hr : readNode h0 t.root = some r) (hral : r.vals.length = r.keys.length + 1)
    (path : pathT) {h : Heap K V} {B oldParent newParent gp peer : Nat} {key : K}
    (e : Ext h0 h) (hB : h0.length ≤ B) (top : Top B h newParent x) :
    TrackRes B h x (t.fillStealLeft h oldParent newParent gp peer key path) := by
  intro h' t' H
  obtain ⟨hnl, hBn⟩ := top.lt_length
  have hnew : h0.length ≤ newParent := by omega
  unfold tree.fillStealLeft at H
  simp only [Option.bind_eq_bind, Option.bind_eq_some] at H
  obtain ⟨⟨h1, np⟩, hc1, h2, hs, ⟨h3, ngp⟩, hc3, nk, _, h4, hu4, h5, hu5, h6, hu6, H⟩ := H
  dsimp only at hs hc3 hu4 hu5 hu6 H
  obtain ⟨e1, hnp, _⟩ := copy_keep e hc1
  have e2 := interiorNodeS.stealLeft_ext e1 hnew hnp hs
  obtain ⟨e3, hngp, hlen⟩ := copy_keep e2 hc3
  obtain ⟨e4, hk4⟩ := updNode_keep e3 hngp hu4 (fun _ _ => swapKey_len)
  obtain ⟨e5, hk5⟩ := updNode_keep e4 hngp hu5 (fun _ _ => swapInteriorNode_len)
  obtain ⟨e6, hk6⟩ := updNode_keep e5 hngp hu6 (fun _ _ => swapInteriorNode_len)
  obtain ⟨l, _, rfl, rfl⟩ := interiorNodeS.copy_inv hc1
  have k1 : Keeps B newParent h (h ++ [Cell.node l]) := keeps_append h _ (by omega)
  have k2 : Keeps B newParent (h ++ [Cell.node l]) h2 :=
    interiorNodeS.stealLeft_keeps hBn (by omega) (by omega) hs
  have k12 := k1.trans_keeps k2
  have top2 := top.keeps k12
  obtain ⟨P, _, rfl, rfl⟩ := interiorNodeS.copy_inv hc3
  obtain ⟨_, P6, _, hsw, hP6⟩ := updNode_read hu6
  have htake : h6.take h2.length = h2 := by
    rw [updNode_take (Nat.le_refl _) hu6, updNode_take (Nat.le_refl _) hu5,
      updNode_take (Nat.le_refl _) hu4, take_append_le _ _ (Nat.le_refl _), List.take_length]
  have top6 := top2.above htake hP6 (Nat.le_refl _) (swapInteriorNode_mem hsw)
  have hrt := readNode_lt hr
  have hr6 : readNode h6 t.root = some r := by rw [e6.2.readNode hrt]; exact hr
  have h2l := e2.1
  have hal : gp = t.root → ∀ nd, readNode h6 h2.length = some nd →
      nd.vals.length = nd.keys.length + 1 := by
    intro hp
    rw [hp] at hlen
    exact LenRel.aligned (Or.inl (hk6 _ _ (hk5 _ _ (hk4 _ _ (hlen r hr))))) hral
  have tr := copyUp_track hral path hr6 (by omega) top6 hal
  exact (tr.of_above htake (by have := top2.lt_length; omega) k12.1) h' t' H

/-- The steal-right block of `delUpFill` keeps what is below the new parent. -/
theorem fillStealRight_track {h0 : Heap K V} {t : tree} {r : interiorNodeS K} {x : Nat}
    (hr : readNode h0 t.root = some r) (hral : r.vals.length = r.keys.length + 1)
    (path : pathT) {h : Heap K V} {B oldParent newParent gp peer : Nat} {key : K}
    (e : Ext h0 h) (hB : h0.length ≤ B) (top : Top B h newParent x) :
    TrackRes B h x (t.fillStealRight h oldParent newParent gp peer key path) := by
  intro h' t' H
  obtain ⟨hnl, hBn⟩ := top.lt_length
  have hnew : h0.length ≤ newParent := by omega
  unfold tree.fillStealRight at H
  simp only [Option.bind_eq_bind, Option.bind_eq_some] at H
  obtain ⟨⟨h1, np⟩, hc1, h2, hs, ⟨h3, ngp⟩, hc3, nk, _, h4, hu4, h5, hu5, h6, hu6, H⟩ := H
  dsimp only at hs hc3 hu4 hu5 hu6 H
  obtain ⟨e1, hnp, _⟩ := copy_keep e hc1
  have e2 := interiorNodeS.stealRight_ext e1 hnew hnp hs
  obtain ⟨e3, hngp, hlen⟩ := copy_keep e2 hc3
  obtain ⟨e4, hk4⟩ := updNode_keep e3 hngp hu4 (fun _ _ => swapKey_len)
  obtain ⟨e5, hk5⟩ := updNode_keep e4 hngp hu5 (fun _ _ => swapInteriorNode_len)
  obtain ⟨e6, hk6⟩ := updNode_keep e5 hngp hu6 (fun _ _ => swapInteriorNode_len)
  obtain ⟨l, _, rfl, rfl⟩ := interiorNodeS.copy_inv hc1
  have k1 : Keeps B newParent h (h ++ [Cell.node l]) := keeps_append h _ (by omega)
  have k2 : Keeps B newParent (h ++ [Cell.node l]) h2 :=
    interiorNodeS.stealRight_keeps hBn (by omega) (by omega) hs
  have k12 := k1.trans_keeps k2
  have top2 := top.keeps k12
  obtain ⟨P, _, rfl, rfl⟩ := interiorNodeS.copy_inv hc3
  obtain ⟨_, P6, _, hsw, hP6⟩ := updNode_read hu6
  have htake : h6.take h2.length = h2 := by
    rw [updNode_take (Nat.le_refl _) hu6, updNode_take (Nat.le_refl _) hu5,
      updNode_take (Nat.le_refl _) hu4, take_append_le _ _ (Nat.le_refl _), List.take_length]
  have top6 := top2.above htake hP6 (Nat.le_refl _) (swapInteriorNode_mem hsw)
  have hrt := readNode_lt hr
  have hr6 : readNode h6 t.root = some r := by rw [e6.2.readNode hrt]; exact hr
  have h2l := e2.1
  have hal : gp = t.root → ∀ nd, readNode h6 h2.length = some nd →
      nd.vals.length = nd.keys.length + 1 := by
    intro hp
    rw [hp] at hlen
    exact LenRel.aligned (Or.inl (hk6 _ _ (hk5 _ _ (hk4 _ _ (hlen r hr))))) hral
  have tr := copyUp_track hral path hr6 (by omega) top6 hal
  exact (tr.of_above htake (by have := top2.lt_length; omega) k12.1) h' t' H

/-- The merge block of `delUpFill` moves what is below the new parent to the
merged node, which is not the dead node. -/
theorem fillMerge_track {h h2 : Heap K V} {B oldParent newParent om nm dn x : Nat}
    {left right : Option (Nat × K)} (top : Top B h newParent x) (hop : oldParent < h.length)
    (hright : ∀ pr k, right = some (pr, k) → pr < B)
    (H : fillMerge h oldParent newParent left right = some (h2, om, nm, dn)) :
    Top B h2 nm x ∧ h2.take B = h.take B ∧ dn ≠ nm := by
  obtain ⟨hnl, hBn⟩ := top.lt_length
  unfold fillMerge at H
  split at H
  · simp only [Option.bind_eq_bind, Option.bind_eq_some] at H
    obtain ⟨⟨h1, q⟩, hc, h3, hm, H⟩ := H
    dsimp only at hm H
    simp only [Option.some.injEq, Prod.mk.injEq] at H
    obtain ⟨rfl, _, rfl, rfl⟩ := H
    obtain ⟨l, _, rfl, rfl⟩ := interiorNodeS.copy_inv hc
    have k1 : Keeps B newParent h (h ++ [Cell.node l]) := keeps_append h _ (by omega)
    obtain ⟨t2, tk⟩ := interiorNodeS.mergeRight_moves (by omega : B ≤ h.length)
      (top.keeps k1) hm
    exact ⟨t2, tk.trans k1.1, by omega⟩
  · next pr pk =>
    simp only [Option.bind_eq_bind, Option.bind_eq_some] at H
    obtain ⟨h3, hm, H⟩ := H
    simp only [Option.some.injEq, Prod.mk.injEq] at H
    obtain ⟨rfl, _, rfl, rfl⟩ := H
    have k := interiorNodeS.mergeRight_keeps hBn hm
    have := hright _ _ rfl
    exact ⟨top.keeps k, k.1, by omega⟩
  · cases H

/-- The method `copyUp` keeps the new node it is given, when that node has a
separator. -/
theorem copyUp_top {t : tree} {r nd : interiorNodeS K}
    (hral : r.vals.length = r.keys.length + 1) (path : pathT) {h : Heap K V} {old new : Nat}
    (hr : readNode h t.root = some r) (hnd : readNode h new = some nd)
    (hk : nd.keys.length ≠ 0) {h' : Heap K V} {t' : tree}
    (H : t.copyUp h old new path = some (h', t')) :
    InTree h' t'.root new ∧ h'.take h.length = h := by
  cases path with
  | nil =>
    rw [tree.copyUp] at H
    simp only [Option.bind_eq_bind, Option.bind_eq_some] at H
    obtain ⟨b, hb, H⟩ := H
    cases b with
    | false => simp at H
    | true =>
      simp only [if_true, Option.bind_eq_some, Option.some.injEq, Prod.mk.injEq] at H
      obtain ⟨t1, hs, rfl, rfl⟩ := H
      unfold tree.setRootNode at hs
      rw [hnd] at hs
      simp only [if_neg hk, Option.some.injEq] at hs
      rw [← hs]
      exact ⟨InTree.self _, List.take_length h⟩
  | cons p path =>
    rw [tree.copyUp] at H
    simp only [Option.bind_eq_bind, Option.bind_eq_some] at H
    obtain ⟨⟨h1, q⟩, hc, h2, hu, H⟩ := H
    dsimp only at hu H
    obtain ⟨P, hP, rfl, rfl⟩ := interiorNodeS.copy_inv hc
    obtain ⟨P1, P2, hP1, hsw, hP2⟩ := updNode_read hu
    rw [readNode_append_self] at hP1
    cases hP1
    have htake : h2.take h.length = h := by
      rw [updNode_take (Nat.le_refl _) hu, take_append_le _ _ (Nat.le_refl _), List.take_length]
    have hrt := readNode_lt hr
    have hr2 : readNode h2 t.root = some r := by
      have : readNode (h2.take h.length) t.root = some r := by rw [htake]; exact hr
      exact readNode_of_take this
    have top2 : Top h.length h2 h.length new := by
      refine ⟨Nat.le_refl _, P2, new, hP2, swapInteriorNode_mem hsw, ?_⟩
      rw [htake]
      exact InTree.self _
    have hal : p = t.root → ∀ nd, readNode h2 h.length = some nd →
        nd.vals.length = nd.keys.length + 1 := by
      intro hp nd' hnd'
      rw [hP2] at hnd'
      cases hnd'
      rw [hp, hr] at hP
      cases hP
      have := swapInteriorNode_len hsw
      omega
    have tr := copyUp_track hral path hr2 hrt top2 hal
    obtain ⟨hin, htk⟩ := tr h' t' H
    exact ⟨hin, htk.trans htake⟩

end

section
variable {K V : Type} [LinearOrder K]

theorem node_peerRight_lt {h : Heap K V} {old B : Nat} {parent : interiorNodeS K}
    {right : Option (Nat × K)} (hc : ∀ c ∈ parent.vals, c < B)
    (H : interiorNodeS.findPeerRight h old parent = some right) :
    ∀ pr k, right = some (pr, k) → pr < B := by
  intro pr k hpk
  rw [hpk] at H
  exact hc pr (node_findPeerRightLoop_mem _ _ H)

/-- The part of `delUpLeaf` and `delUp` after the removal of the dead child keeps
what is below the new parent.  The nodes of the path and their children are
cells of the heap `h0` the deletion started from. -/
theorem delUpFill_track {h0 : Heap K V} {t : tree} {r : interiorNodeS K} {x : Nat}
    (hr : readNode h0 t.root = some r) (hral : r.vals.length = r.keys.length + 1)
    (path : pathT) :
    ∀ {h : Heap K V} {B oldParent newParent : Nat}, Ext h0 h → h0.length ≤ B →
      oldParent < h0.length →
      (∀ q ∈ path, q < h0.length ∧
        ∀ nd, readNode h0 q = some nd → ∀ c ∈ nd.vals, c < h0.length) →
      Top B h newParent x → (oldParent = t.root → LenRel h newParent r) →
      TrackRes B h x (t.delUpFill h oldParent newParent path) := by
  induction path with
  | nil =>
    intro h B op np e hB hop hold top hrel h' t' H
    have hrt := readNode_lt hr
    have hrh : readNode h t.root = some r := by rw [e.2.readNode hrt]; exact hr
    rw [tree.delUpFill] at H
    split at H
    · next hb =>
      split at H
      · next t1 hs =>
        cases H
        exact ⟨setRootNode_track top ((hrel (isRoot_eq hb).symm).aligned hral) hs, rfl⟩
      · cases H
    · split at H
      · cases H
      · split at H
        · cases H
        · exact copyUp_track hral [] hrh (by omega) top
            (fun hp => (hrel hp).aligned hral) h' t' H
    · cases H
  | cons gp path ih =>
    intro h B op np e hB hop hold top hrel h' t' H
    have hrt := readNode_lt hr
    have hrh : readNode h t.root = some r := by rw [e.2.readNode hrt]; exact hr
    obtain ⟨hgp, hgpc⟩ := hold gp (List.mem_cons_self _ _)
    rw [tree.delUpFill] at H
    split at H
    · cases H
    · split at H
      · cases H
      · split at H
        · split at H
          · cases H
          · next gpn hgpn =>
            split at H
            · cases H
            · split at H
              · cases H
              · exact fillStealLeft_track hr hral path e hB top h' t' H
              · cases H
              · split at H
                · cases H
                · next hright =>
                  split at H
                  · cases H
                  · exact fillStealRight_track hr hral path e hB top h' t' H
                  · cases H
                  · split at H
                    · cases H
                    · next h2 om nm dn hfm =>
                      split at H
                      · cases H
                      · next h3 ngp hc =>
                        split at H
                        · cases H
                        · next h4 hu4 =>
                          split at H
                          · cases H
                          · next h5 hu5 =>
                            have hnew : h0.length ≤ np := by
                              have := top.lt_length
                              omega
                            have e2 := fillMerge_ext e hnew hfm
                            obtain ⟨e3, hngp, hlen⟩ := copy_keep e2 hc
                            obtain ⟨e4, hk4⟩ :=
                              updNode_keep e3 hngp hu4 (fun _ _ => swapInteriorNode_len)
                            obtain ⟨e5, hk5⟩ := removeDeadNode_drop e4 hngp hu5
                            have hgp0 : readNode h0 gp = some gpn := by
                              rw [← e.2.readNode hgp]
                              exact hgpn
                            have hrb := node_peerRight_lt
                              (fun c hc => Nat.lt_of_lt_of_le (hgpc gpn hgp0 c hc) hB) hright
                            obtain ⟨top2, tk2, hdn⟩ :=
                              fillMerge_track top (by have := e.1; omega) hrb hfm
                            obtain ⟨P, _, rfl, rfl⟩ := interiorNodeS.copy_inv hc
                            obtain ⟨_, P4, hP3, hsw, hP4⟩ := updNode_read hu4
                            obtain ⟨P4', P5, hP4', hP5, hmem⟩ :=
                              removeDeadNode_mem (c := nm) hdn hu5
                            rw [hP4] at hP4'
                            cases hP4'
                            have htake : h5.take h2.length = h2 := by
                              unfold removeDeadNode at hu5
                              rw [updNode_take (Nat.le_refl _) hu5,
                                updNode_take (Nat.le_refl _) hu4,
                                take_append_le _ _ (Nat.le_refl _), List.take_length]
                            have top5 := top2.above htake hP5 (Nat.le_refl _)
                              (hmem (swapInteriorNode_mem hsw))
                            have tr := ih e5 e2.1 hgp
                              (fun q hq => hold q (List.mem_cons_of_mem _ hq)) top5 (by
                                intro hp
                                rw [hp] at hlen
                                exact Or.inr (hk5 _ _ (hk4 _ _ (hlen r hr))))
                            exact (tr.of_above htake (by have := top2.lt_length; omega)
                              tk2) h' t' H
        · exact copyUp_track hral (gp :: path) hrh (by omega) top
            (fun hp => (hrel hp).aligned hral) h' t' H
    · cases H

/-- The method `delUpLeaf` keeps the merged leaf and every cell of the heap it
starts from. -/
theorem delUpLeaf_track {h0 : Heap K V} {t : tree} {r : interiorNodeS K}
    (hr : readNode h0 t.root = some r) (hral : r.vals.length = r.keys.length + 1)
    (path : pathT) {h : Heap K V} {oldParent om nm dead : Nat} (e : Ext h0 h)
    (hold : ∀ q ∈ oldParent :: path, q < h0.length ∧
      ∀ nd, readNode h0 q = some nd → ∀ c ∈ nd.vals, c < h0.length)
    (hne : dead ≠ nm) {h' : Heap K V} {t' : tree}
    (H : t.delUpLeaf h oldParent om nm dead path = some (h', t')) :
    InTree h' t'.root nm ∧ h'.take h.length = h := by
  unfold tree.delUpLeaf at H
  simp only [Option.bind_eq_bind, Option.bind_eq_some] at H
  obtain ⟨⟨h1, np⟩, hc, h2, hu2, h3, hu3, H⟩ := H
  dsimp only at hu2 hu3 H
  obtain ⟨e1, hnp, hlen⟩ := copy_keep e hc
  obtain ⟨e2, hk2⟩ := updNode_keep e1 hnp hu2 (fun _ _ => swapLeafNode_len)
  obtain ⟨e3, hk3⟩ := removeDeadLeaf_drop e2 hnp hu3
  obtain ⟨P, _, rfl, rfl⟩ := interiorNodeS.copy_inv hc
  obtain ⟨_, P2, _, hsw, hP2⟩ := updNode_read hu2
  obtain ⟨P2', P3, hP2', hP3, hmem⟩ := removeDeadLeaf_mem (c := nm) hne hu3
  rw [hP2] at hP2'
  cases hP2'
  have htake : h3.take h.length = h := by
    unfold removeDeadLeaf at hu3
    rw [updNode_take (Nat.le_refl _) hu3, updNode_take (Nat.le_refl _) hu2,
      take_append_le _ _ (Nat.le_refl _), List.take_length]
  have top3 : Top h.length h3 h.length nm := by
    refine ⟨Nat.le_refl _, P3, nm, hP3, hmem (swapLeafNode_mem hsw), InTree.self _⟩
  have tr := delUpFill_track hr hral path e3 e.1 (hold oldParent (List.mem_cons_self _ _)).1
    (fun q hq => hold q (List.mem_cons_of_mem _ hq)) top3 (by
      intro hp
      rw [hp] at hlen
      exact Or.inr (hk3 _ _ (hk2 _ _ (hlen r hr))))
  obtain ⟨hin, htk⟩ := tr h' t' H
  exact ⟨hin, htk.trans htake⟩

end

section
variable {K V : Type} [LinearOrder K]

/-! ## The blocks of `delFill`, evaluated -/

theorem leaf_stealLeft_eq {h : Heap K V} {a b : Nat} {d o : leafNodeS K V} {sk : K} {sv : V}
    (hab : a ≠ b) (hd : readLeaf h a = some d) (ho : readLeaf h b = some o)
    (hk : o.keys[o.keys.length - 1]? = some sk) (hv : o.vals[o.vals.length - 1]? = some sv)
    (hroom : d.keys.length < d.cap ∧ d.vals.length < d.cap) :
    leafNodeS.stealLeft h a b = some
      ((h.set b (Cell.leaf ⟨o.cap, o.keys.take (o.keys.length - 1),
          o.vals.take (o.vals.length - 1)⟩)).set a
        (Cell.leaf ⟨d.cap, sk :: d.keys, sv :: d.vals⟩)) := by
  have hd1 : ∀ c : Cell K V, readLeaf (h.set b c) a = some d := by
    intro c
    rw [readLeaf_set_ne (Ne.symm hab)]
    exact hd
  unfold leafNodeS.stealLeft
  simp only [ho, hk, hv, hd1]
  rw [if_pos hroom]

theorem leaf_stealRight_eq {h : Heap K V} {a b : Nat} {d o : leafNodeS K V} {sk : K} {sv : V}
    (hab : a ≠ b) (hd : readLeaf h a = some d) (ho : readLeaf h b = some o)
    (hk : o.keys[0]? = some sk) (hv : o.vals[0]? = some sv)
    (hroom : d.keys.length < d.cap ∧ d.vals.length < d.cap) :
    leafNodeS.stealRight h a b = some
      ((h.set b (Cell.leaf ⟨o.cap, o.keys.drop 1, o.vals.drop 1⟩)).set a
        (Cell.leaf ⟨d.cap, d.keys ++ [sk], d.vals ++ [sv]⟩)) := by
  have hd1 : ∀ c : Cell K V, readLeaf (h.set b c) a = some d := by
    intro c
    rw [readLeaf_set_ne (Ne.symm hab)]
    exact hd
  unfold leafNodeS.stealRight
  simp only [ho, hk, hv, hd1]
  rw [if_pos hroom]

theorem leaf_mergeRight_eq {h : Heap K V} {a b : Nat} {l r : leafNodeS K V}
    (hl : readLeaf h a = some l) (hr : readLeaf h b = some r)
    (hroom : l.keys.length + r.keys.length ≤ l.cap ∧ l.vals.length + r.vals.length ≤ l.cap) :
    leafNodeS.mergeRight h a b = some
      (h.set a (Cell.leaf ⟨l.cap, l.keys ++ r.keys, l.vals ++ r.vals⟩)) := by
  unfold leafNodeS.mergeRight
  simp only [hl, hr]
  rw [if_pos hroom]

/-- The heap after a fresh copy was appended and rewritten and the cell at `n`
was rewritten: the other cells of `h` are as before. -/
theorem patch_get (h : Heap K V) (c1 c2 : Cell K V) {n : Nat} :
    ∀ c, c ≠ n → c < h.length → ((h ++ [c1]).set n c2)[c]? = h[c]? := by
  intro c hc hlt
  rw [List.getElem?_set_ne (Ne.symm hc), List.getElem?_append_left hlt]

theorem patch_readLeaf (h : Heap K V) (c1 c2 : Cell K V) {n c : Nat} (hc : c ≠ n)
    (hlt : c < h.length) : readLeaf ((h ++ [c1]).set n c2) c = readLeaf h c := by
  unfold readLeaf
  rw [patch_get h c1 c2 c hc hlt]

theorem patch_readNode (h : Heap K V) (c1 c2 : Cell K V) {n c : Nat} (hc : c ≠ n)
    (hlt : c < h.length) : readNode ((h ++ [c1]).set n c2) c = readNode h c := by
  unfold readNode
  rw [patch_get h c1 c2 c hc hlt]

theorem patch_last (h : Heap K V) (l : leafNodeS K V) (c2 : Cell K V) {n : Nat}
    (hn : n < h.length) : readLeaf ((h ++ [Cell.leaf l]).set n c2) h.length = some l := by
  rw [readLeaf_set_ne (by omega)]
  exact readLeaf_append_self h l

theorem patch_self (h : Heap K V) (c1 : Cell K V) (l : leafNodeS K V) {n : Nat}
    (hn : n < h.length) : readLeaf ((h ++ [c1]).set n (Cell.leaf l)) n = some l :=
  readLeaf_set_self (by simp; omega) l

theorem readNode_readLeaf_ne {h : Heap K V} {p q : Nat} {n : interiorNodeS K}
    {l : leafNodeS K V} (hn : readNode h p = some n) (hl : readLeaf h q = some l) : p ≠ q := by
  intro hpq
  rw [hpq, readNode_eq_some] at hn
  rw [readLeaf_eq_some, hn] at hl
  cases hl

/-- The part of `Del` for a too small leaf, when the left sibling can donate: the
left sibling is copied, its last entry moves to the front of the new leaf, a
copy of the parent gets the new separator and the two new leaves, and the
path above is copied. -/
theorem delFill_stealLeft_eq {m : Nat} {h : Heap K V} (t : tree)
    {leaf newLeaf p j a : Nat} (rest : pathT) {pn : interiorNodeS K} {L D : leafNodeS K V}
    {lo hi : Option K} {kl sk : K} {sv : V}
    (hpn : readNode h p = some pn) (hall : ∀ c ∈ pn.vals, ∃ l, readLeaf h c = some l)
    (hlen : pn.vals.length = pn.keys.length + 1) (hnd : pn.vals.Nodup)
    (hfr : ∀ c ∈ pn.vals, c < newLeaf) (sep : SepOK lo hi pn.keys)
    (hD : readLeaf h newLeaf = some D)
    (hiL : pn.vals[j]? = some a) (hiP : pn.vals[j + 1]? = some leaf)
    (hkl : pn.keys[j]? = some kl)
    (hL : readLeaf h a = some L) (hcapL : L.cap = m) (hcan : m / 2 < L.vals.length)
    (hsk : L.keys[L.keys.length - 1]? = some sk) (hsv : L.vals[L.vals.length - 1]? = some sv)
    (hroom : D.keys.length < D.cap ∧ D.vals.length < D.cap) :
    t.delFill h leaf newLeaf p rest =
      t.copyUp
        ((h ++ [Cell.leaf ⟨L.cap, L.keys.take (L.keys.length - 1),
            L.vals.take (L.vals.length - 1)⟩]).set newLeaf
          (Cell.leaf ⟨D.cap, sk :: D.keys, sv :: D.vals⟩) ++
          [Cell.node ⟨pn.cap, pn.keys.set j sk, (pn.vals.set j h.length).set (j + 1) newLeaf⟩])
        p (h.length + 1) rest := by
  have hnl := readLeaf_lt hD
  have hpl := readNode_lt hpn
  have hpne : p ≠ newLeaf := readNode_readLeaf_ne hpn hD
  have hjk : j < pn.keys.length := (List.getElem?_eq_some.1 hkl).1
  generalize hh4 : (h ++ [Cell.leaf (⟨L.cap, L.keys.take (L.keys.length - 1),
      L.vals.take (L.vals.length - 1)⟩ : leafNodeS K V)]).set newLeaf
        (Cell.leaf ⟨D.cap, sk :: D.keys, sv :: D.vals⟩) = h4
  have h4len : h4.length = h.length + 1 := by rw [← hh4]; simp
  have hsteal : leafNodeS.stealLeft (h ++ [Cell.leaf L]) newLeaf h.length = some h4 := by
    rw [leaf_stealLeft_eq (by omega : newLeaf ≠ h.length)
      (by rw [(Agree.append h _ (Nat.le_refl _)).readLeaf hnl]; exact hD)
      (readLeaf_append_self h L) hsk hsv hroom, set_append_self, hh4]
  have hn4 : readNode h4 p = some pn := by
    rw [← hh4, patch_readNode h _ _ hpne hpl]
    exact hpn
  have hD4 : ∀ x : Cell K V, readLeaf (h4 ++ [x]) newLeaf =
      some ⟨D.cap, sk :: D.keys, sv :: D.vals⟩ := by
    intro x
    rw [(Agree.append h4 [x] (Nat.le_refl _)).readLeaf (by omega), ← hh4]
    exact patch_self h _ _ hnl
  have hS : (⟨D.cap, sk :: D.keys, sv :: D.vals⟩ : leafNodeS K V).findLeftMostKey = some sk := by
    simp [leafNodeS.findLeftMostKey]
  have hallg : ∀ (x : Cell K V), ∀ c ∈ pn.vals, ∃ l, readLeaf (h4 ++ [x]) c = some l := by
    intro x c hc
    obtain ⟨l, hl⟩ := hall c hc
    have hcl := readLeaf_lt hl
    have hcn := hfr c hc
    refine ⟨l, ?_⟩
    rw [(Agree.append h4 [x] (Nat.le_refl _)).readLeaf (by omega), ← hh4,
      patch_readLeaf h _ _ (by omega) hcl]
    exact hl
  have hnewL : ∀ (x : Cell K V), ∃ l, readLeaf (h4 ++ [x]) h.length = some l := by
    intro x
    refine ⟨⟨L.cap, L.keys.take (L.keys.length - 1), L.vals.take (L.vals.length - 1)⟩, ?_⟩
    rw [(Agree.append h4 [x] (Nat.le_refl _)).readLeaf (by omega), ← hh4]
    exact patch_last h _ _ hnl
  have hfa : h.length ∉ pn.vals := fun hmem => by have := hfr _ hmem; omega
  have hk1 : pn.swapKey kl sk = some ⟨pn.cap, pn.keys.set j sk, pn.vals⟩ := by
    rw [swapKey_spec sk sep hkl, set_eq_mid hjk]
  have hs1 : (⟨pn.cap, pn.keys.set j sk, pn.vals⟩ : interiorNodeS K).swapLeafNode
      (h4 ++ [Cell.node ⟨pn.cap, pn.keys.set j sk, pn.vals⟩]) a h.length =
      some ⟨pn.cap, pn.keys.set j sk, pn.vals.set j h.length⟩ := by
    simp only [interiorNodeS.swapLeafNode, swapLeafVals_spec (hallg _) hiL hnd]
  have hs2 : (⟨pn.cap, pn.keys.set j sk, pn.vals.set j h.length⟩ :
      interiorNodeS K).swapLeafNode
      (h4 ++ [Cell.node ⟨pn.cap, pn.keys.set j sk, pn.vals.set j h.length⟩]) leaf newLeaf =
      some ⟨pn.cap, pn.keys.set j sk, (pn.vals.set j h.length).set (j + 1) newLeaf⟩ := by
    have hall2 : ∀ c ∈ pn.vals.set j h.length, ∃ l, readLeaf (h4 ++
        [Cell.node ⟨pn.cap, pn.keys.set j sk, pn.vals.set j h.length⟩]) c = some l := by
      intro c hc
      rcases mem_set_cases hc with hc | rfl
      · exact hallg _ c hc
      · exact hnewL _
    simp only [interiorNodeS.swapLeafNode,
      swapLeafVals_spec hall2 ((getElem?_set_succ _ _ _).trans hiP) (nodup_set hnd hfa j)]
  have u1 := updNode_fresh (h := h4) (n := pn) (f := fun n0 => n0.swapKey kl sk) hk1
  have u2 := updNode_fresh (h := h4) (n := ⟨pn.cap, pn.keys.set j sk, pn.vals⟩)
    (f := fun n0 => n0.swapLeafNode (h4 ++ [Cell.node ⟨pn.cap, pn.keys.set j sk, pn.vals⟩])
      a h.length) hs1
  have u3 := updNode_fresh (h := h4)
    (n := ⟨pn.cap, pn.keys.set j sk, pn.vals.set j h.length⟩)
    (f := fun n0 => n0.swapLeafNode
      (h4 ++ [Cell.node ⟨pn.cap, pn.keys.set j sk, pn.vals.set j h.length⟩]) leaf newLeaf) hs2
  rw [h4len] at u1 u2 u3
  unfold tree.delFill
  simp only [hpn, leaf_findPeerLeft_eq hall hlen hnd hiP, if_neg (Nat.succ_ne_zero j),
    peerLeftAt_succ hiL hkl, leaf_canSteal_eq kl hL hcapL, hcan, decide_True]
  unfold tree.delStealLeft
  simp only [leafNodeS.copy_leaf_eq hL, Option.bind_eq_bind, Option.some_bind, hsteal,
    interiorNodeS.copy_eq hn4, hD4, hS, h4len, u1, u2, u3]

end

section
variable {K V : Type} [LinearOrder K]

/-- The part of `Del` for a too small leaf, when the left sibling cannot donate
and the right sibling can: the right sibling is copied, its first entry moves
to the end of the new leaf, a copy of the parent gets the new separator and the
two new leaves, and the path above is copied. -/
theorem delFill_stealRight_eq {m : Nat} {h : Heap K V} (t : tree)
    {leaf newLeaf p i b : Nat} (rest : pathT) {pn : interiorNodeS K} {R D : leafNodeS K V}
    {lo hi : Option K} {kr sk nk : K} {sv : V}
    (hpn : readNode h p = some pn) (hall : ∀ c ∈ pn.vals, ∃ l, readLeaf h c = some l)
    (hlen : pn.vals.length = pn.keys.length + 1) (hnd : pn.vals.Nodup)
    (hfr : ∀ c ∈ pn.vals, c < newLeaf) (sep : SepOK lo hi pn.keys)
    (hD : readLeaf h newLeaf = some D)
    (hiP : pn.vals[i]? = some leaf) (hiR : pn.vals[i + 1]? = some b)
    (hkr : pn.keys[i]? = some kr)
    (hleft : leafNodeS.canSteal h (if i = 0 then none else peerLeftAt pn i) = some false)
    (hR : readLeaf h b = some R) (hcapR : R.cap = m) (hcan : m / 2 < R.vals.length)
    (hsk : R.keys[0]? = some sk) (hsv : R.vals[0]? = some sv) (hnk : R.keys[1]? = some nk)
    (hroom : D.keys.length < D.cap ∧ D.vals.length < D.cap) :
    t.delFill h leaf newLeaf p rest =
      t.copyUp
        ((h ++ [Cell.leaf ⟨R.cap, R.keys.drop 1, R.vals.drop 1⟩]).set newLeaf
          (Cell.leaf ⟨D.cap, D.keys ++ [sk], D.vals ++ [sv]⟩) ++
          [Cell.node ⟨pn.cap, pn.keys.set i nk, (pn.vals.set (i + 1) h.length).set i newLeaf⟩])
        p (h.length + 1) rest := by
  have hnl := readLeaf_lt hD
  have hpl := readNode_lt hpn
  have hpne : p ≠ newLeaf := readNode_readLeaf_ne hpn hD
  have hik : i < pn.keys.length := (List.getElem?_eq_some.1 hkr).1
  generalize hh4 : (h ++ [Cell.leaf (⟨R.cap, R.keys.drop 1, R.vals.drop 1⟩ :
      leafNodeS K V)]).set newLeaf (Cell.leaf ⟨D.cap, D.keys ++ [sk], D.vals ++ [sv]⟩) = h4
  have h4len : h4.length = h.length + 1 := by rw [← hh4]; simp
  have hsteal : leafNodeS.stealRight (h ++ [Cell.leaf R]) newLeaf h.length = some h4 := by
    rw [leaf_stealRight_eq (by omega : newLeaf ≠ h.length)
      (by rw [(Agree.append h _ (Nat.le_refl _)).readLeaf hnl]; exact hD)
      (readLeaf_append_self h R) hsk hsv hroom, set_append_self, hh4]
  have hn4 : readNode h4 p = some pn := by
    rw [← hh4, patch_readNode h _ _ hpne hpl]
    exact hpn
  have hR4 : ∀ x : Cell K V, readLeaf (h4 ++ [x]) h.length =
      some ⟨R.cap, R.keys.drop 1, R.vals.drop 1⟩ := by
    intro x
    rw [(Agree.append h4 [x] (Nat.le_refl _)).readLeaf (by omega), ← hh4]
    exact patch_last h _ _ hnl
  have hD4 : ∀ x : Cell K V, ∃ l, readLeaf (h4 ++ [x]) newLeaf = some l := by
    intro x
    refine ⟨⟨D.cap, D.keys ++ [sk], D.vals ++ [sv]⟩, ?_⟩
    rw [(Agree.append h4 [x] (Nat.le_refl _)).readLeaf (by omega), ← hh4]
    exact patch_self h _ _ hnl
  have hS : (⟨R.cap, R.keys.drop 1, R.vals.drop 1⟩ : leafNodeS K V).findLeftMostKey =
      some nk := by
    simp only [leafNodeS.findLeftMostKey, List.getElem?_drop]
    exact hnk
  have hallg : ∀ (x : Cell K V), ∀ c ∈ pn.vals, ∃ l, readLeaf (h4 ++ [x]) c = some l := by
    intro x c hc
    obtain ⟨l, hl⟩ := hall c hc
    have hcl := readLeaf_lt hl
    have hcn := hfr c hc
    refine ⟨l, ?_⟩
    rw [(Agree.append h4 [x] (Nat.le_refl _)).readLeaf (by omega), ← hh4,
      patch_readLeaf h _ _ (by omega) hcl]
    exact hl
  have hfa : h.length ∉ pn.vals := fun hmem => by have := hfr _ hmem; omega
  have hk1 : pn.swapKey kr nk = some ⟨pn.cap, pn.keys.set i nk, pn.vals⟩ := by
    rw [swapKey_spec nk sep hkr, set_eq_mid hik]
  have hs1 : (⟨pn.cap, pn.keys.set i nk, pn.vals⟩ : interiorNodeS K).swapLeafNode
      (h4 ++ [Cell.node ⟨pn.cap, pn.keys.set i nk, pn.vals⟩]) b h.length =
      some ⟨pn.cap, pn.keys.set i nk, pn.vals.set (i + 1) h.length⟩ := by
    simp only [interiorNodeS.swapLeafNode, swapLeafVals_spec (hallg _) hiR hnd]
  have hs2 : (⟨pn.cap, pn.keys.set i nk, pn.vals.set (i + 1) h.length⟩ :
      interiorNodeS K).swapLeafNode
      (h4 ++ [Cell.node ⟨pn.cap, pn.keys.set i nk, pn.vals.set (i + 1) h.length⟩])
      leaf newLeaf =
      some ⟨pn.cap, pn.keys.set i nk, (pn.vals.set (i + 1) h.length).set i newLeaf⟩ := by
    have hall2 : ∀ c ∈ pn.vals.set (i + 1) h.length, ∃ l, readLeaf (h4 ++
        [Cell.node ⟨pn.cap, pn.keys.set i nk, pn.vals.set (i + 1) h.length⟩]) c = some l := by
      intro c hc
      rcases mem_set_cases hc with hc | rfl
      · exact hallg _ c hc
      · exact ⟨_, hR4 _⟩
    have hidx : (pn.vals.set (i + 1) h.length)[i]? = some leaf := by
      rw [List.getElem?_set_ne (by omega)]
      exact hiP
    simp only [interiorNodeS.swapLeafNode,
      swapLeafVals_spec hall2 hidx (nodup_set hnd hfa (i + 1))]
  have u1 := updNode_fresh (h := h4) (n := pn) (f := fun n0 => n0.swapKey kr nk) hk1
  have u2 := updNode_fresh (h := h4) (n := ⟨pn.cap, pn.keys.set i nk, pn.vals⟩)
    (f := fun n0 => n0.swapLeafNode (h4 ++ [Cell.node ⟨pn.cap, pn.keys.set i nk, pn.vals⟩])
      b h.length) hs1
  have u3 := updNode_fresh (h := h4)
    (n := ⟨pn.cap, pn.keys.set i nk, pn.vals.set (i + 1) h.length⟩)
    (f := fun n0 => n0.swapLeafNode
      (h4 ++ [Cell.node ⟨pn.cap, pn.keys.set i nk, pn.vals.set (i + 1) h.length⟩])
      leaf newLeaf) hs2
  rw [h4len] at u1 u2 u3
  have hlast : ¬ (i = pn.vals.length - 1) := by
    have := (List.getElem?_eq_some.1 hiR).1
    omega
  unfold tree.delFill
  simp only [hpn, leaf_findPeerLeft_eq hall hlen hnd hiP, hleft,
    leaf_findPeerRight_eq hall hlen hnd hiP, if_neg hlast, peerRightAt_eq hiR hkr,
    leaf_canSteal_eq kr hR hcapR, hcan, decide_True]
  unfold tree.delStealRight
  simp only [leafNodeS.copy_leaf_eq hR, Option.bind_eq_bind, Option.some_bind, hsteal,
    interiorNodeS.copy_eq hn4, hR4, hS, h4len, u1, u2, u3]

/-- The part of `Del` for a too small leaf with a left sibling, when no sibling
can donate: the new leaf is merged into a copy of the left sibling, and
`delUpLeaf` removes the old leaf from a copy of the parent. -/
theorem delFill_mergeLeft_eq {m : Nat} {h : Heap K V} (t : tree)
    {leaf newLeaf p j a : Nat} (rest : pathT) {pn : interiorNodeS K} {L D : leafNodeS K V}
    {kl : K}
    (hpn : readNode h p = some pn) (hall : ∀ c ∈ pn.vals, ∃ l, readLeaf h c = some l)
    (hlen : pn.vals.length = pn.keys.length + 1) (hnd : pn.vals.Nodup)
    (hD : readLeaf h newLeaf = some D)
    (hiL : pn.vals[j]? = some a) (hiP : pn.vals[j + 1]? = some leaf)
    (hkl : pn.keys[j]? = some kl)
    (hL : readLeaf h a = some L) (hcapL : L.cap = m) (hcan : ¬ m / 2 < L.vals.length)
    (hright : leafNodeS.canSteal h
      (if j + 1 = pn.vals.length - 1 then none else peerRightAt pn (j + 1)) = some false)
    (hroom : L.keys.length + D.keys.length ≤ L.cap ∧ L.vals.length + D.vals.length ≤ L.cap) :
    t.delFill h leaf newLeaf p rest =
      t.delUpLeaf (h ++ [Cell.leaf ⟨L.cap, L.keys ++ D.keys, L.vals ++ D.vals⟩])
        p a h.length leaf rest := by
  have hnl := readLeaf_lt hD
  have hmerge : leafNodeS.mergeRight (h ++ [Cell.leaf L]) h.length newLeaf =
      some (h ++ [Cell.leaf ⟨L.cap, L.keys ++ D.keys, L.vals ++ D.vals⟩]) := by
    rw [leaf_mergeRight_eq (readLeaf_append_self h L)
      (by rw [(Agree.append h _ (Nat.le_refl _)).readLeaf hnl]; exact hD) hroom,
      set_append_self]
  unfold tree.delFill
  simp only [hpn, leaf_findPeerLeft_eq hall hlen hnd hiP, if_neg (Nat.succ_ne_zero j),
    peerLeftAt_succ hiL hkl, leaf_canSteal_eq kl hL hcapL, hcan, decide_False,
    leaf_findPeerRight_eq hall hlen hnd hiP, hright]
  simp only [delMerge, leafNodeS.copy_leaf_eq hL, Option.bind_eq_bind, Option.some_bind,
    hmerge]

/-- The part of `Del` for a too small first leaf, when the right sibling cannot
donate: the right sibling is merged into the new leaf, and `delUpLeaf` removes
the right sibling from a copy of the parent. -/
theorem delFill_mergeRight_eq {m : Nat} {h : Heap K V} (t : tree)
    {leaf newLeaf p b : Nat} (rest : pathT) {pn : interiorNodeS K} {R D : leafNodeS K V}
    {kr : K}
    (hpn : readNode h p = some pn) (hall : ∀ c ∈ pn.vals, ∃ l, readLeaf h c = some l)
    (hlen : pn.vals.length = pn.keys.length + 1) (hnd : pn.vals.Nodup)
    (hD : readLeaf h newLeaf = some D)
    (hiP : pn.vals[0]? = some leaf) (hiR : pn.vals[1]? = some b)
    (hkr : pn.keys[0]? = some kr)
    (hR : readLeaf h b = some R) (hcapR : R.cap = m) (hcan : ¬ m / 2 < R.vals.length)
    (hroom : D.keys.length + R.keys.length ≤ D.cap ∧ D.vals.length + R.vals.length ≤ D.cap) :
    t.delFill h leaf newLeaf p rest =
      t.delUpLeaf (h.set newLeaf (Cell.leaf ⟨D.cap, D.keys ++ R.keys, D.vals ++ R.vals⟩))
        p leaf newLeaf b rest := by
  have hlast : ¬ (0 = pn.vals.length - 1) := by
    have := (List.getElem?_eq_some.1 hiR).1
    omega
  unfold tree.delFill
  simp only [hpn, leaf_findPeerLeft_eq hall hlen hnd hiP, if_true, leaf_canSteal_none,
    leaf_findPeerRight_eq hall hlen hnd hiP, if_neg hlast, peerRightAt_eq hiR hkr,
    leaf_canSteal_eq kr hR hcapR, hcan, decide_False]
  simp only [delMerge, Option.bind_eq_bind, Option.some_bind,
    leaf_mergeRight_eq hD hR hroom]

end

section
variable {K V : Type} [LinearOrder K]

theorem readLeaf_of_take {h : Heap K V} {B a : Nat} {l : leafNodeS K V}
    (hl : readLeaf (h.take B) a = some l) : readLeaf h a = some l := by
  rw [readLeaf_eq_some] at hl ⊢
  rw [List.getElem?_take] at hl
  split at hl
  · exact hl
  · cases hl

/-- The end of a steal block: the path above the new parent is copied, and the
new parent and the cells written before it are in the result. -/
theorem steal_outcome {t t' : tree} {r NP : interiorNodeS K}
    (hral : r.vals.length = r.keys.length + 1) (rest : pathT) {h4 h' : Heap K V} {p : Nat}
    (hr : readNode h4 t.root = some r) (hk : NP.keys.length ≠ 0)
    (H : t.copyUp (h4 ++ [Cell.node NP]) p h4.length rest = some (h', t')) :
    InTree h' t'.root h4.length ∧ readNode h' h4.length = some NP ∧
      ∀ a l, readLeaf h4 a = some l → readLeaf h' a = some l := by
  have hr8 : readNode (h4 ++ [Cell.node NP]) t.root = some r := by
    rw [(Agree.append h4 _ (Nat.le_refl _)).readNode (readNode_lt hr)]
    exact hr
  obtain ⟨hin, htk⟩ := copyUp_top hral rest hr8 (readNode_append_self h4 NP) hk H
  refine ⟨hin, ?_, ?_⟩
  · apply readNode_of_take (B := (h4 ++ [Cell.node NP]).length)
    rw [htk]
    exact readNode_append_self h4 NP
  · intro a l hl
    apply readLeaf_of_take (B := (h4 ++ [Cell.node NP]).length)
    rw [htk, (Agree.append h4 _ (Nat.le_refl _)).readLeaf (readLeaf_lt hl)]
    exact hl

/-- The three ways `delFill` repairs a too small new leaf `D` that replaces the
child `i` of the parent `pn`: the left sibling donates; else the right sibling
donates; else the leaf is merged with a sibling (the left one if there is
one).  The heap `hb` is the heap the deletion started from. -/
theorem delFill_cases {m : Nat} (hm : 3 ≤ m) {hb h h' : Heap K V} {t t' : tree}
    {rn pn : interiorNodeS K} {D : leafNodeS K V} {leaf newLeaf p i : Nat} {rest : pathT}
    {lo hi : Option K} (e : Ext hb h) (e' : Ext hb h')
    (hr : readNode hb t.root = some rn) (hral : rn.vals.length = rn.keys.length + 1)
    (hold : ∀ q ∈ p :: rest, q < hb.length ∧
      ∀ nd, readNode hb q = some nd → ∀ c ∈ nd.vals, c < hb.length)
    (hpn : readNode hb p = some pn) (hlen : pn.vals.length = pn.keys.length + 1)
    (hnd : pn.vals.Nodup) (h2le : 2 ≤ pn.vals.length) (sep : SepOK lo hi pn.keys)
    (hkids : ∀ c ∈ pn.vals, ∃ L, readLeaf hb c = some L ∧ L.cap = m ∧
      L.keys.length = L.vals.length ∧ m / 2 ≤ L.vals.length)
    (hi : pn.vals[i]? = some leaf) (hnew : hb.length ≤ newLeaf)
    (hD : readLeaf h newLeaf = some D) (hDcap : D.cap = m)
    (hDlen : D.keys.length = D.vals.length) (hDs : D.vals.length + 1 = m / 2)
    (H : t.delFill h leaf newLeaf p rest = some (h', t')) :
    (∃ j a L sk sv, i = j + 1 ∧ pn.vals[j]? = some a ∧ readLeaf hb a = some L ∧
      L.size > L.halfFullSize ∧
      L.keys[L.keys.length - 1]? = some sk ∧ L.vals[L.vals.length - 1]? = some sv ∧
      ∃ np na nd, InTree h' t'.root np ∧
        readNode h' np = some ⟨pn.cap, pn.keys.set j sk, (pn.vals.set j na).set (j + 1) nd⟩ ∧
        readLeaf h' na = some ⟨L.cap, L.keys.take (L.keys.length - 1),
          L.vals.take (L.vals.length - 1)⟩ ∧
        readLeaf h' nd = some ⟨D.cap, sk :: D.keys, sv :: D.vals⟩ ∧
        ∀ b R, pn.vals[j + 2]? = some b → readLeaf hb b = some R →
          ((pn.vals.set j na).set (j + 1) nd)[j + 2]? = some b ∧ readLeaf h' b = some R) ∨
    ((i = 0 ∨ ∃ j a L, i = j + 1 ∧ pn.vals[j]? = some a ∧ readLeaf hb a = some L ∧
        L.size ≤ L.halfFullSize) ∧
      ∃ b R sk sv nk, pn.vals[i + 1]? = some b ∧ readLeaf hb b = some R ∧
        R.size > R.halfFullSize ∧
        R.keys[0]? = some sk ∧ R.vals[0]? = some sv ∧ R.keys[1]? = some nk ∧
        ∃ np nb nd, InTree h' t'.root np ∧
          readNode h' np =
            some ⟨pn.cap, pn.keys.set i nk, (pn.vals.set (i + 1) nb).set i nd⟩ ∧
          readLeaf h' nb = some ⟨R.cap, R.keys.drop 1, R.vals.drop 1⟩ ∧
          readLeaf h' nd = some ⟨D.cap, D.keys ++ [sk], D.vals ++ [sv]⟩) ∨
    ((i = 0 ∨ ∃ j a L, i = j + 1 ∧ pn.vals[j]? = some a ∧ readLeaf hb a = some L ∧
        L.size ≤ L.halfFullSize) ∧
      (pn.vals[i + 1]? = none ∨ ∃ b R, pn.vals[i + 1]? = some b ∧ readLeaf hb b = some R ∧
        R.size ≤ R.halfFullSize) ∧
      ∃ nm M, InTree h' t'.root nm ∧ readLeaf h' nm = some M ∧
        ((∃ j a L, i = j + 1 ∧ pn.vals[j]? = some a ∧ readLeaf hb a = some L ∧
            M = ⟨L.cap, L.keys ++ D.keys, L.vals ++ D.vals⟩) ∨
          (i = 0 ∧ ∃ b R, pn.vals[1]? = some b ∧ readLeaf hb b = some R ∧
            M = ⟨D.cap, D.keys ++ R.keys, D.vals ++ R.vals⟩))) := by
  have hpl := readNode_lt hpn
  have hrl := readNode_lt hr
  have hnl := readLeaf_lt hD
  have hle := e.1
  have hpn_h : readNode h p = some pn := by rw [e.2.readNode hpl]; exact hpn
  have hrh : readNode h t.root = some rn := by rw [e.2.readNode hrl]; exact hr
  have hcb : ∀ c ∈ pn.vals, c < hb.length := (hold p (List.mem_cons_self _ _)).2 pn hpn
  have hread : ∀ c ∈ pn.vals, readLeaf h c = readLeaf hb c :=
    fun c hc => e.2.readLeaf (hcb c hc)
  have hall : ∀ c ∈ pn.vals, ∃ l, readLeaf h c = some l := by
    intro c hc
    obtain ⟨L, hL, _⟩ := hkids c hc
    exact ⟨L, by rw [hread c hc]; exact hL⟩
  have hfr : ∀ c ∈ pn.vals, c < newLeaf := fun c hc => by have := hcb c hc; omega
  have hil : i < pn.vals.length := (List.getElem?_eq_some.1 hi).1
  have hroom : D.keys.length < D.cap ∧ D.vals.length < D.cap := by omega
  have hm2 : 1 ≤ m / 2 := by omega
  rcases Nat.eq_zero_or_pos i with hz | hpos
  · subst hz
    obtain ⟨b, hiR⟩ : ∃ c, pn.vals[1]? = some c := ⟨_, List.getElem?_eq_getElem (by omega)⟩
    obtain ⟨kr, hkr⟩ : ∃ k, pn.keys[0]? = some k := ⟨_, List.getElem?_eq_getElem (by omega)⟩
    have hbm := List.getElem?_mem hiR
    obtain ⟨R, hR, hcapR, hRlen, hRfull⟩ := hkids b hbm
    have hRh : readLeaf h b = some R := by rw [hread b hbm]; exact hR
    by_cases hcan : m / 2 < R.vals.length
    · right
      left
      obtain ⟨sk, hsk⟩ : ∃ k, R.keys[0]? = some k := ⟨_, List.getElem?_eq_getElem (by omega)⟩
      obtain ⟨sv, hsv⟩ : ∃ v, R.vals[0]? = some v := ⟨_, List.getElem?_eq_getElem (by omega)⟩
      obtain ⟨nk, hnk⟩ : ∃ k, R.keys[1]? = some k := ⟨_, List.getElem?_eq_getElem (by omega)⟩
      have eq := delFill_stealRight_eq t rest hpn_h hall hlen hnd hfr sep hD hi hiR hkr
        (by rw [if_pos rfl]; rfl) hRh hcapR hcan hsk hsv hnk hroom
      rw [eq] at H
      generalize hh4 : (h ++ [Cell.leaf (⟨R.cap, R.keys.drop 1, R.vals.drop 1⟩ :
        leafNodeS K V)]).set newLeaf (Cell.leaf ⟨D.cap, D.keys ++ [sk], D.vals ++ [sv]⟩) = h4
        at H
      have h4len : h4.length = h.length + 1 := by rw [← hh4]; simp
      rw [← h4len] at H
      have hr4 : readNode h4 t.root = some rn := by
        rw [← hh4, patch_readNode h _ _ (by omega) (by omega)]
        exact hrh
      obtain ⟨hin, hNP, hkeep⟩ := steal_outcome hral rest hr4
        (by simp only [List.length_set]; omega) H
      refine ⟨Or.inl rfl, b, R, sk, sv, nk, hiR, hR, ?_, hsk, hsv, hnk, h4.length, h.length,
        newLeaf, hin, hNP, ?_, ?_⟩
      · simp only [leafNodeS.size, leafNodeS.halfFullSize, hcapR]
        exact hcan
      · apply hkeep
        rw [← hh4]
        exact patch_last h _ _ hnl
      · apply hkeep
        rw [← hh4]
        exact patch_self h _ _ hnl
    · right
      right
      have eq := delFill_mergeRight_eq t rest hpn_h hall hlen hnd hD hi hiR hkr hRh hcapR hcan
        (by omega)
      rw [eq] at H
      have hbl := hcb b hbm
      obtain ⟨hin, htk⟩ := delUpLeaf_track hr hral rest (e.set_ext hnew _) hold
        (by omega : b ≠ newLeaf) H
      refine ⟨Or.inl rfl, Or.inr ⟨b, R, hiR, hR, ?_⟩, newLeaf, _, hin, ?_,
        Or.inr ⟨rfl, b, R, hiR, hR, rfl⟩⟩
      · simp only [leafNodeS.size, leafNodeS.halfFullSize, hcapR]
        omega
      · apply readLeaf_of_take (B := (h.set newLeaf
          (Cell.leaf ⟨D.cap, D.keys ++ R.keys, D.vals ++ R.vals⟩)).length)
        rw [htk]
        exact readLeaf_set_self hnl _
  · obtain ⟨j, rfl⟩ : ∃ j, i = j + 1 := ⟨i - 1, by omega⟩
    obtain ⟨a, hiL⟩ : ∃ c, pn.vals[j]? = some c := ⟨_, List.getElem?_eq_getElem (by omega)⟩
    obtain ⟨kl, hkl⟩ : ∃ k, pn.keys[j]? = some k := ⟨_, List.getElem?_eq_getElem (by omega)⟩
    have ham := List.getElem?_mem hiL
    obtain ⟨L, hL, hcapL, hLlen, hLfull⟩ := hkids a ham
    have hLh : readLeaf h a = some L := by rw [hread a ham]; exact hL
    have hleafl := hcb leaf (List.getElem?_mem hi)
    by_cases hcanL : m / 2 < L.vals.length
    · left
      obtain ⟨sk, hsk⟩ : ∃ k, L.keys[L.keys.length - 1]? = some k :=
        ⟨_, List.getElem?_eq_getElem (by omega)⟩
      obtain ⟨sv, hsv⟩ : ∃ v, L.vals[L.vals.length - 1]? = some v :=
        ⟨_, List.getElem?_eq_getElem (by omega)⟩
      have eq := delFill_stealLeft_eq t rest hpn_h hall hlen hnd hfr sep hD hiL hi hkl hLh
        hcapL hcanL hsk hsv hroom
      rw [eq] at H
      generalize hh4 : (h ++ [Cell.leaf (⟨L.cap, L.keys.take (L.keys.length - 1),
        L.vals.take (L.vals.length - 1)⟩ : leafNodeS K V)]).set newLeaf
          (Cell.leaf ⟨D.cap, sk :: D.keys, sv :: D.vals⟩) = h4 at H
      have h4len : h4.length = h.length + 1 := by rw [← hh4]; simp
      rw [← h4len] at H
      have hr4 : readNode h4 t.root = some rn := by
        rw [← hh4, patch_readNode h _ _ (by omega) (by omega)]
        exact hrh
      obtain ⟨hin, hNP, hkeep⟩ := steal_outcome hral rest hr4
        (by simp only [List.length_set]; omega) H
      refine ⟨j, a, L, sk, sv, rfl, hiL, hL, ?_, hsk, hsv, h4.length, h.length, newLeaf,
        hin, hNP, ?_, ?_, ?_⟩
      · simp only [leafNodeS.size, leafNodeS.halfFullSize, hcapL]
        exact hcanL
      · apply hkeep
        rw [← hh4]
        exact patch_last h _ _ hnl
      · apply hkeep
        rw [← hh4]
        exact patch_self h _ _ hnl
      · intro b R hb2 hR
        refine ⟨?_, ?_⟩
        · rw [List.getElem?_set_ne (by omega), List.getElem?_set_ne (by omega)]
          exact hb2
        · rw [e'.2.readLeaf (readLeaf_lt hR)]
          exact hR
    · have hLc : L.size ≤ L.halfFullSize := by
        simp only [leafNodeS.size, leafNodeS.halfFullSize, hcapL]
        omega
      have hroomL : L.keys.length + D.keys.length ≤ L.cap ∧
          L.vals.length + D.vals.length ≤ L.cap := by omega
      have fin : ∀ (hright : leafNodeS.canSteal h
          (if j + 1 = pn.vals.length - 1 then none else peerRightAt pn (j + 1)) = some false),
          ∃ nm M, InTree h' t'.root nm ∧ readLeaf h' nm = some M ∧
            ((∃ j' a L, j + 1 = j' + 1 ∧ pn.vals[j']? = some a ∧ readLeaf hb a = some L ∧
              M = ⟨L.cap, L.keys ++ D.keys, L.vals ++ D.vals⟩) ∨
            (j + 1 = 0 ∧ ∃ b R, pn.vals[1]? = some b ∧ readLeaf hb b = some R ∧
              M = ⟨D.cap, D.keys ++ R.keys, D.vals ++ R.vals⟩)) := by
        intro hright
        have eq := delFill_mergeLeft_eq t rest hpn_h hall hlen hnd hD hiL hi hkl hLh hcapL
          hcanL hright hroomL
        rw [eq] at H
        obtain ⟨hin, htk⟩ := delUpLeaf_track hr hral rest (e.append_right _) hold
          (by omega : leaf ≠ h.length) H
        refine ⟨h.length, _, hin, ?_, Or.inl ⟨j, a, L, rfl, hiL, hL, rfl⟩⟩
        apply readLeaf_of_take (B := (h ++ [Cell.leaf (⟨L.cap, L.keys ++ D.keys,
          L.vals ++ D.vals⟩ : leafNodeS K V)]).length)
        rw [htk]
        exact readLeaf_append_self h _
      by_cases hlast : j + 1 = pn.vals.length - 1
      · right
        right
        refine ⟨Or.inr ⟨j, a, L, rfl, hiL, hL, hLc⟩, Or.inl ?_, fin ?_⟩
        · exact List.getElem?_eq_none (by omega)
        · rw [if_pos hlast]
          rfl
      · obtain ⟨b, hiR⟩ : ∃ c, pn.vals[j + 1 + 1]? = some c :=
          ⟨_, List.getElem?_eq_getElem (by omega)⟩
        obtain ⟨kr, hkr⟩ : ∃ k, pn.keys[j + 1]? = some k :=
          ⟨_, List.getElem?_eq_getElem (by omega)⟩
        have hbm := List.getElem?_mem hiR
        obtain ⟨R, hR, hcapR, hRlen, hRfull⟩ := hkids b hbm
        have hRh : readLeaf h b = some R := by rw [hread b hbm]; exact hR
        by_cases hcan : m / 2 < R.vals.length
        · right
          left
          obtain ⟨sk, hsk⟩ : ∃ k, R.keys[0]? = some k :=
            ⟨_, List.getElem?_eq_getElem (by omega)⟩
          obtain ⟨sv, hsv⟩ : ∃ v, R.vals[0]? = some v :=
            ⟨_, List.getElem?_eq_getElem (by omega)⟩
          obtain ⟨nk, hnk⟩ : ∃ k, R.keys[1]? = some k :=
            ⟨_, List.getElem?_eq_getElem (by omega)⟩
          have hleft : leafNodeS.canSteal h
              (if j + 1 = 0 then none else peerLeftAt pn (j + 1)) = some false := by
            rw [if_neg (Nat.succ_ne_zero j), peerLeftAt_succ hiL hkl,
              leaf_canSteal_eq kl hLh hcapL]
            simp only [hcanL, decide_False]
          have eq := delFill_stealRight_eq t rest hpn_h hall hlen hnd hfr sep hD hi hiR hkr
            hleft hRh hcapR hcan hsk hsv hnk hroom
          rw [eq] at H
          generalize hh4 : (h ++ [Cell.leaf (⟨R.cap, R.keys.drop 1, R.vals.drop 1⟩ :
            leafNodeS K V)]).set newLeaf
              (Cell.leaf ⟨D.cap, D.keys ++ [sk], D.vals ++ [sv]⟩) = h4 at H
          have h4len : h4.length = h.length + 1 := by rw [← hh4]; simp
          rw [← h4len] at H
          have hr4 : readNode h4 t.root = some rn := by
            rw [← hh4, patch_readNode h _ _ (by omega) (by omega)]
            exact hrh
          obtain ⟨hin, hNP, hkeep⟩ := steal_outcome hral rest hr4
            (by simp only [List.length_set]; omega) H
          refine ⟨Or.inr ⟨j, a, L, rfl, hiL, hL, hLc⟩, b, R, sk, sv, nk, hiR, hR, ?_,
            hsk, hsv, hnk, h4.length, h.length, newLeaf, hin, hNP, ?_, ?_⟩
          · simp only [leafNodeS.size, leafNodeS.halfFullSize, hcapR]
            exact hcan
          · apply hkeep
            rw [← hh4]
            exact patch_last h _ _ hnl
          · apply hkeep
            rw [← hh4]
            exact patch_self h _ _ hnl
        · right
          right
          refine ⟨Or.inr ⟨j, a, L, rfl, hiL, hL, hLc⟩, Or.inr ⟨b, R, hiR, hR, ?_⟩, fin ?_⟩
          · simp only [leafNodeS.size, leafNodeS.halfFullSize, hcapR]
            omega
          · rw [if_neg hlast, peerRightAt_eq hiR hkr, leaf_canSteal_eq kr hRh hcapR]
            simp only [hcan, decide_False]

end

section
variable {K V : Type} [LinearOrder K]

/-- The nodes of the path of a descent, and their children, are cells of the
heap. -/
theorem Ctx.path_kids {m : Nat} {h : Heap K V} {root D : Nat} (path : pathT) :
    ∀ {node d : Nat} {lo hi : Option K} {pre post : List (K × V)},
      Ctx m h root D node d lo hi path pre post →
      ∀ q ∈ path, q < h.length ∧
        ∀ nd, readNode h q = some nd → ∀ c ∈ nd.vals, c < h.length := by
  induction path with
  | nil => intro node d lo hi pre post _ q hq; cases hq
  | cons q0 rest ih =>
    intro node d lo hi pre post c q hq
    obtain ⟨n, plo, phi, i, pre', post', hn, _, _, _, rp, _, _, _, cp⟩ := c
    rw [List.mem_cons] at hq
    rcases hq with rfl | hq
    · refine ⟨readNode_lt hn, ?_⟩
      intro nd hnd c hc
      obtain ⟨n', hn', _, _, _, hltc, _⟩ := Rep_kids.1 rp
      rw [hnd] at hn'
      cases hn'
      have := hltc c hc
      have := readNode_lt hnd
      omega
    · exact ih cp q hq

theorem nodup_idx_eq {l : List Nat} (hnd : l.Nodup) {i j x : Nat} (hi : l[i]? = some x)
    (hj : l[j]? = some x) : i = j := by
  obtain ⟨hil, hie⟩ := List.getElem?_eq_some.1 hi
  obtain ⟨hjl, hje⟩ := List.getElem?_eq_some.1 hj
  exact (List.Nodup.getElem_inj_iff hnd).1 (hie.trans hje.symm)

/-- C36: the steal order in `Del`.  In a reachable tree, let `Del(k)` find the
key `k` in the leaf `l`, child `i` of its parent `pn`, and let that leaf, which
is not the root, hold fewer than `halfFullSize()` entries once `k` is
removed from it.  Then `Del` returns, and with `D` the leaf `l` without `k`
one of three cases applies.  (1) The left sibling `L` (child `i - 1`)
has more than `halfFullSize()` entries: the result holds a copy of the parent
in which children `i - 1` and `i` are a copy of `L` without its last entry and
`D` with that entry in front, the separator between them is the key of that
entry (the new first key of the deficit leaf), and the right sibling (child
`i + 1`) is the same unchanged cell even when it could donate.  (2) There is no
left sibling or it has at most `halfFullSize()` entries, and the right sibling
`R` has more: children `i` and `i + 1` are `D` with the first entry of `R`
appended and a copy of `R` without it, and the separator between them is the
new first key of that copy.  (3) Neither sibling has more than
`halfFullSize()` entries: the result holds a leaf that is `L` followed by `D`
when there is a left sibling, and `D` followed by `R` otherwise. -/
theorem steal_order [Inhabited V] {m : Nat} {h : Heap K V} {t : tree} (r : Reachable m h t)
    {k : K} {leaf p i : Nat} {rest : pathT} {l : leafNodeS K V} {pn : interiorNodeS K}
    (hf : t.findLeaf h k = some (leaf, p :: rest))
    (hl : readLeaf h leaf = some l) (hk : k ∈ l.keys)
    (hsmall : l.size - 1 < l.halfFullSize)
    (hp : readNode h p = some pn) (hi : pn.vals[i]? = some leaf) :
    ∃ h' t' w D, t.Del h k = some (h', t', w, true) ∧ l.remove k = some (D, w, true) ∧
      Ext h h' ∧
      ((∃ j a L sk sv, i = j + 1 ∧ pn.vals[j]? = some a ∧ readLeaf h a = some L ∧
        L.size > L.halfFullSize ∧
        L.keys[L.keys.length - 1]? = some sk ∧ L.vals[L.vals.length - 1]? = some sv ∧
        ∃ np na nd, InTree h' t'.root np ∧
          readNode h' np =
            some ⟨pn.cap, pn.keys.set j sk, (pn.vals.set j na).set (j + 1) nd⟩ ∧
          readLeaf h' na = some ⟨L.cap, L.keys.take (L.keys.length - 1),
            L.vals.take (L.vals.length - 1)⟩ ∧
          readLeaf h' nd = some ⟨D.cap, sk :: D.keys, sv :: D.vals⟩ ∧
          ∀ b R, pn.vals[j + 2]? = some b → readLeaf h b = some R →
            ((pn.vals.set j na).set (j + 1) nd)[j + 2]? = some b ∧
              readLeaf h' b = some R) ∨
      ((i = 0 ∨ ∃ j a L, i = j + 1 ∧ pn.vals[j]? = some a ∧ readLeaf h a = some L ∧
          L.size ≤ L.halfFullSize) ∧
        ∃ b R sk sv nk, pn.vals[i + 1]? = some b ∧ readLeaf h b = some R ∧
          R.size > R.halfFullSize ∧
          R.keys[0]? = some sk ∧ R.vals[0]? = some sv ∧ R.keys[1]? = some nk ∧
          ∃ np nb nd, InTree h' t'.root np ∧
            readNode h' np =
              some ⟨pn.cap, pn.keys.set i nk, (pn.vals.set (i + 1) nb).set i nd⟩ ∧
            readLeaf h' nb = some ⟨R.cap, R.keys.drop 1, R.vals.drop 1⟩ ∧
            readLeaf h' nd = some ⟨D.cap, D.keys ++ [sk], D.vals ++ [sv]⟩) ∨
      ((i = 0 ∨ ∃ j a L, i = j + 1 ∧ pn.vals[j]? = some a ∧ readLeaf h a = some L ∧
          L.size ≤ L.halfFullSize) ∧
        (pn.vals[i + 1]? = none ∨ ∃ b R, pn.vals[i + 1]? = some b ∧
          readLeaf h b = some R ∧ R.size ≤ R.halfFullSize) ∧
        ∃ nm M, InTree h' t'.root nm ∧ readLeaf h' nm = some M ∧
          ((∃ j a L, i = j + 1 ∧ pn.vals[j]? = some a ∧ readLeaf h a = some L ∧
              M = ⟨L.cap, L.keys ++ D.keys, L.vals ++ D.vals⟩) ∨
            (i = 0 ∧ ∃ b R, pn.vals[1]? = some b ∧ readLeaf h b = some R ∧
              M = ⟨D.cap, D.keys ++ R.keys, D.vals ++ R.vals⟩)))) := by
  obtain ⟨es, inv⟩ := r.to_einv
  obtain ⟨h', t', hdel, ext, _, _, _⟩ := Del_spec inv k
  obtain ⟨hm, hord, d, hD, rr, rf, he, hc⟩ := inv
  obtain ⟨leaf', path', lo, hi', pre, post, hf', rl, pfl, c, hlo, hhi⟩ := findLeaf_spec k rr rf
  rw [hf] at hf'
  obtain ⟨rfl, rfl⟩ := Prod.mk.inj (Option.some.inj hf')
  obtain ⟨l0, hl0, hcap, hlen, hs, hbnd, hblt⟩ := Rep_zero.1 rl
  rw [hl] at hl0
  cases hl0
  obtain ⟨D, w, removed, hrem, hcap', hlen', hs', hmem', hzip', hres, hvlen⟩ :=
    leafNodeS.remove_spec l k hlen hs
  have hrt : removed = true := by
    cases removed with
    | true => rfl
    | false =>
      obtain ⟨hnone, _⟩ := getRes_false hres
      obtain ⟨v, hv⟩ := mem_zip_of_mem_left hlen hk
      have : (lookup k (l.keys.zip l.vals)).isSome = true :=
        lookup_isSome_iff.2 ⟨(k, v), hv, rfl⟩
      rw [hnone] at this
      cases this
  subst hrt
  simp only [if_true] at hvlen
  have hold := Ctx.path_kids (p :: rest) c
  obtain ⟨_, rn, hrn⟩ := Ctx.root_node rest c
  obtain ⟨d', rfl⟩ := rr.height_of_node hrn
  obtain ⟨rn', hrn', _, hral, _⟩ := Rep_succ.1 rr
  rw [hrn] at hrn'
  cases hrn'
  have hfull : m / 2 ≤ l.vals.length := by
    have := pfl
    unfold PosFull Full at this
    rw [if_neg (List.cons_ne_nil _ _), nodeSize_of_leaf hl, minSize_zero] at this
    exact this.1
  obtain ⟨n, plo, phi, ip, pre', post', hn, hip, rfl, rfl, rp, pfp, rfl, rfl, cp⟩ := c
  rw [hp] at hn
  cases hn
  obtain ⟨n', hn', hcapn, hlenn, hnd, hltc, KP⟩ := Rep_kids.1 rp
  rw [hp] at hn'
  cases hn'
  have hii : ip = i := nodup_idx_eq hnd hip hi
  subst hii
  have h2le : 2 ≤ pn.vals.length := by
    have := pfp.two_le hm
    rwa [nodeSize_of_node hp] at this
  have hkids : ∀ c ∈ pn.vals, ∃ L, readLeaf h c = some L ∧ L.cap = m ∧
      L.keys.length = L.vals.length ∧ m / 2 ≤ L.vals.length := by
    intro c hc
    obtain ⟨x, hx⟩ := List.getElem?_of_mem hc
    have kc := KP x c hx
    obtain ⟨L, hL, hcL, hlL, _⟩ := Rep_zero.1 kc.1
    exact ⟨L, hL, hcL, hlL, (kc.leaf_size hL).1⟩
  have hsm : l.vals.length - 1 < m / 2 := by
    simpa only [leafNodeS.size, leafNodeS.halfFullSize, hcap] using hsmall
  have ag0 : Agree h.length h (h ++ [Cell.leaf ⟨t.order.toNat, [], []⟩]) :=
    Agree.append _ _ (Nat.le_refl _)
  have e0 : Ext h (h ++ [Cell.leaf (⟨t.order.toNat, [], []⟩ : leafNodeS K V)]) :=
    Ext.append_ext _ _
  generalize hh0 : h ++ [Cell.leaf (⟨t.order.toNat, [], []⟩ : leafNodeS K V)] = h0
    at ag0 e0
  have hl0 : h.length ≤ h0.length := e0.1
  have hf0 : t.findLeaf h0 k = some (leaf, p :: rest) := by
    unfold tree.findLeaf at hf ⊢
    exact findLeafLoop_ext ag0 k _ _ _ _ _ hl0 hf
  have hlh0 : readLeaf h0 leaf = some l := by rw [ag0.readLeaf (readLeaf_lt hl)]; exact hl
  have hwl := withLeaf_fresh (h := h0) (l := l) (f := fun l0 => l0.remove k) hrem
  have ag2 : Agree h0.length h0 (h0 ++ [Cell.leaf D]) := Agree.append _ _ (Nat.le_refl _)
  have hrl2 := readLeaf_append_self h0 D
  have hroot2 : readNode (h0 ++ [Cell.leaf D]) t.root = some rn := by
    rw [ag2.readNode (by have := readNode_lt hrn; omega), ag0.readNode (readNode_lt hrn)]
    exact hrn
  have hleaf2 : readLeaf (h0 ++ [Cell.leaf D]) leaf = some l := by
    rw [ag2.readLeaf (readLeaf_lt hlh0)]; exact hlh0
  have hsmall2 : D.vals.length < m / 2 := by omega
  have hdel0 := hdel
  unfold tree.Del at hdel
  rw [tree.copy_tree_eq, hh0] at hdel
  simp only [hf0, leafNodeS.copy_leaf_eq hlh0, hwl, isRoot_leaf_false hroot2 hleaf2, hrl2,
    leaf_isToSmall_eq (hcap'.trans hcap), hsmall2, decide_True, if_true] at hdel
  simp only [Bool.true_eq_false, if_false, Option.map_eq_some', Prod.mk.injEq] at hdel
  obtain ⟨⟨h1, t1⟩, hfill, rfl, rfl, hgr⟩ := hdel
  have hgr' : getRes (lookup k es) = (w, true) := hgr.symm
  refine ⟨h1, t1, w, D, ?_, hrem, ext, ?_⟩
  · rw [hdel0, hgr']
  · have e2 : Ext h (h0 ++ [Cell.leaf D]) := e0.append_right _
    have hDs : D.vals.length + 1 = m / 2 := by omega
    have hDc : D.cap = m := hcap'.trans hcap
    have hrn2 : readNode h ({ t with numEnts := t.numEnts - 1 } : tree).root = some rn := hrn
    exact delFill_cases (t := { t with numEnts := t.numEnts - 1 })
      hm e2 ext hrn2 hral hold hp hlenn hnd h2le (rp.sepOK hp) hkids hi hl0
      hrl2 hDc hlen' hDs hfill

end

section
variable {K V : Type} [LinearOrder K]

/-- A batch of `Put`s on a reachable tree gives a reachable tree. -/
theorem Reachable.putAll_reach [Inhabited V] {m : Nat} (kvs : List (K × V)) :
    ∀ {h h' : Heap K V} {t t' : tree} {flags : List Bool}, Reachable m h t →
      putAll h t kvs = some (h', t', flags) → Reachable m h' t' := by
  induction kvs with
  | nil =>
    intro h h' t t' flags r H
    simp only [putAll, Option.some.injEq, Prod.mk.injEq] at H
    obtain ⟨rfl, rfl, _⟩ := H
    exact r
  | cons e rest ih =>
    intro h h' t t' flags r H
    rw [putAll] at H
    split at H
    · cases H
    · next h1 t1 added hput =>
      split at H
      · cases H
      · next h2 t2 fl hrest =>
        simp only [Option.some.injEq, Prod.mk.injEq] at H
        obtain ⟨rfl, rfl, _⟩ := H
        exact ih (Reachable.put _ _ _ _ e.1 e.2 added r hput) hrest

end

theorem reach7 : Reachable 3 heap7 tree7 :=
  Reachable.putAll_reach [(4, 40), (5, 50), (6, 60), (7, 70)] reach3
    (show putAll heap3 tree3 [(4, 40), (5, 50), (6, 60), (7, 70)] =
      some (heap7, tree7, [true, true, true, true]) from rfl)

theorem reach7d : Reachable 3 heap7d tree7d := Reachable.del _ _ _ _ 5 50 true reach7 rfl

theorem reach3d : Reachable 3 heap3d tree3d := Reachable.del _ _ _ _ 2 20 true reach3 rfl

theorem split_thresholds_witness :
    3 ≤ 3 ∧
    (∃ h' r sk L R, leafNodeS.split leafHeap3 0 = some (h', r, sk) ∧
      readLeaf h' 0 = some L ∧ readLeaf h' r = some R ∧
      L.isToSmall = false ∧ L.isToBig = false ∧ R.isToSmall = false ∧ R.isToBig = false ∧
      L.size ≤ R.size ∧ L.size = L.halfFullSize ∧ R.halfFullSize = L.halfFullSize) ∧
    (∃ h' r mid L R, interiorNodeS.split nodeHeap3 0 = some (h', r, mid) ∧
      readNode h' 0 = some L ∧ readNode h' r = some R ∧
      L.isToSmall = false ∧ L.isToBig = false ∧ R.isToSmall = false ∧ R.isToBig = false ∧
      L.size ≤ R.size ∧ L.size = L.halfFullSize ∧ R.halfFullSize = L.halfFullSize) :=
  ⟨by decide,
    (split_thresholds (by decide : 3 ≤ 3)).1 leafHeap3 0 ⟨3, [1, 2, 3], [10, 20, 30]⟩
      rfl rfl rfl rfl,
    (split_thresholds (by decide : 3 ≤ 3)).2 nodeHeap3 0 ⟨3, [10, 20, 30], [1, 2, 3, 4]⟩
      rfl rfl rfl rfl⟩

/-- C33 as stated fails.  In the tree with the keys 1, 2, 3, 4, 6, 7 that `Del(5)`
left, the root `P` has the separator 5 between its children 27 (separator 4)
and 33.  `Del(7)` empties a leaf below 33, merges the two leaves below it, and
then merges the interior node 27 (`L`) with what is left of 33 (`R`, the node at
38, which has one child and no separator): the merged node `M` at 39 is in the
new tree, its children are those of `L` and `R`, and its middle separator is 6,
the leftmost key below `R`, not the separator 5 of the parent. -/
theorem interior_merge_separator_counterexample :
    Reachable 3 heap7d tree7d ∧
    ∃ h' t' P L R M, tree7d.Del heap7d 7 = some (h', t', 70, true) ∧
      readNode heap7d tree7d.root = some P ∧ P.vals[1]? = some 27 ∧ P.vals[2]? = some 33 ∧
      P.keys[1]? = some 5 ∧ readNode heap7d 27 = some L ∧ readNode h' 38 = some R ∧
      InTree h' t'.root 39 ∧ readNode h' 39 = some M ∧
      M.vals = L.vals ++ R.vals ∧ M.keys = L.keys ++ 6 :: R.keys ∧
      M.keys ≠ L.keys ++ 5 :: R.keys :=
  ⟨reach7d,
    heap7d ++ [Cell.leaf ⟨3, [], []⟩, Cell.leaf ⟨3, [], []⟩, Cell.leaf ⟨3, [6], [60]⟩,
      Cell.node ⟨3, [], [37]⟩, Cell.node ⟨3, [4, 6], [14, 20, 37]⟩,
      Cell.node ⟨3, [3], [16, 39]⟩],
    ⟨40, 3, 5, 2⟩, ⟨3, [3, 5], [16, 27, 33]⟩, ⟨3, [4], [14, 20]⟩, ⟨3, [], [37]⟩,
    ⟨3, [4, 6], [14, 20, 37]⟩, by rfl, by rfl, by rfl, by rfl, by rfl, by rfl, by rfl,
    InTree.child 40 39 39 ⟨3, [3], [16, 39]⟩ (by rfl) (by decide) (InTree.self 39),
    by rfl, by rfl, by rfl, by decide⟩

theorem interior_merge_separator_witness :
    ∃ d, 3 ≤ 3 ∧ Rep 3 heap7 (d + 1) 16 none (some 3) ∧
      Rep 3 heap7 (d + 1) 27 (some 3) (some 5) ∧
      readNode heap7 16 = some ⟨3, [2], [6, 10]⟩ ∧
      readNode heap7 27 = some ⟨3, [4], [14, 20]⟩ ∧ 1 + 1 + 1 ≤ 3 ∧
      ∃ h' k0 v0 rest, ents heap7 (d + 1) 27 = (k0, v0) :: rest ∧
        interiorNodeS.findLeftMostKey heap7 27 = some k0 ∧
        interiorNodeS.mergeRight heap7 16 27 = some h' ∧
        readNode h' 16 = some ⟨3, [2] ++ k0 :: [4], [6, 10] ++ [14, 20]⟩ ∧
        3 ≤ k0 ∧ (∀ e ∈ ents heap7 (d + 1) 16, e.1 < 3) ∧
        ∀ e ∈ ents heap7 (d + 1) 27, k0 ≤ e.1 := by
  obtain ⟨es, inv⟩ := reach7.to_einv
  obtain ⟨hm, hord, d, hD, rr, rf, he, hc⟩ := inv
  have hroot : readNode heap7 tree7.root = some ⟨3, [3, 5], [16, 27, 28]⟩ := rfl
  obtain ⟨d1, rfl⟩ := rr.height_of_node hroot
  obtain ⟨n, hn, _, _, _, _, KP⟩ := Rep_kids.1 rr
  rw [hroot] at hn
  cases hn
  have k16 := (KP 0 16 rfl).1
  have k27 := (KP 1 27 rfl).1
  have h16 : readNode heap7 16 = some ⟨3, [2], [6, 10]⟩ := rfl
  have h27 : readNode heap7 27 = some ⟨3, [4], [14, 20]⟩ := rfl
  obtain ⟨d2, rfl⟩ := k16.height_of_node h16
  have e1 : loAt (none : Option Nat) [3, 5] 0 = none := rfl
  have e2 : hiAt (none : Option Nat) [3, 5] 0 = some 3 := rfl
  have e3 : loAt (none : Option Nat) [3, 5] 1 = some 3 := rfl
  have e4 : hiAt (none : Option Nat) [3, 5] 1 = some 5 := rfl
  simp only [e1, e2] at k16
  simp only [e3, e4] at k27
  exact ⟨d2, by decide, k16, k27, h16, h27, by decide,
    interior_merge_separator (by decide : 3 ≤ 3) k16 k27 h16 h27 (by decide)⟩

theorem interior_merge_right_witness :
    (16 : Nat) ≠ 27 ∧ readNode heap7 16 = some ⟨3, [2], [6, 10]⟩ ∧
    readNode heap7 27 = some ⟨3, [4], [14, 20]⟩ ∧
    interiorNodeS.findLeftMostLeaf heap7 27 = some 14 ∧
    readLeaf heap7 14 = some ⟨3, [3], [30]⟩ ∧
    ∃ h' L', interiorNodeS.mergeRight heap7 16 27 = some h' ∧ readNode h' 16 = some L' ∧
      L'.keys = [2, 3, 4] ∧ L'.vals = [6, 10, 14, 20] ∧ L'.cap = 3 ∧
      L'.vals.length = L'.keys.length + 1 ∧
      readNode h' 27 = some ⟨3, [4], [14, 20]⟩ := by
  refine ⟨by decide, rfl, rfl, rfl, rfl, ?_⟩
  obtain ⟨h', L', hmr, hL', hk, hv, hcp, hal, hR, _⟩ :=
    interior_merge_right (by decide : (16 : Nat) ≠ 27)
      (show readNode heap7 16 = some ⟨3, [2], [6, 10]⟩ from rfl)
      (show readNode heap7 27 = some ⟨3, [4], [14, 20]⟩ from rfl)
      (show interiorNodeS.findLeftMostLeaf heap7 27 = some 14 from rfl)
      (show readLeaf heap7 14 = some ⟨3, [3], [30]⟩ from rfl)
      (show ([3] : List Nat)[0]? = some 3 from rfl) rfl rfl (by decide)
  exact ⟨h', L', hmr, hL', hk, hv, hcp, hal, hR⟩

/-- C35 as stated fails.  `Del(2)` on the tree with the leaves `[1]` and `[2, 3]`
under the separator 2 leaves a reachable tree whose root still has the
separator 2 in front of the leaf `[3]`: 2 is not a key of that leaf, and not
its first key. -/
theorem leaf_separator_bound_counterexample :
    Reachable 3 heap3d tree3d ∧
    ∃ n c lc, InTree heap3d tree3d.root tree3d.root ∧
      readNode heap3d tree3d.root = some n ∧ n.keys[0]? = some 2 ∧ n.vals[0 + 1]? = some c ∧
      readLeaf heap3d c = some lc ∧ 2 ∉ lc.keys ∧ lc.keys[0]? ≠ some 2 :=
  ⟨reach3d, ⟨3, [2], [6, 10]⟩, 10, ⟨3, [3], [30]⟩, InTree.self _, rfl, rfl, rfl, rfl,
    by decide, by decide⟩

theorem leaf_separator_bound_witness :
    Reachable 3 heap3d tree3d ∧ InTree heap3d tree3d.root 11 ∧
    readNode heap3d 11 = some ⟨3, [2], [6, 10]⟩ ∧ readLeaf heap3d 10 = some ⟨3, [3], [30]⟩ ∧
    (∃ k0, ([3] : List Nat)[0]? = some k0 ∧ 2 ≤ k0) ∧ (∀ x ∈ ([3] : List Nat), 2 ≤ x) ∧
    ∀ c0 (l0 : leafNodeS Nat Nat), ([6, 10] : List Nat)[0]? = some c0 →
      readLeaf heap3d c0 = some l0 → ∀ x ∈ l0.keys, x < 2 :=
  ⟨reach3d, InTree.self _, rfl, rfl,
    leaf_separator_bound reach3d 11 ⟨3, [2], [6, 10]⟩ (InTree.self _) rfl 0 2 10
      ⟨3, [3], [30]⟩ rfl rfl rfl⟩

theorem leaf_insert_witness :
    ([1, 3] : List Nat).Pairwise (fun x y => x < y) ∧
    ([1, 3] : List Nat).length = ([10, 30] : List Nat).length ∧
    ([1, 3] : List Nat).length < 3 ∧ 2 ∉ ([1, 3] : List Nat) ∧
    (∀ i, ([1, 3] : List Nat)[i]? = some 3 →
      (⟨3, [1, 3], [10, 30]⟩ : leafNodeS Nat Nat).insert 3 31 =
        some (⟨3, [1, 3], ([10, 30] : List Nat).set i 31⟩, false)) ∧
    ∃ i l', (⟨3, [1, 3], [10, 30]⟩ : leafNodeS Nat Nat).insert 2 20 = some (l', true) ∧
      i ≤ 2 ∧ l'.keys = ([1, 3] : List Nat).take i ++ 2 :: ([1, 3] : List Nat).drop i ∧
      l'.vals = ([10, 30] : List Nat).take i ++ 20 :: ([10, 30] : List Nat).drop i ∧
      l'.keys.length = 2 + 1 ∧ l'.keys.Pairwise (fun x y => x < y) := by
  refine ⟨by decide, rfl, by decide, by decide, ?_, ?_⟩
  · intro i hi
    exact ((leaf_insert (⟨3, [1, 3], [10, 30]⟩ : leafNodeS Nat Nat) 3 31 (by decide) rfl
      (by decide)).1 i hi).1
  · obtain ⟨i, l', hins, hi, _, _, hk, hv, _, hlen, _, hp⟩ :=
      (leaf_insert (⟨3, [1, 3], [10, 30]⟩ : leafNodeS Nat Nat) 2 20 (by decide) rfl
        (by decide)).2 (by decide)
    exact ⟨i, l', hins, hi, hk, hv, hlen, hp⟩

theorem leaf_steal_witness :
    (0 : Nat) ≠ 1 ∧ readLeaf stealHeap 0 = some ⟨3, [], []⟩ ∧
    readLeaf stealHeap 1 = some ⟨3, [1, 2], [10, 20]⟩ ∧
    (⟨3, [], []⟩ : leafNodeS Nat Nat).isToSmall = true ∧
    (∃ h' L R, leafNodeS.stealLeft stealHeap 0 1 = some h' ∧
      readLeaf h' 1 = some L ∧ readLeaf h' 0 = some R ∧
      L.keys = [1] ∧ L.vals = [10] ∧ R.keys = [2] ∧ R.vals = [20] ∧
      L.size ≥ L.halfFullSize) ∧
    (∃ h' L R, leafNodeS.stealRight stealHeap 0 1 = some h' ∧
      readLeaf h' 0 = some L ∧ readLeaf h' 1 = some R ∧
      L.keys = [1] ∧ L.vals = [10] ∧ R.keys = [2] ∧ R.vals = [20] ∧
      R.size ≥ R.halfFullSize) := by
  have key := leaf_steal (by decide : (0 : Nat) ≠ 1)
    (show readLeaf stealHeap 0 = some ⟨3, [], []⟩ from rfl)
    (show readLeaf stealHeap 1 = some ⟨3, [1, 2], [10, 20]⟩ from rfl) rfl rfl rfl
    (by decide)
  refine ⟨by decide, rfl, rfl, rfl, ?_, ?_⟩
  · obtain ⟨h', sk, sv, L, R, hs, hsk, hsv, hL, hR, hLk, hLv, hRk, hRv, _, _, _, _, _, _, _,
      _, _, hdon, _⟩ := key.1
    cases Option.some.inj hsk
    cases Option.some.inj hsv
    exact ⟨h', L, R, hs, hL, hR, hLk, hLv, hRk, hRv, hdon (by decide)⟩
  · obtain ⟨h', sk, sv, L, R, hs, hsk, hsv, hL, hR, hLk, hLv, hRk, hRv, _, _, _, _, _, _, _,
      _, _, hdon, _⟩ := key.2
    cases Option.some.inj hsk
    cases Option.some.inj hsv
    exact ⟨h', L, R, hs, hL, hR, hLk, hLv, hRk, hRv, hdon (by decide)⟩

theorem interior_insert_witness :
    ([10] : List Nat).Pairwise (fun x y => x < y) ∧
    ([1, 2] : List Nat).length = ([10] : List Nat).length + 1 ∧
    ([10] : List Nat).length < 3 ∧
    ∃ i, i ≤ 1 ∧ (∀ j x, j < i → ([10] : List Nat)[j]? = some x → ¬ 20 < x) ∧
      (∀ x, ([10] : List Nat)[i]? = some x → 20 < x) ∧
      (⟨3, [10], [1, 2]⟩ : interiorNodeS Nat).insert 20 3 =
        some ⟨3, ([10] : List Nat).take i ++ 20 :: ([10] : List Nat).drop i,
          ([1, 2] : List Nat).take (i + 1) ++ 3 :: ([1, 2] : List Nat).drop (i + 1)⟩ :=
  ⟨by decide, rfl, by decide,
    (interior_insert (V := Nat) (⟨3, [10], [1, 2]⟩ : interiorNodeS Nat) 20 3 (by decide) rfl
      (by decide)).1⟩

theorem log_height_witness :
    Reachable 3 heap3 tree3 ∧ tree3.Depth = ((0 : Nat) : Int) + 1 ∧
    3 ≤ 3 ∧ ((2 * ((3 + 1) / 2) ^ 0 * (3 / 2) : Nat) : Int) ≤ tree3.NumberOfEntries ∧
    tree3.NumberOfEntries ≤ ((3 ^ (0 + 1) * (3 - 1) : Nat) : Int) ∧
    0 ≤ Nat.log ((3 + 1) / 2) (tree3.NumberOfEntries.toNat / 2) :=
  ⟨reach3, rfl, log_height reach3 0 rfl⟩

/-- C32 as stated fails beyond `2 ^ 53`.  A leaf of order `2 ^ 53 + 2` has
`halfFullSize() = 2 ^ 52 + 1`, and `intCeil(order - 1, 2)` is `2 ^ 52`, because
`float64(2 ^ 53 + 1)` is `2 ^ 53`; an interior node of order `2 ^ 53 + 1` has
`halfFullSize() = 2 ^ 52 + 1`, and `intCeil(order, 2)` is `2 ^ 52`. -/
theorem half_full_thresholds_counterexample :
    (3 : Nat) ≤ 2 ^ 53 + 1 ∧
    (⟨2 ^ 53 + 2, [], []⟩ : leafNodeS Nat Nat).halfFullSize = 2 ^ 52 + 1 ∧
    intCeil (((⟨2 ^ 53 + 2, [], []⟩ : leafNodeS Nat Nat).order : Int) - 1) 2 = 2 ^ 52 ∧
    (⟨2 ^ 53 + 1, [], []⟩ : interiorNodeS Nat).halfFullSize = 2 ^ 52 + 1 ∧
    intCeil ((⟨2 ^ 53 + 1, [], []⟩ : interiorNodeS Nat).order : Int) 2 = 2 ^ 52 :=
  ⟨by decide, by decide, by decide, by decide, by decide⟩

theorem half_full_thresholds_witness :
    (⟨3, [1], [10]⟩ : leafNodeS Nat Nat).order ≤ 2 ^ 53 ∧
    (⟨3, [2], [6, 7]⟩ : interiorNodeS Nat).order ≤ 2 ^ 53 ∧
    (⟨3, [1], [10]⟩ : leafNodeS Nat Nat).halfFullSize = 1 ∧
    intCeil (((⟨3, [1], [10]⟩ : leafNodeS Nat Nat).order : Int) - 1) 2 =
      ((⟨3, [1], [10]⟩ : leafNodeS Nat Nat).halfFullSize : Int) ∧
    (⟨3, [2], [6, 7]⟩ : interiorNodeS Nat).halfFullSize = 2 ∧
    intCeil ((⟨3, [2], [6, 7]⟩ : interiorNodeS Nat).order : Int) 2 =
      ((⟨3, [2], [6, 7]⟩ : interiorNodeS Nat).halfFullSize : Int) :=
  ⟨by decide, by decide, rfl,
    (half_full_thresholds (⟨3, [1], [10]⟩ : leafNodeS Nat Nat)
      (⟨3, [2], [6, 7]⟩ : interiorNodeS Nat)).2.2.1 (by decide),
    rfl,
    (half_full_thresholds (⟨3, [1], [10]⟩ : leafNodeS Nat Nat)
      (⟨3, [2], [6, 7]⟩ : interiorNodeS Nat)).2.2.2.2.2 (by decide)⟩

theorem reach5 : Reachable 3 heap5 tree5 :=
  Reachable.putAll_reach [(4, 40), (0, 0)] reach3
    (show putAll heap3 tree3 [(4, 40), (0, 0)] = some (heap5, tree5, [true, true]) from rfl)

theorem steal_order_witness :
    Reachable 3 heap5 tree5 ∧ tree5.findLeaf heap5 2 = some (10, [15]) ∧
    readLeaf heap5 10 = some ⟨3, [2], [20]⟩ ∧ 2 ∈ ([2] : List Nat) ∧
    (⟨3, [2], [20]⟩ : leafNodeS Nat Nat).size - 1 <
      (⟨3, [2], [20]⟩ : leafNodeS Nat Nat).halfFullSize ∧
    readNode heap5 15 = some ⟨3, [2, 3], [14, 10, 11]⟩ ∧
    ([14, 10, 11] : List Nat)[1]? = some 10 ∧
    readLeaf heap5 14 = some ⟨3, [0, 1], [0, 10]⟩ ∧
    (⟨3, [0, 1], [0, 10]⟩ : leafNodeS Nat Nat).size >
      (⟨3, [0, 1], [0, 10]⟩ : leafNodeS Nat Nat).halfFullSize ∧
    readLeaf heap5 11 = some ⟨3, [3, 4], [30, 40]⟩ ∧
    (⟨3, [3, 4], [30, 40]⟩ : leafNodeS Nat Nat).size >
      (⟨3, [3, 4], [30, 40]⟩ : leafNodeS Nat Nat).halfFullSize ∧
    ∃ h' t', tree5.Del heap5 2 = some (h', t', 20, true) ∧
      (⟨3, [2], [20]⟩ : leafNodeS Nat Nat).remove 2 = some (⟨3, [], []⟩, 20, true) ∧
      Ext heap5 h' ∧
      ∃ np na nd, InTree h' t'.root np ∧
        readNode h' np = some ⟨3, [1, 3], [na, nd, 11]⟩ ∧
        readLeaf h' na = some ⟨3, [0], [0]⟩ ∧
        readLeaf h' nd = some ⟨3, [1], [10]⟩ ∧
        readLeaf h' 11 = some ⟨3, [3, 4], [30, 40]⟩ := by
  have hf : tree5.findLeaf heap5 2 = some (10, [15]) := rfl
  have hl : readLeaf heap5 10 = some ⟨3, [2], [20]⟩ := rfl
  have hp : readNode heap5 15 = some ⟨3, [2, 3], [14, 10, 11]⟩ := rfl
  have hrem : (⟨3, [2], [20]⟩ : leafNodeS Nat Nat).remove 2 = some (⟨3, [], []⟩, 20, true) := rfl
  have hno : ¬ ((1 : Nat) = 0 ∨ ∃ j a L, 1 = j + 1 ∧
      (⟨3, [2, 3], [14, 10, 11]⟩ : interiorNodeS Nat).vals[j]? = some a ∧
      readLeaf heap5 a = some L ∧ L.size ≤ L.halfFullSize) := by
    rintro (h0 | ⟨j, a, L, hj, ha, hL, hs⟩)
    · exact absurd h0 (by decide)
    · obtain rfl : j = 0 := by omega
      obtain rfl : 14 = a := Option.some.inj ha
      obtain rfl : (⟨3, [0, 1], [0, 10]⟩ : leafNodeS Nat Nat) = L := Option.some.inj hL
      exact absurd hs (by decide)
  obtain ⟨h', t', w, D, hdel, hD, hext, hcase⟩ :=
    steal_order reach5 (k := 2) (i := 1) hf hl (by decide) (by decide) hp rfl
  rw [hrem] at hD
  simp only [Option.some.injEq, Prod.mk.injEq, and_true] at hD
  obtain ⟨rfl, rfl⟩ := hD
  refine ⟨reach5, hf, hl, by decide, by decide, hp, rfl, rfl, by decide, rfl, by decide,
    h', t', hdel, hrem, hext, ?_⟩
  rcases hcase with ⟨j, a, L, sk, sv, hj, ha, hL, _, hsk, hsv, np, na, nd, hin, hnp, hna, hnd,
    hright⟩ | ⟨hbad, _⟩ | ⟨hbad, _⟩
  · obtain rfl : j = 0 := by omega
    obtain rfl : 14 = a := Option.some.inj ha
    obtain rfl : (⟨3, [0, 1], [0, 10]⟩ : leafNodeS Nat Nat) = L := Option.some.inj hL
    obtain rfl : 1 = sk := Option.some.inj hsk
    obtain rfl : 10 = sv := Option.some.inj hsv
    exact ⟨np, na, nd, hin, hnp, hna, hnd, (hright 11 _ rfl rfl).2⟩
  · exact absurd hbad hno
  · exact absurd hbad hno

end bptree
